import Mathlib

/-!
# DPP MAP inference: greedy log-determinant subset selection

A shallow embedding of the marginal-gain oracles (`oracle.hpp`), the selection
strategies (`strategy.hpp`), the deferred Gram matrix (`cached_gram_matrix.hpp`)
and the greedy drivers (`algorithm/*.hpp`), followed by the properties proved about them.

Modelling conventions.

* A `double` is an exact element of a linearly ordered field `α` (the reals in the
  theorems).  The special values the code can produce are kept apart: a cell that may
  still hold the initial NaN is an `Option α` (`none` is NaN); an entry of the factor `V`,
  which is the result of a division, is an `Option α` whose `none` stands for a non-finite
  result (a division by `sqrt 0`, or anything computed from such an entry); the running
  objective value is a `Value α`, where `none` is NaN and `some ⊥` is minus infinity.
* Where a result of the code turns on the rounding of an operation on doubles, the
  operation is modelled with a rounding function `fl` applied to its exact result; `fl64`
  rounds to the nearest double, ties to even (sections *Rounding to `double`*, *The
  objective value as the code accumulates it* and *The fast oracle in doubles*).
* `std::sqrt` and `std::log` on positive arguments are parameters `sqrt log : α → α`.
* Indices are natural numbers and vectors indexed by them are total functions; the
  index-range assertions of the code are preconditions of the theorems.
* An `assert` that guards undefined behaviour, and a loop that could fail to terminate,
  make the embedded function return an `Except Fault`.
* `std::unordered_set<int>` is a list without repetition whose order is the (unspecified)
  iteration order; `std::priority_queue` and the `std::*_heap` functions are modelled by
  their contract (the front is the extremal element) on an unordered list.
* Eigen's `LDLT::compute` followed by `solve` is modelled by its exact-arithmetic contract
  on an invertible matrix, `solve A b = A⁻¹ b`.
-/

namespace DPP

/-! ## Numeric layer -/

/-- A double that may be NaN (`none`) or minus infinity (`some ⊥`). -/
abbrev Value (α : Type) := Option (WithBot α)

/-- The call `std::log(x)` on a cell `x` that may be NaN: NaN for NaN and for a negative
argument, minus infinity at zero. -/
def dlog {α : Type} [LinearOrderedField α] (log : α → α) (x : Option α) : Value α :=
  match x with
  | none => none
  | some x => if x < 0 then none else if x = 0 then some ⊥ else some ((log x : α) : WithBot α)

/-- Addition of doubles, `value += x`: NaN is absorbing, then minus infinity. -/
def vadd {α : Type} [LinearOrderedField α] (a b : Value α) : Value α :=
  match a, b with
  | some a, some b => some (a + b)
  | _, _ => none

/-- The test `value == -infinity`. -/
def isNegInf {α : Type} (v : Value α) : Bool :=
  match v with
  | some none => true
  | _ => false

/-- The dot product `a.head(j).dot(b.head(j))` of two rows of `V`; non-finite as soon as
one of the entries read is non-finite. -/
def odot {α : Type} [LinearOrderedField α] (a b : Nat → Option α) : Nat → Option α
  | 0 => some 0
  | j + 1 =>
    match odot a b j, a j, b j with
    | some s, some x, some y => some (s + x * y)
    | _, _, _ => none

/-- The sub-matrix `L(S, T)`. -/
def subMatrix {α : Type} (L : Nat → Nat → α) (S T : List Nat) :
    Matrix (Fin S.length) (Fin T.length) α :=
  Matrix.of fun i j => L (S.get i) (T.get j)

/-- The sub-vector `L(S, e)`. -/
def subVector {α : Type} (L : Nat → Nat → α) (S : List Nat) (e : Nat) : Fin S.length → α :=
  fun i => L (S.get i) e

/-- The calls `ldlt.compute(A); ldlt.solve(b)` of Eigen, by their contract in exact
arithmetic: the solution `A⁻¹ b`, written with the adjugate so that it can be evaluated. -/
def ldltSolve {α : Type} [LinearOrderedField α] {m : Nat}
    (A : Matrix (Fin m) (Fin m) α) (b : Fin m → α) : Fin m → α :=
  (A.det)⁻¹ • (A.adjugate.mulVec b)

/-- What can stop an embedded function short of returning. -/
inductive Fault where
  | assertion
  | fuel
deriving DecidableEq

/-! ## The direct oracle (`struct Oracle`) -/

namespace Oracle

/-- The state of `Oracle::Instance`: `u` is the size of `S` when `d` was last computed. -/
structure Instance (α : Type) where
  u : Nat → Int
  d : Nat → Option α
  S : List Nat
  value : Value α
  num_oracle_calls : Nat

/-- The constructor `Oracle::Instance(L, k)`. -/
def construct (α : Type) [LinearOrderedField α] : Instance α :=
  { u := fun _ => -1, d := fun _ => none, S := [], value := some ((0 : α) : WithBot α),
    num_oracle_calls := 0 }

/-- The method `compute_marginal_gain_exponential(e)`.  In the branch that returns the
cached `d[e]`, `u[e]` is not `-1`, so the cell has been written (see `Oracle.Reach`);
the default of `getD` is never returned. -/
def compute_marginal_gain_exponential {α : Type} [LinearOrderedField α]
    (L : Nat → Nat → α) (o : Instance α) (e : Nat) : α × Instance α :=
  if o.u e < (o.S.length : Int) then
    let b := subVector L o.S e
    let v := max 0 (L e e - Matrix.dotProduct b (ldltSolve (subMatrix L o.S o.S) b))
    (v, { o with
            d := Function.update o.d e (some v)
            u := Function.update o.u e (o.S.length : Int)
            num_oracle_calls := o.num_oracle_calls + 1 })
  else ((o.d e).getD 0, o)

/-- The method `get_last_marginal_gain_exponential(e)`. -/
def get_last_marginal_gain_exponential {α : Type} [LinearOrderedField α]
    (L : Nat → Nat → α) (o : Instance α) (e : Nat) : α × Instance α :=
  if o.u e = -1 then
    (L e e, { o with
                d := Function.update o.d e (some (L e e))
                u := Function.update o.u e 0
                num_oracle_calls := o.num_oracle_calls + 1 })
  else ((o.d e).getD 0, o)

/-- The method `add(e)`. -/
def add {α : Type} [LinearOrderedField α] (log : α → α) (o : Instance α) (e : Nat) :
    Instance α :=
  { o with S := o.S ++ [e], value := vadd o.value (dlog log (o.d e)) }

end Oracle

/-! ## The fast oracle (`struct Fast`) -/

namespace Fast

/-- The state of `Fast::Instance`. -/
structure Instance (α : Type) where
  u : Nat → Nat
  U : Nat
  d : Nat → Option α
  V : Nat → Nat → Option α
  S : List Nat
  value : Value α
  log_computed_offdiagonals_V : Bool
  computed_offdiagonals_V : List (Nat × Nat)

/-- The constructor `Fast::Instance(L, k, log)`.  Eigen leaves `V` uninitialised; `V0` is
whatever the storage holds. -/
def construct {α : Type} [LinearOrderedField α] (V0 : Nat → Nat → Option α) (logV : Bool) :
    Instance α :=
  { u := fun _ => 0, U := 0, d := fun _ => none, V := V0, S := [],
    value := some ((0 : α) : WithBot α),
    log_computed_offdiagonals_V := logV, computed_offdiagonals_V := [] }

/-- The method `get_last_marginal_gain_exponential(e)`. -/
def get_last_marginal_gain_exponential {α : Type} [LinearOrderedField α]
    (L : Nat → Nat → α) (o : Instance α) (e : Nat) : α × Instance α :=
  match o.d e with
  | none => (L e e, { o with d := Function.update o.d e (some (L e e)) })
  | some x => (x, o)

/-- The quotient `(L(e,l) - dot) / std::sqrt(d[l])`: non-finite when the dot product is,
when `d[l]` is NaN or negative (the square root is NaN), or when `d[l]` is zero. -/
def quotient {α : Type} [LinearOrderedField α] (sqrt : α → α) (Lel : α)
    (dot : Option α) (dl : Option α) : Option α :=
  match dot, dl with
  | some s, some p => if p ≤ 0 then none else some ((Lel - s) / sqrt p)
  | _, _ => none

/-- The assignment `d[e] = std::max(0.0, d[e] - V(e,j) * V(e,j))`; `std::max(0.0, y)` is
`0.0` when `y` is NaN or minus infinity. -/
def residual {α : Type} [LinearOrderedField α] (x : α) (v : Option α) : α :=
  match v with
  | some v => max 0 (x - v * v)
  | none => 0

/-- One iteration of the loop of `compute_marginal_gain_exponential`, at `j = u[e]`
(the loop guard gives `j < S.size()`); `x` is the current `d[e]`. -/
def step {α : Type} [LinearOrderedField α] (sqrt : α → α) (L : Nat → Nat → α)
    (o : Instance α) (e : Nat) (x : α) : α × Instance α :=
  let j := o.u e
  let l := o.S.getD j 0
  let v := quotient sqrt (L e l) (odot (o.V e) (o.V l) j) (o.d l)
  let x1 := residual x v
  (x1, { o with
           V := Function.update o.V e (Function.update (o.V e) j v)
           d := Function.update o.d e (some x1)
           u := Function.update o.u e (j + 1)
           U := o.U + 1
           computed_offdiagonals_V :=
             if o.log_computed_offdiagonals_V then o.computed_offdiagonals_V ++ [(e, l)]
             else o.computed_offdiagonals_V })

/-- The loop `for(j = u[e]; j < S.size(); j++)`, run for its `S.size() - u[e]` iterations. -/
def loop {α : Type} [LinearOrderedField α] (sqrt : α → α) (L : Nat → Nat → α) :
    Nat → Instance α → Nat → α → α × Instance α
  | 0, o, _, x => (x, o)
  | k + 1, o, e, x => loop sqrt L k (step sqrt L o e x).2 e (step sqrt L o e x).1

/-- The method `compute_marginal_gain_exponential(e)`. -/
def compute_marginal_gain_exponential {α : Type} [LinearOrderedField α] (sqrt : α → α)
    (L : Nat → Nat → α) (o : Instance α) (e : Nat) : α × Instance α :=
  let r := get_last_marginal_gain_exponential L o e
  loop sqrt L (r.2.S.length - r.2.u e) r.2 e r.1

/-- The method `add(e)`. -/
def add {α : Type} [LinearOrderedField α] (log : α → α) (o : Instance α) (e : Nat) :
    Instance α :=
  { o with S := o.S ++ [e], value := vadd o.value (dlog log (o.d e)) }

end Fast

/-- The operations a strategy or a driver uses of its oracle type `O`; `construct` takes
the budget `k` and the logging flag. -/
structure OracleOps (σ α : Type) where
  construct : Nat → Bool → σ
  compute_marginal_gain_exponential : σ → Nat → α × σ
  get_last_marginal_gain_exponential : σ → Nat → α × σ
  add : σ → Nat → σ
  get_solution : σ → List Nat
  get_value : σ → Value α
  get_num_oracle_calls : σ → Nat
  get_num_computed_offdiagonals_V : σ → Nat
  get_computed_offdiagonals_V : σ → List (Nat × Nat)
  clear_computed_offdiagonals_V : σ → σ

/-- The direct oracle over the matrix `L`. -/
def Oracle.ops {α : Type} [LinearOrderedField α] (log : α → α) (L : Nat → Nat → α) :
    OracleOps (Oracle.Instance α) α :=
  { construct := fun _ _ => Oracle.construct α
    compute_marginal_gain_exponential := Oracle.compute_marginal_gain_exponential L
    get_last_marginal_gain_exponential := Oracle.get_last_marginal_gain_exponential L
    add := Oracle.add log
    get_solution := fun o => o.S
    get_value := fun o => o.value
    get_num_oracle_calls := fun o => o.num_oracle_calls
    get_num_computed_offdiagonals_V := fun _ => 0
    get_computed_offdiagonals_V := fun _ => []
    clear_computed_offdiagonals_V := fun o => o }

/-- The fast oracle over the matrix `L`; `V0` is the content of the uninitialised
storage of `V`. -/
def Fast.ops {α : Type} [LinearOrderedField α] (sqrt log : α → α)
    (V0 : Nat → Nat → Option α) (L : Nat → Nat → α) : OracleOps (Fast.Instance α) α :=
  { construct := fun _ logV => Fast.construct V0 logV
    compute_marginal_gain_exponential := Fast.compute_marginal_gain_exponential sqrt L
    get_last_marginal_gain_exponential := Fast.get_last_marginal_gain_exponential L
    add := Fast.add log
    get_solution := fun o => o.S
    get_value := fun o => o.value
    get_num_oracle_calls := fun _ => 0
    get_num_computed_offdiagonals_V := fun o => o.U
    get_computed_offdiagonals_V := fun o => o.computed_offdiagonals_V
    clear_computed_offdiagonals_V := fun o => { o with computed_offdiagonals_V := [] } }

/-! ## Element-value pairs and the heap contract (`utility.hpp`) -/

/-- The struct `ElementValuePair`. -/
structure ElementValuePair (α : Type) where
  element : Nat
  value : α
deriving DecidableEq

/-- The comparison `operator<` of `ElementValuePair`: the lexicographic order of
`std::pair(value, -element)`. -/
def ElementValuePair.less {α : Type} [LinearOrderedField α] (a b : ElementValuePair α) : Bool :=
  decide (a.value < b.value) || (!decide (b.value < a.value) && decide (b.element < a.element))

/-- The comparison `operator>` of `ElementValuePair`, which `std::greater` calls. -/
def ElementValuePair.greater {α : Type} [LinearOrderedField α] (a b : ElementValuePair α) :
    Bool :=
  decide (b.value < a.value) || (!decide (a.value < b.value) && decide (a.element < b.element))

/-- The front of a max-heap ordered by `operator<` (`Q.top()` of a `std::priority_queue`):
an entry that is less than no other entry. -/
def heapTop {α : Type} [LinearOrderedField α] : List (ElementValuePair α) →
    Option (ElementValuePair α)
  | [] => none
  | x :: xs =>
    match heapTop xs with
    | none => some x
    | some m => if m.less x then some x else some m

/-- The front of a heap ordered by `std::greater` (`min_heap[0]`): an entry that is greater
than no other entry. -/
def heapMin {α : Type} [LinearOrderedField α] : List (ElementValuePair α) →
    Option (ElementValuePair α)
  | [] => none
  | x :: xs =>
    match heapMin xs with
    | none => some x
    | some m => if m.greater x then some x else some m

/-! ## The non-lazy strategy (`struct NonLazy`) -/

namespace NonLazy

/-- The state of `NonLazy::Instance`; `T` lists the set in its iteration order.  The
member `min_heap` is scratch storage, rebuilt by every call. -/
structure Instance where
  T : List Nat
  add_dummy : Bool

/-- The constructor: `T(begin, end)`; `ord` gives the iteration order of the set built
from a range. -/
def construct {σ : Type} (ord : List Nat → List Nat) (range : List Nat) (add_dummy : Bool)
    (o : σ) : Instance × σ :=
  ({ T := ord range, add_dummy := add_dummy }, o)

/-- The first loop of `pop_kth_largest`: the pairs of the first `i + 1` elements. -/
def fill {σ α : Type} (ops : OracleOps σ α) :
    List Nat → σ → List (ElementValuePair α) × σ
  | [], o => ([], o)
  | e :: es, o =>
    let r := ops.compute_marginal_gain_exponential o e
    let rest := fill ops es r.2
    ({ element := e, value := r.1 } :: rest.1, rest.2)

/-- The second loop of `pop_kth_largest`: every further element replaces the front of the
heap when the front is less than it (`pop_heap`, overwrite the last slot, `push_heap`). -/
def scan {σ α : Type} [LinearOrderedField α] (ops : OracleOps σ α) :
    List Nat → List (ElementValuePair α) → σ → List (ElementValuePair α) × σ
  | [], h, o => (h, o)
  | e :: es, h, o =>
    let r := ops.compute_marginal_gain_exponential o e
    let next : ElementValuePair α := { element := e, value := r.1 }
    match heapMin h with
    | none => scan ops es h r.2
    | some m => if m.less next then scan ops es (next :: h.erase m) r.2 else scan ops es h r.2

/-- The method `remove(e)`. -/
def remove (s : Instance) (e : Nat) : Except Fault Instance :=
  if e ∈ s.T then .ok { s with T := s.T.erase e } else .error .assertion

/-- The method `pop_kth_largest(i)`. -/
def pop_kth_largest {σ α : Type} [LinearOrderedField α] (ops : OracleOps σ α)
    (s : Instance) (o : σ) (i : Nat) : Except Fault (Option Nat × Instance × σ) :=
  if !(s.add_dummy || decide (i < s.T.length)) then .error .assertion
  else if s.add_dummy && decide (s.T.length ≤ i) then .ok (none, s, o)
  else
    let f := fill ops (s.T.take (i + 1)) o
    let r := scan ops (s.T.drop (i + 1)) f.1 f.2
    match heapMin r.1 with
    | none => .error .assertion
    | some root =>
      if s.add_dummy && decide (root.value ≤ 1) then .ok (none, s, r.2)
      else
        match remove s root.element with
        | .error f => .error f
        | .ok s1 => .ok (some root.element, s1, r.2)

/-- The method `pop_largest()`. -/
def pop_largest {σ α : Type} [LinearOrderedField α] (ops : OracleOps σ α)
    (s : Instance) (o : σ) : Except Fault (Option Nat × Instance × σ) :=
  pop_kth_largest ops s o 0

end NonLazy

/-! ## The lazy strategy (`struct Lazy`) -/

namespace Lazy

/-- The state of `Lazy::Instance`; the member `recover` is scratch storage, cleared by
every call of `pop_kth_largest`. -/
structure Instance (α : Type) where
  T : List Nat
  add_dummy : Bool
  Q : List (ElementValuePair α)

/-- The `transform` of the constructor: one entry per element, from
`get_last_marginal_gain_exponential`. -/
def entries {σ α : Type} (ops : OracleOps σ α) :
    List Nat → σ → List (ElementValuePair α) × σ
  | [], o => ([], o)
  | e :: es, o =>
    let r := ops.get_last_marginal_gain_exponential o e
    let rest := entries ops es r.2
    ({ element := e, value := r.1 } :: rest.1, rest.2)

/-- The constructor. -/
def construct {σ α : Type} (ops : OracleOps σ α) (ord : List Nat → List Nat)
    (range : List Nat) (add_dummy : Bool) (o : σ) : Instance α × σ :=
  let r := entries ops (ord range) o
  ({ T := ord range, add_dummy := add_dummy, Q := r.1 }, r.2)

/-- The method `remove(e)`. -/
def remove {α : Type} (s : Instance α) (e : Nat) : Except Fault (Instance α) :=
  if e ∈ s.T then .ok { s with T := s.T.erase e } else .error .assertion

/-- The test `Q.empty() || v >= Q.top().value` of `pop_largest()`. -/
def commit {α : Type} [LinearOrderedField α] (Q : List (ElementValuePair α)) (v : α) : Bool :=
  match heapTop Q with
  | none => true
  | some t => decide (t.value ≤ v)

/-- The loop of `pop_largest()`, one iteration per unit of fuel. -/
def pop_largest_loop {σ α : Type} [LinearOrderedField α] (ops : OracleOps σ α) :
    Nat → Instance α → σ → Except Fault (Option Nat × Instance α × σ)
  | 0, _, _ => .error .fuel
  | fuel + 1, s, o =>
    match heapTop s.Q with
    | none => if s.add_dummy then .ok (none, s, o) else .error .assertion
    | some top =>
      if s.add_dummy && decide (top.value ≤ 1) then .ok (none, s, o)
      else if top.element ∉ s.T then
        pop_largest_loop ops fuel { s with Q := s.Q.erase top } o
      else
        let r := ops.compute_marginal_gain_exponential o top.element
        if commit (s.Q.erase top) r.1 then
          if s.add_dummy && decide (r.1 ≤ 1) then .ok (none, { s with Q := s.Q.erase top }, r.2)
          else
            .ok (some top.element,
                 { s with Q := s.Q.erase top, T := s.T.erase top.element }, r.2)
        else
          pop_largest_loop ops fuel
            { s with Q := { element := top.element, value := r.1 } :: s.Q.erase top } r.2

/-- The method `pop_largest()`.  An iteration either discards or refreshes an entry, or
returns, so that `Q.size() + 1` iterations are enough when the oracle repeats its
answers. -/
def pop_largest {σ α : Type} [LinearOrderedField α] (ops : OracleOps σ α)
    (s : Instance α) (o : σ) : Except Fault (Option Nat × Instance α × σ) :=
  pop_largest_loop ops (s.Q.length + 1) s o

/-- The first loop of `pop_kth_largest`: up to `i` calls of `pop_largest`, collected in
`recover`, stopping at the first that returns nothing. -/
def pop_recover {σ α : Type} [LinearOrderedField α] (ops : OracleOps σ α) :
    Nat → Instance α → σ → List Nat → Except Fault (List Nat × Instance α × σ)
  | 0, s, o, rec => .ok (rec, s, o)
  | j + 1, s, o, rec =>
    match pop_largest ops s o with
    | .error f => .error f
    | .ok (none, s1, o1) => .ok (rec, s1, o1)
    | .ok (some e, s1, o1) => pop_recover ops j s1 o1 (rec ++ [e])

/-- The last loop of `pop_kth_largest`: the recovered elements go back into the heap with
their last computed gains. -/
def push_recover {σ α : Type} (ops : OracleOps σ α) :
    List Nat → List (ElementValuePair α) → σ → List (ElementValuePair α) × σ
  | [], q, o => (q, o)
  | e :: es, q, o =>
    let r := ops.get_last_marginal_gain_exponential o e
    push_recover ops es ({ element := e, value := r.1 } :: q) r.2

/-- The method `pop_kth_largest(i)`. -/
def pop_kth_largest {σ α : Type} [LinearOrderedField α] (ops : OracleOps σ α)
    (s : Instance α) (o : σ) (i : Nat) : Except Fault (Option Nat × Instance α × σ) :=
  if !(s.add_dummy || decide (i < s.T.length)) then .error .assertion
  else
    match pop_recover ops i s o [] with
    | .error f => .error f
    | .ok (rec, s1, o1) =>
      match pop_largest ops s1 o1 with
      | .error f => .error f
      | .ok (ret, s2, o2) =>
        let q := push_recover ops rec s2.Q o2
        .ok (ret, { s2 with T := s2.T ++ rec, Q := q.1 }, q.2)

end Lazy

/-- The operations a driver uses of its strategy type `S`. -/
structure StrategyOps (τ σ α : Type) where
  construct : List Nat → Bool → σ → τ × σ
  pop_largest : τ → σ → Except Fault (Option Nat × τ × σ)
  pop_kth_largest : τ → σ → Nat → Except Fault (Option Nat × τ × σ)
  remove : τ → Nat → Except Fault τ

/-- The strategy `NonLazy` over an oracle. -/
def NonLazy.ops {σ α : Type} [LinearOrderedField α] (ord : List Nat → List Nat)
    (ops : OracleOps σ α) : StrategyOps NonLazy.Instance σ α :=
  { construct := NonLazy.construct ord
    pop_largest := NonLazy.pop_largest ops
    pop_kth_largest := NonLazy.pop_kth_largest ops
    remove := NonLazy.remove }

/-- The strategy `Lazy` over an oracle. -/
def Lazy.ops {σ α : Type} [LinearOrderedField α] (ord : List Nat → List Nat)
    (ops : OracleOps σ α) : StrategyOps (Lazy.Instance α) σ α :=
  { construct := Lazy.construct ops ord
    pop_largest := Lazy.pop_largest ops
    pop_kth_largest := Lazy.pop_kth_largest ops
    remove := Lazy.remove }

/-! ## Results (`result.hpp`, `param.hpp`) -/

/-- The struct `Param`; the seed is represented by the stream of raw outputs of the
engine it seeds, which the drivers take as an argument of their own. -/
structure Param (α : Type) where
  time_limit : WithTop α
  log_computed_offdiagonals_V : Bool

/-- The struct `Measurement`. -/
structure Measurement (α : Type) where
  time : α
  num_computed_entries_L : Nat
  num_oracle_calls : Nat
  num_computed_offdiagonals_V : Nat
  computed_offdiagonals_V : List (Nat × Nat)

/-- The struct `Result`. -/
structure Result (α : Type) extends Measurement α where
  finished : Bool
  solution : List Nat
  value : Value α

/-- The value `Result::unfinished()`, also built in place by the single-shot drivers. -/
def Result.unfinished {α : Type} [LinearOrderedField α] : Result α :=
  { finished := false, solution := [], value := some ((0 : α) : WithBot α), time := 0,
    num_computed_entries_L := 0, num_oracle_calls := 0, num_computed_offdiagonals_V := 0,
    computed_offdiagonals_V := [] }

/-- The struct `OptionalElementValuePair`. -/
structure OptionalElementValuePair (α : Type) where
  element : Option Nat
  value : Value α

/-- The test `time > param.time_limit`. -/
def expired {α : Type} [LinearOrderedField α] (param : Param α) (time : α) : Bool :=
  decide (param.time_limit < (time : WithTop α))

/-! ## Plain greedy (`algorithm/greedy.hpp`) -/

/-- The class `GreedyResult`. -/
structure GreedyResult (α : Type) where
  element_value_pairs : List (OptionalElementValuePair α)
  measurements : List (Measurement α)
  finished : Bool

namespace GreedyResult

/-- The method `add`. -/
def add {α : Type} (r : GreedyResult α) (element : Option Nat) (value : Value α) (time : α)
    (entries_L calls offdiag : Nat) (offdiags : List (Nat × Nat)) : GreedyResult α :=
  { r with
      element_value_pairs := r.element_value_pairs ++ [{ element := element, value := value }]
      measurements := r.measurements ++
        [{ time := time, num_computed_entries_L := entries_L, num_oracle_calls := calls,
           num_computed_offdiagonals_V := offdiag, computed_offdiagonals_V := offdiags }] }

/-- The constructor, which records the empty solution. -/
def init (α : Type) [LinearOrderedField α] : GreedyResult α :=
  add { element_value_pairs := [], measurements := [], finished := false }
    none (some ((0 : α) : WithBot α)) 0 0 0 0 []

/-- The method `size()`. -/
def size {α : Type} (r : GreedyResult α) : Nat := r.measurements.length

/-- The loop of `operator[]` that fills `sol`: the elements recorded at steps `1..k`. -/
def sol {α : Type} (r : GreedyResult α) : Nat → Except Fault (List Nat)
  | 0 => .ok []
  | i + 1 =>
    match sol r i, r.element_value_pairs.get? (i + 1) with
    | .ok l, some { element := some e, value := _ } => .ok (l ++ [e])
    | .error f, _ => .error f
    | _, _ => .error .assertion

/-- The method `operator[](k)`. -/
def get {α : Type} [LinearOrderedField α] (r : GreedyResult α) (k : Nat) :
    Except Fault (Result α) :=
  if r.size ≤ k then .ok Result.unfinished
  else
    match sol r k, r.element_value_pairs.get? k, r.measurements.get? k with
    | .ok l, some p, some m =>
      .ok { finished := true, solution := l, value := p.value, time := m.time,
            num_computed_entries_L := m.num_computed_entries_L,
            num_oracle_calls := m.num_oracle_calls,
            num_computed_offdiagonals_V := m.num_computed_offdiagonals_V,
            computed_offdiagonals_V :=
              (r.measurements.map fun x => x.computed_offdiagonals_V).flatten }
    | .error f, _, _ => .error f
    | _, _, _ => .error .assertion

/-- The method `last()`. -/
def last {α : Type} [LinearOrderedField α] (r : GreedyResult α) : Except Fault (Result α) :=
  r.get (r.size - 1)

end GreedyResult

/-- The loop of `greedy`, with `m` iterations left at step `t`; `clock t` is what
`timer.get()` returns at step `t`.  The matrix is dense, so that
`get_num_computed_entries(L)` is `0`. -/
def greedy_loop {τ σ α : Type} [LinearOrderedField α] (sops : StrategyOps τ σ α)
    (oops : OracleOps σ α) (param : Param α) (clock : Nat → α) :
    Nat → Nat → τ → σ → GreedyResult α → Except Fault (GreedyResult α)
  | 0, _, _, _, res => .ok { res with finished := true }
  | m + 1, t, s, o, res =>
    match sops.pop_largest s o with
    | .error f => .error f
    | .ok (none, _, _) => .error .assertion
    | .ok (some e, s1, o1) =>
      let o2 := oops.add o1 e
      let time := clock t
      let res1 := res.add (some e) (oops.get_value o2) time 0 (oops.get_num_oracle_calls o2)
        (oops.get_num_computed_offdiagonals_V o2) (oops.get_computed_offdiagonals_V o2)
      if expired param time || isNegInf (oops.get_value o2) then .ok res1
      else
        greedy_loop sops oops param clock m (t + 1) s1
          (if param.log_computed_offdiagonals_V then oops.clear_computed_offdiagonals_V o2
           else o2) res1

/-- The function `greedy<S, O>(L, k, param)` on an `n × n` matrix. -/
def greedy {τ σ α : Type} [LinearOrderedField α] (sops : StrategyOps τ σ α)
    (oops : OracleOps σ α) (n k : Nat) (param : Param α) (clock : Nat → α) :
    Except Fault (GreedyResult α) :=
  if !decide (k ≤ n) then .error .assertion
  else
    let oracle := oops.construct k param.log_computed_offdiagonals_V
    let strategy := sops.construct (List.range n) false oracle
    greedy_loop sops oops param clock k 0 strategy.1 strategy.2 (GreedyResult.init α)

/-! ## Random greedy (`algorithm/random_greedy.hpp`) -/

/-- A draw of `uniform_int_distribution(lo, hi)` from the raw output `raw` of the engine:
some value of `[lo, hi]`, and every value of it for a suitable `raw`. -/
def uniform_int (lo hi raw : Nat) : Nat := lo + raw % (hi - lo + 1)

/-- The result a single-shot driver returns when its loop has run to the end. -/
def final_result {σ α : Type} (oops : OracleOps σ α) (o : σ) (time : α) : Result α :=
  { finished := true, solution := oops.get_solution o, value := oops.get_value o,
    time := time, num_computed_entries_L := 0,
    num_oracle_calls := oops.get_num_oracle_calls o,
    num_computed_offdiagonals_V := oops.get_num_computed_offdiagonals_V o,
    computed_offdiagonals_V := oops.get_computed_offdiagonals_V o }

/-- The loop of `random_greedy`, with `m` iterations left at step `t`; `rng t` is the raw
output of the engine at step `t`. -/
def random_greedy_loop {τ σ α : Type} [LinearOrderedField α] (sops : StrategyOps τ σ α)
    (oops : OracleOps σ α) (k : Nat) (param : Param α) (clock : Nat → α) (rng : Nat → Nat) :
    Nat → Nat → τ → σ → Except Fault (Result α)
  | 0, _, _, o => .ok (final_result oops o (clock k))
  | m + 1, t, s, o =>
    match sops.pop_kth_largest s o (uniform_int 0 (max 0 (k - 1)) (rng t)) with
    | .error f => .error f
    | .ok (r, s1, o1) =>
      let o2 := match r with
        | some e => oops.add o1 e
        | none => o1
      if expired param (clock t) then .ok Result.unfinished
      else random_greedy_loop sops oops k param clock rng m (t + 1) s1 o2

/-- The function `random_greedy<S, O>(L, k, param)` on an `n × n` matrix. -/
def random_greedy {τ σ α : Type} [LinearOrderedField α] (sops : StrategyOps τ σ α)
    (oops : OracleOps σ α) (n k : Nat) (param : Param α) (clock : Nat → α)
    (rng : Nat → Nat) : Except Fault (Result α) :=
  if !decide (k ≤ n) then .error .assertion
  else
    let oracle := oops.construct k param.log_computed_offdiagonals_V
    let strategy := sops.construct (List.range n) true oracle
    random_greedy_loop sops oops k param clock rng k 0 strategy.1 strategy.2

/-! ## Stochastic greedy (`algorithm/stochastic_greedy.hpp`) -/

/-- The function `swap_T(i, j, T, T_inv)`; the positions are in range in every call the
driver makes. -/
def swap_T (i j : Nat) (T : List Nat) (T_inv : Nat → Int) : List Nat × (Nat → Int) :=
  let T1 := (T.set i (T.getD j 0)).set j (T.getD i 0)
  let a := T1.getD i 0
  let b := T1.getD j 0
  (T1, Function.update (Function.update T_inv a (T_inv b)) b (T_inv a))

/-- The function `remove_T(e, T, T_inv)`. -/
def remove_T (e : Nat) (T : List Nat) (T_inv : Nat → Int) : List Nat × (Nat → Int) :=
  let r := swap_T (T_inv e).toNat (T.length - 1) T T_inv
  (r.1.dropLast, Function.update r.2 e (-1))

/-- The function `fisher_yates_shuffle(T, T_inv, k, engine)`, from iteration `i` on with
`m` iterations left; the engine is the stream `rng` read from position `pos`. -/
def fisher_yates_loop (rng : Nat → Nat) :
    Nat → Nat → Nat → List Nat → (Nat → Int) → List Nat × (Nat → Int) × Nat
  | 0, _, pos, T, T_inv => (T, T_inv, pos)
  | m + 1, i, pos, T, T_inv =>
    let j := uniform_int i (T.length - 1) (rng pos)
    let r := swap_T i j T T_inv
    fisher_yates_loop rng m (i + 1) (pos + 1) r.1 r.2

/-- The function `fisher_yates_shuffle(T, T_inv, k, engine)`. -/
def fisher_yates_shuffle (rng : Nat → Nat) (k pos : Nat) (T : List Nat) (T_inv : Nat → Int) :
    List Nat × (Nat → Int) × Nat :=
  fisher_yates_loop rng k 0 pos T T_inv

/-- The loop of `stochastic_greedy`, with `m` iterations left at step `t`. -/
def stochastic_greedy_loop {τ σ α : Type} [LinearOrderedField α] (sops : StrategyOps τ σ α)
    (oops : OracleOps σ α) (n k s : Nat) (param : Param α) (clock : Nat → α)
    (rng : Nat → Nat) :
    Nat → Nat → Nat → List Nat → (Nat → Int) → σ → Except Fault (Result α)
  | 0, _, _, _, _, o => .ok (final_result oops o (clock k))
  | m + 1, t, pos, T, T_inv, o =>
    let current_s := min s (n - (oops.get_solution o).length)
    let sh := fisher_yates_shuffle rng current_s pos T T_inv
    let strategy := sops.construct (sh.1.take current_s) false o
    match sops.pop_largest strategy.1 strategy.2 with
    | .error f => .error f
    | .ok (r, _, o1) =>
      let st : σ × List Nat × (Nat → Int) := match r with
        | some e => (oops.add o1 e, remove_T e sh.1 sh.2.1)
        | none => (o1, sh.1, sh.2.1)
      if expired param (clock t) then .ok Result.unfinished
      else
        stochastic_greedy_loop sops oops n k s param clock rng m (t + 1) sh.2.2
          st.2.1 st.2.2 st.1

/-- The function `stochastic_greedy<S, O>(L, k, param)` on an `n × n` matrix, with
`eps = 0.5`. -/
def stochastic_greedy {τ σ α : Type} [LinearOrderedField α] [FloorRing α] (log : α → α)
    (sops : StrategyOps τ σ α) (oops : OracleOps σ α) (n k : Nat) (param : Param α)
    (clock : Nat → α) (rng : Nat → Nat) : Except Fault (Result α) :=
  if !decide (k ≤ n) then .error .assertion
  else
    let s := Nat.ceil ((n : α) / (k : α) * log (1 / (1 / 2)))
    let oracle := oops.construct k param.log_computed_offdiagonals_V
    stochastic_greedy_loop sops oops n k s param clock rng k 0 0 (List.range n)
      (fun e => (e : Int)) oracle

/-! ## Double greedy (`algorithm/double_greedy.hpp`) -/

/-- A draw of `boost::random::bernoulli_distribution{p}` from the raw 32-bit output `raw`
of the engine: never with `p = 0`, always with `p = 1`. -/
def bernoulli {α : Type} [LinearOrderedField α] (p : α) (raw : Nat) : Bool :=
  if p = 0 then false else decide (((raw % 2 ^ 32 : Nat) : α) ≤ p * ((2 ^ 32 - 1 : Nat) : α))

/-- The loop of `double_greedy`, with `m` iterations left at element `i`. -/
def double_greedy_loop {σ α : Type} [LinearOrderedField α] (log : α → α)
    (oops oops_inv : OracleOps σ α) (n : Nat) (param : Param α) (clock : Nat → α)
    (rng : Nat → Nat) : Nat → Nat → σ → σ → Except Fault (Result α)
  | 0, _, o, oi =>
    .ok { finished := true, solution := oops.get_solution o, value := oops.get_value o,
          time := clock n, num_computed_entries_L := 0,
          num_oracle_calls := oops.get_num_oracle_calls o + oops_inv.get_num_oracle_calls oi,
          num_computed_offdiagonals_V :=
            oops.get_num_computed_offdiagonals_V o + oops_inv.get_num_computed_offdiagonals_V oi,
          computed_offdiagonals_V := [] }
  | m + 1, i, o, oi =>
    let r := oops.compute_marginal_gain_exponential o i
    let mg := if 1 < r.1 then log r.1 else 0
    let ri := oops_inv.compute_marginal_gain_exponential oi i
    let mg_inv := if 1 < ri.1 then log ri.1 else 0
    let p := if mg = 0 ∧ mg_inv = 0 then 1 else mg / (mg + mg_inv)
    let st : σ × σ := if bernoulli p (rng i) then (oops.add r.2 i, ri.2)
      else (r.2, oops_inv.add ri.2 i)
    if expired param (clock i) then .ok Result.unfinished
    else double_greedy_loop log oops oops_inv n param clock rng m (i + 1) st.1 st.2

/-- The function `double_greedy<O>(L, L_inv, param)` on `n × n` matrices; `oops` is the
oracle over `L` and `oops_inv` the oracle over `L_inv`. -/
def double_greedy {σ α : Type} [LinearOrderedField α] (log : α → α)
    (oops oops_inv : OracleOps σ α) (n : Nat) (param : Param α) (clock : Nat → α)
    (rng : Nat → Nat) : Except Fault (Result α) :=
  double_greedy_loop log oops oops_inv n param clock rng n 0 (oops.construct n false)
    (oops_inv.construct n false)

/-! ## Interlace greedy (`algorithm/interlace_greedy.hpp`) -/

/-- The comparison `<` of two doubles that may be NaN or minus infinity. -/
def vlt {α : Type} [LinearOrderedField α] (a b : Value α) : Bool :=
  match a, b with
  | some x, some y => decide (x < y)
  | _, _ => false

/-- The comparison `operator<` of `ElementValuePair` on the entries of `maxima`, whose
values are objective values. -/
def maxima_less {α : Type} [LinearOrderedField α] (a b : Nat × Value α) : Bool :=
  vlt a.2 b.2 || (!vlt b.2 a.2 && decide (b.1 < a.1))

/-- The class `InterlaceResult`. -/
structure InterlaceResult (α : Type) where
  quadruples : List (Fin 4 → OptionalElementValuePair α)
  measurements : List (Measurement α)
  finished : Bool

namespace InterlaceResult

/-- The method `add`. -/
def add {α : Type} (r : InterlaceResult α) (elements : Fin 4 → Option Nat)
    (values : Fin 4 → Value α) (time : α) (entries_L calls offdiag : Nat) :
    InterlaceResult α :=
  { r with
      quadruples := r.quadruples ++
        [fun f => { element := elements f, value := values f }]
      measurements := r.measurements ++
        [{ time := time, num_computed_entries_L := entries_L, num_oracle_calls := calls,
           num_computed_offdiagonals_V := offdiag, computed_offdiagonals_V := [] }] }

/-- The constructor, which records the four empty solutions. -/
def init (α : Type) [LinearOrderedField α] : InterlaceResult α :=
  add { quadruples := [], measurements := [], finished := false }
    (fun _ => none) (fun _ => some ((0 : α) : WithBot α)) 0 0 0 0

/-- The method `size()`. -/
def size {α : Type} (r : InterlaceResult α) : Nat := r.measurements.length

/-- The entry `maxima[f]` that `get_max(k)` computes: the value of chain `f` at step `k`
and, by `std::partition_point` on a range partitioned by the predicate, the number of
leading steps before `k` whose value is less. -/
def maxima {α : Type} [LinearOrderedField α] (r : InterlaceResult α) (k : Nat) (f : Fin 4) :
    Nat × Value α :=
  let v := match r.quadruples.get? k with
    | some q => (q f).value
    | none => none
  (((r.quadruples.take k).takeWhile fun q => vlt (q f).value v).length, v)

/-- The call `std::max_element(maxima, maxima + 4)`: the first entry that no later entry
exceeds. -/
def max_element {α : Type} [LinearOrderedField α] (m : Fin 4 → Nat × Value α) : Fin 4 :=
  let b1 : Fin 4 := if maxima_less (m 0) (m 1) then 1 else 0
  let b2 : Fin 4 := if maxima_less (m b1) (m 2) then 2 else b1
  if maxima_less (m b2) (m 3) then 3 else b2

/-- The method `get_max(k)`. -/
def get_max {α : Type} [LinearOrderedField α] (r : InterlaceResult α) (k : Nat) :
    Except Fault (Fin 4 × Nat × Value α) :=
  if k < r.size then
    let f := max_element (maxima r k)
    .ok (f, (maxima r k f).1, (maxima r k f).2)
  else .error .assertion

/-- The loop of `operator[]` that fills `sol`: the elements chain `f` recorded at steps
`1..t`. -/
def sol {α : Type} (r : InterlaceResult α) (f : Fin 4) : Nat → Except Fault (List Nat)
  | 0 => .ok []
  | i + 1 =>
    match sol r f i, r.quadruples.get? (i + 1) with
    | .ok l, some q =>
      match (q f).element with
      | some e => .ok (l ++ [e])
      | none => .error .assertion
    | .error e, _ => .error e
    | _, _ => .error .assertion

/-- The method `operator[](k)`. -/
def get {α : Type} [LinearOrderedField α] (r : InterlaceResult α) (k : Nat) :
    Except Fault (Result α) :=
  if r.size ≤ k then .ok Result.unfinished
  else
    match get_max r k with
    | .error e => .error e
    | .ok (f, t, v) =>
      match sol r f t, r.measurements.get? k with
      | .ok l, some m =>
        .ok { finished := true, solution := l, value := v, time := m.time,
              num_computed_entries_L := m.num_computed_entries_L,
              num_oracle_calls := m.num_oracle_calls,
              num_computed_offdiagonals_V := m.num_computed_offdiagonals_V,
              computed_offdiagonals_V := [] }
      | .error e, _ => .error e
      | _, _ => .error .assertion

/-- The method `last()`. -/
def last {α : Type} [LinearOrderedField α] (r : InterlaceResult α) : Except Fault (Result α) :=
  r.get (r.size - 1)

end InterlaceResult

/-- A chain of interlace greedy: a strategy and the oracle it refers to. -/
structure Chain (τ σ : Type) where
  strategy : τ
  oracle : σ

/-- One half of `interlace_subroutine`: chain `a` pops its largest element, commits it and
removes it from the ground set of chain `b`. -/
def interlace_half {τ σ α : Type} (sops : StrategyOps τ σ α) (oops : OracleOps σ α)
    (a b : Chain τ σ) : Except Fault (Option Nat × Chain τ σ × Chain τ σ) :=
  match sops.pop_largest a.strategy a.oracle with
  | .error f => .error f
  | .ok (none, s1, o1) => .ok (none, { strategy := s1, oracle := o1 }, b)
  | .ok (some e, s1, o1) =>
    match sops.remove b.strategy e with
    | .error f => .error f
    | .ok sb => .ok (some e, { strategy := s1, oracle := oops.add o1 e }, { b with strategy := sb })

/-- The function `interlace_subroutine(strategy_A, strategy_B, oracle_A, oracle_B)`. -/
def interlace_subroutine {τ σ α : Type} (sops : StrategyOps τ σ α) (oops : OracleOps σ α)
    (a b : Chain τ σ) : Except Fault ((Option Nat × Option Nat) × Chain τ σ × Chain τ σ) :=
  match interlace_half sops oops a b with
  | .error f => .error f
  | .ok (ea, a1, b1) =>
    match interlace_half sops oops b1 a1 with
    | .error f => .error f
    | .ok (eb, b2, a2) => .ok ((ea, eb), a2, b2)

/-- The branch `t == 0` for the chains 2 and 3: each pops and commits on its own. -/
def interlace_first {τ σ α : Type} (sops : StrategyOps τ σ α) (oops : OracleOps σ α)
    (a : Chain τ σ) : Except Fault (Option Nat × Chain τ σ) :=
  match sops.pop_largest a.strategy a.oracle with
  | .error f => .error f
  | .ok (none, s1, o1) => .ok (none, { strategy := s1, oracle := o1 })
  | .ok (some e, s1, o1) => .ok (some e, { strategy := s1, oracle := oops.add o1 e })

/-- The four chains. -/
structure Chains (τ σ : Type) where
  c0 : Chain τ σ
  c1 : Chain τ σ
  c2 : Chain τ σ
  c3 : Chain τ σ

/-- The body of the loop of `interlace_greedy` at step `t`, up to the call of
`result.add`: the elements popped and the chains afterwards. -/
def interlace_step {τ σ α : Type} (sops : StrategyOps τ σ α) (oops : OracleOps σ α)
    (t : Nat) (c : Chains τ σ) : Except Fault ((Fin 4 → Option Nat) × Chains τ σ) :=
  match interlace_subroutine sops oops c.c0 c.c1 with
  | .error f => .error f
  | .ok (e01, a0, a1) =>
    if t = 0 then
      match interlace_first sops oops c.c2 with
      | .error f => .error f
      | .ok (e2, a2) =>
        match interlace_first sops oops c.c3 with
        | .error f => .error f
        | .ok (e3, a3) =>
          .ok (![e01.1, e01.2, e2, e3], { c0 := a0, c1 := a1, c2 := a2, c3 := a3 })
    else
      match interlace_subroutine sops oops c.c2 c.c3 with
      | .error f => .error f
      | .ok (e23, a2, a3) =>
        .ok (![e01.1, e01.2, e23.1, e23.2], { c0 := a0, c1 := a1, c2 := a2, c3 := a3 })

/-- The loop of `interlace_greedy`, with `m` iterations left at step `t`. -/
def interlace_greedy_loop {τ σ α : Type} [LinearOrderedField α] (sops : StrategyOps τ σ α)
    (oops : OracleOps σ α) (param : Param α) (clock : Nat → α) :
    Nat → Nat → Chains τ σ → InterlaceResult α → Except Fault (InterlaceResult α)
  | 0, _, _, res => .ok { res with finished := true }
  | m + 1, t, c, res =>
    match interlace_step sops oops t c with
    | .error f => .error f
    | .ok (es, c1) =>
      let time := clock t
      let res1 := res.add es
        ![oops.get_value c1.c0.oracle, oops.get_value c1.c1.oracle,
          oops.get_value c1.c2.oracle, oops.get_value c1.c3.oracle]
        time 0
        (oops.get_num_oracle_calls c1.c0.oracle + oops.get_num_oracle_calls c1.c1.oracle
          + oops.get_num_oracle_calls c1.c2.oracle + oops.get_num_oracle_calls c1.c3.oracle)
        (oops.get_num_computed_offdiagonals_V c1.c0.oracle
          + oops.get_num_computed_offdiagonals_V c1.c1.oracle
          + oops.get_num_computed_offdiagonals_V c1.c2.oracle
          + oops.get_num_computed_offdiagonals_V c1.c3.oracle)
      if expired param time then .ok res1
      else interlace_greedy_loop sops oops param clock m (t + 1) c1 res1

/-- A chain as `interlace_greedy` sets it up: a fresh oracle and a strategy over
`0..n-1` with dummy elements. -/
def Chain.init {τ σ α : Type} (sops : StrategyOps τ σ α) (oops : OracleOps σ α)
    (n k : Nat) (param : Param α) : Chain τ σ :=
  let r := sops.construct (List.range n) true
    (oops.construct k param.log_computed_offdiagonals_V)
  { strategy := r.1, oracle := r.2 }

/-- The function `interlace_greedy<S, O>(L, k, param)` on an `n × n` matrix. -/
def interlace_greedy {τ σ α : Type} [LinearOrderedField α] (sops : StrategyOps τ σ α)
    (oops : OracleOps σ α) (n k : Nat) (param : Param α) (clock : Nat → α) :
    Except Fault (InterlaceResult α) :=
  if !decide (k ≤ n) then .error .assertion
  else
    interlace_greedy_loop sops oops param clock k 0
      { c0 := Chain.init sops oops n k param, c1 := Chain.init sops oops n k param,
        c2 := Chain.init sops oops n k param, c3 := Chain.init sops oops n k param }
      (InterlaceResult.init α)

end DPP

namespace DPP

/-! ## The deferred Gram matrix (`cached_gram_matrix.hpp`) -/

/-- The dot product `B.col(i).dot(B.col(j))` of two columns of a matrix with `d` rows. -/
def colDot {α : Type} [LinearOrderedField α] (d : Nat) (B : Nat → Nat → α) (i j : Nat) : α :=
  ∑ r in Finset.range d, B r i * B r j

/-- The mutable state of `CachedGramMatrix`: the backing store `L`, whose cells start as
NaN (`none`), and the counter. -/
structure CachedGramMatrix (α : Type) where
  L : Nat → Nat → Option α
  num_computed_entries : Nat

namespace CachedGramMatrix

/-- The constructor. -/
def construct (α : Type) : CachedGramMatrix α :=
  { L := fun _ _ => none, num_computed_entries := 0 }

/-- The entry access `operator()(i, j)`. -/
def get {α : Type} [LinearOrderedField α] (d : Nat) (B : Nat → Nat → α)
    (c : CachedGramMatrix α) (i j : Nat) : α × CachedGramMatrix α :=
  match c.L i j with
  | none =>
    let v := colDot d B i j
    let L1 := Function.update c.L i (Function.update (c.L i) j (some v))
    let L2 := Function.update L1 j (Function.update (L1 j) i (some v))
    (v, { L := L2, num_computed_entries := c.num_computed_entries + 1 })
  | some v => (v, c)

/-- The loops of `col` and of the two bulk accessors: `operator()(i, e)` for every `i` of
a list of rows. -/
def touchRows {α : Type} [LinearOrderedField α] (d : Nat) (B : Nat → Nat → α) :
    List Nat → Nat → CachedGramMatrix α → CachedGramMatrix α
  | [], _, c => c
  | i :: rows, e, c => touchRows d B rows e (get d B c i e).2

/-- The method `col(j)` of a matrix with `n` columns: the column and the state. -/
def col {α : Type} [LinearOrderedField α] (d n : Nat) (B : Nat → Nat → α)
    (c : CachedGramMatrix α) (j : Nat) : (Nat → Option α) × CachedGramMatrix α :=
  let c1 := touchRows d B (List.range n) j c
  (fun i => c1.L i j, c1)

/-- The accessor `operator()(S, e)`: the sub-vector and the state. -/
def sub {α : Type} [LinearOrderedField α] (d : Nat) (B : Nat → Nat → α)
    (c : CachedGramMatrix α) (S : List Nat) (e : Nat) :
    (Fin S.length → Option α) × CachedGramMatrix α :=
  let c1 := touchRows d B S e c
  (fun i => c1.L (S.get i) e, c1)

/-- The loop of `operator()(S, T)`. -/
def touchCols {α : Type} [LinearOrderedField α] (d : Nat) (B : Nat → Nat → α)
    (S : List Nat) : List Nat → CachedGramMatrix α → CachedGramMatrix α
  | [], c => c
  | j :: cols, c => touchCols d B S cols (sub d B c S j).2

/-- The accessor `operator()(S, T)`: the sub-matrix and the state. -/
def subm {α : Type} [LinearOrderedField α] (d : Nat) (B : Nat → Nat → α)
    (c : CachedGramMatrix α) (S T : List Nat) :
    (Fin S.length → Fin T.length → Option α) × CachedGramMatrix α :=
  let c1 := touchCols d B S T c
  (fun i j => c1.L (S.get i) (T.get j), c1)

end CachedGramMatrix

/-- An access to a `CachedGramMatrix`. -/
inductive Access where
  | entry (i j : Nat)
  | col (j : Nat)
  | sub (S : List Nat) (e : Nat)
  | subm (S T : List Nat)

namespace Access

/-- The state after an access to a matrix with `n` columns. -/
def run {α : Type} [LinearOrderedField α] (d n : Nat) (B : Nat → Nat → α)
    (c : CachedGramMatrix α) : Access → CachedGramMatrix α
  | entry i j => (CachedGramMatrix.get d B c i j).2
  | col j => (CachedGramMatrix.col d n B c j).2
  | sub S e => (CachedGramMatrix.sub d B c S e).2
  | subm S T => (CachedGramMatrix.subm d B c S T).2

/-- The entries an access reads, row first. -/
def cells (n : Nat) : Access → List (Nat × Nat)
  | entry i j => [(i, j)]
  | col j => (List.range n).map fun i => (i, j)
  | sub S e => S.map fun i => (i, e)
  | subm S T => (T.map fun j => S.map fun i => (i, j)).flatten

/-- The state after a sequence of accesses. -/
def runAll {α : Type} [LinearOrderedField α] (d n : Nat) (B : Nat → Nat → α) :
    List Access → CachedGramMatrix α → CachedGramMatrix α
  | [], c => c
  | a :: as, c => runAll d n B as (run d n B c a)

/-- The state after reading one entry. -/
def touch {α : Type} [LinearOrderedField α] (d : Nat) (B : Nat → Nat → α)
    (c : CachedGramMatrix α) (p : Nat × Nat) : CachedGramMatrix α :=
  (CachedGramMatrix.get d B c p.1 p.2).2

/-- The cache holds exactly the entries of the pairs of `P`, each with its dot product, and
has counted them. -/
def Inv {α : Type} [LinearOrderedField α] (d : Nat) (B : Nat → Nat → α)
    (c : CachedGramMatrix α) (P : Finset (Sym2 Nat)) : Prop :=
  (∀ a b, c.L a b ≠ none ↔ s(a, b) ∈ P) ∧
  (∀ a b v, c.L a b = some v → v = colDot d B a b) ∧
  c.num_computed_entries = P.card

/-- The unordered pairs `{i, j}` whose entry a sequence of accesses reads. -/
def pairs (n : Nat) (as : List Access) : Finset (Sym2 Nat) :=
  ((as.map (cells n)).flatten.map fun p => s(p.1, p.2)).toFinset

end Access

end DPP

namespace DPP

/-- What the proofs use of `std::sqrt` and `std::log` in exact arithmetic: a square root
of the non-negative elements that is positive on the positive ones, and a logarithm that
turns products of positive elements into sums and increases strictly.  The reals with
`Real.sqrt` and `Real.log` are the instance the theorems are about. -/
class Numeric {α : Type} [LinearOrderedField α] (sqrt log : outParam (α → α)) : Prop where
  sqrt_pos : ∀ x : α, 0 < x → 0 < sqrt x
  mul_self_sqrt : ∀ x : α, 0 ≤ x → sqrt x * sqrt x = x
  log_mul : ∀ x y : α, 0 < x → 0 < y → log (x * y) = log x + log y
  log_lt_log : ∀ x y : α, 0 < x → x < y → log x < log y

/-- The reals, with `Real.sqrt` and `Real.log`. -/
instance realNumeric : Numeric Real.sqrt Real.log where
  sqrt_pos := fun _ h => Real.sqrt_pos.mpr h
  mul_self_sqrt := fun _ h => Real.mul_self_sqrt h
  log_mul := fun _ _ hx hy => Real.log_mul hx.ne' hy.ne'
  log_lt_log := fun _ _ hx hxy => Real.log_lt_log hx hxy

/-- Cholesky coefficient. -/
def chol {α : Type} [LinearOrderedField α] (sqrt : α → α) (L : Nat → Nat → α) (s : Nat → Nat) :
    Nat → Nat → α
  | j, e =>
    (L e (s j) - ∑ i : Fin j, chol sqrt L s i e * chol sqrt L s i (s j)) /
      sqrt (L (s j) (s j) - ∑ i : Fin j, chol sqrt L s i (s j) * chol sqrt L s i (s j))
termination_by j => j
decreasing_by all_goals exact i.isLt

def pivot {α : Type} [LinearOrderedField α] (sqrt : α → α) (L : Nat → Nat → α) (s : Nat → Nat)
    (j : Nat) : α :=
  L (s j) (s j) - ∑ i in Finset.range j, chol sqrt L s i (s j) * chol sqrt L s i (s j)

def seqOf (S : List Nat) : Nat → Nat := fun j => S.getD j 0

def schur {α : Type} [LinearOrderedField α] (L : Nat → Nat → α) (S : List Nat) (e : Nat) : α :=
  L e e - Matrix.dotProduct (subVector L S e) (ldltSolve (subMatrix L S S) (subVector L S e))

def gram {α : Type} (L : Nat → Nat → α) (s : Nat → Nat) (m : Nat) : Matrix (Fin m) (Fin m) α :=
  Matrix.of fun i j => L (s i) (s j)

def cmat {α : Type} [LinearOrderedField α] (sqrt : α → α) (L : Nat → Nat → α) (s : Nat → Nat)
    (m : Nat) : Matrix (Fin m) (Fin m) α :=
  Matrix.of fun i j => chol sqrt L s j (s i)

/-- The quadratic form of the leading `n × n` block of `L` at the vector `x`. -/
def quadForm {α : Type} [LinearOrderedField α] (n : Nat) (L : Nat → Nat → α)
    (x : Fin n → α) : α :=
  ∑ i : Fin n, ∑ j : Fin n, x i * L i j * x j

/-- The leading `n × n` block of `L` is symmetric positive definite: its quadratic form
is positive at every vector other than zero. -/
def PosDefOn {α : Type} [LinearOrderedField α] (n : Nat) (L : Nat → Nat → α) : Prop :=
  (∀ i j, i < n → j < n → L i j = L j i) ∧ ∀ x : Fin n → α, x ≠ 0 → 0 < quadForm n L x

end DPP

namespace DPP

/-- The objective value of a selection: the logarithm of the determinant of `L[S,S]`. -/
def logdet {α : Type} [LinearOrderedField α]
    (log : α → α) (L : Nat → Nat → α) (S : List Nat) : Value α :=
  some ((log (subMatrix L S S).det : α) : WithBot α)

namespace Fast

/-- The states of a fast oracle on an `n × n` matrix that are reached when every element is
computed while it is outside `S`, and is added right after it has been computed against the
current `S`. -/
inductive Reach {α : Type} [LinearOrderedField α] (n : Nat) (sqrt log : α → α)
    (V0 : Nat → Nat → Option α) (L : Nat → Nat → α) : Instance α → Prop
  | construct (logV : Bool) : Reach n sqrt log V0 L (Fast.construct V0 logV)
  | compute (o : Instance α) (e : Nat) : Reach n sqrt log V0 L o → e < n → e ∉ o.S →
      Reach n sqrt log V0 L (compute_marginal_gain_exponential sqrt L o e).2
  | get_last (o : Instance α) (e : Nat) : Reach n sqrt log V0 L o → e < n →
      Reach n sqrt log V0 L (get_last_marginal_gain_exponential L o e).2
  | add (o : Instance α) (e : Nat) : Reach n sqrt log V0 L o → e < n → e ∉ o.S →
      o.u e = o.S.length → o.d e ≠ none → Reach n sqrt log V0 L (add log o e)
  | clear (o : Instance α) : Reach n sqrt log V0 L o →
      Reach n sqrt log V0 L { o with computed_offdiagonals_V := [] }

/-- What the cells of a fast oracle hold, in terms of the Cholesky coefficients of the
selection. -/
structure Inv {α : Type} [LinearOrderedField α]
    {sqrt log : α → α} [Numeric sqrt log]
    (n : Nat) (L : Nat → Nat → α) (o : Instance α) : Prop where
  nodup : o.S.Nodup
  range : ∀ x ∈ o.S, x < n
  u_le : ∀ e, o.u e ≤ o.S.length
  V_eq : ∀ e j, j < o.u e → o.V e j = some (chol sqrt L (seqOf o.S) j e)
  d_none : ∀ e, o.d e = none → o.u e = 0
  d_some : ∀ e x, e ∉ o.S → o.d e = some x →
    x = L e e - ∑ j in Finset.range (o.u e),
      chol sqrt L (seqOf o.S) j e * chol sqrt L (seqOf o.S) j e
  committed : ∀ j < o.S.length, o.u (seqOf o.S j) = j ∧
    o.d (seqOf o.S j) = some (pivot sqrt L (seqOf o.S) j)
  value : o.value = logdet log L o.S

end Fast

namespace Oracle

/-- The states of a direct oracle on an `n × n` matrix. -/
inductive Reach {α : Type} [LinearOrderedField α] (n : Nat) (log : α → α)
    (L : Nat → Nat → α) : Instance α → Prop
  | construct : Reach n log L (Oracle.construct α)
  | compute (o : Instance α) (e : Nat) : Reach n log L o → e < n →
      Reach n log L (compute_marginal_gain_exponential L o e).2
  | get_last (o : Instance α) (e : Nat) : Reach n log L o → e < n →
      Reach n log L (get_last_marginal_gain_exponential L o e).2
  | add (o : Instance α) (e : Nat) : Reach n log L o → e < n → Reach n log L (add log o e)

/-- What the cells of a direct oracle hold. -/
structure Inv {α : Type} [LinearOrderedField α]
    {sqrt log : α → α} [Numeric sqrt log]
    (L : Nat → Nat → α) (o : Instance α) : Prop where
  u_ge : ∀ e, -1 ≤ o.u e
  u_le : ∀ e, o.u e ≤ (o.S.length : Int)
  d_eq : ∀ e, 0 ≤ o.u e → o.d e = some (max 0 (schur L (o.S.take (o.u e).toNat) e))

end Oracle

/-- The postcondition of `Fast::compute_marginal_gain_exponential(e)` that the
specification states, on the state `o` after the call and the value `x` returned: the row
of `e` is filled up to `|S|`, every entry of it is finite and is what the formula of the
code gives on the cells of `o`, and `d[e]` is the diagonal entry less the squares of the
row, without the clamp. -/
def Fast.Contract {α : Type} [LinearOrderedField α] (sqrt : α → α) (L : Nat → Nat → α)
    (o : Fast.Instance α) (e : Nat) (x : α) : Prop :=
  o.u e = o.S.length ∧
  (∃ w : Nat → α,
    (∀ j, j < o.S.length → o.V e j = some (w j) ∧
      o.V e j = Fast.quotient sqrt (L e (o.S.getD j 0))
        (odot (o.V e) (o.V (o.S.getD j 0)) j) (o.d (o.S.getD j 0))) ∧
    o.d e = some (L e e - ∑ j in Finset.range o.S.length, w j * w j) ∧
    x = L e e - ∑ j in Finset.range o.S.length, w j * w j)

/-- Two states of a fast oracle agree on the cells that a computation for `x` reads. -/
def Fast.Agree {α : Type} (x : Nat) (o p : Fast.Instance α) : Prop :=
  o.S = p.S ∧ o.u x = p.u x ∧ o.d x = p.d x ∧ o.V x = p.V x ∧
    ∀ l ∈ o.S, o.V l = p.V l ∧ o.d l = p.d l

/-- The identity matrix, as a kernel. -/
def idKernel (α : Type) [LinearOrderedField α] : Nat → Nat → α :=
  fun i j => if i = j then 1 else 0

end DPP

namespace DPP

/-- What a strategy relies on from the oracle it refers to: a computation changes neither
the selection nor the objective value, and, for an element outside the selection, does not
change what any computation returns. -/
structure OracleLaw {σ α : Type} (oops : OracleOps σ α) : Prop where
  compute_S : ∀ o e,
    oops.get_solution (oops.compute_marginal_gain_exponential o e).2 = oops.get_solution o
  compute_value : ∀ o e,
    oops.get_value (oops.compute_marginal_gain_exponential o e).2 = oops.get_value o
  get_last_S : ∀ o e,
    oops.get_solution (oops.get_last_marginal_gain_exponential o e).2 = oops.get_solution o
  get_last_value : ∀ o e,
    oops.get_value (oops.get_last_marginal_gain_exponential o e).2 = oops.get_value o
  add_S : ∀ o e, oops.get_solution (oops.add o e) = oops.get_solution o ++ [e]
  stable : ∀ o e x, e ∉ oops.get_solution o →
    (oops.compute_marginal_gain_exponential (oops.compute_marginal_gain_exponential o e).2 x).1
      = (oops.compute_marginal_gain_exponential o x).1

/-- The current gain of `e`: what `compute_marginal_gain_exponential(e)` returns in the
state `o`. -/
def gainAt {σ α : Type} (oops : OracleOps σ α) (o : σ) (e : Nat) : α :=
  (oops.compute_marginal_gain_exponential o e).1

/-- The pair of an element and its current gain. -/
def pairAt {σ α : Type} (oops : OracleOps σ α) (o : σ) (e : Nat) : ElementValuePair α :=
  { element := e, value := gainAt oops o e }

/-- Two oracle states with the same selection, objective value and gains. -/
def GainEq {σ α : Type} (oops : OracleOps σ α) (o p : σ) : Prop :=
  oops.get_solution p = oops.get_solution o ∧ oops.get_value p = oops.get_value o ∧
    ∀ x, gainAt oops p x = gainAt oops o x

/-- One iteration of the second loop of `NonLazy::pop_kth_largest` on the heap alone. -/
def scanStep {α : Type} [LinearOrderedField α] (h : List (ElementValuePair α))
    (next : ElementValuePair α) : List (ElementValuePair α) :=
  match heapMin h with
  | none => h
  | some m => if m.less next then next :: h.erase m else h

/-- The heap `h` holds the `i + 1` largest pairs of `done`. -/
def TopOf {α : Type} [LinearOrderedField α] (i : Nat) (done h : List (ElementValuePair α)) :
    Prop :=
  h.Nodup ∧ (∀ q ∈ h, q ∈ done) ∧ h.length = i + 1 ∧
    ∀ p ∈ done, p ∉ h → ∀ q ∈ h, p.less q = true

/-- The number of elements of `T` whose pair is greater than the pair of `e`, for the
gains `g`. -/
def rankIn {α : Type} [LinearOrderedField α] (g : Nat → α) (T : List Nat) (e : Nat) : Nat :=
  (T.filter fun x =>
    ElementValuePair.less { element := e, value := g e } { element := x, value := g x }).length

/-- The state after computing the elements of a list in order. -/
def computeAll {σ α : Type} (oops : OracleOps σ α) (es : List Nat) (o : σ) : σ :=
  es.foldl (fun p e => (oops.compute_marginal_gain_exponential p e).2) o

/-- The state after looking up the last gains of the elements of a list in order. -/
def getLastAll {σ α : Type} (oops : OracleOps σ α) (es : List Nat) (o : σ) : σ :=
  es.foldl (fun p e => (oops.get_last_marginal_gain_exponential p e).2) o

/-- Every element of `T` has an entry in the heap. -/
def Cover {α : Type} (T : List Nat) (Q : List (ElementValuePair α)) : Prop :=
  ∀ e ∈ T, ∃ p ∈ Q, p.element = e

/-- Every heap entry of an element of `T` stores a value that is at least the gain `g` of
the element. -/
def UpperBound {α : Type} [LinearOrderedField α] (g : Nat → α) (T : List Nat)
    (Q : List (ElementValuePair α)) : Prop :=
  ∀ p ∈ Q, p.element ∈ T → g p.element ≤ p.value

/-- Every heap entry of an element of `T` stores the gain `g` of the element. -/
def Exact {α : Type} (g : Nat → α) (T : List Nat) (Q : List (ElementValuePair α)) : Prop :=
  ∀ p ∈ Q, p.element ∈ T → p.value = g p.element

/-- The heap entries that an iteration of `Lazy::pop_largest` would not commit at once:
those of an element outside `T` or with a value other than the gain `g`. -/
def staleCount {α : Type} [LinearOrderedField α] (g : Nat → α) (T : List Nat)
    (Q : List (ElementValuePair α)) : Nat :=
  Q.countP fun p => !(decide (p.element ∈ T) && decide (p.value = g p.element))

/-- The postcondition of `Lazy::pop_largest()` from the strategy `s` and the oracle `o`,
whose gains are `g`: what is returned, the strategy `s1` and the oracle `o1` afterwards. -/
def Lazy.PopPost {σ α : Type} [LinearOrderedField α] (oops : OracleOps σ α) (g : Nat → α)
    (s : Lazy.Instance α) (o : σ) (r : Option Nat) (s1 : Lazy.Instance α) (o1 : σ) : Prop :=
  (∃ es, (∀ x ∈ es, x ∈ s.T) ∧ o1 = computeAll oops es o ∧
    ∀ e, r = some e → es.getLast? = some e) ∧
  s1.add_dummy = s.add_dummy ∧
  (∀ p ∈ s1.Q, p ∈ s.Q ∨ (p.element ∈ s.T ∧ p.value = g p.element)) ∧
  (s.add_dummy = false → Cover s.T s.Q → Cover s1.T s1.Q) ∧
  (∀ e, r = some e → e ∈ s.T ∧ s1.T = s.T.erase e ∧ (s.add_dummy = true → 1 < g e) ∧
    (Cover s.T s.Q → UpperBound g s.T s.Q → ∀ x ∈ s.T, g x ≤ g e) ∧
    (Cover s.T s.Q → Exact g s.T s.Q → rankIn g s.T e = 0)) ∧
  (r = none → s.add_dummy = true ∧ s1.T = s.T)

/-- The states of a lazy strategy and of the oracle it refers to that the calls of a
driver reach: the strategy is built over elements outside the selection, its methods are
called within their assertions, and the driver adds to the oracle only elements that are
no longer in the ground set. -/
inductive Lazy.Reach {σ α : Type} [LinearOrderedField α] (oops : OracleOps σ α) :
    Lazy.Instance α → σ → Prop
  | construct (ord : List Nat → List Nat) (range : List Nat) (b : Bool) (o : σ) :
      (ord range).Nodup → (∀ e ∈ ord range, e ∉ oops.get_solution o) →
      Lazy.Reach oops (Lazy.construct oops ord range b o).1 (Lazy.construct oops ord range b o).2
  | pop_largest (s : Lazy.Instance α) (o : σ) (r : Option Nat) (s1 : Lazy.Instance α)
      (o1 : σ) : Lazy.Reach oops s o → (s.add_dummy = true ∨ s.T ≠ []) →
      Lazy.pop_largest oops s o = .ok (r, s1, o1) → Lazy.Reach oops s1 o1
  | pop_kth_largest (s : Lazy.Instance α) (o : σ) (i : Nat) (r : Option Nat)
      (s1 : Lazy.Instance α) (o1 : σ) : Lazy.Reach oops s o →
      Lazy.pop_kth_largest oops s o i = .ok (r, s1, o1) → Lazy.Reach oops s1 o1
  | remove (s : Lazy.Instance α) (o : σ) (e : Nat) (s1 : Lazy.Instance α) :
      Lazy.Reach oops s o → Lazy.remove s e = .ok s1 → Lazy.Reach oops s1 o
  | compute (s : Lazy.Instance α) (o : σ) (e : Nat) : Lazy.Reach oops s o →
      Lazy.Reach oops s (oops.compute_marginal_gain_exponential o e).2
  | get_last (s : Lazy.Instance α) (o : σ) (e : Nat) : Lazy.Reach oops s o →
      Lazy.Reach oops s (oops.get_last_marginal_gain_exponential o e).2
  | add (s : Lazy.Instance α) (o : σ) (e : Nat) : Lazy.Reach oops s o → e ∉ s.T →
      Lazy.Reach oops s (oops.add o e)

end DPP

namespace DPP

/-- The states of a non-lazy strategy and of the oracle it refers to that the calls of a
driver reach: the strategy is built over elements outside the selection, and the driver
adds to the oracle only elements that are no longer in the ground set. -/
inductive NonLazy.Reach {σ α : Type} [LinearOrderedField α] (oops : OracleOps σ α) :
    NonLazy.Instance → σ → Prop
  | construct (ord : List Nat → List Nat) (range : List Nat) (b : Bool) (o : σ) :
      (ord range).Nodup → (∀ e ∈ ord range, e ∉ oops.get_solution o) →
      NonLazy.Reach oops (NonLazy.construct ord range b o).1 (NonLazy.construct ord range b o).2
  | pop_kth_largest (s : NonLazy.Instance) (o : σ) (i : Nat) (r : Option Nat)
      (s1 : NonLazy.Instance) (o1 : σ) : NonLazy.Reach oops s o →
      NonLazy.pop_kth_largest oops s o i = .ok (r, s1, o1) → NonLazy.Reach oops s1 o1
  | remove (s : NonLazy.Instance) (o : σ) (e : Nat) (s1 : NonLazy.Instance) :
      NonLazy.Reach oops s o → NonLazy.remove s e = .ok s1 → NonLazy.Reach oops s1 o
  | compute (s : NonLazy.Instance) (o : σ) (e : Nat) : NonLazy.Reach oops s o →
      NonLazy.Reach oops s (oops.compute_marginal_gain_exponential o e).2
  | get_last (s : NonLazy.Instance) (o : σ) (e : Nat) : NonLazy.Reach oops s o →
      NonLazy.Reach oops s (oops.get_last_marginal_gain_exponential o e).2
  | add (s : NonLazy.Instance) (o : σ) (e : Nat) : NonLazy.Reach oops s o → e ∉ s.T →
      NonLazy.Reach oops s (oops.add o e)

/-- The kernel of the strategy tests: `diag(0.3, 0.2, 0.9, 0.5, 0.25, 0.125, 0.1, 2.0)`. -/
def testDiag (α : Type) [LinearOrderedField α] : Nat → Nat → α := fun i j =>
  if i = j then
    match i with
    | 0 => 3 / 10
    | 1 => 2 / 10
    | 2 => 9 / 10
    | 3 => 5 / 10
    | 4 => 25 / 100
    | 5 => 125 / 1000
    | 6 => 1 / 10
    | 7 => 2
    | _ => 0
  else 0

end DPP

namespace DPP

/-- The oracle states reached from a state by computations and look-ups for elements of
`T`. -/
inductive Steps {σ α : Type} (oops : OracleOps σ α) (T : List Nat) : σ → σ → Prop
  | refl (o : σ) : Steps oops T o o
  | compute (o p : σ) (x : Nat) : Steps oops T o p → x ∈ T →
      Steps oops T o (oops.compute_marginal_gain_exponential p x).2
  | get_last (o p : σ) (x : Nat) : Steps oops T o p → x ∈ T →
      Steps oops T o (oops.get_last_marginal_gain_exponential p x).2

/-- What the drivers use of an oracle over the kernel `L` on `n` elements: `Good` holds of
the states the drivers reach, and `Fresh o e` says that the cell of `e` holds the gain of
`e` against the current selection. -/
structure OracleMath {α : Type} [LinearOrderedField α]
    {sqrt log : α → α} [Numeric sqrt log]
    (n : Nat) (L : Nat → Nat → α) {σ : Type} (oops : OracleOps σ α)
    (Good : σ → Prop) (Fresh : σ → Nat → Prop) : Prop where
  law : OracleLaw oops
  construct_good : ∀ k b, Good (oops.construct k b) ∧ oops.get_solution (oops.construct k b) = []
  good_nodup : ∀ o, Good o → (oops.get_solution o).Nodup
  good_range : ∀ o, Good o → ∀ x ∈ oops.get_solution o, x < n
  good_value : ∀ o, Good o → oops.get_value o = logdet log L (oops.get_solution o)
  compute_good : ∀ o e, Good o → e < n → e ∉ oops.get_solution o →
    Good (oops.compute_marginal_gain_exponential o e).2 ∧
    Fresh (oops.compute_marginal_gain_exponential o e).2 e ∧
    (oops.compute_marginal_gain_exponential o e).1 = schur L (oops.get_solution o) e
  compute_fresh : ∀ o e x, Good o → x < n → x ∉ oops.get_solution o → Fresh o e →
    Fresh (oops.compute_marginal_gain_exponential o x).2 e
  get_last_good : ∀ o e, Good o → e < n → e ∉ oops.get_solution o →
    Good (oops.get_last_marginal_gain_exponential o e).2 ∧
    ∃ m, m ≤ (oops.get_solution o).length ∧
      (oops.get_last_marginal_gain_exponential o e).1
        = schur L ((oops.get_solution o).take m) e
  get_last_fresh : ∀ o e x, Good o → x < n → x ∉ oops.get_solution o → Fresh o e →
    Fresh (oops.get_last_marginal_gain_exponential o x).2 e
  add_good : ∀ o e, Good o → e < n → e ∉ oops.get_solution o → Fresh o e →
    0 < schur L (oops.get_solution o) e → Good (oops.add o e)
  add_value : ∀ o e, Good o → e < n → e ∉ oops.get_solution o → Fresh o e →
    oops.get_value (oops.add o e)
      = vadd (oops.get_value o) (dlog log (some (schur L (oops.get_solution o) e)))
  clear_good : ∀ o, Good o → Good (oops.clear_computed_offdiagonals_V o) ∧
    oops.get_solution (oops.clear_computed_offdiagonals_V o) = oops.get_solution o
  gain_nonneg : ∀ o e, Good o → e < n → e ∉ oops.get_solution o →
    0 ≤ schur L (oops.get_solution o) e
  gain_mono : ∀ o e m, Good o → e < n → e ∉ oops.get_solution o →
    m ≤ (oops.get_solution o).length →
    schur L (oops.get_solution o) e ≤ schur L ((oops.get_solution o).take m) e

/-- The states of the direct oracle that the drivers reach. -/
def Oracle.Good {α : Type} [LinearOrderedField α]
    {sqrt log : α → α} [Numeric sqrt log]
    (n : Nat) (L : Nat → Nat → α) (o : Oracle.Instance α) : Prop :=
  Oracle.Inv L o ∧ o.S.Nodup ∧ (∀ x ∈ o.S, x < n) ∧ o.value = logdet log L o.S

/-- The cell of `e` in a direct oracle was computed against the current selection. -/
def Oracle.Fresh {α : Type} [LinearOrderedField α]
    (o : Oracle.Instance α) (e : Nat) : Prop := o.u e = (o.S.length : Int)

/-- The cell of `e` in a fast oracle was computed against the current selection. -/
def Fast.Fresh {α : Type} [LinearOrderedField α]
    (o : Fast.Instance α) (e : Nat) : Prop := o.u e = o.S.length ∧ o.d e ≠ none

/-- What a call of `pop_largest` or `pop_kth_largest` that returns `r` leaves: the ground
set `getT` loses the element returned, and the oracle has computed it, with the gain it
had before the call, and otherwise only computed or looked up elements of the ground set. -/
def PopOut {τ σ α : Type} [LinearOrderedField α] (oops : OracleOps σ α)
    (getT : τ → List Nat) (getD : τ → Bool) (SI : τ → Prop)
    (s : τ) (o : σ) (r : Option Nat) (s1 : τ) (o1 : σ) : Prop :=
  getD s1 = getD s ∧ SI s1 ∧ (getT s1).Nodup ∧
  (r = none → getD s = true ∧ (∀ x, x ∈ getT s1 ↔ x ∈ getT s) ∧ Steps oops (getT s) o o1) ∧
  (∀ e, r = some e → e ∈ getT s ∧ (∀ x, x ∈ getT s1 ↔ (x ∈ getT s ∧ x ≠ e)) ∧
    (∃ p, Steps oops (getT s) o p ∧ gainAt oops p e = gainAt oops o e ∧
      Steps oops (getT s) (oops.compute_marginal_gain_exponential p e).2 o1) ∧
    (getD s = true → 1 < gainAt oops o e))

/-- What the drivers use of a strategy over an oracle on `n` elements: `getT` is its
ground set, `getD` its flag `add_dummy`, `SI` its own invariant, and `Dead` says that it
has returned nothing and will go on doing so while the selection stays as it is. -/
structure StrategyLaw (n : Nat) {τ σ α : Type} [LinearOrderedField α] (oops : OracleOps σ α)
    (Good : σ → Prop) (sops : StrategyOps τ σ α) (getT : τ → List Nat) (getD : τ → Bool)
    (SI : τ → Prop) (Dead : τ → σ → Prop) : Prop where
  construct_spec : ∀ range b o, Good o → range.Nodup →
    (∀ e ∈ range, e < n ∧ e ∉ oops.get_solution o) →
    (getT (sops.construct range b o).1).Nodup ∧
    (∀ x, x ∈ getT (sops.construct range b o).1 ↔ x ∈ range) ∧
    getD (sops.construct range b o).1 = b ∧ SI (sops.construct range b o).1 ∧
    Steps oops range o (sops.construct range b o).2
  pop_kth_spec : ∀ s o i, Good o → SI s → (getT s).Nodup →
    (∀ e ∈ getT s, e < n ∧ e ∉ oops.get_solution o) →
    (getD s = true ∨ i < (getT s).length) →
    ∃ r s1 o1, sops.pop_kth_largest s o i = .ok (r, s1, o1) ∧
      PopOut oops getT getD SI s o r s1 o1
  pop_spec : ∀ s o, Good o → SI s → (getT s).Nodup →
    (∀ e ∈ getT s, e < n ∧ e ∉ oops.get_solution o) →
    (getD s = true ∨ getT s ≠ []) →
    ∃ r s1 o1, sops.pop_largest s o = .ok (r, s1, o1) ∧
      PopOut oops getT getD SI s o r s1 o1 ∧ (r = none → Dead s1 o1) ∧
      (Dead s o → r = none)
  remove_spec : ∀ s e, SI s → e ∈ getT s →
    ∃ s1, sops.remove s e = .ok s1 ∧ getT s1 = (getT s).erase e ∧ getD s1 = getD s ∧ SI s1 ∧
      ∀ o, Dead s o → Dead s1 o

/-- A non-lazy strategy with dummy elements over which no gain exceeds `1`. -/
def NonLazy.Dead {σ α : Type} [LinearOrderedField α] (oops : OracleOps σ α)
    (s : NonLazy.Instance) (o : σ) : Prop :=
  s.add_dummy = true ∧ ∀ x ∈ s.T, gainAt oops o x ≤ 1

/-- A lazy strategy with dummy elements whose heap holds no value above `1`. -/
def Lazy.Dead {σ α : Type} [LinearOrderedField α] (s : Lazy.Instance α) (_o : σ) : Prop :=
  s.add_dummy = true ∧ ∀ p ∈ s.Q, p.value ≤ 1

/-- The own invariant of a lazy strategy: without dummy elements, every element of the
ground set has a heap entry. -/
def Lazy.SI {α : Type} (s : Lazy.Instance α) : Prop :=
  s.add_dummy = false → Cover s.T s.Q

/-- The iteration order `ord` of the sets lists the elements of the range they are built
from, each once. -/
def SetOrder (ord : List Nat → List Nat) : Prop :=
  ∀ l : List Nat, (ord l).Nodup ∧ ∀ x, x ∈ ord l ↔ x ∈ l

end DPP

namespace DPP

/-- The number of iterations of the loop of `greedy` that run when no objective value is
minus infinity, with `m` iterations left at step `t`. -/
def greedy_len {α : Type} [LinearOrderedField α] (param : Param α) (clock : Nat → α) :
    Nat → Nat → Nat
  | 0, _ => 0
  | m + 1, t => if expired param (clock t) then 1 else greedy_len param clock m (t + 1) + 1

/-- Whether the loop of `greedy` runs to its end, with `m` iterations left at step `t`. -/
def greedy_fin {α : Type} [LinearOrderedField α] (param : Param α) (clock : Nat → α) :
    Nat → Nat → Bool
  | 0, _ => true
  | m + 1, t => if expired param (clock t) then false else greedy_fin param clock m (t + 1)

/-- The records of a `GreedyResult` are those of the selection sequence `S`: record `j`
holds the `j`-th element of `S` and the objective value of the first `j` elements. -/
def GreedyResult.Records {α : Type} [LinearOrderedField α]
    {sqrt log : α → α} [Numeric sqrt log]
    (L : Nat → Nat → α) (res : GreedyResult α) (S : List Nat) : Prop :=
  res.element_value_pairs.length = S.length + 1 ∧ res.measurements.length = S.length + 1 ∧
  ∀ j, j ≤ S.length → ∃ p, res.element_value_pairs.get? j = some p ∧
    p.value = logdet log L (S.take j) ∧ ∀ i, j = i + 1 → p.element = some (S.getD i 0)

/-- The element `e` outside `S` has the largest gain against `S`. -/
def MaxGain {α : Type} [LinearOrderedField α]
    (n : Nat) (L : Nat → Nat → α) (S : List Nat) (e : Nat) : Prop :=
  ∀ x, x < n → x ∉ S → schur L S x ≤ schur L S e

/-- No element outside `S` exceeds `e` in the order on (gain against `S`, -index). -/
def TopGain {α : Type} [LinearOrderedField α]
    (n : Nat) (L : Nat → Nat → α) (S : List Nat) (e : Nat) : Prop :=
  ∀ x, x < n → x ∉ S →
    ElementValuePair.less { element := e, value := schur L S e }
      { element := x, value := schur L S x } = false

/-- Every heap entry of an element of `T` stores the gain of the element against a prefix
of the selection `S`. -/
def Stale {α : Type} [LinearOrderedField α]
    (L : Nat → Nat → α) (S T : List Nat) (Q : List (ElementValuePair α)) : Prop :=
  ∀ p ∈ Q, p.element ∈ T → ∃ m, m ≤ S.length ∧ p.value = schur L (S.take m) p.element

end DPP

namespace DPP

/-- The bookkeeping of `stochastic_greedy`: `T` has no repetition and `T_inv` gives the
position of every element of `T`. -/
def TInv (T : List Nat) (T_inv : Nat → Int) : Prop :=
  T.Nodup ∧ ∀ p, p < T.length → T_inv (T.getD p 0) = (p : Int)

end DPP

namespace DPP

/-- The records of chain `f` in an `InterlaceResult` are those of the selection sequence
`S` of the chain: the chain selected its elements at the steps `1..|S|` and nothing
afterwards, and record `j` holds the objective value of the first `j` elements. -/
def InterlaceResult.ChainRec {α : Type} [LinearOrderedField α]
    {sqrt log : α → α} [Numeric sqrt log]
    (L : Nat → Nat → α) (res : InterlaceResult α) (f : Fin 4)
    (S : List Nat) : Prop :=
  ∀ j, j < res.quadruples.length → ∃ q, res.quadruples.get? j = some q ∧
    (q f).element = (if 0 < j ∧ j ≤ S.length then some (S.getD (j - 1) 0) else none) ∧
    (q f).value = logdet log L (S.take j)

/-- Every element of the selection sequence `S` had a gain above `1` when it was
selected. -/
def GainsAbove {α : Type} [LinearOrderedField α]
    (L : Nat → Nat → α) (S : List Nat) : Prop :=
  ∀ j, j < S.length → 1 < schur L (S.take j) (S.getD j 0)

/-- A chain of interlace greedy in a state the driver reaches. -/
def Chain.Valid {α : Type} [LinearOrderedField α]
    {τ σ : Type} (n : Nat) (oops : OracleOps σ α) (Good : σ → Prop)
    (getT : τ → List Nat) (getD : τ → Bool) (SI : τ → Prop) (c : Chain τ σ) : Prop :=
  Good c.oracle ∧ SI c.strategy ∧ getD c.strategy = true ∧ (getT c.strategy).Nodup ∧
    ∀ x ∈ getT c.strategy, x < n ∧ x ∉ oops.get_solution c.oracle

/-- What chain `f` has recorded after `t` steps: its records are those of its selection,
which has at most `t` elements, each selected with a gain above `1`; a chain with fewer
elements has returned nothing and is dead. -/
def Chain.Recorded {α : Type} [LinearOrderedField α]
    {sqrt log : α → α} [Numeric sqrt log]
    {τ σ : Type} (L : Nat → Nat → α) (oops : OracleOps σ α)
    (Dead : τ → σ → Prop) (res : InterlaceResult α) (t : Nat) (f : Fin 4) (c : Chain τ σ) :
    Prop :=
  InterlaceResult.ChainRec L res f (oops.get_solution c.oracle) ∧
    GainsAbove L (oops.get_solution c.oracle) ∧ (oops.get_solution c.oracle).length ≤ t ∧
    ((oops.get_solution c.oracle).length < t → Dead c.strategy c.oracle)

end DPP

namespace DPP

/-- What a step of interlace greedy does to a chain, from `a` to `a1`, when its strategy
returned `r`: a dead chain returns nothing; a chain that returns nothing keeps its
selection and is dead; a chain that returns `e` appends it to its selection, and the gain
of `e` was above `1`. -/
def Chain.Out {α : Type} [LinearOrderedField α]
    {τ σ : Type} (L : Nat → Nat → α) (oops : OracleOps σ α) (Dead : τ → σ → Prop)
    (a : Chain τ σ) (r : Option Nat) (a1 : Chain τ σ) : Prop :=
  (Dead a.strategy a.oracle → r = none) ∧
  (r = none → oops.get_solution a1.oracle = oops.get_solution a.oracle ∧
    Dead a1.strategy a1.oracle) ∧
  (∀ e, r = some e → oops.get_solution a1.oracle = oops.get_solution a.oracle ++ [e] ∧
    1 < schur L (oops.get_solution a.oracle) e)

/-- Two chains of interlace greedy that work on the same ground set. -/
def Chain.Pair {α : Type} [LinearOrderedField α]
    {τ σ : Type} (n : Nat) (oops : OracleOps σ α) (Good : σ → Prop)
    (getT : τ → List Nat) (getD : τ → Bool) (SI : τ → Prop) (a b : Chain τ σ) : Prop :=
  Chain.Valid n oops Good getT getD SI a ∧ Chain.Valid n oops Good getT getD SI b ∧
    ∀ x, x ∈ getT a.strategy ↔ x ∈ getT b.strategy

end DPP

namespace DPP

/-- A driver returns a result whose value is the log-determinant of its solution, a
sequence of distinct indices below `n`; the determinant is the product of the gains of
the elements, each against the elements before it. -/
def ValueConsistent {α : Type} [LinearOrderedField α]
    {sqrt log : α → α} [Numeric sqrt log]
    (n : Nat) (L : Nat → Nat → α) (r : Except Fault (Result α)) : Prop :=
  ∃ res, r = .ok res ∧ res.value = logdet log L res.solution ∧ res.solution.Nodup ∧
    (∀ x ∈ res.solution, x < n) ∧
    (subMatrix L res.solution res.solution).det
      = ∏ j in Finset.range res.solution.length,
          schur L (res.solution.take j) (res.solution.getD j 0)

/-- The four drivers that take a strategy return results whose value is the
log-determinant of their solution: the last result and every result read from what
`greedy` and `interlace_greedy` return, and the result of `random_greedy` and of
`stochastic_greedy`. -/
def DriversConsistent {α : Type} [LinearOrderedField α]
    {sqrt log : α → α} [Numeric sqrt log] [FloorRing α]
    {τ σ : Type} (n : Nat) (L : Nat → Nat → α) (k : Nat) (param : Param α)
    (clock : Nat → α) (rng : Nat → Nat) (sops : StrategyOps τ σ α) (oops : OracleOps σ α) :
    Prop :=
  (∃ out, greedy sops oops n k param clock = .ok out ∧ ValueConsistent n L out.last ∧
    ∀ j, ValueConsistent n L (out.get j)) ∧
  ValueConsistent n L (random_greedy sops oops n k param clock rng) ∧
  ValueConsistent n L (stochastic_greedy log sops oops n k param clock rng) ∧
  (∃ out, interlace_greedy sops oops n k param clock = .ok out ∧ ValueConsistent n L out.last ∧
    ∀ j, ValueConsistent n L (out.get j))

end DPP

namespace DPP

/-- What plain greedy returns over a diagonal kernel: the last result holds one element
per iteration that ran; its `j`-th element is the index that exactly `j` indices below `n`
exceed in the order on (diagonal entry, -index); its value is the sum of the logarithms of
the diagonal entries of its elements; without a time limit it holds `k` elements and the
run is finished. -/
def DiagGreedy {α : Type} [LinearOrderedField α]
    {sqrt log : α → α} [Numeric sqrt log]
    {τ σ : Type} (n : Nat) (L : Nat → Nat → α) (k : Nat) (param : Param α)
    (clock : Nat → α) (sops : StrategyOps τ σ α) (oops : OracleOps σ α) : Prop :=
  ∃ out r, greedy sops oops n k param clock = .ok out ∧ out.last = .ok r ∧
    r.solution.length = greedy_len param clock k 0 ∧ r.solution.Nodup ∧
    (∀ x ∈ r.solution, x < n) ∧
    (∀ j, j < r.solution.length →
      rankIn (fun i => L i i) (List.range n) (r.solution.getD j 0) = j) ∧
    r.value = some ((((r.solution.map fun i => log (L i i)).sum : α) : WithBot α)) ∧
    (param.time_limit = ⊤ → r.solution.length = k ∧ out.finished = true)

/-- The gains of the elements outside `S` do not depend on the prefix of `S` they are
computed against. -/
def Flat {α : Type} [LinearOrderedField α]
    (n : Nat) (L : Nat → Nat → α) (S : List Nat) : Prop :=
  ∀ x m, x < n → x ∉ S → schur L (S.take m) x = schur L S x

end DPP

namespace DPP

/-- Plain greedy with the lazy strategy returns what plain greedy with the non-lazy
strategy returns, `outN` with the last result `rN`: the same solution sequence and the
same value, in the last result and in every result read from what is returned, and the
same flag `finished`. -/
def SameAsNonLazy {α : Type} [LinearOrderedField α]
    {sqrt log : α → α} [Numeric sqrt log]
    {σ : Type} (n k : Nat) (param : Param α) (clock : Nat → α)
    (ord : List Nat → List Nat) (oops : OracleOps σ α) (outN : GreedyResult α)
    (rN : Result α) : Prop :=
  ∃ outL rL, greedy (Lazy.ops ord oops) oops n k param clock = .ok outL ∧
    outL.last = .ok rL ∧ rL.solution = rN.solution ∧ rL.value = rN.value ∧
    outL.finished = outN.finished ∧
    ∀ j, ∃ a b, outL.get j = .ok a ∧ outN.get j = .ok b ∧ a.solution = b.solution ∧
      a.value = b.value

/-- A positive definite kernel on three elements in which, once element `0` is selected,
the elements `1` and `2` have the same gain `2`. -/
def tieKernel (α : Type) [LinearOrderedField α] : Nat → Nat → α := fun i j =>
  match i, j with
  | 0, 0 => 4
  | 0, 2 => 2
  | 2, 0 => 2
  | 1, 1 => 2
  | 2, 2 => 3
  | _, _ => 0

end DPP

namespace DPP

/-! ## Runs over an arbitrary kernel -/

/-- The objective value after commits with the gains `gs`, starting from `0.0`: every
commit adds the logarithm of the gain. -/
def valueOf {α : Type} [LinearOrderedField α] (log : α → α) (gs : List α) : Value α :=
  gs.foldl (fun a v => vadd a (dlog log (some v))) (some ((0 : α) : WithBot α))

/-- What the drivers rely on from an oracle over any kernel: `Good` holds of the states
the drivers reach, and `Holds o e v` says that the cell `d[e]` holds `v`, computed against
the current selection, so that `add(e)` adds `log v` to the objective value. -/
structure OracleBase {σ α : Type} [LinearOrderedField α] (oops : OracleOps σ α)
    (log : α → α) (Good : σ → Prop) (Holds : σ → Nat → α → Prop) : Prop where
  law : OracleLaw oops
  construct_good : ∀ k b, Good (oops.construct k b) ∧
    oops.get_solution (oops.construct k b) = [] ∧
    oops.get_value (oops.construct k b) = some ((0 : α) : WithBot α)
  compute_good : ∀ o e, Good o →
    Good (oops.compute_marginal_gain_exponential o e).2 ∧
    Holds (oops.compute_marginal_gain_exponential o e).2 e
      (oops.compute_marginal_gain_exponential o e).1
  compute_keep : ∀ o e x v, Good o → Holds o e v →
    Holds (oops.compute_marginal_gain_exponential o x).2 e v
  get_last_good : ∀ o e, Good o → Good (oops.get_last_marginal_gain_exponential o e).2
  get_last_keep : ∀ o e x v, Good o → Holds o e v →
    Holds (oops.get_last_marginal_gain_exponential o x).2 e v
  add_good : ∀ o e, Good o → Good (oops.add o e)
  add_value : ∀ o e v, Good o → Holds o e v →
    oops.get_value (oops.add o e) = vadd (oops.get_value o) (dlog log (some v))
  clear_good : ∀ o, Good o → Good (oops.clear_computed_offdiagonals_V o) ∧
    oops.get_solution (oops.clear_computed_offdiagonals_V o) = oops.get_solution o ∧
    oops.get_value (oops.clear_computed_offdiagonals_V o) = oops.get_value o

/-- In a direct oracle, every cell that is marked as computed has been written. -/
def Oracle.Written {α : Type} (o : Oracle.Instance α) : Prop :=
  ∀ e, o.u e ≠ -1 → o.d e ≠ none

/-- The cell of `e` in a direct oracle holds `v`, computed against the current selection. -/
def Oracle.Holds {α : Type} (o : Oracle.Instance α) (e : Nat) (v : α) : Prop :=
  o.d e = some v ∧ (o.S.length : Int) ≤ o.u e

/-- The cell of `e` in a fast oracle holds `v`, computed against the current selection. -/
def Fast.Holds {α : Type} (o : Fast.Instance α) (e : Nat) (v : α) : Prop :=
  o.d e = some v ∧ o.S.length ≤ o.u e

/-- The oracle states that a run of a driver passes through, from the state `o`: the
elements `es` are committed in this order, each when its cell holds its gain, computed
against the current selection; `gs` lists these gains.  Between the commits the oracle
computes gains of elements outside the selection, looks up last gains and clears its
log. -/
inductive Run {σ α : Type} (oops : OracleOps σ α) (Holds : σ → Nat → α → Prop) (o : σ) :
    List Nat → List α → σ → Prop
  | refl : Run oops Holds o [] [] o
  | compute (es : List Nat) (gs : List α) (p : σ) (x : Nat) : Run oops Holds o es gs p →
      x ∉ oops.get_solution p →
      Run oops Holds o es gs (oops.compute_marginal_gain_exponential p x).2
  | get_last (es : List Nat) (gs : List α) (p : σ) (x : Nat) : Run oops Holds o es gs p →
      Run oops Holds o es gs (oops.get_last_marginal_gain_exponential p x).2
  | clear (es : List Nat) (gs : List α) (p : σ) : Run oops Holds o es gs p →
      Run oops Holds o es gs (oops.clear_computed_offdiagonals_V p)
  | add (es : List Nat) (gs : List α) (p : σ) (e : Nat) (v : α) : Run oops Holds o es gs p →
      e ∉ oops.get_solution p → Holds p e v →
      Run oops Holds o (es ++ [e]) (gs ++ [v]) (oops.add p e)

/-- The snapshots of a `GreedyResult` are those of a run that committed the elements `es`
with the gains `gs`: snapshot `j` holds the `j`-th element and the objective value after
`j` commits. -/
def GreedyResult.Snap {α : Type} [LinearOrderedField α] (log : α → α) (res : GreedyResult α)
    (es : List Nat) (gs : List α) : Prop :=
  res.element_value_pairs.length = es.length + 1 ∧ res.measurements.length = es.length + 1 ∧
  ∀ j, j ≤ es.length → ∃ p, res.element_value_pairs.get? j = some p ∧
    p.value = valueOf log (gs.take j) ∧ ∀ i, j = i + 1 → p.element = some (es.getD i 0)

/-- The value that chain `f` recorded at step `j` of an `InterlaceResult`. -/
def InterlaceResult.valueAt {α : Type} (r : InterlaceResult α) (f : Fin 4) (j : Nat) :
    Value α :=
  match r.quadruples.get? j with
  | some q => (q f).value
  | none => none

/-- The element that chain `f` recorded at step `j` of an `InterlaceResult`. -/
def InterlaceResult.elementAt {α : Type} (r : InterlaceResult α) (f : Fin 4) (j : Nat) :
    Option Nat :=
  match r.quadruples.get? j with
  | some q => (q f).element
  | none => none

/-- The records of chain `f` in an `InterlaceResult` are those of a chain that committed
the elements `es` with the gains `gs`, at the steps `1..|es|`, and nothing afterwards. -/
def InterlaceResult.ChainSnap {α : Type} [LinearOrderedField α] (log : α → α)
    (res : InterlaceResult α) (f : Fin 4) (es : List Nat) (gs : List α) : Prop :=
  ∀ j, j < res.quadruples.length →
    res.elementAt f j = (if 0 < j ∧ j ≤ es.length then some (es.getD (j - 1) 0) else none) ∧
    res.valueAt f j = valueOf log (gs.take j)

end DPP

namespace DPP

/-! ## Calls of a strategy -/

/-- What a call that returns `r` does to the ground set, `T` before and `T1` after, as
sets: the element returned is removed and nothing else, and nothing is removed when
nothing is returned. -/
def PopFrame (T : List Nat) (r : Option Nat) (T1 : List Nat) : Prop :=
  T1.Nodup ∧ (r = none → ∀ x, x ∈ T1 ↔ x ∈ T) ∧
  (∀ e, r = some e → e ∈ T ∧ ∀ x, x ∈ T1 ↔ (x ∈ T ∧ x ≠ e)) ∧
  T1.length ≤ T.length ∧ T.length ≤ T1.length + 1

/-- The calls `pop_kth_largest(i)` for the indices of a list, one after the other, and
what they return. -/
def popSeq {τ σ α : Type} (sops : StrategyOps τ σ α) :
    List Nat → τ → σ → Except Fault (List (Option Nat) × τ × σ)
  | [], s, o => .ok ([], s, o)
  | i :: is, s, o =>
    match sops.pop_kth_largest s o i with
    | .error f => .error f
    | .ok (r, s1, o1) =>
      match popSeq sops is s1 o1 with
      | .error f => .error f
      | .ok (rs, s2, o2) => .ok (r :: rs, s2, o2)

/-- Every index of the list is below the size of the ground set at its call, when each
call removes an element from a ground set of size `m`. -/
def IndicesBelow : List Nat → Nat → Prop
  | [], _ => True
  | i :: is, m => i < m ∧ IndicesBelow is (m - 1)

end DPP

namespace DPP

/-! ## Chains of interlace greedy over an arbitrary kernel -/

/-- What a step of interlace greedy does to a chain, from `a` to `a1`, when its strategy
returned `r`: a dead chain returns nothing; a chain that returns nothing keeps its oracle's
selection and value and is dead; a chain that returns `e` commits it, with a gain above
`1`. -/
def Chain.Moved {τ σ α : Type} [LinearOrderedField α] (log : α → α) (n : Nat)
    (oops : OracleOps σ α) (Holds : σ → Nat → α → Prop) (Dead : τ → σ → Prop)
    (a : Chain τ σ) (r : Option Nat) (a1 : Chain τ σ) : Prop :=
  (Dead a.strategy a.oracle → r = none) ∧
  (r = none → Dead a1.strategy a1.oracle ∧
    oops.get_solution a1.oracle = oops.get_solution a.oracle ∧
    oops.get_value a1.oracle = oops.get_value a.oracle ∧
    ∀ o0 es gs, Run oops Holds o0 es gs a.oracle → Run oops Holds o0 es gs a1.oracle) ∧
  (∀ e, r = some e → e < n ∧ e ∉ oops.get_solution a.oracle ∧
    oops.get_solution a1.oracle = oops.get_solution a.oracle ++ [e] ∧
    ∃ g, 1 < g ∧
      oops.get_value a1.oracle = vadd (oops.get_value a.oracle) (dlog log (some g)) ∧
      ∀ o0 es gs, Run oops Holds o0 es gs a.oracle →
        Run oops Holds o0 (es ++ [e]) (gs ++ [g]) a1.oracle)

/-- What chain `f` has recorded after `t` steps: its oracle has run from the state `o0`
and committed at most `t` elements, distinct and below `n`, each with a gain above `1`;
the records of the chain are those of these commits; a chain with fewer than `t` elements
is dead. -/
def Chain.Logged {τ σ α : Type} [LinearOrderedField α] (log : α → α) (n : Nat)
    (oops : OracleOps σ α) (Holds : σ → Nat → α → Prop) (Dead : τ → σ → Prop) (o0 : σ)
    (res : InterlaceResult α) (t : Nat) (f : Fin 4) (c : Chain τ σ) : Prop :=
  ∃ gs, Run oops Holds o0 (oops.get_solution c.oracle) gs c.oracle ∧
    oops.get_value c.oracle = valueOf log gs ∧ (∀ g ∈ gs, 1 < g) ∧
    (oops.get_solution c.oracle).Nodup ∧ (∀ x ∈ oops.get_solution c.oracle, x < n) ∧
    InterlaceResult.ChainSnap log res f (oops.get_solution c.oracle) gs ∧
    (oops.get_solution c.oracle).length ≤ t ∧
    ((oops.get_solution c.oracle).length < t → Dead c.strategy c.oracle)

end DPP

namespace DPP

/-! ## Properties of what the drivers return, over an arbitrary kernel -/

/-- Snapshot indexing of what `greedy` returns: the run of its oracle commits the elements
`es`; there is one snapshot more than commits; for `t` below the number of snapshots,
`operator[](t)` returns a result marked finished whose solution, of length `t`, lists the
first `t` elements committed, and whose solution and value are those of the oracle in the
state `q` that the run passes through after `t` commits; snapshot `0` is the empty
solution with the value `0`; from the number of snapshots on, `operator[]` returns the
unfinished result. -/
def SnapshotIndexing {τ σ α : Type} [LinearOrderedField α] (sops : StrategyOps τ σ α)
    (oops : OracleOps σ α) (Holds : σ → Nat → α → Prop) (n k : Nat) (param : Param α)
    (clock : Nat → α) : Prop :=
  ∃ out es gs p, greedy sops oops n k param clock = .ok out ∧
    Run oops Holds (oops.construct k param.log_computed_offdiagonals_V) es gs p ∧
    out.size = es.length + 1 ∧
    (∀ t, t < out.size → ∃ r q, out.get t = .ok r ∧
      Run oops Holds (oops.construct k param.log_computed_offdiagonals_V)
        (es.take t) (gs.take t) q ∧
      Run oops Holds q (es.drop t) (gs.drop t) p ∧
      r.finished = true ∧ r.solution.length = t ∧ r.solution = es.take t ∧
      oops.get_solution q = r.solution ∧ oops.get_value q = r.value) ∧
    (∃ r0, out.get 0 = .ok r0 ∧ r0.solution = [] ∧
      r0.value = some ((0 : α) : WithBot α)) ∧
    (∀ t, out.size ≤ t → out.get t = .ok Result.unfinished) ∧
    (Result.unfinished : Result α).finished = false ∧
    (Result.unfinished : Result α).solution = [] ∧
    (Result.unfinished : Result α).value = some ((0 : α) : WithBot α)

/-- What `greedy` returns when a value is minus infinity: a snapshot whose value is minus
infinity is the last snapshot, and the result is not marked finished. -/
def StopsAtMinusInfinity {τ σ α : Type} [LinearOrderedField α] (sops : StrategyOps τ σ α)
    (oops : OracleOps σ α) (n k : Nat) (param : Param α) (clock : Nat → α) : Prop :=
  ∃ out, greedy sops oops n k param clock = .ok out ∧
    ∀ t r, out.get t = .ok r → isNegInf r.value = true →
      t + 1 = out.size ∧ out.last = .ok r ∧ out.finished = false

/-- The `1 × 1` zero matrix (and the zero matrix of any size). -/
def zeroKernel (α : Type) [LinearOrderedField α] : Nat → Nat → α := fun _ _ => 0

/-- The reading of the timer at step `t0` is the first that exceeds the limit. -/
def FirstExceeds {α : Type} [LinearOrderedField α] (param : Param α) (clock : Nat → α)
    (t0 : Nat) : Prop :=
  expired param (clock t0) = true ∧ ∀ t, t < t0 → expired param (clock t) = false

/-- What the drivers that take a strategy return when the reading at step `t0` is the
first that exceeds the limit.  Plain greedy returns a result that is not marked finished
and holds the snapshots of the steps it ran: those up to step `t0`, unless it stopped
before on a value of minus infinity, which is then the value of the last snapshot; every
snapshot can be read.  Random and stochastic greedy return the unfinished result.
Interlace greedy returns a result that is not marked finished and holds the snapshots of
the steps up to `t0`, each of which can be read. -/
def TimeLimited {τ σ α : Type} [LinearOrderedField α] [FloorRing α] (log : α → α)
    (sops : StrategyOps τ σ α) (oops : OracleOps σ α) (n k : Nat) (param : Param α)
    (clock : Nat → α) (rng : Nat → Nat) (t0 : Nat) : Prop :=
  (∃ out, greedy sops oops n k param clock = .ok out ∧ out.finished = false ∧
    2 ≤ out.size ∧ out.size ≤ t0 + 2 ∧
    (out.size = t0 + 2 ∨ ∃ r, out.last = .ok r ∧ isNegInf r.value = true) ∧
    ∀ t, t < out.size → ∃ r, out.get t = .ok r ∧ r.finished = true ∧
      r.solution.length = t) ∧
  random_greedy sops oops n k param clock rng = .ok Result.unfinished ∧
  stochastic_greedy log sops oops n k param clock rng = .ok Result.unfinished ∧
  (∃ out, interlace_greedy sops oops n k param clock = .ok out ∧ out.finished = false ∧
    out.size = t0 + 2 ∧
    ∀ t, t < out.size → ∃ r, out.get t = .ok r ∧ r.finished = true)

/-- A driver returns a result whose solution is a sequence of pairwise distinct indices
below `n`, of length at most `k`. -/
def Selects {α : Type} (n k : Nat) (r : Except Fault (Result α)) : Prop :=
  ∃ res, r = .ok res ∧ res.solution.Nodup ∧ (∀ x ∈ res.solution, x < n) ∧
    res.solution.length ≤ k

/-- The four drivers that take a strategy return selections of at most `k` elements: the
last result and every result read from what `greedy` and `interlace_greedy` return, and
the result of `random_greedy` and of `stochastic_greedy`. -/
def DriversSelect {τ σ α : Type} [LinearOrderedField α] [FloorRing α] (log : α → α)
    (sops : StrategyOps τ σ α) (oops : OracleOps σ α) (n k : Nat) (param : Param α)
    (clock : Nat → α) (rng : Nat → Nat) : Prop :=
  (∃ out, greedy sops oops n k param clock = .ok out ∧ Selects n k out.last ∧
    ∀ j, Selects n k (out.get j)) ∧
  Selects n k (random_greedy sops oops n k param clock rng) ∧
  Selects n k (stochastic_greedy log sops oops n k param clock rng) ∧
  (∃ out, interlace_greedy sops oops n k param clock = .ok out ∧ Selects n k out.last ∧
    ∀ j, Selects n k (out.get j))

/-- Reconstruction from what `interlace_greedy` returns: for `j` below the number of
snapshots, `operator[](j)` returns a result whose value is the value that a chain `f`
recorded at step `j`, which is finite and at least the value that every chain recorded at
step `j`; its solution has `t` elements, the elements that chain `f` recorded at the steps
`1..t`, where `t` is the first step at which the value recorded by chain `f` is its value
at step `j`. -/
def InterlaceReconstruction {τ σ α : Type} [LinearOrderedField α]
    (sops : StrategyOps τ σ α) (oops : OracleOps σ α) (n k : Nat) (param : Param α)
    (clock : Nat → α) : Prop :=
  ∃ out, interlace_greedy sops oops n k param clock = .ok out ∧
    ∀ j, j < out.size → ∃ r f t, out.get j = .ok r ∧ r.value = out.valueAt f j ∧
      (∀ f', ∃ x y : α, out.valueAt f' j = some (x : WithBot α) ∧
        out.valueAt f j = some (y : WithBot α) ∧ x ≤ y) ∧
      t ≤ j ∧ out.valueAt f t = out.valueAt f j ∧
      (∀ i, i < t → out.valueAt f i ≠ out.valueAt f j) ∧
      r.solution.length = t ∧
      ∀ i, i < t → out.elementAt f (i + 1) = some (r.solution.getD i 0)

/-- The kernel of the driver tests: `diag(4, 3, 2, 0.5, 0.25, 0.125, 0.1, 0.1)`. -/
def linearDiag (α : Type) [LinearOrderedField α] : Nat → Nat → α := fun i j =>
  if i = j then
    match i with
    | 0 => 4
    | 1 => 3
    | 2 => 2
    | 3 => 5 / 10
    | 4 => 25 / 100
    | 5 => 125 / 1000
    | 6 => 1 / 10
    | 7 => 1 / 10
    | _ => 0
  else 0

end DPP

namespace DPP

/-! ## Double greedy over a diagonal kernel -/

/-- The matrix `Linv` is the inverse of `L`, as `n × n` matrices: `L * Linv = 1`. -/
def IsInverse {α : Type} [LinearOrderedField α] (n : Nat) (L Linv : Nat → Nat → α) : Prop :=
  ∀ i j, i < n → j < n →
    (∑ k in Finset.range n, L i k * Linv k j) = if i = j then 1 else 0

/-- A driver returns a finished result whose solution lists, in increasing order, the
indices below `n` whose diagonal entry is at least `1`, and whose value is the sum of the
logarithms of these diagonal entries. -/
def DiagDouble {α : Type} [LinearOrderedField α] (log : α → α) (n : Nat)
    (L : Nat → Nat → α) (r : Except Fault (Result α)) : Prop :=
  ∃ res, r = .ok res ∧ res.finished = true ∧
    res.solution = (List.range n).filter (fun i => decide (1 ≤ L i i)) ∧
    res.value = some ((((res.solution.map fun i => log (L i i)).sum : α) : WithBot α))

/-- The diagonal matrix of the inverses of the diagonal entries of `L`. -/
def diagInv {α : Type} [LinearOrderedField α] (L : Nat → Nat → α) : Nat → Nat → α :=
  fun i j => if i = j then (L i i)⁻¹ else 0

end DPP

namespace DPP

/-! ## The two strategies over an oracle to which nothing is added -/

/-- An oracle to which nothing is added: in the states `Fix` the selection is empty, and
both `compute_marginal_gain_exponential(e)` and `get_last_marginal_gain_exponential(e)`
return `g e` and lead to a state `Fix`. -/
structure FlatOracle {σ α : Type} (oops : OracleOps σ α) (g : Nat → α) (Fix : σ → Prop) :
    Prop where
  law : OracleLaw oops
  empty : ∀ o, Fix o → oops.get_solution o = []
  compute : ∀ o e, Fix o → (oops.compute_marginal_gain_exponential o e).1 = g e ∧
    Fix (oops.compute_marginal_gain_exponential o e).2
  get_last : ∀ o e, Fix o → (oops.get_last_marginal_gain_exponential o e).1 = g e ∧
    Fix (oops.get_last_marginal_gain_exponential o e).2

/-- The states of the direct oracle with an empty selection: a cell that has been written
holds the diagonal entry, computed against the empty selection. -/
def Oracle.Flat {α : Type} (L : Nat → Nat → α) (o : Oracle.Instance α) : Prop :=
  o.S = [] ∧ ∀ e, o.u e = -1 ∨ (o.u e = 0 ∧ o.d e = some (L e e))

/-- The states of the fast oracle with an empty selection: a cell that has been written
holds the diagonal entry. -/
def Fast.Flat {α : Type} (L : Nat → Nat → α) (o : Fast.Instance α) : Prop :=
  o.S = [] ∧ ∀ e, o.d e = none ∨ o.d e = some (L e e)

/-- The pair of an element and its gain `g`. -/
def gpair {α : Type} (g : Nat → α) (e : Nat) : ElementValuePair α :=
  { element := e, value := g e }

/-- The heap of a lazy strategy holds one entry for each element of the ground set, with
the gain `g` of the element. -/
def Lazy.InSync {α : Type} (g : Nat → α) (s : Lazy.Instance α) : Prop :=
  s.Q.Perm (s.T.map (gpair g))

/-- A non-lazy strategy with its oracle and a lazy strategy with its oracle that hold the
same ground set and the same flag, over oracles with an empty selection and the
gains `g`. -/
def Agreeing {σ α : Type} (oops : OracleOps σ α) (g : Nat → α) (Fix : σ → Prop)
    (sN : NonLazy.Instance) (oN : σ) (sL : Lazy.Instance α) (oL : σ) : Prop :=
  sN.T.Nodup ∧ sN.T.Perm sL.T ∧ sN.add_dummy = sL.add_dummy ∧ Lazy.InSync g sL ∧
  oops.get_solution oN = [] ∧ (∀ x, gainAt oops oN x = g x) ∧ Fix oL

/-- The calls `pop_kth_largest(i)` for the indices `is`, one after the other, return the
same on the strategy `sopsN` and on the strategy `sopsL`, each built from the ground set
`range` with the flag `b` over its own oracle in the state `o`. -/
def SameAnswers {τN τL σ α : Type} (sopsN : StrategyOps τN σ α) (sopsL : StrategyOps τL σ α)
    (range : List Nat) (b : Bool) (o : σ) (is : List Nat) : Prop :=
  ∃ rs sN oN sL oL,
    popSeq sopsN is (sopsN.construct range b o).1 (sopsN.construct range b o).2
      = .ok (rs, sN, oN) ∧
    popSeq sopsL is (sopsL.construct range b o).1 (sopsL.construct range b o).2
      = .ok (rs, sL, oL)

end DPP

namespace DPP

/-! ## The bookkeeping of stochastic greedy, and the probability of double greedy -/

/-- The bookkeeping of `stochastic_greedy` over the ground set `[0, n)`: `T` lists the
elements that have not been removed, without repetition, `T_inv[T[p]] = p` for every
position `p` of `T`, and `T_inv[e] = -1` for every element `e` that has been removed. -/
def Bookkeeping (n : Nat) (T : List Nat) (T_inv : Nat → Int) : Prop :=
  TInv T T_inv ∧ (∀ x ∈ T, x < n) ∧ ∀ e, e < n → e ∉ T → T_inv e = -1

/-- The gain `v > 1.0 ? std::log(v) : 0.0` of `double_greedy`. -/
def double_greedy_mg {α : Type} [LinearOrderedField α] (log : α → α) (v : α) : α :=
  if 1 < v then log v else 0

/-- The probability `p` of `double_greedy`, from the two values that
`compute_marginal_gain_exponential` returns. -/
def double_greedy_p {α : Type} [LinearOrderedField α] (log : α → α) (v v_inv : α) : α :=
  if double_greedy_mg log v = 0 ∧ double_greedy_mg log v_inv = 0 then 1
  else double_greedy_mg log v / (double_greedy_mg log v + double_greedy_mg log v_inv)

/-- One iteration of the loop of `double_greedy` at element `i`: the two oracles
afterwards. -/
def double_greedy_step {σ α : Type} [LinearOrderedField α] (log : α → α)
    (oops oops_inv : OracleOps σ α) (rng : Nat → Nat) (i : Nat) (o oi : σ) : σ × σ :=
  let r := oops.compute_marginal_gain_exponential o i
  let ri := oops_inv.compute_marginal_gain_exponential oi i
  if bernoulli (double_greedy_p log r.1 ri.1) (rng i) then (oops.add r.2 i, ri.2)
  else (r.2, oops_inv.add ri.2 i)

/-- The two oracles of `double_greedy` when its loop ends, with `m` iterations left at
element `i`; nothing when a reading of the timer exceeds the limit. -/
def double_greedy_oracles {σ α : Type} [LinearOrderedField α] (log : α → α)
    (oops oops_inv : OracleOps σ α) (param : Param α) (clock : Nat → α)
    (rng : Nat → Nat) : Nat → Nat → σ → σ → Option (σ × σ)
  | 0, _, o, oi => some (o, oi)
  | m + 1, i, o, oi =>
    if expired param (clock i) then none
    else double_greedy_oracles log oops oops_inv param clock rng m (i + 1)
      (double_greedy_step log oops oops_inv rng i o oi).1
      (double_greedy_step log oops oops_inv rng i o oi).2

/-- The result that `double_greedy` builds from its two oracles when its loop has run to
the end. -/
def double_greedy_result {σ α : Type} (oops oops_inv : OracleOps σ α) (time : α)
    (o oi : σ) : Result α :=
  { finished := true, solution := oops.get_solution o, value := oops.get_value o,
    time := time, num_computed_entries_L := 0,
    num_oracle_calls := oops.get_num_oracle_calls o + oops_inv.get_num_oracle_calls oi,
    num_computed_offdiagonals_V :=
      oops.get_num_computed_offdiagonals_V o + oops_inv.get_num_computed_offdiagonals_V oi,
    computed_offdiagonals_V := [] }

end DPP

namespace DPP

/-! ## The states of the oracles under arbitrary calls -/

/-- The states of the direct oracle over `L` on `n` elements that calls of its methods
with elements below `n` reach, in any order. -/
inductive Oracle.Called {α : Type} [LinearOrderedField α] (log : α → α)
    (L : Nat → Nat → α) (n : Nat) : Oracle.Instance α → Prop
  | construct : Oracle.Called log L n (Oracle.construct α)
  | compute (o : Oracle.Instance α) (e : Nat) : Oracle.Called log L n o → e < n →
      Oracle.Called log L n (Oracle.compute_marginal_gain_exponential L o e).2
  | get_last (o : Oracle.Instance α) (e : Nat) : Oracle.Called log L n o → e < n →
      Oracle.Called log L n (Oracle.get_last_marginal_gain_exponential L o e).2
  | add (o : Oracle.Instance α) (e : Nat) : Oracle.Called log L n o → e < n →
      Oracle.Called log L n (Oracle.add log o e)

/-- The states of the fast oracle over `L` on `n` elements that calls of its methods with
elements below `n` reach, in any order. -/
inductive Fast.Called {α : Type} [LinearOrderedField α] (sqrt log : α → α)
    (V0 : Nat → Nat → Option α) (L : Nat → Nat → α) (n : Nat) : Fast.Instance α → Prop
  | construct (logV : Bool) : Fast.Called sqrt log V0 L n (Fast.construct V0 logV)
  | compute (o : Fast.Instance α) (e : Nat) : Fast.Called sqrt log V0 L n o → e < n →
      Fast.Called sqrt log V0 L n (Fast.compute_marginal_gain_exponential sqrt L o e).2
  | get_last (o : Fast.Instance α) (e : Nat) : Fast.Called sqrt log V0 L n o → e < n →
      Fast.Called sqrt log V0 L n (Fast.get_last_marginal_gain_exponential L o e).2
  | add (o : Fast.Instance α) (e : Nat) : Fast.Called sqrt log V0 L n o → e < n →
      Fast.Called sqrt log V0 L n (Fast.add log o e)
  | clear (o : Fast.Instance α) : Fast.Called sqrt log V0 L n o →
      Fast.Called sqrt log V0 L n { o with computed_offdiagonals_V := [] }

/-- Every cell of `d` that has been written holds a value that is not negative. -/
def NonNegCells {α : Type} [LinearOrderedField α] (d : Nat → Option α) : Prop :=
  ∀ e x, d e = some x → 0 ≤ x

end DPP

namespace DPP

/-! ## The two selections of double greedy -/

/-- The lists `A` and `B` split `[0, i)`: both are strictly increasing, hold indices below
`i` only, and every index below `i` is in exactly one of them. -/
def Splits (i : Nat) (A B : List Nat) : Prop :=
  A.Pairwise (· < ·) ∧ B.Pairwise (· < ·) ∧ (∀ x ∈ A, x < i) ∧ (∀ x ∈ B, x < i) ∧
  ∀ x, x < i → (x ∈ A ∧ x ∉ B) ∨ (x ∉ A ∧ x ∈ B)

/-- What `double_greedy` returns, from its two oracles at the end of its loop: when the
loop runs to its end, the result is built from the two oracles, whose selections split
`[0, n)`; when a reading of the timer exceeds the limit, the result is the unfinished
result; the loop runs to its end when no reading exceeds the limit. -/
def DoublePartition {σ α : Type} [LinearOrderedField α] (log : α → α)
    (oops oops_inv : OracleOps σ α) (n : Nat) (param : Param α) (clock : Nat → α)
    (rng : Nat → Nat) : Prop :=
  (∀ o oi, double_greedy_oracles log oops oops_inv param clock rng n 0
        (oops.construct n false) (oops_inv.construct n false) = some (o, oi) →
      double_greedy log oops oops_inv n param clock rng
        = .ok (double_greedy_result oops oops_inv (clock n) o oi) ∧
      Splits n (oops.get_solution o) (oops_inv.get_solution oi) ∧
      (double_greedy_result oops oops_inv (clock n) o oi).solution.Pairwise (· < ·)) ∧
  (double_greedy_oracles log oops oops_inv param clock rng n 0
        (oops.construct n false) (oops_inv.construct n false) = none →
      double_greedy log oops oops_inv n param clock rng = .ok Result.unfinished) ∧
  (greedy_fin param clock n 0 = true →
    ∃ o oi, double_greedy_oracles log oops oops_inv param clock rng n 0
      (oops.construct n false) (oops_inv.construct n false) = some (o, oi))

end DPP

namespace DPP

/-! ## The values recorded along the chains of interlace greedy -/

/-- The values that the four chains of `interlace_greedy` record: along each chain they
are finite and do not decrease; the value increases from a step to the next exactly when
the chain recorded an element at the next step, and then by the logarithm of a gain above
`1`, and stays as it is otherwise; so the steps before `j` whose value is less than the
value at step `j` come before those whose value is not. -/
def ChainsMonotone {τ σ α : Type} [LinearOrderedField α] (log : α → α)
    (sops : StrategyOps τ σ α) (oops : OracleOps σ α) (n k : Nat) (param : Param α)
    (clock : Nat → α) : Prop :=
  ∃ out, interlace_greedy sops oops n k param clock = .ok out ∧ ∀ f : Fin 4,
    (∀ i j, i ≤ j → j < out.size → ∃ x y : α, out.valueAt f i = some (x : WithBot α) ∧
      out.valueAt f j = some (y : WithBot α) ∧ x ≤ y) ∧
    (∀ j, j + 1 < out.size →
      (vlt (out.valueAt f j) (out.valueAt f (j + 1)) = true ↔
        (out.elementAt f (j + 1)).isSome = true) ∧
      (out.elementAt f (j + 1) = none → out.valueAt f (j + 1) = out.valueAt f j) ∧
      ((out.elementAt f (j + 1)).isSome = true → ∃ g : α, 1 < g ∧
        out.valueAt f (j + 1) = vadd (out.valueAt f j) (dlog log (some g)))) ∧
    (∀ i i1 j, i ≤ i1 → i1 < j → j < out.size →
      vlt (out.valueAt f i1) (out.valueAt f j) = true →
      vlt (out.valueAt f i) (out.valueAt f j) = true)

end DPP

namespace DPP

/-! ## Results with the empty solution -/

/-- A driver returns a finished result with the empty solution and the value `0`. -/
def EmptyResult {α : Type} [LinearOrderedField α] (r : Except Fault (Result α)) : Prop :=
  ∃ res, r = .ok res ∧ res.finished = true ∧ res.solution = [] ∧
    res.value = some ((0 : α) : WithBot α)

/-- The four drivers that take a strategy, called with `k = 0`: each returns a finished
result with the empty solution and the value `0`; what `greedy` and `interlace_greedy`
return is marked finished and holds the initial snapshot only, which is its last. -/
def EmptyBudget {τ σ α : Type} [LinearOrderedField α] [FloorRing α] (log : α → α)
    (sops : StrategyOps τ σ α) (oops : OracleOps σ α) (n : Nat) (param : Param α)
    (clock : Nat → α) (rng : Nat → Nat) : Prop :=
  (∃ out, greedy sops oops n 0 param clock = .ok out ∧ out.finished = true ∧
    out.size = 1 ∧ EmptyResult out.last) ∧
  EmptyResult (random_greedy sops oops n 0 param clock rng) ∧
  EmptyResult (stochastic_greedy log sops oops n 0 param clock rng) ∧
  (∃ out, interlace_greedy sops oops n 0 param clock = .ok out ∧ out.finished = true ∧
    out.size = 1 ∧ EmptyResult out.last)

end DPP

namespace DPP

/-! ## Kernels whose diagonal entries are at most `1` -/

/-- An oracle over which no gain of an element below `n` exceeds `1` while nothing is
added: the states `Cold` are kept by the computations, the look-ups and the clearing of the
log, and a cell that holds the gain of an element below `n` in a state `Cold` holds a value
that is at most `1`. -/
structure ColdOracle {σ α : Type} [LinearOrderedField α] (n : Nat) (oops : OracleOps σ α)
    (Holds : σ → Nat → α → Prop) (Cold : σ → Prop) : Prop where
  construct : ∀ k b, Cold (oops.construct k b)
  compute : ∀ o e, Cold o → Cold (oops.compute_marginal_gain_exponential o e).2
  get_last : ∀ o e, Cold o → Cold (oops.get_last_marginal_gain_exponential o e).2
  clear : ∀ o, Cold o → Cold (oops.clear_computed_offdiagonals_V o)
  holds : ∀ o e v, Cold o → Holds o e v → e < n → v ≤ 1

/-- The states of the direct oracle with an empty selection whose cells of the elements
below `n` hold values that are at most `1`. -/
def Oracle.Cold {α : Type} [LinearOrderedField α] (n : Nat) (o : Oracle.Instance α) : Prop :=
  o.S = [] ∧ ∀ e x, e < n → o.d e = some x → x ≤ 1

/-- The states of the fast oracle with an empty selection whose cells of the elements
below `n` hold values that are at most `1`. -/
def Fast.Cold {α : Type} [LinearOrderedField α] (n : Nat) (o : Fast.Instance α) : Prop :=
  o.S = [] ∧ ∀ e x, e < n → o.d e = some x → x ≤ 1

/-- What `random_greedy` returns: the unfinished result, or the solution and the value of
its oracle after a run that committed at most `k` elements, each with a gain above `1`;
the solution has at most `k` elements and the value is finite and not negative; every
index drawn is in `[0, max(0, k - 1)]`, and a step that is not out of time goes on with
the oracle that has added the element popped at the index drawn, or with the oracle as the
strategy left it when nothing was popped. -/
def NotPadded {τ σ α : Type} [LinearOrderedField α] (log : α → α)
    (sops : StrategyOps τ σ α) (oops : OracleOps σ α) (Holds : σ → Nat → α → Prop)
    (n k : Nat) (param : Param α) (clock : Nat → α) (rng : Nat → Nat) : Prop :=
  ∃ r, random_greedy sops oops n k param clock rng = .ok r ∧
    (r = Result.unfinished ∨ ∃ es gs p,
      Run oops Holds (oops.construct k param.log_computed_offdiagonals_V) es gs p ∧
      r = final_result oops p (clock k) ∧ r.solution = es ∧ r.value = valueOf log gs ∧
      es.length ≤ k ∧ ∀ g ∈ gs, 1 < g) ∧
    r.solution.length ≤ k ∧
    (∃ x : α, r.value = some (x : WithBot α) ∧ 0 ≤ x) ∧
    (∀ t, 0 ≤ uniform_int 0 (max 0 (k - 1)) (rng t) ∧
      uniform_int 0 (max 0 (k - 1)) (rng t) ≤ max 0 (k - 1)) ∧
    ∀ m t s o r s1 o1,
      sops.pop_kth_largest s o (uniform_int 0 (max 0 (k - 1)) (rng t)) = .ok (r, s1, o1) →
      expired param (clock t) = false →
      random_greedy_loop sops oops k param clock rng (m + 1) t s o =
        random_greedy_loop sops oops k param clock rng m (t + 1) s1
          (match r with
            | some e => oops.add o1 e
            | none => o1)

/-- A driver returns a result with the empty solution and the value `0`. -/
def ColdResult {α : Type} [LinearOrderedField α] (r : Except Fault (Result α)) : Prop :=
  ∃ res, r = .ok res ∧ res.solution = [] ∧ res.value = some ((0 : α) : WithBot α)

/-- What `interlace_greedy` returns when no chain commits: no chain records an element at
any step, every value recorded is `0`, and the last snapshot has the empty solution and
the value `0`. -/
def ColdChains {τ σ α : Type} [LinearOrderedField α] (sops : StrategyOps τ σ α)
    (oops : OracleOps σ α) (n k : Nat) (param : Param α) (clock : Nat → α) : Prop :=
  ∃ out, interlace_greedy sops oops n k param clock = .ok out ∧
    (∀ (f : Fin 4) (j : Nat), j < out.size → out.elementAt f j = none ∧
      out.valueAt f j = some ((0 : α) : WithBot α)) ∧
    ColdResult out.last

/-- The kernel of the driver tests with no gain above `1`:
`diag(0.3, 0.2, 0.9, 0.5, 0.25, 0.125, 0.1, 0.1)`. -/
def coldDiag (α : Type) [LinearOrderedField α] : Nat → Nat → α := fun i j =>
  if i = j then
    match i with
    | 0 => 3 / 10
    | 1 => 2 / 10
    | 2 => 9 / 10
    | 3 => 5 / 10
    | 4 => 25 / 100
    | 5 => 125 / 1000
    | 6 => 1 / 10
    | 7 => 1 / 10
    | _ => 0
  else 0

end DPP

namespace DPP

/-! ## What a run returns apart from the times it measured -/

/-- A measurement with its time set to `0`. -/
def Measurement.untimed {α : Type} [LinearOrderedField α] (m : Measurement α) :
    Measurement α :=
  { m with time := 0 }

/-- A result with its time set to `0`. -/
def Result.untimed {α : Type} [LinearOrderedField α] (r : Result α) : Result α :=
  { r with time := 0 }

/-- A `GreedyResult` with the times of its measurements set to `0`. -/
def GreedyResult.untimed {α : Type} [LinearOrderedField α] (r : GreedyResult α) :
    GreedyResult α :=
  { r with measurements := r.measurements.map Measurement.untimed }

/-- An `InterlaceResult` with the times of its measurements set to `0`. -/
def InterlaceResult.untimed {α : Type} [LinearOrderedField α] (r : InterlaceResult α) :
    InterlaceResult α :=
  { r with measurements := r.measurements.map Measurement.untimed }

/-- Two runs return results that differ in their times at most: the same solution, the
same value, the same flag and the same counters. -/
def SameResult {α : Type} [LinearOrderedField α] (a b : Except Fault (Result α)) : Prop :=
  ∃ r r', a = .ok r ∧ b = .ok r' ∧ r.solution = r'.solution ∧ r.value = r'.value ∧
    r.finished = r'.finished ∧ r.untimed = r'.untimed

/-- A single-shot driver returns the same whatever the timer measures. -/
def ClockFree {α : Type} [LinearOrderedField α]
    (run : (Nat → α) → Except Fault (Result α)) : Prop :=
  ∀ clock clock', SameResult (run clock) (run clock')

/-- The driver `greedy` returns the same snapshots whatever the timer measures. -/
def ClockFreeGreedy {α : Type} [LinearOrderedField α]
    (run : (Nat → α) → Except Fault (GreedyResult α)) : Prop :=
  ∀ clock clock', ∃ out out', run clock = .ok out ∧ run clock' = .ok out' ∧
    out.untimed = out'.untimed ∧ out.size = out'.size ∧ out.finished = out'.finished ∧
    (∀ j, SameResult (out.get j) (out'.get j)) ∧ SameResult out.last out'.last

/-- The driver `interlace_greedy` returns the same snapshots whatever the timer
measures. -/
def ClockFreeInterlace {α : Type} [LinearOrderedField α]
    (run : (Nat → α) → Except Fault (InterlaceResult α)) : Prop :=
  ∀ clock clock', ∃ out out', run clock = .ok out ∧ run clock' = .ok out' ∧
    out.untimed = out'.untimed ∧ out.size = out'.size ∧ out.finished = out'.finished ∧
    (∀ j, SameResult (out.get j) (out'.get j)) ∧ SameResult out.last out'.last

/-- The four drivers that take a strategy return the same whatever the timer measures. -/
def Deterministic {τ σ α : Type} [LinearOrderedField α] [FloorRing α] (log : α → α)
    (sops : StrategyOps τ σ α) (oops : OracleOps σ α) (n k : Nat) (param : Param α)
    (rng : Nat → Nat) : Prop :=
  ClockFreeGreedy (fun clock => greedy sops oops n k param clock) ∧
  ClockFree (fun clock => random_greedy sops oops n k param clock rng) ∧
  ClockFree (fun clock => stochastic_greedy log sops oops n k param clock rng) ∧
  ClockFreeInterlace (fun clock => interlace_greedy sops oops n k param clock)

/-- The method `NonLazy::pop_kth_largest(i)` returns the same from two enumerations of the
same ground set: it returns in both cases, with the same element or with nothing in both,
leaves the same ground set and the same flag, and leaves the oracle with the selection,
the value and the gains it had. -/
def OrderFree {σ α : Type} [LinearOrderedField α] (oops : OracleOps σ α) : Prop :=
  ∀ (T T' : List Nat) (b : Bool) (o : σ) (i : Nat), T.Nodup → T.Perm T' →
    (∀ e ∈ T, e ∉ oops.get_solution o) → (b = true ∨ i < T.length) →
    ∃ r s1 o1 s1' o1',
      NonLazy.pop_kth_largest oops { T := T, add_dummy := b } o i = .ok (r, s1, o1) ∧
      NonLazy.pop_kth_largest oops { T := T', add_dummy := b } o i = .ok (r, s1', o1') ∧
      s1.T.Perm s1'.T ∧ s1.add_dummy = s1'.add_dummy ∧ GainEq oops o o1 ∧ GainEq oops o o1'

/-- The comparison `operator<` of `ElementValuePair` is a strict total order on pairs
with distinct elements. -/
def StrictTotal (α : Type) [LinearOrderedField α] : Prop :=
  (∀ a : ElementValuePair α, a.less a = false) ∧
  (∀ a b : ElementValuePair α, a.less b = true → b.less a = false) ∧
  (∀ a b c : ElementValuePair α, a.less b = true → b.less c = true → a.less c = true) ∧
  (∀ a b : ElementValuePair α, a.element ≠ b.element → a.less b = true ∨ b.less a = true) ∧
  ∀ a b : ElementValuePair α,
    a.less b = (decide (a.value < b.value) ||
      (decide (a.value = b.value) && decide (b.element < a.element)))

end DPP

namespace DPP

/-! ## Ties between the strategies -/

/-- What plain greedy returns on the tie kernel with `k = 2` over the direct oracle: the
non-lazy strategy the solution `[0, 1]`, the lazy strategy the solution `[0, 2]`, both with
the value `log 8`. -/
def TieRuns {α : Type} [LinearOrderedField α] (log : α → α) : Prop :=
  ∃ outN rN outL rL,
    greedy (NonLazy.ops (fun l => l.dedup) (Oracle.ops log (tieKernel α)))
      (Oracle.ops log (tieKernel α)) 3 2
      { time_limit := ⊤, log_computed_offdiagonals_V := false } (fun _ => 0) = .ok outN ∧
    outN.last = .ok rN ∧ rN.solution = [0, 1] ∧ rN.value = some ((log 8 : α) : WithBot α) ∧
    greedy (Lazy.ops (fun l => l.dedup) (Oracle.ops log (tieKernel α)))
      (Oracle.ops log (tieKernel α)) 3 2
      { time_limit := ⊤, log_computed_offdiagonals_V := false } (fun _ => 0) = .ok outL ∧
    outL.last = .ok rL ∧ rL.solution = [0, 2] ∧ rL.value = some ((log 8 : α) : WithBot α)

end DPP

namespace DPP

/-! ## The work counter of the fast oracle -/

/-- The counter `U` of a fast oracle on `n` elements is the sum of the entries of
`last_size`, none of which exceeds the size of the selection; the entries beyond `n`, which
the model has and the code has not, are `0`. -/
def Fast.Counted {α : Type} (n : Nat) (o : Fast.Instance α) : Prop :=
  o.U = ∑ e in Finset.range n, o.u e ∧ (∀ e, o.u e ≤ o.S.length) ∧ ∀ e, n ≤ e → o.u e = 0

/-- The pairs `(e, S[j])` for `j` from `last_size[e]` to `|S| - 1`, in this order. -/
def Fast.pairs {α : Type} (o : Fast.Instance α) (e : Nat) : List (Nat × Nat) :=
  (List.range' (o.u e) (o.S.length - o.u e)).map fun j => (e, o.S.getD j 0)

/-- What a call `compute_marginal_gain_exponential(e)` does to the counters of the fast
oracle in the state `o`: `U` grows by `|S| - last_size[e]`, `last_size[e]` becomes `|S|`,
the other entries of `last_size` and the selection stay, and the log grows by
`Fast.pairs o e` when logging is on and stays as it is otherwise. -/
def Fast.Charged {α : Type} [LinearOrderedField α] (sqrt : α → α) (L : Nat → Nat → α)
    (o : Fast.Instance α) (e : Nat) : Prop :=
  (Fast.compute_marginal_gain_exponential sqrt L o e).2.U = o.U + (o.S.length - o.u e) ∧
  (Fast.compute_marginal_gain_exponential sqrt L o e).2.u e = o.S.length ∧
  (∀ a, a ≠ e → (Fast.compute_marginal_gain_exponential sqrt L o e).2.u a = o.u a) ∧
  (Fast.compute_marginal_gain_exponential sqrt L o e).2.S = o.S ∧
  (Fast.compute_marginal_gain_exponential sqrt L o e).2.log_computed_offdiagonals_V
    = o.log_computed_offdiagonals_V ∧
  (Fast.compute_marginal_gain_exponential sqrt L o e).2.computed_offdiagonals_V
    = (if o.log_computed_offdiagonals_V then o.computed_offdiagonals_V ++ Fast.pairs o e
       else o.computed_offdiagonals_V)

end DPP

namespace DPP

/-! ## The states that the loop of plain greedy passes through -/

/-- The body of the loop of `greedy` on the strategy and the oracle: the strategy pops its
largest element, which the driver dereferences, the oracle adds it, and the log is cleared
when logging is on. -/
def greedy_step {τ σ α : Type} (sops : StrategyOps τ σ α) (oops : OracleOps σ α)
    (param : Param α) (x : τ × σ) : Except Fault (τ × σ) :=
  match sops.pop_largest x.1 x.2 with
  | .error f => .error f
  | .ok (none, _, _) => .error .assertion
  | .ok (some e, s1, o1) =>
    .ok (s1, if param.log_computed_offdiagonals_V then
               oops.clear_computed_offdiagonals_V (oops.add o1 e)
             else oops.add o1 e)

/-- The strategy and the oracle of `greedy` after `t` iterations of its loop, whether or
not the loop has returned before. -/
def greedy_states {τ σ α : Type} (sops : StrategyOps τ σ α) (oops : OracleOps σ α)
    (n k : Nat) (param : Param α) : Nat → Except Fault (τ × σ)
  | 0 => .ok (sops.construct (List.range n) false
      (oops.construct k param.log_computed_offdiagonals_V))
  | t + 1 =>
    match greedy_states sops oops n k param t with
    | .error f => .error f
    | .ok x => greedy_step sops oops param x

/-- The loop of `greedy` passes through the states `greedy_states`: it starts from
`greedy_states 0`, and an iteration from a strategy and an oracle whose `pop_largest`
returns `e` records the step and returns, or goes on from what `greedy_step` leaves. -/
def GreedyUnfolds {τ σ α : Type} [LinearOrderedField α] (sops : StrategyOps τ σ α)
    (oops : OracleOps σ α) (n k : Nat) (param : Param α) (clock : Nat → α) : Prop :=
  (k ≤ n → ∃ x, greedy_states sops oops n k param 0 = .ok x ∧
    greedy sops oops n k param clock
      = greedy_loop sops oops param clock k 0 x.1 x.2 (GreedyResult.init α)) ∧
  ∀ (m t : Nat) (s : τ) (o : σ) (res : GreedyResult α) (e : Nat) (s1 : τ) (o1 : σ),
    sops.pop_largest s o = .ok (some e, s1, o1) →
    greedy_step sops oops param (s, o)
      = .ok (s1, if param.log_computed_offdiagonals_V then
                   oops.clear_computed_offdiagonals_V (oops.add o1 e)
                 else oops.add o1 e) ∧
    greedy_loop sops oops param clock (m + 1) t s o res
      = (if expired param (clock t) || isNegInf (oops.get_value (oops.add o1 e)) then
           .ok (res.add (some e) (oops.get_value (oops.add o1 e)) (clock t) 0
             (oops.get_num_oracle_calls (oops.add o1 e))
             (oops.get_num_computed_offdiagonals_V (oops.add o1 e))
             (oops.get_computed_offdiagonals_V (oops.add o1 e)))
         else greedy_loop sops oops param clock m (t + 1) s1
           (if param.log_computed_offdiagonals_V then
              oops.clear_computed_offdiagonals_V (oops.add o1 e)
            else oops.add o1 e)
           (res.add (some e) (oops.get_value (oops.add o1 e)) (clock t) 0
             (oops.get_num_oracle_calls (oops.add o1 e))
             (oops.get_num_computed_offdiagonals_V (oops.add o1 e))
             (oops.get_computed_offdiagonals_V (oops.add o1 e))))

/-- Plain greedy never dereferences an empty pick: the run returns, and before each of
its `k` iterations the ground set `getT` of the strategy lists `n - t ≥ 1` distinct
elements below `n` outside the selection, the strategy is `Live`, and `pop_largest()`
returns an element of the ground set. -/
def NeverEmpty {τ σ α : Type} [LinearOrderedField α] (sops : StrategyOps τ σ α)
    (oops : OracleOps σ α) (getT : τ → List Nat) (Live : τ → Prop) (n k : Nat)
    (param : Param α) (clock : Nat → α) : Prop :=
  (∃ out, greedy sops oops n k param clock = .ok out) ∧
  GreedyUnfolds sops oops n k param clock ∧
  ∀ t, t < k → ∃ s o e s1 o1, greedy_states sops oops n k param t = .ok (s, o) ∧
    (getT s).Nodup ∧ (getT s).length = n - t ∧ 1 ≤ n - t ∧
    (∀ x, x ∈ getT s ↔ (x < n ∧ x ∉ oops.get_solution o)) ∧
    (oops.get_solution o).length = t ∧ Live s ∧
    sops.pop_largest s o = .ok (some e, s1, o1) ∧ e ∈ getT s

end DPP

namespace DPP

/-! ## The states that the loop of stochastic greedy passes through -/

/-- The sample size `current_s` of an iteration of `stochastic_greedy`. -/
def stochastic_size {σ α : Type} (oops : OracleOps σ α) (n s : Nat) (o : σ) : Nat :=
  min s (n - (oops.get_solution o).length)

/-- The candidates `T[0..current_s)` of an iteration of `stochastic_greedy`, after the
shuffle. -/
def stochastic_candidates {σ α : Type} (oops : OracleOps σ α) (n s : Nat) (rng : Nat → Nat)
    (x : Nat × List Nat × (Nat → Int) × σ) : List Nat :=
  (fisher_yates_shuffle rng (stochastic_size oops n s x.2.2.2) x.1 x.2.1 x.2.2.1).1.take
    (stochastic_size oops n s x.2.2.2)

/-- The body of the loop of `stochastic_greedy` on the position in the engine output, the
list `T`, its inverse and the oracle. -/
def stochastic_greedy_step {τ σ α : Type} (sops : StrategyOps τ σ α) (oops : OracleOps σ α)
    (n s : Nat) (rng : Nat → Nat) (x : Nat × List Nat × (Nat → Int) × σ) :
    Except Fault (Nat × List Nat × (Nat → Int) × σ) :=
  let current_s := min s (n - (oops.get_solution x.2.2.2).length)
  let sh := fisher_yates_shuffle rng current_s x.1 x.2.1 x.2.2.1
  let strategy := sops.construct (sh.1.take current_s) false x.2.2.2
  match sops.pop_largest strategy.1 strategy.2 with
  | .error f => .error f
  | .ok (r, _, o1) =>
    let st : σ × List Nat × (Nat → Int) := match r with
      | some e => (oops.add o1 e, remove_T e sh.1 sh.2.1)
      | none => (o1, sh.1, sh.2.1)
    .ok (sh.2.2, st.2.1, st.2.2, st.1)

/-- The position, the list `T`, its inverse and the oracle of `stochastic_greedy` after
`t` iterations of its loop with the sample size `s`, whether or not the loop has returned
before. -/
def stochastic_greedy_states {τ σ α : Type} (sops : StrategyOps τ σ α)
    (oops : OracleOps σ α) (n k s : Nat) (param : Param α) (rng : Nat → Nat) :
    Nat → Except Fault (Nat × List Nat × (Nat → Int) × σ)
  | 0 => .ok (0, List.range n, fun e => (e : Int),
      oops.construct k param.log_computed_offdiagonals_V)
  | t + 1 =>
    match stochastic_greedy_states sops oops n k s param rng t with
    | .error f => .error f
    | .ok x => stochastic_greedy_step sops oops n s rng x

/-- The loop of `stochastic_greedy` passes through the states `stochastic_greedy_states`:
it starts from the state `0`, and an iteration returns the unfinished result or goes on
from what `stochastic_greedy_step` leaves. -/
def StochasticUnfolds {τ σ α : Type} [LinearOrderedField α] [FloorRing α] (log : α → α)
    (sops : StrategyOps τ σ α) (oops : OracleOps σ α) (n k : Nat) (param : Param α)
    (clock : Nat → α) (rng : Nat → Nat) : Prop :=
  (k ≤ n → stochastic_greedy log sops oops n k param clock rng
    = stochastic_greedy_loop sops oops n k (Nat.ceil ((n : α) / (k : α) * log (1 / (1 / 2))))
        param clock rng k 0 0 (List.range n) (fun e => (e : Int))
        (oops.construct k param.log_computed_offdiagonals_V)) ∧
  ∀ (s m t pos : Nat) (T : List Nat) (T_inv : Nat → Int) (o : σ)
    (x : Nat × List Nat × (Nat → Int) × σ),
    stochastic_greedy_step sops oops n s rng (pos, T, T_inv, o) = .ok x →
    stochastic_greedy_loop sops oops n k s param clock rng (m + 1) t pos T T_inv o
      = (if expired param (clock t) then .ok Result.unfinished
         else stochastic_greedy_loop sops oops n k s param clock rng m (t + 1) x.1 x.2.1
           x.2.2.1 x.2.2.2)

/-- Stochastic greedy fills the budget, `s` being the sample size that the driver
computes: the run returns a finished result whose solution lists `k` distinct elements
below `n`, and before each of its `k` iterations the list `T` lists the `n - t` elements
below `n` outside the selection, the sample size `min(s, n - |S|)` is at least `1` and at
most `|T|`, the candidates are that many distinct elements of `T`, and the strategy built
over them returns one of them, which the oracle adds. -/
def FillsBudget {τ σ α : Type} [LinearOrderedField α] [FloorRing α] (log : α → α)
    (sops : StrategyOps τ σ α) (oops : OracleOps σ α) (n k s : Nat) (param : Param α)
    (clock : Nat → α) (rng : Nat → Nat) : Prop :=
  (∃ r, stochastic_greedy log sops oops n k param clock rng = .ok r ∧ r.finished = true ∧
    r.solution.length = k ∧ r.solution.Nodup ∧ ∀ x ∈ r.solution, x < n) ∧
  StochasticUnfolds log sops oops n k param clock rng ∧
  s = Nat.ceil ((n : α) / (k : α) * log (1 / (1 / 2))) ∧
  ∀ t, t < k → ∃ (x : Nat × List Nat × (Nat → Int) × σ) (e : Nat) (s1 : τ) (o1 : σ)
      (y : Nat × List Nat × (Nat → Int)),
    stochastic_greedy_states sops oops n k s param rng t = .ok x ∧
    (oops.get_solution x.2.2.2).length = t ∧ x.2.1.Nodup ∧ x.2.1.length = n - t ∧
    (∀ a, a ∈ x.2.1 ↔ (a < n ∧ a ∉ oops.get_solution x.2.2.2)) ∧
    stochastic_size oops n s x.2.2.2 = min s (n - t) ∧
    1 ≤ stochastic_size oops n s x.2.2.2 ∧
    stochastic_size oops n s x.2.2.2 ≤ x.2.1.length ∧
    (stochastic_candidates oops n s rng x).Nodup ∧
    (stochastic_candidates oops n s rng x).length = stochastic_size oops n s x.2.2.2 ∧
    (∀ a ∈ stochastic_candidates oops n s rng x, a ∈ x.2.1) ∧
    sops.pop_largest
      (sops.construct (stochastic_candidates oops n s rng x) false x.2.2.2).1
      (sops.construct (stochastic_candidates oops n s rng x) false x.2.2.2).2
      = .ok (some e, s1, o1) ∧
    e ∈ stochastic_candidates oops n s rng x ∧
    stochastic_greedy_states sops oops n k s param rng (t + 1)
      = .ok (y.1, y.2.1, y.2.2, oops.add o1 e) ∧
    oops.get_solution (oops.add o1 e) = oops.get_solution x.2.2.2 ++ [e]

end DPP

namespace DPP

/-! ## The states that the loop of interlace greedy passes through -/

/-- Chain `f` of the four chains. -/
def Chains.get {τ σ : Type} (c : Chains τ σ) (f : Fin 4) : Chain τ σ :=
  ![c.c0, c.c1, c.c2, c.c3] f

/-- The four chains of `interlace_greedy` after `t` iterations of its loop, whether or not
the loop has returned before. -/
def interlace_chains {τ σ α : Type} (sops : StrategyOps τ σ α) (oops : OracleOps σ α)
    (n k : Nat) (param : Param α) : Nat → Except Fault (Chains τ σ)
  | 0 => .ok { c0 := Chain.init sops oops n k param, c1 := Chain.init sops oops n k param,
               c2 := Chain.init sops oops n k param, c3 := Chain.init sops oops n k param }
  | t + 1 =>
    match interlace_chains sops oops n k param t with
    | .error f => .error f
    | .ok c =>
      match interlace_step sops oops t c with
      | .error f => .error f
      | .ok (_, c') => .ok c'

/-- What the four chains pop in iteration `t` of the loop of `interlace_greedy`, and the
chains afterwards. -/
def interlace_popped {τ σ α : Type} (sops : StrategyOps τ σ α) (oops : OracleOps σ α)
    (n k : Nat) (param : Param α) (t : Nat) :
    Except Fault ((Fin 4 → Option Nat) × Chains τ σ) :=
  match interlace_chains sops oops n k param t with
  | .error f => .error f
  | .ok c => interlace_step sops oops t c

/-- The loop of `interlace_greedy` passes through the chains `interlace_chains`: it starts
from the chains `0`, and an iteration records what `interlace_step` returns and returns, or
goes on from the chains that `interlace_step` leaves. -/
def InterlaceUnfolds {τ σ α : Type} [LinearOrderedField α] (sops : StrategyOps τ σ α)
    (oops : OracleOps σ α) (n k : Nat) (param : Param α) (clock : Nat → α) : Prop :=
  (k ≤ n → ∃ c, interlace_chains sops oops n k param 0 = .ok c ∧
    interlace_greedy sops oops n k param clock
      = interlace_greedy_loop sops oops param clock k 0 c (InterlaceResult.init α)) ∧
  ∀ (m t : Nat) (c : Chains τ σ) (res : InterlaceResult α) (es : Fin 4 → Option Nat)
    (c' : Chains τ σ), interlace_step sops oops t c = .ok (es, c') →
    ∃ res1 : InterlaceResult α,
      res1.quadruples = res.quadruples ++
        [fun f => { element := es f, value := oops.get_value (c'.get f).oracle }] ∧
      interlace_greedy_loop sops oops param clock (m + 1) t c res
        = (if expired param (clock t) then .ok res1
           else interlace_greedy_loop sops oops param clock m (t + 1) c' res1)

/-- Interlace chains never resume.  A chain that pops nothing in an iteration pops nothing
in any later one.  The run returns; the record of step `j + 1` holds what the chains
popped in iteration `j`; the elements of each chain are recorded at the steps `1..m` for
some `m` and none afterwards; and for every `j` below the number of snapshots, `get_max(j)`
returns a chain `f` and a step `t ≤ j`, the first step at which the value recorded by the
chain is not less than its value at step `j`, `operator[](j)` returns, and its solution is
the selection of the oracle of chain `f` after `t` iterations. -/
def NeverResume {τ σ α : Type} [LinearOrderedField α] (sops : StrategyOps τ σ α)
    (oops : OracleOps σ α) (n k : Nat) (param : Param α) (clock : Nat → α) : Prop :=
  InterlaceUnfolds sops oops n k param clock ∧
  (∀ t, ∃ es c', interlace_popped sops oops n k param t = .ok (es, c')) ∧
  (∀ (t' t : Nat) (es' es : Fin 4 → Option Nat) (c' c : Chains τ σ) (f : Fin 4), t' ≤ t →
    interlace_popped sops oops n k param t' = .ok (es', c') →
    interlace_popped sops oops n k param t = .ok (es, c) → es' f = none → es f = none) ∧
  ∃ out, interlace_greedy sops oops n k param clock = .ok out ∧
    (∀ j, j + 1 < out.size → ∃ es c', interlace_popped sops oops n k param j = .ok (es, c') ∧
      ∀ f, out.elementAt f (j + 1) = es f) ∧
    (∀ f : Fin 4, ∃ m, ∀ j, j < out.size →
      (0 < j → j ≤ m → (out.elementAt f j).isSome = true) ∧
      (m < j → out.elementAt f j = none)) ∧
    ∀ j, j < out.size → ∃ r f t v c, out.get_max j = .ok (f, t, v) ∧ out.get j = .ok r ∧
      t ≤ j ∧ (∀ i, i < t → vlt (out.valueAt f i) (out.valueAt f j) = true) ∧
      (t < j → vlt (out.valueAt f t) (out.valueAt f j) = false) ∧
      interlace_chains sops oops n k param t = .ok c ∧
      r.solution = oops.get_solution (c.get f).oracle

/-- What `operator[]` returns is what the chosen chain holds: the run returns, and for
every `j` below the number of snapshots, `operator[](j)` returns, and its solution is the
selection of the oracle of the chain that `get_max(j)` chooses after `j` iterations. -/
def ReturnsSelection {τ σ α : Type} [LinearOrderedField α] (sops : StrategyOps τ σ α)
    (oops : OracleOps σ α) (n k : Nat) (param : Param α) (clock : Nat → α) : Prop :=
  ∃ out, interlace_greedy sops oops n k param clock = .ok out ∧
    ∀ j, j < out.size → ∃ r f t v c, out.get_max j = .ok (f, t, v) ∧ out.get j = .ok r ∧
      interlace_chains sops oops n k param j = .ok c ∧
      r.solution = oops.get_solution (c.get f).oracle

/-- Two chains that work on the same ground set, the elements below `n` that neither has
selected, and whose selections share the leading part `h`, of at most one element, and
nothing else. -/
def Chain.Apart {τ σ α : Type} (n : Nat) (oops : OracleOps σ α) (getT : τ → List Nat)
    (h : List Nat) (a b : Chain τ σ) : Prop :=
  (∀ x, x ∈ getT a.strategy ↔ x ∈ getT b.strategy) ∧
  (∀ x, x ∈ getT a.strategy ↔
    (x < n ∧ x ∉ oops.get_solution a.oracle ∧ x ∉ oops.get_solution b.oracle)) ∧
  h.length ≤ 1 ∧
  ∃ A B, oops.get_solution a.oracle = h ++ A ∧ oops.get_solution b.oracle = h ++ B ∧
    ∀ x ∈ A, x ∉ B

/-- In one half of `interlace_subroutine` on the chains `a` and `b`, the element that `a`
pops is in the ground set of `b`, from which `remove` takes it without failing. -/
def CrossSafe {τ σ α : Type} (sops : StrategyOps τ σ α) (oops : OracleOps σ α)
    (getT : τ → List Nat) (a b : Chain τ σ) : Prop :=
  ∃ r a1 b1, interlace_half sops oops a b = .ok (r, a1, b1) ∧
    ∀ e, r = some e → e ∈ getT b.strategy ∧ ∃ sb, sops.remove b.strategy e = .ok sb

/-- Interlaced chains stay disjoint.  The loop of `interlace_greedy` passes through the
chains `interlace_chains`.  After every number `t` of iterations, the chains `0`
and `1` have the same ground set and disjoint selections, and the chains `2` and `3` have
the same ground set and selections that share at most their first element; the next
iteration returns, and in both halves of the calls of `interlace_subroutine` that it
makes the element popped is in the ground set that it is removed from. -/
def StayApart {τ σ α : Type} [LinearOrderedField α] (sops : StrategyOps τ σ α)
    (oops : OracleOps σ α) (getT : τ → List Nat) (n k : Nat) (param : Param α)
    (clock : Nat → α) : Prop :=
  InterlaceUnfolds sops oops n k param clock ∧
  ∀ t, ∃ c es c', interlace_chains sops oops n k param t = .ok c ∧
    Chain.Apart n oops getT [] c.c0 c.c1 ∧
    (∀ x ∈ oops.get_solution c.c0.oracle, x ∉ oops.get_solution c.c1.oracle) ∧
    (∃ h, Chain.Apart n oops getT h c.c2 c.c3) ∧
    interlace_step sops oops t c = .ok (es, c') ∧
    CrossSafe sops oops getT c.c0 c.c1 ∧
    (∀ r a1 b1, interlace_half sops oops c.c0 c.c1 = .ok (r, a1, b1) →
      CrossSafe sops oops getT b1 a1) ∧
    (0 < t → CrossSafe sops oops getT c.c2 c.c3 ∧
      ∀ r a1 b1, interlace_half sops oops c.c2 c.c3 = .ok (r, a1, b1) →
        CrossSafe sops oops getT b1 a1)

end DPP

namespace DPP

/-! ## The pivots that the fast oracle divides by -/

/-- The cells `d[l]` that the iterations of the loop of
`Fast::compute_marginal_gain_exponential(e)` read in `std::sqrt(d[l])`, in the order of the
iterations; the arguments are those of `Fast.loop`. -/
def Fast.pivots_loop {α : Type} [LinearOrderedField α] (sqrt : α → α) (L : Nat → Nat → α) :
    Nat → Fast.Instance α → Nat → α → List (Option α)
  | 0, _, _, _ => []
  | k + 1, o, e, x =>
    o.d (o.S.getD (o.u e) 0) ::
      Fast.pivots_loop sqrt L k (Fast.step sqrt L o e x).2 e (Fast.step sqrt L o e x).1

/-- The cells `d[l]` that a call of `Fast::compute_marginal_gain_exponential(e)` reads in
`std::sqrt(d[l])`. -/
def Fast.pivots {α : Type} [LinearOrderedField α] (sqrt : α → α) (L : Nat → Nat → α)
    (o : Fast.Instance α) (e : Nat) : List (Option α) :=
  let r := Fast.get_last_marginal_gain_exponential L o e
  Fast.pivots_loop sqrt L (r.2.S.length - r.2.u e) r.2 e r.1

/-- An oracle with a log of what its calls of `compute_marginal_gain_exponential` cost:
the state of the oracle and the log, to which a call for `e` from the state `o` appends
`cost o e`.  Nothing reads the log. -/
def traced {σ α β : Type} (oops : OracleOps σ α) (cost : σ → Nat → List β) :
    OracleOps (σ × List β) α :=
  { construct := fun k b => (oops.construct k b, [])
    compute_marginal_gain_exponential := fun p e =>
      ((oops.compute_marginal_gain_exponential p.1 e).1,
        (oops.compute_marginal_gain_exponential p.1 e).2, p.2 ++ cost p.1 e)
    get_last_marginal_gain_exponential := fun p e =>
      ((oops.get_last_marginal_gain_exponential p.1 e).1,
        (oops.get_last_marginal_gain_exponential p.1 e).2, p.2)
    add := fun p e => (oops.add p.1 e, p.2)
    get_solution := fun p => oops.get_solution p.1
    get_value := fun p => oops.get_value p.1
    get_num_oracle_calls := fun p => oops.get_num_oracle_calls p.1
    get_num_computed_offdiagonals_V := fun p => oops.get_num_computed_offdiagonals_V p.1
    get_computed_offdiagonals_V := fun p => oops.get_computed_offdiagonals_V p.1
    clear_computed_offdiagonals_V := fun p => (oops.clear_computed_offdiagonals_V p.1, p.2) }

/-- The fast oracle over the matrix `L` with a log of the cells `d[l]` that the calls of
`compute_marginal_gain_exponential` have read in `std::sqrt(d[l])`. -/
def Fast.traced {α : Type} [LinearOrderedField α] (sqrt log : α → α)
    (V0 : Nat → Nat → Option α) (L : Nat → Nat → α) :
    OracleOps (Fast.Instance α × List (Option α)) α :=
  DPP.traced (Fast.ops sqrt log V0 L) (Fast.pivots sqrt L)

/-- The operations of `tops` are those of `oops` on the first component, and keep the log
in the second, to which `compute_marginal_gain_exponential` alone appends, the cost of the
call. -/
def Traces {σ α β : Type} (oops : OracleOps σ α) (cost : σ → Nat → List β)
    (tops : OracleOps (σ × List β) α) : Prop :=
  (∀ k b, tops.construct k b = (oops.construct k b, [])) ∧
  (∀ p e, tops.compute_marginal_gain_exponential p e =
    ((oops.compute_marginal_gain_exponential p.1 e).1,
      (oops.compute_marginal_gain_exponential p.1 e).2, p.2 ++ cost p.1 e)) ∧
  (∀ p e, tops.get_last_marginal_gain_exponential p e =
    ((oops.get_last_marginal_gain_exponential p.1 e).1,
      (oops.get_last_marginal_gain_exponential p.1 e).2, p.2)) ∧
  (∀ p e, tops.add p e = (oops.add p.1 e, p.2)) ∧
  (∀ p, tops.get_solution p = oops.get_solution p.1) ∧
  (∀ p, tops.get_value p = oops.get_value p.1) ∧
  (∀ p, tops.get_num_oracle_calls p = oops.get_num_oracle_calls p.1) ∧
  (∀ p, tops.get_num_computed_offdiagonals_V p = oops.get_num_computed_offdiagonals_V p.1) ∧
  (∀ p, tops.get_computed_offdiagonals_V p = oops.get_computed_offdiagonals_V p.1) ∧
  (∀ p, tops.clear_computed_offdiagonals_V p = (oops.clear_computed_offdiagonals_V p.1, p.2))

/-- Every cell of the log holds a positive number. -/
def PositivePivots {α : Type} [LinearOrderedField α] (tr : List (Option α)) : Prop :=
  ∀ x ∈ tr, ∃ y : α, x = some y ∧ 0 < y

/-- The cell `d[l]` of every element `l` of the selection holds a number above `c`. -/
def Fast.Above {α : Type} [LinearOrderedField α] (c : α) (o : Fast.Instance α) : Prop :=
  ∀ l ∈ o.S, ∃ y : α, o.d l = some y ∧ c < y

/-- Every cell of `d` that holds a number holds a non-negative one. -/
def Fast.Nonneg {α : Type} [LinearOrderedField α] (o : Fast.Instance α) : Prop :=
  ∀ e y, o.d e = some y → 0 ≤ y

/-- The objective value is a finite number. -/
def Fast.Finite {α : Type} [LinearOrderedField α] (o : Fast.Instance α) : Prop :=
  ∃ a : α, o.value = some (a : WithBot α)

/-- The log holds positive cells only, and the cells of the elements selected are above
`c`. -/
def Fast.Guard {α : Type} [LinearOrderedField α] (c : α)
    (p : Fast.Instance α × List (Option α)) : Prop :=
  PositivePivots p.2 ∧ Fast.Above c p.1

/-- A state of the traced fast oracle from which plain greedy goes on: the log holds
positive cells only, the cells of the elements selected are positive, no cell is negative
and the objective value is finite. -/
def Fast.Live {α : Type} [LinearOrderedField α] (p : Fast.Instance α × List (Option α)) :
    Prop :=
  Fast.Guard 0 p ∧ Fast.Nonneg p.1 ∧ Fast.Finite p.1

/-- A state of the traced fast oracle over the zero matrix before the first commit:
nothing is selected, no iteration of the loop of `compute_marginal_gain_exponential` has
run, and every cell of `d` that holds a number holds `0`. -/
def Fast.ZeroStart {α : Type} [LinearOrderedField α]
    (p : Fast.Instance α × List (Option α)) : Prop :=
  p.1.S = [] ∧ p.2 = [] ∧ (∀ x, p.1.u x = 0) ∧ (∀ x y, p.1.d x = some y → y = 0) ∧
    p.1.value = some ((0 : α) : WithBot α)

/-- A state of the traced fast oracle after the commit of `e0`, whose cell holds `0`: for
every other element, either the loop of `compute_marginal_gain_exponential` has not run
or the log holds the cell `0`. -/
def Fast.ZeroNext {α : Type} [LinearOrderedField α] (e0 : Nat)
    (p : Fast.Instance α × List (Option α)) : Prop :=
  p.1.S = [e0] ∧ p.1.d e0 = some 0 ∧ ∀ x, x ≠ e0 → (p.1.u x = 0 ∨ some (0 : α) ∈ p.2)

/-! ## The states that the loop of random greedy passes through -/

/-- The body of the loop of `random_greedy` at step `t` on the strategy and the oracle. -/
def random_greedy_step {τ σ α : Type} (sops : StrategyOps τ σ α) (oops : OracleOps σ α)
    (k : Nat) (rng : Nat → Nat) (t : Nat) (x : τ × σ) : Except Fault (τ × σ) :=
  match sops.pop_kth_largest x.1 x.2 (uniform_int 0 (max 0 (k - 1)) (rng t)) with
  | .error f => .error f
  | .ok (r, s1, o1) =>
    .ok (s1, match r with
      | some e => oops.add o1 e
      | none => o1)

/-- The strategy and the oracle of `random_greedy` after `t` iterations of its loop,
whether or not the loop has returned before. -/
def random_greedy_states {τ σ α : Type} (sops : StrategyOps τ σ α) (oops : OracleOps σ α)
    (n k : Nat) (param : Param α) (rng : Nat → Nat) : Nat → Except Fault (τ × σ)
  | 0 => .ok (sops.construct (List.range n) true
      (oops.construct k param.log_computed_offdiagonals_V))
  | t + 1 =>
    match random_greedy_states sops oops n k param rng t with
    | .error f => .error f
    | .ok x => random_greedy_step sops oops k rng t x

/-- The loop of `random_greedy` passes through the states `random_greedy_states`: it
starts from the state `0`, and an iteration returns the unfinished result or goes on from
what `random_greedy_step` leaves. -/
def RandomUnfolds {τ σ α : Type} [LinearOrderedField α] (sops : StrategyOps τ σ α)
    (oops : OracleOps σ α) (n k : Nat) (param : Param α) (clock : Nat → α)
    (rng : Nat → Nat) : Prop :=
  (k ≤ n → ∃ x, random_greedy_states sops oops n k param rng 0 = .ok x ∧
    random_greedy sops oops n k param clock rng
      = random_greedy_loop sops oops k param clock rng k 0 x.1 x.2) ∧
  ∀ (m t : Nat) (s : τ) (o : σ) (x : τ × σ),
    random_greedy_step sops oops k rng t (s, o) = .ok x →
    random_greedy_loop sops oops k param clock rng (m + 1) t s o
      = (if expired param (clock t) then .ok Result.unfinished
         else random_greedy_loop sops oops k param clock rng m (t + 1) x.1 x.2)

/-! ## Drivers over the fast oracle with the log of its pivots -/

/-- Plain greedy divides by positive pivots only: the run returns, and after each of the
iterations that the run makes the log holds positive cells only; when a further iteration
follows, the cells of the elements selected are positive. -/
def GuardedGreedy {τ α : Type} [LinearOrderedField α]
    (sops : StrategyOps τ (Fast.Instance α × List (Option α)) α)
    (oops : OracleOps (Fast.Instance α × List (Option α)) α) (n k : Nat) (param : Param α)
    (clock : Nat → α) : Prop :=
  GreedyUnfolds sops oops n k param clock ∧
  ∃ out, greedy sops oops n k param clock = .ok out ∧
    ∀ t, t < out.size → ∃ s o, greedy_states sops oops n k param t = .ok (s, o) ∧
      PositivePivots o.2 ∧ (t + 1 < out.size → Fast.Above 0 o.1)

/-- Random greedy divides by positive pivots only: the run returns, and after every
number of iterations the log holds positive cells only and the cells of the elements
selected are above `1`. -/
def GuardedRandom {τ α : Type} [LinearOrderedField α]
    (sops : StrategyOps τ (Fast.Instance α × List (Option α)) α)
    (oops : OracleOps (Fast.Instance α × List (Option α)) α) (n k : Nat) (param : Param α)
    (clock : Nat → α) (rng : Nat → Nat) : Prop :=
  RandomUnfolds sops oops n k param clock rng ∧
  (∃ r, random_greedy sops oops n k param clock rng = .ok r) ∧
  ∀ t, ∃ s o, random_greedy_states sops oops n k param rng t = .ok (s, o) ∧
    PositivePivots o.2 ∧ Fast.Above 1 o.1

/-- Interlace greedy divides by positive pivots only: the run returns, and after every
number of iterations the log of each chain holds positive cells only and the cells of the
elements that the chain has selected are above `1`. -/
def GuardedInterlace {τ α : Type} [LinearOrderedField α]
    (sops : StrategyOps τ (Fast.Instance α × List (Option α)) α)
    (oops : OracleOps (Fast.Instance α × List (Option α)) α) (n k : Nat) (param : Param α)
    (clock : Nat → α) : Prop :=
  InterlaceUnfolds sops oops n k param clock ∧
  (∃ out, interlace_greedy sops oops n k param clock = .ok out) ∧
  ∀ t, ∃ c, interlace_chains sops oops n k param t = .ok c ∧
    ∀ f : Fin 4, PositivePivots (c.get f).oracle.2 ∧ Fast.Above 1 (c.get f).oracle.1

/-- Stochastic greedy on a `2 × 2` matrix with `k = 2` divides by the square root of zero:
the sample size is `1`; the loop passes through the states `stochastic_greedy_states`; the
run does not stop before the budget is filled; the first iteration divides by nothing and
commits an element `e0` whose cell `d[e0]` holds `0`, which makes the objective value
minus infinity; and the second iteration reads the cell `0` in `std::sqrt(d[l])`. -/
def ZeroPivot {τ α : Type} [LinearOrderedField α] [FloorRing α] (log : α → α)
    (sops : StrategyOps τ (Fast.Instance α × List (Option α)) α)
    (oops : OracleOps (Fast.Instance α × List (Option α)) α) (param : Param α)
    (clock : Nat → α) (rng : Nat → Nat) : Prop :=
  Nat.ceil (((2 : Nat) : α) / ((2 : Nat) : α) * log (1 / (1 / 2))) = 1 ∧
  StochasticUnfolds log sops oops 2 2 param clock rng ∧
  (∃ r, stochastic_greedy log sops oops 2 2 param clock rng = .ok r ∧ r.finished = true ∧
    r.solution.length = 2) ∧
  ∃ (x1 x2 : Nat × List Nat × (Nat → Int) × Fast.Instance α × List (Option α)) (e0 : Nat),
    stochastic_greedy_states sops oops 2 2 1 param rng 1 = .ok x1 ∧
    x1.2.2.2.1.S = [e0] ∧ x1.2.2.2.1.d e0 = some 0 ∧ isNegInf x1.2.2.2.1.value = true ∧
    x1.2.2.2.2 = [] ∧
    stochastic_greedy_states sops oops 2 2 1 param rng 2 = .ok x2 ∧
    some (0 : α) ∈ x2.2.2.2.2

end DPP

namespace DPP

/-! ## Oracle calls of plain greedy over the direct oracle -/

/-- The number of elements below `n` outside the selection whose cell was not computed
against the current selection: those for which `compute_marginal_gain_exponential` counts
an oracle call. -/
def Oracle.stale {α : Type} (n : Nat) (o : Oracle.Instance α) : Nat :=
  (List.range n).countP fun e => decide (e ∉ o.S) && decide (o.u e < (o.S.length : Int))

/-- The oracle calls made so far and those that computing every element outside the
selection would add. -/
def Oracle.potential {α : Type} (n : Nat) (o : Oracle.Instance α) : Nat :=
  o.num_oracle_calls + Oracle.stale n o

/-- The sum `(n - 0) + (n - 1) + ... + (n - (t - 1))`. -/
def callsUpTo (n t : Nat) : Nat := ∑ s in Finset.range t, (n - s)

/-- What plain greedy records of its oracle calls, `Rel` relating the number recorded after
step `t` to `callsUpTo n t`: the run returns, its loop passes through the states
`greedy_states`, and for every step `1 ≤ t < size()` the number of oracle calls recorded
at step `t` is the number after the call of `pop_largest()` in iteration `t - 1`, which
started from a selection of `t - 1` elements, and is related to `callsUpTo n t`. -/
def CallsRecorded {τ σ α : Type} [LinearOrderedField α] (Rel : Nat → Nat → Prop)
    (sops : StrategyOps τ σ α) (oops : OracleOps σ α) (n k : Nat) (param : Param α)
    (clock : Nat → α) : Prop :=
  GreedyUnfolds sops oops n k param clock ∧
  ∃ out, greedy sops oops n k param clock = .ok out ∧
    ∀ t, 1 ≤ t → t < out.size →
      ∃ (m : Measurement α) (s : τ) (o : σ) (e : Nat) (s1 : τ) (o1 : σ),
        out.measurements.get? t = some m ∧
        greedy_states sops oops n k param (t - 1) = .ok (s, o) ∧
        (oops.get_solution o).length = t - 1 ∧
        sops.pop_largest s o = .ok (some e, s1, o1) ∧
        m.num_oracle_calls = oops.get_num_oracle_calls o1 ∧
        Rel m.num_oracle_calls (callsUpTo n t)

/-- Every call of `pop_largest()` of plain greedy evaluates the oracle once for every
element of the ground set: in iteration `t < k`, which starts from a selection of `t`
elements, the call adds `n - t` oracle calls. -/
def CallsPerPop {τ σ α : Type} (sops : StrategyOps τ σ α) (oops : OracleOps σ α)
    (getT : τ → List Nat) (n k : Nat) (param : Param α) : Prop :=
  ∀ t, t < k → ∃ (s : τ) (o : σ) (e : Nat) (s1 : τ) (o1 : σ),
    greedy_states sops oops n k param t = .ok (s, o) ∧
    (oops.get_solution o).length = t ∧ (getT s).length = n - t ∧
    sops.pop_largest s o = .ok (some e, s1, o1) ∧
    o1 = computeAll oops (getT s) o ∧
    oops.get_num_oracle_calls o1 = oops.get_num_oracle_calls o + (n - t)

end DPP

namespace DPP

/-! ## Rounding to `double`

The drivers hold their numbers in IEEE 754 binary64.  Where a result of the code depends
on the rounding of a sum or of a quotient, the arithmetic is modelled with the rounding
function `fl64` applied to the exact result. -/

/-- The integer nearest to `y`, and the even one of the two nearest when `y` lies half-way
between them. -/
def roundEven {α : Type} [LinearOrderedField α] [FloorRing α] (y : α) : Int :=
  if Int.fract y < 1 / 2 then ⌊y⌋
  else if 1 / 2 < Int.fract y then ⌊y⌋ + 1
  else if ⌊y⌋ % 2 = 0 then ⌊y⌋ else ⌊y⌋ + 1

/-- The exponent `e` for which the doubles around `x ≥ 0` are the multiples of
`2 ^ (e - 52)`: the integer with `2 ^ e ≤ x < 2 ^ (e + 1)`, and `-1022` for every `x` below
`2 ^ (-1022)`, where the doubles are subnormal. -/
def binade {α : Type} [LinearOrderedField α] [FloorRing α] (x : α) : Int :=
  max (Int.log 2 x) (-1022)

/-- The double nearest to `x ≥ 0`, the one with the even significand when two are nearest. -/
def flpos {α : Type} [LinearOrderedField α] [FloorRing α] (x : α) : α :=
  (roundEven (x / 2 ^ (binade x - 52)) : α) * 2 ^ (binade x - 52)

/-- The double that IEEE 754 arithmetic in the default rounding mode returns for the exact
result `x`: the nearest double, ties to even.  The overflow to infinity of a result of
absolute value `2 ^ 1024` or more is not modelled. -/
def fl64 {α : Type} [LinearOrderedField α] [FloorRing α] (x : α) : α :=
  if 0 ≤ x then flpos x else -flpos (-x)

/-- What the proofs use of a rounding function: it does not reverse the order, and it
leaves zero and its own results as they are. -/
structure Rounding {α : Type} [LinearOrderedField α] (fl : α → α) : Prop where
  mono : ∀ x y, x ≤ y → fl x ≤ fl y
  zero : fl 0 = 0
  idem : ∀ x, fl (fl x) = fl x

/-- The probability `p` of `double_greedy` from the two values that
`compute_marginal_gain_exponential` returns, when the sum and the quotient are rounded by
`fl`; `log` is `std::log`. -/
def double_greedy_p_fl {α : Type} [LinearOrderedField α] (fl log : α → α) (v v_inv : α) : α :=
  if double_greedy_mg log v = 0 ∧ double_greedy_mg log v_inv = 0 then 1
  else fl (double_greedy_mg log v / fl (double_greedy_mg log v + double_greedy_mg log v_inv))

/-- The loop of `double_greedy`, with `m` iterations left at element `i`, when the sum and
the quotient that give `p` are rounded by `fl`. -/
def double_greedy_loop_fl {σ α : Type} [LinearOrderedField α] (fl log : α → α)
    (oops oops_inv : OracleOps σ α) (n : Nat) (param : Param α) (clock : Nat → α)
    (rng : Nat → Nat) : Nat → Nat → σ → σ → Except Fault (Result α)
  | 0, _, o, oi =>
    .ok { finished := true, solution := oops.get_solution o, value := oops.get_value o,
          time := clock n, num_computed_entries_L := 0,
          num_oracle_calls := oops.get_num_oracle_calls o + oops_inv.get_num_oracle_calls oi,
          num_computed_offdiagonals_V :=
            oops.get_num_computed_offdiagonals_V o + oops_inv.get_num_computed_offdiagonals_V oi,
          computed_offdiagonals_V := [] }
  | m + 1, i, o, oi =>
    let r := oops.compute_marginal_gain_exponential o i
    let mg := if 1 < r.1 then log r.1 else 0
    let ri := oops_inv.compute_marginal_gain_exponential oi i
    let mg_inv := if 1 < ri.1 then log ri.1 else 0
    let p := if mg = 0 ∧ mg_inv = 0 then 1 else fl (mg / fl (mg + mg_inv))
    let st : σ × σ := if bernoulli p (rng i) then (oops.add r.2 i, ri.2)
      else (r.2, oops_inv.add ri.2 i)
    if expired param (clock i) then .ok Result.unfinished
    else double_greedy_loop_fl fl log oops oops_inv n param clock rng m (i + 1) st.1 st.2

end DPP

namespace DPP

/-! ## The objective value as the code accumulates it -/

/-- Addition of doubles, `value += x`, with the sum rounded by `fl`: NaN is absorbing,
then minus infinity. -/
def radd {α : Type} [LinearOrderedField α] (fl : α → α) (a b : Value α) : Value α :=
  match a, b with
  | some a, some b => some (WithBot.map fl (a + b))
  | _, _ => none

/-- The objective value after commits with the gains `gs`, each adding the double `log` of
its gain to the value with the sum rounded by `fl`. -/
def rvalueOf {α : Type} [LinearOrderedField α] (fl log : α → α) (gs : List α) : Value α :=
  gs.foldl (fun a v => radd fl a (dlog log (some v))) (some ((0 : α) : WithBot α))

/-- The oracle `oops` with the objective value that the code holds in doubles.  The state
pairs the state of `oops` with this value: `add(e)` adds to it the double `log` of the
cell `d[e]`, which `cell` reads, and rounds the sum by `fl`; `get_value` returns it.
Everything else is as in `oops`, whose own value, the exact sum, is not read. -/
def rounded {σ α : Type} [LinearOrderedField α] (fl log : α → α)
    (cell : σ → Nat → Option α) (oops : OracleOps σ α) : OracleOps (σ × Value α) α :=
  { construct := fun k b => (oops.construct k b, some ((0 : α) : WithBot α))
    compute_marginal_gain_exponential := fun p e =>
      ((oops.compute_marginal_gain_exponential p.1 e).1,
        (oops.compute_marginal_gain_exponential p.1 e).2, p.2)
    get_last_marginal_gain_exponential := fun p e =>
      ((oops.get_last_marginal_gain_exponential p.1 e).1,
        (oops.get_last_marginal_gain_exponential p.1 e).2, p.2)
    add := fun p e => (oops.add p.1 e, radd fl p.2 (dlog log (cell p.1 e)))
    get_solution := fun p => oops.get_solution p.1
    get_value := fun p => p.2
    get_num_oracle_calls := fun p => oops.get_num_oracle_calls p.1
    get_num_computed_offdiagonals_V := fun p => oops.get_num_computed_offdiagonals_V p.1
    get_computed_offdiagonals_V := fun p => oops.get_computed_offdiagonals_V p.1
    clear_computed_offdiagonals_V := fun p => (oops.clear_computed_offdiagonals_V p.1, p.2) }

/-- The oracle `rounded fl log cell oops` when `get_value` returns the exact sum that
`oops` holds instead. -/
def unrounded {σ α : Type} [LinearOrderedField α] (fl log : α → α)
    (cell : σ → Nat → Option α) (oops : OracleOps σ α) : OracleOps (σ × Value α) α :=
  { rounded fl log cell oops with get_value := fun p => oops.get_value p.1 }

/-- The direct oracle over the matrix `L` with the objective value in doubles. -/
def Oracle.rounded {α : Type} [LinearOrderedField α] (fl log : α → α) (L : Nat → Nat → α) :
    OracleOps (Oracle.Instance α × Value α) α :=
  DPP.rounded fl log (fun o e => o.d e) (Oracle.ops log L)

/-- The fast oracle over the matrix `L` with the objective value in doubles. -/
def Fast.rounded {α : Type} [LinearOrderedField α] (fl sqrt log : α → α)
    (V0 : Nat → Nat → Option α) (L : Nat → Nat → α) :
    OracleOps (Fast.Instance α × Value α) α :=
  DPP.rounded fl log (fun o e => o.d e) (Fast.ops sqrt log V0 L)

/-- The values that the four chains of `interlace_greedy` record, when `add` rounds the
sum by `fl`: along each chain they are finite and do not decrease; from a step to the next
the value stays as it is when the chain recorded no element at the next step, so that it
increases only when the chain recorded one, and then it is the rounded sum of the value
and of the logarithm of a gain above `1`; so the steps before `j` whose value is less than
the value at step `j` come before those whose value is not. -/
def ChainsNondecreasing {τ σ α : Type} [LinearOrderedField α] (fl log : α → α)
    (sops : StrategyOps τ σ α) (oops : OracleOps σ α) (n k : Nat) (param : Param α)
    (clock : Nat → α) : Prop :=
  ∃ out, interlace_greedy sops oops n k param clock = .ok out ∧ ∀ f : Fin 4,
    (∀ i j, i ≤ j → j < out.size → ∃ x y : α, out.valueAt f i = some (x : WithBot α) ∧
      out.valueAt f j = some (y : WithBot α) ∧ x ≤ y) ∧
    (∀ j, j + 1 < out.size →
      (vlt (out.valueAt f j) (out.valueAt f (j + 1)) = true →
        (out.elementAt f (j + 1)).isSome = true) ∧
      (out.elementAt f (j + 1) = none → out.valueAt f (j + 1) = out.valueAt f j) ∧
      ((out.elementAt f (j + 1)).isSome = true → ∃ g : α, 1 < g ∧
        out.valueAt f (j + 1) = radd fl (out.valueAt f j) (dlog log (some g)))) ∧
    (∀ i i1 j, i ≤ i1 → i1 < j → j < out.size →
      vlt (out.valueAt f i1) (out.valueAt f j) = true →
      vlt (out.valueAt f i) (out.valueAt f j) = true)

/-- The kernel `diag(100, 1 + 2 ^ (-52), 1 + 2 ^ (-52))`. -/
def absorbDiag (α : Type) [LinearOrderedField α] : Nat → Nat → α := fun i j =>
  if i = j then
    match i with
    | 0 => 100
    | 1 => 1 + 2 ^ (-52 : Int)
    | 2 => 1 + 2 ^ (-52 : Int)
    | _ => 0
  else 0

end DPP

namespace DPP

/-! ## Strategy equivalence over positive semidefinite kernels -/

/-- The leading `n × n` block of `L` is symmetric positive semidefinite: its quadratic
form is negative at no vector. -/
def PosSemidefOn {α : Type} [LinearOrderedField α] (n : Nat) (L : Nat → Nat → α) : Prop :=
  (∀ i j, i < n → j < n → L i j = L j i) ∧ ∀ x : Fin n → α, 0 ≤ quadForm n L x

/-- Every gain committed so far was positive: the pivots of the selection `S` are. -/
def PivotsPos {α : Type} [LinearOrderedField α] (sqrt : α → α) (L : Nat → Nat → α)
    (S : List Nat) : Prop :=
  ∀ j, j < S.length → 0 < pivot sqrt L (seqOf S) j

/-- The states of the direct oracle that plain greedy reaches over a positive semidefinite
kernel while the objective value is finite. -/
def Oracle.GoodPsd {α : Type} [LinearOrderedField α]
    {sqrt log : α → α} [Numeric sqrt log]
    (n : Nat) (L : Nat → Nat → α) (o : Oracle.Instance α) : Prop :=
  Oracle.Good n L o ∧ PivotsPos sqrt L o.S

/-- The states of the fast oracle that plain greedy reaches over a positive semidefinite
kernel while the objective value is finite. -/
def Fast.GoodPsd {α : Type} [LinearOrderedField α]
    {sqrt log : α → α} [Numeric sqrt log]
    (n : Nat) (L : Nat → Nat → α) (o : Fast.Instance α) : Prop :=
  Fast.Inv n L o ∧ PivotsPos sqrt L o.S

/-- At step `t` of `greedy` with the strategy `sops`, the element that `pop_largest()`
returns is the only one to attain the largest gain: for every other element outside the
selection, `compute_marginal_gain_exponential` returns less. -/
def NoComputedTie {τ σ α : Type} [LinearOrderedField α] (sops : StrategyOps τ σ α)
    (oops : OracleOps σ α) (n k : Nat) (param : Param α) (t : Nat) : Prop :=
  ∀ s o e s1 o1, greedy_states sops oops n k param t = .ok (s, o) →
    sops.pop_largest s o = .ok (some e, s1, o1) →
    ∀ x, x < n → x ∉ oops.get_solution o → x ≠ e → gainAt oops o x < gainAt oops o e

/-- The kernel `diag(3, 2, 0)`, positive semidefinite and singular. -/
def rankDiag (α : Type) [LinearOrderedField α] : Nat → Nat → α := fun i j =>
  if i = j then
    match i with
    | 0 => 3
    | 1 => 2
    | _ => 0
  else 0

end DPP

namespace DPP

/-! ## The fast oracle in doubles

The methods of `Fast::Instance` with every result of an arithmetic operation rounded by
`fl`; `sqrt` and `log` are `std::sqrt` and `std::log` on doubles. -/

/-- The dot product `a.head(j).dot(b.head(j))` of two rows of `V` in doubles, the products
and the partial sums rounded by `fl` and summed from the first entry on; non-finite as soon
as one of the entries read is non-finite. -/
def odot_fl {α : Type} [LinearOrderedField α] (fl : α → α) (a b : Nat → Option α) :
    Nat → Option α
  | 0 => some 0
  | j + 1 =>
    match odot_fl fl a b j, a j, b j with
    | some s, some x, some y => some (fl (s + fl (x * y)))
    | _, _, _ => none

namespace Fast

/-- The quotient `(L(e,l) - dot) / std::sqrt(d[l])` in doubles: the difference and the
quotient are rounded by `fl`. -/
def quotient_fl {α : Type} [LinearOrderedField α] (fl sqrt : α → α) (Lel : α)
    (dot : Option α) (dl : Option α) : Option α :=
  match dot, dl with
  | some s, some p => if p ≤ 0 then none else some (fl (fl (Lel - s) / sqrt p))
  | _, _ => none

/-- The assignment `d[e] = std::max(0.0, d[e] - V(e,j) * V(e,j))` in doubles: the product
and the difference are rounded by `fl`. -/
def residual_fl {α : Type} [LinearOrderedField α] (fl : α → α) (x : α) (v : Option α) : α :=
  match v with
  | some v => max 0 (fl (x - fl (v * v)))
  | none => 0

/-- One iteration of the loop of `compute_marginal_gain_exponential` in doubles, at
`j = u[e]`; `x` is the current `d[e]`. -/
def step_fl {α : Type} [LinearOrderedField α] (fl sqrt : α → α) (L : Nat → Nat → α)
    (o : Instance α) (e : Nat) (x : α) : α × Instance α :=
  let j := o.u e
  let l := o.S.getD j 0
  let v := quotient_fl fl sqrt (L e l) (odot_fl fl (o.V e) (o.V l) j) (o.d l)
  let x1 := residual_fl fl x v
  (x1, { o with
           V := Function.update o.V e (Function.update (o.V e) j v)
           d := Function.update o.d e (some x1)
           u := Function.update o.u e (j + 1)
           U := o.U + 1
           computed_offdiagonals_V :=
             if o.log_computed_offdiagonals_V then o.computed_offdiagonals_V ++ [(e, l)]
             else o.computed_offdiagonals_V })

/-- The loop `for(j = u[e]; j < S.size(); j++)` in doubles, run for its `S.size() - u[e]`
iterations. -/
def loop_fl {α : Type} [LinearOrderedField α] (fl sqrt : α → α) (L : Nat → Nat → α) :
    Nat → Instance α → Nat → α → α × Instance α
  | 0, o, _, x => (x, o)
  | k + 1, o, e, x =>
    loop_fl fl sqrt L k (step_fl fl sqrt L o e x).2 e (step_fl fl sqrt L o e x).1

/-- The method `compute_marginal_gain_exponential(e)` in doubles. -/
def compute_marginal_gain_exponential_fl {α : Type} [LinearOrderedField α] (fl sqrt : α → α)
    (L : Nat → Nat → α) (o : Instance α) (e : Nat) : α × Instance α :=
  let r := get_last_marginal_gain_exponential L o e
  loop_fl fl sqrt L (r.2.S.length - r.2.u e) r.2 e r.1

/-- The method `add(e)` in doubles: the sum `value += log(d[e])` is rounded by `fl`. -/
def add_fl {α : Type} [LinearOrderedField α] (fl log : α → α) (o : Instance α) (e : Nat) :
    Instance α :=
  { o with S := o.S ++ [e], value := radd fl o.value (dlog log (o.d e)) }

end Fast

/-- The fast oracle over the matrix `L` in doubles. -/
def Fast.ops_fl {α : Type} [LinearOrderedField α] (fl sqrt log : α → α)
    (V0 : Nat → Nat → Option α) (L : Nat → Nat → α) : OracleOps (Fast.Instance α) α :=
  { construct := fun _ logV => Fast.construct V0 logV
    compute_marginal_gain_exponential := Fast.compute_marginal_gain_exponential_fl fl sqrt L
    get_last_marginal_gain_exponential := Fast.get_last_marginal_gain_exponential L
    add := Fast.add_fl fl log
    get_solution := fun o => o.S
    get_value := fun o => o.value
    get_num_oracle_calls := fun _ => 0
    get_num_computed_offdiagonals_V := fun o => o.U
    get_computed_offdiagonals_V := fun o => o.computed_offdiagonals_V
    clear_computed_offdiagonals_V := fun o => { o with computed_offdiagonals_V := [] } }

/-- A positive definite kernel of doubles on three elements in which, once element `0` is
selected, the gain of element `1` is `2` and the gain of element `2` is `2 - 2 ^ (-104)`,
which the fast oracle computes in doubles as `2`. -/
def roundKernel (α : Type) [LinearOrderedField α] : Nat → Nat → α := fun i j =>
  match i, j with
  | 0, 0 => 4
  | 0, 2 => 2 + 2 ^ (-51 : Int)
  | 2, 0 => 2 + 2 ^ (-51 : Int)
  | 1, 1 => 2
  | 2, 2 => 3 + 2 ^ (-51 : Int)
  | _, _ => 0

end DPP

namespace DPP

theorem numeric_log_one {α : Type} [LinearOrderedField α]
    (sqrt log : α → α) [Numeric sqrt log] : log (1 : α) = 0 := by
  have h := @Numeric.log_mul α _ sqrt log _ (1 : α) 1 one_pos one_pos
  rw [one_mul] at h
  linarith

theorem numeric_log_pos {α : Type} [LinearOrderedField α]
    (sqrt log : α → α) [Numeric sqrt log] (x : α) (h : 1 < x) : 0 < log x := by
  have := @Numeric.log_lt_log α _ sqrt log _ (1 : α) x one_pos h
  rw [numeric_log_one sqrt log] at this
  exact this

end DPP

namespace DPP

theorem chol_eq {α : Type} [LinearOrderedField α] (sqrt : α → α) (L : Nat → Nat → α)
    (s : Nat → Nat) (j e : Nat) :
    chol sqrt L s j e =
      (L e (s j) - ∑ i in Finset.range j, chol sqrt L s i e * chol sqrt L s i (s j)) /
        sqrt (pivot sqrt L s j) := by
  rw [chol, pivot]
  rw [Fin.sum_univ_eq_sum_range (fun i => chol sqrt L s i e * chol sqrt L s i (s j)) j]
  rw [Fin.sum_univ_eq_sum_range (fun i => chol sqrt L s i (s j) * chol sqrt L s i (s j)) j]

theorem chol_self {α : Type} [LinearOrderedField α]
    {sqrt log : α → α} [Numeric sqrt log]
    (L : Nat → Nat → α) (s : Nat → Nat) (j : Nat) (hp : 0 < pivot sqrt L s j) :
    chol sqrt L s j (s j) = sqrt (pivot sqrt L s j) := by
  rw [chol_eq]
  have h : sqrt (pivot sqrt L s j) ≠ 0 := (Numeric.sqrt_pos _ hp).ne'
  have h2 := Numeric.mul_self_sqrt (pivot sqrt L s j) hp.le
  rw [div_eq_iff h]
  exact h2.symm

theorem chol_mul_sqrt {α : Type} [LinearOrderedField α]
    {sqrt log : α → α} [Numeric sqrt log]
    (L : Nat → Nat → α) (s : Nat → Nat) (j e : Nat)
    (hp : 0 < pivot sqrt L s j) :
    L e (s j) = ∑ i in Finset.range (j + 1), chol sqrt L s i e * chol sqrt L s i (s j) := by
  rw [Finset.sum_range_succ, chol_self L s j hp, chol_eq sqrt L s j e]
  have h : sqrt (pivot sqrt L s j) ≠ 0 := (Numeric.sqrt_pos _ hp).ne'
  field_simp

theorem chol_upper_zero {α : Type} [LinearOrderedField α]
    {sqrt log : α → α} [Numeric sqrt log]
    (n : Nat) (L : Nat → Nat → α) (s : Nat → Nat) (m : Nat)
    (hsym : ∀ i j, i < n → j < n → L i j = L j i) (hs : ∀ j < m, s j < n)
    (hp : ∀ j < m, 0 < pivot sqrt L s j) :
    ∀ j < m, ∀ i < j, chol sqrt L s j (s i) = 0 := by
  intro j
  induction j using Nat.strong_induction_on with
  | _ j ih =>
    intro hj i hij
    rw [chol_eq]
    have h1 := chol_mul_sqrt L s i (s j) (hp i (by omega))
    have h2 : ∑ t in Finset.range j, chol sqrt L s t (s i) * chol sqrt L s t (s j)
        = ∑ t in Finset.range (i + 1), chol sqrt L s t (s i) * chol sqrt L s t (s j) := by
      symm
      apply Finset.sum_subset
      · intro t ht
        simp only [Finset.mem_range] at ht ⊢
        omega
      · intro t ht hnt
        simp only [Finset.mem_range] at ht hnt
        rw [ih t ht (by omega) i (by omega), zero_mul]
    rw [h2, hsym (s i) (s j) (hs i (by omega)) (hs j hj), h1]
    have : ∑ t in Finset.range (i + 1), chol sqrt L s t (s j) * chol sqrt L s t (s i)
        = ∑ t in Finset.range (i + 1), chol sqrt L s t (s i) * chol sqrt L s t (s j) :=
      Finset.sum_congr rfl (fun t _ => mul_comm _ _)
    rw [this, sub_self, zero_div]

theorem gram_eq_cmat {α : Type} [LinearOrderedField α]
    {sqrt log : α → α} [Numeric sqrt log]
    (n : Nat) (L : Nat → Nat → α) (s : Nat → Nat) (m : Nat)
    (hsym : ∀ i j, i < n → j < n → L i j = L j i) (hs : ∀ j < m, s j < n)
    (hp : ∀ j < m, 0 < pivot sqrt L s j) :
    gram L s m = cmat sqrt L s m * (cmat sqrt L s m).transpose := by
  ext i k
  simp only [gram, cmat, Matrix.mul_apply, Matrix.of_apply, Matrix.transpose_apply]
  rw [Fin.sum_univ_eq_sum_range
    (fun j => chol sqrt L s j (s i) * chol sqrt L s j (s k)) m]
  rw [chol_mul_sqrt L s k (s i) (hp k k.isLt)]
  apply Finset.sum_subset
  · intro t ht
    simp only [Finset.mem_range] at ht ⊢
    omega
  · intro t ht hnt
    simp only [Finset.mem_range] at ht hnt
    rw [chol_upper_zero n L s m hsym hs hp t ht k (by omega), mul_zero]

theorem det_cmat {α : Type} [LinearOrderedField α]
    {sqrt log : α → α} [Numeric sqrt log]
    (n : Nat) (L : Nat → Nat → α) (s : Nat → Nat) (m : Nat)
    (hsym : ∀ i j, i < n → j < n → L i j = L j i) (hs : ∀ j < m, s j < n)
    (hp : ∀ j < m, 0 < pivot sqrt L s j) :
    (cmat sqrt L s m).det = ∏ j in Finset.range m, sqrt (pivot sqrt L s j) := by
  rw [Matrix.det_of_lowerTriangular]
  · rw [← Fin.prod_univ_eq_prod_range (fun j => sqrt (pivot sqrt L s j)) m]
    apply Finset.prod_congr rfl
    intro i _
    simp only [cmat, Matrix.of_apply]
    exact chol_self L s i (hp i i.isLt)
  · intro i j hij
    simp only [cmat, Matrix.of_apply]
    exact chol_upper_zero n L s m hsym hs hp j j.isLt i hij

end DPP

namespace DPP

theorem ldltSolve_eq {α : Type} [LinearOrderedField α]
    {sqrt log : α → α} [Numeric sqrt log]
    {m : Nat} (A : Matrix (Fin m) (Fin m) α) (b : Fin m → α) :
    ldltSolve A b = A⁻¹.mulVec b := by
  rw [ldltSolve, Matrix.inv_def, Ring.inverse_eq_inv', Matrix.smul_mulVec_assoc]

theorem subMatrix_eq_gram {α : Type} (L : Nat → Nat → α) (S : List Nat) :
    subMatrix L S S = gram L (seqOf S) S.length := by
  ext i j
  simp [subMatrix, gram, seqOf, List.getD_eq_getElem]

theorem subVector_eq {α : Type} (L : Nat → Nat → α) (S : List Nat) (e : Nat) :
    subVector L S e = fun i : Fin S.length => L (seqOf S i) e := by
  ext i
  simp [subVector, seqOf, List.getD_eq_getElem]

end DPP

namespace DPP

theorem posDefOn_symm {α : Type} [LinearOrderedField α]
    (n : Nat) (L : Nat → Nat → α) (hL : PosDefOn n L) :
    ∀ i j, i < n → j < n → L i j = L j i := hL.1

end DPP

namespace DPP

end DPP

namespace DPP

theorem schur_seq {α : Type} [LinearOrderedField α]
    {sqrt log : α → α} [Numeric sqrt log]
    (n : Nat) (L : Nat → Nat → α) (s : Nat → Nat) (m e : Nat)
    (hsym : ∀ i j, i < n → j < n → L i j = L j i) (hs : ∀ j < m, s j < n) (he : e < n)
    (hp : ∀ j < m, 0 < pivot sqrt L s j) :
    L e e - Matrix.dotProduct (fun i : Fin m => L (s i) e)
        ((gram L s m)⁻¹.mulVec (fun i : Fin m => L (s i) e))
      = L e e - ∑ j in Finset.range m, chol sqrt L s j e * chol sqrt L s j e := by
  have dot_inv_factor {α : Type} [LinearOrderedField α]
      {sqrt log : α → α} [Numeric sqrt log]
      {m : Nat} (C : Matrix (Fin m) (Fin m) α) (w : Fin m → α)
      (hC : C.det ≠ 0) :
      Matrix.dotProduct (C.mulVec w) ((C * C.transpose)⁻¹.mulVec (C.mulVec w))
        = Matrix.dotProduct w w := by
    have hu : IsUnit C.det := isUnit_iff_ne_zero.mpr hC
    have hut : IsUnit C.transpose.det := by rw [Matrix.det_transpose]; exact hu
    rw [Matrix.mul_inv_rev, Matrix.mulVec_mulVec, Matrix.mul_assoc, Matrix.nonsing_inv_mul C hu,
      Matrix.mul_one]
    rw [Matrix.dotProduct_comm, Matrix.dotProduct_mulVec, Matrix.dotProduct_comm,
      ← Matrix.mulVec_transpose, Matrix.mulVec_mulVec, Matrix.mul_nonsing_inv _ hut,
      Matrix.one_mulVec]
  have cmat_mulVec {α : Type} [LinearOrderedField α]
      {sqrt log : α → α} [Numeric sqrt log]
      (n : Nat) (L : Nat → Nat → α) (s : Nat → Nat) (m e : Nat)
      (hsym : ∀ i j, i < n → j < n → L i j = L j i) (hs : ∀ j < m, s j < n) (he : e < n)
      (hp : ∀ j < m, 0 < pivot sqrt L s j) :
      (cmat sqrt L s m).mulVec (fun j : Fin m => chol sqrt L s j e)
        = fun i : Fin m => L (s i) e := by
    ext i
    simp only [cmat, Matrix.mulVec, Matrix.dotProduct, Matrix.of_apply]
    rw [Fin.sum_univ_eq_sum_range
      (fun j => chol sqrt L s j (s i) * chol sqrt L s j e) m]
    rw [hsym (s i) e (hs i i.isLt) he, chol_mul_sqrt L s i e (hp i i.isLt)]
    symm
    have : ∑ t in Finset.range (i + 1), chol sqrt L s t e * chol sqrt L s t (s i)
          = ∑ t in Finset.range (i + 1), chol sqrt L s t (s i) * chol sqrt L s t e :=
        Finset.sum_congr rfl (fun t _ => mul_comm _ _)
    rw [this]
    apply Finset.sum_subset
    · intro t ht
      simp only [Finset.mem_range] at ht ⊢
      omega
    · intro t ht hnt
      simp only [Finset.mem_range] at ht hnt
      rw [chol_upper_zero n L s m hsym hs hp t ht i (by omega), zero_mul]
  have hC : (cmat sqrt L s m).det ≠ 0 := by
    rw [det_cmat n L s m hsym hs hp]
    apply Finset.prod_ne_zero_iff.mpr
    intro j hj
    exact (Numeric.sqrt_pos _ (hp j (Finset.mem_range.mp hj))).ne'
  rw [← cmat_mulVec n L s m e hsym hs he hp, gram_eq_cmat n L s m hsym hs hp,
    dot_inv_factor _ _ hC]
  simp only [Matrix.dotProduct]
  rw [Fin.sum_univ_eq_sum_range (fun j => chol sqrt L s j e * chol sqrt L s j e) m]

theorem det_gram_eq_prod {α : Type} [LinearOrderedField α]
    {sqrt log : α → α} [Numeric sqrt log]
    (n : Nat) (L : Nat → Nat → α) (s : Nat → Nat) (m : Nat)
    (hsym : ∀ i j, i < n → j < n → L i j = L j i) (hs : ∀ j < m, s j < n)
    (hp : ∀ j < m, 0 < pivot sqrt L s j) :
    (gram L s m).det = ∏ j in Finset.range m, pivot sqrt L s j := by
  rw [gram_eq_cmat n L s m hsym hs hp, Matrix.det_mul, Matrix.det_transpose,
    det_cmat n L s m hsym hs hp, ← Finset.prod_mul_distrib]
  apply Finset.prod_congr rfl
  intro j hj
  exact Numeric.mul_self_sqrt _ (hp j (Finset.mem_range.mp hj)).le

/-- The quadratic form of the sub-matrix along `s 0, …, s m` at the vector that solves
the first `m` rows against the last column is the Schur complement of the last index. -/
theorem quad_schur {α : Type} [LinearOrderedField α]
    (n : Nat) (L : Nat → Nat → α) (s : Nat → Nat) (m : Nat)
    (hsym : ∀ i j, i < n → j < n → L i j = L j i) (hs : ∀ j < m + 1, s j < n)
    (hdet : (gram L s m).det ≠ 0) :
    ∃ z : Fin (m + 1) → α, z ≠ 0 ∧
      ∑ i : Fin (m + 1), ∑ j : Fin (m + 1), z i * L (s i) (s j) * z j
        = L (s m) (s m) - Matrix.dotProduct (fun i : Fin m => L (s i) (s m))
            ((gram L s m)⁻¹.mulVec (fun i : Fin m => L (s i) (s m))) := by
  have hu : IsUnit (gram L s m).det := isUnit_iff_ne_zero.mpr hdet
  let b : Fin m → α := fun i => L (s i) (s m)
  let y : Fin m → α := (gram L s m)⁻¹.mulVec b
  have hGy : (gram L s m).mulVec y = b := by
    show (gram L s m).mulVec ((gram L s m)⁻¹.mulVec b) = b
    rw [Matrix.mulVec_mulVec, Matrix.mul_nonsing_inv _ hu, Matrix.one_mulVec]
  have hrow : ∀ i : Fin m, ∑ j : Fin m, L (s i) (s j) * y j = b i := by
    intro i
    have := congrFun hGy i
    simpa [Matrix.mulVec, Matrix.dotProduct, gram] using this
  refine ⟨Fin.snoc (fun i => - y i) 1, ?_, ?_⟩
  · intro h
    have := congrFun h (Fin.last m)
    simp at this
  · show _ = L (s m) (s m) - Matrix.dotProduct b y
    rw [Fin.sum_univ_castSucc]
    simp only [Fin.sum_univ_castSucc, Fin.snoc_castSucc, Fin.snoc_last, Fin.coe_castSucc,
      Fin.val_last, one_mul, mul_one]
    have e1 : ∀ i : Fin m, ∑ j : Fin m, -y i * L (s i) (s j) * -y j = y i * b i := by
      intro i
      rw [← hrow i, Finset.mul_sum]
      exact Finset.sum_congr rfl (fun j _ => by ring)
    have e2 : ∑ j : Fin m, L (s m) (s j) * -y j = - Matrix.dotProduct b y := by
      simp only [Matrix.dotProduct, ← Finset.sum_neg_distrib]
      apply Finset.sum_congr rfl
      intro j _
      rw [hsym (s m) (s j) (hs m (by omega)) (hs j (by omega))]
      ring
    have e3 : ∑ i : Fin m, (∑ j : Fin m, -y i * L (s i) (s j) * -y j + -y i * L (s i) (s m))
        = 0 := by
      apply Finset.sum_eq_zero
      intro i _
      rw [e1 i]
      show y i * L (s i) (s m) + -y i * L (s i) (s m) = 0
      ring
    rw [e3, e2]
    ring

theorem pivot_pos {α : Type} [LinearOrderedField α]
    {sqrt log : α → α} [Numeric sqrt log]
    (n : Nat) (L : Nat → Nat → α) (hL : PosDefOn n L) (s : Nat → Nat) (m : Nat)
    (hs : ∀ j < m, s j < n) (hinj : ∀ i < m, ∀ j < m, s i = s j → i = j) :
    ∀ j < m, 0 < pivot sqrt L s j := by
  -- The quadratic form of a principal sub-matrix of a positive definite matrix, taken
  -- along a sequence of distinct indices, is positive.
  have gram_posDef {α : Type} [LinearOrderedField α]
      (n : Nat) (L : Nat → Nat → α) (hL : PosDefOn n L) (s : Nat → Nat) (m : Nat)
      (hs : ∀ j < m, s j < n) (hinj : ∀ i < m, ∀ j < m, s i = s j → i = j)
      (x : Fin m → α) (hx : x ≠ 0) :
      0 < ∑ i : Fin m, ∑ j : Fin m, x i * L (s i) (s j) * x j := by
    let f : Fin m → Fin n := fun i => ⟨s i, hs i i.isLt⟩
    have hf : Function.Injective f := by
      intro a b hab
      have := congrArg Fin.val hab
      exact Fin.ext (hinj a a.isLt b b.isLt this)
    let y : Fin n → α := Function.extend f x 0
    have hy1 : ∀ i, y (f i) = x i := fun i => hf.extend_apply x 0 i
    have hy0 : ∀ a, a ∉ Set.range f → y a = 0 := by
      intro a ha
      have : ¬ ∃ i, f i = a := fun ⟨i, hi⟩ => ha ⟨i, hi⟩
      show Function.extend f x (0 : Fin n → α) a = 0
      rw [Function.extend_apply' x (0 : Fin n → α) a this]
      rfl
    have hyne : y ≠ 0 := by
      intro h
      apply hx
      funext i
      rw [← hy1 i, h]
      rfl
    have key := hL.2 y hyne
    have e : quadForm n L y = ∑ i : Fin m, ∑ j : Fin m, x i * L (s i) (s j) * x j := by
      unfold quadForm
      symm
      apply Fintype.sum_of_injective f hf
      · intro a ha
        apply Finset.sum_eq_zero
        intro b _
        rw [hy0 a ha, zero_mul, zero_mul]
      · intro i
        apply Fintype.sum_of_injective f hf
        · intro b hb
          rw [hy0 b hb, mul_zero]
        · intro j
          rw [hy1 i, hy1 j]
    rw [e] at key
    exact key
  have hsym := posDefOn_symm n L hL
  intro j
  induction j using Nat.strong_induction_on with
  | _ j ih =>
    intro hj
    have hp : ∀ i < j, 0 < pivot sqrt L s i := fun i hi => ih i hi (by omega)
    have hs1 : ∀ i < j, s i < n := fun i hi => hs i (by omega)
    have hs2 : ∀ i < j + 1, s i < n := fun i hi => hs i (by omega)
    have hdet : (gram L s j).det ≠ 0 := by
      rw [det_gram_eq_prod n L s j hsym hs1 hp]
      exact (Finset.prod_pos (fun i hi => hp i (Finset.mem_range.mp hi))).ne'
    obtain ⟨z, hz, hq⟩ := quad_schur n L s j hsym hs2 hdet
    have h1 := gram_posDef n L hL s (j + 1) hs2
      (fun a ha b hb => hinj a (by omega) b (by omega)) z hz
    rw [hq, schur_seq n L s j (s j) hsym hs1 (hs j hj) hp] at h1
    exact h1

end DPP

namespace DPP

theorem chol_congr {α : Type} [LinearOrderedField α] (sqrt : α → α) (L : Nat → Nat → α)
    (s t : Nat → Nat) :
    ∀ j, (∀ i ≤ j, s i = t i) → ∀ e, chol sqrt L s j e = chol sqrt L t j e := by
  intro j
  induction j using Nat.strong_induction_on with
  | _ j ih =>
    intro h e
    have hj : s j = t j := h j le_rfl
    have hc : ∀ i ∈ Finset.range j, ∀ x, chol sqrt L s i x = chol sqrt L t i x := by
      intro i hi x
      have hi := Finset.mem_range.mp hi
      exact ih i hi (fun a ha => h a (by omega)) x
    have e1 : ∑ i in Finset.range j, chol sqrt L s i e * chol sqrt L s i (t j)
        = ∑ i in Finset.range j, chol sqrt L t i e * chol sqrt L t i (t j) :=
      Finset.sum_congr rfl (fun i hi => by rw [hc i hi e, hc i hi (t j)])
    have e2 : ∑ i in Finset.range j, chol sqrt L s i (t j) * chol sqrt L s i (t j)
        = ∑ i in Finset.range j, chol sqrt L t i (t j) * chol sqrt L t i (t j) :=
      Finset.sum_congr rfl (fun i hi => by rw [hc i hi (t j)])
    rw [chol_eq, chol_eq, pivot, pivot, hj, e1, e2]

theorem pivot_congr {α : Type} [LinearOrderedField α] (sqrt : α → α) (L : Nat → Nat → α)
    (s t : Nat → Nat) (j : Nat) (h : ∀ i ≤ j, s i = t i) :
    pivot sqrt L s j = pivot sqrt L t j := by
  have e2 : ∑ i in Finset.range j, chol sqrt L s i (t j) * chol sqrt L s i (t j)
      = ∑ i in Finset.range j, chol sqrt L t i (t j) * chol sqrt L t i (t j) :=
    Finset.sum_congr rfl (fun i hi => by
      rw [chol_congr sqrt L s t i (fun a ha => h a (by
        have := Finset.mem_range.mp hi
        omega)) (t j)])
  rw [pivot, pivot, h j le_rfl, e2]

theorem seqOf_append_lt (S : List Nat) (e : Nat) (i : Nat) (h : i < S.length) :
    seqOf (S ++ [e]) i = seqOf S i := by
  simp [seqOf, List.getD_eq_getElem?_getD, List.getElem?_append_left h]

theorem seqOf_append_length (S : List Nat) (e : Nat) : seqOf (S ++ [e]) S.length = e := by
  simp [seqOf, List.getD_eq_getElem?_getD]

theorem seqOf_lt (n : Nat) (S : List Nat) (hS : ∀ x ∈ S, x < n) :
    ∀ j < S.length, seqOf S j < n := by
  intro j hj
  have : seqOf S j = S[j] := by simp [seqOf, List.getD_eq_getElem?_getD, hj]
  rw [this]
  exact hS _ (List.getElem_mem _)

theorem seqOf_inj (S : List Nat) (hS : S.Nodup) :
    ∀ i < S.length, ∀ j < S.length, seqOf S i = seqOf S j → i = j := by
  intro i hi j hj h
  have h1 : seqOf S i = S[i] := by simp [seqOf, List.getD_eq_getElem?_getD, hi]
  have h2 : seqOf S j = S[j] := by simp [seqOf, List.getD_eq_getElem?_getD, hj]
  rw [h1, h2] at h
  exact (List.Nodup.getElem_inj_iff hS).mp h

/-- The Schur complement through the Cholesky coefficients. -/
theorem schur_eq_chol {α : Type} [LinearOrderedField α]
    {sqrt log : α → α} [Numeric sqrt log]
    (n : Nat) (L : Nat → Nat → α) (hL : PosDefOn n L) (S : List Nat)
    (hS : ∀ x ∈ S, x < n) (hnd : S.Nodup) (e : Nat) (he : e < n) :
    schur L S e = L e e - ∑ j in Finset.range S.length,
      chol sqrt L (seqOf S) j e * chol sqrt L (seqOf S) j e := by
  rw [schur, ldltSolve_eq, subMatrix_eq_gram, subVector_eq]
  exact schur_seq n L (seqOf S) S.length e (posDefOn_symm n L hL) (seqOf_lt n S hS) he
    (pivot_pos n L hL (seqOf S) S.length (seqOf_lt n S hS) (seqOf_inj S hnd))

theorem pivot_pos_list {α : Type} [LinearOrderedField α]
    {sqrt log : α → α} [Numeric sqrt log]
    (n : Nat) (L : Nat → Nat → α) (hL : PosDefOn n L) (S : List Nat)
    (hS : ∀ x ∈ S, x < n) (hnd : S.Nodup) :
    ∀ j < S.length, 0 < pivot sqrt L (seqOf S) j :=
  pivot_pos n L hL (seqOf S) S.length (seqOf_lt n S hS) (seqOf_inj S hnd)

theorem schur_eq_pivot {α : Type} [LinearOrderedField α]
    {sqrt log : α → α} [Numeric sqrt log]
    (n : Nat) (L : Nat → Nat → α) (hL : PosDefOn n L) (S : List Nat)
    (hS : ∀ x ∈ S, x < n) (hnd : S.Nodup) (e : Nat) (he : e < n) :
    schur L S e = pivot sqrt L (seqOf (S ++ [e])) S.length := by
  rw [schur_eq_chol n L hL S hS hnd e he, pivot, seqOf_append_length]
  congr 1
  apply Finset.sum_congr rfl
  intro i hi
  have hi := Finset.mem_range.mp hi
  rw [chol_congr sqrt L (seqOf (S ++ [e])) (seqOf S) i
    (fun a ha => seqOf_append_lt S e a (by omega)) e]

theorem schur_pos {α : Type} [LinearOrderedField α]
    {sqrt log : α → α} [Numeric sqrt log]
    (n : Nat) (L : Nat → Nat → α) (hL : PosDefOn n L) (S : List Nat)
    (hS : ∀ x ∈ S, x < n) (hnd : S.Nodup) (e : Nat) (he : e < n) (heS : e ∉ S) :
    0 < schur L S e := by
  rw [schur_eq_pivot n L hL S hS hnd e he]
  apply pivot_pos_list n L hL (S ++ [e])
  · intro x hx
    rcases List.mem_append.mp hx with h | h
    · exact hS x h
    · rw [List.mem_singleton.mp h]; exact he
  · exact List.Nodup.append hnd (List.nodup_singleton e) (by simpa using heS)
  · simp

theorem det_sub_eq_prod {α : Type} [LinearOrderedField α]
    {sqrt log : α → α} [Numeric sqrt log]
    (n : Nat) (L : Nat → Nat → α) (hL : PosDefOn n L) (S : List Nat)
    (hS : ∀ x ∈ S, x < n) (hnd : S.Nodup) :
    (subMatrix L S S).det = ∏ j in Finset.range S.length, pivot sqrt L (seqOf S) j := by
  rw [subMatrix_eq_gram]
  exact det_gram_eq_prod n L (seqOf S) S.length (posDefOn_symm n L hL) (seqOf_lt n S hS)
    (pivot_pos_list n L hL S hS hnd)

theorem det_sub_pos {α : Type} [LinearOrderedField α]
    {sqrt log : α → α} [Numeric sqrt log]
    (n : Nat) (L : Nat → Nat → α) (hL : PosDefOn n L) (S : List Nat)
    (hS : ∀ x ∈ S, x < n) (hnd : S.Nodup) : 0 < (subMatrix L S S).det := by
  rw [det_sub_eq_prod n L hL S hS hnd]
  exact Finset.prod_pos (fun j hj => pivot_pos_list n L hL S hS hnd j (Finset.mem_range.mp hj))

theorem det_sub_append {α : Type} [LinearOrderedField α]
    {sqrt log : α → α} [Numeric sqrt log]
    (n : Nat) (L : Nat → Nat → α) (hL : PosDefOn n L) (S : List Nat)
    (hS : ∀ x ∈ S, x < n) (hnd : S.Nodup) (e : Nat) (he : e < n) (heS : e ∉ S) :
    (subMatrix L (S ++ [e]) (S ++ [e])).det = (subMatrix L S S).det * schur L S e := by
  have hS1 : ∀ x ∈ S ++ [e], x < n := by
    intro x hx
    rcases List.mem_append.mp hx with h | h
    · exact hS x h
    · rw [List.mem_singleton.mp h]; exact he
  have hnd1 : (S ++ [e]).Nodup :=
    List.Nodup.append hnd (List.nodup_singleton e) (by simpa using heS)
  rw [det_sub_eq_prod n L hL _ hS1 hnd1, det_sub_eq_prod n L hL S hS hnd,
    schur_eq_pivot n L hL S hS hnd e he]
  rw [List.length_append, List.length_singleton, Finset.prod_range_succ]
  congr 1
  apply Finset.prod_congr rfl
  intro j hj
  have hj := Finset.mem_range.mp hj
  exact pivot_congr sqrt L _ _ j (fun a ha => seqOf_append_lt S e a (by omega))

end DPP

namespace DPP

theorem seqOf_take (S : List Nat) (m i : Nat) (h : i < m) :
    seqOf (S.take m) i = seqOf S i := by
  simp [seqOf, List.getD_eq_getElem?_getD, List.getElem?_take, h]

/-- The gain against a prefix of `S`, through the Cholesky coefficients of `S`. -/
theorem schur_take_eq_chol {α : Type} [LinearOrderedField α]
    {sqrt log : α → α} [Numeric sqrt log]
    (n : Nat) (L : Nat → Nat → α) (hL : PosDefOn n L) (S : List Nat)
    (hS : ∀ x ∈ S, x < n) (hnd : S.Nodup) (m : Nat) (hm : m ≤ S.length) (e : Nat) (he : e < n) :
    schur L (S.take m) e = L e e - ∑ j in Finset.range m,
      chol sqrt L (seqOf S) j e * chol sqrt L (seqOf S) j e := by
  rw [schur_eq_chol n L hL (S.take m) (fun x hx => hS x (List.mem_of_mem_take hx))
    (List.Nodup.sublist (List.take_sublist m S) hnd) e he]
  rw [List.length_take, Nat.min_eq_left hm]
  congr 1
  apply Finset.sum_congr rfl
  intro j hj
  have hj := Finset.mem_range.mp hj
  rw [chol_congr sqrt L (seqOf (S.take m)) (seqOf S) j
    (fun a ha => seqOf_take S m a (by omega)) e]

/-- Submodularity along prefixes. -/
theorem schur_le_take {α : Type} [LinearOrderedField α]
    {sqrt log : α → α} [Numeric sqrt log]
    (n : Nat) (L : Nat → Nat → α) (hL : PosDefOn n L) (S : List Nat)
    (hS : ∀ x ∈ S, x < n) (hnd : S.Nodup) (m : Nat) (hm : m ≤ S.length) (e : Nat) (he : e < n) :
    schur L S e ≤ schur L (S.take m) e := by
  rw [schur_take_eq_chol n L hL S hS hnd m hm e he, schur_eq_chol n L hL S hS hnd e he]
  have : ∑ j in Finset.range m,
      chol sqrt L (seqOf S) j e * chol sqrt L (seqOf S) j e
      ≤ ∑ j in Finset.range S.length,
      chol sqrt L (seqOf S) j e * chol sqrt L (seqOf S) j e := by
    apply Finset.sum_le_sum_of_subset_of_nonneg
    · intro a ha
      simp only [Finset.mem_range] at ha ⊢
      omega
    · intro i _ _
      exact mul_self_nonneg _
  linarith

end DPP

namespace DPP

/-- A diagonal kernel with a positive diagonal is positive definite. -/
theorem posDefOn_diag {α : Type} [LinearOrderedField α] (n : Nat) (L : Nat → Nat → α)
    (hdiag : ∀ i j, i < n → j < n → i ≠ j → L i j = 0) (hpos : ∀ i, i < n → 0 < L i i) :
    PosDefOn n L := by
  refine ⟨?_, ?_⟩
  · intro i j hi hj
    by_cases h : i = j
    · rw [h]
    · rw [hdiag i j hi hj h, hdiag j i hj hi (fun e => h e.symm)]
  · intro x hx
    have e : quadForm n L x = ∑ i : Fin n, x i * L i i * x i := by
      unfold quadForm
      apply Finset.sum_congr rfl
      intro i _
      apply Finset.sum_eq_single i
      · intro j _ hji
        rw [hdiag i j i.isLt j.isLt (fun h => hji (Fin.ext h.symm)), mul_zero, zero_mul]
      · intro h
        exact absurd (Finset.mem_univ i) h
    rw [e]
    obtain ⟨i0, hi0⟩ : ∃ i, x i ≠ 0 := by
      by_contra h
      apply hx
      funext i
      by_contra hi
      exact h ⟨i, hi⟩
    apply Finset.sum_pos'
    · intro i _
      have := hpos i i.isLt
      nlinarith [mul_self_nonneg (x i)]
    · refine ⟨i0, Finset.mem_univ _, ?_⟩
      have := hpos i0 i0.isLt
      have h2 : 0 < x i0 * x i0 := mul_self_pos.mpr hi0
      nlinarith

/-- The diagonal of a positive definite kernel is positive. -/
theorem posDefOn_diag_pos {α : Type} [LinearOrderedField α] (n : Nat) (L : Nat → Nat → α)
    (hL : PosDefOn n L) (e : Nat) (he : e < n) : 0 < L e e := by
  have h := hL.2 (Pi.single (⟨e, he⟩ : Fin n) 1) (by
    intro h0
    have := congrFun h0 ⟨e, he⟩
    simp at this)
  simpa [quadForm, Pi.single_apply] using h

/-- The identity kernel is positive definite. -/
theorem posDefOn_id {α : Type} [LinearOrderedField α] (n : Nat) : PosDefOn n (idKernel α) :=
  posDefOn_diag n _ (fun i j _ _ h => by simp [idKernel, h]) (fun i _ => by simp [idKernel])

end DPP

namespace DPP

theorem odot_some {α : Type} [LinearOrderedField α] (a b : Nat → Option α) (f g : Nat → α) :
    ∀ j, (∀ i < j, a i = some (f i)) → (∀ i < j, b i = some (g i)) →
      odot a b j = some (∑ i in Finset.range j, f i * g i) := by
  intro j
  induction j with
  | zero => intro _ _; simp [odot]
  | succ j ih =>
    intro ha hb
    rw [odot, ih (fun i hi => ha i (by omega)) (fun i hi => hb i (by omega)),
      ha j (by omega), hb j (by omega), Finset.sum_range_succ]

namespace Fast

theorem fast_inv_construct {α : Type} [LinearOrderedField α]
    {sqrt log : α → α} [Numeric sqrt log]
    (n : Nat) (L : Nat → Nat → α) (V0 : Nat → Nat → Option α) (logV : Bool) :
    Inv n L (Fast.construct V0 logV) := by
  refine ⟨by simp [construct], by simp [construct], by simp [construct], ?_, ?_, ?_, ?_, ?_⟩
  · intro e j hj; simp [construct] at hj
  · intro e _; simp [construct]
  · intro e x _ h; simp [construct] at h
  · intro j hj; simp [construct] at hj
  · simp [construct, logdet, subMatrix, Matrix.det_isEmpty, numeric_log_one sqrt log]

theorem fast_inv_get_last {α : Type} [LinearOrderedField α]
    {sqrt log : α → α} [Numeric sqrt log]
    (n : Nat) (L : Nat → Nat → α) (o : Instance α) (e : Nat)
    (h : Inv n L o) : Inv n L (get_last_marginal_gain_exponential L o e).2 := by
  unfold get_last_marginal_gain_exponential
  cases hd : o.d e with
  | some x => simpa using h
  | none =>
    have hu := h.d_none e hd
    have heS : e ∉ o.S := by
      intro hmem
      obtain ⟨j, hj, hje⟩ := List.getElem_of_mem hmem
      have hs : seqOf o.S j = e := by simp [seqOf, List.getD_eq_getElem?_getD, hj, hje]
      have := (h.committed j hj).2
      rw [hs, hd] at this
      exact absurd this (by simp)
    refine ⟨h.nodup, h.range, h.u_le, h.V_eq, ?_, ?_, ?_, h.value⟩
    · intro a ha
      by_cases hae : a = e
      · subst hae; simp at ha
      · simp only [Function.update_noteq hae] at ha
        exact h.d_none a ha
    · intro a x haS ha
      by_cases hae : a = e
      · subst hae
        simp only [Function.update_same, Option.some.injEq] at ha
        simp [hu, ← ha]
      · simp only [Function.update_noteq hae] at ha
        exact h.d_some a x haS ha
    · intro j hj
      have hne : seqOf o.S j ≠ e := by
        intro hs
        apply heS
        rw [← hs]
        simp [seqOf, List.getD_eq_getElem?_getD, hj]
      simp only [Function.update_noteq hne]
      exact h.committed j hj

end Fast
end DPP

namespace DPP
namespace Fast

theorem seqOf_mem (S : List Nat) (j : Nat) (hj : j < S.length) : seqOf S j ∈ S := by
  have : seqOf S j = S[j] := by simp [seqOf, List.getD_eq_getElem?_getD, hj]
  rw [this]
  exact List.getElem_mem _

end Fast
end DPP

namespace DPP
namespace Fast

theorem fast_get_last_frame {α : Type} [LinearOrderedField α]
    {sqrt log : α → α} [Numeric sqrt log]
    (L : Nat → Nat → α) (o : Instance α) (e : Nat) :
    (get_last_marginal_gain_exponential L o e).2.S = o.S ∧
    (get_last_marginal_gain_exponential L o e).2.u = o.u ∧
    (get_last_marginal_gain_exponential L o e).2.value = o.value ∧
    (get_last_marginal_gain_exponential L o e).2.V = o.V ∧
    (get_last_marginal_gain_exponential L o e).2.d e
      = some (get_last_marginal_gain_exponential L o e).1 ∧
    (∀ a, a ≠ e → (get_last_marginal_gain_exponential L o e).2.d a = o.d a) := by
  unfold get_last_marginal_gain_exponential
  cases hd : o.d e with
  | some x => simp [hd]
  | none =>
    refine ⟨rfl, rfl, rfl, rfl, by simp, ?_⟩
    intro a ha
    simp [Function.update_noteq ha]

theorem fast_compute_spec {α : Type} [LinearOrderedField α]
    {sqrt log : α → α} [Numeric sqrt log]
    (n : Nat) (L : Nat → Nat → α) (hL : PosDefOn n L) (o : Instance α)
    (e : Nat) (h : Inv n L o) (he : e < n) (heS : e ∉ o.S) :
    Inv n L (compute_marginal_gain_exponential sqrt L o e).2 ∧
    (compute_marginal_gain_exponential sqrt L o e).2.S = o.S ∧
    (compute_marginal_gain_exponential sqrt L o e).2.value = o.value ∧
    (compute_marginal_gain_exponential sqrt L o e).1 = schur L o.S e ∧
    (compute_marginal_gain_exponential sqrt L o e).2.u e = o.S.length ∧
    (compute_marginal_gain_exponential sqrt L o e).2.d e
      = some (compute_marginal_gain_exponential sqrt L o e).1 ∧
    (∀ a, a ≠ e → (compute_marginal_gain_exponential sqrt L o e).2.u a = o.u a ∧
      (compute_marginal_gain_exponential sqrt L o e).2.d a = o.d a) := by
  -- Residual positivity at the level of sequences.
  have residual_pos {α : Type} [LinearOrderedField α]
      {sqrt log : α → α} [Numeric sqrt log]
      (n : Nat) (L : Nat → Nat → α) (hL : PosDefOn n L) (s : Nat → Nat) (j : Nat)
      (hs : ∀ i < j, s i < n) (hinj : ∀ a < j, ∀ b < j, s a = s b → a = b)
      (e : Nat) (he : e < n) (hne : ∀ i < j, s i ≠ e) :
      0 < L e e - ∑ i in Finset.range j, chol sqrt L s i e * chol sqrt L s i e := by
    let t : Nat → Nat := fun i => if i < j then s i else e
    have ht1 : ∀ i < j, t i = s i := fun i hi => by simp [t, hi]
    have ht2 : t j = e := by simp [t]
    have hp := pivot_pos n L hL t (j + 1)
      (by
        intro i hi
        by_cases h : i < j
        · rw [ht1 i h]; exact hs i h
        · have : i = j := by omega
          rw [this, ht2]; exact he)
      (by
        intro a ha b hb hab
        by_cases h1 : a < j <;> by_cases h2 : b < j
        · rw [ht1 a h1, ht1 b h2] at hab
          exact hinj a h1 b h2 hab
        · have : b = j := by omega
          rw [this, ht2, ht1 a h1] at hab
          exact absurd hab (hne a h1)
        · have : a = j := by omega
          rw [this, ht2, ht1 b h2] at hab
          exact absurd hab.symm (hne b h2)
        · omega)
      j (by omega)
    rw [pivot, ht2] at hp
    have e2 : ∑ i in Finset.range j, chol sqrt L t i e * chol sqrt L t i e
        = ∑ i in Finset.range j, chol sqrt L s i e * chol sqrt L s i e :=
      Finset.sum_congr rfl (fun i hi => by
        rw [chol_congr sqrt L t s i (fun a ha => ht1 a (by
          have := Finset.mem_range.mp hi
          omega)) e])
    rw [e2] at hp
    exact hp
  have fast_inv_loop {α : Type} [LinearOrderedField α]
      {sqrt log : α → α} [Numeric sqrt log]
      (n : Nat) (L : Nat → Nat → α) (hL : PosDefOn n L) (e : Nat) (he : e < n) :
      ∀ (k : Nat) (o : Instance α) (x : α), Inv n L o → e ∉ o.S → o.u e + k = o.S.length →
        o.d e = some x →
        Inv n L (loop sqrt L k o e x).2 ∧ (loop sqrt L k o e x).2.S = o.S ∧
        (loop sqrt L k o e x).2.u e = o.S.length ∧
        (loop sqrt L k o e x).2.d e = some (loop sqrt L k o e x).1 ∧
        (loop sqrt L k o e x).2.value = o.value ∧
        (∀ a, a ≠ e → (loop sqrt L k o e x).2.u a = o.u a ∧
          (loop sqrt L k o e x).2.d a = o.d a) := by
    have fast_inv_step {α : Type} [LinearOrderedField α]
        {sqrt log : α → α} [Numeric sqrt log]
        (n : Nat) (L : Nat → Nat → α) (hL : PosDefOn n L) (o : Instance α) (e : Nat)
        (x : α) (h : Inv n L o) (he : e < n) (heS : e ∉ o.S) (hu : o.u e < o.S.length)
        (hd : o.d e = some x) :
        Inv n L (step sqrt L o e x).2 ∧ (step sqrt L o e x).2.S = o.S ∧
          (step sqrt L o e x).2.u e = o.u e + 1 ∧
          (step sqrt L o e x).2.d e = some (step sqrt L o e x).1 ∧
          (step sqrt L o e x).2.value = o.value ∧
          (∀ a, a ≠ e → (step sqrt L o e x).2.u a = o.u a ∧
            (step sqrt L o e x).2.d a = o.d a) := by
      have hl : o.S.getD (o.u e) 0 = seqOf o.S (o.u e) := rfl
      have hcom := h.committed (o.u e) hu
      have hpiv := pivot_pos_list n L hL o.S h.range h.nodup (o.u e) hu
      have hdot : odot (o.V e) (o.V (seqOf o.S (o.u e))) (o.u e)
          = some (∑ i in Finset.range (o.u e), chol sqrt L (seqOf o.S) i e *
              chol sqrt L (seqOf o.S) i (seqOf o.S (o.u e))) := by
        apply odot_some
        · intro i hi; exact h.V_eq e i hi
        · intro i hi
          apply h.V_eq
          rw [hcom.1]; exact hi
      have hq : quotient sqrt (L e (seqOf o.S (o.u e)))
          (odot (o.V e) (o.V (seqOf o.S (o.u e))) (o.u e)) (o.d (seqOf o.S (o.u e)))
          = some (chol sqrt L (seqOf o.S) (o.u e) e) := by
        rw [hdot, hcom.2, quotient]
        simp only [not_le.mpr hpiv, if_false]
        rw [chol_eq]
      have hx := h.d_some e x heS hd
      have hres : residual x (some (chol sqrt L (seqOf o.S) (o.u e) e))
          = L e e - ∑ i in Finset.range (o.u e + 1),
              chol sqrt L (seqOf o.S) i e * chol sqrt L (seqOf o.S) i e := by
        have hpos := residual_pos n L hL (seqOf o.S) (o.u e + 1)
          (fun i hi => h.range _ (seqOf_mem o.S i (by omega)))
          (fun a ha b hb => seqOf_inj o.S h.nodup a (by omega) b (by omega)) e he
          (fun i hi hie => heS (hie ▸ seqOf_mem o.S i (by omega)))
        rw [Finset.sum_range_succ] at hpos ⊢
        rw [residual, hx, max_eq_right (by linarith)]
        ring
      have hne : ∀ j < o.S.length, seqOf o.S j ≠ e :=
        fun j hj hje => heS (hje ▸ seqOf_mem o.S j hj)
      simp only [step, hl, hq, hres]
      refine ⟨⟨h.nodup, h.range, ?_, ?_, ?_, ?_, ?_, h.value⟩, trivial, by simp, by simp, trivial, ?_⟩
      · intro a
        by_cases hae : a = e
        · subst hae; simp; omega
        · simp only [Function.update_noteq hae]; exact h.u_le a
      · intro a j hj
        by_cases hae : a = e
        · subst hae
          simp only [Function.update_same] at hj ⊢
          by_cases hjj : j = o.u a
          · subst hjj; simp
          · simp only [Function.update_noteq hjj]
            exact h.V_eq a j (by omega)
        · simp only [Function.update_noteq hae] at hj ⊢
          exact h.V_eq a j hj
      · intro a ha
        by_cases hae : a = e
        · subst hae; simp at ha
        · simp only [Function.update_noteq hae] at ha ⊢
          exact h.d_none a ha
      · intro a y haS ha
        by_cases hae : a = e
        · subst hae
          simp only [Function.update_same, Option.some.injEq] at ha ⊢
          exact ha.symm
        · simp only [Function.update_noteq hae] at ha ⊢
          exact h.d_some a y haS ha
      · intro j hj
        simp only [Function.update_noteq (hne j hj)]
        exact h.committed j hj
      · intro a hae
        simp [Function.update_noteq hae]
    intro k
    induction k with
    | zero =>
      intro o x h _ hu hd
      simp only [loop]
      exact ⟨h, trivial, by omega, hd, trivial, fun a _ => ⟨trivial, trivial⟩⟩
    | succ k ih =>
      intro o x h heS hu hd
      obtain ⟨h1, h2, h3, h4, h5, h6⟩ := fast_inv_step n L hL o e x h he heS (by omega) hd
      have := ih (step sqrt L o e x).2 (step sqrt L o e x).1 h1 (by rw [h2]; exact heS)
        (by rw [h2, h3]; omega) h4
      obtain ⟨g1, g2, g3, g4, g5, g6⟩ := this
      simp only [loop]
      refine ⟨g1, by rw [g2, h2], by rw [g3, h2], g4, by rw [g5, h5], ?_⟩
      intro a hae
      rw [(g6 a hae).1, (g6 a hae).2, (h6 a hae).1, (h6 a hae).2]
      exact ⟨rfl, rfl⟩
  obtain ⟨f1, f2, f3, _, f5, f6⟩ := fast_get_last_frame L o e
  have h1 := fast_inv_get_last n L o e h
  have hk : (get_last_marginal_gain_exponential L o e).2.u e +
      ((get_last_marginal_gain_exponential L o e).2.S.length -
        (get_last_marginal_gain_exponential L o e).2.u e)
      = (get_last_marginal_gain_exponential L o e).2.S.length := by
    have := h1.u_le e
    omega
  obtain ⟨g1, g2, g3, g4, g5, g6⟩ := fast_inv_loop n L hL e he _
    (get_last_marginal_gain_exponential L o e).2 (get_last_marginal_gain_exponential L o e).1
    h1 (by rw [f1]; exact heS) hk f5
  unfold compute_marginal_gain_exponential
  simp only []
  refine ⟨g1, by rw [g2, f1], by rw [g5, f3], ?_, by rw [g3, f1], g4, ?_⟩
  · have hx := g1.d_some e _ (by rw [g2, f1]; exact heS) g4
    rw [hx, g3, g2, f1]
    exact (schur_eq_chol n L hL o.S h.range h.nodup e he).symm
  · intro a hae
    rw [(g6 a hae).1, (g6 a hae).2, f2, f6 a hae]
    exact ⟨rfl, rfl⟩

theorem fast_add_spec {α : Type} [LinearOrderedField α]
    {sqrt log : α → α} [Numeric sqrt log]
    (n : Nat) (L : Nat → Nat → α) (hL : PosDefOn n L) (o : Instance α)
    (e : Nat) (h : Inv n L o) (he : e < n) (heS : e ∉ o.S) (hu : o.u e = o.S.length)
    (hd : o.d e ≠ none) :
    Inv n L (add log o e) ∧ o.d e = some (schur L o.S e) := by
  obtain ⟨x, hx⟩ := Option.ne_none_iff_exists'.mp hd
  have hxe := h.d_some e x heS hx
  rw [hu, ← schur_eq_chol n L hL o.S h.range h.nodup e he] at hxe
  have hpos := schur_pos n L hL o.S h.range h.nodup e he heS
  have hS1 : ∀ y ∈ o.S ++ [e], y < n := by
    intro y hy
    rcases List.mem_append.mp hy with h1 | h1
    · exact h.range y h1
    · rw [List.mem_singleton.mp h1]; exact he
  have hnd1 : (o.S ++ [e]).Nodup :=
    List.Nodup.append h.nodup (List.nodup_singleton e) (by simpa using heS)
  have hc : ∀ j < o.S.length, ∀ a,
      chol sqrt L (seqOf (o.S ++ [e])) j a = chol sqrt L (seqOf o.S) j a :=
    fun j hj a => chol_congr sqrt L _ _ j (fun i hi => seqOf_append_lt o.S e i (by omega)) a
  refine ⟨⟨hnd1, hS1, ?_, ?_, ?_, ?_, ?_, ?_⟩, by rw [hx, hxe]⟩
  · intro a
    have := h.u_le a
    simp only [add, List.length_append, List.length_singleton]
    omega
  · intro a j hj
    simp only [add] at hj ⊢
    rw [hc j (by have := h.u_le a; omega) a]
    exact h.V_eq a j hj
  · intro a ha
    exact h.d_none a ha
  · intro a y haS ha
    simp only [add] at haS ha ⊢
    have haS1 : a ∉ o.S := fun hm => haS (List.mem_append_left _ hm)
    rw [h.d_some a y haS1 ha]
    congr 1
    apply Finset.sum_congr rfl
    intro j hj
    have hj := Finset.mem_range.mp hj
    have := h.u_le a
    rw [hc j (by omega) a]
  · intro j hj
    simp only [add, List.length_append, List.length_singleton] at hj ⊢
    by_cases hjl : j < o.S.length
    · rw [seqOf_append_lt o.S e j hjl,
        pivot_congr sqrt L _ _ j (fun i hi => seqOf_append_lt o.S e i (by omega))]
      exact h.committed j hjl
    · have hje : j = o.S.length := by omega
      subst hje
      rw [seqOf_append_length, ← schur_eq_pivot n L hL o.S h.range h.nodup e he, hx, hxe]
      exact ⟨hu, rfl⟩
  · simp only [add, h.value, hx, hxe, logdet, dlog, vadd, not_lt.mpr hpos.le, hpos.ne',
      if_false]
    rw [det_sub_append n L hL o.S h.range h.nodup e he heS,
      Numeric.log_mul _ _ (det_sub_pos n L hL o.S h.range h.nodup) hpos]
    rfl

end Fast
end DPP

namespace DPP

theorem Fast.fast_reach_inv {α : Type} [LinearOrderedField α]
    {sqrt log : α → α} [Numeric sqrt log]
    (n : Nat) (L : Nat → Nat → α) (hL : PosDefOn n L)
    (V0 : Nat → Nat → Option α) (o : Fast.Instance α)
    (h : Fast.Reach n sqrt log V0 L o) : Fast.Inv n L o := by
  induction h with
  | construct logV => exact Fast.fast_inv_construct n L V0 logV
  | compute o e _ he heS ih => exact (Fast.fast_compute_spec n L hL o e ih he heS).1
  | get_last o e _ _ ih => exact Fast.fast_inv_get_last n L o e ih
  | add o e _ he heS hu hd ih => exact (Fast.fast_add_spec n L hL o e ih he heS hu hd).1
  | clear o _ ih =>
    exact ⟨ih.nodup, ih.range, ih.u_le, ih.V_eq, ih.d_none, ih.d_some, ih.committed, ih.value⟩

theorem schur_nil {α : Type} [LinearOrderedField α] (L : Nat → Nat → α) (e : Nat) :
    schur L [] e = L e e := by
  simp [schur, Matrix.dotProduct]

namespace Oracle

theorem direct_inv_construct {α : Type} [LinearOrderedField α]
    {sqrt log : α → α} [Numeric sqrt log]
    (L : Nat → Nat → α) : Inv L (Oracle.construct α) := by
  refine ⟨by simp [construct], by simp [construct], ?_⟩
  intro e h
  simp [construct] at h

theorem direct_compute_spec {α : Type} [LinearOrderedField α]
    {sqrt log : α → α} [Numeric sqrt log]
    (L : Nat → Nat → α) (o : Instance α) (e : Nat) (h : Inv L o) :
    Inv L (compute_marginal_gain_exponential L o e).2 ∧
    (compute_marginal_gain_exponential L o e).2.S = o.S ∧
    (compute_marginal_gain_exponential L o e).2.value = o.value ∧
    (compute_marginal_gain_exponential L o e).1 = max 0 (schur L o.S e) ∧
    (compute_marginal_gain_exponential L o e).2.u e = (o.S.length : Int) ∧
    (compute_marginal_gain_exponential L o e).2.d e
      = some (compute_marginal_gain_exponential L o e).1 ∧
    (∀ a, a ≠ e → (compute_marginal_gain_exponential L o e).2.u a = o.u a ∧
      (compute_marginal_gain_exponential L o e).2.d a = o.d a) := by
  unfold compute_marginal_gain_exponential
  by_cases hu : o.u e < (o.S.length : Int)
  · rw [if_pos hu]
    refine ⟨⟨?_, ?_, ?_⟩, rfl, rfl, rfl, by simp, by simp, ?_⟩
    · intro a
      by_cases hae : a = e
      · subst hae; simp; omega
      · simp only [Function.update_noteq hae]; exact h.u_ge a
    · intro a
      by_cases hae : a = e
      · subst hae; simp
      · simp only [Function.update_noteq hae]; exact h.u_le a
    · intro a ha
      by_cases hae : a = e
      · subst hae
        simp only [Function.update_same, Int.toNat_ofNat, List.take_length]
        rfl
      · simp only [Function.update_noteq hae] at ha ⊢
        exact h.d_eq a ha
    · intro a hae
      simp [Function.update_noteq hae]
  · rw [if_neg hu]
    have hue : o.u e = (o.S.length : Int) := le_antisymm (h.u_le e) (not_lt.mp hu)
    have hd := h.d_eq e (by omega)
    rw [hue] at hd
    simp only [Int.toNat_ofNat, List.take_length] at hd
    refine ⟨h, rfl, rfl, by rw [hd]; rfl, hue, by rw [hd]; rfl, fun a _ => ⟨rfl, rfl⟩⟩

theorem direct_get_last_spec {α : Type} [LinearOrderedField α]
    {sqrt log : α → α} [Numeric sqrt log]
    (n : Nat) (L : Nat → Nat → α) (hdiag : ∀ e < n, 0 ≤ L e e)
    (o : Instance α) (e : Nat) (he : e < n) (h : Inv L o) :
    Inv L (get_last_marginal_gain_exponential L o e).2 ∧
    (get_last_marginal_gain_exponential L o e).2.S = o.S ∧
    (get_last_marginal_gain_exponential L o e).2.value = o.value := by
  unfold get_last_marginal_gain_exponential
  by_cases hu : o.u e = -1
  · rw [if_pos hu]
    refine ⟨⟨?_, ?_, ?_⟩, rfl, rfl⟩
    · intro a
      by_cases hae : a = e
      · subst hae; simp
      · simp only [Function.update_noteq hae]; exact h.u_ge a
    · intro a
      by_cases hae : a = e
      · subst hae; simp
      · simp only [Function.update_noteq hae]; exact h.u_le a
    · intro a ha
      by_cases hae : a = e
      · subst hae
        simp [schur_nil, max_eq_right (hdiag a he)]
      · simp only [Function.update_noteq hae] at ha ⊢
        exact h.d_eq a ha
  · rw [if_neg hu]
    exact ⟨h, rfl, rfl⟩

theorem direct_add_spec {α : Type} [LinearOrderedField α]
    {sqrt log : α → α} [Numeric sqrt log]
    (L : Nat → Nat → α) (log : α → α) (o : Instance α) (e : Nat) (h : Inv L o) :
    Inv L (add log o e) := by
  refine ⟨h.u_ge, ?_, ?_⟩
  · intro a
    have := h.u_le a
    simp only [add, List.length_append, List.length_singleton]
    push_cast
    omega
  · intro a ha
    simp only [add] at ha ⊢
    have h1 := h.u_le a
    rw [List.take_append_of_le_length (by omega)]
    exact h.d_eq a ha

theorem direct_reach_inv {α : Type} [LinearOrderedField α]
    {sqrt log : α → α} [Numeric sqrt log]
    (n : Nat) (L : Nat → Nat → α) (hdiag : ∀ e < n, 0 ≤ L e e) (log : α → α)
    (o : Instance α) (h : Reach n log L o) : Inv L o := by
  induction h with
  | construct => exact direct_inv_construct L
  | compute o e _ _ ih => exact (direct_compute_spec L o e ih).1
  | get_last o e _ he ih => exact (direct_get_last_spec n L hdiag o e he ih).1
  | add o e _ _ ih => exact direct_add_spec L log o e ih

end Oracle

end DPP

namespace DPP

theorem posSemidef_diag_nonneg {n : Nat} {M : Matrix (Fin n) (Fin n) ℝ} (hM : M.PosSemidef)
    (i : Fin n) : 0 ≤ M i i := by
  have h := hM.2 (Pi.single i 1)
  simpa [Matrix.dotProduct, Matrix.mulVec, Pi.single_apply] using h

/-- C9. Direct oracle contract: on a positive semidefinite `L`, in every state the direct
oracle reaches in which `L[S,S]` is invertible, `compute_marginal_gain_exponential(e)`
returns `max(0, L[e,e] - L[S,e]ᵀ L[S,S]⁻¹ L[S,e])` for the current `S`, leaves that value in
`d[e]`, leaves `S` as it is and sets `last_size[e]` to `|S|`, also when the cached value is
reused. -/
theorem direct_oracle_contract (n : Nat) (L : Nat → Nat → ℝ)
    (hL : (Matrix.of fun i j : Fin n => L i j).PosSemidef) (log : ℝ → ℝ)
    (o : Oracle.Instance ℝ) (ho : Oracle.Reach n log L o)
    (hS : (subMatrix L o.S o.S).det ≠ 0) (e : Nat) (he : e < n) :
    (Oracle.compute_marginal_gain_exponential L o e).1
      = max 0 (L e e - Matrix.dotProduct (subVector L o.S e)
          ((subMatrix L o.S o.S)⁻¹.mulVec (subVector L o.S e))) ∧
    (Oracle.compute_marginal_gain_exponential L o e).2.d e
      = some (max 0 (L e e - Matrix.dotProduct (subVector L o.S e)
          ((subMatrix L o.S o.S)⁻¹.mulVec (subVector L o.S e)))) ∧
    (Oracle.compute_marginal_gain_exponential L o e).2.S = o.S ∧
    (Oracle.compute_marginal_gain_exponential L o e).2.u e
      = ((Oracle.compute_marginal_gain_exponential L o e).2.S.length : Int) ∧
    (subMatrix L o.S o.S).mulVec (ldltSolve (subMatrix L o.S o.S) (subVector L o.S e))
      = subVector L o.S e ∧
    Oracle.Reach n log L (Oracle.compute_marginal_gain_exponential L o e).2 := by
  have hdiag : ∀ a < n, 0 ≤ L a a := fun a ha => posSemidef_diag_nonneg hL ⟨a, ha⟩
  have hinv := Oracle.direct_reach_inv n L hdiag log o ho
  obtain ⟨_, h2, _, h4, h5, h6, _⟩ := Oracle.direct_compute_spec L o e hinv
  have hs : schur L o.S e = L e e - Matrix.dotProduct (subVector L o.S e)
      ((subMatrix L o.S o.S)⁻¹.mulVec (subVector L o.S e)) := by
    rw [schur, ldltSolve_eq]
  rw [← hs]
  refine ⟨h4, by rw [h6, h4], h2, by rw [h5, h2], ?_, Oracle.Reach.compute o e ho he⟩
  rw [ldltSolve_eq, Matrix.mulVec_mulVec, Matrix.mul_nonsing_inv _ (isUnit_iff_ne_zero.mpr hS),
    Matrix.one_mulVec]

/-- Witness of C9: the identity kernel on two elements, after element `0` has been looked
up on the empty selection, computed and added, and element `1` is computed. -/
theorem direct_oracle_contract_witness :
    (Oracle.compute_marginal_gain_exponential (idKernel ℝ)
        (Oracle.add Real.log (Oracle.compute_marginal_gain_exponential (idKernel ℝ)
          (Oracle.get_last_marginal_gain_exponential (idKernel ℝ) (Oracle.construct ℝ) 0).2
          0).2 0) 1).2.u 1
      = ((Oracle.compute_marginal_gain_exponential (idKernel ℝ)
        (Oracle.add Real.log (Oracle.compute_marginal_gain_exponential (idKernel ℝ)
          (Oracle.get_last_marginal_gain_exponential (idKernel ℝ) (Oracle.construct ℝ) 0).2
          0).2 0) 1).2.S.length : Int) := by
  have idKernel_eq_one (n : Nat) :
      (Matrix.of fun i j : Fin n => idKernel ℝ i j) = (1 : Matrix (Fin n) (Fin n) ℝ) := by
    ext i j
    simp [idKernel, Matrix.one_apply, Fin.ext_iff]
  exact (direct_oracle_contract 2 (idKernel ℝ)
    (by rw [idKernel_eq_one]; exact Matrix.PosSemidef.one) Real.log _
    (Oracle.Reach.add _ 0
      (Oracle.Reach.compute _ 0
        (Oracle.Reach.get_last _ 0 Oracle.Reach.construct (by decide)) (by decide))
      (by decide))
    (by
      simp [Oracle.add, Oracle.compute_marginal_gain_exponential,
        Oracle.get_last_marginal_gain_exponential, Oracle.construct, subMatrix, idKernel,
        Matrix.det_unique])
    1 (by decide)).2.2.2.1

end DPP

namespace DPP

/-- C10 (as amended). Fast oracle contract: on a symmetric positive definite `L`, in every
state the fast oracle reaches when each element is computed while it is still outside `S`
and is added right after being computed against the current `S`, a call
`compute_marginal_gain_exponential(e)` for `e` outside `S` leaves `last_size[e] = |S|`, every
`V[e,j]`, `j < |S|`, finite and equal to `(L[e,l] - Σ_{i<j} V[e,i] V[l,i]) / sqrt(d[l])` with
`l = S[j]`, and returns and stores `d[e] = L[e,e] - Σ_{j<|S|} V[e,j]²`, which is positive, so
that the clamp at zero leaves it as it is. -/
theorem fast_oracle_contract (n : Nat) (L : Nat → Nat → ℝ) (hL : PosDefOn n L)
    (V0 : Nat → Nat → Option ℝ) (o : Fast.Instance ℝ)
    (ho : Fast.Reach n Real.sqrt Real.log V0 L o) (e : Nat) (he : e < n) (heS : e ∉ o.S) :
    Fast.Contract Real.sqrt L (Fast.compute_marginal_gain_exponential Real.sqrt L o e).2 e
      (Fast.compute_marginal_gain_exponential Real.sqrt L o e).1 ∧
    0 < (Fast.compute_marginal_gain_exponential Real.sqrt L o e).1 ∧
    (Fast.compute_marginal_gain_exponential Real.sqrt L o e).2.S = o.S := by
  have contract_of_inv {α : Type} [LinearOrderedField α]
      {sqrt log : α → α} [Numeric sqrt log]
      (n : Nat) (L : Nat → Nat → α) (hL : PosDefOn n L)
      (o : Fast.Instance α) (e : Nat) (x : α) (h : Fast.Inv n L o) (heS : e ∉ o.S)
      (hu : o.u e = o.S.length) (hd : o.d e = some x) :
      Fast.Contract sqrt L o e x := by
    have hx := h.d_some e x heS hd
    rw [hu] at hx
    refine ⟨hu, fun j => chol sqrt L (seqOf o.S) j e, ?_, by rw [hd, hx], hx⟩
    intro j hj
    have hV := h.V_eq e j (by rw [hu]; exact hj)
    refine ⟨hV, ?_⟩
    have hcom := h.committed j hj
    have hpiv := pivot_pos_list n L hL o.S h.range h.nodup j hj
    have hl : o.S.getD j 0 = seqOf o.S j := rfl
    have hdot : odot (o.V e) (o.V (seqOf o.S j)) j
        = some (∑ i in Finset.range j, chol sqrt L (seqOf o.S) i e *
            chol sqrt L (seqOf o.S) i (seqOf o.S j)) := by
      apply odot_some
      · intro i hi; exact h.V_eq e i (by rw [hu]; omega)
      · intro i hi
        apply h.V_eq
        rw [hcom.1]; exact hi
    rw [hV, hl, hdot, hcom.2, Fast.quotient]
    simp only [not_le.mpr hpiv, if_false]
    rw [chol_eq]
  have hinv := Fast.fast_reach_inv n L hL V0 o ho
  obtain ⟨h1, h2, _, h4, h5, h6, _⟩ := Fast.fast_compute_spec n L hL o e hinv he heS
  refine ⟨contract_of_inv n L hL _ e _ h1 (by rw [h2]; exact heS) (by rw [h5, h2]) h6,
    ?_, h2⟩
  rw [h4]
  exact schur_pos n L hL o.S hinv.range hinv.nodup e he heS

/-- Witness of C10: the identity kernel on two elements, element `0` computed and added,
then element `1` computed. -/
theorem fast_oracle_contract_witness :
    0 < (Fast.compute_marginal_gain_exponential Real.sqrt (idKernel ℝ)
      (Fast.add Real.log (Fast.compute_marginal_gain_exponential Real.sqrt (idKernel ℝ)
        (Fast.construct (fun _ _ => none) false) 0).2 0) 1).1 :=
  (fast_oracle_contract 2 (idKernel ℝ) (posDefOn_id 2) (fun _ _ => none) _
    (Fast.Reach.add _ 0
      (Fast.Reach.compute _ 0 (Fast.Reach.construct false) (by decide)
        (by simp [Fast.construct]))
      (by decide)
      (by simp [Fast.compute_marginal_gain_exponential, Fast.get_last_marginal_gain_exponential,
        Fast.construct, Fast.loop])
      (by simp [Fast.compute_marginal_gain_exponential, Fast.get_last_marginal_gain_exponential,
        Fast.construct, Fast.loop])
      (by simp [Fast.compute_marginal_gain_exponential, Fast.get_last_marginal_gain_exponential,
        Fast.construct, Fast.loop]))
    1 (by decide)
    (by simp [Fast.add, Fast.compute_marginal_gain_exponential,
      Fast.get_last_marginal_gain_exponential, Fast.construct, Fast.loop])).2.1

/-- C10, counterexample: on the `1 × 1` identity, after element `0` has been computed and
added, a second `compute_marginal_gain_exponential(0)` writes `V[0,0] = 1` and resets
`d[0]` to `0`; the state then does not satisfy `V[0,0] = (L[0,0] - 0) / sqrt(d[0])`. -/
theorem fast_oracle_contract_counterexample :
    Fast.Reach 1 Real.sqrt Real.log (fun _ _ => none) (idKernel ℝ)
      (Fast.add Real.log (Fast.compute_marginal_gain_exponential Real.sqrt (idKernel ℝ)
        (Fast.construct (fun _ _ => none) false) 0).2 0) ∧
    ¬ Fast.Contract Real.sqrt (idKernel ℝ)
      (Fast.compute_marginal_gain_exponential Real.sqrt (idKernel ℝ)
        (Fast.add Real.log (Fast.compute_marginal_gain_exponential Real.sqrt (idKernel ℝ)
          (Fast.construct (fun _ _ => none) false) 0).2 0) 0).2 0
      (Fast.compute_marginal_gain_exponential Real.sqrt (idKernel ℝ)
        (Fast.add Real.log (Fast.compute_marginal_gain_exponential Real.sqrt (idKernel ℝ)
          (Fast.construct (fun _ _ => none) false) 0).2 0) 0).1 := by
  refine ⟨Fast.Reach.add _ 0
      (Fast.Reach.compute _ 0 (Fast.Reach.construct false) (by decide)
        (by simp [Fast.construct]))
      (by decide)
      (by simp [Fast.compute_marginal_gain_exponential, Fast.get_last_marginal_gain_exponential,
        Fast.construct, Fast.loop])
      (by simp [Fast.compute_marginal_gain_exponential, Fast.get_last_marginal_gain_exponential,
        Fast.construct, Fast.loop])
      (by simp [Fast.compute_marginal_gain_exponential, Fast.get_last_marginal_gain_exponential,
        Fast.construct, Fast.loop]), ?_⟩
  rintro ⟨_, w, hw, _, _⟩
  have h := (hw 0 (by
    simp [Fast.add, Fast.compute_marginal_gain_exponential,
      Fast.get_last_marginal_gain_exponential, Fast.construct, Fast.loop, Fast.step])).2
  simp [Fast.add, Fast.compute_marginal_gain_exponential,
      Fast.get_last_marginal_gain_exponential, Fast.construct, Fast.loop, Fast.step,
      Fast.quotient, Fast.residual, odot, idKernel] at h
  norm_num at h
  cases h

end DPP

namespace DPP

/-- C2. Oracle agreement: on a symmetric positive definite `L`, for a direct and a fast
oracle that have reached the same selection `S` (every element added to the fast oracle
right after being computed against the current `S`, the elements of `S` distinct), and
every `e` outside `S`, the two calls `compute_marginal_gain_exponential(e)` return the same
value, the Schur complement `L[e,e] - L[S,e]ᵀ L[S,S]⁻¹ L[S,e]`. -/
theorem oracle_agreement (n : Nat) (L : Nat → Nat → ℝ) (hL : PosDefOn n L)
    (V0 : Nat → Nat → Option ℝ) (oD : Oracle.Instance ℝ) (oF : Fast.Instance ℝ)
    (hD : Oracle.Reach n Real.log L oD) (hF : Fast.Reach n Real.sqrt Real.log V0 L oF)
    (hS : oD.S = oF.S) (e : Nat) (he : e < n) (heS : e ∉ oF.S) :
    (Oracle.compute_marginal_gain_exponential L oD e).1
      = (Fast.compute_marginal_gain_exponential Real.sqrt L oF e).1 ∧
    (Fast.compute_marginal_gain_exponential Real.sqrt L oF e).1
      = L e e - Matrix.dotProduct (subVector L oF.S e)
          ((subMatrix L oF.S oF.S)⁻¹.mulVec (subVector L oF.S e)) := by
  have hsym := posDefOn_symm n L hL
  have hdiag : ∀ a < n, 0 ≤ L a a := fun a ha => (posDefOn_diag_pos n L hL a ha).le
  have hinvD := Oracle.direct_reach_inv n L hdiag Real.log oD hD
  have hinvF := Fast.fast_reach_inv n L hL V0 oF hF
  obtain ⟨_, _, _, d4, _⟩ := Oracle.direct_compute_spec L oD e hinvD
  obtain ⟨_, _, _, f4, _⟩ := Fast.fast_compute_spec n L hL oF e hinvF he heS
  have hpos := schur_pos n L hL oF.S hinvF.range hinvF.nodup e he heS
  have hs : schur L oF.S e = L e e - Matrix.dotProduct (subVector L oF.S e)
      ((subMatrix L oF.S oF.S)⁻¹.mulVec (subVector L oF.S e)) := by
    rw [schur, ldltSolve_eq]
  rw [d4, f4, hS, max_eq_right hpos.le]
  exact ⟨rfl, hs⟩

/-- Witness of C2: the identity kernel on two elements, element `0` computed and added in
both oracles, element `1` queried. -/
theorem oracle_agreement_witness :
    (Oracle.compute_marginal_gain_exponential (idKernel ℝ)
        (Oracle.add Real.log (Oracle.compute_marginal_gain_exponential (idKernel ℝ)
          (Oracle.construct ℝ) 0).2 0) 1).1
      = (Fast.compute_marginal_gain_exponential Real.sqrt (idKernel ℝ)
        (Fast.add Real.log (Fast.compute_marginal_gain_exponential Real.sqrt (idKernel ℝ)
          (Fast.construct (fun _ _ => none) false) 0).2 0) 1).1 :=
  (oracle_agreement 2 (idKernel ℝ) (posDefOn_id 2) (fun _ _ => none) _ _
    (Oracle.Reach.add _ 0 (Oracle.Reach.compute _ 0 Oracle.Reach.construct (by decide))
      (by decide))
    (Fast.Reach.add _ 0
      (Fast.Reach.compute _ 0 (Fast.Reach.construct false) (by decide)
        (by simp [Fast.construct]))
      (by decide)
      (by simp [Fast.compute_marginal_gain_exponential, Fast.get_last_marginal_gain_exponential,
        Fast.construct, Fast.loop])
      (by simp [Fast.compute_marginal_gain_exponential, Fast.get_last_marginal_gain_exponential,
        Fast.construct, Fast.loop])
      (by simp [Fast.compute_marginal_gain_exponential, Fast.get_last_marginal_gain_exponential,
        Fast.construct, Fast.loop]))
    (by simp [Oracle.add, Oracle.compute_marginal_gain_exponential, Oracle.construct, Fast.add,
      Fast.compute_marginal_gain_exponential, Fast.get_last_marginal_gain_exponential,
      Fast.construct, Fast.loop])
    1 (by decide)
    (by simp [Fast.add, Fast.compute_marginal_gain_exponential,
      Fast.get_last_marginal_gain_exponential, Fast.construct, Fast.loop])).1

end DPP

namespace DPP
namespace Access

theorem touchRows_eq {α : Type} [LinearOrderedField α] (d : Nat) (B : Nat → Nat → α)
    (rows : List Nat) (e : Nat) (c : CachedGramMatrix α) :
    CachedGramMatrix.touchRows d B rows e c
      = (rows.map fun i => (i, e)).foldl (touch d B) c := by
  induction rows generalizing c with
  | nil => rfl
  | cons i rows ih =>
    simp only [CachedGramMatrix.touchRows, List.map_cons, List.foldl_cons]
    rw [ih]
    rfl

theorem touchCols_eq {α : Type} [LinearOrderedField α] (d : Nat) (B : Nat → Nat → α)
    (S T : List Nat) (c : CachedGramMatrix α) :
    CachedGramMatrix.touchCols d B S T c
      = ((T.map fun j => S.map fun i => (i, j)).flatten).foldl (touch d B) c := by
  induction T generalizing c with
  | nil => rfl
  | cons j T ih =>
    simp only [CachedGramMatrix.touchCols, List.map_cons, List.flatten_cons, List.foldl_append]
    rw [ih]
    simp only [CachedGramMatrix.sub, touchRows_eq]

theorem cache_run_eq {α : Type} [LinearOrderedField α] (d n : Nat) (B : Nat → Nat → α)
    (c : CachedGramMatrix α) (a : Access) :
    run d n B c a = (cells n a).foldl (touch d B) c := by
  cases a with
  | entry i j => rfl
  | col j => simp only [run, CachedGramMatrix.col, touchRows_eq, cells]
  | sub S e => simp only [run, CachedGramMatrix.sub, touchRows_eq, cells]
  | subm S T => simp only [run, CachedGramMatrix.subm, touchCols_eq, cells]

theorem cache_runAll_eq {α : Type} [LinearOrderedField α] (d n : Nat) (B : Nat → Nat → α)
    (as : List Access) (c : CachedGramMatrix α) :
    runAll d n B as c = ((as.map (cells n)).flatten).foldl (touch d B) c := by
  induction as generalizing c with
  | nil => rfl
  | cons a as ih =>
    simp only [runAll, List.map_cons, List.flatten_cons, List.foldl_append]
    rw [ih, cache_run_eq]

theorem cache_inv_construct {α : Type} [LinearOrderedField α] (d : Nat) (B : Nat → Nat → α) :
    Inv d B (CachedGramMatrix.construct α) ∅ := by
  refine ⟨?_, ?_, rfl⟩
  · intro a b; simp [CachedGramMatrix.construct]
  · intro a b v h; simp [CachedGramMatrix.construct] at h

theorem cache_inv_touch {α : Type} [LinearOrderedField α] (d : Nat) (B : Nat → Nat → α)
    (c : CachedGramMatrix α) (P : Finset (Sym2 Nat)) (h : Inv d B c P) (p : Nat × Nat) :
    Inv d B (touch d B c p) (insert s(p.1, p.2) P) := by
  obtain ⟨i, j⟩ := p
  obtain ⟨h1, h2, h3⟩ := h
  unfold touch CachedGramMatrix.get
  cases hc : c.L i j with
  | some v =>
    have hmem : s(i, j) ∈ P := (h1 i j).mp (by rw [hc]; simp)
    simp only []
    rw [Finset.insert_eq_of_mem hmem]
    exact ⟨h1, h2, h3⟩
  | none =>
    have hnm : s(i, j) ∉ P := fun hm => ((h1 i j).mpr hm) hc
    simp only []
    have hL : ∀ a b, (Function.update (Function.update c.L i (Function.update (c.L i) j
        (some (colDot d B i j)))) j (Function.update ((Function.update c.L i
          (Function.update (c.L i) j (some (colDot d B i j)))) j) i (some (colDot d B i j))))
        a b = if (a = i ∧ b = j) ∨ (a = j ∧ b = i) then some (colDot d B i j) else c.L a b := by
      intro a b
      by_cases haj : a = j
      · subst haj
        by_cases hbi : b = i
        · subst hbi; simp
        · by_cases hai : a = i
          · subst hai
            by_cases hba : b = a
            · exact absurd hba hbi
            · simp [Function.update_noteq hbi, hbi]
          · simp [Function.update_noteq hbi, Function.update_noteq hai, hbi, hai]
      · by_cases hai : a = i
        · subst hai
          by_cases hbj : b = j
          · subst hbj; simp [Function.update_noteq haj]
          · simp [Function.update_noteq haj, Function.update_noteq hbj, hbj, haj]
        · simp [Function.update_noteq haj, Function.update_noteq hai, hai, haj]
    refine ⟨?_, ?_, ?_⟩
    · intro a b
      simp only [hL, Finset.mem_insert, Sym2.eq_iff]
      by_cases hcase : (a = i ∧ b = j) ∨ (a = j ∧ b = i)
      · simp [hcase]
      · simp only [hcase, if_false, false_or]
        exact h1 a b
    · intro a b v hv
      simp only [hL] at hv
      by_cases hcase : (a = i ∧ b = j) ∨ (a = j ∧ b = i)
      · simp only [hcase, if_true, Option.some.injEq] at hv
        rcases hcase with ⟨ha, hb⟩ | ⟨ha, hb⟩
        · rw [← hv, ha, hb]
        · rw [← hv, ha, hb]
          simp only [colDot]
          exact Finset.sum_congr rfl (fun r _ => mul_comm _ _)
      · simp only [hcase, if_false] at hv
        exact h2 a b v hv
    · simp only []
      rw [Finset.card_insert_of_not_mem hnm, h3]

theorem cache_inv_runAll {α : Type} [LinearOrderedField α] (d n : Nat) (B : Nat → Nat → α)
    (as : List Access) :
    Inv d B (runAll d n B as (CachedGramMatrix.construct α)) (pairs n as) := by
  have cache_inv_fold {α : Type} [LinearOrderedField α] (d : Nat) (B : Nat → Nat → α)
      (cs : List (Nat × Nat)) :
      ∀ (c : CachedGramMatrix α) (P : Finset (Sym2 Nat)), Inv d B c P →
        Inv d B (cs.foldl (touch d B) c) (P ∪ (cs.map fun p => s(p.1, p.2)).toFinset) := by
    induction cs with
    | nil => intro c P h; simpa using h
    | cons p cs ih =>
      intro c P h
      have := ih _ _ (cache_inv_touch d B c P h p)
      simp only [List.foldl_cons, List.map_cons, List.toFinset_cons]
      have e : P ∪ insert s(p.1, p.2) (cs.map fun p => s(p.1, p.2)).toFinset
          = insert s(p.1, p.2) P ∪ (cs.map fun p => s(p.1, p.2)).toFinset := by
        ext x; simp only [Finset.mem_union, Finset.mem_insert]; tauto
      rw [e]
      exact this
  rw [cache_runAll_eq]
  have := cache_inv_fold d B ((as.map (cells n)).flatten) _ _ (cache_inv_construct d B)
  simpa [pairs] using this

theorem cache_get_value {α : Type} [LinearOrderedField α] (d : Nat) (B : Nat → Nat → α)
    (c : CachedGramMatrix α) (P : Finset (Sym2 Nat)) (h : Inv d B c P) (i j : Nat) :
    (CachedGramMatrix.get d B c i j).1 = colDot d B i j := by
  unfold CachedGramMatrix.get
  cases hc : c.L i j with
  | some v => exact h.2.1 i j v hc
  | none => rfl

end Access
end DPP

namespace DPP

/-- C7. Matrix view equivalence: after any sequence of accesses, `CachedGramMatrix(B)(i,j)`
returns the dot product of the columns `i` and `j` of `B`, which is the entry `(BᵀB)[i,j]`;
hence the entries `(i,j)` and `(j,i)` are equal and a repeated access returns the same
value. -/
theorem cached_gram_matrix_value (d n : Nat) (B : Nat → Nat → ℝ) (as : List Access)
    (i j : Nat) (hi : i < n) (hj : j < n) :
    (CachedGramMatrix.get d B (Access.runAll d n B as (CachedGramMatrix.construct ℝ)) i j).1
      = ∑ r in Finset.range d, B r i * B r j ∧
    (CachedGramMatrix.get d B (Access.runAll d n B as (CachedGramMatrix.construct ℝ)) i j).1
      = ((Matrix.of fun (r : Fin d) (k : Fin n) => B r k).transpose *
          (Matrix.of fun (r : Fin d) (k : Fin n) => B r k)) ⟨i, hi⟩ ⟨j, hj⟩ ∧
    (CachedGramMatrix.get d B (Access.runAll d n B as (CachedGramMatrix.construct ℝ)) i j).1
      = (CachedGramMatrix.get d B
          (Access.runAll d n B as (CachedGramMatrix.construct ℝ)) j i).1 ∧
    (CachedGramMatrix.get d B
        (CachedGramMatrix.get d B
          (Access.runAll d n B as (CachedGramMatrix.construct ℝ)) i j).2 i j).1
      = (CachedGramMatrix.get d B
          (Access.runAll d n B as (CachedGramMatrix.construct ℝ)) i j).1 := by
  have h := Access.cache_inv_runAll d n B as
  have h1 := Access.cache_inv_touch d B _ _ h (i, j)
  have e1 := Access.cache_get_value d B _ _ h i j
  have e2 := Access.cache_get_value d B _ _ h j i
  have e3 := Access.cache_get_value d B _ _ h1 i j
  refine ⟨e1, ?_, ?_, ?_⟩
  · rw [e1]
    simp only [colDot, Matrix.mul_apply, Matrix.transpose_apply, Matrix.of_apply]
    rw [Fin.sum_univ_eq_sum_range (fun r => B r i * B r j) d]
  · rw [e1, e2]
    simp only [colDot]
    exact Finset.sum_congr rfl (fun r _ => mul_comm _ _)
  · rw [e1]
    exact e3

/-- Witness of C7: the entry `(1, 0)` of a `3`-column matrix after its mirror `(0, 1)` and
the column `2` have been read. -/
theorem cached_gram_matrix_value_witness :
    (CachedGramMatrix.get 2 (fun r k => ((r + k : Nat) : ℝ))
        (Access.runAll 2 3 (fun r k => ((r + k : Nat) : ℝ)) [Access.entry 0 1, Access.col 2]
          (CachedGramMatrix.construct ℝ)) 1 0).1
      = ∑ r in Finset.range 2, ((r + 1 : Nat) : ℝ) * ((r + 0 : Nat) : ℝ) :=
  (cached_gram_matrix_value 2 3 (fun r k => ((r + k : Nat) : ℝ))
    [Access.entry 0 1, Access.col 2] 1 0 (by decide) (by decide)).1

end DPP

namespace DPP

section
variable {α : Type} [LinearOrderedField α]

theorem direct_compute_val (L : Nat → Nat → α) (o : Oracle.Instance α) (e : Nat) :
    (Oracle.compute_marginal_gain_exponential L o e).1
      = if o.u e < (o.S.length : Int) then max 0 (schur L o.S e) else (o.d e).getD 0 := by
  unfold Oracle.compute_marginal_gain_exponential
  by_cases hu : o.u e < (o.S.length : Int)
  · rw [if_pos hu, if_pos hu]; rfl
  · rw [if_neg hu, if_neg hu]

theorem direct_compute_cells (L : Nat → Nat → α) (o : Oracle.Instance α) (e : Nat) :
    (Oracle.compute_marginal_gain_exponential L o e).2.S = o.S ∧
    (Oracle.compute_marginal_gain_exponential L o e).2.value = o.value ∧
    (∀ a, a ≠ e → (Oracle.compute_marginal_gain_exponential L o e).2.u a = o.u a ∧
      (Oracle.compute_marginal_gain_exponential L o e).2.d a = o.d a) ∧
    (o.u e < (o.S.length : Int) →
      (Oracle.compute_marginal_gain_exponential L o e).2.u e = (o.S.length : Int) ∧
      (Oracle.compute_marginal_gain_exponential L o e).2.d e = some (max 0 (schur L o.S e))) ∧
    (¬ o.u e < (o.S.length : Int) → (Oracle.compute_marginal_gain_exponential L o e).2 = o) := by
  unfold Oracle.compute_marginal_gain_exponential
  by_cases hu : o.u e < (o.S.length : Int)
  · rw [if_pos hu]
    refine ⟨rfl, rfl, ?_, ?_, fun h => absurd hu h⟩
    · intro a ha
      simp [Function.update_noteq ha]
    · intro _
      exact ⟨by simp, by simp [schur]⟩
  · rw [if_neg hu]
    exact ⟨rfl, rfl, fun a _ => ⟨rfl, rfl⟩, fun h => absurd h hu, fun _ => rfl⟩

theorem direct_get_last_frame (L : Nat → Nat → α) (o : Oracle.Instance α) (e : Nat) :
    (Oracle.get_last_marginal_gain_exponential L o e).2.S = o.S ∧
    (Oracle.get_last_marginal_gain_exponential L o e).2.value = o.value := by
  unfold Oracle.get_last_marginal_gain_exponential
  by_cases hu : o.u e = -1
  · simp only [hu, if_true, and_self]
  · simp only [hu, if_false, and_self]

theorem fast_step_frame (sqrt : α → α) (L : Nat → Nat → α) (o : Fast.Instance α) (e : Nat)
    (y : α) :
    (Fast.step sqrt L o e y).2.S = o.S ∧ (Fast.step sqrt L o e y).2.value = o.value ∧
    (Fast.step sqrt L o e y).2.u e = o.u e + 1 ∧
    (Fast.step sqrt L o e y).2.d e = some (Fast.step sqrt L o e y).1 ∧
    ∀ a, a ≠ e → (Fast.step sqrt L o e y).2.u a = o.u a ∧
      (Fast.step sqrt L o e y).2.d a = o.d a ∧ (Fast.step sqrt L o e y).2.V a = o.V a := by
  refine ⟨rfl, rfl, by simp [Fast.step], by simp [Fast.step], ?_⟩
  intro a ha
  simp [Fast.step, Function.update_noteq ha]

theorem fast_loop_frame (sqrt : α → α) (L : Nat → Nat → α) (e : Nat) :
    ∀ (k : Nat) (o : Fast.Instance α) (y : α), o.d e = some y →
    (Fast.loop sqrt L k o e y).2.S = o.S ∧ (Fast.loop sqrt L k o e y).2.value = o.value ∧
    (Fast.loop sqrt L k o e y).2.u e = o.u e + k ∧
    (Fast.loop sqrt L k o e y).2.d e = some (Fast.loop sqrt L k o e y).1 ∧
    ∀ a, a ≠ e → (Fast.loop sqrt L k o e y).2.u a = o.u a ∧
      (Fast.loop sqrt L k o e y).2.d a = o.d a ∧ (Fast.loop sqrt L k o e y).2.V a = o.V a := by
  intro k
  induction k with
  | zero =>
    intro o y hd
    exact ⟨rfl, rfl, rfl, hd, fun a _ => ⟨rfl, rfl, rfl⟩⟩
  | succ k ih =>
    intro o y _
    obtain ⟨s1, s2, s3, s4, s5⟩ := fast_step_frame sqrt L o e y
    obtain ⟨l1, l2, l3, l4, l5⟩ := ih (Fast.step sqrt L o e y).2 (Fast.step sqrt L o e y).1 s4
    simp only [Fast.loop]
    refine ⟨by rw [l1, s1], by rw [l2, s2], by rw [l3, s3]; omega, l4, ?_⟩
    intro a ha
    obtain ⟨a1, a2, a3⟩ := l5 a ha
    obtain ⟨b1, b2, b3⟩ := s5 a ha
    exact ⟨by rw [a1, b1], by rw [a2, b2], by rw [a3, b3]⟩

theorem fast_get_last_frame_gen (L : Nat → Nat → α) (o : Fast.Instance α) (e : Nat) :
    (Fast.get_last_marginal_gain_exponential L o e).2.S = o.S ∧
    (Fast.get_last_marginal_gain_exponential L o e).2.value = o.value ∧
    (Fast.get_last_marginal_gain_exponential L o e).2.u = o.u ∧
    (Fast.get_last_marginal_gain_exponential L o e).2.V = o.V ∧
    (Fast.get_last_marginal_gain_exponential L o e).2.d e
      = some (Fast.get_last_marginal_gain_exponential L o e).1 ∧
    (∀ a, a ≠ e → (Fast.get_last_marginal_gain_exponential L o e).2.d a = o.d a) ∧
    (∀ y, o.d e = some y → (Fast.get_last_marginal_gain_exponential L o e).2 = o ∧
      (Fast.get_last_marginal_gain_exponential L o e).1 = y) := by
  unfold Fast.get_last_marginal_gain_exponential
  cases hd : o.d e with
  | some x => simp [hd]
  | none =>
    refine ⟨rfl, rfl, rfl, rfl, by simp, ?_, ?_⟩
    · intro a ha
      simp [Function.update_noteq ha]
    · intro y hy
      cases hy

theorem fast_compute_frame (sqrt : α → α) (L : Nat → Nat → α) (o : Fast.Instance α) (e : Nat) :
    (Fast.compute_marginal_gain_exponential sqrt L o e).2.S = o.S ∧
    (Fast.compute_marginal_gain_exponential sqrt L o e).2.value = o.value ∧
    o.S.length ≤ (Fast.compute_marginal_gain_exponential sqrt L o e).2.u e ∧
    (Fast.compute_marginal_gain_exponential sqrt L o e).2.d e
      = some (Fast.compute_marginal_gain_exponential sqrt L o e).1 ∧
    ∀ a, a ≠ e → (Fast.compute_marginal_gain_exponential sqrt L o e).2.u a = o.u a ∧
      (Fast.compute_marginal_gain_exponential sqrt L o e).2.d a = o.d a ∧
      (Fast.compute_marginal_gain_exponential sqrt L o e).2.V a = o.V a := by
  obtain ⟨g1, g2, g3, g4, g5, g6, _⟩ := fast_get_last_frame_gen L o e
  obtain ⟨l1, l2, l3, l4, l5⟩ := fast_loop_frame sqrt L e
    ((Fast.get_last_marginal_gain_exponential L o e).2.S.length -
      (Fast.get_last_marginal_gain_exponential L o e).2.u e)
    (Fast.get_last_marginal_gain_exponential L o e).2
    (Fast.get_last_marginal_gain_exponential L o e).1 g5
  unfold Fast.compute_marginal_gain_exponential
  simp only []
  refine ⟨by rw [l1, g1], by rw [l2, g2], ?_, l4, ?_⟩
  · rw [l3, g1, g3]; omega
  · intro a ha
    obtain ⟨a1, a2, a3⟩ := l5 a ha
    exact ⟨by rw [a1, g3], by rw [a2, g6 a ha], by rw [a3, g4]⟩

end
end DPP

namespace DPP

section
variable {α : Type} [LinearOrderedField α]

theorem fast_compute_unfold (sqrt : α → α) (L : Nat → Nat → α) (o : Fast.Instance α) (e : Nat) :
    Fast.compute_marginal_gain_exponential sqrt L o e
      = Fast.loop sqrt L
          ((Fast.get_last_marginal_gain_exponential L o e).2.S.length -
            (Fast.get_last_marginal_gain_exponential L o e).2.u e)
          (Fast.get_last_marginal_gain_exponential L o e).2 e
          (Fast.get_last_marginal_gain_exponential L o e).1 := rfl

theorem fast_step_agree (sqrt : α → α) (L : Nat → Nat → α) (x : Nat) (o p : Fast.Instance α)
    (y : α) (h : Fast.Agree x o p) (hu : o.u x < o.S.length) :
    (Fast.step sqrt L o x y).1 = (Fast.step sqrt L p x y).1 ∧
    Fast.Agree x (Fast.step sqrt L o x y).2 (Fast.step sqrt L p x y).2 := by
  obtain ⟨h1, h2, h3, h4, h5⟩ := h
  have hl : o.S.getD (o.u x) 0 ∈ o.S := by
    rw [List.getD_eq_getElem _ _ hu]
    exact List.getElem_mem _
  have hv : Fast.quotient sqrt (L x (o.S.getD (o.u x) 0))
      (odot (o.V x) (o.V (o.S.getD (o.u x) 0)) (o.u x)) (o.d (o.S.getD (o.u x) 0))
      = Fast.quotient sqrt (L x (p.S.getD (p.u x) 0))
      (odot (p.V x) (p.V (p.S.getD (p.u x) 0)) (p.u x)) (p.d (p.S.getD (p.u x) 0)) := by
    rw [← h1, ← h2, ← h4, ← (h5 _ hl).1, ← (h5 _ hl).2]
  refine ⟨?_, ?_, ?_, ?_, ?_, ?_⟩
  · simp only [Fast.step]
    rw [hv]
  · exact h1
  · simp only [Fast.step, Function.update_same, h2]
  · simp only [Fast.step, Function.update_same]
    rw [hv]
  · simp only [Fast.step, Function.update_same]
    rw [hv, h4, h2]
  · intro l hlS
    by_cases hlx : l = x
    · subst hlx
      simp only [Fast.step, Function.update_same]
      rw [hv, h4, h2]
      exact ⟨rfl, rfl⟩
    · simp only [Fast.step, Function.update_noteq hlx]
      exact h5 l hlS

theorem fast_loop_agree (sqrt : α → α) (L : Nat → Nat → α) (x : Nat) :
    ∀ (k : Nat) (o p : Fast.Instance α) (y : α), Fast.Agree x o p →
      k ≤ o.S.length - o.u x →
      (Fast.loop sqrt L k o x y).1 = (Fast.loop sqrt L k p x y).1 := by
  intro k
  induction k with
  | zero => intro o p y _ _; rfl
  | succ k ih =>
    intro o p y h hk
    obtain ⟨e1, e2⟩ := fast_step_agree sqrt L x o p y h (by omega)
    simp only [Fast.loop]
    rw [← e1]
    apply ih _ _ _ e2
    have := (fast_step_frame sqrt L o x y)
    rw [this.1, this.2.2.1]
    omega

theorem fast_get_last_agree (L : Nat → Nat → α) (x : Nat) (o p : Fast.Instance α)
    (h : Fast.Agree x o p) :
    (Fast.get_last_marginal_gain_exponential L o x).1
      = (Fast.get_last_marginal_gain_exponential L p x).1 ∧
    Fast.Agree x (Fast.get_last_marginal_gain_exponential L o x).2
      (Fast.get_last_marginal_gain_exponential L p x).2 := by
  obtain ⟨h1, h2, h3, h4, h5⟩ := h
  unfold Fast.get_last_marginal_gain_exponential
  rw [← h3]
  cases hd : o.d x with
  | some y => exact ⟨rfl, h1, h2, h3, h4, h5⟩
  | none =>
    refine ⟨rfl, h1, h2, by simp, h4, ?_⟩
    intro l hl
    by_cases hlx : l = x
    · subst hlx
      simp only [Function.update_same]
      exact ⟨(h5 l hl).1, trivial⟩
    · simp only [Function.update_noteq hlx]
      exact h5 l hl

theorem fast_compute_agree (sqrt : α → α) (L : Nat → Nat → α) (x : Nat)
    (o p : Fast.Instance α) (h : Fast.Agree x o p) :
    (Fast.compute_marginal_gain_exponential sqrt L o x).1
      = (Fast.compute_marginal_gain_exponential sqrt L p x).1 := by
  obtain ⟨e1, e2⟩ := fast_get_last_agree L x o p h
  unfold Fast.compute_marginal_gain_exponential
  simp only []
  rw [← e1, ← e2.1, ← e2.2.1]
  exact fast_loop_agree sqrt L x _ _ _ _ e2 le_rfl

/-- Computing an element outside `S` first, or repeating a computation, does not change
what a computation of the fast oracle returns. -/
theorem fast_compute_stable (sqrt : α → α) (L : Nat → Nat → α) (o : Fast.Instance α)
    (e x : Nat) (he : e ∉ o.S) :
    (Fast.compute_marginal_gain_exponential sqrt L
        (Fast.compute_marginal_gain_exponential sqrt L o e).2 x).1
      = (Fast.compute_marginal_gain_exponential sqrt L o x).1 := by
  obtain ⟨c1, _, c3, c4, c5⟩ := fast_compute_frame sqrt L o e
  by_cases hxe : x = e
  · subst hxe
    obtain ⟨g1, _⟩ := (fast_get_last_frame_gen L
      (Fast.compute_marginal_gain_exponential sqrt L o x).2 x).2.2.2.2.2.2 _ c4
    have g2 : (Fast.get_last_marginal_gain_exponential L
      (Fast.compute_marginal_gain_exponential sqrt L o x).2 x).1
        = (Fast.compute_marginal_gain_exponential sqrt L o x).1 :=
      ((fast_get_last_frame_gen L
        (Fast.compute_marginal_gain_exponential sqrt L o x).2 x).2.2.2.2.2.2 _ c4).2
    rw [fast_compute_unfold sqrt L (Fast.compute_marginal_gain_exponential sqrt L o x).2 x]
    rw [g1, g2, c1]
    have : o.S.length - (Fast.compute_marginal_gain_exponential sqrt L o x).2.u x = 0 := by
      omega
    rw [this]
    rfl
  · apply fast_compute_agree
    refine ⟨c1, (c5 x hxe).1, (c5 x hxe).2.1, (c5 x hxe).2.2, ?_⟩
    intro l hl
    rw [c1] at hl
    have hle : l ≠ e := fun h => he (h ▸ hl)
    exact ⟨(c5 l hle).2.2, (c5 l hle).2.1⟩

end
end DPP

namespace DPP

section
variable {α : Type} [LinearOrderedField α]

theorem less_iff (a b : ElementValuePair α) :
    a.less b = true ↔ a.value < b.value ∨ (a.value = b.value ∧ b.element < a.element) := by
  unfold ElementValuePair.less
  simp only [Bool.or_eq_true, Bool.and_eq_true, decide_eq_true_eq, Bool.not_eq_true',
    decide_eq_false_iff_not, not_lt]
  constructor
  · rintro (h | ⟨h1, h2⟩)
    · exact Or.inl h
    · rcases lt_or_eq_of_le h1 with h | h
      · exact Or.inl h
      · exact Or.inr ⟨h, h2⟩
  · rintro (h | ⟨h1, h2⟩)
    · exact Or.inl h
    · exact Or.inr ⟨h1.le, h2⟩

theorem greater_eq_less (a b : ElementValuePair α) : a.greater b = b.less a := rfl

theorem less_irrefl (a : ElementValuePair α) : a.less a = false := by
  rw [Bool.eq_false_iff]
  intro h
  rcases (less_iff a a).mp h with h | ⟨_, h⟩
  · exact lt_irrefl _ h
  · exact lt_irrefl _ h

theorem less_trans {a b c : ElementValuePair α} (h1 : a.less b = true) (h2 : b.less c = true) :
    a.less c = true := by
  rw [less_iff] at h1 h2 ⊢
  rcases h1 with h1 | ⟨h1, h1'⟩ <;> rcases h2 with h2 | ⟨h2, h2'⟩
  · exact Or.inl (lt_trans h1 h2)
  · exact Or.inl (h2 ▸ h1)
  · exact Or.inl (h1 ▸ h2)
  · exact Or.inr ⟨h1.trans h2, lt_trans h2' h1'⟩

theorem less_asymm {a b : ElementValuePair α} (h1 : a.less b = true) : b.less a = false := by
  rw [Bool.eq_false_iff]
  intro h2
  have := less_trans h1 h2
  rw [less_irrefl] at this
  cases this

theorem less_total {a b : ElementValuePair α} (h : a.element ≠ b.element) :
    a.less b = true ∨ b.less a = true := by
  rw [less_iff, less_iff]
  rcases lt_trichotomy a.value b.value with h1 | h1 | h1
  · exact Or.inl (Or.inl h1)
  · rcases Nat.lt_or_gt_of_ne h with h2 | h2
    · exact Or.inr (Or.inr ⟨h1.symm, h2⟩)
    · exact Or.inl (Or.inr ⟨h1, h2⟩)
  · exact Or.inr (Or.inl h1)

theorem less_value_le {a b : ElementValuePair α} (h : a.less b = false) : b.value ≤ a.value := by
  by_contra hc
  have : a.less b = true := (less_iff a b).mpr (Or.inl (not_le.mp hc))
  rw [h] at this
  cases this

theorem heapTop_none (l : List (ElementValuePair α)) : heapTop l = none ↔ l = [] := by
  cases l with
  | nil => simp [heapTop]
  | cons x xs =>
    simp only [heapTop]
    cases heapTop xs with
    | none => simp
    | some m => by_cases h : m.less x = true <;> simp [h]

theorem heapTop_spec (l : List (ElementValuePair α)) (m : ElementValuePair α)
    (h : heapTop l = some m) : m ∈ l ∧ ∀ x ∈ l, m.less x = false := by
  induction l generalizing m with
  | nil => simp [heapTop] at h
  | cons y ys ih =>
    simp only [heapTop] at h
    cases hm : heapTop ys with
    | none =>
      rw [hm] at h
      simp only [Option.some.injEq] at h
      subst h
      have : ys = [] := (heapTop_none ys).mp hm
      subst this
      simp [less_irrefl]
    | some m' =>
      rw [hm] at h
      obtain ⟨i1, i2⟩ := ih m' hm
      by_cases hl : m'.less y = true
      · simp only [hl, if_true, Option.some.injEq] at h
        subst h
        refine ⟨List.mem_cons_self _ _, ?_⟩
        intro x hx
        rcases List.mem_cons.mp hx with rfl | hx
        · exact less_irrefl _
        · by_contra hc
          have hc' : y.less x = true := by simpa using hc
          have := less_trans hl hc'
          rw [i2 x hx] at this
          cases this
      · simp only [if_neg hl, Option.some.injEq] at h
        subst h
        refine ⟨List.mem_cons_of_mem _ i1, ?_⟩
        intro x hx
        rcases List.mem_cons.mp hx with rfl | hx
        · simpa using hl
        · exact i2 x hx

theorem heapMin_none (l : List (ElementValuePair α)) : heapMin l = none ↔ l = [] := by
  cases l with
  | nil => simp [heapMin]
  | cons x xs =>
    simp only [heapMin]
    cases heapMin xs with
    | none => simp
    | some m => by_cases h : m.greater x = true <;> simp [h]

theorem heapMin_spec (l : List (ElementValuePair α)) (m : ElementValuePair α)
    (h : heapMin l = some m) : m ∈ l ∧ ∀ x ∈ l, x.less m = false := by
  induction l generalizing m with
  | nil => simp [heapMin] at h
  | cons y ys ih =>
    simp only [heapMin] at h
    cases hm : heapMin ys with
    | none =>
      rw [hm] at h
      simp only [Option.some.injEq] at h
      subst h
      have : ys = [] := (heapMin_none ys).mp hm
      subst this
      simp [less_irrefl]
    | some m' =>
      rw [hm] at h
      obtain ⟨i1, i2⟩ := ih m' hm
      by_cases hl : m'.greater y = true
      · simp only [hl, if_true, Option.some.injEq] at h
        subst h
        rw [greater_eq_less] at hl
        refine ⟨List.mem_cons_self _ _, ?_⟩
        intro x hx
        rcases List.mem_cons.mp hx with rfl | hx
        · exact less_irrefl _
        · by_contra hc
          have hc' : x.less y = true := by simpa using hc
          have := less_trans hc' hl
          rw [i2 x hx] at this
          cases this
      · simp only [if_neg hl, Option.some.injEq] at h
        subst h
        rw [greater_eq_less] at hl
        refine ⟨List.mem_cons_of_mem _ i1, ?_⟩
        intro x hx
        rcases List.mem_cons.mp hx with rfl | hx
        · simpa using hl
        · exact i2 x hx

end
end DPP

namespace DPP

section
variable {α : Type} [LinearOrderedField α]

theorem elem_ne_of_ne (ps : List (ElementValuePair α))
    (hnd : (ps.map fun p => p.element).Nodup) {a b : ElementValuePair α} (ha : a ∈ ps)
    (hb : b ∈ ps) (hab : a ≠ b) : a.element ≠ b.element :=
  fun h => hab (List.inj_on_of_nodup_map hnd ha hb h)

theorem topOf_step (ps : List (ElementValuePair α))
    (hnd : (ps.map fun p => p.element).Nodup) (i : Nat)
    (done h : List (ElementValuePair α)) (next : ElementValuePair α)
    (hsub : ∀ p ∈ done, p ∈ ps) (hnext : next ∈ ps) (hnew : next ∉ done)
    (hT : TopOf i done h) : TopOf i (done ++ [next]) (scanStep h next) := by
  obtain ⟨t1, t2, t3, t4⟩ := hT
  have hne : h ≠ [] := by
    intro h0
    rw [h0] at t3
    simp at t3
  cases hm : heapMin h with
  | none => exact absurd ((heapMin_none h).mp hm) hne
  | some m =>
    obtain ⟨m1, m2⟩ := heapMin_spec h m hm
    have hnh : next ∉ h := fun hh => hnew (t2 next hh)
    have hmn : m ≠ next := fun hh => hnh (hh ▸ m1)
    have hmin : ∀ q ∈ h, q ≠ m → m.less q = true := by
      intro q hq hqm
      rcases less_total (elem_ne_of_ne ps hnd (hsub _ (t2 q hq)) (hsub _ (t2 m m1)) hqm)
        with hh | hh
      · rw [m2 q hq] at hh; cases hh
      · exact hh
    simp only [scanStep, hm]
    by_cases hl : m.less next = true
    · rw [if_pos hl]
      refine ⟨?_, ?_, ?_, ?_⟩
      · refine List.nodup_cons.mpr ⟨?_, t1.erase m⟩
        intro hh
        exact hnh (List.mem_of_mem_erase hh)
      · intro q hq
        rcases List.mem_cons.mp hq with rfl | hq
        · exact List.mem_append_right _ (List.mem_singleton_self _)
        · exact List.mem_append_left _ (t2 q (List.mem_of_mem_erase hq))
      · rw [List.length_cons, List.length_erase_of_mem m1, t3]
        rfl
      · intro p hp hph q hq
        have hpn : p ≠ next := fun hh => hph (hh ▸ List.mem_cons_self _ _)
        have hpd : p ∈ done := by
          rcases List.mem_append.mp hp with hh | hh
          · exact hh
          · exact absurd (List.mem_singleton.mp hh) hpn
        have hpm : p.less m = true ∨ p = m := by
          by_cases hpm : p = m
          · exact Or.inr hpm
          · left
            apply t4 p hpd _ m m1
            intro hh
            exact hph (List.mem_cons_of_mem _ ((t1.mem_erase_iff).mpr ⟨hpm, hh⟩))
        rcases List.mem_cons.mp hq with rfl | hq
        · rcases hpm with hh | hh
          · exact less_trans hh hl
          · rw [hh]; exact hl
        · have hq' := (t1.mem_erase_iff).mp hq
          rcases hpm with hh | hh
          · exact less_trans hh (hmin q hq'.2 hq'.1)
          · rw [hh]; exact hmin q hq'.2 hq'.1
    · rw [if_neg hl]
      have hnm : next.less m = true := by
        rcases less_total (elem_ne_of_ne ps hnd hnext (hsub _ (t2 m m1)) (Ne.symm hmn))
          with hh | hh
        · exact hh
        · exact absurd hh hl
      refine ⟨t1, fun q hq => List.mem_append_left _ (t2 q hq), t3, ?_⟩
      intro p hp hph q hq
      rcases List.mem_append.mp hp with hh | hh
      · exact t4 p hh hph q hq
      · rw [List.mem_singleton.mp hh]
        by_cases hqm : q = m
        · rw [hqm]; exact hnm
        · exact less_trans hnm (hmin q hq hqm)

theorem topOf_fold (ps : List (ElementValuePair α))
    (hnd : (ps.map fun p => p.element).Nodup) (i : Nat) :
    ∀ (rest done h : List (ElementValuePair α)), done ++ rest = ps → TopOf i done h →
      TopOf i ps (rest.foldl scanStep h) := by
  intro rest
  induction rest with
  | nil =>
    intro done h hd hT
    rw [List.append_nil] at hd
    rw [← hd]
    exact hT
  | cons next rest ih =>
    intro done h hd hT
    have hnd' : ps.Nodup := List.Nodup.of_map _ hnd
    rw [← hd] at hnd'
    have hnew : next ∉ done := by
      intro hh
      have := (List.nodup_append.mp hnd').2.2
      exact this hh (List.mem_cons_self _ _)
    simp only [List.foldl_cons]
    apply ih (done ++ [next]) _ (by rw [List.append_assoc]; exact hd)
    apply topOf_step ps hnd i done h next _ _ hnew hT
    · intro p hp
      rw [← hd]
      exact List.mem_append_left _ hp
    · rw [← hd]
      exact List.mem_append_right _ (List.mem_cons_self _ _)

theorem topOf_take (ps : List (ElementValuePair α))
    (hnd : (ps.map fun p => p.element).Nodup) (i : Nat) (hi : i < ps.length) :
    TopOf i (ps.take (i + 1)) (ps.take (i + 1)) := by
  have hnd' : ps.Nodup := List.Nodup.of_map _ hnd
  refine ⟨hnd'.sublist (List.take_sublist _ _), fun q hq => hq, ?_, ?_⟩
  · rw [List.length_take]
    omega
  · intro p hp hph
    exact absurd hp hph

/-- The partial selection of `NonLazy::pop_kth_largest` on pairs of distinct elements: the
front of the final heap is a pair of the list that exactly `i` pairs exceed. -/
theorem select_spec (ps : List (ElementValuePair α))
    (hnd : (ps.map fun p => p.element).Nodup) (i : Nat) (hi : i < ps.length) :
    ∃ r, heapMin ((ps.drop (i + 1)).foldl scanStep (ps.take (i + 1))) = some r ∧ r ∈ ps ∧
      (ps.filter fun x => r.less x).length = i := by
  have hT := topOf_fold ps hnd i (ps.drop (i + 1)) (ps.take (i + 1)) (ps.take (i + 1))
    (List.take_append_drop _ _) (topOf_take ps hnd i hi)
  obtain ⟨t1, t2, t3, t4⟩ := hT
  have hnd' : ps.Nodup := List.Nodup.of_map _ hnd
  cases hm : heapMin ((ps.drop (i + 1)).foldl scanStep (ps.take (i + 1))) with
  | none =>
    have := (heapMin_none _).mp hm
    rw [this] at t3
    simp at t3
  | some r =>
    obtain ⟨m1, m2⟩ := heapMin_spec _ r hm
    refine ⟨r, rfl, t2 r m1, ?_⟩
    have hperm : (ps.filter fun x => r.less x).Perm
        (((ps.drop (i + 1)).foldl scanStep (ps.take (i + 1))).erase r) := by
      apply (List.perm_ext_iff_of_nodup (hnd'.filter _) (t1.erase r)).mpr
      intro x
      rw [List.mem_filter, t1.mem_erase_iff]
      constructor
      · rintro ⟨hx, hrx⟩
        have hxr : x ≠ r := by
          intro hh
          rw [hh, less_irrefl] at hrx
          cases hrx
        refine ⟨hxr, ?_⟩
        by_contra hxh
        have := t4 x hx hxh r m1
        rw [less_asymm hrx] at this
        cases this
      · rintro ⟨hxr, hxh⟩
        refine ⟨t2 x hxh, ?_⟩
        rcases less_total (elem_ne_of_ne ps hnd (t2 x hxh) (t2 r m1) hxr) with hh | hh
        · rw [m2 x hxh] at hh; cases hh
        · exact hh
    rw [hperm.length_eq, List.length_erase_of_mem m1, t3]
    rfl

end
end DPP

namespace DPP

section
variable {σ α : Type} [LinearOrderedField α]

theorem gainEq_refl (oops : OracleOps σ α) (o : σ) : GainEq oops o o :=
  ⟨rfl, rfl, fun _ => rfl⟩

theorem gainEq_trans (oops : OracleOps σ α) {o p q : σ} (h1 : GainEq oops o p)
    (h2 : GainEq oops p q) : GainEq oops o q :=
  ⟨h2.1.trans h1.1, h2.2.1.trans h1.2.1, fun x => (h2.2.2 x).trans (h1.2.2 x)⟩

theorem gainEq_compute (oops : OracleOps σ α) (law : OracleLaw oops) (o : σ) (e : Nat)
    (he : e ∉ oops.get_solution o) :
    GainEq oops o (oops.compute_marginal_gain_exponential o e).2 :=
  ⟨law.compute_S o e, law.compute_value o e, fun x => law.stable o e x he⟩

theorem gainEq_compute_of (oops : OracleOps σ α) (law : OracleLaw oops) (o p : σ) (e : Nat)
    (h : GainEq oops o p) (he : e ∉ oops.get_solution o) :
    (oops.compute_marginal_gain_exponential p e).1 = gainAt oops o e ∧
    GainEq oops o (oops.compute_marginal_gain_exponential p e).2 :=
  ⟨h.2.2 e, gainEq_trans oops h (gainEq_compute oops law p e (by rw [h.1]; exact he))⟩

theorem fill_eq (oops : OracleOps σ α) (law : OracleLaw oops) (o0 : σ) :
    ∀ (es : List Nat) (o : σ), GainEq oops o0 o → (∀ e ∈ es, e ∉ oops.get_solution o0) →
      (NonLazy.fill oops es o).1 = es.map (pairAt oops o0) ∧
      GainEq oops o0 (NonLazy.fill oops es o).2 := by
  intro es
  induction es with
  | nil => intro o h _; exact ⟨rfl, h⟩
  | cons e es ih =>
    intro o h hes
    obtain ⟨g1, g2⟩ := gainEq_compute_of oops law o0 o e h (hes e (List.mem_cons_self _ _))
    obtain ⟨i1, i2⟩ := ih _ g2 (fun x hx => hes x (List.mem_cons_of_mem _ hx))
    simp only [NonLazy.fill, List.map_cons]
    exact ⟨by rw [i1, g1]; rfl, i2⟩

theorem scan_eq (oops : OracleOps σ α) (law : OracleLaw oops) (o0 : σ) :
    ∀ (es : List Nat) (h : List (ElementValuePair α)) (o : σ), GainEq oops o0 o →
      (∀ e ∈ es, e ∉ oops.get_solution o0) →
      (NonLazy.scan oops es h o).1 = (es.map (pairAt oops o0)).foldl scanStep h ∧
      GainEq oops o0 (NonLazy.scan oops es h o).2 := by
  intro es
  induction es with
  | nil => intro h o hg _; exact ⟨rfl, hg⟩
  | cons e es ih =>
    intro h o hg hes
    obtain ⟨g1, g2⟩ := gainEq_compute_of oops law o0 o e hg (hes e (List.mem_cons_self _ _))
    have hes' : ∀ x ∈ es, x ∉ oops.get_solution o0 :=
      fun x hx => hes x (List.mem_cons_of_mem _ hx)
    have hp : ({ element := e, value := (oops.compute_marginal_gain_exponential o e).1 } :
        ElementValuePair α) = pairAt oops o0 e := by
      rw [g1]; rfl
    simp only [NonLazy.scan, List.map_cons, List.foldl_cons, scanStep, hp]
    cases hm : heapMin h with
    | none => exact ih h _ g2 hes'
    | some m =>
      by_cases hl : m.less (pairAt oops o0 e) = true
      · simp only [hl, if_true]
        exact ih _ _ g2 hes'
      · simp only [hl]
        exact ih _ _ g2 hes'

theorem rankIn_eq (g : Nat → α) (T : List Nat) (e : Nat) :
    rankIn g T e = ((T.map fun x => ({ element := x, value := g x } : ElementValuePair α)).filter
      fun p => ElementValuePair.less { element := e, value := g e } p).length := by
  rw [rankIn, List.filter_map, List.length_map]
  rfl

/-- The method `NonLazy::pop_kth_largest(i)` with `i < |T|`, over an oracle that repeats its
answers and a ground set outside the selection. -/
theorem nonlazy_pop_kth_spec (oops : OracleOps σ α) (law : OracleLaw oops)
    (s : NonLazy.Instance) (o : σ) (i : Nat) (hnd : s.T.Nodup)
    (hTS : ∀ e ∈ s.T, e ∉ oops.get_solution o) (hi : i < s.T.length) :
    ∃ e o1, e ∈ s.T ∧ rankIn (gainAt oops o) s.T e = i ∧ GainEq oops o o1 ∧
      NonLazy.pop_kth_largest oops s o i
        = if (s.add_dummy && decide (gainAt oops o e ≤ 1)) = true then .ok (none, s, o1)
          else .ok (some e, { s with T := s.T.erase e }, o1) := by
  have hsplit : s.T.take (i + 1) ++ s.T.drop (i + 1) = s.T := List.take_append_drop _ _
  have h1 : ∀ e ∈ s.T.take (i + 1), e ∉ oops.get_solution o :=
    fun e he => hTS e (List.mem_of_mem_take he)
  have h2 : ∀ e ∈ s.T.drop (i + 1), e ∉ oops.get_solution o :=
    fun e he => hTS e (List.mem_of_mem_drop he)
  obtain ⟨f1, f2⟩ := fill_eq oops law o (s.T.take (i + 1)) o (gainEq_refl oops o) h1
  obtain ⟨c1, c2⟩ := scan_eq oops law o (s.T.drop (i + 1))
    (NonLazy.fill oops (s.T.take (i + 1)) o).1 (NonLazy.fill oops (s.T.take (i + 1)) o).2 f2 h2
  have hmapnd : (((s.T.map (pairAt oops o))).map fun p => p.element).Nodup := by
    rw [List.map_map]
    have : ((fun p : ElementValuePair α => p.element) ∘ pairAt oops o) = id := by
      funext x; rfl
    rw [this, List.map_id]
    exact hnd
  obtain ⟨r, r1, r2, r3⟩ := select_spec (s.T.map (pairAt oops o)) hmapnd i
    (by rw [List.length_map]; exact hi)
  rw [← List.map_drop, ← List.map_take, ← f1, ← c1] at r1
  obtain ⟨e, he, rfl⟩ := List.mem_map.mp r2
  refine ⟨e, _, he, ?_, c2, ?_⟩
  · rw [rankIn_eq]
    exact r3
  · unfold NonLazy.pop_kth_largest
    have ha : (!(s.add_dummy || decide (i < s.T.length))) = false := by simp [hi]
    have hb : (s.add_dummy && decide (s.T.length ≤ i)) = false := by
      simp [not_le.mpr hi]
    simp only [ha, hb, r1, NonLazy.remove, pairAt, he, if_true, Bool.false_eq_true, if_false]

end
end DPP

namespace DPP

theorem countP_erase_pos {β : Type} [DecidableEq β] (f : β → Bool) (l : List β) (a : β)
    (ha : a ∈ l) (hf : f a = true) : (l.erase a).countP f + 1 = l.countP f := by
  induction l with
  | nil => cases ha
  | cons b l ih =>
    by_cases hab : b = a
    · subst hab
      simp [List.countP_cons, hf]
    · have ha' : a ∈ l := by
        rcases List.mem_cons.mp ha with h | h
        · exact absurd h.symm hab
        · exact h
      rw [List.erase_cons_tail (by simpa using hab), List.countP_cons, List.countP_cons,
        ← ih ha']
      omega

section
variable {σ α : Type} [LinearOrderedField α]

theorem computeAll_append (oops : OracleOps σ α) (es fs : List Nat) (o : σ) :
    computeAll oops (es ++ fs) o = computeAll oops fs (computeAll oops es o) := by
  simp [computeAll, List.foldl_append]

theorem gainEq_computeAll (oops : OracleOps σ α) (law : OracleLaw oops) (o0 : σ) :
    ∀ (es : List Nat) (o : σ), GainEq oops o0 o → (∀ e ∈ es, e ∉ oops.get_solution o0) →
      GainEq oops o0 (computeAll oops es o) := by
  intro es
  induction es with
  | nil => intro o h _; exact h
  | cons e es ih =>
    intro o h hes
    exact ih _ (gainEq_compute_of oops law o0 o e h (hes e (List.mem_cons_self _ _))).2
      (fun x hx => hes x (List.mem_cons_of_mem _ hx))

/-- The loop of `Lazy::pop_largest()` returns within `fuel` iterations when `fuel` exceeds
the number of stale heap entries, and satisfies its postcondition. -/
theorem lazy_loop_spec (oops : OracleOps σ α) (law : OracleLaw oops) (o0 : σ) :
    ∀ (fuel : Nat) (s : Lazy.Instance α) (o : σ), GainEq oops o0 o → s.T.Nodup →
      (∀ e ∈ s.T, e ∉ oops.get_solution o0) →
      (s.add_dummy = false → Cover s.T s.Q ∧ s.T ≠ []) →
      staleCount (gainAt oops o0) s.T s.Q < fuel →
      ∃ r s1 o1, Lazy.pop_largest_loop oops fuel s o = .ok (r, s1, o1) ∧
        Lazy.PopPost oops (gainAt oops o0) s o r s1 o1 := by
  intro fuel
  induction fuel with
  | zero => intro s o _ _ _ _ h; omega
  | succ fuel ih =>
    intro s o hg hnd hTS hcov hfuel
    unfold Lazy.pop_largest_loop
    cases htop : heapTop s.Q with
    | none =>
      have hQ : s.Q = [] := (heapTop_none _).mp htop
      cases hd : s.add_dummy with
      | false =>
        obtain ⟨c1, c2⟩ := hcov hd
        obtain ⟨e, he⟩ := List.exists_mem_of_ne_nil _ c2
        obtain ⟨p, hp, _⟩ := c1 e he
        rw [hQ] at hp
        cases hp
      | true =>
        refine ⟨none, s, o, rfl, ⟨[], by simp, rfl, by simp⟩, rfl, fun p hp => Or.inl hp,
          fun h => ?_, by simp, fun _ => ⟨hd, rfl⟩⟩
        rw [hd] at h
        cases h
    | some top =>
      obtain ⟨t1, t2⟩ := heapTop_spec _ _ htop
      simp only []
      by_cases hdum : (s.add_dummy && decide (top.value ≤ 1)) = true
      · rw [if_pos hdum]
        have hd : s.add_dummy = true := by
          simp only [Bool.and_eq_true] at hdum
          exact hdum.1
        refine ⟨none, s, o, rfl, ⟨[], by simp, rfl, by simp⟩, rfl, fun p hp => Or.inl hp,
          fun h => ?_, by simp, fun _ => ⟨hd, rfl⟩⟩
        rw [hd] at h
        cases h
      · rw [if_neg hdum]
        by_cases hmem : top.element ∈ s.T
        · rw [if_neg (not_not.mpr hmem)]
          obtain ⟨g1, g2⟩ := gainEq_compute_of oops law o0 o top.element hg (hTS _ hmem)
          have hsub : ∀ p ∈ s.Q.erase top, p ∈ s.Q := fun p hp => List.mem_of_mem_erase hp
          -- entries of other elements survive the pop
          have hkeep : ∀ p ∈ s.Q, p.element ≠ top.element → p ∈ s.Q.erase top := by
            intro p hp hne
            exact (List.mem_erase_of_ne (fun h => hne (by rw [h]))).mpr hp
          by_cases hcommit : Lazy.commit (s.Q.erase top)
              (oops.compute_marginal_gain_exponential o top.element).1 = true
          · rw [if_pos hcommit]
            have hle : ∀ p ∈ s.Q.erase top, p.value ≤ gainAt oops o0 top.element := by
              intro p hp
              cases hq : heapTop (s.Q.erase top) with
              | none =>
                rw [(heapTop_none _).mp hq] at hp
                cases hp
              | some t =>
                simp only [Lazy.commit, hq, decide_eq_true_eq] at hcommit
                rw [g1] at hcommit
                exact le_trans (less_value_le ((heapTop_spec _ _ hq).2 p hp)) hcommit
            by_cases hd2 : (s.add_dummy &&
                decide ((oops.compute_marginal_gain_exponential o top.element).1 ≤ 1)) = true
            · rw [if_pos hd2]
              have hd : s.add_dummy = true := by
                simp only [Bool.and_eq_true] at hd2
                exact hd2.1
              refine ⟨none, _, _, rfl, ⟨[top.element], ?_, rfl, by simp⟩, rfl,
                fun p hp => Or.inl (hsub p hp), fun h => ?_, by simp, fun _ => ⟨hd, rfl⟩⟩
              · intro x hx
                rw [List.mem_singleton.mp hx]
                exact hmem
              · rw [hd] at h
                cases h
            · rw [if_neg hd2]
              refine ⟨some top.element, _, _, rfl, ⟨[top.element], ?_, rfl, by simp⟩, rfl,
                fun p hp => Or.inl (hsub p hp), ?_, ?_, by simp⟩
              · intro x hx
                rw [List.mem_singleton.mp hx]
                exact hmem
              · intro _ hc x hx
                have hx' := (hnd.mem_erase_iff).mp hx
                obtain ⟨p, hp, hpe⟩ := hc x hx'.2
                exact ⟨p, hkeep p hp (by rw [hpe]; exact hx'.1), hpe⟩
              · intro e he
                simp only [Option.some.injEq] at he
                subst he
                refine ⟨hmem, rfl, ?_, ?_, ?_⟩
                · intro hd
                  rw [hd, g1] at hd2
                  simpa using hd2
                · intro hc hub x hx
                  by_cases hxe : x = top.element
                  · rw [hxe]
                  · obtain ⟨p, hp, hpe⟩ := hc x hx
                    have h1 := hub p hp (by rw [hpe]; exact hx)
                    rw [hpe] at h1
                    exact le_trans h1 (hle p (hkeep p hp (by rw [hpe]; exact hxe)))
                · intro hc hex
                  have htv : top.value = gainAt oops o0 top.element := hex top t1 hmem
                  rw [rankIn, List.length_eq_zero, List.filter_eq_nil_iff]
                  intro x hx
                  obtain ⟨p, hp, hpe⟩ := hc x hx
                  have hpv := hex p hp (by rw [hpe]; exact hx)
                  have h1 := t2 p hp
                  have e1 : top = (⟨top.element, gainAt oops o0 top.element⟩ :
                      ElementValuePair α) := by
                    cases top
                    simp only [ElementValuePair.mk.injEq, true_and]
                    exact htv
                  have e2 : p = (⟨x, gainAt oops o0 x⟩ : ElementValuePair α) := by
                    cases p
                    simp only [ElementValuePair.mk.injEq]
                    exact ⟨hpe, by rw [← hpe]; exact hpv⟩
                  rw [← e1, ← e2, h1]
                  simp
          · rw [if_neg hcommit]
            -- the popped entry was stale
            have hstale : top.value ≠ gainAt oops o0 top.element := by
              intro heq
              apply hcommit
              cases hq : heapTop (s.Q.erase top) with
              | none => simp [Lazy.commit, hq]
              | some t =>
                simp only [Lazy.commit, hq, decide_eq_true_eq]
                rw [g1, ← heq]
                exact less_value_le (t2 t (hsub t (heapTop_spec _ _ hq).1))
            have hcount : staleCount (gainAt oops o0) s.T
                ((⟨top.element, (oops.compute_marginal_gain_exponential o top.element).1⟩ : ElementValuePair α)
                  :: s.Q.erase top) < fuel := by
              have h1 := countP_erase_pos
                (fun p : ElementValuePair α => !(decide (p.element ∈ s.T) &&
                  decide (p.value = gainAt oops o0 p.element))) s.Q top t1
                (by simp [hmem, hstale])
              unfold staleCount at hfuel ⊢
              rw [List.countP_cons]
              simp only [hmem, g1, decide_True, Bool.and_self, Bool.not_true,
                Bool.false_eq_true, if_false]
              omega
            obtain ⟨r, s1, o1, i1, i2⟩ := ih
              { s with Q := (⟨top.element, (oops.compute_marginal_gain_exponential o top.element).1⟩ : ElementValuePair α)
                    :: s.Q.erase top }
              (oops.compute_marginal_gain_exponential o top.element).2 g2 hnd hTS
              (by
                intro hd
                obtain ⟨c1, c2⟩ := hcov hd
                refine ⟨?_, c2⟩
                intro x hx
                by_cases hxe : x = top.element
                · exact ⟨_, List.mem_cons_self _ _, hxe.symm⟩
                · obtain ⟨p, hp, hpe⟩ := c1 x hx
                  exact ⟨p, List.mem_cons_of_mem _ (hkeep p hp (by rw [hpe]; exact hxe)), hpe⟩)
              hcount
            obtain ⟨⟨es, p1, p2, p3⟩, q2, q3, q4, q5, q6⟩ := i2
            have hcov' : Cover s.T s.Q → Cover s.T
                ((⟨top.element, (oops.compute_marginal_gain_exponential o top.element).1⟩ : ElementValuePair α)
                  :: s.Q.erase top) := by
              intro c1 x hx
              by_cases hxe : x = top.element
              · exact ⟨_, List.mem_cons_self _ _, hxe.symm⟩
              · obtain ⟨p, hp, hpe⟩ := c1 x hx
                exact ⟨p, List.mem_cons_of_mem _ (hkeep p hp (by rw [hpe]; exact hxe)), hpe⟩
            refine ⟨r, s1, o1, i1, ⟨top.element :: es, ?_, ?_, ?_⟩, q2, ?_, ?_, ?_, q6⟩
            · intro x hx
              rcases List.mem_cons.mp hx with h | h
              · rw [h]; exact hmem
              · exact p1 x h
            · rw [p2]
              rfl
            · intro e he
              have := p3 e he
              cases es with
              | nil => simp at this
              | cons a as => simpa [List.getLast?_cons_cons] using this
            · intro p hp
              rcases q3 p hp with h | h
              · rcases List.mem_cons.mp h with h | h
                · right
                  rw [h]
                  exact ⟨hmem, g1⟩
                · exact Or.inl (hsub p h)
              · exact Or.inr h
            · intro hd hc
              exact q4 hd (hcov' hc)
            · intro e he
              obtain ⟨a1, a2, a3, a4, a5⟩ := q5 e he
              refine ⟨a1, a2, a3, ?_, ?_⟩
              · intro hc hub
                apply a4 (hcov' hc)
                intro p hp hpT
                rcases List.mem_cons.mp hp with h | h
                · rw [h]
                  simp only
                  rw [g1]
                · exact hub p (hsub p h) hpT
              · intro hc hex
                apply a5 (hcov' hc)
                intro p hp hpT
                rcases List.mem_cons.mp hp with h | h
                · rw [h]
                  exact g1
                · exact hex p (hsub p h) hpT
        · rw [if_pos hmem]
          have hcount : staleCount (gainAt oops o0) s.T (s.Q.erase top) < fuel := by
            have h1 := countP_erase_pos
              (fun p : ElementValuePair α => !(decide (p.element ∈ s.T) &&
                decide (p.value = gainAt oops o0 p.element))) s.Q top t1
              (by simp [hmem])
            unfold staleCount at hfuel ⊢
            omega
          have hkeep : ∀ p ∈ s.Q, p.element ∈ s.T → p ∈ s.Q.erase top := by
            intro p hp hpT
            exact (List.mem_erase_of_ne (fun h => hmem (by rw [← h]; exact hpT))).mpr hp
          have hcov' : Cover s.T s.Q → Cover s.T (s.Q.erase top) := by
            intro c1 x hx
            obtain ⟨p, hp, hpe⟩ := c1 x hx
            exact ⟨p, hkeep p hp (by rw [hpe]; exact hx), hpe⟩
          obtain ⟨r, s1, o1, i1, i2⟩ := ih { s with Q := s.Q.erase top } o hg hnd hTS
            (fun hd => ⟨hcov' (hcov hd).1, (hcov hd).2⟩) hcount
          obtain ⟨q1, q2, q3, q4, q5, q6⟩ := i2
          refine ⟨r, s1, o1, i1, q1, q2, ?_, ?_, ?_, q6⟩
          · intro p hp
            rcases q3 p hp with h | h
            · exact Or.inl (List.mem_of_mem_erase h)
            · exact Or.inr h
          · intro hd hc
            exact q4 hd (hcov' hc)
          · intro e he
            obtain ⟨a1, a2, a3, a4, a5⟩ := q5 e he
            refine ⟨a1, a2, a3, ?_, ?_⟩
            · intro hc hub
              exact a4 (hcov' hc) (fun p hp hpT => hub p (List.mem_of_mem_erase hp) hpT)
            · intro hc hex
              exact a5 (hcov' hc) (fun p hp hpT => hex p (List.mem_of_mem_erase hp) hpT)

end
end DPP

namespace DPP

section
variable {σ α : Type} [LinearOrderedField α]

theorem staleCount_le (g : Nat → α) (T : List Nat) (Q : List (ElementValuePair α)) :
    staleCount g T Q ≤ Q.length := List.countP_le_length _

/-- The method `Lazy::pop_largest()` returns, and satisfies its postcondition. -/
theorem lazy_pop_largest_spec (oops : OracleOps σ α) (law : OracleLaw oops) (o0 : σ)
    (s : Lazy.Instance α) (o : σ) (hg : GainEq oops o0 o) (hnd : s.T.Nodup)
    (hTS : ∀ e ∈ s.T, e ∉ oops.get_solution o0)
    (hcov : s.add_dummy = false → Cover s.T s.Q ∧ s.T ≠ []) :
    ∃ r s1 o1, Lazy.pop_largest oops s o = .ok (r, s1, o1) ∧
      Lazy.PopPost oops (gainAt oops o0) s o r s1 o1 :=
  lazy_loop_spec oops law o0 (s.Q.length + 1) s o hg hnd hTS hcov
    (Nat.lt_succ_of_le (staleCount_le _ _ _))

/-- Consequences of the postcondition of `pop_largest` for the ground set. -/
theorem popPost_T (oops : OracleOps σ α) (g : Nat → α) (s : Lazy.Instance α) (o : σ)
    (r : Option Nat) (s1 : Lazy.Instance α) (o1 : σ) (hnd : s.T.Nodup)
    (h : Lazy.PopPost oops g s o r s1 o1) :
    s1.T.Nodup ∧ (∀ x ∈ s1.T, x ∈ s.T) ∧
    (∀ e, r = some e → s.T.Perm (e :: s1.T) ∧ e ∉ s1.T) := by
  obtain ⟨_, _, _, _, h5, h6⟩ := h
  cases r with
  | none =>
    obtain ⟨_, hT⟩ := h6 rfl
    rw [hT]
    exact ⟨hnd, fun x hx => hx, fun e he => by cases he⟩
  | some e =>
    obtain ⟨a1, a2, _⟩ := h5 e rfl
    rw [a2]
    refine ⟨hnd.erase e, fun x hx => List.mem_of_mem_erase hx, ?_⟩
    intro e' he'
    simp only [Option.some.injEq] at he'
    subst he'
    exact ⟨List.perm_cons_erase a1, fun hh => ((hnd.mem_erase_iff).mp hh).1 rfl⟩

theorem gainEq_of_popPost (oops : OracleOps σ α) (law : OracleLaw oops) (o0 : σ)
    (s : Lazy.Instance α) (o : σ) (r : Option Nat) (s1 : Lazy.Instance α) (o1 : σ)
    (hg : GainEq oops o0 o) (hTS : ∀ e ∈ s.T, e ∉ oops.get_solution o0)
    (h : Lazy.PopPost oops (gainAt oops o0) s o r s1 o1) : GainEq oops o0 o1 := by
  obtain ⟨⟨es, e1, e2, _⟩, _⟩ := h
  rw [e2]
  exact gainEq_computeAll oops law o0 es o hg (fun x hx => hTS x (e1 x hx))

/-- The first loop of `Lazy::pop_kth_largest`. -/
theorem lazy_pop_recover_spec (oops : OracleOps σ α) (law : OracleLaw oops) (o0 : σ) :
    ∀ (j : Nat) (s : Lazy.Instance α) (o : σ) (rec : List Nat), GainEq oops o0 o →
      s.T.Nodup → (∀ e ∈ s.T, e ∉ oops.get_solution o0) →
      (s.add_dummy = false → Cover s.T s.Q ∧ j ≤ s.T.length) →
      ∃ rec1 s1 o1, Lazy.pop_recover oops j s o rec = .ok (rec ++ rec1, s1, o1) ∧
        GainEq oops o0 o1 ∧ s1.add_dummy = s.add_dummy ∧ s1.T.Nodup ∧
        s.T.Perm (rec1 ++ s1.T) ∧ rec1.length ≤ j ∧
        (s.add_dummy = false → rec1.length = j ∧ Cover s1.T s1.Q) ∧
        (∃ es, (∀ x ∈ es, x ∈ s.T) ∧ o1 = computeAll oops es o) := by
  intro j
  induction j with
  | zero =>
    intro s o rec hg hnd _ hcov
    refine ⟨[], s, o, by simp [Lazy.pop_recover], hg, rfl, hnd, by simp, le_rfl, ?_,
      ⟨[], by simp, rfl⟩⟩
    intro hd
    exact ⟨rfl, (hcov hd).1⟩
  | succ j ih =>
    intro s o rec hg hnd hTS hcov
    obtain ⟨r, s1, o1, p1, p2⟩ := lazy_pop_largest_spec oops law o0 s o hg hnd hTS
      (fun hd => ⟨(hcov hd).1, by
        intro h0
        have := (hcov hd).2
        rw [h0] at this
        simp at this⟩)
    have hg1 := gainEq_of_popPost oops law o0 s o r s1 o1 hg hTS p2
    obtain ⟨t1, t2, t3⟩ := popPost_T oops _ s o r s1 o1 hnd p2
    obtain ⟨⟨es, e1, e2, _⟩, q2, _, q4, q5, q6⟩ := p2
    unfold Lazy.pop_recover
    rw [p1]
    cases r with
    | none =>
      simp only []
      obtain ⟨hd, hT⟩ := q6 rfl
      refine ⟨[], s1, o1, by simp, hg1, q2, t1, by rw [hT]; simp, by simp, ?_, ⟨es, e1, e2⟩⟩
      intro hd'
      rw [hd] at hd'
      cases hd'
    | some e =>
      simp only []
      obtain ⟨a1, a2, _⟩ := q5 e rfl
      obtain ⟨rec1, s2, o2, i1, i2, i3, i4, i5, i6, i7, ⟨fs, f1, f2⟩⟩ :=
        ih s1 o1 (rec ++ [e]) hg1 t1 (fun x hx => hTS x (t2 x hx))
          (by
            intro hd
            rw [q2] at hd
            refine ⟨q4 hd (hcov hd).1, ?_⟩
            have := (hcov hd).2
            rw [a2, List.length_erase_of_mem a1]
            omega)
      refine ⟨e :: rec1, s2, o2, ?_, i2, by rw [i3, q2], i4, ?_, ?_, ?_, ⟨es ++ fs, ?_, ?_⟩⟩
      · rw [i1]
        simp
      · exact ((t3 e rfl).1).trans (List.Perm.cons e i5)
      · simp only [List.length_cons]
        omega
      · intro hd
        rw [← q2] at hd
        obtain ⟨b1, b2⟩ := i7 hd
        exact ⟨by simp only [List.length_cons]; omega, b2⟩
      · intro x hx
        rcases List.mem_append.mp hx with h | h
        · exact e1 x h
        · exact t2 x (f1 x h)
      · rw [computeAll_append, ← e2, f2]

theorem getLastAll_S (oops : OracleOps σ α) (law : OracleLaw oops) :
    ∀ (es : List Nat) (o : σ),
      oops.get_solution (getLastAll oops es o) = oops.get_solution o ∧
      oops.get_value (getLastAll oops es o) = oops.get_value o := by
  intro es
  induction es with
  | nil => intro o; exact ⟨rfl, rfl⟩
  | cons e es ih =>
    intro o
    obtain ⟨i1, i2⟩ := ih (oops.get_last_marginal_gain_exponential o e).2
    exact ⟨i1.trans (law.get_last_S o e), i2.trans (law.get_last_value o e)⟩

/-- The last loop of `Lazy::pop_kth_largest`. -/
theorem lazy_push_recover_spec (oops : OracleOps σ α) :
    ∀ (es : List Nat) (q : List (ElementValuePair α)) (o : σ),
      (Lazy.push_recover oops es q o).2 = getLastAll oops es o ∧
      (∀ p ∈ q, p ∈ (Lazy.push_recover oops es q o).1) ∧
      (∀ e ∈ es, ∃ p ∈ (Lazy.push_recover oops es q o).1, p.element = e) ∧
      (∀ p ∈ (Lazy.push_recover oops es q o).1, p ∈ q ∨ p.element ∈ es) := by
  intro es
  induction es with
  | nil =>
    intro q o
    refine ⟨rfl, fun p hp => hp, ?_, fun p hp => Or.inl hp⟩
    intro e he
    cases he
  | cons e es ih =>
    intro q o
    obtain ⟨i1, i2, i3, i4⟩ := ih
      ((⟨e, (oops.get_last_marginal_gain_exponential o e).1⟩ : ElementValuePair α) :: q)
      (oops.get_last_marginal_gain_exponential o e).2
    simp only [Lazy.push_recover]
    refine ⟨i1, fun p hp => i2 p (List.mem_cons_of_mem _ hp), ?_, ?_⟩
    · intro x hx
      rcases List.mem_cons.mp hx with h | h
      · exact ⟨_, i2 _ (List.mem_cons_self _ _), h.symm⟩
      · exact i3 x h
    · intro p hp
      rcases i4 p hp with h | h
      · rcases List.mem_cons.mp h with h | h
        · right
          rw [h]
          exact List.mem_cons_self _ _
        · exact Or.inl h
      · exact Or.inr (List.mem_cons_of_mem _ h)

end
end DPP

namespace DPP

section
variable {σ α : Type} [LinearOrderedField α]

/-- The method `Lazy::pop_kth_largest(i)` returns within its assertion, and what it leaves. -/
theorem lazy_pop_kth_spec (oops : OracleOps σ α) (law : OracleLaw oops) (o0 : σ)
    (s : Lazy.Instance α) (o : σ) (i : Nat) (hg : GainEq oops o0 o) (hnd : s.T.Nodup)
    (hTS : ∀ e ∈ s.T, e ∉ oops.get_solution o0)
    (hcov : s.add_dummy = false → Cover s.T s.Q)
    (hassert : s.add_dummy = true ∨ i < s.T.length) :
    ∃ r s1 o1, Lazy.pop_kth_largest oops s o i = .ok (r, s1, o1) ∧
      s1.add_dummy = s.add_dummy ∧ s1.T.Nodup ∧
      (∀ e, r = some e → s.T.Perm (e :: s1.T) ∧ (s.add_dummy = true → 1 < gainAt oops o0 e)) ∧
      (r = none → s.T.Perm s1.T ∧ s.add_dummy = true) ∧
      (s.add_dummy = false → Cover s1.T s1.Q) ∧
      (∃ es rec, (∀ x ∈ es, x ∈ s.T) ∧ (∀ x ∈ rec, x ∈ s.T) ∧
        o1 = getLastAll oops rec (computeAll oops es o) ∧
        ∀ e, r = some e → es.getLast? = some e ∧ e ∉ rec) := by
  have hA : (!(s.add_dummy || decide (i < s.T.length))) = false := by
    rcases hassert with h | h
    · simp [h]
    · simp [h]
  obtain ⟨rec1, s1, o1, p1, p2, p3, p4, p5, p6, p7, ⟨es1, e1, e2⟩⟩ :=
    lazy_pop_recover_spec oops law o0 i s o [] hg hnd hTS
      (by
        intro hd
        refine ⟨hcov hd, ?_⟩
        rcases hassert with h | h
        · rw [hd] at h; cases h
        · omega)
  have hsub1 : ∀ x ∈ s1.T, x ∈ s.T :=
    fun x hx => p5.symm.subset (List.mem_append_right _ hx)
  have hrec : ∀ x ∈ rec1, x ∈ s.T :=
    fun x hx => p5.symm.subset (List.mem_append_left _ hx)
  have hndA : (rec1 ++ s1.T).Nodup := p5.nodup_iff.mp hnd
  obtain ⟨ret, s2, o2, q1, q2⟩ := lazy_pop_largest_spec oops law o0 s1 o1 p2 p4
    (fun x hx => hTS x (hsub1 x hx))
    (by
      intro hd
      rw [p3] at hd
      obtain ⟨b1, b2⟩ := p7 hd
      refine ⟨b2, ?_⟩
      intro h0
      have hlen := p5.length_eq
      rw [List.length_append, h0, b1] at hlen
      rcases hassert with h | h
      · rw [hd] at h; cases h
      · simp at hlen; omega)
  obtain ⟨t1, t2, t3⟩ := popPost_T oops _ s1 o1 ret s2 o2 p4 q2
  obtain ⟨⟨es2, f1, f2, f3⟩, r2, _, r4, r5, r6⟩ := q2
  obtain ⟨u1, u2, u3, _⟩ := lazy_push_recover_spec oops rec1 s2.Q o2
  have hnd2 : (s2.T ++ rec1).Nodup := by
    have h1 : (rec1 ++ s2.T).Nodup := by
      refine List.Nodup.append ((List.nodup_append.mp hndA).1) t1 ?_
      intro x hx1 hx2
      exact (List.nodup_append.mp hndA).2.2 hx1 (t2 x hx2)
    exact (List.perm_append_comm.nodup_iff).mp h1
  unfold Lazy.pop_kth_largest
  rw [hA]
  simp only [Bool.false_eq_true, if_false]
  rw [List.nil_append] at p1
  rw [p1]
  simp only []
  rw [q1]
  simp only []
  refine ⟨ret, _, _, rfl, by rw [r2, p3], hnd2, ?_, ?_, ?_, ⟨es1 ++ es2, rec1, ?_, hrec, ?_, ?_⟩⟩
  · intro e he
    obtain ⟨a1, a2, a3, _⟩ := r5 e he
    refine ⟨?_, fun hd => a3 (by rw [p3]; exact hd)⟩
    have h1 : (rec1 ++ s1.T).Perm (rec1 ++ e :: s2.T) :=
      List.Perm.append_left rec1 (t3 e he).1
    have h2 : (rec1 ++ e :: s2.T).Perm (e :: (s2.T ++ rec1)) := by
      refine List.perm_middle.trans (List.Perm.cons e ?_)
      exact List.perm_append_comm
    exact (p5.trans h1).trans h2
  · intro hr
    obtain ⟨a1, a2⟩ := r6 hr
    refine ⟨?_, by rw [← p3]; exact a1⟩
    simp only []
    rw [a2]
    exact p5.trans List.perm_append_comm
  · intro hd
    have hd1 : s1.add_dummy = false := by rw [p3]; exact hd
    have hc2 := r4 hd1 (p7 hd).2
    intro x hx
    rcases List.mem_append.mp hx with h | h
    · obtain ⟨p, hp, hpe⟩ := hc2 x h
      exact ⟨p, u2 p hp, hpe⟩
    · exact u3 x h
  · intro x hx
    rcases List.mem_append.mp hx with h | h
    · exact e1 x h
    · exact hsub1 x (f1 x h)
  · rw [u1, computeAll_append, ← e2, f2]
  · intro e he
    have hl := f3 e he
    refine ⟨?_, ?_⟩
    · cases es2 with
      | nil => simp at hl
      | cons a as =>
        rw [List.getLast?_append_of_ne_nil _ (by simp)]
        exact hl
    · intro hh
      exact (List.nodup_append.mp hndA).2.2 hh (r5 e he).1

theorem lazy_entries_spec (oops : OracleOps σ α) :
    ∀ (es : List Nat) (o : σ),
      ((Lazy.entries oops es o).1.map fun p => p.element) = es ∧
      (Lazy.entries oops es o).2 = getLastAll oops es o := by
  intro es
  induction es with
  | nil => intro o; exact ⟨rfl, rfl⟩
  | cons e es ih =>
    intro o
    obtain ⟨i1, i2⟩ := ih (oops.get_last_marginal_gain_exponential o e).2
    simp only [Lazy.entries, List.map_cons]
    exact ⟨by rw [i1], i2⟩

/-- In every state a lazy strategy reaches, the ground set has no repetition and lies
outside the selection, and without dummy elements each of its elements has a heap entry. -/
theorem lazy_reach_inv (oops : OracleOps σ α) (law : OracleLaw oops) (s : Lazy.Instance α)
    (o : σ) (h : Lazy.Reach oops s o) :
    s.T.Nodup ∧ (∀ e ∈ s.T, e ∉ oops.get_solution o) ∧ (s.add_dummy = false → Cover s.T s.Q) := by
  induction h with
  | construct ord range b o hnd hTS =>
    obtain ⟨e1, e2⟩ := lazy_entries_spec oops (ord range) o
    refine ⟨hnd, ?_, ?_⟩
    · intro e he
      simp only [Lazy.construct] at he ⊢
      rw [e2, (getLastAll_S oops law _ _).1]
      exact hTS e he
    · intro _ e he
      simp only [Lazy.construct] at he ⊢
      rw [← e1] at he
      obtain ⟨p, hp, hpe⟩ := List.mem_map.mp he
      exact ⟨p, hp, hpe⟩
  | pop_largest s o r s1 o1 _ hpre hok ih =>
    obtain ⟨i1, i2, i3⟩ := ih
    obtain ⟨r', s1', o1', p1, p2⟩ := lazy_pop_largest_spec oops law o s o (gainEq_refl oops o)
      i1 i2
      (by
        intro hd
        refine ⟨i3 hd, ?_⟩
        rcases hpre with h | h
        · rw [hd] at h; cases h
        · exact h)
    rw [hok] at p1
    simp only [Except.ok.injEq, Prod.mk.injEq] at p1
    obtain ⟨rfl, rfl, rfl⟩ := p1
    obtain ⟨t1, t2, _⟩ := popPost_T oops _ s o r s1 o1 i1 p2
    have hg := gainEq_of_popPost oops law o s o r s1 o1 (gainEq_refl oops o) i2 p2
    refine ⟨t1, ?_, ?_⟩
    · intro e he
      rw [hg.1]
      exact i2 e (t2 e he)
    · intro hd
      rw [p2.2.1] at hd
      exact p2.2.2.2.1 hd (i3 hd)
  | pop_kth_largest s o i r s1 o1 _ hok ih =>
    obtain ⟨i1, i2, i3⟩ := ih
    have hassert : s.add_dummy = true ∨ i < s.T.length := by
      by_contra hc
      have hA : (!(s.add_dummy || decide (i < s.T.length))) = true := by
        simp only [not_or] at hc
        simp [hc.1, hc.2]
      unfold Lazy.pop_kth_largest at hok
      rw [hA] at hok
      simp at hok
    obtain ⟨r', s1', o1', p1, p2, p3, p4, p5, p6, ⟨es, rec, e1, e2, e3, _⟩⟩ :=
      lazy_pop_kth_spec oops law o s o i (gainEq_refl oops o) i1 i2 i3 hassert
    rw [hok] at p1
    simp only [Except.ok.injEq, Prod.mk.injEq] at p1
    obtain ⟨rfl, rfl, rfl⟩ := p1
    have hsub : ∀ x ∈ s1.T, x ∈ s.T := by
      intro x hx
      cases r with
      | none => exact (p5 rfl).1.symm.subset hx
      | some e => exact (p4 e rfl).1.symm.subset (List.mem_cons_of_mem _ hx)
    refine ⟨p3, ?_, ?_⟩
    · intro e he
      rw [e3, (getLastAll_S oops law _ _).1,
        (gainEq_computeAll oops law o es o (gainEq_refl oops o) (fun x hx => i2 x (e1 x hx))).1]
      exact i2 e (hsub e he)
    · intro hd
      rw [p2] at hd
      exact p6 hd
  | remove s o e s1 _ hok ih =>
    obtain ⟨i1, i2, i3⟩ := ih
    unfold Lazy.remove at hok
    by_cases he : e ∈ s.T
    · rw [if_pos he] at hok
      simp only [Except.ok.injEq] at hok
      subst hok
      refine ⟨i1.erase e, fun x hx => i2 x (List.mem_of_mem_erase hx), ?_⟩
      intro hd x hx
      exact i3 hd x (List.mem_of_mem_erase hx)
    · rw [if_neg he] at hok
      cases hok
  | compute s o e _ ih =>
    obtain ⟨i1, i2, i3⟩ := ih
    refine ⟨i1, ?_, i3⟩
    intro x hx
    rw [law.compute_S]
    exact i2 x hx
  | get_last s o e _ ih =>
    obtain ⟨i1, i2, i3⟩ := ih
    refine ⟨i1, ?_, i3⟩
    intro x hx
    rw [law.get_last_S]
    exact i2 x hx
  | add s o e _ he ih =>
    obtain ⟨i1, i2, i3⟩ := ih
    refine ⟨i1, ?_, i3⟩
    intro x hx
    rw [law.add_S]
    intro hm
    rcases List.mem_append.mp hm with h | h
    · exact i2 x hx h
    · rw [List.mem_singleton.mp h] at hx
      exact he hx

end
end DPP

namespace DPP

/-- The direct oracle repeats its answers. -/
theorem direct_law {α : Type} [LinearOrderedField α] (log : α → α) (L : Nat → Nat → α) :
    OracleLaw (Oracle.ops log L) := by
  have direct_compute_frame (L : Nat → Nat → α) (o : Oracle.Instance α) (e : Nat) :
      (Oracle.compute_marginal_gain_exponential L o e).2.S = o.S ∧
      (Oracle.compute_marginal_gain_exponential L o e).2.value = o.value := by
    unfold Oracle.compute_marginal_gain_exponential
    by_cases hu : o.u e < (o.S.length : Int)
    · simp only [hu, if_true, and_self]
    · simp only [hu, if_false, and_self]
  -- Repeating a computation of the direct oracle, or computing another element first, does
  -- not change what a computation returns.
  have direct_compute_stable (L : Nat → Nat → α) (o : Oracle.Instance α) (e x : Nat) :
      (Oracle.compute_marginal_gain_exponential L
          (Oracle.compute_marginal_gain_exponential L o e).2 x).1
        = (Oracle.compute_marginal_gain_exponential L o x).1 := by
    obtain ⟨c1, _, c3, c4, c5⟩ := direct_compute_cells L o e
    rw [direct_compute_val, direct_compute_val, c1]
    by_cases hxe : x = e
    · subst hxe
      by_cases hu : o.u x < (o.S.length : Int)
      · rw [(c4 hu).1, (c4 hu).2, if_pos hu, if_neg (lt_irrefl _)]
        rfl
      · rw [c5 hu]
    · rw [(c3 x hxe).1, (c3 x hxe).2]
  exact ⟨fun o e => (direct_compute_frame L o e).1, fun o e => (direct_compute_frame L o e).2,
   fun o e => (direct_get_last_frame L o e).1, fun o e => (direct_get_last_frame L o e).2,
   fun _ _ => rfl, fun o e x _ => direct_compute_stable L o e x⟩

/-- The fast oracle repeats its answers as long as no selected element is recomputed. -/
theorem fast_law {α : Type} [LinearOrderedField α] (sqrt log : α → α)
    (V0 : Nat → Nat → Option α) (L : Nat → Nat → α) : OracleLaw (Fast.ops sqrt log V0 L) :=
  ⟨fun o e => (fast_compute_frame sqrt L o e).1, fun o e => (fast_compute_frame sqrt L o e).2.1,
   fun o e => (fast_get_last_frame_gen L o e).1, fun o e => (fast_get_last_frame_gen L o e).2.1,
   fun _ _ => rfl, fun o e x he => fast_compute_stable sqrt L o e x he⟩

/-- What a call of `NonLazy::pop_kth_largest` that returns leaves of the ground set and of
the oracle. -/
theorem nonlazy_pop_kth_frame {σ α : Type} [LinearOrderedField α] (oops : OracleOps σ α)
    (law : OracleLaw oops) (s : NonLazy.Instance) (o : σ) (i : Nat) (hnd : s.T.Nodup)
    (hTS : ∀ e ∈ s.T, e ∉ oops.get_solution o) (r : Option Nat) (s1 : NonLazy.Instance)
    (o1 : σ) (hok : NonLazy.pop_kth_largest oops s o i = .ok (r, s1, o1)) :
    GainEq oops o o1 ∧ s1.add_dummy = s.add_dummy ∧
      (r = none → s1 = s) ∧ (∀ e, r = some e → e ∈ s.T ∧ s1.T = s.T.erase e) := by
  by_cases hi : i < s.T.length
  · obtain ⟨e, o1', he, _, hg, heq⟩ := nonlazy_pop_kth_spec oops law s o i hnd hTS hi
    rw [hok] at heq
    by_cases hc : (s.add_dummy && decide (gainAt oops o e ≤ 1)) = true
    · rw [if_pos hc] at heq
      simp only [Except.ok.injEq, Prod.mk.injEq] at heq
      obtain ⟨rfl, rfl, rfl⟩ := heq
      exact ⟨hg, rfl, fun _ => rfl, fun e h => by cases h⟩
    · rw [if_neg hc] at heq
      simp only [Except.ok.injEq, Prod.mk.injEq] at heq
      obtain ⟨rfl, rfl, rfl⟩ := heq
      refine ⟨hg, rfl, ?_, ?_⟩
      · intro h
        cases h
      · intro e' h
        cases h
        exact ⟨he, rfl⟩
  · unfold NonLazy.pop_kth_largest at hok
    cases hd : s.add_dummy with
    | false =>
      rw [hd] at hok
      simp [hi] at hok
    | true =>
      rw [hd] at hok
      have hle : s.T.length ≤ i := Nat.le_of_not_lt hi
      simp [hle] at hok
      obtain ⟨rfl, rfl, rfl⟩ := hok
      exact ⟨gainEq_refl oops o, hd.symm ▸ rfl, fun _ => rfl, fun e h => by cases h⟩

/-- In every state a non-lazy strategy reaches, the ground set has no repetition and lies
outside the selection. -/
theorem nonlazy_reach_inv {σ α : Type} [LinearOrderedField α] (oops : OracleOps σ α)
    (law : OracleLaw oops) (s : NonLazy.Instance) (o : σ) (h : NonLazy.Reach oops s o) :
    s.T.Nodup ∧ ∀ e ∈ s.T, e ∉ oops.get_solution o := by
  induction h with
  | construct ord range b o hnd hTS => exact ⟨hnd, hTS⟩
  | pop_kth_largest s o i r s1 o1 _ hok ih =>
    obtain ⟨i1, i2⟩ := ih
    obtain ⟨hg, _, h3, h4⟩ := nonlazy_pop_kth_frame oops law s o i i1 i2 r s1 o1 hok
    cases r with
    | none =>
      rw [h3 rfl]
      refine ⟨i1, ?_⟩
      intro e he
      rw [hg.1]
      exact i2 e he
    | some e =>
      obtain ⟨_, h5⟩ := h4 e rfl
      rw [h5]
      refine ⟨i1.erase e, ?_⟩
      intro x hx
      rw [hg.1]
      exact i2 x (List.mem_of_mem_erase hx)
  | remove s o e s1 _ hok ih =>
    obtain ⟨i1, i2⟩ := ih
    unfold NonLazy.remove at hok
    by_cases he : e ∈ s.T
    · rw [if_pos he] at hok
      simp only [Except.ok.injEq] at hok
      subst hok
      exact ⟨i1.erase e, fun x hx => i2 x (List.mem_of_mem_erase hx)⟩
    · rw [if_neg he] at hok
      cases hok
  | compute s o e _ ih =>
    obtain ⟨i1, i2⟩ := ih
    refine ⟨i1, ?_⟩
    intro x hx
    rw [law.compute_S]
    exact i2 x hx
  | get_last s o e _ ih =>
    obtain ⟨i1, i2⟩ := ih
    refine ⟨i1, ?_⟩
    intro x hx
    rw [law.get_last_S]
    exact i2 x hx
  | add s o e _ he ih =>
    obtain ⟨i1, i2⟩ := ih
    refine ⟨i1, ?_⟩
    intro x hx
    rw [law.add_S]
    intro hm
    rcases List.mem_append.mp hm with h | h
    · exact i2 x hx h
    · rw [List.mem_singleton.mp h] at hx
      exact he hx

/-- An element that no element of `T` exceeds has the largest gain of `T`. -/
theorem rank_zero_max {α : Type} [LinearOrderedField α] (g : Nat → α) (T : List Nat) (e : Nat)
    (h : rankIn g T e = 0) : ∀ x ∈ T, g x ≤ g e := by
  intro x hx
  unfold rankIn at h
  have h0 := List.length_eq_zero.mp h
  have hx' : x ∉ T.filter fun x =>
      ElementValuePair.less { element := e, value := g e } { element := x, value := g x } := by
    rw [h0]
    exact List.not_mem_nil x
  rw [List.mem_filter] at hx'
  have hl : ElementValuePair.less { element := e, value := g e }
      ({ element := x, value := g x } : ElementValuePair α) = false := by
    cases hh : ElementValuePair.less { element := e, value := g e }
      ({ element := x, value := g x } : ElementValuePair α) with
    | false => rfl
    | true => exact absurd ⟨hx, hh⟩ hx'
  exact less_value_le hl

/-- The rank determines the element of a ground set without repetition. -/
theorem rankIn_unique {α : Type} [LinearOrderedField α] (g : Nat → α) (T : List Nat)
    (hnd : T.Nodup) (x e : Nat) (hx : x ∈ T) (he : e ∈ T)
    (h : rankIn g T x = rankIn g T e) : x = e := by
  -- Two pairs of distinct elements that the same number of pairs exceed are equal.
  have rank_unique {α : Type} [LinearOrderedField α] (ps : List (ElementValuePair α))
      (hnd : (ps.map fun p => p.element).Nodup) (a b : ElementValuePair α) (ha : a ∈ ps)
      (hb : b ∈ ps)
      (h : (ps.filter fun x => a.less x).length = (ps.filter fun x => b.less x).length) :
      a = b := by
    by_contra hab
    have hnd' : ps.Nodup := List.Nodup.of_map _ hnd
    have key : ∀ (a b : ElementValuePair α), b ∈ ps → a.less b = true →
        (ps.filter fun x => b.less x).length < (ps.filter fun x => a.less x).length := by
      intro a b hb hl
      have hsub : (ps.filter fun x => b.less x).toFinset ⊂ (ps.filter fun x => a.less x).toFinset := by
        rw [Finset.ssubset_iff_of_subset]
        · refine ⟨b, ?_, ?_⟩
          · simp only [List.mem_toFinset, List.mem_filter]
            exact ⟨hb, hl⟩
          · simp only [List.mem_toFinset, List.mem_filter, not_and]
            intro _
            rw [less_irrefl]
            simp
        · intro x hx
          simp only [List.mem_toFinset, List.mem_filter] at hx ⊢
          exact ⟨hx.1, less_trans hl hx.2⟩
      have := Finset.card_lt_card hsub
      rwa [List.toFinset_card_of_nodup (hnd'.filter _),
        List.toFinset_card_of_nodup (hnd'.filter _)] at this
    rcases less_total (elem_ne_of_ne ps hnd ha hb hab) with hh | hh
    · have := key a b hb hh
      omega
    · have := key b a ha hh
      omega
  rw [rankIn_eq, rankIn_eq] at h
  have hmap : ((T.map fun x => ({ element := x, value := g x } : ElementValuePair α)).map
      fun p => p.element) = T := by
    rw [List.map_map]
    exact List.map_id _
  have := rank_unique (T.map fun x => ({ element := x, value := g x } : ElementValuePair α))
    (by rw [hmap]; exact hnd) { element := x, value := g x } { element := e, value := g e }
    (List.mem_map.mpr ⟨x, hx, rfl⟩) (List.mem_map.mpr ⟨e, he, rfl⟩) h
  exact congrArg ElementValuePair.element this

/-- C4: for a non-lazy strategy without dummy elements and `i < |T|`, the method
`pop_kth_largest(i)` returns the unique element `e` of `T` that exactly `i` elements of `T`
exceed in the order on (gain, -index), the gain being what
`compute_marginal_gain_exponential` returns against the current selection, and removes it
from `T`; `pop_largest()` is `pop_kth_largest(0)`, and for `i = 0` the element returned has
the largest gain of `T`. -/
theorem nonlazy_pop_kth_largest_rank {σ α : Type} [LinearOrderedField α]
    (oops : OracleOps σ α) (law : OracleLaw oops) (s : NonLazy.Instance) (o : σ) (i : Nat)
    (hr : NonLazy.Reach oops s o) (hd : s.add_dummy = false) (hi : i < s.T.length) :
    ∃ e o1, NonLazy.pop_kth_largest oops s o i
        = .ok (some e, { s with T := s.T.erase e }, o1) ∧
      e ∈ s.T ∧ rankIn (gainAt oops o) s.T e = i ∧
      (∀ x ∈ s.T, rankIn (gainAt oops o) s.T x = i → x = e) ∧
      GainEq oops o o1 ∧
      NonLazy.pop_largest oops s o = NonLazy.pop_kth_largest oops s o 0 ∧
      (i = 0 → ∀ x ∈ s.T, gainAt oops o x ≤ gainAt oops o e) := by
  obtain ⟨hnd, hTS⟩ := nonlazy_reach_inv oops law s o hr
  obtain ⟨e, o1, he, hrank, hg, heq⟩ := nonlazy_pop_kth_spec oops law s o i hnd hTS hi
  have hc : ¬ (s.add_dummy && decide (gainAt oops o e ≤ 1)) = true := by
    rw [hd]
    simp
  rw [if_neg hc] at heq
  refine ⟨e, o1, heq, he, hrank, ?_, hg, rfl, ?_⟩
  · intro x hx hxr
    exact rankIn_unique _ _ hnd x e hx he (hxr.trans hrank.symm)
  · intro h0
    rw [h0] at hrank
    exact rank_zero_max _ _ _ hrank

/-- C3: for a lazy strategy without dummy elements and with `T` non-empty, in which every
heap entry of an element of `T` stores a value that is at least the current gain of the
element, `pop_largest()` returns an element of `T` whose current gain is at least that of
every element of `T`, and removes it from `T`; the gains are left as they were.  The
entries stay upper bounds whenever the gains do not increase. -/
theorem lazy_pop_largest_argmax {σ α : Type} [LinearOrderedField α]
    (oops : OracleOps σ α) (law : OracleLaw oops) (s : Lazy.Instance α) (o : σ)
    (hr : Lazy.Reach oops s o) (hd : s.add_dummy = false) (hT : s.T ≠ [])
    (hub : UpperBound (gainAt oops o) s.T s.Q) :
    (∃ e s1 o1, Lazy.pop_largest oops s o = .ok (some e, s1, o1) ∧ e ∈ s.T ∧
      (∀ x ∈ s.T, gainAt oops o x ≤ gainAt oops o e) ∧
      s1.T = s.T.erase e ∧ e ∉ s1.T ∧ GainEq oops o o1) ∧
    ∀ o2, (∀ x ∈ s.T, gainAt oops o2 x ≤ gainAt oops o x) →
      UpperBound (gainAt oops o2) s.T s.Q := by
  obtain ⟨hnd, hTS, hcov⟩ := lazy_reach_inv oops law s o hr
  refine ⟨?_, fun o2 h2 p hp hpT => le_trans (h2 _ hpT) (hub p hp hpT)⟩
  obtain ⟨r, s1, o1, hok, hpost⟩ := lazy_pop_largest_spec oops law o s o (gainEq_refl oops o)
    hnd hTS (fun _ => ⟨hcov hd, hT⟩)
  have hg := gainEq_of_popPost oops law o s o r s1 o1 (gainEq_refl oops o) hTS hpost
  obtain ⟨_, _, t3⟩ := popPost_T oops _ s o r s1 o1 hnd hpost
  obtain ⟨_, _, _, _, p5, p6⟩ := hpost
  cases r with
  | none =>
    have := (p6 rfl).1
    rw [hd] at this
    cases this
  | some e =>
    obtain ⟨a1, a2, _, a4, _⟩ := p5 e rfl
    exact ⟨e, s1, o1, hok, a1, a4 (hcov hd) hub, a2, (t3 e rfl).2, hg⟩

end DPP

namespace DPP

/-- The gains of the test kernel on the empty selection. -/
theorem gainAt_testDiag (o : Oracle.Instance ℝ)
    (h : GainEq (Oracle.ops Real.log (testDiag ℝ)) (Oracle.construct ℝ) o) :
    gainAt (Oracle.ops Real.log (testDiag ℝ)) o = fun x => max 0 (testDiag ℝ x x) := by
  funext x
  rw [h.2.2 x]
  simp [gainAt, Oracle.ops, Oracle.compute_marginal_gain_exponential, Oracle.construct,
    schur_nil]

/-- Witness of C4: the test of `pop_kth_largest` on `diag(0.3, 0.2, 0.9, 0.5, 0.25, 0.125,
0.1, 2.0)`, where the calls with `i = 2, 2, 5, 0` return `3, 0, 6, 7`. -/
theorem nonlazy_pop_kth_largest_rank_witness :
    ∃ o1 o2 o3 o4,
      NonLazy.pop_kth_largest (Oracle.ops Real.log (testDiag ℝ))
        { T := [0, 1, 2, 3, 4, 5, 6, 7], add_dummy := false } (Oracle.construct ℝ) 2
        = .ok (some 3, { T := [0, 1, 2, 4, 5, 6, 7], add_dummy := false }, o1) ∧
      NonLazy.pop_kth_largest (Oracle.ops Real.log (testDiag ℝ))
        { T := [0, 1, 2, 4, 5, 6, 7], add_dummy := false } o1 2
        = .ok (some 0, { T := [1, 2, 4, 5, 6, 7], add_dummy := false }, o2) ∧
      NonLazy.pop_kth_largest (Oracle.ops Real.log (testDiag ℝ))
        { T := [1, 2, 4, 5, 6, 7], add_dummy := false } o2 5
        = .ok (some 6, { T := [1, 2, 4, 5, 7], add_dummy := false }, o3) ∧
      NonLazy.pop_kth_largest (Oracle.ops Real.log (testDiag ℝ))
        { T := [1, 2, 4, 5, 7], add_dummy := false } o3 0
        = .ok (some 7, { T := [1, 2, 4, 5], add_dummy := false }, o4) := by
  have law := direct_law Real.log (testDiag ℝ)
  have R0 : NonLazy.Reach (Oracle.ops Real.log (testDiag ℝ))
      { T := [0, 1, 2, 3, 4, 5, 6, 7], add_dummy := false } (Oracle.construct ℝ) :=
    NonLazy.Reach.construct id [0, 1, 2, 3, 4, 5, 6, 7] false (Oracle.construct ℝ)
      (by decide) (by simp [Oracle.ops, Oracle.construct])
  obtain ⟨e1, o1, h1, _, _, u1, g1, _, _⟩ :=
    nonlazy_pop_kth_largest_rank _ law _ _ 2 R0 rfl (by decide)
  have q1 : 3 = e1 := u1 3 (by decide) (by
    rw [gainAt_testDiag _ (gainEq_refl _ _)]
    simp [rankIn, List.filter, ElementValuePair.less, testDiag]
    norm_num)
  subst q1
  have R1 := NonLazy.Reach.pop_kth_largest _ _ _ _ _ _ R0 h1
  obtain ⟨e2, o2, h2, _, _, u2, g2, _, _⟩ :=
    nonlazy_pop_kth_largest_rank _ law _ _ 2 R1 rfl (by decide)
  have q2 : 0 = e2 := u2 0 (by decide) (by
    rw [gainAt_testDiag _ g1]
    simp [rankIn, List.filter, ElementValuePair.less, testDiag]
    norm_num)
  subst q2
  have R2 := NonLazy.Reach.pop_kth_largest _ _ _ _ _ _ R1 h2
  obtain ⟨e3, o3, h3, _, _, u3, g3, _, _⟩ :=
    nonlazy_pop_kth_largest_rank _ law _ _ 5 R2 rfl (by decide)
  have q3 : 6 = e3 := u3 6 (by decide) (by
    rw [gainAt_testDiag _ (gainEq_trans _ g1 g2)]
    simp [rankIn, List.filter, ElementValuePair.less, testDiag]
    norm_num)
  subst q3
  have R3 := NonLazy.Reach.pop_kth_largest _ _ _ _ _ _ R2 h3
  obtain ⟨e4, o4, h4, _, _, u4, g4, _, _⟩ :=
    nonlazy_pop_kth_largest_rank _ law _ _ 0 R3 rfl (by decide)
  have q4 : 7 = e4 := u4 7 (by decide) (by
    rw [gainAt_testDiag _ (gainEq_trans _ (gainEq_trans _ g1 g2) g3)]
    simp [rankIn, List.filter, ElementValuePair.less, testDiag]
    norm_num)
  subst q4
  exact ⟨o1, o2, o3, o4, h1, h2, h3, h4⟩

/-- Witness of C3: the lazy strategy over the first three elements of the test kernel
returns element `2`, whose gain `0.9` is the largest. -/
theorem lazy_pop_largest_argmax_witness :
    ∃ s1 o1,
      Lazy.pop_largest (Oracle.ops Real.log (testDiag ℝ))
        (Lazy.construct (Oracle.ops Real.log (testDiag ℝ)) id [0, 1, 2] false
          (Oracle.construct ℝ)).1
        (Lazy.construct (Oracle.ops Real.log (testDiag ℝ)) id [0, 1, 2] false
          (Oracle.construct ℝ)).2
        = .ok (some 2, s1, o1) ∧ s1.T = [0, 1] := by
  have hgain : ∀ x, x < 3 →
      gainAt (Oracle.ops Real.log (testDiag ℝ))
        (Lazy.construct (Oracle.ops Real.log (testDiag ℝ)) id [0, 1, 2] false
          (Oracle.construct ℝ)).2 x = testDiag ℝ x x := by
    intro x hx
    interval_cases x <;>
      simp [gainAt, Oracle.ops, Lazy.construct, Lazy.entries,
        Oracle.compute_marginal_gain_exponential, Oracle.get_last_marginal_gain_exponential,
        Oracle.construct, testDiag]
  obtain ⟨⟨e, s1, o1, h1, h2, h3, h4, _, _⟩, _⟩ :=
    lazy_pop_largest_argmax (Oracle.ops Real.log (testDiag ℝ))
      (direct_law Real.log (testDiag ℝ)) _ _
      (Lazy.Reach.construct id [0, 1, 2] false (Oracle.construct ℝ) (by decide)
        (by simp [Oracle.ops, Oracle.construct]))
      rfl (by simp [Lazy.construct])
      (by
        intro p hp hpT
        have hp3 : p.element < 3 := by
          simp [Lazy.construct] at hpT
          omega
        rw [hgain _ hp3]
        simp [Lazy.construct, Lazy.entries, Oracle.ops,
          Oracle.get_last_marginal_gain_exponential, Oracle.construct] at hp
        rcases hp with rfl | rfl | rfl <;> simp [testDiag])
  have he : e = 2 := by
    have hm := h3 2 (by simp [Lazy.construct])
    have he3 : e < 3 := by
      simp [Lazy.construct] at h2
      omega
    rw [hgain 2 (by decide), hgain e he3] at hm
    interval_cases e
    · simp [testDiag] at hm
      norm_num at hm
    · simp [testDiag] at hm
      norm_num at hm
    · rfl
  subst he
  exact ⟨s1, o1, h1, by rw [h4]; rfl⟩

end DPP

namespace DPP

theorem steps_trans {σ α : Type} (oops : OracleOps σ α) (T : List Nat) (o p q : σ)
    (h1 : Steps oops T o p) (h2 : Steps oops T p q) : Steps oops T o q := by
  induction h2 with
  | refl => exact h1
  | compute p' x _ hx ih => exact Steps.compute o p' x ih hx
  | get_last p' x _ hx ih => exact Steps.get_last o p' x ih hx

theorem steps_computeAll {σ α : Type} (oops : OracleOps σ α) (T : List Nat) :
    ∀ (es : List Nat) (o : σ), (∀ x ∈ es, x ∈ T) → Steps oops T o (computeAll oops es o) := by
  intro es
  induction es with
  | nil => intro o _; exact Steps.refl o
  | cons e es ih =>
    intro o h
    exact steps_trans oops T _ _ _
      (Steps.compute o o e (Steps.refl o) (h e (List.mem_cons_self _ _)))
      (ih _ (fun x hx => h x (List.mem_cons_of_mem _ hx)))

theorem steps_getLastAll {σ α : Type} (oops : OracleOps σ α) (T : List Nat) :
    ∀ (es : List Nat) (o : σ), (∀ x ∈ es, x ∈ T) → Steps oops T o (getLastAll oops es o) := by
  intro es
  induction es with
  | nil => intro o _; exact Steps.refl o
  | cons e es ih =>
    intro o h
    exact steps_trans oops T _ _ _
      (Steps.get_last o o e (Steps.refl o) (h e (List.mem_cons_self _ _)))
      (ih _ (fun x hx => h x (List.mem_cons_of_mem _ hx)))

/-- Computations and look-ups for elements outside the selection keep a good state good,
and keep the selection, the objective value and the fresh cells. -/
theorem steps_good {α : Type} [LinearOrderedField α]
    {sqrt log : α → α} [Numeric sqrt log]
    {σ : Type} (n : Nat) (L : Nat → Nat → α) (oops : OracleOps σ α)
    (Good : σ → Prop) (Fresh : σ → Nat → Prop) (M : OracleMath n L oops Good Fresh)
    (T : List Nat) (o p : σ) (hg : Good o)
    (hT : ∀ x ∈ T, x < n ∧ x ∉ oops.get_solution o) (h : Steps oops T o p) :
    Good p ∧ oops.get_solution p = oops.get_solution o ∧
      oops.get_value p = oops.get_value o ∧ ∀ e, Fresh o e → Fresh p e := by
  induction h with
  | refl => exact ⟨hg, rfl, rfl, fun _ h => h⟩
  | compute p' x _ hx ih =>
    obtain ⟨i1, i2, i3, i4⟩ := ih
    have hxS : x ∉ oops.get_solution p' := by rw [i2]; exact (hT x hx).2
    refine ⟨(M.compute_good p' x i1 (hT x hx).1 hxS).1, ?_, ?_, ?_⟩
    · rw [M.law.compute_S, i2]
    · rw [M.law.compute_value, i3]
    · intro e he
      exact M.compute_fresh p' e x i1 (hT x hx).1 hxS (i4 e he)
  | get_last p' x _ hx ih =>
    obtain ⟨i1, i2, i3, i4⟩ := ih
    have hxS : x ∉ oops.get_solution p' := by rw [i2]; exact (hT x hx).2
    refine ⟨(M.get_last_good p' x i1 (hT x hx).1 hxS).1, ?_, ?_, ?_⟩
    · rw [M.law.get_last_S, i2]
    · rw [M.law.get_last_value, i3]
    · intro e he
      exact M.get_last_fresh p' e x i1 (hT x hx).1 hxS (i4 e he)

/-- The gain in a good state is the Schur complement of the selection. -/
theorem gain_good {α : Type} [LinearOrderedField α]
    {sqrt log : α → α} [Numeric sqrt log]
    {σ : Type} (n : Nat) (L : Nat → Nat → α) (oops : OracleOps σ α)
    (Good : σ → Prop) (Fresh : σ → Nat → Prop) (M : OracleMath n L oops Good Fresh)
    (o : σ) (hg : Good o) (e : Nat) (he : e < n) (heS : e ∉ oops.get_solution o) :
    gainAt oops o e = schur L (oops.get_solution o) e :=
  (M.compute_good o e hg he heS).2.2

/-- After a call that returns `e`, the oracle is good, its selection and value are as
before, and the cell of `e` is fresh. -/
theorem popOut_good {α : Type} [LinearOrderedField α]
    {sqrt log : α → α} [Numeric sqrt log]
    {τ σ : Type} (n : Nat) (L : Nat → Nat → α) (oops : OracleOps σ α)
    (Good : σ → Prop) (Fresh : σ → Nat → Prop) (M : OracleMath n L oops Good Fresh)
    (getT : τ → List Nat) (getD : τ → Bool) (SI : τ → Prop) (s : τ) (o : σ)
    (r : Option Nat) (s1 : τ) (o1 : σ) (hg : Good o)
    (hT : ∀ x ∈ getT s, x < n ∧ x ∉ oops.get_solution o)
    (h : PopOut oops getT getD SI s o r s1 o1) :
    Good o1 ∧ oops.get_solution o1 = oops.get_solution o ∧
      oops.get_value o1 = oops.get_value o ∧ ∀ e, r = some e → Fresh o1 e := by
  obtain ⟨_, _, _, h4, h5⟩ := h
  cases r with
  | none =>
    obtain ⟨_, _, hs⟩ := h4 rfl
    obtain ⟨g1, g2, g3, _⟩ := steps_good n L oops Good Fresh M _ o o1 hg hT hs
    exact ⟨g1, g2, g3, fun e he => by cases he⟩
  | some e =>
    obtain ⟨he, _, ⟨p, hs1, _, hs2⟩, _⟩ := h5 e rfl
    obtain ⟨g1, g2, g3, _⟩ := steps_good n L oops Good Fresh M _ o p hg hT hs1
    have heS : e ∉ oops.get_solution p := by rw [g2]; exact (hT e he).2
    obtain ⟨c1, c2, _⟩ := M.compute_good p e g1 (hT e he).1 heS
    have hT' : ∀ x ∈ getT s, x < n ∧
        x ∉ oops.get_solution (oops.compute_marginal_gain_exponential p e).2 := by
      intro x hx
      rw [M.law.compute_S, g2]
      exact hT x hx
    obtain ⟨k1, k2, k3, k4⟩ := steps_good n L oops Good Fresh M _ _ o1 c1 hT' hs2
    refine ⟨k1, ?_, ?_, ?_⟩
    · rw [k2, M.law.compute_S, g2]
    · rw [k3, M.law.compute_value, g3]
    · intro e' he'
      cases he'
      exact k4 e c2

end DPP

namespace DPP

theorem logdet_append {α : Type} [LinearOrderedField α]
    {sqrt log : α → α} [Numeric sqrt log]
    (n : Nat) (L : Nat → Nat → α) (hL : PosDefOn n L) (S : List Nat)
    (hS : ∀ x ∈ S, x < n) (hnd : S.Nodup) (e : Nat) (he : e < n) (heS : e ∉ S) :
    vadd (logdet log L S) (dlog log (some (schur L S e)))
      = logdet log L (S ++ [e]) := by
  have hpos := schur_pos n L hL S hS hnd e he heS
  simp only [logdet, dlog, vadd, not_lt.mpr hpos.le, hpos.ne', if_false]
  rw [det_sub_append n L hL S hS hnd e he heS,
    Numeric.log_mul _ _ (det_sub_pos n L hL S hS hnd) hpos]
  rfl

/-- The direct oracle over a positive definite kernel is what the drivers expect. -/
theorem direct_math {α : Type} [LinearOrderedField α]
    {sqrt log : α → α} [Numeric sqrt log]
    (n : Nat) (L : Nat → Nat → α) (hL : PosDefOn n L) :
    OracleMath n L (Oracle.ops log L) (Oracle.Good n L) Oracle.Fresh := by
  have hdiag : ∀ e < n, 0 ≤ L e e := fun e he => (posDefOn_diag_pos n L hL e he).le
  refine ⟨direct_law log L, ?_, ?_, ?_, ?_, ?_, ?_, ?_, ?_, ?_, ?_, ?_, ?_, ?_⟩
  · intro k b
    try dsimp only [Oracle.ops] at *
    refine ⟨⟨Oracle.direct_inv_construct L, List.nodup_nil, by simp [Oracle.ops, Oracle.construct], ?_⟩, rfl⟩
    simp [Oracle.ops, Oracle.construct, logdet, subMatrix, Matrix.det_isEmpty, numeric_log_one sqrt log]
  · intro o h; exact h.2.1
  · intro o h; exact h.2.2.1
  · intro o h; exact h.2.2.2
  · intro o e ⟨hI, hnd, hr, hv⟩ he heS
    try dsimp only [Oracle.ops] at *
    obtain ⟨c1, c2, c3, c4, c5, _, _⟩ := Oracle.direct_compute_spec L o e hI
    have hpos := schur_pos n L hL o.S hr hnd e he heS
    refine ⟨⟨c1, by rw [c2]; exact hnd, by rw [c2]; exact hr, by rw [c3, c2]; exact hv⟩, ?_, ?_⟩
    · show (Oracle.compute_marginal_gain_exponential L o e).2.u e
        = ((Oracle.compute_marginal_gain_exponential L o e).2.S.length : Int)
      rw [c5, c2]
    · show (Oracle.compute_marginal_gain_exponential L o e).1 = schur L o.S e
      rw [c4, max_eq_right hpos.le]
  · intro o e x ⟨hI, _, _, _⟩ _ _ hf
    try dsimp only [Oracle.ops] at *
    obtain ⟨_, c2, _, _, c5, _, c7⟩ := Oracle.direct_compute_spec L o x hI
    show (Oracle.compute_marginal_gain_exponential L o x).2.u e
      = ((Oracle.compute_marginal_gain_exponential L o x).2.S.length : Int)
    rw [c2]
    by_cases hex : e = x
    · rw [hex]; exact c5
    · rw [(c7 e hex).1]; exact hf
  · intro o e ⟨hI, hnd, hr, hv⟩ he heS
    try dsimp only [Oracle.ops] at *
    obtain ⟨c1, c2, c3⟩ := Oracle.direct_get_last_spec n L hdiag o e he hI
    refine ⟨⟨c1, by rw [c2]; exact hnd, by rw [c2]; exact hr, by rw [c3, c2]; exact hv⟩, ?_⟩
    show ∃ m, m ≤ o.S.length ∧
      (Oracle.get_last_marginal_gain_exponential L o e).1 = schur L (o.S.take m) e
    unfold Oracle.get_last_marginal_gain_exponential
    by_cases hu : o.u e = -1
    · rw [if_pos hu]
      exact ⟨0, Nat.zero_le _, by rw [List.take_zero, schur_nil]⟩
    · rw [if_neg hu]
      have h0 : 0 ≤ o.u e := by have := hI.u_ge e; omega
      have hle := hI.u_le e
      refine ⟨(o.u e).toNat, by omega, ?_⟩
      rw [hI.d_eq e h0]
      simp only [Option.getD_some]
      refine max_eq_right (le_of_lt ?_)
      exact schur_pos n L hL _ (fun x hx => hr x (List.mem_of_mem_take hx))
        (List.Nodup.sublist (List.take_sublist _ _) hnd) e he
        (fun hm => heS (List.mem_of_mem_take hm))
  · intro o e x _ _ _ hf
    try dsimp only [Oracle.ops] at *
    show (Oracle.get_last_marginal_gain_exponential L o x).2.u e
      = ((Oracle.get_last_marginal_gain_exponential L o x).2.S.length : Int)
    have hf' : o.u e = (o.S.length : Int) := hf
    unfold Oracle.get_last_marginal_gain_exponential
    by_cases hu : o.u x = -1
    · rw [if_pos hu]
      have hex : e ≠ x := by
        intro h
        rw [h, hu] at hf'
        omega
      simp only [Function.update_noteq hex]
      exact hf'
    · rw [if_neg hu]
      exact hf'
  · intro o e ⟨hI, hnd, hr, hv⟩ he heS hf _
    try dsimp only [Oracle.ops] at *
    have hf' : o.u e = (o.S.length : Int) := hf
    refine ⟨Oracle.direct_add_spec L log o e hI, ?_, ?_, ?_⟩
    · exact List.Nodup.append hnd (List.nodup_singleton e) (by simpa using heS)
    · intro y hy
      rcases List.mem_append.mp hy with h1 | h1
      · exact hr y h1
      · rw [List.mem_singleton.mp h1]; exact he
    · have hd := hI.d_eq e (by rw [hf']; exact Int.natCast_nonneg _)
      rw [hf', Int.toNat_ofNat, List.take_length] at hd
      have hpos := schur_pos n L hL o.S hr hnd e he heS
      rw [max_eq_right hpos.le] at hd
      show vadd o.value (dlog log (o.d e)) = logdet log L (o.S ++ [e])
      rw [hd, hv]
      exact logdet_append n L hL o.S hr hnd e he heS
  · intro o e ⟨hI, hnd, hr, hv⟩ he heS hf
    try dsimp only [Oracle.ops] at *
    have hf' : o.u e = (o.S.length : Int) := hf
    have hd := hI.d_eq e (by rw [hf']; exact Int.natCast_nonneg _)
    rw [hf', Int.toNat_ofNat, List.take_length] at hd
    have hpos := schur_pos n L hL o.S hr hnd e he heS
    rw [max_eq_right hpos.le] at hd
    show vadd o.value (dlog log (o.d e)) = _
    rw [hd]
  · intro o h
    try dsimp only [Oracle.ops] at *
    exact ⟨h, rfl⟩
  · intro o e ⟨_, hnd, hr, _⟩ he heS
    try dsimp only [Oracle.ops] at *
    exact (schur_pos n L hL o.S hr hnd e he heS).le
  · intro o e m ⟨_, hnd, hr, _⟩ he _ hm
    try dsimp only [Oracle.ops] at *
    exact schur_le_take n L hL o.S hr hnd m hm e he

/-- The fast oracle over a positive definite kernel is what the drivers expect. -/
theorem fast_math {α : Type} [LinearOrderedField α]
    {sqrt log : α → α} [Numeric sqrt log]
    (n : Nat) (L : Nat → Nat → α) (hL : PosDefOn n L)
    (V0 : Nat → Nat → Option α) :
    OracleMath n L (Fast.ops sqrt log V0 L) (Fast.Inv n L) Fast.Fresh := by
  refine ⟨fast_law sqrt log V0 L, ?_, ?_, ?_, ?_, ?_, ?_, ?_, ?_, ?_, ?_, ?_, ?_, ?_⟩
  · intro k b
    try dsimp only [Fast.ops] at *
    exact ⟨Fast.fast_inv_construct n L V0 b, rfl⟩
  · intro o h; exact h.nodup
  · intro o h; exact h.range
  · intro o h; exact h.value
  · intro o e h he heS
    try dsimp only [Fast.ops] at *
    obtain ⟨c1, c2, c3, c4, c5, c6, _⟩ := Fast.fast_compute_spec n L hL o e h he heS
    refine ⟨c1, ⟨?_, ?_⟩, c4⟩
    · rw [c5, c2]
    · rw [c6]; simp
  · intro o e x h hx hxS hf
    try dsimp only [Fast.ops] at *
    obtain ⟨_, c2, _, _, c5, c6, c7⟩ := Fast.fast_compute_spec n L hL o x h hx hxS
    by_cases hex : e = x
    · rw [hex]
      exact ⟨by rw [c5, c2], by rw [c6]; simp⟩
    · exact ⟨by rw [(c7 e hex).1, c2]; exact hf.1, by rw [(c7 e hex).2]; exact hf.2⟩
  · intro o e h he heS
    try dsimp only [Fast.ops] at *
    refine ⟨Fast.fast_inv_get_last n L o e h, ?_⟩
    show ∃ m, m ≤ o.S.length ∧
      (Fast.get_last_marginal_gain_exponential L o e).1 = schur L (o.S.take m) e
    unfold Fast.get_last_marginal_gain_exponential
    cases hd : o.d e with
    | none => exact ⟨0, Nat.zero_le _, by rw [List.take_zero, schur_nil]⟩
    | some y =>
      refine ⟨o.u e, h.u_le e, ?_⟩
      rw [schur_take_eq_chol n L hL o.S h.range h.nodup (o.u e) (h.u_le e) e he]
      exact h.d_some e y heS hd
  · intro o e x h _ _ hf
    try dsimp only [Fast.ops] at *
    obtain ⟨f1, f2, _, _, f5, f6⟩ := Fast.fast_get_last_frame L o x
    refine ⟨by rw [f2, f1]; exact hf.1, ?_⟩
    by_cases hex : e = x
    · rw [hex, f5]; simp
    · rw [f6 e hex]; exact hf.2
  · intro o e h he heS hf _
    try dsimp only [Fast.ops] at *
    exact (Fast.fast_add_spec n L hL o e h he heS hf.1 hf.2).1
  · intro o e h he heS hf
    try dsimp only [Fast.ops] at *
    obtain ⟨_, hd⟩ := Fast.fast_add_spec n L hL o e h he heS hf.1 hf.2
    show vadd o.value (dlog log (o.d e)) = _
    rw [hd]
  · intro o h
    try dsimp only [Fast.ops] at *
    exact ⟨⟨h.nodup, h.range, h.u_le, h.V_eq, h.d_none, h.d_some, h.committed, h.value⟩, rfl⟩
  · intro o e h he heS
    try dsimp only [Fast.ops] at *
    exact (schur_pos n L hL o.S h.range h.nodup e he heS).le
  · intro o e m h he _ hm
    try dsimp only [Fast.ops] at *
    exact schur_le_take n L hL o.S h.range h.nodup m hm e he

end DPP

namespace DPP

theorem fill_state {σ α : Type} (oops : OracleOps σ α) :
    ∀ (es : List Nat) (o : σ), (NonLazy.fill oops es o).2 = computeAll oops es o := by
  intro es
  induction es with
  | nil => intro o; rfl
  | cons e es ih =>
    intro o
    simp only [NonLazy.fill]
    rw [ih]
    rfl

theorem scan_state {σ α : Type} [LinearOrderedField α] (oops : OracleOps σ α) :
    ∀ (es : List Nat) (h : List (ElementValuePair α)) (o : σ),
      (NonLazy.scan oops es h o).2 = computeAll oops es o := by
  intro es
  induction es with
  | nil => intro h o; rfl
  | cons e es ih =>
    intro h o
    simp only [NonLazy.scan]
    cases hm : heapMin h with
    | none =>
      simp only []
      rw [ih]
      rfl
    | some m =>
      simp only []
      split
      · rw [ih]; rfl
      · rw [ih]; rfl

/-- The oracle after a call of `NonLazy::pop_kth_largest(i)` with `i < |T|` has computed
the elements of `T` in their order. -/
theorem nonlazy_pop_kth_state {σ α : Type} [LinearOrderedField α] (oops : OracleOps σ α)
    (s : NonLazy.Instance) (o : σ) (i : Nat) (hi : i < s.T.length) (r : Option Nat)
    (s1 : NonLazy.Instance) (o1 : σ)
    (hok : NonLazy.pop_kth_largest oops s o i = .ok (r, s1, o1)) :
    o1 = computeAll oops s.T o := by
  have hst : (NonLazy.scan oops (s.T.drop (i + 1)) (NonLazy.fill oops (s.T.take (i + 1)) o).1
      (NonLazy.fill oops (s.T.take (i + 1)) o).2).2 = computeAll oops s.T o := by
    rw [scan_state, fill_state, ← computeAll_append, List.take_append_drop]
  unfold NonLazy.pop_kth_largest at hok
  have ha : (!(s.add_dummy || decide (i < s.T.length))) = false := by simp [hi]
  have hb : (s.add_dummy && decide (s.T.length ≤ i)) = false := by simp [not_le.mpr hi]
  simp only [ha, hb, Bool.false_eq_true, if_false] at hok
  cases hm : heapMin (NonLazy.scan oops (s.T.drop (i + 1))
      (NonLazy.fill oops (s.T.take (i + 1)) o).1 (NonLazy.fill oops (s.T.take (i + 1)) o).2).1 with
  | none =>
    rw [hm] at hok
    cases hok
  | some root =>
    rw [hm] at hok
    simp only [] at hok
    by_cases hc : (s.add_dummy && decide (root.value ≤ 1)) = true
    · rw [if_pos hc] at hok
      simp only [Except.ok.injEq, Prod.mk.injEq] at hok
      rw [← hok.2.2, hst]
    · rw [if_neg hc] at hok
      unfold NonLazy.remove at hok
      by_cases hmem : root.element ∈ s.T
      · rw [if_pos hmem] at hok
        simp only [Except.ok.injEq, Prod.mk.injEq] at hok
        rw [← hok.2.2, hst]
      · rw [if_neg hmem] at hok
        cases hok

theorem steps_split {σ α : Type} [LinearOrderedField α] (oops : OracleOps σ α)
    (law : OracleLaw oops) (T : List Nat) (o : σ) (hTS : ∀ x ∈ T, x ∉ oops.get_solution o)
    (e : Nat) (he : e ∈ T) :
    ∃ p, Steps oops T o p ∧ gainAt oops p e = gainAt oops o e ∧
      Steps oops T (oops.compute_marginal_gain_exponential p e).2 (computeAll oops T o) := by
  obtain ⟨l1, l2, hl⟩ := List.append_of_mem he
  have hl1 : ∀ x ∈ l1, x ∈ T := fun x hx => by rw [hl]; exact List.mem_append_left _ hx
  refine ⟨computeAll oops l1 o, ?_, ?_, ?_⟩
  · exact steps_computeAll oops T l1 o hl1
  · exact (gainEq_computeAll oops law o l1 o (gainEq_refl oops o)
      (fun x hx => hTS x (hl1 x hx))).2.2 e
  · have : computeAll oops T o
        = computeAll oops l2 (oops.compute_marginal_gain_exponential (computeAll oops l1 o) e).2 := by
      conv_lhs => rw [hl, computeAll_append]
      rfl
    rw [this]
    exact steps_computeAll oops T l2 _ (fun x hx => by
      rw [hl]; exact List.mem_append_right _ (List.mem_cons_of_mem _ hx))

theorem steps_split_last {σ α : Type} [LinearOrderedField α] (oops : OracleOps σ α)
    (law : OracleLaw oops) (T : List Nat) (o : σ) (hTS : ∀ x ∈ T, x ∉ oops.get_solution o)
    (es : List Nat) (hes : ∀ x ∈ es, x ∈ T) (e : Nat) (he : es.getLast? = some e) :
    ∃ p, Steps oops T o p ∧ gainAt oops p e = gainAt oops o e ∧
      (oops.compute_marginal_gain_exponential p e).2 = computeAll oops es o := by
  obtain ⟨l, hl⟩ : ∃ l, es = l ++ [e] := by
    rcases List.eq_nil_or_concat es with h | ⟨l, b, h⟩
    · rw [h] at he; simp at he
    · refine ⟨l, ?_⟩
      rw [h] at he ⊢
      simp at he
      rw [he]
      simp
  have hl1 : ∀ x ∈ l, x ∈ T := fun x hx => hes x (by rw [hl]; exact List.mem_append_left _ hx)
  refine ⟨computeAll oops l o, ?_, ?_, ?_⟩
  · exact steps_computeAll oops T l o hl1
  · exact (gainEq_computeAll oops law o l o (gainEq_refl oops o)
      (fun x hx => hTS x (hl1 x hx))).2.2 e
  · rw [hl, computeAll_append]
    rfl

/-- The non-lazy strategy is what the drivers expect. -/
theorem nonlazy_law {σ α : Type} [LinearOrderedField α] (n : Nat) (oops : OracleOps σ α)
    (law : OracleLaw oops) (Good : σ → Prop) (ord : List Nat → List Nat) (hord : SetOrder ord) :
    StrategyLaw n oops Good (NonLazy.ops ord oops) (fun s => s.T) (fun s => s.add_dummy)
      (fun _ => True) (NonLazy.Dead oops) := by
  have hpop : ∀ (s : NonLazy.Instance) (o : σ) (i : Nat), s.T.Nodup →
      (∀ e ∈ s.T, e < n ∧ e ∉ oops.get_solution o) →
      (s.add_dummy = true ∨ i < s.T.length) →
      ∃ r s1 o1, NonLazy.pop_kth_largest oops s o i = .ok (r, s1, o1) ∧
        PopOut oops (fun s : NonLazy.Instance => s.T) (fun s => s.add_dummy) (fun _ => True)
          s o r s1 o1 ∧
        (i = 0 → (r = none → NonLazy.Dead oops s1 o1) ∧ (NonLazy.Dead oops s o → r = none)) := by
    intro s o i hnd hT hassert
    have hTS : ∀ e ∈ s.T, e ∉ oops.get_solution o := fun e he => (hT e he).2
    by_cases hi : i < s.T.length
    · obtain ⟨e, o1, he, hrank, hg, heq⟩ := nonlazy_pop_kth_spec oops law s o i hnd hTS hi
      by_cases hc : (s.add_dummy && decide (gainAt oops o e ≤ 1)) = true
      · rw [if_pos hc] at heq
        have hst := nonlazy_pop_kth_state oops s o i hi _ _ _ heq
        simp only [Bool.and_eq_true, decide_eq_true_eq] at hc
        refine ⟨none, s, o1, heq, ⟨rfl, trivial, hnd, ?_, ?_⟩, ?_⟩
        · intro _
          refine ⟨hc.1, fun x => Iff.rfl, ?_⟩
          rw [hst]
          exact steps_computeAll oops s.T s.T o (fun x hx => hx)
        · intro e' h'
          cases h'
        · intro h0
          refine ⟨fun _ => ⟨hc.1, ?_⟩, fun _ => rfl⟩
          intro x hx
          rw [hg.2.2 x]
          rw [h0] at hrank
          exact le_trans (rank_zero_max _ _ _ hrank x hx) hc.2
      · rw [if_neg hc] at heq
        have hst := nonlazy_pop_kth_state oops s o i hi _ _ _ heq
        refine ⟨some e, _, o1, heq, ⟨rfl, trivial, hnd.erase e, ?_, ?_⟩, ?_⟩
        · intro h'
          cases h'
        · intro e' h'
          cases h'
          refine ⟨he, ?_, ?_, ?_⟩
          · intro x
            show x ∈ s.T.erase e ↔ x ∈ s.T ∧ x ≠ e
            rw [hnd.mem_erase_iff]
            exact and_comm
          · rw [hst]
            exact steps_split oops law s.T o hTS e he
          · intro hd
            by_contra hle
            apply hc
            simp only [Bool.and_eq_true, decide_eq_true_eq]
            exact ⟨hd, not_lt.mp hle⟩
        · intro h0
          refine ⟨?_, ?_⟩
          · intro h'
            cases h'
          intro hdead
          exfalso
          apply hc
          simp only [Bool.and_eq_true, decide_eq_true_eq]
          exact ⟨hdead.1, hdead.2 e he⟩
    · have hd : s.add_dummy = true := by
        rcases hassert with h | h
        · exact h
        · exact absurd h hi
      have hle : s.T.length ≤ i := Nat.le_of_not_lt hi
      refine ⟨none, s, o, ?_, ⟨rfl, trivial, hnd, ?_, ?_⟩, ?_⟩
      · unfold NonLazy.pop_kth_largest
        simp [hd, hle]
      · intro _
        exact ⟨hd, fun x => Iff.rfl, Steps.refl o⟩
      · intro e' h'
        cases h'
      · intro h0
        refine ⟨fun _ => ⟨hd, ?_⟩, fun _ => rfl⟩
        have hnil : s.T = [] := by
          rw [h0] at hle
          exact List.length_eq_zero.mp (Nat.le_zero.mp hle)
        intro x hx
        rw [hnil] at hx
        cases hx
  refine ⟨?_, ?_, ?_, ?_⟩
  · intro range b o _ _ _
    exact ⟨(hord range).1, (hord range).2, rfl, trivial, Steps.refl o⟩
  · intro s o i _ _ hnd hT hassert
    obtain ⟨r, s1, o1, h1, h2, _⟩ := hpop s o i hnd hT hassert
    exact ⟨r, s1, o1, h1, h2⟩
  · intro s o _ _ hnd hT hassert
    obtain ⟨r, s1, o1, h1, h2, h3⟩ := hpop s o 0 hnd hT (by
      rcases hassert with h | h
      · exact Or.inl h
      · exact Or.inr (List.length_pos.mpr h))
    exact ⟨r, s1, o1, h1, h2, (h3 rfl).1, (h3 rfl).2⟩
  · intro s e _ he
    refine ⟨{ s with T := s.T.erase e }, ?_, rfl, rfl, trivial, ?_⟩
    · show NonLazy.remove s e = _
      unfold NonLazy.remove
      rw [if_pos he]
    · intro o hdead
      exact ⟨hdead.1, fun x hx => hdead.2 x (List.mem_of_mem_erase hx)⟩

end DPP

namespace DPP

/-- A call of the loop of `Lazy::pop_largest` that returns nothing leaves no heap entry
above `1`. -/
theorem lazy_loop_none {σ α : Type} [LinearOrderedField α] (oops : OracleOps σ α) :
    ∀ (fuel : Nat) (s : Lazy.Instance α) (o : σ) (s1 : Lazy.Instance α) (o1 : σ),
      Lazy.pop_largest_loop oops fuel s o = .ok (none, s1, o1) →
      s1.add_dummy = true ∧ ∀ p ∈ s1.Q, p.value ≤ 1 := by
  intro fuel
  induction fuel with
  | zero =>
    intro s o s1 o1 h
    simp [Lazy.pop_largest_loop] at h
  | succ fuel ih =>
    intro s o s1 o1 h
    unfold Lazy.pop_largest_loop at h
    cases ht : heapTop s.Q with
    | none =>
      rw [ht] at h
      simp only [] at h
      by_cases hd : s.add_dummy = true
      · rw [if_pos hd] at h
        simp only [Except.ok.injEq, Prod.mk.injEq, true_and] at h
        rw [← h.1]
        refine ⟨hd, ?_⟩
        rw [(heapTop_none s.Q).mp ht]
        intro p hp
        cases hp
      · rw [if_neg hd] at h
        cases h
    | some top =>
      rw [ht] at h
      simp only [] at h
      obtain ⟨_, hmax⟩ := heapTop_spec s.Q top ht
      by_cases hc : (s.add_dummy && decide (top.value ≤ 1)) = true
      · rw [if_pos hc] at h
        simp only [Except.ok.injEq, Prod.mk.injEq, true_and] at h
        rw [← h.1]
        simp only [Bool.and_eq_true, decide_eq_true_eq] at hc
        refine ⟨hc.1, ?_⟩
        intro p hp
        exact le_trans (less_value_le (hmax p hp)) hc.2
      · rw [if_neg hc] at h
        by_cases hT : top.element ∉ s.T
        · rw [if_pos hT] at h
          exact ih _ _ _ _ h
        · rw [if_neg hT] at h
          by_cases hcm : Lazy.commit (s.Q.erase top)
              (oops.compute_marginal_gain_exponential o top.element).1 = true
          · rw [if_pos hcm] at h
            by_cases hv : (s.add_dummy &&
                decide ((oops.compute_marginal_gain_exponential o top.element).1 ≤ 1)) = true
            · rw [if_pos hv] at h
              simp only [Except.ok.injEq, Prod.mk.injEq, true_and] at h
              rw [← h.1]
              simp only [Bool.and_eq_true, decide_eq_true_eq] at hv
              refine ⟨hv.1, ?_⟩
              intro p hp
              unfold Lazy.commit at hcm
              cases ht2 : heapTop (s.Q.erase top) with
              | none =>
                rw [(heapTop_none _).mp ht2] at hp
                cases hp
              | some t =>
                rw [ht2] at hcm
                simp only [decide_eq_true_eq] at hcm
                obtain ⟨_, hmax2⟩ := heapTop_spec _ t ht2
                exact le_trans (less_value_le (hmax2 p hp)) (le_trans hcm hv.2)
            · rw [if_neg hv] at h
              simp at h
          · rw [if_neg hcm] at h
            exact ih _ _ _ _ h

/-- A lazy strategy whose heap holds no value above `1` returns nothing. -/
theorem lazy_dead_pop {σ α : Type} [LinearOrderedField α] (oops : OracleOps σ α)
    (s : Lazy.Instance α) (o : σ) (hd : s.add_dummy = true) (hq : ∀ p ∈ s.Q, p.value ≤ 1) :
    Lazy.pop_largest oops s o = .ok (none, s, o) := by
  unfold Lazy.pop_largest Lazy.pop_largest_loop
  cases ht : heapTop s.Q with
  | none =>
    simp only []
    rw [if_pos hd]
  | some top =>
    simp only []
    obtain ⟨hmem, _⟩ := heapTop_spec s.Q top ht
    have hc : (s.add_dummy && decide (top.value ≤ 1)) = true := by
      simp only [Bool.and_eq_true, decide_eq_true_eq]
      exact ⟨hd, hq top hmem⟩
    rw [if_pos hc]

/-- The lazy strategy is what the drivers expect. -/
theorem lazy_law {σ α : Type} [LinearOrderedField α] (n : Nat) (oops : OracleOps σ α)
    (law : OracleLaw oops) (Good : σ → Prop) (ord : List Nat → List Nat) (hord : SetOrder ord) :
    StrategyLaw n oops Good (Lazy.ops ord oops) (fun s => s.T) (fun s => s.add_dummy)
      Lazy.SI Lazy.Dead := by
  refine ⟨?_, ?_, ?_, ?_⟩
  · intro range b o _ _ _
    obtain ⟨e1, e2⟩ := lazy_entries_spec oops (ord range) o
    refine ⟨(hord range).1, (hord range).2, rfl, ?_, ?_⟩
    · intro _ e he
      have he' : e ∈ ord range := he
      rw [← e1] at he'
      obtain ⟨p, hp, hpe⟩ := List.mem_map.mp he'
      exact ⟨p, hp, hpe⟩
    · show Steps oops range o (Lazy.entries oops (ord range) o).2
      rw [e2]
      exact steps_getLastAll oops range (ord range) o (fun x hx => ((hord range).2 x).mp hx)
  · intro s o i _ hSI hnd hT hassert
    have hTS : ∀ e ∈ s.T, e ∉ oops.get_solution o := fun e he => (hT e he).2
    obtain ⟨r, s1, o1, p1, p2, p3, p4, p5, p6, ⟨es, rec, e1, e2, e3, e4⟩⟩ :=
      lazy_pop_kth_spec oops law o s o i (gainEq_refl oops o) hnd hTS hSI hassert
    refine ⟨r, s1, o1, p1, p2, ?_, p3, ?_, ?_⟩
    · intro hd
      rw [p2] at hd
      exact p6 hd
    · intro hr
      obtain ⟨a1, a2⟩ := p5 hr
      refine ⟨a2, fun x => ⟨fun h => a1.symm.subset h, fun h => a1.subset h⟩, ?_⟩
      rw [e3]
      exact steps_trans oops _ _ _ _ (steps_computeAll oops s.T es o e1)
        (steps_getLastAll oops s.T rec _ e2)
    · intro e he
      obtain ⟨a1, a2⟩ := p4 e he
      have hnd2 : (e :: s1.T).Nodup := a1.nodup_iff.mp hnd
      refine ⟨a1.symm.subset (List.mem_cons_self _ _), ?_, ?_, a2⟩
      · intro x
        constructor
        · intro hx
          refine ⟨a1.symm.subset (List.mem_cons_of_mem _ hx), ?_⟩
          intro hxe
          rw [hxe] at hx
          exact (List.nodup_cons.mp hnd2).1 hx
        · intro ⟨hx, hxe⟩
          rcases List.mem_cons.mp (a1.subset hx) with h | h
          · exact absurd h hxe
          · exact h
      · obtain ⟨p, q1, qg, q2⟩ := steps_split_last oops law s.T o hTS es e1 e (e4 e he).1
        refine ⟨p, q1, qg, ?_⟩
        rw [q2, e3]
        exact steps_getLastAll oops s.T rec _ e2
  · intro s o _ hSI hnd hT hassert
    have hTS : ∀ e ∈ s.T, e ∉ oops.get_solution o := fun e he => (hT e he).2
    obtain ⟨r, s1, o1, hok, hpost⟩ := lazy_pop_largest_spec oops law o s o (gainEq_refl oops o)
      hnd hTS (by
        intro hd
        refine ⟨hSI hd, ?_⟩
        rcases hassert with h | h
        · rw [hd] at h; cases h
        · exact h)
    obtain ⟨t1, t2, t3⟩ := popPost_T oops _ s o r s1 o1 hnd hpost
    obtain ⟨⟨es, f1, f2, f3⟩, r2, _, r4, r5, r6⟩ := hpost
    refine ⟨r, s1, o1, hok, ⟨r2, ?_, t1, ?_, ?_⟩, ?_, ?_⟩
    · intro hd
      rw [r2] at hd
      exact r4 hd (hSI hd)
    · intro hr
      obtain ⟨a1, a2⟩ := r6 hr
      refine ⟨a1, fun x => by show x ∈ s1.T ↔ x ∈ s.T; rw [a2], ?_⟩
      rw [f2]
      exact steps_computeAll oops s.T es o f1
    · intro e he
      obtain ⟨a1, a2, a3, _⟩ := r5 e he
      refine ⟨a1, ?_, ?_, a3⟩
      · intro x
        show x ∈ s1.T ↔ x ∈ s.T ∧ x ≠ e
        rw [a2, hnd.mem_erase_iff]
        exact and_comm
      · obtain ⟨p, q1, qg, q2⟩ := steps_split_last oops law s.T o hTS es f1 e (f3 e he)
        refine ⟨p, q1, qg, ?_⟩
        rw [q2, f2]
        exact Steps.refl _
    · intro hr
      rw [hr] at hok
      exact lazy_loop_none oops _ s o s1 o1 hok
    · intro hdead
      have h2 := lazy_dead_pop oops s o hdead.1 hdead.2
      have h3 : Lazy.pop_largest oops s o = .ok (r, s1, o1) := hok
      rw [h2] at h3
      simp only [Except.ok.injEq, Prod.mk.injEq] at h3
      exact h3.1.symm
  · intro s e hSI he
    refine ⟨{ s with T := s.T.erase e }, ?_, rfl, rfl, ?_, ?_⟩
    · show Lazy.remove s e = _
      unfold Lazy.remove
      rw [if_pos he]
    · intro hd x hx
      exact hSI hd x (List.mem_of_mem_erase hx)
    · intro o hdead
      exact hdead

end DPP

namespace DPP

theorem exists_fresh_element (n : Nat) (S : List Nat) (h : S.length < n) :
    ∃ x, x < n ∧ x ∉ S := by
  by_contra hc
  have hsub : Finset.range n ⊆ S.toFinset := by
    intro x hx
    rw [List.mem_toFinset]
    by_contra hxS
    exact hc ⟨x, Finset.mem_range.mp hx, hxS⟩
  have h1 := Finset.card_le_card hsub
  rw [Finset.card_range] at h1
  have h2 := List.toFinset_card_le S
  omega

theorem logdet_nil {α : Type} [LinearOrderedField α]
    {sqrt log : α → α} [Numeric sqrt log]
    (L : Nat → Nat → α) :
    logdet log L [] = some ((0 : α) : WithBot α) := by
  simp [logdet, subMatrix, Matrix.det_isEmpty, numeric_log_one sqrt log]

/-- The method `operator[]` on the records of a selection sequence: the prefix of the
sequence, with its objective value. -/
theorem records_get {α : Type} [LinearOrderedField α]
    {sqrt log : α → α} [Numeric sqrt log]
    (L : Nat → Nat → α) (res : GreedyResult α) (S : List Nat)
    (h : GreedyResult.Records L res S) (j : Nat) :
    ∃ r, res.get j = .ok r ∧ r.solution = S.take (if j ≤ S.length then j else 0) ∧
      r.value = logdet log L r.solution ∧ (r.finished = decide (j ≤ S.length)) := by
  -- The loop of `operator[]` on the records of a selection sequence.
  have records_sol {α : Type} [LinearOrderedField α]
      {sqrt log : α → α} [Numeric sqrt log]
      (L : Nat → Nat → α) (res : GreedyResult α) (S : List Nat)
      (h : GreedyResult.Records L res S) :
      ∀ j, j ≤ S.length → GreedyResult.sol res j = .ok (S.take j) := by
    intro j
    induction j with
    | zero => intro _; rfl
    | succ j ih =>
      intro hj
      obtain ⟨p, p1, _, p3⟩ := h.2.2 (j + 1) hj
      have hp := p3 j rfl
      simp only [GreedyResult.sol, ih (by omega), p1]
      cases p with
      | mk el va =>
        simp only [] at hp
        subst hp
        simp only []
        congr 1
        rw [List.take_succ]
        congr 1
        have hjl : j < S.length := by omega
        simp [List.getD_eq_getElem?_getD, List.getElem?_eq_getElem hjl]
  unfold GreedyResult.get GreedyResult.size
  by_cases hj : j ≤ S.length
  · have hs : ¬ res.measurements.length ≤ j := by rw [h.2.1]; omega
    rw [if_neg hs, records_sol L res S h j hj]
    obtain ⟨p, p1, p2, _⟩ := h.2.2 j hj
    rw [p1]
    have hm : ∃ m, res.measurements.get? j = some m := by
      have hlt : j < res.measurements.length := by omega
      exact ⟨res.measurements.get ⟨j, hlt⟩, List.get?_eq_get hlt⟩
    obtain ⟨m, hm⟩ := hm
    rw [hm]
    refine ⟨_, rfl, ?_, ?_, ?_⟩
    · simp [hj]
    · exact p2
    · simp [hj]
  · have hs : res.measurements.length ≤ j := by rw [h.2.1]; omega
    rw [if_pos hs]
    refine ⟨_, rfl, ?_, ?_, ?_⟩
    · simp [hj, Result.unfinished]
    · simp only [Result.unfinished]
      rw [logdet_nil]
    · simp [hj, Result.unfinished]

end DPP

namespace DPP

/-- The function `greedy` over a positive definite kernel, for a strategy and an oracle
that are what the drivers expect. -/
theorem greedy_spec {α : Type} [LinearOrderedField α]
    {sqrt log : α → α} [Numeric sqrt log]
    {τ σ : Type} (n : Nat) (L : Nat → Nat → α) (hL : PosDefOn n L)
    (oops : OracleOps σ α) (Good : σ → Prop) (Fresh : σ → Nat → Prop)
    (M : OracleMath n L oops Good Fresh) (sops : StrategyOps τ σ α) (getT : τ → List Nat)
    (getD : τ → Bool) (SI : τ → Prop) (Dead : τ → σ → Prop)
    (SL : StrategyLaw n oops Good sops getT getD SI Dead)
    (J : τ → List Nat → Prop) (Sel : List Nat → Nat → Prop)
    (hstep : ∀ s o e s1 o1, Good o → SI s → getD s = false → (getT s).Nodup →
      (∀ x, x ∈ getT s ↔ (x < n ∧ x ∉ oops.get_solution o)) → J s (oops.get_solution o) →
      sops.pop_largest s o = .ok (some e, s1, o1) → e ∈ getT s →
      Sel (oops.get_solution o) e ∧ J s1 (oops.get_solution o ++ [e]))
    (k : Nat) (hk : k ≤ n) (param : Param α) (clock : Nat → α)
    (hJ0 : J (sops.construct (List.range n) false
      (oops.construct k param.log_computed_offdiagonals_V)).1 []) :
    ∃ out S, greedy sops oops n k param clock = .ok out ∧
      GreedyResult.Records L out S ∧ S.Nodup ∧ (∀ x ∈ S, x < n) ∧
      S.length = greedy_len param clock k 0 ∧ out.finished = greedy_fin param clock k 0 ∧
      ∀ j, j < S.length → Sel (S.take j) (S.getD j 0) := by
  -- The loop of `greedy` over a positive definite kernel: it returns, its records are those
  -- of a selection sequence that extends the current selection by one element per iteration,
  -- and every element it selects satisfies what the strategy guarantees of its choice.
  have greedy_loop_spec {α : Type} [LinearOrderedField α]
      {sqrt log : α → α} [Numeric sqrt log]
      {τ σ : Type} (n : Nat) (L : Nat → Nat → α) (hL : PosDefOn n L)
      (oops : OracleOps σ α) (Good : σ → Prop) (Fresh : σ → Nat → Prop)
      (M : OracleMath n L oops Good Fresh) (sops : StrategyOps τ σ α) (getT : τ → List Nat)
      (getD : τ → Bool) (SI : τ → Prop) (Dead : τ → σ → Prop)
      (SL : StrategyLaw n oops Good sops getT getD SI Dead)
      (J : τ → List Nat → Prop) (Sel : List Nat → Nat → Prop)
      (hstep : ∀ s o e s1 o1, Good o → SI s → getD s = false → (getT s).Nodup →
        (∀ x, x ∈ getT s ↔ (x < n ∧ x ∉ oops.get_solution o)) → J s (oops.get_solution o) →
        sops.pop_largest s o = .ok (some e, s1, o1) → e ∈ getT s →
        Sel (oops.get_solution o) e ∧ J s1 (oops.get_solution o ++ [e]))
      (param : Param α) (clock : Nat → α) :
      ∀ (m t : Nat) (s : τ) (o : σ) (res : GreedyResult α), Good o → SI s → getD s = false →
        (getT s).Nodup → (∀ x, x ∈ getT s ↔ (x < n ∧ x ∉ oops.get_solution o)) →
        J s (oops.get_solution o) → (oops.get_solution o).length + m ≤ n →
        GreedyResult.Records L res (oops.get_solution o) →
        ∃ out S, greedy_loop sops oops param clock m t s o res = .ok out ∧
          GreedyResult.Records L out S ∧ S.Nodup ∧ (∀ x ∈ S, x < n) ∧
          S.take (oops.get_solution o).length = oops.get_solution o ∧
          S.length = (oops.get_solution o).length + greedy_len param clock m t ∧
          (res.finished = false → out.finished = greedy_fin param clock m t) ∧
          ∀ j, (oops.get_solution o).length ≤ j → j < S.length →
            Sel (S.take j) (S.getD j 0) := by
    have records_add {α : Type} [LinearOrderedField α]
        {sqrt log : α → α} [Numeric sqrt log]
        (L : Nat → Nat → α) (res : GreedyResult α) (S : List Nat) (e : Nat)
        (v : Value α) (time : α) (a b c : Nat) (l : List (Nat × Nat))
        (h : GreedyResult.Records L res S) (hv : v = logdet log L (S ++ [e])) :
        GreedyResult.Records L (res.add (some e) v time a b c l) (S ++ [e]) := by
      obtain ⟨h1, h2, h3⟩ := h
      refine ⟨?_, ?_, ?_⟩
      · simp [GreedyResult.add, h1]
      · simp [GreedyResult.add, h2]
      · intro j hj
        rw [List.length_append, List.length_singleton] at hj
        by_cases hjl : j ≤ S.length
        · obtain ⟨p, p1, p2, p3⟩ := h3 j hjl
          refine ⟨p, ?_, ?_, ?_⟩
          · simp only [GreedyResult.add]
            rw [List.get?_eq_getElem?, List.getElem?_append_left (by omega), ← List.get?_eq_getElem?]
            exact p1
          · rw [List.take_append_of_le_length hjl]
            exact p2
          · intro i hi
            rw [p3 i hi, List.getD_append _ _ _ _ (by omega)]
        · have hje : j = S.length + 1 := by omega
          subst hje
          refine ⟨{ element := some e, value := v }, ?_, ?_, ?_⟩
          · simp only [GreedyResult.add]
            rw [List.get?_eq_getElem?, List.getElem?_append_right (by omega)]
            simp [h1]
          · rw [hv, List.take_of_length_le (by simp)]
          · intro i hi
            have : i = S.length := by omega
            subst this
            simp [List.getD_eq_getElem?_getD]
    intro m
    induction m with
    | zero =>
      intro t s o res hg _ _ _ _ _ _ hrec
      refine ⟨{ res with finished := true }, oops.get_solution o, rfl, hrec, M.good_nodup o hg,
        M.good_range o hg, List.take_length _, rfl, fun _ => rfl, ?_⟩
      intro j h1 h2
      omega
    | succ m ih =>
      intro t s o res hg hSI hD hnd hT hJ hlen hrec
      obtain ⟨x0, hx0, hx0S⟩ := exists_fresh_element n (oops.get_solution o) (by omega)
      have hne : getT s ≠ [] := List.ne_nil_of_mem ((hT x0).mpr ⟨hx0, hx0S⟩)
      have hT' : ∀ e ∈ getT s, e < n ∧ e ∉ oops.get_solution o := fun e he => (hT e).mp he
      obtain ⟨r, s1, o1, hok, hpo, _, _⟩ := SL.pop_spec s o hg hSI hnd hT' (Or.inr hne)
      obtain ⟨g1, g2, g3, g4⟩ :=
        popOut_good n L oops Good Fresh M getT getD SI s o r s1 o1 hg hT' hpo
      obtain ⟨q1, q2, q3, q4, q5⟩ := hpo
      cases r with
      | none =>
        have := (q4 rfl).1
        rw [hD] at this
        cases this
      | some e =>
        obtain ⟨heT, hmem, _, _⟩ := q5 e rfl
        obtain ⟨he, heS⟩ := hT' e heT
        obtain ⟨hsel, hJ1⟩ := hstep s o e s1 o1 hg hSI hD hnd hT hJ hok heT
        have heS1 : e ∉ oops.get_solution o1 := by rw [g2]; exact heS
        have hpos : 0 < schur L (oops.get_solution o1) e := by
          rw [g2]
          exact schur_pos n L hL _ (M.good_range o hg) (M.good_nodup o hg) e he heS
        have hg2 : Good (oops.add o1 e) := M.add_good o1 e g1 he heS1 (g4 e rfl) hpos
        have hS2 : oops.get_solution (oops.add o1 e) = oops.get_solution o ++ [e] := by
          rw [M.law.add_S, g2]
        have hv2 : oops.get_value (oops.add o1 e)
            = logdet log L (oops.get_solution o ++ [e]) := by
          rw [M.good_value _ hg2, hS2]
        have hrec1 := records_add L res (oops.get_solution o) e (oops.get_value (oops.add o1 e))
          (clock t) 0 (oops.get_num_oracle_calls (oops.add o1 e))
          (oops.get_num_computed_offdiagonals_V (oops.add o1 e))
          (oops.get_computed_offdiagonals_V (oops.add o1 e)) hrec hv2
        have hninf : isNegInf (oops.get_value (oops.add o1 e)) = false := by
          rw [hv2]; rfl
        rw [greedy_loop]
        simp only [hok, hninf, Bool.or_false]
        by_cases hexp : expired param (clock t) = true
        · rw [if_pos hexp]
          refine ⟨_, oops.get_solution o ++ [e], rfl, hrec1, ?_, ?_, ?_, ?_, ?_, ?_⟩
          · rw [← hS2]; exact M.good_nodup _ hg2
          · rw [← hS2]; exact M.good_range _ hg2
          · rw [List.take_left']
            rfl
          · simp [greedy_len, hexp]
          · intro hf
            simp only [greedy_fin, hexp, if_true]
            exact hf
          · intro j h1 h2
            rw [List.length_append, List.length_singleton] at h2
            have hj : j = (oops.get_solution o).length := by omega
            subst hj
            rw [List.take_left' rfl]
            simpa [List.getD_eq_getElem?_getD] using hsel
        · rw [if_neg hexp]
          obtain ⟨hg3, hS3⟩ : Good (if param.log_computed_offdiagonals_V = true then
                oops.clear_computed_offdiagonals_V (oops.add o1 e) else oops.add o1 e) ∧
              oops.get_solution (if param.log_computed_offdiagonals_V = true then
                oops.clear_computed_offdiagonals_V (oops.add o1 e) else oops.add o1 e)
                = oops.get_solution o ++ [e] := by
            by_cases hlog : param.log_computed_offdiagonals_V = true
            · rw [if_pos hlog]
              exact ⟨(M.clear_good _ hg2).1, by rw [(M.clear_good _ hg2).2, hS2]⟩
            · rw [if_neg hlog]
              exact ⟨hg2, hS2⟩
          have hT3 : ∀ x, x ∈ getT s1 ↔ (x < n ∧ x ∉ oops.get_solution
              (if param.log_computed_offdiagonals_V = true then
                oops.clear_computed_offdiagonals_V (oops.add o1 e) else oops.add o1 e)) := by
            intro x
            rw [hS3, hmem x, hT x]
            simp only [List.mem_append, List.mem_singleton, not_or]
            exact and_assoc
          obtain ⟨out, S, o1', o2', o3', o4', o5', o6', o7', o8'⟩ :=
            ih (t + 1) s1 _ _ hg3 q2 (by rw [q1]; exact hD) q3 hT3 (by rw [hS3]; exact hJ1)
              (by rw [hS3, List.length_append, List.length_singleton]; omega)
              (by rw [hS3]; exact hrec1)
          rw [hS3] at o5' o6' o8'
          rw [List.length_append, List.length_singleton] at o5' o6' o8'
          have hpre : S.take (oops.get_solution o).length = oops.get_solution o := by
            have := congrArg (List.take (oops.get_solution o).length) o5'
            rw [List.take_take, Nat.min_eq_left (Nat.le_succ _)] at this
            rw [this, List.take_left' rfl]
          refine ⟨out, S, o1', o2', o3', o4', hpre, ?_, ?_, ?_⟩
          · rw [o6']
            simp only [greedy_len, hexp, Bool.false_eq_true, if_false]
            omega
          · intro hf
            simp only [greedy_fin, hexp, Bool.false_eq_true, if_false]
            exact o7' hf
          · intro j h1 h2
            by_cases hj : j = (oops.get_solution o).length
            · subst hj
              rw [hpre]
              have hget : S.getD (oops.get_solution o).length 0 = e := by
                have h3 : (S.take ((oops.get_solution o).length + 1)).getD
                    (oops.get_solution o).length 0 = e := by
                  rw [o5']
                  simp [List.getD_eq_getElem?_getD]
                rw [← h3]
                simp [List.getD_eq_getElem?_getD, List.getElem?_take]
              rw [hget]
              exact hsel
            · exact o8' j (by omega) h2
  have records_init {α : Type} [LinearOrderedField α]
      {sqrt log : α → α} [Numeric sqrt log]
      (L : Nat → Nat → α) : GreedyResult.Records L (GreedyResult.init α) [] := by
    refine ⟨rfl, rfl, ?_⟩
    intro j hj
    have hj0 : j = 0 := Nat.le_zero.mp hj
    subst hj0
    refine ⟨{ element := none, value := some ((0 : α) : WithBot α) }, rfl, ?_, ?_⟩
    · rw [List.take_zero, logdet_nil]
    · intro i hi
      omega
  obtain ⟨c1, c2⟩ := M.construct_good k param.log_computed_offdiagonals_V
  have hr : ∀ e ∈ List.range n, e < n ∧
      e ∉ oops.get_solution (oops.construct k param.log_computed_offdiagonals_V) := by
    intro e he
    rw [c2]
    exact ⟨List.mem_range.mp he, List.not_mem_nil e⟩
  obtain ⟨d1, d2, d3, d4, d5⟩ := SL.construct_spec (List.range n) false _ c1
    (List.nodup_range n) hr
  obtain ⟨e1, e2, _, _⟩ := steps_good n L oops Good Fresh M _ _ _ c1 hr d5
  have hS0 : oops.get_solution (sops.construct (List.range n) false
      (oops.construct k param.log_computed_offdiagonals_V)).2 = [] := by rw [e2, c2]
  have hT : ∀ x, x ∈ getT (sops.construct (List.range n) false
      (oops.construct k param.log_computed_offdiagonals_V)).1 ↔ (x < n ∧
      x ∉ oops.get_solution (sops.construct (List.range n) false
      (oops.construct k param.log_computed_offdiagonals_V)).2) := by
    intro x
    rw [d2 x, hS0, List.mem_range]
    simp
  obtain ⟨out, S, o1, o2, o3, o4, _, o6, o7, o8⟩ :=
    greedy_loop_spec n L hL oops Good Fresh M sops getT getD SI Dead SL J Sel hstep param
      clock k 0 _ _ (GreedyResult.init α) e1 d4 d3 d1 hT (by rw [hS0]; exact hJ0)
      (by rw [hS0]; simpa using hk) (by rw [hS0]; exact records_init L)
  rw [hS0] at o6 o8
  refine ⟨out, S, ?_, o2, o3, o4, by simpa using o6, o7 rfl, fun j hj => o8 j (Nat.zero_le _) hj⟩
  unfold greedy
  have hkn : (!decide (k ≤ n)) = false := by simp [hk]
  rw [hkn]
  exact o1

end DPP

namespace DPP

theorem nodup_getD_inj (T : List Nat) (h : T.Nodup) (a b : Nat) (ha : a < T.length)
    (hb : b < T.length) (hab : T.getD a 0 = T.getD b 0) : a = b := by
  simp only [List.getD_eq_getElem?_getD, List.getElem?_eq_getElem ha,
    List.getElem?_eq_getElem hb, Option.getD_some] at hab
  exact (List.Nodup.getElem_inj_iff h).mp hab

theorem mem_iff_getD (T : List Nat) (x : Nat) :
    x ∈ T ↔ ∃ q, q < T.length ∧ T.getD q 0 = x := by
  constructor
  · intro h
    obtain ⟨q, hq, hx⟩ := List.getElem_of_mem h
    exact ⟨q, hq, by simp [List.getD_eq_getElem?_getD, List.getElem?_eq_getElem hq, hx]⟩
  · rintro ⟨q, hq, hx⟩
    rw [← hx]
    simp only [List.getD_eq_getElem?_getD, List.getElem?_eq_getElem hq, Option.getD_some]
    exact List.getElem_mem hq

theorem swap_getD (T : List Nat) (i j q : Nat) (hi : i < T.length) (hj : j < T.length)
    (_hq : q < T.length) :
    ((T.set i (T.getD j 0)).set j (T.getD i 0)).getD q 0
      = if q = j then T.getD i 0 else if q = i then T.getD j 0 else T.getD q 0 := by
  simp only [List.getD_eq_getElem?_getD, List.getElem?_set, List.length_set]
  by_cases h1 : q = j
  · subst h1
    simp [hj]
  · have h1' : ¬ j = q := fun h => h1 h.symm
    by_cases h2 : q = i
    · subst h2
      simp [h1, h1', hi]
    · have h2' : ¬ i = q := fun h => h2 h.symm
      simp [h1, h1', h2, h2']

/-- The function `swap_T` keeps the bookkeeping, the length and the elements of `T`. -/
theorem swap_T_spec (i j : Nat) (T : List Nat) (T_inv : Nat → Int) (h : TInv T T_inv)
    (hi : i < T.length) (hj : j < T.length) :
    TInv (swap_T i j T T_inv).1 (swap_T i j T T_inv).2 ∧
    (swap_T i j T T_inv).1.length = T.length ∧
    (∀ x, x ∈ (swap_T i j T T_inv).1 ↔ x ∈ T) ∧
    (swap_T i j T T_inv).1.getD j 0 = T.getD i 0 := by
  obtain ⟨hnd, hinv⟩ := h
  have hlen : ((T.set i (T.getD j 0)).set j (T.getD i 0)).length = T.length := by simp
  have hg := fun q hq => swap_getD T i j q hi hj hq
  have hgi : ((T.set i (T.getD j 0)).set j (T.getD i 0)).getD i 0 = T.getD j 0 := by
    rw [hg i hi]
    by_cases hij : i = j
    · rw [if_pos hij, hij]
    · rw [if_neg hij, if_pos rfl]
  have hgj : ((T.set i (T.getD j 0)).set j (T.getD i 0)).getD j 0 = T.getD i 0 := by
    rw [hg j hj, if_pos rfl]
  -- the index map of the swap
  have hperm : ∀ q, q < T.length → ∃ q', q' < T.length ∧
      ((T.set i (T.getD j 0)).set j (T.getD i 0)).getD q 0 = T.getD q' 0 ∧
      (q' = if q = j then i else if q = i then j else q) := by
    intro q hq
    rw [hg q hq]
    by_cases h1 : q = j
    · exact ⟨i, hi, by rw [if_pos h1], by rw [if_pos h1]⟩
    · by_cases h2 : q = i
      · exact ⟨j, hj, by rw [if_neg h1, if_pos h2], by rw [if_neg h1, if_pos h2]⟩
      · exact ⟨q, hq, by rw [if_neg h1, if_neg h2], by rw [if_neg h1, if_neg h2]⟩
  have hnd1 : ((T.set i (T.getD j 0)).set j (T.getD i 0)).Nodup := by
    rw [List.nodup_iff_getElem?_ne_getElem?]
    intro a b hab hb heq
    rw [hlen] at hb
    have ha : a < T.length := by omega
    have e1 : ((T.set i (T.getD j 0)).set j (T.getD i 0)).getD a 0
        = ((T.set i (T.getD j 0)).set j (T.getD i 0)).getD b 0 :=
      congrArg (fun o => Option.getD o 0)
        (show ((T.set i (T.getD j 0)).set j (T.getD i 0)).get? a
          = ((T.set i (T.getD j 0)).set j (T.getD i 0)).get? b by
          rw [List.get?_eq_getElem?, List.get?_eq_getElem?]; exact heq)
    obtain ⟨a', ha', ea, ea'⟩ := hperm a ha
    obtain ⟨b', hb', eb, eb'⟩ := hperm b hb
    rw [ea, eb] at e1
    have := nodup_getD_inj T hnd a' b' ha' hb' e1
    rw [ea', eb'] at this
    split_ifs at this <;> omega
  simp only [swap_T]
  refine ⟨⟨hnd1, ?_⟩, hlen, ?_, hgj⟩
  · intro q hq
    rw [hlen] at hq
    rw [hgi, hgj, hg q hq]
    have hTi := hinv i hi
    have hTj := hinv j hj
    by_cases h1 : q = j
    · rw [if_pos h1, Function.update_same, hTj, h1]
    · rw [if_neg h1]
      by_cases h2 : q = i
      · rw [if_pos h2]
        have hne : T.getD j 0 ≠ T.getD i 0 := by
          intro h
          apply h1
          rw [h2]
          exact (nodup_getD_inj T hnd j i hj hi h).symm
        rw [Function.update_noteq hne, Function.update_same, hTi, h2]
      · rw [if_neg h2]
        have n1 : T.getD q 0 ≠ T.getD i 0 := fun h => h2 (nodup_getD_inj T hnd q i hq hi h)
        have n2 : T.getD q 0 ≠ T.getD j 0 := fun h => h1 (nodup_getD_inj T hnd q j hq hj h)
        rw [Function.update_noteq n1, Function.update_noteq n2]
        exact hinv q hq
  · intro x
    rw [mem_iff_getD, mem_iff_getD, hlen]
    constructor
    · rintro ⟨q, hq, hx⟩
      obtain ⟨q', hq', e1, _⟩ := hperm q hq
      exact ⟨q', hq', by rw [← e1, hx]⟩
    · rintro ⟨q, hq, hx⟩
      by_cases h1 : q = i
      · exact ⟨j, hj, by rw [hgj, ← h1, hx]⟩
      · by_cases h2 : q = j
        · exact ⟨i, hi, by rw [hgi, ← h2, hx]⟩
        · exact ⟨q, hq, by rw [hg q hq, if_neg h2, if_neg h1, hx]⟩

theorem uniform_int_range (lo hi raw : Nat) (h : lo ≤ hi) :
    lo ≤ uniform_int lo hi raw ∧ uniform_int lo hi raw ≤ hi := by
  unfold uniform_int
  have := Nat.mod_lt raw (Nat.succ_pos (hi - lo))
  constructor
  · omega
  · have h2 : raw % (hi - lo + 1) < hi - lo + 1 := this
    omega

/-- The function `fisher_yates_shuffle` keeps the bookkeeping, the length and the elements
of `T`. -/
theorem fisher_yates_loop_spec (rng : Nat → Nat) :
    ∀ (m i pos : Nat) (T : List Nat) (T_inv : Nat → Int), TInv T T_inv → i + m ≤ T.length →
      TInv (fisher_yates_loop rng m i pos T T_inv).1 (fisher_yates_loop rng m i pos T T_inv).2.1 ∧
      (fisher_yates_loop rng m i pos T T_inv).1.length = T.length ∧
      ∀ x, x ∈ (fisher_yates_loop rng m i pos T T_inv).1 ↔ x ∈ T := by
  intro m
  induction m with
  | zero =>
    intro i pos T T_inv h _
    exact ⟨h, rfl, fun x => Iff.rfl⟩
  | succ m ih =>
    intro i pos T T_inv h him
    have hi : i < T.length := by omega
    obtain ⟨_, hj⟩ := uniform_int_range i (T.length - 1) (rng pos) (by omega)
    obtain ⟨s1, s2, s3, _⟩ := swap_T_spec i (uniform_int i (T.length - 1) (rng pos)) T T_inv h
      hi (by omega)
    obtain ⟨i1, i2, i3⟩ := ih (i + 1) (pos + 1) _ _ s1 (by rw [s2]; omega)
    simp only [fisher_yates_loop]
    exact ⟨i1, by rw [i2, s2], fun x => by rw [i3 x, s3 x]⟩

theorem eq_dropLast_append (W : List Nat) (e : Nat) (hlen : 0 < W.length)
    (h : W.getD (W.length - 1) 0 = e) : W = W.dropLast ++ [e] := by
  have hne : W ≠ [] := List.ne_nil_of_length_pos hlen
  have h1 : W.getLast hne = e := by
    rw [List.getLast_eq_getElem, ← h, List.getD_eq_getElem?_getD,
      List.getElem?_eq_getElem (by omega), Option.getD_some]
  conv_lhs => rw [← List.dropLast_append_getLast hne]
  rw [h1]

/-- The function `remove_T(e, T, T_inv)` removes `e` from `T` and keeps the bookkeeping. -/
theorem remove_T_spec (e : Nat) (T : List Nat) (T_inv : Nat → Int) (h : TInv T T_inv)
    (he : e ∈ T) :
    TInv (remove_T e T T_inv).1 (remove_T e T T_inv).2 ∧
    (remove_T e T T_inv).1.length + 1 = T.length ∧
    ∀ x, x ∈ (remove_T e T T_inv).1 ↔ (x ∈ T ∧ x ≠ e) := by
  obtain ⟨q, hq, hqe⟩ := (mem_iff_getD T e).mp he
  have hp : (T_inv e).toNat = q := by
    rw [← hqe, h.2 q hq]
    exact Int.toNat_ofNat q
  have hlast : T.length - 1 < T.length := by omega
  obtain ⟨⟨s1, s1'⟩, s2, s3, s4⟩ := swap_T_spec q (T.length - 1) T T_inv h hq hlast
  rw [hqe] at s4
  simp only [remove_T, hp]
  -- the swapped list ends with `e`
  have hsplit : (swap_T q (T.length - 1) T T_inv).1
      = (swap_T q (T.length - 1) T T_inv).1.dropLast ++ [e] :=
    eq_dropLast_append _ e (by rw [s2]; omega) (by rw [s2]; exact s4)
  have hnd2 : ((swap_T q (T.length - 1) T T_inv).1.dropLast ++ [e]).Nodup := by
    rw [← hsplit]; exact s1
  have hdl : (swap_T q (T.length - 1) T T_inv).1.dropLast.length + 1 = T.length := by
    rw [List.length_dropLast, s2]
    omega
  have hmem : ∀ x, x ∈ (swap_T q (T.length - 1) T T_inv).1.dropLast ↔ (x ∈ T ∧ x ≠ e) := by
    intro x
    constructor
    · intro hx
      refine ⟨(s3 x).mp (by rw [hsplit]; exact List.mem_append_left _ hx), ?_⟩
      intro hxe
      rw [hxe] at hx
      exact (List.nodup_append.mp hnd2).2.2 hx (List.mem_singleton_self e)
    · rintro ⟨hx, hxe⟩
      have := (s3 x).mpr hx
      rw [hsplit] at this
      rcases List.mem_append.mp this with h1 | h1
      · exact h1
      · exact absurd (List.mem_singleton.mp h1) hxe
  refine ⟨⟨(List.nodup_append.mp hnd2).1, ?_⟩, hdl, hmem⟩
  intro p hp'
  have hp2 : p < (swap_T q (T.length - 1) T T_inv).1.length := by
    rw [s2]; omega
  have e1 : (swap_T q (T.length - 1) T T_inv).1.dropLast.getD p 0
      = (swap_T q (T.length - 1) T T_inv).1.getD p 0 := by
    conv_rhs => rw [hsplit]
    rw [List.getD_append _ _ _ _ hp']
  rw [e1]
  have hne : (swap_T q (T.length - 1) T T_inv).1.getD p 0 ≠ e := by
    rw [← e1]
    exact ((hmem _).mp ((mem_iff_getD _ _).mpr ⟨p, hp', rfl⟩)).2
  rw [Function.update_noteq hne]
  exact s1' p hp2

end DPP

namespace DPP

theorem fisher_yates_shuffle_spec (rng : Nat → Nat) (k pos : Nat) (T : List Nat)
    (T_inv : Nat → Int) (h : TInv T T_inv) (hk : k ≤ T.length) :
    TInv (fisher_yates_shuffle rng k pos T T_inv).1 (fisher_yates_shuffle rng k pos T T_inv).2.1 ∧
    (fisher_yates_shuffle rng k pos T T_inv).1.length = T.length ∧
    ∀ x, x ∈ (fisher_yates_shuffle rng k pos T T_inv).1 ↔ x ∈ T :=
  fisher_yates_loop_spec rng k 0 pos T T_inv h (by omega)

end DPP

namespace DPP

theorem takeWhile_length_eq {β : Type} (p : β → Bool) :
    ∀ (l : List β) (a : Nat), a ≤ l.length →
      (∀ j, j < a → ∃ x, l.get? j = some x ∧ p x = true) →
      (a < l.length → ∃ x, l.get? a = some x ∧ p x = false) →
      (l.takeWhile p).length = a := by
  intro l
  induction l with
  | nil =>
    intro a ha _ _
    simp at ha
    simp [ha]
  | cons y ys ih =>
    intro a ha h1 h2
    cases a with
    | zero =>
      obtain ⟨x, hx, hp⟩ := h2 (by simp)
      simp only [List.get?_cons_zero, Option.some.injEq] at hx
      subst hx
      simp [List.takeWhile, hp]
    | succ a =>
      obtain ⟨x, hx, hp⟩ := h1 0 (Nat.succ_pos a)
      simp only [List.get?_cons_zero, Option.some.injEq] at hx
      subst hx
      simp only [List.takeWhile, hp, List.length_cons, Nat.succ.injEq]
      apply ih a (by simpa using ha)
      · intro j hj
        have := h1 (j + 1) (by omega)
        simpa using this
      · intro hlt
        have := h2 (by simpa using hlt)
        simpa using this

theorem take_succ_getD (S : List Nat) (j : Nat) (hj : j < S.length) :
    S.take (j + 1) = S.take j ++ [S.getD j 0] := by
  rw [List.take_succ]
  congr 1
  simp [List.getD_eq_getElem?_getD, List.getElem?_eq_getElem hj]

end DPP

namespace DPP

theorem valueConsistent_of {α : Type} [LinearOrderedField α]
    {sqrt log : α → α} [Numeric sqrt log]
    (n : Nat) (L : Nat → Nat → α) (hL : PosDefOn n L)
    (r : Except Fault (Result α))
    (h : ∃ res, r = .ok res ∧ res.value = logdet log L res.solution ∧
      res.solution.Nodup ∧ ∀ x ∈ res.solution, x < n) : ValueConsistent n L r := by
  -- The determinant of `L[S,S]` is the product of the gains of the elements of `S`, each
  -- against the elements before it.
  have det_eq_prod_schur {α : Type} [LinearOrderedField α]
      {sqrt log : α → α} [Numeric sqrt log]
      (n : Nat) (L : Nat → Nat → α) (hL : PosDefOn n L) (S : List Nat)
      (hr : ∀ x ∈ S, x < n) (hnd : S.Nodup) :
      (subMatrix L S S).det = ∏ j in Finset.range S.length, schur L (S.take j) (S.getD j 0) := by
    rw [det_sub_eq_prod n L hL S hr hnd]
    apply Finset.prod_congr rfl
    intro j hj
    have hj := Finset.mem_range.mp hj
    have hmem : S.getD j 0 ∈ S := (mem_iff_getD S _).mpr ⟨j, hj, rfl⟩
    rw [schur_eq_pivot n L hL (S.take j) (fun x hx => hr x (List.mem_of_mem_take hx))
      (List.Nodup.sublist (List.take_sublist _ _) hnd) _ (hr _ hmem)]
    rw [List.length_take, Nat.min_eq_left (le_of_lt hj), ← take_succ_getD S j hj]
    exact (pivot_congr sqrt L _ _ j (fun a ha => seqOf_take S (j + 1) a (by omega))).symm
  obtain ⟨res, h1, h2, h3, h4⟩ := h
  exact ⟨res, h1, h2, h3, h4, det_eq_prod_schur n L hL _ h4 h3⟩

/-- The four drivers that take a strategy, over a positive definite kernel, for a strategy
and an oracle that are what the drivers expect. -/
theorem drivers_consistent {α : Type} [LinearOrderedField α]
    {sqrt log : α → α} [Numeric sqrt log] [FloorRing α]
    {τ σ : Type} (n : Nat) (L : Nat → Nat → α) (hL : PosDefOn n L)
    (oops : OracleOps σ α) (Good : σ → Prop) (Fresh : σ → Nat → Prop)
    (M : OracleMath n L oops Good Fresh) (sops : StrategyOps τ σ α) (getT : τ → List Nat)
    (getD : τ → Bool) (SI : τ → Prop) (Dead : τ → σ → Prop)
    (SL : StrategyLaw n oops Good sops getT getD SI Dead)
    (k : Nat) (hk : k ≤ n) (param : Param α) (clock : Nat → α) (rng : Nat → Nat) :
    DriversConsistent n L k param clock rng sops oops := by
  have vlt_logdet {α : Type} [LinearOrderedField α]
      {sqrt log : α → α} [Numeric sqrt log]
      (L : Nat → Nat → α) (S T : List Nat) :
      vlt (logdet log L S) (logdet log L T)
        = decide (log (subMatrix L S S).det < log (subMatrix L T T).det) := by
    simp only [vlt, logdet]
    congr 1
    exact propext WithBot.coe_lt_coe
  -- The function `interlace_greedy` over a positive definite kernel returns, and every
  -- result read from what it returns is a selection with its log-determinant.
  have interlace_greedy_spec {α : Type} [LinearOrderedField α]
      {sqrt log : α → α} [Numeric sqrt log]
      {τ σ : Type} (n : Nat) (L : Nat → Nat → α)
      (hL : PosDefOn n L) (oops : OracleOps σ α) (Good : σ → Prop) (Fresh : σ → Nat → Prop)
      (M : OracleMath n L oops Good Fresh) (sops : StrategyOps τ σ α) (getT : τ → List Nat)
      (getD : τ → Bool) (SI : τ → Prop) (Dead : τ → σ → Prop)
      (SL : StrategyLaw n oops Good sops getT getD SI Dead)
      (k : Nat) (hk : k ≤ n) (param : Param α) (clock : Nat → α) :
      ∃ out, interlace_greedy sops oops n k param clock = .ok out ∧
        ∀ j, ∃ r, out.get j = .ok r ∧ r.value = logdet log L r.solution ∧
          r.solution.Nodup ∧ ∀ x ∈ r.solution, x < n := by
    -- The loop of `interlace_greedy` over a positive definite kernel returns, and the
    -- records of each chain are those of its selection sequence.
    have interlace_loop_spec {α : Type} [LinearOrderedField α]
        {sqrt log : α → α} [Numeric sqrt log]
        {τ σ : Type} (n : Nat) (L : Nat → Nat → α)
        (hL : PosDefOn n L) (oops : OracleOps σ α) (Good : σ → Prop) (Fresh : σ → Nat → Prop)
        (M : OracleMath n L oops Good Fresh) (sops : StrategyOps τ σ α) (getT : τ → List Nat)
        (getD : τ → Bool) (SI : τ → Prop) (Dead : τ → σ → Prop)
        (SL : StrategyLaw n oops Good sops getT getD SI Dead) (param : Param α)
        (clock : Nat → α) :
        ∀ (m t : Nat) (c : Chains τ σ) (res : InterlaceResult α),
          Chain.Pair n oops Good getT getD SI c.c0 c.c1 →
          Chain.Pair n oops Good getT getD SI c.c2 c.c3 → (t = 0 → c.c2 = c.c3) →
          res.quadruples.length = t + 1 → res.measurements.length = t + 1 →
          Chain.Recorded L oops Dead res t 0 c.c0 → Chain.Recorded L oops Dead res t 1 c.c1 →
          Chain.Recorded L oops Dead res t 2 c.c2 → Chain.Recorded L oops Dead res t 3 c.c3 →
          ∃ out, interlace_greedy_loop sops oops param clock m t c res = .ok out ∧
            out.measurements.length = out.quadruples.length ∧
            ∀ f : Fin 4, ∃ S, InterlaceResult.ChainRec L out f S ∧ GainsAbove L S ∧ S.Nodup ∧
              ∀ x ∈ S, x < n := by
      -- The body of the loop of `interlace_greedy`.
      have interlace_step_spec {α : Type} [LinearOrderedField α]
          {sqrt log : α → α} [Numeric sqrt log]
          {τ σ : Type} (n : Nat) (L : Nat → Nat → α)
          (hL : PosDefOn n L) (oops : OracleOps σ α) (Good : σ → Prop) (Fresh : σ → Nat → Prop)
          (M : OracleMath n L oops Good Fresh) (sops : StrategyOps τ σ α) (getT : τ → List Nat)
          (getD : τ → Bool) (SI : τ → Prop) (Dead : τ → σ → Prop)
          (SL : StrategyLaw n oops Good sops getT getD SI Dead) (t : Nat) (c : Chains τ σ)
          (h01 : Chain.Pair n oops Good getT getD SI c.c0 c.c1)
          (h23 : Chain.Pair n oops Good getT getD SI c.c2 c.c3) (h0 : t = 0 → c.c2 = c.c3) :
          ∃ es c', interlace_step sops oops t c = .ok (es, c') ∧
            Chain.Pair n oops Good getT getD SI c'.c0 c'.c1 ∧
            Chain.Pair n oops Good getT getD SI c'.c2 c'.c3 ∧
            Chain.Out L oops Dead c.c0 (es 0) c'.c0 ∧ Chain.Out L oops Dead c.c1 (es 1) c'.c1 ∧
            Chain.Out L oops Dead c.c2 (es 2) c'.c2 ∧ Chain.Out L oops Dead c.c3 (es 3) c'.c3 := by
        -- The first step of the chains 2 and 3, each on its own.
        have interlace_first_spec {α : Type} [LinearOrderedField α]
            {sqrt log : α → α} [Numeric sqrt log]
            {τ σ : Type} (n : Nat) (L : Nat → Nat → α)
            (hL : PosDefOn n L) (oops : OracleOps σ α) (Good : σ → Prop) (Fresh : σ → Nat → Prop)
            (M : OracleMath n L oops Good Fresh) (sops : StrategyOps τ σ α) (getT : τ → List Nat)
            (getD : τ → Bool) (SI : τ → Prop) (Dead : τ → σ → Prop)
            (SL : StrategyLaw n oops Good sops getT getD SI Dead) (a : Chain τ σ)
            (h : Chain.Valid n oops Good getT getD SI a) :
            ∃ r a1, interlace_first sops oops a = .ok (r, a1) ∧
              Chain.Valid n oops Good getT getD SI a1 ∧ Chain.Out L oops Dead a r a1 := by
          obtain ⟨a1, a2, a3, a4, a5⟩ := h
          obtain ⟨r, s1, o1, hok, hpo, hnone, hdead⟩ := SL.pop_spec a.strategy a.oracle a1 a2 a4 a5
            (Or.inl a3)
          obtain ⟨g1, g2, g3, g4⟩ :=
            popOut_good n L oops Good Fresh M getT getD SI _ _ r s1 o1 a1 a5 hpo
          obtain ⟨q1, q2, q3, q4, q5⟩ := hpo
          unfold interlace_first
          rw [hok]
          cases r with
          | none =>
            obtain ⟨_, hmem, _⟩ := q4 rfl
            refine ⟨none, { strategy := s1, oracle := o1 }, rfl, ⟨g1, q2, by rw [q1]; exact a3, q3, ?_⟩,
              ⟨fun _ => rfl, fun _ => ⟨g2, hnone rfl⟩, ?_⟩⟩
            · intro x hx
              have : x ∈ getT s1 := hx
              have h2 := a5 x ((hmem x).mp this)
              exact ⟨h2.1, by rw [show oops.get_solution o1 = oops.get_solution a.oracle from g2]; exact h2.2⟩
            · intro e he
              cases he
          | some e =>
            obtain ⟨heT, hmem, _, hgain⟩ := q5 e rfl
            obtain ⟨he, heS⟩ := a5 e heT
            have heS1 : e ∉ oops.get_solution o1 := by rw [g2]; exact heS
            have hpos : 0 < schur L (oops.get_solution o1) e := by
              rw [g2]
              exact schur_pos n L hL _ (M.good_range _ a1) (M.good_nodup _ a1) e he heS
            have hg2 : Good (oops.add o1 e) := M.add_good o1 e g1 he heS1 (g4 e rfl) hpos
            have hS2 : oops.get_solution (oops.add o1 e) = oops.get_solution a.oracle ++ [e] := by
              rw [M.law.add_S, g2]
            refine ⟨some e, { strategy := s1, oracle := oops.add o1 e }, rfl,
              ⟨hg2, q2, by rw [q1]; exact a3, q3, ?_⟩, ⟨?_, ?_, ?_⟩⟩
            · intro x hx
              have hx' : x ∈ getT s1 := hx
              obtain ⟨hx1, hx2⟩ := (hmem x).mp hx'
              refine ⟨(a5 x hx1).1, ?_⟩
              show x ∉ oops.get_solution (oops.add o1 e)
              rw [hS2]
              intro hm
              rcases List.mem_append.mp hm with h | h
              · exact (a5 x hx1).2 h
              · exact hx2 (List.mem_singleton.mp h)
            · intro hd
              exact hdead hd
            · intro h
              cases h
            · intro e' he'
              cases he'
              refine ⟨hS2, ?_⟩
              rw [← gain_good n L oops Good Fresh M a.oracle a1 e he heS]
              exact hgain a3
        -- The function `interlace_subroutine` on two chains over the same ground set.
        have interlace_subroutine_spec {α : Type} [LinearOrderedField α]
            {sqrt log : α → α} [Numeric sqrt log]
            {τ σ : Type} (n : Nat) (L : Nat → Nat → α)
            (hL : PosDefOn n L) (oops : OracleOps σ α) (Good : σ → Prop) (Fresh : σ → Nat → Prop)
            (M : OracleMath n L oops Good Fresh) (sops : StrategyOps τ σ α) (getT : τ → List Nat)
            (getD : τ → Bool) (SI : τ → Prop) (Dead : τ → σ → Prop)
            (SL : StrategyLaw n oops Good sops getT getD SI Dead) (a b : Chain τ σ)
            (h : Chain.Pair n oops Good getT getD SI a b) :
            ∃ ea eb a2 b2, interlace_subroutine sops oops a b = .ok ((ea, eb), a2, b2) ∧
              Chain.Pair n oops Good getT getD SI a2 b2 ∧ Chain.Out L oops Dead a ea a2 ∧
              Chain.Out L oops Dead b eb b2 := by
          -- One half of `interlace_subroutine` on two chains over the same ground set.
          have interlace_half_spec {α : Type} [LinearOrderedField α]
              {sqrt log : α → α} [Numeric sqrt log]
              {τ σ : Type} (n : Nat) (L : Nat → Nat → α) (hL : PosDefOn n L)
              (oops : OracleOps σ α) (Good : σ → Prop) (Fresh : σ → Nat → Prop)
              (M : OracleMath n L oops Good Fresh) (sops : StrategyOps τ σ α) (getT : τ → List Nat)
              (getD : τ → Bool) (SI : τ → Prop) (Dead : τ → σ → Prop)
              (SL : StrategyLaw n oops Good sops getT getD SI Dead) (a b : Chain τ σ)
              (h : Chain.Pair n oops Good getT getD SI a b) :
              ∃ r a1 b1, interlace_half sops oops a b = .ok (r, a1, b1) ∧
                Chain.Pair n oops Good getT getD SI a1 b1 ∧ Chain.Out L oops Dead a r a1 ∧
                b1.oracle = b.oracle ∧ (Dead b.strategy b.oracle → Dead b1.strategy b1.oracle) := by
            obtain ⟨⟨a1, a2, a3, a4, a5⟩, ⟨b1, b2, b3, b4, b5⟩, hab⟩ := h
            obtain ⟨r, s1, o1, hok, hpo, hnone, hdead⟩ := SL.pop_spec a.strategy a.oracle a1 a2 a4 a5
              (Or.inl a3)
            obtain ⟨g1, g2, g3, g4⟩ :=
              popOut_good n L oops Good Fresh M getT getD SI _ _ r s1 o1 a1 a5 hpo
            obtain ⟨q1, q2, q3, q4, q5⟩ := hpo
            unfold interlace_half
            rw [hok]
            cases r with
            | none =>
              obtain ⟨_, hmem, _⟩ := q4 rfl
              refine ⟨none, { strategy := s1, oracle := o1 }, b, rfl, ⟨⟨g1, q2, by rw [q1]; exact a3, q3,
                ?_⟩, ⟨b1, b2, b3, b4, b5⟩, ?_⟩, ⟨fun _ => rfl, fun _ => ⟨g2, hnone rfl⟩, ?_⟩, rfl,
                fun h => h⟩
              · intro x hx
                have : x ∈ getT s1 := hx
                have h2 := a5 x ((hmem x).mp this)
                exact ⟨h2.1, by rw [show oops.get_solution o1 = oops.get_solution a.oracle from g2]; exact h2.2⟩
              · intro x
                exact Iff.trans (hmem x) (hab x)
              · intro e he
                cases he
            | some e =>
              obtain ⟨heT, hmem, _, hgain⟩ := q5 e rfl
              obtain ⟨he, heS⟩ := a5 e heT
              obtain ⟨sb, hrm, r1, r2, r3, r4⟩ := SL.remove_spec b.strategy e b2 ((hab e).mp heT)
              simp only [hrm]
              have heS1 : e ∉ oops.get_solution o1 := by rw [g2]; exact heS
              have hpos : 0 < schur L (oops.get_solution o1) e := by
                rw [g2]
                exact schur_pos n L hL _ (M.good_range _ a1) (M.good_nodup _ a1) e he heS
              have hg2 : Good (oops.add o1 e) := M.add_good o1 e g1 he heS1 (g4 e rfl) hpos
              have hS2 : oops.get_solution (oops.add o1 e) = oops.get_solution a.oracle ++ [e] := by
                rw [M.law.add_S, g2]
              refine ⟨some e, { strategy := s1, oracle := oops.add o1 e }, { b with strategy := sb }, rfl,
                ⟨⟨hg2, q2, by rw [q1]; exact a3, q3, ?_⟩, ⟨b1, r3, by rw [r2]; exact b3, ?_, ?_⟩, ?_⟩,
                ⟨?_, ?_, ?_⟩, rfl, fun h => r4 _ h⟩
              · intro x hx
                have hx' : x ∈ getT s1 := hx
                obtain ⟨hx1, hx2⟩ := (hmem x).mp hx'
                refine ⟨(a5 x hx1).1, ?_⟩
                show x ∉ oops.get_solution (oops.add o1 e)
                rw [hS2]
                intro hm
                rcases List.mem_append.mp hm with h | h
                · exact (a5 x hx1).2 h
                · exact hx2 (List.mem_singleton.mp h)
              · show (getT sb).Nodup
                rw [r1]
                exact b4.erase e
              · intro x hx
                have hx' : x ∈ getT sb := hx
                rw [r1] at hx'
                exact b5 x (List.mem_of_mem_erase hx')
              · intro x
                show x ∈ getT s1 ↔ x ∈ getT sb
                rw [hmem x, r1, b4.mem_erase_iff, hab x]
                exact and_comm
              · intro hd
                exact hdead hd
              · intro h
                cases h
              · intro e' he'
                cases he'
                refine ⟨hS2, ?_⟩
                rw [← gain_good n L oops Good Fresh M a.oracle a1 e he heS]
                exact hgain a3
          obtain ⟨ea, a1, b1, h1, hp1, ho1, hb1, hd1⟩ :=
            interlace_half_spec n L hL oops Good Fresh M sops getT getD SI Dead SL a b h
          have hp1' : Chain.Pair n oops Good getT getD SI b1 a1 :=
            ⟨hp1.2.1, hp1.1, fun x => (hp1.2.2 x).symm⟩
          obtain ⟨eb, b2, a2, h2, hp2, ho2, ha2, hd2⟩ :=
            interlace_half_spec n L hL oops Good Fresh M sops getT getD SI Dead SL b1 a1 hp1'
          refine ⟨ea, eb, a2, b2, ?_, ⟨hp2.2.1, hp2.1, fun x => (hp2.2.2 x).symm⟩, ?_, ?_⟩
          · unfold interlace_subroutine
            rw [h1]
            simp only [h2]
          · obtain ⟨c1, c2, c3⟩ := ho1
            refine ⟨c1, ?_, ?_⟩
            · intro hr
              obtain ⟨d1, d2⟩ := c2 hr
              exact ⟨by rw [ha2]; exact d1, hd2 d2⟩
            · intro e he
              obtain ⟨d1, d2⟩ := c3 e he
              exact ⟨by rw [ha2]; exact d1, d2⟩
          · obtain ⟨c1, c2, c3⟩ := ho2
            refine ⟨fun hd => c1 (hd1 hd), ?_, ?_⟩
            · intro hr
              obtain ⟨d1, d2⟩ := c2 hr
              exact ⟨by rw [d1, hb1], d2⟩
            · intro e he
              obtain ⟨d1, d2⟩ := c3 e he
              rw [hb1] at d1 d2
              exact ⟨d1, d2⟩
        obtain ⟨e0, e1, a0, a1, hs01, hp01, ho0, ho1⟩ :=
          interlace_subroutine_spec n L hL oops Good Fresh M sops getT getD SI Dead SL _ _ h01
        unfold interlace_step
        rw [hs01]
        simp only []
        by_cases ht : t = 0
        · rw [if_pos ht]
          obtain ⟨e2, a2, hf2, hv2, ho2⟩ :=
            interlace_first_spec n L hL oops Good Fresh M sops getT getD SI Dead SL _ h23.1
          have hf3 : interlace_first sops oops c.c3 = .ok (e2, a2) := by
            rw [← h0 ht]; exact hf2
          rw [hf2]
          simp only [hf3]
          refine ⟨_, _, rfl, hp01, ⟨hv2, hv2, fun x => Iff.rfl⟩, ho0, ho1, ho2, ?_⟩
          rw [← h0 ht]
          exact ho2
        · rw [if_neg ht]
          obtain ⟨e2, e3, a2, a3, hs23, hp23, ho2, ho3⟩ :=
            interlace_subroutine_spec n L hL oops Good Fresh M sops getT getD SI Dead SL _ _ h23
          rw [hs23]
          exact ⟨_, _, rfl, hp01, hp23, ho0, ho1, ho2, ho3⟩
      -- The records of a chain after one more step.
      have recorded_add {α : Type} [LinearOrderedField α]
          {sqrt log : α → α} [Numeric sqrt log]
          {τ σ : Type} (n : Nat) (L : Nat → Nat → α)
          (oops : OracleOps σ α) (Good : σ → Prop) (Fresh : σ → Nat → Prop)
          (M : OracleMath n L oops Good Fresh) (Dead : τ → σ → Prop)
          (res : InterlaceResult α) (t : Nat) (f : Fin 4) (c c' : Chain τ σ) (r : Option Nat)
          (hlen : res.quadruples.length = t + 1)
          (hrec : Chain.Recorded L oops Dead res t f c) (hout : Chain.Out L oops Dead c r c')
          (hg : Good c'.oracle) (es : Fin 4 → Option Nat) (vals : Fin 4 → Value α) (hes : es f = r)
          (hv : vals f = oops.get_value c'.oracle) (time : α) (a b d : Nat) :
          Chain.Recorded L oops Dead (res.add es vals time a b d) (t + 1) f c' := by
        obtain ⟨h1, h2, h3, h4⟩ := hrec
        obtain ⟨o1, o2, o3⟩ := hout
        have hval : vals f = logdet log L (oops.get_solution c'.oracle) := by
          rw [hv, M.good_value _ hg]
        have hold : ∀ j, j ≤ t → (res.add es vals time a b d).quadruples.get? j
            = res.quadruples.get? j := by
          intro j hj
          simp only [InterlaceResult.add]
          rw [List.get?_eq_getElem?, List.getElem?_append_left (by omega), ← List.get?_eq_getElem?]
        have hnew : (res.add es vals time a b d).quadruples.get? (t + 1)
            = some (fun f => { element := es f, value := vals f }) := by
          simp only [InterlaceResult.add]
          rw [List.get?_eq_getElem?, List.getElem?_append_right (by omega)]
          simp [hlen]
        have hlen1 : (res.add es vals time a b d).quadruples.length = t + 2 := by
          simp [InterlaceResult.add, hlen]
        cases r with
        | none =>
          obtain ⟨hS, hdead⟩ := o2 rfl
          refine ⟨?_, by rw [hS]; exact h2, by rw [hS]; omega, fun _ => hdead⟩
          intro j hj
          rw [hlen1] at hj
          rw [hS]
          by_cases hjt : j ≤ t
          · rw [hold j hjt]
            exact h1 j (by omega)
          · have hje : j = t + 1 := by omega
            subst hje
            refine ⟨_, hnew, ?_, ?_⟩
            · simp only [hes]
              rw [if_neg (by omega)]
            · simp only [hval, hS]
              rw [List.take_of_length_le (by omega)]
        | some e =>
          obtain ⟨hS, hgain⟩ := o3 e rfl
          have hnd : ¬ Dead c.strategy c.oracle := by
            intro hd
            have := o1 hd
            cases this
          have hSt : (oops.get_solution c.oracle).length = t := by
            by_contra hne
            exact hnd (h4 (by omega))
          refine ⟨?_, ?_, by rw [hS, List.length_append, List.length_singleton]; omega, ?_⟩
          · intro j hj
            rw [hlen1] at hj
            rw [hS]
            by_cases hjt : j ≤ t
            · rw [hold j hjt]
              obtain ⟨q, q1, q2, q3⟩ := h1 j (by omega)
              refine ⟨q, q1, ?_, ?_⟩
              · rw [q2, List.length_append, List.length_singleton]
                by_cases hj0 : 0 < j
                · rw [if_pos ⟨hj0, by omega⟩, if_pos ⟨hj0, by omega⟩,
                    List.getD_append _ _ _ _ (by omega)]
                · rw [if_neg (by omega), if_neg (by omega)]
              · rw [q3, List.take_append_of_le_length (by omega)]
            · have hje : j = t + 1 := by omega
              subst hje
              refine ⟨_, hnew, ?_, ?_⟩
              · simp only [hes]
                rw [if_pos ⟨Nat.succ_pos t, by rw [List.length_append, List.length_singleton]; omega⟩]
                congr 1
                simp [List.getD_eq_getElem?_getD, hSt]
              · simp only [hval, hS]
                rw [List.take_of_length_le (by rw [List.length_append, List.length_singleton]; omega)]
          · rw [hS]
            intro j hj
            rw [List.length_append, List.length_singleton] at hj
            by_cases hjl : j < (oops.get_solution c.oracle).length
            · rw [List.take_append_of_le_length (by omega), List.getD_append _ _ _ _ hjl]
              exact h2 j hjl
            · have hje : j = (oops.get_solution c.oracle).length := by omega
              subst hje
              rw [List.take_left' rfl]
              simpa [List.getD_eq_getElem?_getD] using hgain
          · intro hlt
            rw [hS, List.length_append, List.length_singleton] at hlt
            omega
      have hfin : ∀ (t : Nat) (c : Chains τ σ) (res : InterlaceResult α),
          Chain.Pair n oops Good getT getD SI c.c0 c.c1 →
          Chain.Pair n oops Good getT getD SI c.c2 c.c3 →
          Chain.Recorded L oops Dead res t 0 c.c0 → Chain.Recorded L oops Dead res t 1 c.c1 →
          Chain.Recorded L oops Dead res t 2 c.c2 → Chain.Recorded L oops Dead res t 3 c.c3 →
          ∀ f : Fin 4, ∃ S, InterlaceResult.ChainRec L res f S ∧ GainsAbove L S ∧ S.Nodup ∧
              ∀ x ∈ S, x < n := by
        intro t c res h01 h23 r0 r1 r2 r3 f
        fin_cases f
        · exact ⟨_, r0.1, r0.2.1, M.good_nodup _ h01.1.1, M.good_range _ h01.1.1⟩
        · exact ⟨_, r1.1, r1.2.1, M.good_nodup _ h01.2.1.1, M.good_range _ h01.2.1.1⟩
        · exact ⟨_, r2.1, r2.2.1, M.good_nodup _ h23.1.1, M.good_range _ h23.1.1⟩
        · exact ⟨_, r3.1, r3.2.1, M.good_nodup _ h23.2.1.1, M.good_range _ h23.2.1.1⟩
      intro m
      induction m with
      | zero =>
        intro t c res h01 h23 _ hq hm r0 r1 r2 r3
        refine ⟨{ res with finished := true }, rfl, by rw [hm, hq], ?_⟩
        exact hfin t c res h01 h23 r0 r1 r2 r3
      | succ m ih =>
        intro t c res h01 h23 h0 hq hm r0 r1 r2 r3
        obtain ⟨es, c', hstep, p01, p23, o0, o1, o2, o3⟩ :=
          interlace_step_spec n L hL oops Good Fresh M sops getT getD SI Dead SL t c h01 h23 h0
        rw [interlace_greedy_loop]
        simp only [hstep]
        have hq1 : ∀ (vals : Fin 4 → Value α) (time : α) (a b d : Nat),
            (res.add es vals time a b d).quadruples.length = t + 1 + 1 := by
          intro vals time a b d
          simp [InterlaceResult.add, hq]
        have hm1 : ∀ (vals : Fin 4 → Value α) (time : α) (a b d : Nat),
            (res.add es vals time a b d).measurements.length = t + 1 + 1 := by
          intro vals time a b d
          simp [InterlaceResult.add, hm]
        have n0 := recorded_add n L oops Good Fresh M Dead res t 0 c.c0 c'.c0 (es 0) hq r0 o0
          p01.1.1 es ![oops.get_value c'.c0.oracle, oops.get_value c'.c1.oracle,
            oops.get_value c'.c2.oracle, oops.get_value c'.c3.oracle] rfl rfl
        have n1 := recorded_add n L oops Good Fresh M Dead res t 1 c.c1 c'.c1 (es 1) hq r1 o1
          p01.2.1.1 es ![oops.get_value c'.c0.oracle, oops.get_value c'.c1.oracle,
            oops.get_value c'.c2.oracle, oops.get_value c'.c3.oracle] rfl rfl
        have n2 := recorded_add n L oops Good Fresh M Dead res t 2 c.c2 c'.c2 (es 2) hq r2 o2
          p23.1.1 es ![oops.get_value c'.c0.oracle, oops.get_value c'.c1.oracle,
            oops.get_value c'.c2.oracle, oops.get_value c'.c3.oracle] rfl rfl
        have n3 := recorded_add n L oops Good Fresh M Dead res t 3 c.c3 c'.c3 (es 3) hq r3 o3
          p23.2.1.1 es ![oops.get_value c'.c0.oracle, oops.get_value c'.c1.oracle,
            oops.get_value c'.c2.oracle, oops.get_value c'.c3.oracle] rfl rfl
        by_cases hexp : expired param (clock t) = true
        · rw [if_pos hexp]
          refine ⟨_, rfl, by rw [hm1, hq1], ?_⟩
          exact hfin (t + 1) c' _ p01 p23 (n0 _ _ _ _) (n1 _ _ _ _) (n2 _ _ _ _) (n3 _ _ _ _)
        · rw [if_neg hexp]
          exact ih (t + 1) c' _ p01 p23 (fun h => by omega) (hq1 _ _ _ _ _) (hm1 _ _ _ _ _)
            (n0 _ _ _ _) (n1 _ _ _ _) (n2 _ _ _ _) (n3 _ _ _ _)
    -- The method `operator[]` of an `InterlaceResult` whose records are those of four
    -- selection sequences returns a selection with its log-determinant.
    have chainRec_get {α : Type} [LinearOrderedField α]
        {sqrt log : α → α} [Numeric sqrt log]
        (n : Nat) (L : Nat → Nat → α) (hL : PosDefOn n L)
        (res : InterlaceResult α) (hlen : res.measurements.length = res.quadruples.length)
        (h : ∀ f : Fin 4, ∃ S, InterlaceResult.ChainRec L res f S ∧ GainsAbove L S ∧ S.Nodup ∧
          ∀ x ∈ S, x < n) (k : Nat) :
        ∃ r, res.get k = .ok r ∧ r.value = logdet log L r.solution ∧ r.solution.Nodup ∧
          ∀ x ∈ r.solution, x < n := by
      -- The loop of `operator[]` on the records of a chain.
      have chainRec_sol {α : Type} [LinearOrderedField α]
          {sqrt log : α → α} [Numeric sqrt log]
          (L : Nat → Nat → α) (res : InterlaceResult α) (f : Fin 4) (S : List Nat)
          (h : InterlaceResult.ChainRec L res f S) :
          ∀ a, a ≤ S.length → a < res.quadruples.length →
            InterlaceResult.sol res f a = .ok (S.take a) := by
        intro a
        induction a with
        | zero => intro _ _; rfl
        | succ a ih =>
          intro ha hlen
          obtain ⟨q, q1, q2, _⟩ := h (a + 1) hlen
          rw [if_pos ⟨Nat.succ_pos a, ha⟩] at q2
          simp only [InterlaceResult.sol, ih (by omega) (by omega), q1, q2, Nat.add_sub_cancel]
          rw [take_succ_getD S a (by omega)]
      have vlt_logdet_self {α : Type} [LinearOrderedField α]
          {sqrt log : α → α} [Numeric sqrt log]
          (L : Nat → Nat → α) (S : List Nat) :
          vlt (logdet log L S) (logdet log L S) = false := by
        rw [vlt_logdet]
        simp
      have vlt_logdet_take {α : Type} [LinearOrderedField α]
          {sqrt log : α → α} [Numeric sqrt log]
          (n : Nat) (L : Nat → Nat → α) (hL : PosDefOn n L) (S : List Nat)
          (hnd : S.Nodup) (hr : ∀ x ∈ S, x < n) (hg : GainsAbove L S) (j a : Nat) (hja : j < a)
          (ha : a ≤ S.length) :
          vlt (logdet log L (S.take j)) (logdet log L (S.take a)) = true := by
        -- Along a selection sequence whose elements were selected with a gain above `1`, the
        -- determinant of the prefixes increases.
        have det_take_lt {α : Type} [LinearOrderedField α]
            {sqrt log : α → α} [Numeric sqrt log]
            (n : Nat) (L : Nat → Nat → α) (hL : PosDefOn n L) (S : List Nat)
            (hnd : S.Nodup) (hr : ∀ x ∈ S, x < n) (hg : GainsAbove L S) (j : Nat) :
            ∀ a, j < a → a ≤ S.length →
              (subMatrix L (S.take j) (S.take j)).det < (subMatrix L (S.take a) (S.take a)).det := by
          have hstep : ∀ i, i < S.length →
              (subMatrix L (S.take i) (S.take i)).det
                < (subMatrix L (S.take (i + 1)) (S.take (i + 1))).det := by
            intro i hi
            have hnd' : (S.take i).Nodup := List.Nodup.sublist (List.take_sublist _ _) hnd
            have hr' : ∀ x ∈ S.take i, x < n := fun x hx => hr x (List.mem_of_mem_take hx)
            have hmem : S.getD i 0 ∈ S := (mem_iff_getD S _).mpr ⟨i, hi, rfl⟩
            have hnot : S.getD i 0 ∉ S.take i := by
              intro hm
              obtain ⟨q, hq, hqe⟩ := (mem_iff_getD _ _).mp hm
              rw [List.length_take] at hq
              have hq' : q < i := lt_of_lt_of_le hq (min_le_left _ _)
              have e1 : (S.take i).getD q 0 = S.getD q 0 := by
                simp [List.getD_eq_getElem?_getD, List.getElem?_take, hq']
              rw [e1] at hqe
              have := nodup_getD_inj S hnd q i (by omega) hi hqe
              omega
            rw [take_succ_getD S i hi, det_sub_append n L hL _ hr' hnd' _ (hr _ hmem) hnot]
            have hpos := det_sub_pos n L hL _ hr' hnd'
            have := hg i hi
            nlinarith
          intro a
          induction a with
          | zero => intro h; omega
          | succ a ih =>
            intro hja ha
            by_cases hj : j = a
            · subst hj
              exact hstep j (by omega)
            · exact lt_trans (ih (by omega) (by omega)) (hstep a (by omega))
        rw [vlt_logdet, decide_eq_true_eq]
        apply Numeric.log_lt_log
        · exact det_sub_pos n L hL _ (fun x hx => hr x (List.mem_of_mem_take hx))
            (List.Nodup.sublist (List.take_sublist _ _) hnd)
        · exact det_take_lt n L hL S hnd hr hg j a hja ha
      unfold InterlaceResult.get InterlaceResult.size
      by_cases hk : res.measurements.length ≤ k
      · rw [if_pos hk]
        refine ⟨_, rfl, ?_, ?_, ?_⟩
        · simp only [Result.unfinished]
          rw [logdet_nil]
        · simp [Result.unfinished]
        · simp [Result.unfinished]
      · rw [if_neg hk]
        have hk' : k < res.measurements.length := Nat.lt_of_not_le hk
        have hkq : k < res.quadruples.length := by rw [← hlen]; exact hk'
        unfold InterlaceResult.get_max InterlaceResult.size
        rw [if_pos hk']
        simp only []
        obtain ⟨S, hrec, hga, hnd, hr⟩ := h (InterlaceResult.max_element (InterlaceResult.maxima res k))
        obtain ⟨q, q1, _, q3⟩ := hrec k hkq
        have hval : (InterlaceResult.maxima res k
            (InterlaceResult.max_element (InterlaceResult.maxima res k))).2
            = logdet log L (S.take k) := by
          simp only [InterlaceResult.maxima, q1]
          exact q3
        have htk : S.take k = S.take (min k S.length) := by
          by_cases hkS : k ≤ S.length
          · rw [Nat.min_eq_left hkS]
          · rw [Nat.min_eq_right (by omega), List.take_of_length_le (by omega), List.take_length]
        have hcnt : (InterlaceResult.maxima res k
            (InterlaceResult.max_element (InterlaceResult.maxima res k))).1 = min k S.length := by
          simp only [InterlaceResult.maxima, q1]
          apply takeWhile_length_eq
          · rw [List.length_take]
            exact le_trans (min_le_left _ _) (le_min (le_refl _) (le_of_lt hkq))
          · intro j hj
            have hjk : j < k := lt_of_lt_of_le hj (min_le_left _ _)
            obtain ⟨p, p1, _, p3⟩ := hrec j (by omega)
            refine ⟨p, ?_, ?_⟩
            · rw [List.get?_eq_getElem?, List.getElem?_take, if_pos hjk, ← List.get?_eq_getElem?]
              exact p1
            · rw [p3, q3, htk]
              exact vlt_logdet_take n L hL S hnd hr hga j _ hj (min_le_right _ _)
          · intro hlt
            rw [List.length_take, Nat.min_eq_left (le_of_lt hkq)] at hlt
            have hSk : S.length < k := by
              by_contra hc
              rw [Nat.min_eq_left (Nat.le_of_not_lt hc)] at hlt
              omega
            rw [Nat.min_eq_right (le_of_lt hSk)]
            obtain ⟨p, p1, _, p3⟩ := hrec S.length (by omega)
            refine ⟨p, ?_, ?_⟩
            · rw [List.get?_eq_getElem?, List.getElem?_take, if_pos hSk, ← List.get?_eq_getElem?]
              exact p1
            · rw [p3, q3, List.take_length, List.take_of_length_le (le_of_lt hSk)]
              exact vlt_logdet_self L S
        rw [hcnt, chainRec_sol L res _ S hrec _ (min_le_right _ _)
          (lt_of_le_of_lt (min_le_left _ _) hkq)]
        obtain ⟨m, hm⟩ : ∃ m, res.measurements.get? k = some m :=
          ⟨res.measurements.get ⟨k, hk'⟩, List.get?_eq_get hk'⟩
        rw [hm]
        refine ⟨_, rfl, ?_, ?_, ?_⟩
        · simp only []
          rw [hval, htk]
        · exact List.Nodup.sublist (List.take_sublist _ _) hnd
        · intro x hx
          exact hr x (List.mem_of_mem_take hx)
    obtain ⟨c1, c2⟩ := M.construct_good k param.log_computed_offdiagonals_V
    have hr : ∀ e ∈ List.range n, e < n ∧
        e ∉ oops.get_solution (oops.construct k param.log_computed_offdiagonals_V) := by
      intro e he
      rw [c2]
      exact ⟨List.mem_range.mp he, List.not_mem_nil e⟩
    obtain ⟨d1, d2, d3, d4, d5⟩ := SL.construct_spec (List.range n) true _ c1
      (List.nodup_range n) hr
    obtain ⟨e1, e2, _, _⟩ := steps_good n L oops Good Fresh M _ _ _ c1 hr d5
    have hS0 : oops.get_solution (Chain.init sops oops n k param).oracle = [] := by
      show oops.get_solution (sops.construct (List.range n) true
        (oops.construct k param.log_computed_offdiagonals_V)).2 = []
      rw [e2, c2]
    have hval : Chain.Valid n oops Good getT getD SI (Chain.init sops oops n k param) := by
      refine ⟨e1, d4, d3, d1, ?_⟩
      intro x hx
      rw [hS0]
      exact ⟨List.mem_range.mp ((d2 x).mp hx), List.not_mem_nil x⟩
    have hpair : Chain.Pair n oops Good getT getD SI (Chain.init sops oops n k param)
        (Chain.init sops oops n k param) := ⟨hval, hval, fun x => Iff.rfl⟩
    have hrec : ∀ f : Fin 4, Chain.Recorded L oops Dead (InterlaceResult.init α) 0 f
        (Chain.init sops oops n k param) := by
      intro f
      rw [Chain.Recorded, hS0]
      refine ⟨?_, ?_, le_refl _, fun h => absurd h (Nat.lt_irrefl _)⟩
      · intro j hj
        have hj0 : j = 0 := by
          simp [InterlaceResult.init, InterlaceResult.add] at hj
          exact hj
        subst hj0
        refine ⟨fun _ => { element := none, value := some ((0 : α) : WithBot α) }, rfl, ?_, ?_⟩
        · simp
        · simp only [List.take_nil]
          rw [logdet_nil]
      · intro j hj
        simp at hj
    obtain ⟨out, h1, h2, h3⟩ := interlace_loop_spec n L hL oops Good Fresh M sops getT getD SI
      Dead SL param clock k 0
      { c0 := Chain.init sops oops n k param, c1 := Chain.init sops oops n k param,
        c2 := Chain.init sops oops n k param, c3 := Chain.init sops oops n k param }
      (InterlaceResult.init α) hpair hpair (fun _ => rfl) rfl rfl
      (hrec 0) (hrec 1) (hrec 2) (hrec 3)
    refine ⟨out, ?_, fun j => chainRec_get n L hL out h2 h3 j⟩
    unfold interlace_greedy
    have hkn : (!decide (k ≤ n)) = false := by simp [hk]
    rw [hkn]
    exact h1
  -- The function `stochastic_greedy` over a positive definite kernel returns a selection
  -- with its log-determinant.
  have stochastic_greedy_spec {α : Type} [LinearOrderedField α]
      {sqrt log : α → α} [Numeric sqrt log] [FloorRing α]
      {τ σ : Type} (n : Nat) (L : Nat → Nat → α)
      (hL : PosDefOn n L) (oops : OracleOps σ α) (Good : σ → Prop) (Fresh : σ → Nat → Prop)
      (M : OracleMath n L oops Good Fresh) (sops : StrategyOps τ σ α) (getT : τ → List Nat)
      (getD : τ → Bool) (SI : τ → Prop) (Dead : τ → σ → Prop)
      (SL : StrategyLaw n oops Good sops getT getD SI Dead)
      (k : Nat) (hk : k ≤ n) (param : Param α) (clock : Nat → α) (rng : Nat → Nat) :
      ∃ r, stochastic_greedy log sops oops n k param clock rng = .ok r ∧
        r.value = logdet log L r.solution ∧ r.solution.Nodup ∧
        ∀ x ∈ r.solution, x < n := by
    -- The loop of `stochastic_greedy` over a positive definite kernel returns a selection
    -- with its log-determinant.
    have stochastic_greedy_loop_spec {α : Type} [LinearOrderedField α]
        {sqrt log : α → α} [Numeric sqrt log] [FloorRing α]
        {τ σ : Type} (n : Nat) (L : Nat → Nat → α)
        (hL : PosDefOn n L) (oops : OracleOps σ α) (Good : σ → Prop) (Fresh : σ → Nat → Prop)
        (M : OracleMath n L oops Good Fresh) (sops : StrategyOps τ σ α) (getT : τ → List Nat)
        (getD : τ → Bool) (SI : τ → Prop) (Dead : τ → σ → Prop)
        (SL : StrategyLaw n oops Good sops getT getD SI Dead)
        (k s : Nat) (hs : 0 < s) (param : Param α) (clock : Nat → α) (rng : Nat → Nat) :
        ∀ (m t pos : Nat) (T : List Nat) (T_inv : Nat → Int) (o : σ), Good o → TInv T T_inv →
          (∀ x, x ∈ T ↔ (x < n ∧ x ∉ oops.get_solution o)) →
          T.length + (oops.get_solution o).length = n → (oops.get_solution o).length + m ≤ n →
          ∃ r, stochastic_greedy_loop sops oops n k s param clock rng m t pos T T_inv o = .ok r ∧
            r.value = logdet log L r.solution ∧ r.solution.Nodup ∧
            ∀ x ∈ r.solution, x < n := by
      intro m
      induction m with
      | zero =>
        intro t pos T T_inv o hg _ _ _ _
        exact ⟨_, rfl, M.good_value o hg, M.good_nodup o hg, M.good_range o hg⟩
      | succ m ih =>
        intro t pos T T_inv o hg hTI hT hTlen hlen
        have hcs1 : 0 < min s (n - (oops.get_solution o).length) := by
          apply lt_min hs
          omega
        have hcs2 : min s (n - (oops.get_solution o).length) ≤ T.length := by
          have := min_le_right s (n - (oops.get_solution o).length)
          omega
        obtain ⟨f1, f2, f3⟩ := fisher_yates_shuffle_spec rng
          (min s (n - (oops.get_solution o).length)) pos T T_inv hTI hcs2
        have hrnd : ((fisher_yates_shuffle rng (min s (n - (oops.get_solution o).length)) pos T
            T_inv).1.take (min s (n - (oops.get_solution o).length))).Nodup :=
          List.Nodup.sublist (List.take_sublist _ _) f1.1
        have hrmem : ∀ e ∈ (fisher_yates_shuffle rng (min s (n - (oops.get_solution o).length)) pos
            T T_inv).1.take (min s (n - (oops.get_solution o).length)),
            e < n ∧ e ∉ oops.get_solution o :=
          fun e he => (hT e).mp ((f3 e).mp (List.mem_of_mem_take he))
        have hrne : (fisher_yates_shuffle rng (min s (n - (oops.get_solution o).length)) pos T
            T_inv).1.take (min s (n - (oops.get_solution o).length)) ≠ [] := by
          intro h0
          have h1 := congrArg List.length h0
          rw [List.length_take, f2, Nat.min_eq_left hcs2] at h1
          rw [List.length_nil] at h1
          omega
        obtain ⟨d1, d2, d3, d4, d5⟩ := SL.construct_spec _ false o hg hrnd hrmem
        obtain ⟨e1, e2, _, _⟩ := steps_good n L oops Good Fresh M _ _ _ hg hrmem d5
        have hT1 : ∀ e ∈ getT (sops.construct ((fisher_yates_shuffle rng
            (min s (n - (oops.get_solution o).length)) pos T T_inv).1.take
            (min s (n - (oops.get_solution o).length))) false o).1,
            e < n ∧ e ∉ oops.get_solution (sops.construct ((fisher_yates_shuffle rng
            (min s (n - (oops.get_solution o).length)) pos T T_inv).1.take
            (min s (n - (oops.get_solution o).length))) false o).2 := by
          intro e he
          rw [e2]
          exact hrmem e ((d2 e).mp he)
        have hne : getT (sops.construct ((fisher_yates_shuffle rng
            (min s (n - (oops.get_solution o).length)) pos T T_inv).1.take
            (min s (n - (oops.get_solution o).length))) false o).1 ≠ [] := by
          obtain ⟨x, hx⟩ := List.exists_mem_of_ne_nil _ hrne
          exact List.ne_nil_of_mem ((d2 x).mpr hx)
        obtain ⟨r, s1, o1, hok, hpo, _, _⟩ := SL.pop_spec _ _ e1 d4 d1 hT1 (Or.inr hne)
        obtain ⟨g1, g2, g3, g4⟩ :=
          popOut_good n L oops Good Fresh M getT getD SI _ _ r s1 o1 e1 hT1 hpo
        obtain ⟨q1, q2, q3, q4, q5⟩ := hpo
        rw [stochastic_greedy_loop]
        simp only [hok]
        by_cases hexp : expired param (clock t) = true
        · rw [if_pos hexp]
          refine ⟨_, rfl, ?_, ?_, ?_⟩
          · simp only [Result.unfinished]
            rw [logdet_nil]
          · simp [Result.unfinished]
          · simp [Result.unfinished]
        · rw [if_neg hexp]
          cases r with
          | none =>
            have := (q4 rfl).1
            rw [d3] at this
            cases this
          | some e =>
            obtain ⟨heT, _, _, _⟩ := q5 e rfl
            obtain ⟨he, heS⟩ := hrmem e ((d2 e).mp heT)
            have heT' : e ∈ (fisher_yates_shuffle rng (min s (n - (oops.get_solution o).length))
                pos T T_inv).1 := List.mem_of_mem_take ((d2 e).mp heT)
            have hS1 : oops.get_solution o1 = oops.get_solution o := by rw [g2, e2]
            have heS1 : e ∉ oops.get_solution o1 := by rw [hS1]; exact heS
            have hpos : 0 < schur L (oops.get_solution o1) e := by
              rw [hS1]
              exact schur_pos n L hL _ (M.good_range o hg) (M.good_nodup o hg) e he heS
            have hg2 : Good (oops.add o1 e) := M.add_good o1 e g1 he heS1 (g4 e rfl) hpos
            have hS2 : oops.get_solution (oops.add o1 e) = oops.get_solution o ++ [e] := by
              rw [M.law.add_S, hS1]
            obtain ⟨r1, r2, r3⟩ := remove_T_spec e _ _ f1 heT'
            simp only []
            refine ih (t + 1) _ _ _ _ hg2 r1 ?_ ?_ ?_
            · intro x
              rw [r3 x, f3 x, hT x, hS2]
              simp only [List.mem_append, List.mem_singleton, not_or]
              exact and_assoc
            · rw [hS2, List.length_append, List.length_singleton]
              omega
            · rw [hS2, List.length_append, List.length_singleton]
              omega
    obtain ⟨c1, c2⟩ := M.construct_good k param.log_computed_offdiagonals_V
    unfold stochastic_greedy
    have hkn : (!decide (k ≤ n)) = false := by simp [hk]
    rw [hkn]
    simp only [Bool.false_eq_true, if_false]
    by_cases hk0 : k = 0
    · subst hk0
      rw [stochastic_greedy_loop]
      exact ⟨_, rfl, M.good_value _ c1, M.good_nodup _ c1, M.good_range _ c1⟩
    · have hkpos : 0 < k := Nat.pos_of_ne_zero hk0
      have hs : 0 < Nat.ceil ((n : α) / (k : α) * log (1 / (1 / 2))) := by
        rw [Nat.ceil_pos]
        apply mul_pos
        · apply div_pos
          · exact_mod_cast lt_of_lt_of_le hkpos hk
          · exact_mod_cast hkpos
        · apply numeric_log_pos sqrt log
          norm_num
      refine stochastic_greedy_loop_spec n L hL oops Good Fresh M sops getT getD SI Dead SL k _
        hs param clock rng k 0 0 (List.range n) (fun e => (e : Int)) _ c1 ?_ ?_ ?_ ?_
      · refine ⟨List.nodup_range n, ?_⟩
        intro p hp
        rw [List.length_range] at hp
        simp [List.getD_eq_getElem?_getD, List.getElem?_range hp]
      · intro x
        rw [c2, List.mem_range]
        simp
      · rw [c2, List.length_range]
        rfl
      · rw [c2]
        simpa using hk
  -- The function `random_greedy` over a positive definite kernel returns a selection with
  -- its log-determinant.
  have random_greedy_spec {α : Type} [LinearOrderedField α]
      {sqrt log : α → α} [Numeric sqrt log]
      {τ σ : Type} (n : Nat) (L : Nat → Nat → α)
      (hL : PosDefOn n L) (oops : OracleOps σ α) (Good : σ → Prop) (Fresh : σ → Nat → Prop)
      (M : OracleMath n L oops Good Fresh) (sops : StrategyOps τ σ α) (getT : τ → List Nat)
      (getD : τ → Bool) (SI : τ → Prop) (Dead : τ → σ → Prop)
      (SL : StrategyLaw n oops Good sops getT getD SI Dead)
      (k : Nat) (hk : k ≤ n) (param : Param α) (clock : Nat → α) (rng : Nat → Nat) :
      ∃ r, random_greedy sops oops n k param clock rng = .ok r ∧
        r.value = logdet log L r.solution ∧ r.solution.Nodup ∧
        ∀ x ∈ r.solution, x < n := by
    -- The loop of `random_greedy` over a positive definite kernel returns a selection with
    -- its log-determinant.
    have random_greedy_loop_spec {α : Type} [LinearOrderedField α]
        {sqrt log : α → α} [Numeric sqrt log]
        {τ σ : Type} (n : Nat) (L : Nat → Nat → α)
        (hL : PosDefOn n L) (oops : OracleOps σ α) (Good : σ → Prop) (Fresh : σ → Nat → Prop)
        (M : OracleMath n L oops Good Fresh) (sops : StrategyOps τ σ α) (getT : τ → List Nat)
        (getD : τ → Bool) (SI : τ → Prop) (Dead : τ → σ → Prop)
        (SL : StrategyLaw n oops Good sops getT getD SI Dead)
        (k : Nat) (param : Param α) (clock : Nat → α) (rng : Nat → Nat) :
        ∀ (m t : Nat) (s : τ) (o : σ), Good o → SI s → getD s = true → (getT s).Nodup →
          (∀ x ∈ getT s, x < n ∧ x ∉ oops.get_solution o) →
          ∃ r, random_greedy_loop sops oops k param clock rng m t s o = .ok r ∧
            r.value = logdet log L r.solution ∧ r.solution.Nodup ∧
            ∀ x ∈ r.solution, x < n := by
      intro m
      induction m with
      | zero =>
        intro t s o hg _ _ _ _
        exact ⟨_, rfl, M.good_value o hg, M.good_nodup o hg, M.good_range o hg⟩
      | succ m ih =>
        intro t s o hg hSI hD hnd hT
        obtain ⟨r, s1, o1, hok, hpo⟩ := SL.pop_kth_spec s o
          (uniform_int 0 (max 0 (k - 1)) (rng t)) hg hSI hnd hT (Or.inl hD)
        obtain ⟨g1, g2, g3, g4⟩ :=
          popOut_good n L oops Good Fresh M getT getD SI s o r s1 o1 hg hT hpo
        obtain ⟨q1, q2, q3, q4, q5⟩ := hpo
        rw [random_greedy_loop]
        simp only [hok]
        by_cases hexp : expired param (clock t) = true
        · rw [if_pos hexp]
          refine ⟨_, rfl, ?_, ?_, ?_⟩
          · simp only [Result.unfinished]
            rw [logdet_nil]
          · simp [Result.unfinished]
          · simp [Result.unfinished]
        · rw [if_neg hexp]
          cases r with
          | none =>
            obtain ⟨_, hmem, _⟩ := q4 rfl
            exact ih (t + 1) s1 o1 g1 q2 (by rw [q1]; exact hD) q3
              (fun x hx => by rw [g2]; exact hT x ((hmem x).mp hx))
          | some e =>
            obtain ⟨heT, hmem, _, _⟩ := q5 e rfl
            obtain ⟨he, heS⟩ := hT e heT
            have heS1 : e ∉ oops.get_solution o1 := by rw [g2]; exact heS
            have hpos : 0 < schur L (oops.get_solution o1) e := by
              rw [g2]
              exact schur_pos n L hL _ (M.good_range o hg) (M.good_nodup o hg) e he heS
            have hg2 : Good (oops.add o1 e) := M.add_good o1 e g1 he heS1 (g4 e rfl) hpos
            refine ih (t + 1) s1 (oops.add o1 e) hg2 q2 (by rw [q1]; exact hD) q3 ?_
            intro x hx
            obtain ⟨hx1, hx2⟩ := (hmem x).mp hx
            refine ⟨(hT x hx1).1, ?_⟩
            rw [M.law.add_S, g2]
            intro hm
            rcases List.mem_append.mp hm with h | h
            · exact (hT x hx1).2 h
            · exact hx2 (List.mem_singleton.mp h)
    obtain ⟨c1, c2⟩ := M.construct_good k param.log_computed_offdiagonals_V
    have hr : ∀ e ∈ List.range n, e < n ∧
        e ∉ oops.get_solution (oops.construct k param.log_computed_offdiagonals_V) := by
      intro e he
      rw [c2]
      exact ⟨List.mem_range.mp he, List.not_mem_nil e⟩
    obtain ⟨d1, d2, d3, d4, d5⟩ := SL.construct_spec (List.range n) true _ c1
      (List.nodup_range n) hr
    obtain ⟨e1, e2, _, _⟩ := steps_good n L oops Good Fresh M _ _ _ c1 hr d5
    unfold random_greedy
    have hkn : (!decide (k ≤ n)) = false := by simp [hk]
    rw [hkn]
    refine random_greedy_loop_spec n L hL oops Good Fresh M sops getT getD SI Dead SL k param
      clock rng k 0 _ _ e1 d4 d3 d1 ?_
    intro x hx
    rw [e2]
    exact hr x ((d2 x).mp hx)
  refine ⟨?_, ?_, ?_, ?_⟩
  · obtain ⟨out, S, h1, h2, h3, h4, _, _, _⟩ :=
      greedy_spec n L hL oops Good Fresh M sops getT getD SI Dead SL (fun _ _ => True)
        (fun _ _ => True) (fun _ _ _ _ _ _ _ _ _ _ _ _ _ => ⟨trivial, trivial⟩) k hk param clock
        trivial
    have hget : ∀ j, ValueConsistent n L (out.get j) := by
      intro j
      obtain ⟨r, r1, r2, r3, _⟩ := records_get L out S h2 j
      refine valueConsistent_of n L hL _ ⟨r, r1, r3, ?_, ?_⟩
      · rw [r2]
        exact List.Nodup.sublist (List.take_sublist _ _) h3
      · intro x hx
        rw [r2] at hx
        exact h4 x (List.mem_of_mem_take hx)
    exact ⟨out, h1, hget _, hget⟩
  · exact valueConsistent_of n L hL _
      (random_greedy_spec n L hL oops Good Fresh M sops getT getD SI Dead SL k hk param clock rng)
  · exact valueConsistent_of n L hL _
      (stochastic_greedy_spec n L hL oops Good Fresh M sops getT getD SI Dead SL k hk param
        clock rng)
  · obtain ⟨out, h1, h2⟩ :=
      interlace_greedy_spec n L hL oops Good Fresh M sops getT getD SI Dead SL k hk param clock
    exact ⟨out, h1, valueConsistent_of n L hL _ (h2 _),
      fun j => valueConsistent_of n L hL _ (h2 j)⟩

/-- C1: value consistency.  For every positive definite `L` on `n` elements and every
`k ≤ n`, every result that plain greedy, random greedy, stochastic greedy and interlace
greedy return, with the lazy or the non-lazy strategy over the direct or the fast oracle,
and every result that double greedy returns over the direct or the fast oracle, has as its
value the log-determinant of `L[S,S]` for its solution `S`, the determinant being the
product of the gains of the elements of `S`; none of the drivers fails. -/
theorem value_consistency (n : Nat) (L : Nat → Nat → ℝ) (hL : PosDefOn n L) (k : Nat)
    (hk : k ≤ n) (ord : List Nat → List Nat) (hord : SetOrder ord)
    (V0 : Nat → Nat → Option ℝ) (param : Param ℝ) (clock : Nat → ℝ) (rng : Nat → Nat)
    (Linv : Nat → Nat → ℝ) :
    DriversConsistent n L k param clock rng (NonLazy.ops ord (Oracle.ops Real.log L))
      (Oracle.ops Real.log L) ∧
    DriversConsistent n L k param clock rng (Lazy.ops ord (Oracle.ops Real.log L))
      (Oracle.ops Real.log L) ∧
    DriversConsistent n L k param clock rng
      (NonLazy.ops ord (Fast.ops Real.sqrt Real.log V0 L)) (Fast.ops Real.sqrt Real.log V0 L) ∧
    DriversConsistent n L k param clock rng
      (Lazy.ops ord (Fast.ops Real.sqrt Real.log V0 L)) (Fast.ops Real.sqrt Real.log V0 L) ∧
    ValueConsistent n L (double_greedy Real.log (Oracle.ops Real.log L)
      (Oracle.ops Real.log Linv) n param clock rng) ∧
    ValueConsistent n L (double_greedy Real.log (Fast.ops Real.sqrt Real.log V0 L)
      (Fast.ops Real.sqrt Real.log V0 Linv) n param clock rng) := by
  -- The function `double_greedy` over a positive definite kernel returns the selection of
  -- the oracle over `L` with its log-determinant.
  have double_greedy_spec {α : Type} [LinearOrderedField α]
      {sqrt log : α → α} [Numeric sqrt log]
      {σ : Type} (n : Nat) (L : Nat → Nat → α)
      (hL : PosDefOn n L) (oops : OracleOps σ α) (Good : σ → Prop) (Fresh : σ → Nat → Prop)
      (M : OracleMath n L oops Good Fresh) (oops_inv : OracleOps σ α)
      (param : Param α) (clock : Nat → α) (rng : Nat → Nat) :
      ∃ r, double_greedy log oops oops_inv n param clock rng = .ok r ∧
        r.value = logdet log L r.solution ∧ r.solution.Nodup ∧
        ∀ x ∈ r.solution, x < n := by
    -- The loop of `double_greedy` over a positive definite kernel returns the selection of
    -- the oracle over `L` with its log-determinant, whatever the second oracle is.
    have double_greedy_loop_spec {α : Type} [LinearOrderedField α]
        {sqrt log : α → α} [Numeric sqrt log]
        {σ : Type} (n : Nat) (L : Nat → Nat → α)
        (hL : PosDefOn n L) (oops : OracleOps σ α) (Good : σ → Prop) (Fresh : σ → Nat → Prop)
        (M : OracleMath n L oops Good Fresh) (oops_inv : OracleOps σ α)
        (param : Param α) (clock : Nat → α) (rng : Nat → Nat) :
        ∀ (m i : Nat) (o oi : σ), Good o → i + m ≤ n → (∀ x ∈ oops.get_solution o, x < i) →
          ∃ r, double_greedy_loop log oops oops_inv n param clock rng m i o oi = .ok r ∧
            r.value = logdet log L r.solution ∧ r.solution.Nodup ∧
            ∀ x ∈ r.solution, x < n := by
      intro m
      induction m with
      | zero =>
        intro i o oi hg _ _
        exact ⟨_, rfl, M.good_value o hg, M.good_nodup o hg, M.good_range o hg⟩
      | succ m ih =>
        intro i o oi hg him hS
        have hi : i < n := by omega
        have hiS : i ∉ oops.get_solution o := fun h => Nat.lt_irrefl i (hS i h)
        obtain ⟨c1, c2, _⟩ := M.compute_good o i hg hi hiS
        rw [double_greedy_loop]
        by_cases hexp : expired param (clock i) = true
        · rw [if_pos hexp]
          refine ⟨_, rfl, ?_, ?_, ?_⟩
          · simp only [Result.unfinished]
            rw [logdet_nil]
          · simp [Result.unfinished]
          · simp [Result.unfinished]
        · rw [if_neg hexp]
          have hiS1 : i ∉ oops.get_solution (oops.compute_marginal_gain_exponential o i).2 := by
            rw [M.law.compute_S]; exact hiS
          have hpos : 0 < schur L
              (oops.get_solution (oops.compute_marginal_gain_exponential o i).2) i := by
            rw [M.law.compute_S]
            exact schur_pos n L hL _ (M.good_range o hg) (M.good_nodup o hg) i hi hiS
          have key : ∀ (c : Bool) (y z : σ),
              Good (if c = true then (oops.add (oops.compute_marginal_gain_exponential o i).2 i, y)
                else ((oops.compute_marginal_gain_exponential o i).2, z)).1 ∧
              ∀ x ∈ oops.get_solution
                (if c = true then (oops.add (oops.compute_marginal_gain_exponential o i).2 i, y)
                  else ((oops.compute_marginal_gain_exponential o i).2, z)).1, x < i + 1 := by
            intro c y z
            cases c with
            | true =>
              simp only [if_true]
              refine ⟨M.add_good _ i c1 hi hiS1 c2 hpos, ?_⟩
              intro x hx
              rw [M.law.add_S, M.law.compute_S] at hx
              rcases List.mem_append.mp hx with h | h
              · exact Nat.lt_succ_of_lt (hS x h)
              · rw [List.mem_singleton.mp h]; exact Nat.lt_succ_self i
            | false =>
              simp only [Bool.false_eq_true, if_false]
              refine ⟨c1, ?_⟩
              intro x hx
              rw [M.law.compute_S] at hx
              exact Nat.lt_succ_of_lt (hS x hx)
          exact ih (i + 1) _ _ (key _ _ _).1 (by omega) (key _ _ _).2
    obtain ⟨c1, c2⟩ := M.construct_good n false
    refine double_greedy_loop_spec n L hL oops Good Fresh M oops_inv param clock rng n 0 _ _ c1
      (by omega) ?_
    intro x hx
    rw [c2] at hx
    cases hx
  have MD := direct_math n L hL
  have MF := fast_math n L hL V0
  refine ⟨?_, ?_, ?_, ?_, ?_, ?_⟩
  · exact drivers_consistent n L hL _ _ _ MD _ _ _ _ _
      (nonlazy_law n _ MD.law _ ord hord) k hk param clock rng
  · exact drivers_consistent n L hL _ _ _ MD _ _ _ _ _
      (lazy_law n _ MD.law _ ord hord) k hk param clock rng
  · exact drivers_consistent n L hL _ _ _ MF _ _ _ _ _
      (nonlazy_law n _ MF.law _ ord hord) k hk param clock rng
  · exact drivers_consistent n L hL _ _ _ MF _ _ _ _ _
      (lazy_law n _ MF.law _ ord hord) k hk param clock rng
  · exact valueConsistent_of n L hL _
      (double_greedy_spec n L hL _ _ _ MD _ param clock rng)
  · exact valueConsistent_of n L hL _
      (double_greedy_spec n L hL _ _ _ MF _ param clock rng)

theorem setOrder_id : SetOrder (fun l => l.dedup) := by
  intro l
  exact ⟨List.nodup_dedup l, fun x => List.mem_dedup⟩

/-- Witness of C1: the identity kernel on two elements with `k = 1`. -/
theorem value_consistency_witness :
    DriversConsistent 2 (idKernel ℝ) 1 { time_limit := ⊤, log_computed_offdiagonals_V := false }
      (fun _ => 0) (fun _ => 0) (NonLazy.ops (fun l => l.dedup) (Oracle.ops Real.log (idKernel ℝ)))
      (Oracle.ops Real.log (idKernel ℝ)) :=
  (value_consistency 2 (idKernel ℝ) (posDefOn_id 2) 1 (by decide) (fun l => l.dedup)
    setOrder_id (fun _ _ => none) { time_limit := ⊤, log_computed_offdiagonals_V := false }
    (fun _ => 0) (fun _ => 0) (idKernel ℝ)).1

end DPP

namespace DPP

/-- Over a diagonal kernel the gain of an element is its diagonal entry, whatever the
selection. -/
theorem schur_diag {α : Type} [LinearOrderedField α]
    {sqrt log : α → α} [Numeric sqrt log]
    (n : Nat) (L : Nat → Nat → α)
    (hdiag : ∀ i j, i < n → j < n → i ≠ j → L i j = 0) (S : List Nat) (hr : ∀ x ∈ S, x < n)
    (e : Nat) (he : e < n) (heS : e ∉ S) : schur L S e = L e e := by
  unfold schur
  have h0 : subVector L S e = 0 := by
    funext i
    exact hdiag (S.get i) e (hr _ (List.get_mem S i.1 i.2)) he
      (fun h => heS (h ▸ List.get_mem S i.1 i.2))
  rw [h0, Matrix.zero_dotProduct, sub_zero]

/-- The entries that the constructor of the lazy strategy builds store gains against
prefixes of the selection. -/
theorem entries_stale {α : Type} [LinearOrderedField α]
    {sqrt log : α → α} [Numeric sqrt log]
    {σ : Type} (n : Nat) (L : Nat → Nat → α) (oops : OracleOps σ α)
    (Good : σ → Prop) (Fresh : σ → Nat → Prop) (M : OracleMath n L oops Good Fresh) :
    ∀ (es : List Nat) (o : σ), Good o → (∀ e ∈ es, e < n ∧ e ∉ oops.get_solution o) →
      ∀ p ∈ (Lazy.entries oops es o).1, ∃ m, m ≤ (oops.get_solution o).length ∧
        p.value = schur L ((oops.get_solution o).take m) p.element := by
  intro es
  induction es with
  | nil =>
    intro o _ _ p hp
    cases hp
  | cons e es ih =>
    intro o hg hes p hp
    obtain ⟨he, heS⟩ := hes e (List.mem_cons_self _ _)
    obtain ⟨g1, m, hm, hv⟩ := M.get_last_good o e hg he heS
    simp only [Lazy.entries, List.mem_cons] at hp
    rcases hp with h | h
    · rw [h]
      exact ⟨m, hm, hv⟩
    · have hS := M.law.get_last_S o e
      have := ih _ g1 (fun x hx => by
        rw [hS]; exact hes x (List.mem_cons_of_mem _ hx)) p h
      rw [hS] at this
      exact this

/-- An element that no element of `T` exceeds. -/
theorem rank_zero_top {α : Type} [LinearOrderedField α] (g : Nat → α) (T : List Nat) (e : Nat)
    (h : rankIn g T e = 0) : ∀ x ∈ T,
      ElementValuePair.less { element := e, value := g e } { element := x, value := g x }
        = false := by
  intro x hx
  unfold rankIn at h
  have h0 := List.length_eq_zero.mp h
  have hx' : x ∉ T.filter fun x =>
      ElementValuePair.less { element := e, value := g e } { element := x, value := g x } := by
    rw [h0]
    exact List.not_mem_nil x
  rw [List.mem_filter] at hx'
  cases hh : ElementValuePair.less { element := e, value := g e }
    ({ element := x, value := g x } : ElementValuePair α) with
  | false => rfl
  | true => exact absurd ⟨hx, hh⟩ hx'

/-- The lazy strategy selects an element of largest gain, and one that no element outside
the selection exceeds in the order on (gain, -index) when the gains do not depend on the
selection; its heap entries go on storing gains against prefixes of the selection. -/
theorem lazy_hstep {α : Type} [LinearOrderedField α]
    {sqrt log : α → α} [Numeric sqrt log]
    {σ : Type} (n : Nat) (L : Nat → Nat → α) (oops : OracleOps σ α)
    (Good : σ → Prop) (Fresh : σ → Nat → Prop) (M : OracleMath n L oops Good Fresh)
    (ord : List Nat → List Nat) (s : Lazy.Instance α) (o : σ) (e : Nat)
    (s1 : Lazy.Instance α) (o1 : σ) (hg : Good o) (hSI : Lazy.SI s)
    (hD : s.add_dummy = false) (hnd : s.T.Nodup)
    (hT : ∀ x, x ∈ s.T ↔ (x < n ∧ x ∉ oops.get_solution o))
    (hJ : Stale L (oops.get_solution o) s.T s.Q)
    (hok : (Lazy.ops ord oops).pop_largest s o = .ok (some e, s1, o1)) (heT : e ∈ s.T) :
    (MaxGain n L (oops.get_solution o) e ∧
      ((∀ x m, x < n → x ∉ oops.get_solution o →
          schur L ((oops.get_solution o).take m) x = schur L (oops.get_solution o) x) →
        TopGain n L (oops.get_solution o) e)) ∧
    Stale L (oops.get_solution o ++ [e]) s1.T s1.Q := by
  have hTS : ∀ x ∈ s.T, x ∉ oops.get_solution o := fun x hx => ((hT x).mp hx).2
  have hgain : ∀ x ∈ s.T, gainAt oops o x = schur L (oops.get_solution o) x :=
    fun x hx => gain_good n L oops Good Fresh M o hg x ((hT x).mp hx).1 ((hT x).mp hx).2
  obtain ⟨r', s1', o1', hok', hpost⟩ := lazy_pop_largest_spec oops M.law o s o
    (gainEq_refl oops o) hnd hTS (fun hd => ⟨hSI hd, List.ne_nil_of_mem heT⟩)
  have hok2 : Lazy.pop_largest oops s o = .ok (some e, s1, o1) := hok
  rw [hok'] at hok2
  simp only [Except.ok.injEq, Prod.mk.injEq] at hok2
  obtain ⟨rfl, rfl, rfl⟩ := hok2
  obtain ⟨_, _, p3, _, p5, _⟩ := hpost
  obtain ⟨_, a2, _, a4, a5⟩ := p5 e rfl
  have hcov := hSI hD
  refine ⟨⟨?_, ?_⟩, ?_⟩
  · have hub : UpperBound (gainAt oops o) s.T s.Q := by
      intro p hp hpT
      obtain ⟨m, hm, hv⟩ := hJ p hp hpT
      rw [hv, hgain _ hpT]
      exact M.gain_mono o _ m hg ((hT _).mp hpT).1 ((hT _).mp hpT).2 hm
    intro x hx hxS
    have hxT : x ∈ s.T := (hT x).mpr ⟨hx, hxS⟩
    have := a4 hcov hub x hxT
    rw [hgain x hxT, hgain e heT] at this
    exact this
  · intro hflat
    have hex : Exact (gainAt oops o) s.T s.Q := by
      intro p hp hpT
      obtain ⟨m, _, hv⟩ := hJ p hp hpT
      rw [hv, hgain _ hpT]
      exact hflat _ m ((hT _).mp hpT).1 ((hT _).mp hpT).2
    have hrank := a5 hcov hex
    intro x hx hxS
    have hxT : x ∈ s.T := (hT x).mpr ⟨hx, hxS⟩
    have := rank_zero_top _ _ _ hrank x hxT
    rw [hgain x hxT, hgain e heT] at this
    exact this
  · intro p hp hpT
    have hpT' : p.element ∈ s.T := by
      rw [a2] at hpT
      exact List.mem_of_mem_erase hpT
    rcases p3 p hp with h | ⟨_, h⟩
    · obtain ⟨m, hm, hv⟩ := hJ p h hpT'
      refine ⟨m, by rw [List.length_append]; omega, ?_⟩
      rw [List.take_append_of_le_length hm]
      exact hv
    · refine ⟨(oops.get_solution o).length, by rw [List.length_append]; omega, ?_⟩
      rw [List.take_left' rfl, h, hgain _ hpT']

end DPP

namespace DPP

theorem greedy_len_top {α : Type} [LinearOrderedField α]
    {sqrt log : α → α} [Numeric sqrt log]
    (param : Param α) (clock : Nat → α) (h : param.time_limit = ⊤) :
    ∀ m t, greedy_len param clock m t = m ∧ greedy_fin param clock m t = true := by
  have hexp : ∀ t, expired param (clock t) = false := by
    intro t
    simp [expired, h]
  intro m
  induction m with
  | zero => intro t; exact ⟨rfl, rfl⟩
  | succ m ih =>
    intro t
    simp only [greedy_len, greedy_fin, hexp, Bool.false_eq_true, if_false]
    exact ⟨by rw [(ih (t + 1)).1], (ih (t + 1)).2⟩

/-- Plain greedy with the non-lazy strategy selects at every step an element that no
element outside the selection exceeds in the order on (gain, -index). -/
theorem greedy_nonlazy_top {α : Type} [LinearOrderedField α]
    {sqrt log : α → α} [Numeric sqrt log]
    {σ : Type} (n : Nat) (L : Nat → Nat → α) (hL : PosDefOn n L)
    (oops : OracleOps σ α) (Good : σ → Prop) (Fresh : σ → Nat → Prop)
    (M : OracleMath n L oops Good Fresh) (ord : List Nat → List Nat) (hord : SetOrder ord)
    (k : Nat) (hk : k ≤ n) (param : Param α) (clock : Nat → α) :
    ∃ out S, greedy (NonLazy.ops ord oops) oops n k param clock = .ok out ∧
      GreedyResult.Records L out S ∧ S.Nodup ∧ (∀ x ∈ S, x < n) ∧
      S.length = greedy_len param clock k 0 ∧ out.finished = greedy_fin param clock k 0 ∧
      ∀ j, j < S.length → TopGain n L (S.take j) (S.getD j 0) := by
  -- The non-lazy strategy selects an element that no element outside the selection
  -- exceeds in the order on (gain, -index).
  have nonlazy_hstep {α : Type} [LinearOrderedField α]
      {sqrt log : α → α} [Numeric sqrt log]
      {σ : Type} (n : Nat) (L : Nat → Nat → α) (oops : OracleOps σ α)
      (Good : σ → Prop) (Fresh : σ → Nat → Prop) (M : OracleMath n L oops Good Fresh)
      (ord : List Nat → List Nat) (s : NonLazy.Instance) (o : σ) (e : Nat)
      (s1 : NonLazy.Instance) (o1 : σ) (hg : Good o) (hD : s.add_dummy = false)
      (hnd : s.T.Nodup) (hT : ∀ x, x ∈ s.T ↔ (x < n ∧ x ∉ oops.get_solution o))
      (hok : (NonLazy.ops ord oops).pop_largest s o = .ok (some e, s1, o1)) (heT : e ∈ s.T) :
      TopGain n L (oops.get_solution o) e := by
    have hi : 0 < s.T.length := List.length_pos_of_mem heT
    obtain ⟨e', o1', he', hrank, _, heq⟩ := nonlazy_pop_kth_spec oops M.law s o 0 hnd
      (fun x hx => ((hT x).mp hx).2) hi
    have hc : ¬ (s.add_dummy && decide (gainAt oops o e' ≤ 1)) = true := by
      rw [hD]
      simp
    rw [if_neg hc] at heq
    have hok' : NonLazy.pop_kth_largest oops s o 0 = .ok (some e, s1, o1) := hok
    rw [heq] at hok'
    simp only [Except.ok.injEq, Prod.mk.injEq, Option.some.injEq] at hok'
    obtain ⟨rfl, _, _⟩ := hok'
    intro x hx hxS
    have hxT : x ∈ s.T := (hT x).mpr ⟨hx, hxS⟩
    have := rank_zero_top _ _ _ hrank x hxT
    rw [gain_good n L oops Good Fresh M o hg e' ((hT e').mp he').1 ((hT e').mp he').2,
      gain_good n L oops Good Fresh M o hg x hx hxS] at this
    exact this
  exact greedy_spec n L hL oops Good Fresh M _ _ _ _ _ (nonlazy_law n oops M.law Good ord hord)
    (fun _ _ => True) (TopGain n L)
    (fun s o e s1 o1 hg _ hD hnd hT _ hok heT =>
      ⟨nonlazy_hstep n L oops Good Fresh M ord s o e s1 o1 hg hD hnd hT hok heT, trivial⟩)
    k hk param clock trivial

/-- Plain greedy with the lazy strategy selects at every step an element of largest gain,
and one that no element outside the selection exceeds in the order on (gain, -index) when
the gains do not depend on the selection. -/
theorem greedy_lazy_max {α : Type} [LinearOrderedField α]
    {sqrt log : α → α} [Numeric sqrt log]
    {σ : Type} (n : Nat) (L : Nat → Nat → α) (hL : PosDefOn n L)
    (oops : OracleOps σ α) (Good : σ → Prop) (Fresh : σ → Nat → Prop)
    (M : OracleMath n L oops Good Fresh) (ord : List Nat → List Nat) (hord : SetOrder ord)
    (k : Nat) (hk : k ≤ n) (param : Param α) (clock : Nat → α) :
    ∃ out S, greedy (Lazy.ops ord oops) oops n k param clock = .ok out ∧
      GreedyResult.Records L out S ∧ S.Nodup ∧ (∀ x ∈ S, x < n) ∧
      S.length = greedy_len param clock k 0 ∧ out.finished = greedy_fin param clock k 0 ∧
      ∀ j, j < S.length → MaxGain n L (S.take j) (S.getD j 0) ∧
        (Flat n L (S.take j) → TopGain n L (S.take j) (S.getD j 0)) := by
  obtain ⟨c1, c2⟩ := M.construct_good k param.log_computed_offdiagonals_V
  refine greedy_spec n L hL oops Good Fresh M _ _ _ _ _ (lazy_law n oops M.law Good ord hord)
    (fun s S => Stale L S s.T s.Q)
    (fun S e => MaxGain n L S e ∧ (Flat n L S → TopGain n L S e))
    (fun s o e s1 o1 hg hSI hD hnd hT hJ hok heT =>
      lazy_hstep n L oops Good Fresh M ord s o e s1 o1 hg hSI hD hnd hT hJ hok heT)
    k hk param clock ?_
  intro p hp hpT
  have hes : ∀ e ∈ ord (List.range n), e < n ∧
      e ∉ oops.get_solution (oops.construct k param.log_computed_offdiagonals_V) := by
    intro e he
    rw [c2]
    exact ⟨List.mem_range.mp (((hord (List.range n)).2 e).mp he), List.not_mem_nil e⟩
  have := entries_stale n L oops Good Fresh M (ord (List.range n)) _ c1 hes p hp
  rw [c2] at this
  exact this

/-- Over a diagonal kernel with a positive diagonal, the log-determinant of a selection is
the sum of the logarithms of its diagonal entries. -/
theorem logdet_diag {α : Type} [LinearOrderedField α]
    {sqrt log : α → α} [Numeric sqrt log]
    (n : Nat) (L : Nat → Nat → α)
    (hdiag : ∀ i j, i < n → j < n → i ≠ j → L i j = 0) (hpos : ∀ i, i < n → 0 < L i i) :
    ∀ (S : List Nat), S.Nodup → (∀ x ∈ S, x < n) →
      logdet log L S = some ((((S.map fun i => log (L i i)).sum : α) : WithBot α)) := by
  have hL := posDefOn_diag n L hdiag hpos
  intro S
  induction S using List.reverseRecOn with
  | nil =>
    intro _ _
    rw [logdet_nil]
    simp
  | append_singleton S e ih =>
    intro hnd hr
    have hnd' : S.Nodup := (List.nodup_append.mp hnd).1
    have hr' : ∀ x ∈ S, x < n := fun x hx => hr x (List.mem_append_left _ hx)
    have he : e < n := hr e (List.mem_append_right _ (List.mem_singleton_self e))
    have heS : e ∉ S := fun h =>
      (List.nodup_append.mp hnd).2.2 h (List.mem_singleton_self e)
    rw [← logdet_append n L hL S hr' hnd' e he heS, ih hnd' hr',
      schur_diag n L hdiag S hr' e he heS]
    have hp := hpos e he
    simp only [dlog, vadd, not_lt.mpr hp.le, hp.ne', if_false, List.map_append, List.map_cons,
      List.map_nil, List.sum_append, List.sum_cons, List.sum_nil, add_zero]
    rfl

end DPP

namespace DPP

/-- The last result of a `GreedyResult` whose records are those of `S`. -/
theorem records_last {α : Type} [LinearOrderedField α]
    {sqrt log : α → α} [Numeric sqrt log]
    (L : Nat → Nat → α) (res : GreedyResult α) (S : List Nat)
    (h : GreedyResult.Records L res S) :
    ∃ r, res.last = .ok r ∧ r.solution = S ∧ r.value = logdet log L S := by
  obtain ⟨r, r1, r2, r3, _⟩ := records_get L res S h S.length
  rw [if_pos (le_refl _), List.take_length] at r2
  refine ⟨r, ?_, r2, by rw [r3, r2]⟩
  unfold GreedyResult.last GreedyResult.size
  rw [h.2.1, Nat.add_sub_cancel]
  exact r1

/-- C6: for every diagonal `L` with a positive diagonal and every `k ≤ n`, plain greedy
with the lazy or the non-lazy strategy over the direct or the fast oracle returns the
indices by rank in the order on (diagonal entry, -index): its `j`-th element is the index
that exactly `j` indices exceed, that is, the indices of the largest diagonal entries in
decreasing order, ties towards the smaller index; the value is the sum of the logarithms
of their diagonal entries, and without a time limit there are `k` of them. -/
theorem greedy_diagonal (n : Nat) (L : Nat → Nat → ℝ)
    (hdiag : ∀ i j, i < n → j < n → i ≠ j → L i j = 0) (hpos : ∀ i, i < n → 0 < L i i)
    (k : Nat) (hk : k ≤ n) (ord : List Nat → List Nat) (hord : SetOrder ord)
    (V0 : Nat → Nat → Option ℝ) (param : Param ℝ) (clock : Nat → ℝ) :
    DiagGreedy n L k param clock (NonLazy.ops ord (Oracle.ops Real.log L))
      (Oracle.ops Real.log L) ∧
    DiagGreedy n L k param clock (Lazy.ops ord (Oracle.ops Real.log L))
      (Oracle.ops Real.log L) ∧
    DiagGreedy n L k param clock (NonLazy.ops ord (Fast.ops Real.sqrt Real.log V0 L))
      (Fast.ops Real.sqrt Real.log V0 L) ∧
    DiagGreedy n L k param clock (Lazy.ops ord (Fast.ops Real.sqrt Real.log V0 L))
      (Fast.ops Real.sqrt Real.log V0 L) := by
  have flat_diag {α : Type} [LinearOrderedField α]
      {sqrt log : α → α} [Numeric sqrt log]
      (n : Nat) (L : Nat → Nat → α)
      (hdiag : ∀ i j, i < n → j < n → i ≠ j → L i j = 0) (S : List Nat) (hr : ∀ x ∈ S, x < n) :
      Flat n L S := by
    intro x m hx hxS
    rw [schur_diag n L hdiag S hr x hx hxS,
      schur_diag n L hdiag (S.take m) (fun y hy => hr y (List.mem_of_mem_take hy)) x hx
        (fun h => hxS (List.mem_of_mem_take h))]
  -- Over a diagonal kernel, a run of plain greedy that selects at every step an element
  -- that no element outside the selection exceeds returns the indices by rank.
  have diagGreedy_of_top {α : Type} [LinearOrderedField α]
      {sqrt log : α → α} [Numeric sqrt log]
      {τ σ : Type} (n : Nat) (L : Nat → Nat → α)
      (hdiag : ∀ i j, i < n → j < n → i ≠ j → L i j = 0) (hpos : ∀ i, i < n → 0 < L i i)
      (k : Nat) (param : Param α) (clock : Nat → α) (sops : StrategyOps τ σ α)
      (oops : OracleOps σ α)
      (h : ∃ out S, greedy sops oops n k param clock = .ok out ∧
        GreedyResult.Records L out S ∧ S.Nodup ∧ (∀ x ∈ S, x < n) ∧
        S.length = greedy_len param clock k 0 ∧ out.finished = greedy_fin param clock k 0 ∧
        ∀ j, j < S.length → TopGain n L (S.take j) (S.getD j 0)) :
      DiagGreedy n L k param clock sops oops := by
    -- Over a diagonal kernel, a selection sequence in which every element is one that no
    -- element outside the elements before it exceeds lists the indices by rank.
    have top_rank {α : Type} [LinearOrderedField α]
        {sqrt log : α → α} [Numeric sqrt log]
        (n : Nat) (L : Nat → Nat → α)
        (hdiag : ∀ i j, i < n → j < n → i ≠ j → L i j = 0) (S : List Nat) (hnd : S.Nodup)
        (hr : ∀ x ∈ S, x < n) (htop : ∀ j, j < S.length → TopGain n L (S.take j) (S.getD j 0))
        (j : Nat) (hj : j < S.length) :
        rankIn (fun i => L i i) (List.range n) (S.getD j 0) = j := by
      have hmemj : S.getD j 0 ∈ S := (mem_iff_getD S _).mpr ⟨j, hj, rfl⟩
      have hnotin : ∀ i a, i ≤ a → a < S.length → S.getD a 0 ∉ S.take i := by
        intro i a hia ha hm
        obtain ⟨q, hq, hqe⟩ := (mem_iff_getD _ _).mp hm
        rw [List.length_take] at hq
        have hq' : q < i := lt_of_lt_of_le hq (min_le_left _ _)
        have e1 : (S.take i).getD q 0 = S.getD q 0 := by
          simp [List.getD_eq_getElem?_getD, List.getElem?_take, hq']
        rw [e1] at hqe
        have := nodup_getD_inj S hnd q a (by omega) ha hqe
        omega
      have hsd : ∀ i x, x < n → x ∉ S.take i → schur L (S.take i) x = L x x :=
        fun i x hx hxS => schur_diag n L hdiag _ (fun y hy => hr y (List.mem_of_mem_take hy)) x hx hxS
      have hperm : ((List.range n).filter fun x =>
          ElementValuePair.less { element := S.getD j 0, value := L (S.getD j 0) (S.getD j 0) }
            { element := x, value := L x x }).Perm (S.take j) := by
        rw [List.perm_ext_iff_of_nodup ((List.nodup_range n).filter _)
          (List.Nodup.sublist (List.take_sublist _ _) hnd)]
        intro x
        rw [List.mem_filter, List.mem_range]
        constructor
        · rintro ⟨hx, hless⟩
          by_contra hxS
          have := htop j hj x hx hxS
          rw [hsd j x hx hxS, hsd j _ (hr _ hmemj) (hnotin j j (le_refl _) hj)] at this
          rw [this] at hless
          cases hless
        · intro hx
          obtain ⟨q, hq, hqe⟩ := (mem_iff_getD _ _).mp hx
          rw [List.length_take] at hq
          have hq' : q < j := lt_of_lt_of_le hq (min_le_left _ _)
          have e1 : (S.take j).getD q 0 = S.getD q 0 := by
            simp [List.getD_eq_getElem?_getD, List.getElem?_take, hq']
          rw [e1] at hqe
          have hqS : q < S.length := by omega
          have hxn : x < n := hr x (List.mem_of_mem_take hx)
          refine ⟨hxn, ?_⟩
          have h1 := htop q hqS (S.getD j 0) (hr _ hmemj) (hnotin q j (le_of_lt hq') hj)
          rw [hsd q _ (hr _ hmemj) (hnotin q j (le_of_lt hq') hj),
            hsd q _ (hr _ ((mem_iff_getD S _).mpr ⟨q, hqS, rfl⟩)) (hnotin q q (le_refl _) hqS),
            hqe] at h1
          have hne : S.getD j 0 ≠ x := by
            intro h
            rw [← hqe] at h
            have := nodup_getD_inj S hnd j q hj hqS h
            omega
          rcases less_total (a := ({ element := S.getD j 0, value := L (S.getD j 0) (S.getD j 0) } :
              ElementValuePair α)) (b := { element := x, value := L x x }) hne with h2 | h2
          · exact h2
          · rw [h1] at h2
            cases h2
      have hlen := hperm.length_eq
      rw [List.length_take, Nat.min_eq_left (le_of_lt hj)] at hlen
      unfold rankIn
      exact hlen
    obtain ⟨out, S, h1, h2, h3, h4, h5, h6, h7⟩ := h
    obtain ⟨r, r1, r2, r3⟩ := records_last L out S h2
    refine ⟨out, r, h1, r1, by rw [r2]; exact h5, by rw [r2]; exact h3, by rw [r2]; exact h4,
      ?_, ?_, ?_⟩
    · intro j hj
      rw [r2] at hj ⊢
      exact top_rank n L hdiag S h3 h4 h7 j hj
    · rw [r3, r2]
      exact logdet_diag n L hdiag hpos S h3 h4
    · intro hlim
      obtain ⟨g1, g2⟩ := greedy_len_top param clock hlim k 0
      exact ⟨by rw [r2, h5, g1], by rw [h6, g2]⟩
  have hL := posDefOn_diag n L hdiag hpos
  have MD := direct_math n L hL
  have MF := fast_math n L hL V0
  have hlazy : ∀ {σ : Type} (oops : OracleOps σ ℝ) (Good : σ → Prop) (Fresh : σ → Nat → Prop),
      OracleMath n L oops Good Fresh →
      DiagGreedy n L k param clock (Lazy.ops ord oops) oops := by
    intro σ oops Good Fresh M
    obtain ⟨out, S, h1, h2, h3, h4, h5, h6, h7⟩ :=
      greedy_lazy_max n L hL oops Good Fresh M ord hord k hk param clock
    exact diagGreedy_of_top n L hdiag hpos k param clock _ _
      ⟨out, S, h1, h2, h3, h4, h5, h6, fun j hj =>
        (h7 j hj).2 (flat_diag n L hdiag _ (fun y hy => h4 y (List.mem_of_mem_take hy)))⟩
  exact ⟨diagGreedy_of_top n L hdiag hpos k param clock _ _
      (greedy_nonlazy_top n L hL _ _ _ MD ord hord k hk param clock),
    hlazy _ _ _ MD,
    diagGreedy_of_top n L hdiag hpos k param clock _ _
      (greedy_nonlazy_top n L hL _ _ _ MF ord hord k hk param clock),
    hlazy _ _ _ MF⟩

theorem testDiag_offdiag {α : Type} [LinearOrderedField α]
    {sqrt log : α → α} [Numeric sqrt log]
    (i j : Nat) (h : i ≠ j) : testDiag α i j = 0 := by
  simp [testDiag, h]

theorem testDiag_pos {α : Type} [LinearOrderedField α]
    {sqrt log : α → α} [Numeric sqrt log]
    (i : Nat) (h : i < 8) : 0 < testDiag α i i := by
  interval_cases i <;> simp [testDiag]

theorem list_eq_of_getD4 (S : List Nat) (a b c d : Nat) (hlen : S.length = 4)
    (h0 : S.getD 0 0 = a) (h1 : S.getD 1 0 = b) (h2 : S.getD 2 0 = c) (h3 : S.getD 3 0 = d) :
    S = [a, b, c, d] := by
  match S, hlen with
  | [x, y, z, w], _ =>
    simp at h0 h1 h2 h3
    rw [h0, h1, h2, h3]

/-- Witness of C6: on `diag(0.3, 0.2, 0.9, 0.5, 0.25, 0.125, 0.1, 2.0)` with `k = 4`, plain
greedy with the lazy strategy over the fast oracle returns `[7, 2, 3, 0]` with the value
`log 2 + log 0.9 + log 0.5 + log 0.3`. -/
theorem greedy_diagonal_witness :
    ∃ out r, greedy (Lazy.ops (fun l => l.dedup)
        (Fast.ops Real.sqrt Real.log (fun _ _ => none) (testDiag ℝ)))
        (Fast.ops Real.sqrt Real.log (fun _ _ => none) (testDiag ℝ)) 8 4
        { time_limit := ⊤, log_computed_offdiagonals_V := false } (fun _ => 0) = .ok out ∧
      out.last = .ok r ∧ out.finished = true ∧ r.solution = [7, 2, 3, 0] ∧
      r.value = some (((Real.log 2 + (Real.log (9 / 10) + (Real.log (5 / 10) +
        (Real.log (3 / 10) + 0))) : ℝ) : WithBot ℝ)) := by
  -- On `diag(0.3, 0.2, 0.9, 0.5, 0.25, 0.125, 0.1, 2.0)` with `k = 4` and no time limit, a
  -- run of plain greedy that returns the indices by rank returns `[7, 2, 3, 0]` with the value
  -- `log 2 + log 0.9 + log 0.5 + log 0.3`.
  have testDiag_run {α : Type} [LinearOrderedField α]
      {sqrt log : α → α} [Numeric sqrt log]
      {τ σ : Type} (sops : StrategyOps τ σ α) (oops : OracleOps σ α)
      (clock : Nat → α)
      (h : DiagGreedy 8 (testDiag α) 4 { time_limit := ⊤, log_computed_offdiagonals_V := false }
        clock sops oops) :
      ∃ out r, greedy sops oops 8 4
          { time_limit := ⊤, log_computed_offdiagonals_V := false } clock = .ok out ∧
        out.last = .ok r ∧ out.finished = true ∧ r.solution = [7, 2, 3, 0] ∧
        r.value = some (((log 2 + (log (9 / 10) + (log (5 / 10) +
          (log (3 / 10) + 0))) : α) : WithBot α)) := by
    obtain ⟨out, r, h1, h2, _, h3, h4, h5, h6, h7⟩ := h
    obtain ⟨hlen, hfin⟩ := h7 rfl
    have hrank : ∀ j e, j < 4 → e < 8 →
        rankIn (fun i => testDiag α i i) (List.range 8) e = j → r.solution.getD j 0 = e := by
      intro j e hj he hr
      have hj' : j < r.solution.length := by rw [hlen]; exact hj
      have hm : r.solution.getD j 0 ∈ r.solution := (mem_iff_getD _ _).mpr ⟨j, hj', rfl⟩
      exact rankIn_unique _ _ (List.nodup_range 8) _ _ (List.mem_range.mpr (h4 _ hm))
        (List.mem_range.mpr he) ((h5 j hj').trans hr.symm)
    have e0 := hrank 0 7 (by decide) (by decide) (by
      simp [rankIn, List.range, List.range.loop, List.filter, ElementValuePair.less, testDiag]
      norm_num)
    have e1 := hrank 1 2 (by decide) (by decide) (by
      simp [rankIn, List.range, List.range.loop, List.filter, ElementValuePair.less, testDiag]
      norm_num)
    have e2 := hrank 2 3 (by decide) (by decide) (by
      simp [rankIn, List.range, List.range.loop, List.filter, ElementValuePair.less, testDiag]
      norm_num)
    have e3 := hrank 3 0 (by decide) (by decide) (by
      simp [rankIn, List.range, List.range.loop, List.filter, ElementValuePair.less, testDiag]
      norm_num)
    have hsol := list_eq_of_getD4 r.solution 7 2 3 0 hlen e0 e1 e2 e3
    refine ⟨out, r, h1, h2, hfin, hsol, ?_⟩
    rw [h6, hsol]
    simp [testDiag]
  exact testDiag_run _ _ _
    (greedy_diagonal 8 (testDiag ℝ) (fun i j _ _ h => testDiag_offdiag i j h) testDiag_pos 4
      (by decide) (fun l => l.dedup) setOrder_id (fun _ _ => none)
      { time_limit := ⊤, log_computed_offdiagonals_V := false } (fun _ => 0)).2.2.2

end DPP

namespace DPP

theorem posDefOn_tie {α : Type} [LinearOrderedField α] : PosDefOn 3 (tieKernel α) := by
  refine ⟨?_, ?_⟩
  · intro i j hi hj
    interval_cases i <;> interval_cases j <;> simp [tieKernel]
  · intro x hx
    have h0 : x 0 ≠ 0 ∨ x 1 ≠ 0 ∨ x 2 ≠ 0 := by
      by_contra h
      push_neg at h
      apply hx
      funext i
      fin_cases i
      · exact h.1
      · exact h.2.1
      · exact h.2.2
    simp only [quadForm, Fin.sum_univ_three]
    simp [tieKernel]
    rcases h0 with h | h | h
    · nlinarith [sq_nonneg (x 0 + x 2), sq_nonneg (x 1), sq_nonneg (x 2),
        pow_pos (abs_pos.mpr h) 2, sq_abs (x 0)]
    · nlinarith [sq_nonneg (2 * x 0 + x 2), sq_nonneg (x 2),
        pow_pos (abs_pos.mpr h) 2, sq_abs (x 1)]
    · nlinarith [sq_nonneg (2 * x 0 + x 2), sq_nonneg (x 1),
        pow_pos (abs_pos.mpr h) 2, sq_abs (x 2)]

theorem schur_tie_one {α : Type} [LinearOrderedField α]
    {sqrt log : α → α} [Numeric sqrt log] : schur (tieKernel α) [0] 1 = 2 := by
  simp [schur, subVector, subMatrix, ldltSolve, Matrix.dotProduct, Matrix.mulVec,
    Matrix.det_unique, tieKernel]

theorem schur_tie_two {α : Type} [LinearOrderedField α]
    {sqrt log : α → α} [Numeric sqrt log] : schur (tieKernel α) [0] 2 = 2 := by
  simp [schur, subVector, subMatrix, ldltSolve, Matrix.dotProduct, Matrix.mulVec,
    Matrix.det_unique, tieKernel]
  norm_num

theorem list_eq_pair (S : List Nat) (hlen : S.length = 2) :
    S = [S.getD 0 0, S.getD 1 0] := by
  match S, hlen with
  | [x, y], _ => simp

/-- On the tie kernel, plain greedy with the non-lazy strategy selects `0`, then `1`. -/
theorem tie_nonlazy {α : Type} [LinearOrderedField α]
    {sqrt log : α → α} [Numeric sqrt log] :
    ∃ outN rN, greedy (NonLazy.ops (fun l => l.dedup) (Oracle.ops log (tieKernel α)))
        (Oracle.ops log (tieKernel α)) 3 2
        { time_limit := ⊤, log_computed_offdiagonals_V := false } (fun _ => 0) = .ok outN ∧
      outN.last = .ok rN ∧ rN.solution = [0, 1] := by
  obtain ⟨out, S, h1, h2, h3, h4, h5, _, h7⟩ :=
    greedy_nonlazy_top 3 (tieKernel α) posDefOn_tie _ _ _ (direct_math 3 _ posDefOn_tie)
      (fun l => l.dedup) setOrder_id 2 (by decide)
      { time_limit := ⊤, log_computed_offdiagonals_V := false } (fun _ => 0)
  rw [(greedy_len_top _ _ rfl 2 0).1] at h5
  obtain ⟨r, r1, r2, _⟩ := records_last _ out S h2
  refine ⟨out, r, h1, r1, ?_⟩
  rw [r2]
  have hS := list_eq_pair S h5
  have ha : S.getD 0 0 < 3 := h4 _ ((mem_iff_getD S _).mpr ⟨0, by omega, rfl⟩)
  have hb : S.getD 1 0 < 3 := h4 _ ((mem_iff_getD S _).mpr ⟨1, by omega, rfl⟩)
  have hab : S.getD 0 0 ≠ S.getD 1 0 := by
    intro h
    have := nodup_getD_inj S h3 0 1 (by omega) (by omega) h
    omega
  have t0 := h7 0 (by omega)
  have t1 := h7 1 (by omega)
  have h0 : S.getD 0 0 = 0 := by
    rw [List.take_zero] at t0
    generalize S.getD 0 0 = a at ha t0
    interval_cases a
    · rfl
    · have := t0 0 (by norm_num) (by simp)
      simp [schur_nil, tieKernel, ElementValuePair.less] at this
      norm_num at this
    · have := t0 0 (by norm_num) (by simp)
      simp [schur_nil, tieKernel, ElementValuePair.less] at this
      norm_num at this
  have htake : S.take 1 = [0] := by
    rw [hS, h0]
    rfl
  rw [htake] at t1
  have h1' : S.getD 1 0 = 1 := by
    rw [h0] at hab
    generalize S.getD 1 0 = b at hb t1 hab
    interval_cases b
    · exact absurd rfl hab
    · rfl
    · have := t1 1 (by norm_num) (by simp)
      rw [schur_tie_one, schur_tie_two] at this
      simp [ElementValuePair.less] at this
  rw [hS, h0, h1']

end DPP

namespace DPP

theorem tie_gain {α : Type} [LinearOrderedField α]
    {sqrt log : α → α} [Numeric sqrt log]
    (o : Oracle.Instance α) (hg : Oracle.Good 3 (tieKernel α) o) (e : Nat)
    (he : e < 3) (heS : e ∉ o.S) :
    (Oracle.compute_marginal_gain_exponential (tieKernel α) o e).1
      = schur (tieKernel α) o.S e :=
  gain_good 3 (tieKernel α) (Oracle.ops log (tieKernel α)) _ _
    (direct_math 3 _ posDefOn_tie) o hg e he heS

/-- The second call of `pop_largest` of the lazy strategy on the tie kernel: the entry of
element `2` is recomputed to the gain `2`, which is not less than the entry of element `1`. -/
theorem tie_popB {α : Type} [LinearOrderedField α]
    {sqrt log : α → α} [Numeric sqrt log]
    (o : Oracle.Instance α) (hg : Oracle.Good 3 (tieKernel α) o) (hS : o.S = [0]) :
    Lazy.pop_largest (Oracle.ops log (tieKernel α))
      { T := [1, 2], add_dummy := false, Q := [⟨1, 2⟩, ⟨2, 3⟩] } o
      = .ok (some 2, { T := [1], add_dummy := false, Q := [⟨1, 2⟩] },
          (Oracle.compute_marginal_gain_exponential (tieKernel α) o 2).2) := by
  have hv : (Oracle.compute_marginal_gain_exponential (tieKernel α) o 2).1 = 2 := by
    rw [tie_gain o hg 2 (by norm_num) (by rw [hS]; simp), hS, schur_tie_two]
  unfold Lazy.pop_largest
  simp only [List.length_cons, List.length_nil]
  norm_num [Lazy.pop_largest_loop, heapTop, ElementValuePair.less, Lazy.commit, hv, Oracle.ops]

theorem expired_top {α : Type} [LinearOrderedField α]
    {sqrt log : α → α} [Numeric sqrt log]
    (x : α) :
    expired { time_limit := ⊤, log_computed_offdiagonals_V := false } x = false := by
  simp [expired]

/-- Plain greedy with the lazy strategy and the direct oracle on the tie kernel, `k = 2`:
the run succeeds and returns `[0, 2]`. -/
theorem tie_lazy {α : Type} [LinearOrderedField α]
    {sqrt log : α → α} [Numeric sqrt log] :
    ∃ outL rL, greedy (Lazy.ops (fun l => l.dedup) (Oracle.ops log (tieKernel α)))
        (Oracle.ops log (tieKernel α)) 3 2
        { time_limit := ⊤, log_computed_offdiagonals_V := false } (fun _ => 0) = .ok outL ∧
      outL.last = .ok rL ∧ rL.solution = [0, 2] := by
  -- The loop of plain greedy with the lazy strategy on the tie kernel, from the state
  -- the constructors leave: it records the elements `0` and `2`.
  have tie_lazy_loop {α : Type} [LinearOrderedField α]
      {sqrt log : α → α} [Numeric sqrt log]
      (o : Oracle.Instance α) (hg : Oracle.Good 3 (tieKernel α) o)
      (hS : o.S = []) (res : GreedyResult α) :
      ∃ X, greedy_loop (Lazy.ops (fun l => l.dedup) (Oracle.ops log (tieKernel α)))
          (Oracle.ops log (tieKernel α))
          { time_limit := ⊤, log_computed_offdiagonals_V := false } (fun _ => 0) 2 0
          { T := [0, 1, 2], add_dummy := false, Q := [⟨0, 4⟩, ⟨1, 2⟩, ⟨2, 3⟩] } o res = .ok X ∧
        (X.element_value_pairs.map fun p => p.element)
          = (res.element_value_pairs.map fun p => p.element) ++ [some 0, some 2] := by
    -- The first call of `pop_largest` of the lazy strategy on the tie kernel.
    have tie_popA {α : Type} [LinearOrderedField α]
        {sqrt log : α → α} [Numeric sqrt log]
        (o : Oracle.Instance α) (hg : Oracle.Good 3 (tieKernel α) o) (hS : o.S = []) :
        Lazy.pop_largest (Oracle.ops log (tieKernel α))
          { T := [0, 1, 2], add_dummy := false,
            Q := [⟨0, 4⟩, ⟨1, 2⟩, ⟨2, 3⟩] } o
          = .ok (some 0, { T := [1, 2], add_dummy := false, Q := [⟨1, 2⟩, ⟨2, 3⟩] },
              (Oracle.compute_marginal_gain_exponential (tieKernel α) o 0).2) := by
      have hv : (Oracle.compute_marginal_gain_exponential (tieKernel α) o 0).1 = 4 := by
        rw [tie_gain o hg 0 (by norm_num) (by rw [hS]; simp), hS, schur_nil]
        simp [tieKernel]
      unfold Lazy.pop_largest
      simp only [List.length_cons, List.length_nil]
      norm_num [Lazy.pop_largest_loop, heapTop, ElementValuePair.less, Lazy.commit, hv, Oracle.ops]
    have isNegInf_logdet {α : Type} [LinearOrderedField α]
        {sqrt log : α → α} [Numeric sqrt log]
        (L : Nat → Nat → α) (S : List Nat) :
        isNegInf (logdet log L S) = false := rfl
    have M := direct_math 3 (tieKernel α) posDefOn_tie
    -- the first iteration
    have hA := tie_popA o hg hS
    obtain ⟨a1, a2, _⟩ := M.compute_good o 0 hg (by norm_num) (by
      rw [show (Oracle.ops log (tieKernel α)).get_solution o = o.S from rfl, hS]; simp)
    have aS : (Oracle.compute_marginal_gain_exponential (tieKernel α) o 0).2.S = [] :=
      (M.law.compute_S o 0).trans hS
    have g2 : Oracle.Good 3 (tieKernel α)
        (Oracle.add log (Oracle.compute_marginal_gain_exponential (tieKernel α) o 0).2 0) :=
      M.add_good _ 0 a1 (by norm_num)
        (by
          show 0 ∉ (Oracle.compute_marginal_gain_exponential (tieKernel α) o 0).2.S
          rw [aS]
          simp)
        a2
        (by
          show 0 < schur (tieKernel α)
            (Oracle.compute_marginal_gain_exponential (tieKernel α) o 0).2.S 0
          rw [aS, schur_nil]
          simp [tieKernel])
    have gS2 : (Oracle.add log
        (Oracle.compute_marginal_gain_exponential (tieKernel α) o 0).2 0).S = [0] := by
      show (Oracle.compute_marginal_gain_exponential (tieKernel α) o 0).2.S ++ [0] = [0]
      rw [aS]
      rfl
    have hv2 : (Oracle.add log
        (Oracle.compute_marginal_gain_exponential (tieKernel α) o 0).2 0).value
        = logdet log (tieKernel α) (Oracle.add log
        (Oracle.compute_marginal_gain_exponential (tieKernel α) o 0).2 0).S := M.good_value _ g2
    -- the second iteration
    have hB := tie_popB _ g2 gS2
    obtain ⟨b1, b2, _⟩ := M.compute_good _ 2 g2 (by norm_num) (by
      rw [show (Oracle.ops log (tieKernel α)).get_solution (Oracle.add log
        (Oracle.compute_marginal_gain_exponential (tieKernel α) o 0).2 0)
        = (Oracle.add log
        (Oracle.compute_marginal_gain_exponential (tieKernel α) o 0).2 0).S from rfl, gS2]
      simp)
    have bS : (Oracle.compute_marginal_gain_exponential (tieKernel α) (Oracle.add log
        (Oracle.compute_marginal_gain_exponential (tieKernel α) o 0).2 0) 2).2.S = [0] :=
      (M.law.compute_S _ 2).trans gS2
    have g3 : Oracle.Good 3 (tieKernel α)
        (Oracle.add log (Oracle.compute_marginal_gain_exponential (tieKernel α)
          (Oracle.add log
            (Oracle.compute_marginal_gain_exponential (tieKernel α) o 0).2 0) 2).2 2) :=
      M.add_good _ 2 b1 (by norm_num)
        (by
          show 2 ∉ (Oracle.compute_marginal_gain_exponential (tieKernel α) (Oracle.add log
              (Oracle.compute_marginal_gain_exponential (tieKernel α) o 0).2 0) 2).2.S
          rw [bS]
          simp)
        b2
        (by
          show 0 < schur (tieKernel α)
            (Oracle.compute_marginal_gain_exponential (tieKernel α) (Oracle.add log
              (Oracle.compute_marginal_gain_exponential (tieKernel α) o 0).2 0) 2).2.S 2
          rw [bS, schur_tie_two]
          norm_num)
    have hv3 : (Oracle.add log (Oracle.compute_marginal_gain_exponential (tieKernel α)
          (Oracle.add log
            (Oracle.compute_marginal_gain_exponential (tieKernel α) o 0).2 0) 2).2 2).value
        = logdet log (tieKernel α) _ := M.good_value _ g3
    have hn2 : isNegInf ((Oracle.ops log (tieKernel α)).get_value (Oracle.add log
        (Oracle.compute_marginal_gain_exponential (tieKernel α) o 0).2 0)) = false := by
      have h := congrArg isNegInf hv2
      rw [isNegInf_logdet] at h
      exact h
    have hn3 : isNegInf ((Oracle.ops log (tieKernel α)).get_value
        (Oracle.add log (Oracle.compute_marginal_gain_exponential (tieKernel α)
          (Oracle.add log
            (Oracle.compute_marginal_gain_exponential (tieKernel α) o 0).2 0) 2).2 2)) = false := by
      have h := congrArg isNegInf hv3
      rw [isNegInf_logdet] at h
      exact h
    rw [greedy_loop]
    rw [show (Lazy.ops (fun l => l.dedup) (Oracle.ops log (tieKernel α))).pop_largest
        = Lazy.pop_largest (Oracle.ops log (tieKernel α)) from rfl,
      show (Oracle.ops log (tieKernel α)).add = Oracle.add log from rfl, hA]
    simp only [expired_top, hn2, Bool.or_self, Bool.false_eq_true, if_false]
    rw [greedy_loop]
    rw [show (Lazy.ops (fun l => l.dedup) (Oracle.ops log (tieKernel α))).pop_largest
        = Lazy.pop_largest (Oracle.ops log (tieKernel α)) from rfl,
      show (Oracle.ops log (tieKernel α)).add = Oracle.add log from rfl, hB]
    simp only [expired_top, hn3, Bool.or_self, Bool.false_eq_true, if_false]
    rw [greedy_loop]
    exact ⟨_, rfl, by simp [GreedyResult.add]⟩
  have M := direct_math 3 (tieKernel α) posDefOn_tie
  obtain ⟨out, S, h1, h2, _, _, h5, _, _⟩ :=
    greedy_lazy_max 3 (tieKernel α) posDefOn_tie _ _ _ M
      (fun l => l.dedup) setOrder_id 2 (by decide)
      { time_limit := ⊤, log_computed_offdiagonals_V := false } (fun _ => 0)
  rw [(greedy_len_top _ _ rfl 2 0).1] at h5
  obtain ⟨r, r1, r2, _⟩ := records_last _ out S h2
  refine ⟨out, r, h1, r1, ?_⟩
  rw [r2]
  -- the run, evaluated
  obtain ⟨c1, c2⟩ := M.construct_good 2 false
  have L1 := lazy_law 3 _ M.law (Oracle.Good 3 (tieKernel α)) (fun l => l.dedup) setOrder_id
  have hr : ∀ x ∈ List.range 3, x < 3 ∧ x ∉ (Oracle.ops log (tieKernel α)).get_solution
      ((Oracle.ops log (tieKernel α)).construct 2 false) := by
    intro x hx
    rw [c2]
    exact ⟨List.mem_range.mp hx, List.not_mem_nil x⟩
  have hst := (L1.construct_spec (List.range 3) false _ c1 (List.nodup_range 3) hr).2.2.2.2
  have hg0 := (steps_good 3 (tieKernel α) _ _ _ M _ _ _ c1 hr hst).1
  have hS0 : ((Lazy.ops (fun l => l.dedup) (Oracle.ops log (tieKernel α))).construct
      (List.range 3) false ((Oracle.ops log (tieKernel α)).construct 2 false)).2.S = [] :=
    (steps_good 3 (tieKernel α) _ _ _ M _ _ _ c1 hr hst).2.1.trans c2
  have hs0 : ((Lazy.ops (fun l => l.dedup) (Oracle.ops log (tieKernel α))).construct
      (List.range 3) false ((Oracle.ops log (tieKernel α)).construct 2 false)).1
      = { T := [0, 1, 2], add_dummy := false, Q := [⟨0, 4⟩, ⟨1, 2⟩, ⟨2, 3⟩] } := by
    simp [Lazy.ops, Lazy.construct, Oracle.ops, Oracle.construct, List.range, List.range.loop,
      Oracle.get_last_marginal_gain_exponential, Oracle.compute_marginal_gain_exponential,
      Lazy.entries, tieKernel]
  obtain ⟨X, hX, hXe⟩ := tie_lazy_loop _ hg0 hS0 (GreedyResult.init α)
  have hrun : greedy (Lazy.ops (fun l => l.dedup) (Oracle.ops log (tieKernel α)))
      (Oracle.ops log (tieKernel α)) 3 2
      { time_limit := ⊤, log_computed_offdiagonals_V := false } (fun _ => 0) = .ok X := by
    unfold greedy
    rw [if_neg (by decide)]
    simp only []
    rw [hs0]
    exact hX
  have hout : out = X := by
    have := h1.symm.trans hrun
    injection this
  have he : (out.element_value_pairs.map fun p => p.element) = [none, some 0, some 2] := by
    rw [hout, hXe]
    rfl
  have hS := list_eq_pair S h5
  obtain ⟨p1, q1, _, q3⟩ := h2.2.2 1 (by omega)
  obtain ⟨p2, q2, _, q4⟩ := h2.2.2 2 (by omega)
  have e1 := congrArg (fun l => l.get? 1) he
  have e2 := congrArg (fun l => l.get? 2) he
  rw [List.get?_eq_getElem?] at q1 q2
  simp only [List.get?_eq_getElem?, List.getElem?_map, q1, q2, Option.map_some'] at e1 e2
  have a1 := q3 0 rfl
  have a2 := q4 1 rfl
  have h0 : S.getD 0 0 = 0 := by
    have : some (S.getD 0 0) = some 0 := by
      rw [← a1]
      simpa using e1
    injection this
  have h2' : S.getD 1 0 = 2 := by
    have : some (S.getD 1 0) = some 2 := by
      rw [← a2]
      simpa using e2
    injection this
  rw [hS, h0, h2']

end DPP

namespace DPP

/-- Over the reals, `PosDefOn` is positive definiteness of the leading block as a
matrix. -/
theorem posDefOn_iff_posDef (n : Nat) (L : Nat → Nat → ℝ) :
    PosDefOn n L ↔ (Matrix.of fun i j : Fin n => L i j).PosDef := by
  have e : ∀ x : Fin n → ℝ,
      Matrix.dotProduct (star x) ((Matrix.of fun i j : Fin n => L i j).mulVec x)
        = quadForm n L x := by
    intro x
    simp only [quadForm, star_trivial, Matrix.dotProduct, Matrix.mulVec, Matrix.of_apply,
      Finset.mul_sum]
    exact Finset.sum_congr rfl (fun i _ => Finset.sum_congr rfl (fun j _ => by ring))
  constructor
  · intro h
    refine ⟨?_, fun x hx => ?_⟩
    · ext i j
      simp [Matrix.conjTranspose_apply, h.1 j i j.isLt i.isLt]
    · rw [e]
      exact h.2 x hx
  · intro h
    refine ⟨fun i j hi hj => ?_, fun x hx => ?_⟩
    · have := h.1.apply ⟨j, hj⟩ ⟨i, hi⟩
      simpa using this
    · rw [← e]
      exact h.2 x hx

end DPP

namespace DPP

theorem valueOf_append {α : Type} [LinearOrderedField α] (log : α → α) (gs : List α) (v : α) :
    valueOf log (gs ++ [v]) = vadd (valueOf log gs) (dlog log (some v)) := by
  simp [valueOf, List.foldl_append]

/-- The direct oracle over any kernel is what the drivers rely on. -/
theorem direct_base {α : Type} [LinearOrderedField α] (log : α → α) (L : Nat → Nat → α) :
    OracleBase (Oracle.ops log L) log Oracle.Written Oracle.Holds := by
  refine ⟨direct_law log L, ?_, ?_, ?_, ?_, ?_, ?_, ?_, ?_⟩
  · intro k b
    refine ⟨?_, rfl, rfl⟩
    intro e he
    exact absurd rfl he
  · intro o e hg
    obtain ⟨c1, _, c3, c4, c5⟩ := direct_compute_cells L o e
    have hv := direct_compute_val L o e
    show Oracle.Written (Oracle.compute_marginal_gain_exponential L o e).2 ∧
      Oracle.Holds (Oracle.compute_marginal_gain_exponential L o e).2 e
        (Oracle.compute_marginal_gain_exponential L o e).1
    by_cases h : o.u e < (o.S.length : Int)
    · obtain ⟨d1, d2⟩ := c4 h
      rw [if_pos h] at hv
      refine ⟨?_, ?_, ?_⟩
      · intro a ha
        by_cases hae : a = e
        · rw [hae, d2]
          exact Option.some_ne_none _
        · rw [(c3 a hae).2]
          rw [(c3 a hae).1] at ha
          exact hg a ha
      · rw [d2, hv]
      · rw [c1, d1]
    · rw [if_neg h] at hv
      rw [c5 h]
      have hne : o.u e ≠ -1 := by
        have : (0 : Int) ≤ (o.S.length : Int) := Int.natCast_nonneg _
        omega
      obtain ⟨x, hx⟩ := Option.ne_none_iff_exists'.mp (hg e hne)
      refine ⟨hg, ?_, ?_⟩
      · rw [hv, hx]
        rfl
      · omega
  · intro o e x v hg hh
    obtain ⟨c1, _, c3, _, c5⟩ := direct_compute_cells L o x
    show Oracle.Holds (Oracle.compute_marginal_gain_exponential L o x).2 e v
    by_cases hxe : x = e
    · subst hxe
      have h : ¬ o.u x < (o.S.length : Int) := by
        have := hh.2
        omega
      rw [c5 h]
      exact hh
    · have hex : e ≠ x := fun h => hxe h.symm
      refine ⟨?_, ?_⟩
      · rw [(c3 e hex).2]
        exact hh.1
      · rw [c1, (c3 e hex).1]
        exact hh.2
  · intro o e hg
    show Oracle.Written (Oracle.get_last_marginal_gain_exponential L o e).2
    unfold Oracle.get_last_marginal_gain_exponential
    by_cases h : o.u e = -1
    · rw [if_pos h]
      intro a ha
      by_cases hae : a = e
      · subst hae
        simp
      · simp only [Function.update_noteq hae] at ha ⊢
        exact hg a ha
    · rw [if_neg h]
      exact hg
  · intro o e x v hg hh
    show Oracle.Holds (Oracle.get_last_marginal_gain_exponential L o x).2 e v
    unfold Oracle.get_last_marginal_gain_exponential
    by_cases h : o.u x = -1
    · rw [if_pos h]
      have hex : e ≠ x := by
        intro hex
        rw [hex] at hh
        have := hh.2
        have : (0 : Int) ≤ (o.S.length : Int) := Int.natCast_nonneg _
        omega
      refine ⟨?_, ?_⟩
      · simp only [Function.update_noteq hex]
        exact hh.1
      · simp only [Function.update_noteq hex]
        exact hh.2
    · rw [if_neg h]
      exact hh
  · intro o e hg
    exact hg
  · intro o e v hg hh
    show (Oracle.add log o e).value = vadd o.value (dlog log (some v))
    unfold Oracle.add
    simp only []
    rw [hh.1]
  · intro o hg
    exact ⟨hg, rfl, rfl⟩

/-- The fast oracle over any kernel is what the drivers rely on. -/
theorem fast_base {α : Type} [LinearOrderedField α] (sqrt log : α → α)
    (V0 : Nat → Nat → Option α) (L : Nat → Nat → α) :
    OracleBase (Fast.ops sqrt log V0 L) log (fun _ => True) Fast.Holds := by
  refine ⟨fast_law sqrt log V0 L, ?_, ?_, ?_, ?_, ?_, ?_, ?_, ?_⟩
  · intro k b
    exact ⟨trivial, rfl, rfl⟩
  · intro o e _
    obtain ⟨c1, _, c3, c4, _⟩ := fast_compute_frame sqrt L o e
    refine ⟨trivial, c4, ?_⟩
    show (Fast.compute_marginal_gain_exponential sqrt L o e).2.S.length ≤ _
    rw [c1]
    exact c3
  · intro o e x v _ hh
    show Fast.Holds (Fast.compute_marginal_gain_exponential sqrt L o x).2 e v
    by_cases hxe : x = e
    · subst hxe
      obtain ⟨g1, g2⟩ := (fast_get_last_frame_gen L o x).2.2.2.2.2.2 v hh.1
      rw [fast_compute_unfold, g1, g2, Nat.sub_eq_zero_of_le hh.2]
      exact hh
    · obtain ⟨c1, _, _, _, c5⟩ := fast_compute_frame sqrt L o x
      have hex : e ≠ x := fun h => hxe h.symm
      refine ⟨?_, ?_⟩
      · rw [(c5 e hex).2.1]
        exact hh.1
      · rw [c1, (c5 e hex).1]
        exact hh.2
  · intro o e _
    trivial
  · intro o e x v _ hh
    show Fast.Holds (Fast.get_last_marginal_gain_exponential L o x).2 e v
    obtain ⟨c1, _, c3, _, _, c6, c7⟩ := fast_get_last_frame_gen L o x
    by_cases hxe : x = e
    · subst hxe
      rw [(c7 v hh.1).1]
      exact hh
    · have hex : e ≠ x := fun h => hxe h.symm
      refine ⟨?_, ?_⟩
      · rw [c6 e hex]
        exact hh.1
      · rw [c1, c3]
        exact hh.2
  · intro o e _
    trivial
  · intro o e v _ hh
    show (Fast.add log o e).value = vadd o.value (dlog log (some v))
    unfold Fast.add
    simp only []
    rw [hh.1]
  · intro o _
    exact ⟨trivial, rfl, rfl⟩

/-- Computations and look-ups keep a good state good, and keep the selection, the
objective value and the cells that hold a gain. -/
theorem steps_base {σ α : Type} [LinearOrderedField α] (oops : OracleOps σ α) (log : α → α)
    (Good : σ → Prop) (Holds : σ → Nat → α → Prop) (B : OracleBase oops log Good Holds)
    (T : List Nat) (o p : σ) (hg : Good o) (h : Steps oops T o p) :
    Good p ∧ oops.get_solution p = oops.get_solution o ∧
      oops.get_value p = oops.get_value o ∧ ∀ e v, Holds o e v → Holds p e v := by
  induction h with
  | refl => exact ⟨hg, rfl, rfl, fun _ _ h => h⟩
  | compute p' x _ hx ih =>
    obtain ⟨i1, i2, i3, i4⟩ := ih
    refine ⟨(B.compute_good p' x i1).1, ?_, ?_, ?_⟩
    · rw [B.law.compute_S, i2]
    · rw [B.law.compute_value, i3]
    · intro e v he
      exact B.compute_keep p' e x v i1 (i4 e v he)
  | get_last p' x _ hx ih =>
    obtain ⟨i1, i2, i3, i4⟩ := ih
    refine ⟨B.get_last_good p' x i1, ?_, ?_, ?_⟩
    · rw [B.law.get_last_S, i2]
    · rw [B.law.get_last_value, i3]
    · intro e v he
      exact B.get_last_keep p' e x v i1 (i4 e v he)

/-- Computations and look-ups for elements outside the selection extend a run. -/
theorem run_steps {σ α : Type} [LinearOrderedField α] (oops : OracleOps σ α)
    (law : OracleLaw oops) (Holds : σ → Nat → α → Prop) (T : List Nat) (o0 o p : σ)
    (es : List Nat) (gs : List α) (hr : Run oops Holds o0 es gs o)
    (hT : ∀ x ∈ T, x ∉ oops.get_solution o) (h : Steps oops T o p) :
    Run oops Holds o0 es gs p ∧ oops.get_solution p = oops.get_solution o := by
  induction h with
  | refl => exact ⟨hr, rfl⟩
  | compute p' x _ hx ih =>
    obtain ⟨i1, i2⟩ := ih
    refine ⟨Run.compute es gs p' x i1 (by rw [i2]; exact hT x hx), ?_⟩
    rw [law.compute_S, i2]
  | get_last p' x _ hx ih =>
    obtain ⟨i1, i2⟩ := ih
    refine ⟨Run.get_last es gs p' x i1, ?_⟩
    rw [law.get_last_S, i2]

theorem run_length {σ α : Type} (oops : OracleOps σ α) (Holds : σ → Nat → α → Prop)
    (o p : σ) (es : List Nat) (gs : List α) (h : Run oops Holds o es gs p) :
    gs.length = es.length := by
  induction h with
  | refl => rfl
  | compute es gs p x _ _ ih => exact ih
  | get_last es gs p x _ ih => exact ih
  | clear es gs p _ ih => exact ih
  | add es gs p e v _ _ _ ih => simp [ih]

/-- A run passes through a state after each of its commits. -/
theorem run_split {σ α : Type} (oops : OracleOps σ α) (Holds : σ → Nat → α → Prop)
    (o p : σ) (es : List Nat) (gs : List α) (h : Run oops Holds o es gs p) :
    ∀ t, t ≤ es.length → ∃ q, Run oops Holds o (es.take t) (gs.take t) q ∧
      Run oops Holds q (es.drop t) (gs.drop t) p := by
  induction h with
  | refl =>
    intro t _
    exact ⟨o, by simpa using Run.refl, by simpa using Run.refl⟩
  | compute es gs p x _ hx ih =>
    intro t ht
    obtain ⟨q, q1, q2⟩ := ih t ht
    exact ⟨q, q1, Run.compute _ _ p x q2 hx⟩
  | get_last es gs p x _ ih =>
    intro t ht
    obtain ⟨q, q1, q2⟩ := ih t ht
    exact ⟨q, q1, Run.get_last _ _ p x q2⟩
  | clear es gs p _ ih =>
    intro t ht
    obtain ⟨q, q1, q2⟩ := ih t ht
    exact ⟨q, q1, Run.clear _ _ p q2⟩
  | add es gs p e v hrun he hv ih =>
    intro t ht
    have hlen := run_length oops Holds o p es gs hrun
    rw [List.length_append, List.length_singleton] at ht
    by_cases hle : t ≤ es.length
    · obtain ⟨q, q1, q2⟩ := ih t hle
      refine ⟨q, ?_, ?_⟩
      · rw [List.take_append_of_le_length hle, List.take_append_of_le_length (by omega)]
        exact q1
      · rw [List.drop_append_of_le_length hle, List.drop_append_of_le_length (by omega)]
        exact Run.add _ _ p e v q2 he hv
    · have ht' : t = es.length + 1 := by omega
      refine ⟨oops.add p e, ?_, ?_⟩
      · rw [List.take_of_length_le (by simp; omega), List.take_of_length_le (by simp; omega)]
        exact Run.add _ _ p e v hrun he hv
      · rw [List.drop_of_length_le (by simp; omega), List.drop_of_length_le (by simp; omega)]
        exact Run.refl

/-- The state a run reaches from a state with the empty selection and the value `0.0`:
its selection lists the elements committed and its value is the sum of the logarithms of
their gains. -/
theorem run_spec {σ α : Type} [LinearOrderedField α] (oops : OracleOps σ α) (log : α → α)
    (Good : σ → Prop) (Holds : σ → Nat → α → Prop) (B : OracleBase oops log Good Holds)
    (o p : σ) (es : List Nat) (gs : List α) (hg : Good o)
    (hS : oops.get_solution o = []) (hv : oops.get_value o = some ((0 : α) : WithBot α))
    (h : Run oops Holds o es gs p) :
    Good p ∧ oops.get_solution p = es ∧ oops.get_value p = valueOf log gs := by
  induction h with
  | refl => exact ⟨hg, hS, hv⟩
  | compute es gs p x _ _ ih =>
    obtain ⟨i1, i2, i3⟩ := ih
    exact ⟨(B.compute_good p x i1).1, by rw [B.law.compute_S, i2],
      by rw [B.law.compute_value, i3]⟩
  | get_last es gs p x _ ih =>
    obtain ⟨i1, i2, i3⟩ := ih
    exact ⟨B.get_last_good p x i1, by rw [B.law.get_last_S, i2],
      by rw [B.law.get_last_value, i3]⟩
  | clear es gs p _ ih =>
    obtain ⟨i1, i2, i3⟩ := ih
    obtain ⟨c1, c2, c3⟩ := B.clear_good p i1
    exact ⟨c1, by rw [c2, i2], by rw [c3, i3]⟩
  | add es gs p e v _ _ hh ih =>
    obtain ⟨i1, i2, i3⟩ := ih
    exact ⟨B.add_good p e i1, by rw [B.law.add_S, i2],
      by rw [B.add_value p e v i1 hh, i3, valueOf_append]⟩

/-- After a call of a strategy, the oracle is good, its selection and value are as before,
the run goes on, and the cell of the element returned holds the gain it had before the
call. -/
theorem popOut_base {τ σ α : Type} [LinearOrderedField α] (oops : OracleOps σ α)
    (log : α → α) (Good : σ → Prop) (Holds : σ → Nat → α → Prop)
    (B : OracleBase oops log Good Holds) (getT : τ → List Nat) (getD : τ → Bool)
    (SI : τ → Prop) (s : τ) (o : σ) (r : Option Nat) (s1 : τ) (o1 : σ) (hg : Good o)
    (hT : ∀ x ∈ getT s, x ∉ oops.get_solution o)
    (h : PopOut oops getT getD SI s o r s1 o1) :
    Good o1 ∧ oops.get_solution o1 = oops.get_solution o ∧
      oops.get_value o1 = oops.get_value o ∧
      (∀ o0 es gs, Run oops Holds o0 es gs o → Run oops Holds o0 es gs o1) ∧
      ∀ e, r = some e → Holds o1 e (gainAt oops o e) := by
  obtain ⟨_, _, _, h4, h5⟩ := h
  cases r with
  | none =>
    obtain ⟨_, _, hs⟩ := h4 rfl
    obtain ⟨g1, g2, g3, _⟩ := steps_base oops log Good Holds B _ o o1 hg hs
    refine ⟨g1, g2, g3, ?_, fun e he => by cases he⟩
    intro o0 es gs hr
    exact (run_steps oops B.law Holds _ o0 o o1 es gs hr hT hs).1
  | some e =>
    obtain ⟨he, _, ⟨p, hs1, hgain, hs2⟩, _⟩ := h5 e rfl
    obtain ⟨g1, g2, g3, _⟩ := steps_base oops log Good Holds B _ o p hg hs1
    obtain ⟨c1, c2⟩ := B.compute_good p e g1
    obtain ⟨k1, k2, k3, k4⟩ := steps_base oops log Good Holds B _ _ o1 c1 hs2
    have hT' : ∀ x ∈ getT s,
        x ∉ oops.get_solution (oops.compute_marginal_gain_exponential p e).2 := by
      intro x hx
      rw [B.law.compute_S, g2]
      exact hT x hx
    refine ⟨k1, ?_, ?_, ?_, ?_⟩
    · rw [k2, B.law.compute_S, g2]
    · rw [k3, B.law.compute_value, g3]
    · intro o0 es gs hr
      obtain ⟨r1, r2⟩ := run_steps oops B.law Holds _ o0 o p es gs hr hT hs1
      have r3 := Run.compute es gs p e r1 (by rw [r2]; exact hT e he)
      exact (run_steps oops B.law Holds _ o0 _ o1 es gs r3 hT' hs2).1
    · intro e' he'
      cases he'
      have := k4 e _ c2
      rw [show (oops.compute_marginal_gain_exponential p e).1 = gainAt oops p e from rfl,
        hgain] at this
      exact this

end DPP

namespace DPP

/-- A non-lazy strategy with dummy elements: what `pop_kth_largest(i)` returns. -/
theorem nonlazy_dummy_spec {σ α : Type} [LinearOrderedField α] (oops : OracleOps σ α)
    (law : OracleLaw oops) (s : NonLazy.Instance) (o : σ) (i : Nat) (hnd : s.T.Nodup)
    (hTS : ∀ e ∈ s.T, e ∉ oops.get_solution o) (hd : s.add_dummy = true) :
    ∃ r s1 o1, NonLazy.pop_kth_largest oops s o i = .ok (r, s1, o1) ∧
      (r = none ↔ (s.T.length ≤ i ∨
        ∃ e ∈ s.T, rankIn (gainAt oops o) s.T e = i ∧ gainAt oops o e ≤ 1)) ∧
      (∀ e, r = some e → e ∈ s.T ∧ rankIn (gainAt oops o) s.T e = i ∧
        1 < gainAt oops o e ∧ s1.T = s.T.erase e) ∧
      (r = none → s1 = s) := by
  by_cases hi : i < s.T.length
  · obtain ⟨e, o1, he, hrank, _, heq⟩ := nonlazy_pop_kth_spec oops law s o i hnd hTS hi
    by_cases hc : gainAt oops o e ≤ 1
    · have hc' : (s.add_dummy && decide (gainAt oops o e ≤ 1)) = true := by
        simp [hd, hc]
      rw [if_pos hc'] at heq
      refine ⟨none, s, o1, heq, ?_, ?_, fun _ => rfl⟩
      · exact ⟨fun _ => Or.inr ⟨e, he, hrank, hc⟩, fun _ => rfl⟩
      · intro e' h
        cases h
    · have hc' : ¬ (s.add_dummy && decide (gainAt oops o e ≤ 1)) = true := by
        simp [hd, hc]
      rw [if_neg hc'] at heq
      refine ⟨some e, _, o1, heq, ?_, ?_, ?_⟩
      · constructor
        · intro h
          cases h
        · intro h
          exfalso
          rcases h with h | ⟨e', he', hr', hg'⟩
          · omega
          · have := rankIn_unique _ _ hnd e' e he' he (hr'.trans hrank.symm)
            rw [this] at hg'
            exact hc hg'
      · intro e' h
        cases h
        exact ⟨he, hrank, not_le.mp hc, rfl⟩
      · intro h
        cases h
  · have hle : s.T.length ≤ i := Nat.le_of_not_lt hi
    refine ⟨none, s, o, ?_, ?_, ?_, fun _ => rfl⟩
    · unfold NonLazy.pop_kth_largest
      simp [hd, hle]
    · exact ⟨fun _ => Or.inl hle, fun _ => rfl⟩
    · intro e' h
      cases h

/-- The first loop of `Lazy::pop_kth_largest` either collects an element per iteration or
stops at a strategy whose heap holds no value above `1`. -/
theorem lazy_pop_recover_dead {σ α : Type} [LinearOrderedField α] (oops : OracleOps σ α) :
    ∀ (j : Nat) (s : Lazy.Instance α) (o : σ) (rec rec1 : List Nat) (s1 : Lazy.Instance α)
      (o1 : σ), Lazy.pop_recover oops j s o rec = .ok (rec1, s1, o1) →
      rec1.length = rec.length + j ∨ (s1.add_dummy = true ∧ ∀ p ∈ s1.Q, p.value ≤ 1) := by
  intro j
  induction j with
  | zero =>
    intro s o rec rec1 s1 o1 h
    simp only [Lazy.pop_recover, Except.ok.injEq, Prod.mk.injEq] at h
    left
    rw [← h.1]
    rfl
  | succ j ih =>
    intro s o rec rec1 s1 o1 h
    rw [Lazy.pop_recover] at h
    cases hp : Lazy.pop_largest oops s o with
    | error f =>
      rw [hp] at h
      cases h
    | ok res =>
      obtain ⟨r, s', o'⟩ := res
      rw [hp] at h
      cases r with
      | none =>
        simp only [Except.ok.injEq, Prod.mk.injEq] at h
        right
        rw [← h.2.1]
        exact lazy_loop_none oops _ s o s' o' hp
      | some e =>
        simp only [] at h
        rcases ih _ _ _ _ _ _ h with h1 | h1
        · left
          rw [h1, List.length_append, List.length_singleton]
          omega
        · right
          exact h1

/-- C11: for a non-lazy strategy with dummy elements, `pop_kth_largest(i)` returns nothing
if and only if `i` is not below the size of `T` or the element of `T` that exactly `i`
elements of `T` exceed in the order on (gain, -index) has a gain that is at most `1`;
otherwise it returns that element and removes it from `T`.  A lazy strategy with dummy
elements returns nothing when the index `j` is not below the size of its `T`. -/
theorem dummy_rejection {σ α : Type} [LinearOrderedField α] (oops : OracleOps σ α)
    (law : OracleLaw oops) (sN : NonLazy.Instance) (oN : σ) (sL : Lazy.Instance α) (oL : σ)
    (i j : Nat) (hN : NonLazy.Reach oops sN oN) (hL : Lazy.Reach oops sL oL)
    (hdN : sN.add_dummy = true) (hdL : sL.add_dummy = true) :
    (∃ r s1 o1, NonLazy.pop_kth_largest oops sN oN i = .ok (r, s1, o1) ∧
      (r = none ↔ (sN.T.length ≤ i ∨
        ∃ e ∈ sN.T, rankIn (gainAt oops oN) sN.T e = i ∧ gainAt oops oN e ≤ 1)) ∧
      (∀ e, r = some e → e ∈ sN.T ∧ rankIn (gainAt oops oN) sN.T e = i ∧
        1 < gainAt oops oN e ∧ s1.T = sN.T.erase e) ∧
      (r = none → s1 = sN)) ∧
    (sL.T.length ≤ j → ∃ s1 o1, Lazy.pop_kth_largest oops sL oL j = .ok (none, s1, o1)) := by
  -- A lazy strategy with dummy elements returns nothing when the index is not below the
  -- size of the ground set.
  have lazy_pop_kth_none {σ α : Type} [LinearOrderedField α] (oops : OracleOps σ α)
      (law : OracleLaw oops) (s : Lazy.Instance α) (o : σ) (i : Nat) (hnd : s.T.Nodup)
      (hTS : ∀ e ∈ s.T, e ∉ oops.get_solution o) (hd : s.add_dummy = true)
      (hi : s.T.length ≤ i) :
      ∃ s1 o1, Lazy.pop_kth_largest oops s o i = .ok (none, s1, o1) := by
    have hcov : s.add_dummy = false → Cover s.T s.Q ∧ i ≤ s.T.length := by
      intro h
      rw [hd] at h
      cases h
    obtain ⟨rec1, s1, o1, hrec, hg1, hd1, hnd1, hperm, _, _, _⟩ :=
      lazy_pop_recover_spec oops law o i s o [] (gainEq_refl oops o) hnd hTS hcov
    rw [List.nil_append] at hrec
    have hTS1 : ∀ e ∈ s1.T, e ∉ oops.get_solution o := by
      intro e he
      exact hTS e (hperm.symm.subset (List.mem_append_right _ he))
    have hd1' : s1.add_dummy = true := by rw [hd1]; exact hd
    obtain ⟨r, s2, o2, hpop, hpost⟩ := lazy_pop_largest_spec oops law o s1 o1 hg1 hnd1 hTS1
      (by
        intro h
        rw [hd1'] at h
        cases h)
    have hr : r = none := by
      rcases lazy_pop_recover_dead oops i s o [] rec1 s1 o1 hrec with h | h
      · have hlen := hperm.length_eq
        rw [List.length_append] at hlen
        simp only [List.length_nil, Nat.zero_add] at h
        have hnil : s1.T = [] := List.length_eq_zero.mp (by omega)
        cases r with
        | none => rfl
        | some e =>
          have := (hpost.2.2.2.2.1 e rfl).1
          rw [hnil] at this
          cases this
      · have h2 := lazy_dead_pop oops s1 o1 h.1 h.2
        rw [h2] at hpop
        simp only [Except.ok.injEq, Prod.mk.injEq] at hpop
        exact hpop.1.symm
    subst hr
    have h0 : (!(s.add_dummy || decide (i < s.T.length))) = false := by simp [hd]
    have hk : Lazy.pop_kth_largest oops s o i
        = .ok (none, { s2 with T := s2.T ++ rec1, Q := (Lazy.push_recover oops rec1 s2.Q o2).1 },
            (Lazy.push_recover oops rec1 s2.Q o2).2) := by
      unfold Lazy.pop_kth_largest
      rw [h0]
      simp only [Bool.false_eq_true, if_false, hrec, hpop]
    exact ⟨_, _, hk⟩
  obtain ⟨n1, n2⟩ := nonlazy_reach_inv oops law sN oN hN
  obtain ⟨l1, l2, _⟩ := lazy_reach_inv oops law sL oL hL
  exact ⟨nonlazy_dummy_spec oops law sN oN i n1 n2 hdN,
    fun hj => lazy_pop_kth_none oops law sL oL j l1 l2 hdL hj⟩

/-- Witness of C11: on `diag(0.3, 0.2, 0.9, 0.5, 0.25, 0.125, 0.1, 2.0)` with dummy
elements, the non-lazy `pop_kth_largest(1)` returns nothing and leaves the strategy as it
was, the element ranked `1` being `2` with the gain `0.9`; the lazy `pop_kth_largest(8)`
returns nothing. -/
theorem dummy_rejection_witness :
    (∃ o1, NonLazy.pop_kth_largest (Oracle.ops Real.log (testDiag ℝ))
        { T := [0, 1, 2, 3, 4, 5, 6, 7], add_dummy := true } (Oracle.construct ℝ) 1
        = .ok (none, { T := [0, 1, 2, 3, 4, 5, 6, 7], add_dummy := true }, o1)) ∧
    (∃ s1 o1, Lazy.pop_kth_largest (Oracle.ops Real.log (testDiag ℝ))
        (Lazy.construct (Oracle.ops Real.log (testDiag ℝ)) id [0, 1, 2, 3, 4, 5, 6, 7] true
          (Oracle.construct ℝ)).1
        (Lazy.construct (Oracle.ops Real.log (testDiag ℝ)) id [0, 1, 2, 3, 4, 5, 6, 7] true
          (Oracle.construct ℝ)).2 8 = .ok (none, s1, o1)) := by
  have law := direct_law Real.log (testDiag ℝ)
  have RN : NonLazy.Reach (Oracle.ops Real.log (testDiag ℝ))
      { T := [0, 1, 2, 3, 4, 5, 6, 7], add_dummy := true } (Oracle.construct ℝ) :=
    NonLazy.Reach.construct id [0, 1, 2, 3, 4, 5, 6, 7] true (Oracle.construct ℝ)
      (by decide) (by simp [Oracle.ops, Oracle.construct])
  have RL : Lazy.Reach (Oracle.ops Real.log (testDiag ℝ))
      (Lazy.construct (Oracle.ops Real.log (testDiag ℝ)) id [0, 1, 2, 3, 4, 5, 6, 7] true
        (Oracle.construct ℝ)).1
      (Lazy.construct (Oracle.ops Real.log (testDiag ℝ)) id [0, 1, 2, 3, 4, 5, 6, 7] true
        (Oracle.construct ℝ)).2 :=
    Lazy.Reach.construct id [0, 1, 2, 3, 4, 5, 6, 7] true (Oracle.construct ℝ)
      (by decide) (by simp [Oracle.ops, Oracle.construct])
  obtain ⟨⟨r, s1, o1, h1, h2, _, h4⟩, h5⟩ :=
    dummy_rejection (Oracle.ops Real.log (testDiag ℝ)) law _ _ _ _ 1 8 RN RL rfl rfl
  have hr : r = none := h2.mpr (Or.inr ⟨2, by decide, by
    rw [gainAt_testDiag _ (gainEq_refl _ _)]
    simp [rankIn, List.filter, ElementValuePair.less, testDiag]
    norm_num, by
    rw [gainAt_testDiag _ (gainEq_refl _ _)]
    simp [testDiag]
    norm_num⟩)
  subst hr
  rw [h4 rfl] at h1
  exact ⟨⟨o1, h1⟩, h5 (by simp [Lazy.construct])⟩

/-- The ground set after a permutation-preserving call that returns nothing. -/
theorem popFrame_none (T T1 : List Nat) (hnd : T1.Nodup) (h : T.Perm T1) :
    PopFrame T none T1 := by
  refine ⟨hnd, fun _ x => ⟨fun hx => h.symm.subset hx, fun hx => h.subset hx⟩, ?_, ?_, ?_⟩
  · intro e he
    cases he
  · rw [h.length_eq]
  · rw [h.length_eq]
    omega

/-- The ground set after a call that returns `e`. -/
theorem popFrame_some (T T1 : List Nat) (e : Nat) (hT : T.Nodup) (h : T.Perm (e :: T1)) :
    PopFrame T (some e) T1 := by
  have hnd2 : (e :: T1).Nodup := h.nodup_iff.mp hT
  obtain ⟨hne, hnd⟩ := List.nodup_cons.mp hnd2
  refine ⟨hnd, ?_, ?_, ?_, ?_⟩
  · intro he
    cases he
  · intro e' he'
    cases he'
    refine ⟨h.symm.subset (List.mem_cons_self _ _), ?_⟩
    intro x
    constructor
    · intro hx
      refine ⟨h.symm.subset (List.mem_cons_of_mem _ hx), ?_⟩
      intro hxe
      rw [hxe] at hx
      exact hne hx
    · intro ⟨hx, hxe⟩
      rcases List.mem_cons.mp (h.subset hx) with h' | h'
      · exact absurd h' hxe
      · exact h'
  · rw [h.length_eq, List.length_cons]
    omega
  · rw [h.length_eq, List.length_cons]

/-- C12: for a non-lazy and for a lazy strategy and every index `i` within the assertion
of the method, `pop_kth_largest(i)` and `pop_largest()` return, the element they return
is an element of `T`, `T` afterwards holds the other elements of `T` and nothing else,
each once, and `T` is left as it was, as a set, when nothing is returned; so the size of
`T` decreases by at most `1`.  This holds of `Lazy::pop_kth_largest`, which puts the
elements it popped on the way back into `T`. -/
theorem pop_frame {σ α : Type} [LinearOrderedField α] (oops : OracleOps σ α)
    (law : OracleLaw oops) (sN : NonLazy.Instance) (oN : σ) (sL : Lazy.Instance α) (oL : σ)
    (i : Nat) (hN : NonLazy.Reach oops sN oN) (hL : Lazy.Reach oops sL oL)
    (hiN : sN.add_dummy = true ∨ i < sN.T.length)
    (hiL : sL.add_dummy = true ∨ i < sL.T.length) :
    (∃ r s1 o1, NonLazy.pop_kth_largest oops sN oN i = .ok (r, s1, o1) ∧
      PopFrame sN.T r s1.T) ∧
    (∃ r s1 o1, NonLazy.pop_largest oops sN oN = .ok (r, s1, o1) ∧ PopFrame sN.T r s1.T) ∧
    (∃ r s1 o1, Lazy.pop_kth_largest oops sL oL i = .ok (r, s1, o1) ∧
      PopFrame sL.T r s1.T) ∧
    (∃ r s1 o1, Lazy.pop_largest oops sL oL = .ok (r, s1, o1) ∧ PopFrame sL.T r s1.T) := by
  -- The frame of the calls of a lazy strategy.
  have lazy_pop_frame {σ α : Type} [LinearOrderedField α] (oops : OracleOps σ α)
      (law : OracleLaw oops) (s : Lazy.Instance α) (o : σ) (i : Nat) (hnd : s.T.Nodup)
      (hTS : ∀ e ∈ s.T, e ∉ oops.get_solution o) (hcov : s.add_dummy = false → Cover s.T s.Q)
      (hi : s.add_dummy = true ∨ i < s.T.length) :
      (∃ r s1 o1, Lazy.pop_kth_largest oops s o i = .ok (r, s1, o1) ∧ PopFrame s.T r s1.T) ∧
      (∃ r s1 o1, Lazy.pop_largest oops s o = .ok (r, s1, o1) ∧ PopFrame s.T r s1.T) := by
    constructor
    · obtain ⟨r, s1, o1, hok, _, hnd1, h4, h5, _, _⟩ :=
        lazy_pop_kth_spec oops law o s o i (gainEq_refl oops o) hnd hTS hcov hi
      refine ⟨r, s1, o1, hok, ?_⟩
      cases r with
      | none => exact popFrame_none s.T s1.T hnd1 (h5 rfl).1
      | some e => exact popFrame_some s.T s1.T e hnd (h4 e rfl).1
    · obtain ⟨r, s1, o1, hok, hpost⟩ := lazy_pop_largest_spec oops law o s o
        (gainEq_refl oops o) hnd hTS (by
          intro hd
          refine ⟨hcov hd, ?_⟩
          rcases hi with h | h
          · rw [hd] at h
            cases h
          · exact List.ne_nil_of_length_pos (by omega))
      obtain ⟨t1, _, t3⟩ := popPost_T oops _ s o r s1 o1 hnd hpost
      refine ⟨r, s1, o1, hok, ?_⟩
      cases r with
      | none =>
        have := (hpost.2.2.2.2.2 rfl).2
        rw [this]
        exact popFrame_none s.T s.T hnd (List.Perm.refl _)
      | some e => exact popFrame_some s.T s1.T e hnd (t3 e rfl).1
  -- The frame of the calls of a non-lazy strategy.
  have nonlazy_pop_frame {σ α : Type} [LinearOrderedField α] (oops : OracleOps σ α)
      (law : OracleLaw oops) (s : NonLazy.Instance) (o : σ) (i : Nat) (hnd : s.T.Nodup)
      (hTS : ∀ e ∈ s.T, e ∉ oops.get_solution o)
      (hi : s.add_dummy = true ∨ i < s.T.length) :
      ∃ r s1 o1, NonLazy.pop_kth_largest oops s o i = .ok (r, s1, o1) ∧
        PopFrame s.T r s1.T := by
    have hex : ∃ r s1 o1, NonLazy.pop_kth_largest oops s o i = .ok (r, s1, o1) := by
      by_cases hlt : i < s.T.length
      · obtain ⟨e, o1, _, _, _, heq⟩ := nonlazy_pop_kth_spec oops law s o i hnd hTS hlt
        by_cases hc : (s.add_dummy && decide (gainAt oops o e ≤ 1)) = true
        · rw [if_pos hc] at heq
          exact ⟨_, _, _, heq⟩
        · rw [if_neg hc] at heq
          exact ⟨_, _, _, heq⟩
      · have hd : s.add_dummy = true := by
          rcases hi with h | h
          · exact h
          · exact absurd h hlt
        obtain ⟨r, s1, o1, h, _⟩ := nonlazy_dummy_spec oops law s o i hnd hTS hd
        exact ⟨r, s1, o1, h⟩
    obtain ⟨r, s1, o1, hok⟩ := hex
    obtain ⟨_, _, f3, f4⟩ := nonlazy_pop_kth_frame oops law s o i hnd hTS r s1 o1 hok
    refine ⟨r, s1, o1, hok, ?_⟩
    cases r with
    | none =>
      rw [f3 rfl]
      exact popFrame_none s.T s.T hnd (List.Perm.refl _)
    | some e =>
      obtain ⟨he, hT1⟩ := f4 e rfl
      rw [hT1]
      exact popFrame_some s.T (s.T.erase e) e hnd (List.perm_cons_erase he)
  obtain ⟨n1, n2⟩ := nonlazy_reach_inv oops law sN oN hN
  obtain ⟨l1, l2, l3⟩ := lazy_reach_inv oops law sL oL hL
  have hiN0 : sN.add_dummy = true ∨ 0 < sN.T.length := by
    rcases hiN with h | h
    · exact Or.inl h
    · exact Or.inr (by omega)
  obtain ⟨k1, k2⟩ := lazy_pop_frame oops law sL oL i l1 l2 l3 hiL
  exact ⟨nonlazy_pop_frame oops law sN oN i n1 n2 hiN,
    nonlazy_pop_frame oops law sN oN 0 n1 n2 hiN0, k1, k2⟩

/-- Witness of C12: the calls `pop_kth_largest(2)` on the strategies of the tests over
`diag(0.3, 0.2, 0.9, 0.5, 0.25, 0.125, 0.1, 2.0)`, without dummy elements, leave at least
seven of the eight elements. -/
theorem pop_frame_witness :
    (∃ r s1 o1, NonLazy.pop_kth_largest (Oracle.ops Real.log (testDiag ℝ))
        { T := [0, 1, 2, 3, 4, 5, 6, 7], add_dummy := false } (Oracle.construct ℝ) 2
        = .ok (r, s1, o1) ∧ 7 ≤ s1.T.length) ∧
    (∃ r s1 o1, Lazy.pop_kth_largest (Oracle.ops Real.log (testDiag ℝ))
        (Lazy.construct (Oracle.ops Real.log (testDiag ℝ)) id [0, 1, 2, 3, 4, 5, 6, 7] false
          (Oracle.construct ℝ)).1
        (Lazy.construct (Oracle.ops Real.log (testDiag ℝ)) id [0, 1, 2, 3, 4, 5, 6, 7] false
          (Oracle.construct ℝ)).2 2 = .ok (r, s1, o1) ∧ 7 ≤ s1.T.length) := by
  have law := direct_law Real.log (testDiag ℝ)
  have RN : NonLazy.Reach (Oracle.ops Real.log (testDiag ℝ))
      { T := [0, 1, 2, 3, 4, 5, 6, 7], add_dummy := false } (Oracle.construct ℝ) :=
    NonLazy.Reach.construct id [0, 1, 2, 3, 4, 5, 6, 7] false (Oracle.construct ℝ)
      (by decide) (by simp [Oracle.ops, Oracle.construct])
  have RL : Lazy.Reach (Oracle.ops Real.log (testDiag ℝ))
      (Lazy.construct (Oracle.ops Real.log (testDiag ℝ)) id [0, 1, 2, 3, 4, 5, 6, 7] false
        (Oracle.construct ℝ)).1
      (Lazy.construct (Oracle.ops Real.log (testDiag ℝ)) id [0, 1, 2, 3, 4, 5, 6, 7] false
        (Oracle.construct ℝ)).2 :=
    Lazy.Reach.construct id [0, 1, 2, 3, 4, 5, 6, 7] false (Oracle.construct ℝ)
      (by decide) (by simp [Oracle.ops, Oracle.construct])
  obtain ⟨⟨r, s1, o1, h1, f1⟩, _, ⟨r', s1', o1', h2, f2⟩, _⟩ :=
    pop_frame (Oracle.ops Real.log (testDiag ℝ)) law _ _ _ _ 2 RN RL
      (Or.inr (by decide)) (Or.inr (by simp [Lazy.construct]))
  refine ⟨⟨r, s1, o1, h1, ?_⟩, ⟨r', s1', o1', h2, ?_⟩⟩
  · have := f1.2.2.2.2
    simp at this
    omega
  · have := f2.2.2.2.2
    simp [Lazy.construct] at this
    omega

end DPP

namespace DPP

/-- C18 (as amended): for both oracles, `add(e)` checks nothing about the cell of `e`: in
every state, whatever `u[e]` is, it appends `e` to `S`, adds `log d[e]` to the value, NaN
when the cell is NaN, and leaves the cells as they are. -/
theorem add_appends (oD : Oracle.Instance ℝ) (oF : Fast.Instance ℝ) (e : Nat) :
    ((Oracle.add Real.log oD e).S = oD.S ++ [e] ∧
      (Oracle.add Real.log oD e).value = vadd oD.value (dlog Real.log (oD.d e)) ∧
      (Oracle.add Real.log oD e).u = oD.u ∧ (Oracle.add Real.log oD e).d = oD.d) ∧
    ((Fast.add Real.log oF e).S = oF.S ++ [e] ∧
      (Fast.add Real.log oF e).value = vadd oF.value (dlog Real.log (oF.d e)) ∧
      (Fast.add Real.log oF e).u = oF.u ∧ (Fast.add Real.log oF e).d = oF.d) ∧
    vadd oD.value (dlog Real.log (none : Option ℝ)) = none :=
  ⟨⟨rfl, rfl, rfl, rfl⟩, ⟨rfl, rfl, rfl, rfl⟩, by cases oD.value <;> rfl⟩

/-- C18, counterexample: in a direct oracle that has just been constructed, the cell of
element `0` has never been computed (`u[0] = -1`, which is not `|S| = 0`, and `d[0]` is
NaN), and `add(0)` changes both `S`, to `[0]`, and the value, to NaN.  In the fast oracle
after this `add(0)`, the cell of element `1` has `u[1] = 0`, which is not `|S| = 1`, and
`add(1)` changes `S` to `[0, 1]`. -/
theorem add_appends_counterexample :
    (Oracle.construct ℝ).u 0 ≠ ((Oracle.construct ℝ).S.length : Int) ∧
    (Oracle.construct ℝ).d 0 = none ∧
    (Oracle.add Real.log (Oracle.construct ℝ) 0).S = [0] ∧
    (Oracle.add Real.log (Oracle.construct ℝ) 0).S ≠ (Oracle.construct ℝ).S ∧
    (Oracle.add Real.log (Oracle.construct ℝ) 0).value = none ∧
    (Oracle.add Real.log (Oracle.construct ℝ) 0).value ≠ (Oracle.construct ℝ).value ∧
    (Fast.add Real.log (Fast.construct (fun _ _ => none) false) 0).u 1
      ≠ (Fast.add Real.log (Fast.construct (fun _ _ => none) false) 0).S.length ∧
    (Fast.add Real.log (Fast.add Real.log (Fast.construct (fun _ _ => none) false) 0) 1).S
      = [0, 1] ∧
    (Fast.add Real.log (Fast.add Real.log (Fast.construct (fun _ _ => none) false) 0) 1).S
      ≠ (Fast.add Real.log (Fast.construct (fun _ _ => none) false) 0).S := by
  refine ⟨by simp [Oracle.construct], rfl, rfl, by simp [Oracle.add, Oracle.construct], rfl,
    by simp [Oracle.add, Oracle.construct, vadd, dlog], by simp [Fast.add, Fast.construct],
    rfl, by simp [Fast.add, Fast.construct]⟩

end DPP

namespace DPP

theorem greedy_len_le {α : Type} [LinearOrderedField α] (param : Param α) (clock : Nat → α) :
    ∀ m t, greedy_len param clock m t ≤ m := by
  intro m
  induction m with
  | zero => intro t; exact Nat.le_refl _
  | succ m ih =>
    intro t
    rw [greedy_len]
    by_cases h : expired param (clock t) = true
    · rw [if_pos h]
      omega
    · rw [if_neg h]
      have := ih (t + 1)
      omega

theorem greedy_len_pos {α : Type} [LinearOrderedField α] (param : Param α) (clock : Nat → α)
    (m t : Nat) (hm : 0 < m) : 0 < greedy_len param clock m t := by
  cases m with
  | zero => omega
  | succ m =>
    rw [greedy_len]
    by_cases h : expired param (clock t) = true
    · rw [if_pos h]
      omega
    · rw [if_neg h]
      omega

/-- When the reading at step `t + d` is the first that exceeds the limit, the loop runs
`d + 1` iterations and does not run to its end. -/
theorem greedy_len_first {α : Type} [LinearOrderedField α] (param : Param α)
    (clock : Nat → α) :
    ∀ (d m t : Nat), d < m → expired param (clock (t + d)) = true →
      (∀ i, i < d → expired param (clock (t + i)) = false) →
      greedy_len param clock m t = d + 1 ∧ greedy_fin param clock m t = false := by
  intro d
  induction d with
  | zero =>
    intro m t hm hexp _
    cases m with
    | zero => omega
    | succ m =>
      rw [greedy_len, greedy_fin]
      rw [Nat.add_zero] at hexp
      rw [if_pos hexp, if_pos hexp]
      exact ⟨rfl, rfl⟩
  | succ d ih =>
    intro m t hm hexp hfirst
    cases m with
    | zero => omega
    | succ m =>
      have h0 : ¬ expired param (clock t) = true := by
        have := hfirst 0 (Nat.succ_pos d)
        rw [Nat.add_zero] at this
        rw [this]
        exact Bool.false_ne_true
      rw [greedy_len, greedy_fin, if_neg h0, if_neg h0]
      obtain ⟨i1, i2⟩ := ih m (t + 1) (by omega)
        (by rw [show t + 1 + d = t + (d + 1) by omega]; exact hexp)
        (fun i hi => by
          rw [show t + 1 + i = t + (i + 1) by omega]
          exact hfirst (i + 1) (by omega))
      exact ⟨by rw [i1], i2⟩

theorem snap_init {α : Type} [LinearOrderedField α] (log : α → α) :
    GreedyResult.Snap log (GreedyResult.init α) [] [] := by
  refine ⟨rfl, rfl, ?_⟩
  intro j hj
  have hj0 : j = 0 := Nat.le_zero.mp hj
  subst hj0
  refine ⟨{ element := none, value := some ((0 : α) : WithBot α) }, rfl, rfl, ?_⟩
  intro i hi
  omega

/-- The loop of `operator[]` on the snapshots of a run. -/
theorem snap_sol {α : Type} [LinearOrderedField α] (log : α → α) (res : GreedyResult α)
    (es : List Nat) (gs : List α) (h : GreedyResult.Snap log res es gs) :
    ∀ j, j ≤ es.length → GreedyResult.sol res j = .ok (es.take j) := by
  intro j
  induction j with
  | zero => intro _; rfl
  | succ j ih =>
    intro hj
    obtain ⟨p, p1, _, p3⟩ := h.2.2 (j + 1) hj
    have hp := p3 j rfl
    simp only [GreedyResult.sol, ih (by omega), p1]
    cases p with
    | mk el va =>
      simp only [] at hp
      subst hp
      simp only []
      congr 1
      rw [List.take_succ]
      congr 1
      have hjl : j < es.length := by omega
      simp [List.getD_eq_getElem?_getD, List.getElem?_eq_getElem hjl]

/-- The method `operator[]` on the snapshots of a run: the first `j` elements committed,
with the objective value after `j` commits, and the unfinished result beyond the
snapshots. -/
theorem snap_get {α : Type} [LinearOrderedField α] (log : α → α) (res : GreedyResult α)
    (es : List Nat) (gs : List α) (h : GreedyResult.Snap log res es gs) (j : Nat) :
    (j ≤ es.length → ∃ r, res.get j = .ok r ∧ r.finished = true ∧ r.solution = es.take j ∧
      r.value = valueOf log (gs.take j)) ∧
    (es.length < j → res.get j = .ok Result.unfinished) := by
  unfold GreedyResult.get GreedyResult.size
  constructor
  · intro hj
    have hs : ¬ res.measurements.length ≤ j := by rw [h.2.1]; omega
    rw [if_neg hs, snap_sol log res es gs h j hj]
    obtain ⟨p, p1, p2, _⟩ := h.2.2 j hj
    rw [p1]
    have hm : ∃ m, res.measurements.get? j = some m := by
      have hlt : j < res.measurements.length := by omega
      exact ⟨res.measurements.get ⟨j, hlt⟩, List.get?_eq_get hlt⟩
    obtain ⟨m, hm⟩ := hm
    rw [hm]
    exact ⟨_, rfl, rfl, rfl, p2⟩
  · intro hj
    have hs : res.measurements.length ≤ j := by rw [h.2.1]; omega
    rw [if_pos hs]

end DPP

namespace DPP

theorem nodup_range_length (n : Nat) (es : List Nat) (hnd : es.Nodup)
    (hr : ∀ x ∈ es, x < n) : es.length ≤ n := by
  have hsub : es.toFinset ⊆ Finset.range n := by
    intro x hx
    rw [List.mem_toFinset] at hx
    exact Finset.mem_range.mpr (hr x hx)
  have h1 := Finset.card_le_card hsub
  rw [Finset.card_range, List.toFinset_card_of_nodup hnd] at h1
  exact h1

/-- What the constructor of a strategy over `0..n-1` leaves of an oracle that has just
been constructed. -/
theorem construct_base {τ σ α : Type} [LinearOrderedField α] (log : α → α) (n : Nat)
    (oops : OracleOps σ α) (Good : σ → Prop) (Holds : σ → Nat → α → Prop)
    (B : OracleBase oops log Good Holds) (sops : StrategyOps τ σ α) (getT : τ → List Nat)
    (getD : τ → Bool) (SI : τ → Prop) (Dead : τ → σ → Prop)
    (SL : StrategyLaw n oops Good sops getT getD SI Dead) (k : Nat) (b d : Bool) :
    Good (sops.construct (List.range n) d (oops.construct k b)).2 ∧
    SI (sops.construct (List.range n) d (oops.construct k b)).1 ∧
    getD (sops.construct (List.range n) d (oops.construct k b)).1 = d ∧
    (getT (sops.construct (List.range n) d (oops.construct k b)).1).Nodup ∧
    (∀ x, x ∈ getT (sops.construct (List.range n) d (oops.construct k b)).1 ↔ x < n) ∧
    oops.get_solution (sops.construct (List.range n) d (oops.construct k b)).2 = [] ∧
    oops.get_value (sops.construct (List.range n) d (oops.construct k b)).2
      = valueOf log [] ∧
    Run oops Holds (oops.construct k b) [] []
      (sops.construct (List.range n) d (oops.construct k b)).2 := by
  obtain ⟨c1, c2, c3⟩ := B.construct_good k b
  have hr : ∀ e ∈ List.range n, e < n ∧ e ∉ oops.get_solution (oops.construct k b) := by
    intro e he
    rw [c2]
    exact ⟨List.mem_range.mp he, List.not_mem_nil e⟩
  obtain ⟨d1, d2, d3, d4, d5⟩ := SL.construct_spec (List.range n) d _ c1
    (List.nodup_range n) hr
  obtain ⟨e1, e2, e3, _⟩ := steps_base oops log Good Holds B _ _ _ c1 d5
  refine ⟨e1, d4, d3, d1, ?_, by rw [e2, c2], by rw [e3, c3]; rfl, ?_⟩
  · intro x
    rw [d2 x, List.mem_range]
  · exact (run_steps oops B.law Holds _ _ _ _ [] [] Run.refl (fun x hx => (hr x hx).2) d5).1

/-- The function `greedy` over any kernel, for a strategy and an oracle that are what the
drivers expect. -/
theorem greedy_base {τ σ α : Type} [LinearOrderedField α] (log : α → α) (n : Nat)
    (oops : OracleOps σ α) (Good : σ → Prop) (Holds : σ → Nat → α → Prop)
    (B : OracleBase oops log Good Holds) (sops : StrategyOps τ σ α) (getT : τ → List Nat)
    (getD : τ → Bool) (SI : τ → Prop) (Dead : τ → σ → Prop)
    (SL : StrategyLaw n oops Good sops getT getD SI Dead)
    (k : Nat) (hk : k ≤ n) (param : Param α) (clock : Nat → α) :
    ∃ out es gs p, greedy sops oops n k param clock = .ok out ∧
      Run oops Holds (oops.construct k param.log_computed_offdiagonals_V) es gs p ∧
      oops.get_solution p = es ∧ oops.get_value p = valueOf log gs ∧
      GreedyResult.Snap log out es gs ∧ es.Nodup ∧ (∀ x ∈ es, x < n) ∧
      es.length ≤ greedy_len param clock k 0 ∧
      (isNegInf (valueOf log gs) = false → es.length = greedy_len param clock k 0) ∧
      out.finished = (greedy_fin param clock k 0 && !isNegInf (valueOf log gs)) ∧
      (∀ j, j < gs.length → isNegInf (valueOf log (gs.take j)) = false) ∧
      min k 1 ≤ es.length := by
  -- The loop of `greedy` over any kernel: it returns; its snapshots are those of the run
  -- of its oracle; the run stops at the first step whose reading exceeds the limit or whose
  -- objective value is minus infinity, and is finished when there is no such step.
  have greedy_loop_base {τ σ α : Type} [LinearOrderedField α] (log : α → α) (n : Nat)
      (oops : OracleOps σ α) (Good : σ → Prop) (Holds : σ → Nat → α → Prop)
      (B : OracleBase oops log Good Holds) (sops : StrategyOps τ σ α) (getT : τ → List Nat)
      (getD : τ → Bool) (SI : τ → Prop) (Dead : τ → σ → Prop)
      (SL : StrategyLaw n oops Good sops getT getD SI Dead)
      (param : Param α) (clock : Nat → α) (o0 : σ) :
      ∀ (m t : Nat) (s : τ) (o : σ) (res : GreedyResult α) (gs : List α), Good o → SI s →
        getD s = false → (getT s).Nodup →
        (∀ x, x ∈ getT s ↔ (x < n ∧ x ∉ oops.get_solution o)) →
        (oops.get_solution o).length + m ≤ n →
        Run oops Holds o0 (oops.get_solution o) gs o → oops.get_value o = valueOf log gs →
        (oops.get_solution o).Nodup → (∀ x ∈ oops.get_solution o, x < n) →
        GreedyResult.Snap log res (oops.get_solution o) gs → res.finished = false →
        (∀ j, j ≤ gs.length → isNegInf (valueOf log (gs.take j)) = false) →
        ∃ out es gs1 p, greedy_loop sops oops param clock m t s o res = .ok out ∧
          Run oops Holds o0 es gs1 p ∧ oops.get_solution p = es ∧
          oops.get_value p = valueOf log gs1 ∧ GreedyResult.Snap log out es gs1 ∧
          es.Nodup ∧ (∀ x ∈ es, x < n) ∧
          es.length ≤ (oops.get_solution o).length + greedy_len param clock m t ∧
          (isNegInf (valueOf log gs1) = false →
            es.length = (oops.get_solution o).length + greedy_len param clock m t) ∧
          out.finished = (greedy_fin param clock m t && !isNegInf (valueOf log gs1)) ∧
          (∀ j, j < gs1.length → isNegInf (valueOf log (gs1.take j)) = false) ∧
          (oops.get_solution o).length + min m 1 ≤ es.length := by
    have snap_add {α : Type} [LinearOrderedField α] (log : α → α) (res : GreedyResult α)
        (es : List Nat) (gs : List α) (e : Nat) (g : α) (v : Value α) (time : α) (a b c : Nat)
        (l : List (Nat × Nat)) (h : GreedyResult.Snap log res es gs) (hlen : gs.length = es.length)
        (hv : v = valueOf log (gs ++ [g])) :
        GreedyResult.Snap log (res.add (some e) v time a b c l) (es ++ [e]) (gs ++ [g]) := by
      obtain ⟨h1, h2, h3⟩ := h
      refine ⟨?_, ?_, ?_⟩
      · simp [GreedyResult.add, h1]
      · simp [GreedyResult.add, h2]
      · intro j hj
        rw [List.length_append, List.length_singleton] at hj
        by_cases hjl : j ≤ es.length
        · obtain ⟨p, p1, p2, p3⟩ := h3 j hjl
          refine ⟨p, ?_, ?_, ?_⟩
          · simp only [GreedyResult.add]
            rw [List.get?_eq_getElem?, List.getElem?_append_left (by omega), ← List.get?_eq_getElem?]
            exact p1
          · rw [List.take_append_of_le_length (by omega)]
            exact p2
          · intro i hi
            rw [p3 i hi, List.getD_append _ _ _ _ (by omega)]
        · have hje : j = es.length + 1 := by omega
          subst hje
          refine ⟨{ element := some e, value := v }, ?_, ?_, ?_⟩
          · simp only [GreedyResult.add]
            rw [List.get?_eq_getElem?, List.getElem?_append_right (by omega)]
            simp [h1]
          · rw [hv, List.take_of_length_le (by simp [hlen])]
          · intro i hi
            have : i = es.length := by omega
            subst this
            simp [List.getD_eq_getElem?_getD]
    intro m
    induction m with
    | zero =>
      intro t s o res gs hg _ _ _ _ _ hrun hval hnd hrange hsnap hfin hneg
      have hlast : isNegInf (valueOf log gs) = false := by
        have := hneg gs.length (Nat.le_refl _)
        rwa [List.take_length] at this
      refine ⟨{ res with finished := true }, oops.get_solution o, gs, o, rfl, hrun, rfl, hval,
        hsnap, hnd, hrange, Nat.le_refl _, fun _ => rfl, ?_, ?_, ?_⟩
      · simp [greedy_fin, hlast]
      · intro j hj
        exact hneg j (Nat.le_of_lt hj)
      · simp
    | succ m ih =>
      intro t s o res gs hg hSI hD hnd hT hlen hrun hval hndS hrange hsnap hfin hneg
      have hgl := run_length oops Holds o0 o _ gs hrun
      obtain ⟨x0, hx0, hx0S⟩ := exists_fresh_element n (oops.get_solution o) (by omega)
      have hne : getT s ≠ [] := List.ne_nil_of_mem ((hT x0).mpr ⟨hx0, hx0S⟩)
      have hT' : ∀ e ∈ getT s, e < n ∧ e ∉ oops.get_solution o := fun e he => (hT e).mp he
      have hTS : ∀ e ∈ getT s, e ∉ oops.get_solution o := fun e he => (hT' e he).2
      obtain ⟨r, s1, o1, hok, hpo, _, _⟩ := SL.pop_spec s o hg hSI hnd hT' (Or.inr hne)
      obtain ⟨g1, g2, g3, g4, g5⟩ :=
        popOut_base oops log Good Holds B getT getD SI s o r s1 o1 hg hTS hpo
      obtain ⟨q1, q2, q3, q4, q5⟩ := hpo
      cases r with
      | none =>
        have := (q4 rfl).1
        rw [hD] at this
        cases this
      | some e =>
        obtain ⟨heT, hmem, _, _⟩ := q5 e rfl
        obtain ⟨he, heS⟩ := hT' e heT
        have heS1 : e ∉ oops.get_solution o1 := by rw [g2]; exact heS
        have hrun1 : Run oops Holds o0 (oops.get_solution o ++ [e])
            (gs ++ [gainAt oops o e]) (oops.add o1 e) :=
          Run.add _ _ o1 e _ (g4 o0 _ gs hrun) heS1 (g5 e rfl)
        have hS2 : oops.get_solution (oops.add o1 e) = oops.get_solution o ++ [e] := by
          rw [B.law.add_S, g2]
        have hv2 : oops.get_value (oops.add o1 e) = valueOf log (gs ++ [gainAt oops o e]) := by
          rw [B.add_value o1 e _ g1 (g5 e rfl), g3, hval, valueOf_append]
        have hnd2 : (oops.get_solution o ++ [e]).Nodup := by
          rw [List.nodup_append]
          refine ⟨hndS, List.nodup_singleton e, ?_⟩
          intro a ha hb
          rw [List.mem_singleton.mp hb] at ha
          exact heS ha
        have hr2 : ∀ x ∈ oops.get_solution o ++ [e], x < n := by
          intro x hx
          rcases List.mem_append.mp hx with h | h
          · exact hrange x h
          · rw [List.mem_singleton.mp h]; exact he
        have hsnap1 := snap_add log res (oops.get_solution o) gs e (gainAt oops o e)
          (oops.get_value (oops.add o1 e)) (clock t) 0
          (oops.get_num_oracle_calls (oops.add o1 e))
          (oops.get_num_computed_offdiagonals_V (oops.add o1 e))
          (oops.get_computed_offdiagonals_V (oops.add o1 e)) hsnap hgl hv2
        have hneg1 : ∀ j, j < (gs ++ [gainAt oops o e]).length →
            isNegInf (valueOf log ((gs ++ [gainAt oops o e]).take j)) = false := by
          intro j hj
          rw [List.length_append, List.length_singleton] at hj
          rw [List.take_append_of_le_length (by omega)]
          exact hneg j (by omega)
        rw [greedy_loop]
        simp only [hok]
        by_cases hstop : (expired param (clock t) ||
            isNegInf (oops.get_value (oops.add o1 e))) = true
        · rw [if_pos hstop]
          refine ⟨_, oops.get_solution o ++ [e], gs ++ [gainAt oops o e], oops.add o1 e, rfl,
            hrun1, hS2, hv2, hsnap1, hnd2, hr2, ?_, ?_, ?_, hneg1, ?_⟩
          · rw [List.length_append, List.length_singleton]
            have := greedy_len_pos param clock (m + 1) t (Nat.succ_pos m)
            omega
          · intro hni
            rw [← hv2] at hni
            rw [hni, Bool.or_false] at hstop
            rw [List.length_append, List.length_singleton, greedy_len, if_pos hstop]
          · show res.finished = _
            rw [hfin, greedy_fin]
            by_cases hexp : expired param (clock t) = true
            · rw [if_pos hexp]
              rfl
            · rw [Bool.not_eq_true] at hexp
              rw [hexp, Bool.false_or] at hstop
              rw [← hv2, hstop]
              simp
          · rw [List.length_append, List.length_singleton]
            have : min (m + 1) 1 = 1 := by omega
            omega
        · rw [if_neg hstop]
          rw [Bool.not_eq_true, Bool.or_eq_false_iff] at hstop
          obtain ⟨hexp, hni⟩ := hstop
          obtain ⟨hg3, hS3, hv3, hrun3⟩ : Good (if param.log_computed_offdiagonals_V = true then
                oops.clear_computed_offdiagonals_V (oops.add o1 e) else oops.add o1 e) ∧
              oops.get_solution (if param.log_computed_offdiagonals_V = true then
                oops.clear_computed_offdiagonals_V (oops.add o1 e) else oops.add o1 e)
                = oops.get_solution o ++ [e] ∧
              oops.get_value (if param.log_computed_offdiagonals_V = true then
                oops.clear_computed_offdiagonals_V (oops.add o1 e) else oops.add o1 e)
                = valueOf log (gs ++ [gainAt oops o e]) ∧
              Run oops Holds o0 (oops.get_solution o ++ [e]) (gs ++ [gainAt oops o e])
                (if param.log_computed_offdiagonals_V = true then
                  oops.clear_computed_offdiagonals_V (oops.add o1 e) else oops.add o1 e) := by
            have hg2 : Good (oops.add o1 e) := B.add_good o1 e g1
            by_cases hlog : param.log_computed_offdiagonals_V = true
            · rw [if_pos hlog]
              obtain ⟨c1, c2, c3⟩ := B.clear_good _ hg2
              exact ⟨c1, by rw [c2, hS2], by rw [c3, hv2], Run.clear _ _ _ hrun1⟩
            · rw [if_neg hlog]
              exact ⟨hg2, hS2, hv2, hrun1⟩
          have hT3 : ∀ x, x ∈ getT s1 ↔ (x < n ∧ x ∉ oops.get_solution
              (if param.log_computed_offdiagonals_V = true then
                oops.clear_computed_offdiagonals_V (oops.add o1 e) else oops.add o1 e)) := by
            intro x
            rw [hS3, hmem x, hT x]
            simp only [List.mem_append, List.mem_singleton, not_or]
            exact and_assoc
          have hneg3 : ∀ j, j ≤ (gs ++ [gainAt oops o e]).length →
              isNegInf (valueOf log ((gs ++ [gainAt oops o e]).take j)) = false := by
            intro j hj
            by_cases hj' : j < (gs ++ [gainAt oops o e]).length
            · exact hneg1 j hj'
            · rw [List.take_of_length_le (by omega), ← hv2]
              exact hni
          obtain ⟨out, es, gs1, p, o1', o2', o3', o4', o5', o6', o7', o8', o9', o10', o11', o12'⟩ :=
            ih (t + 1) s1 _ (res.add (some e) (oops.get_value (oops.add o1 e)) (clock t) 0
                (oops.get_num_oracle_calls (oops.add o1 e))
                (oops.get_num_computed_offdiagonals_V (oops.add o1 e))
                (oops.get_computed_offdiagonals_V (oops.add o1 e)))
              (gs ++ [gainAt oops o e]) hg3 q2
              (by rw [q1]; exact hD) q3 hT3
              (by rw [hS3, List.length_append, List.length_singleton]; omega)
              (by rw [hS3]; exact hrun3) hv3 (by rw [hS3]; exact hnd2)
              (by rw [hS3]; exact hr2) (by rw [hS3]; exact hsnap1) hfin hneg3
          rw [hS3, List.length_append, List.length_singleton] at o8' o9' o12'
          refine ⟨out, es, gs1, p, o1', o2', o3', o4', o5', o6', o7', ?_, ?_, ?_, o11', ?_⟩
          · rw [greedy_len, hexp]
            simp only [Bool.false_eq_true, if_false]
            omega
          · intro h
            rw [greedy_len, hexp]
            simp only [Bool.false_eq_true, if_false]
            have := o9' h
            omega
          · rw [o10', greedy_fin, hexp]
            simp
          · have : min (m + 1) 1 = 1 := by omega
            omega
  obtain ⟨c1, c2, c3, c4, c5, c6, c7, c8⟩ := construct_base log n oops Good Holds B sops getT
    getD SI Dead SL k param.log_computed_offdiagonals_V false
  have hT : ∀ x, x ∈ getT (sops.construct (List.range n) false
      (oops.construct k param.log_computed_offdiagonals_V)).1 ↔ (x < n ∧
      x ∉ oops.get_solution (sops.construct (List.range n) false
      (oops.construct k param.log_computed_offdiagonals_V)).2) := by
    intro x
    rw [c5 x, c6]
    simp
  obtain ⟨out, es, gs, p, o1, o2, o3, o4, o5, o6, o7, o8, o9, o10, o11, o12⟩ :=
    greedy_loop_base log n oops Good Holds B sops getT getD SI Dead SL param clock
      (oops.construct k param.log_computed_offdiagonals_V) k 0 _ _ (GreedyResult.init α) []
      c1 c2 c3 c4 hT (by rw [c6]; simpa using hk) (by rw [c6]; exact c8) c7
      (by rw [c6]; exact List.nodup_nil) (by rw [c6]; intro x hx; cases hx)
      (by rw [c6]; exact snap_init log) rfl (by
        intro j _
        rw [List.take_nil]
        rfl)
  rw [c6] at o8 o9 o12
  simp only [List.length_nil, Nat.zero_add] at o8 o9 o12
  refine ⟨out, es, gs, p, ?_, o2, o3, o4, o5, o6, o7, o8, o9, o10, o11, o12⟩
  unfold greedy
  have hkn : (!decide (k ≤ n)) = false := by simp [hk]
  rw [hkn]
  exact o1

/-- The loop of `random_greedy` over any kernel: it returns the unfinished result when a
reading exceeds the limit, and otherwise the state of its oracle, which has committed at
most one element per iteration, each with a gain above `1`. -/
theorem random_greedy_loop_base {τ σ α : Type} [LinearOrderedField α] (log : α → α)
    (n : Nat) (oops : OracleOps σ α) (Good : σ → Prop) (Holds : σ → Nat → α → Prop)
    (B : OracleBase oops log Good Holds) (sops : StrategyOps τ σ α) (getT : τ → List Nat)
    (getD : τ → Bool) (SI : τ → Prop) (Dead : τ → σ → Prop)
    (SL : StrategyLaw n oops Good sops getT getD SI Dead)
    (k : Nat) (param : Param α) (clock : Nat → α) (rng : Nat → Nat) (o0 : σ) :
    ∀ (m t : Nat) (s : τ) (o : σ) (gs : List α), Good o → SI s → getD s = true →
      (getT s).Nodup → (∀ x ∈ getT s, x < n ∧ x ∉ oops.get_solution o) →
      Run oops Holds o0 (oops.get_solution o) gs o → oops.get_value o = valueOf log gs →
      (oops.get_solution o).Nodup → (∀ x ∈ oops.get_solution o, x < n) →
      (∀ g ∈ gs, 1 < g) →
      ∃ r, random_greedy_loop sops oops k param clock rng m t s o = .ok r ∧
        (greedy_fin param clock m t = false → r = Result.unfinished) ∧
        (greedy_fin param clock m t = true → ∃ es gs1 p, Run oops Holds o0 es gs1 p ∧
          r = final_result oops p (clock k) ∧ oops.get_solution p = es ∧
          oops.get_value p = valueOf log gs1 ∧ es.Nodup ∧ (∀ x ∈ es, x < n) ∧
          es.length ≤ (oops.get_solution o).length + m ∧ ∀ g ∈ gs1, 1 < g) := by
  intro m
  induction m with
  | zero =>
    intro t s o gs hg _ _ _ _ hrun hval hnd hr hgs
    refine ⟨_, rfl, ?_, ?_⟩
    · intro h
      simp [greedy_fin] at h
    · intro _
      exact ⟨_, gs, o, hrun, rfl, rfl, hval, hnd, hr, Nat.le_refl _, hgs⟩
  | succ m ih =>
    intro t s o gs hg hSI hD hnd hT hrun hval hndS hr hgs
    have hTS : ∀ e ∈ getT s, e ∉ oops.get_solution o := fun e he => (hT e he).2
    obtain ⟨r, s1, o1, hok, hpo⟩ := SL.pop_kth_spec s o
      (uniform_int 0 (max 0 (k - 1)) (rng t)) hg hSI hnd hT (Or.inl hD)
    obtain ⟨g1, g2, g3, g4, g5⟩ :=
      popOut_base oops log Good Holds B getT getD SI s o r s1 o1 hg hTS hpo
    obtain ⟨q1, q2, q3, q4, q5⟩ := hpo
    rw [random_greedy_loop]
    simp only [hok]
    by_cases hexp : expired param (clock t) = true
    · rw [if_pos hexp]
      refine ⟨_, rfl, fun _ => rfl, ?_⟩
      intro h
      rw [greedy_fin, if_pos hexp] at h
      cases h
    · rw [if_neg hexp]
      have hfin : greedy_fin param clock (m + 1) t = greedy_fin param clock m (t + 1) := by
        rw [greedy_fin, if_neg hexp]
      rw [hfin]
      cases r with
      | none =>
        obtain ⟨_, hmem, _⟩ := q4 rfl
        obtain ⟨r', h1, h2, h3⟩ := ih (t + 1) s1 o1 gs g1 q2 (by rw [q1]; exact hD) q3
          (fun x hx => by rw [g2]; exact hT x ((hmem x).mp hx))
          (by rw [g2]; exact g4 o0 _ gs hrun) (by rw [g3]; exact hval)
          (by rw [g2]; exact hndS) (by rw [g2]; exact hr) hgs
        refine ⟨r', h1, h2, ?_⟩
        intro hf
        obtain ⟨es, gs1, p, a1, a2, a3, a4, a5, a6, a7, a8⟩ := h3 hf
        rw [g2] at a7
        exact ⟨es, gs1, p, a1, a2, a3, a4, a5, a6, by omega, a8⟩
      | some e =>
        obtain ⟨heT, hmem, _, hgain⟩ := q5 e rfl
        obtain ⟨he, heS⟩ := hT e heT
        have heS1 : e ∉ oops.get_solution o1 := by rw [g2]; exact heS
        have hS2 : oops.get_solution (oops.add o1 e) = oops.get_solution o ++ [e] := by
          rw [B.law.add_S, g2]
        obtain ⟨r', h1, h2, h3⟩ := ih (t + 1) s1 (oops.add o1 e) (gs ++ [gainAt oops o e])
          (B.add_good o1 e g1) q2 (by rw [q1]; exact hD) q3
          (by
            intro x hx
            obtain ⟨hx1, hx2⟩ := (hmem x).mp hx
            refine ⟨(hT x hx1).1, ?_⟩
            rw [hS2]
            intro hm
            rcases List.mem_append.mp hm with h | h
            · exact (hT x hx1).2 h
            · exact hx2 (List.mem_singleton.mp h))
          (by
            rw [hS2]
            exact Run.add _ _ o1 e _ (g4 o0 _ gs hrun) heS1 (g5 e rfl))
          (by rw [B.add_value o1 e _ g1 (g5 e rfl), g3, hval, valueOf_append])
          (by
            rw [hS2, List.nodup_append]
            refine ⟨hndS, List.nodup_singleton e, ?_⟩
            intro a ha hb
            rw [List.mem_singleton.mp hb] at ha
            exact heS ha)
          (by
            rw [hS2]
            intro x hx
            rcases List.mem_append.mp hx with h | h
            · exact hr x h
            · rw [List.mem_singleton.mp h]; exact he)
          (by
            intro g hg'
            rcases List.mem_append.mp hg' with h | h
            · exact hgs g h
            · rw [List.mem_singleton.mp h]; exact hgain hD)
        refine ⟨r', h1, h2, ?_⟩
        intro hf
        obtain ⟨es, gs1, p, a1, a2, a3, a4, a5, a6, a7, a8⟩ := h3 hf
        rw [hS2, List.length_append, List.length_singleton] at a7
        exact ⟨es, gs1, p, a1, a2, a3, a4, a5, a6, by omega, a8⟩

/-- The function `random_greedy` over any kernel. -/
theorem random_greedy_base {τ σ α : Type} [LinearOrderedField α] (log : α → α)
    (n : Nat) (oops : OracleOps σ α) (Good : σ → Prop) (Holds : σ → Nat → α → Prop)
    (B : OracleBase oops log Good Holds) (sops : StrategyOps τ σ α) (getT : τ → List Nat)
    (getD : τ → Bool) (SI : τ → Prop) (Dead : τ → σ → Prop)
    (SL : StrategyLaw n oops Good sops getT getD SI Dead)
    (k : Nat) (hk : k ≤ n) (param : Param α) (clock : Nat → α) (rng : Nat → Nat) :
    ∃ r, random_greedy sops oops n k param clock rng = .ok r ∧
      (greedy_fin param clock k 0 = false → r = Result.unfinished) ∧
      (greedy_fin param clock k 0 = true → ∃ es gs p,
        Run oops Holds (oops.construct k param.log_computed_offdiagonals_V) es gs p ∧
        r = final_result oops p (clock k) ∧ oops.get_solution p = es ∧
        oops.get_value p = valueOf log gs ∧ es.Nodup ∧ (∀ x ∈ es, x < n) ∧
        es.length ≤ k ∧ ∀ g ∈ gs, 1 < g) := by
  obtain ⟨c1, c2, c3, c4, c5, c6, c7, c8⟩ := construct_base log n oops Good Holds B sops getT
    getD SI Dead SL k param.log_computed_offdiagonals_V true
  obtain ⟨r, h1, h2, h3⟩ := random_greedy_loop_base log n oops Good Holds B sops getT getD SI
    Dead SL k param clock rng (oops.construct k param.log_computed_offdiagonals_V) k 0 _ _ []
    c1 c2 c3 c4 (by
      intro x hx
      rw [c6]
      exact ⟨(c5 x).mp hx, List.not_mem_nil x⟩)
    (by rw [c6]; exact c8) c7 (by rw [c6]; exact List.nodup_nil)
    (by rw [c6]; intro x hx; cases hx) (by intro g hg; cases hg)
  refine ⟨r, ?_, h2, ?_⟩
  · unfold random_greedy
    have hkn : (!decide (k ≤ n)) = false := by simp [hk]
    rw [hkn]
    exact h1
  · intro hf
    obtain ⟨es, gs1, p, a1, a2, a3, a4, a5, a6, a7, a8⟩ := h3 hf
    rw [c6] at a7
    exact ⟨es, gs1, p, a1, a2, a3, a4, a5, a6, by simpa using a7, a8⟩

/-- The loop of `double_greedy` over any kernel: it returns the unfinished result when a
reading exceeds the limit, and otherwise the state of the oracle over `L`, which has
committed indices in increasing order. -/
theorem double_greedy_loop_base {σ α : Type} [LinearOrderedField α] (log : α → α)
    (n : Nat) (oops : OracleOps σ α) (Good : σ → Prop) (Holds : σ → Nat → α → Prop)
    (B : OracleBase oops log Good Holds) (oops_inv : OracleOps σ α)
    (param : Param α) (clock : Nat → α) (rng : Nat → Nat) (o0 : σ) :
    ∀ (m i : Nat) (o oi : σ) (gs : List α), Good o → i + m ≤ n →
      (∀ x ∈ oops.get_solution o, x < i) → (oops.get_solution o).Pairwise (· < ·) →
      Run oops Holds o0 (oops.get_solution o) gs o → oops.get_value o = valueOf log gs →
      ∃ r, double_greedy_loop log oops oops_inv n param clock rng m i o oi = .ok r ∧
        (greedy_fin param clock m i = false → r = Result.unfinished) ∧
        (greedy_fin param clock m i = true → ∃ gs1 p, Run oops Holds o0 r.solution gs1 p ∧
          r.finished = true ∧ oops.get_solution p = r.solution ∧
          r.value = valueOf log gs1 ∧ r.solution.Pairwise (· < ·) ∧
          ∀ x ∈ r.solution, x < n) := by
  intro m
  induction m with
  | zero =>
    intro i o oi gs hg him hS hsort hrun hval
    refine ⟨_, rfl, ?_, ?_⟩
    · intro h
      simp [greedy_fin] at h
    · intro _
      exact ⟨gs, o, hrun, rfl, rfl, hval, hsort, fun x hx => by have := hS x hx; omega⟩
  | succ m ih =>
    intro i o oi gs hg him hS hsort hrun hval
    have hi : i < n := by omega
    have hiS : i ∉ oops.get_solution o := fun h => Nat.lt_irrefl i (hS i h)
    obtain ⟨c1, c2⟩ := B.compute_good o i hg
    rw [double_greedy_loop]
    by_cases hexp : expired param (clock i) = true
    · rw [if_pos hexp]
      refine ⟨_, rfl, fun _ => rfl, ?_⟩
      intro h
      rw [greedy_fin, if_pos hexp] at h
      cases h
    · rw [if_neg hexp]
      have hfin : greedy_fin param clock (m + 1) i = greedy_fin param clock m (i + 1) := by
        rw [greedy_fin, if_neg hexp]
      rw [hfin]
      have hiS1 : i ∉ oops.get_solution (oops.compute_marginal_gain_exponential o i).2 := by
        rw [B.law.compute_S]; exact hiS
      have hrun1 : Run oops Holds o0 (oops.get_solution o) gs
          (oops.compute_marginal_gain_exponential o i).2 := Run.compute _ _ o i hrun hiS
      have key : ∀ (c : Bool) (y z : σ), ∃ gs', Good (if c = true then
            (oops.add (oops.compute_marginal_gain_exponential o i).2 i, y)
            else ((oops.compute_marginal_gain_exponential o i).2, z)).1 ∧
          (∀ x ∈ oops.get_solution (if c = true then
            (oops.add (oops.compute_marginal_gain_exponential o i).2 i, y)
              else ((oops.compute_marginal_gain_exponential o i).2, z)).1, x < i + 1) ∧
          (oops.get_solution (if c = true then
            (oops.add (oops.compute_marginal_gain_exponential o i).2 i, y)
              else ((oops.compute_marginal_gain_exponential o i).2, z)).1).Pairwise (· < ·) ∧
          Run oops Holds o0 (oops.get_solution (if c = true then
            (oops.add (oops.compute_marginal_gain_exponential o i).2 i, y)
              else ((oops.compute_marginal_gain_exponential o i).2, z)).1) gs'
            (if c = true then
            (oops.add (oops.compute_marginal_gain_exponential o i).2 i, y)
              else ((oops.compute_marginal_gain_exponential o i).2, z)).1 ∧
          oops.get_value (if c = true then
            (oops.add (oops.compute_marginal_gain_exponential o i).2 i, y)
              else ((oops.compute_marginal_gain_exponential o i).2, z)).1
            = valueOf log gs' := by
        intro c y z
        cases c with
        | true =>
          simp only [if_true]
          have hS2 : oops.get_solution
              (oops.add (oops.compute_marginal_gain_exponential o i).2 i)
              = oops.get_solution o ++ [i] := by
            rw [B.law.add_S, B.law.compute_S]
          refine ⟨gs ++ [(oops.compute_marginal_gain_exponential o i).1],
            B.add_good _ i c1, ?_, ?_, ?_, ?_⟩
          · intro x hx
            rw [hS2] at hx
            rcases List.mem_append.mp hx with h | h
            · exact Nat.lt_succ_of_lt (hS x h)
            · rw [List.mem_singleton.mp h]; exact Nat.lt_succ_self i
          · rw [hS2, List.pairwise_append]
            refine ⟨hsort, List.pairwise_singleton _ _, ?_⟩
            intro a ha b hb
            rw [List.mem_singleton.mp hb]
            exact hS a ha
          · rw [hS2]
            exact Run.add _ _ _ i _ hrun1 hiS1 c2
          · rw [B.add_value _ i _ c1 c2, B.law.compute_value, hval, valueOf_append]
        | false =>
          simp only [Bool.false_eq_true, if_false]
          refine ⟨gs, c1, ?_, ?_, ?_, ?_⟩
          · intro x hx
            rw [B.law.compute_S] at hx
            exact Nat.lt_succ_of_lt (hS x hx)
          · rw [B.law.compute_S]
            exact hsort
          · rw [B.law.compute_S]
            exact hrun1
          · rw [B.law.compute_value, hval]
      obtain ⟨gs', k1, k2, k3, k4, k5⟩ := key _ _ _
      exact ih (i + 1) _ _ gs' k1 (by omega) k2 k3 k4 k5

/-- The function `double_greedy` over any kernel. -/
theorem double_greedy_base {σ α : Type} [LinearOrderedField α] (log : α → α)
    (n : Nat) (oops : OracleOps σ α) (Good : σ → Prop) (Holds : σ → Nat → α → Prop)
    (B : OracleBase oops log Good Holds) (oops_inv : OracleOps σ α)
    (param : Param α) (clock : Nat → α) (rng : Nat → Nat) :
    ∃ r, double_greedy log oops oops_inv n param clock rng = .ok r ∧
      (greedy_fin param clock n 0 = false → r = Result.unfinished) ∧
      (greedy_fin param clock n 0 = true → ∃ gs p,
        Run oops Holds (oops.construct n false) r.solution gs p ∧ r.finished = true ∧
        oops.get_solution p = r.solution ∧ r.value = valueOf log gs ∧
        r.solution.Pairwise (· < ·) ∧ ∀ x ∈ r.solution, x < n) := by
  obtain ⟨c1, c2, c3⟩ := B.construct_good n false
  exact double_greedy_loop_base log n oops Good Holds B oops_inv param clock rng
    (oops.construct n false) n 0 _ _ [] c1 (by omega)
    (by rw [c2]; intro x hx; cases hx) (by rw [c2]; exact List.Pairwise.nil)
    (by rw [c2]; exact Run.refl) (by rw [c3]; rfl)

end DPP

namespace DPP

/-- The function `stochastic_greedy` over any kernel. -/
theorem stochastic_greedy_base {τ σ α : Type} [LinearOrderedField α]
    {sqrt log : α → α} [Numeric sqrt log] [FloorRing α]
    (n : Nat) (oops : OracleOps σ α) (Good : σ → Prop) (Holds : σ → Nat → α → Prop)
    (B : OracleBase oops log Good Holds) (sops : StrategyOps τ σ α) (getT : τ → List Nat)
    (getD : τ → Bool) (SI : τ → Prop) (Dead : τ → σ → Prop)
    (SL : StrategyLaw n oops Good sops getT getD SI Dead)
    (k : Nat) (hk : k ≤ n) (param : Param α) (clock : Nat → α) (rng : Nat → Nat) :
    ∃ r, stochastic_greedy log sops oops n k param clock rng = .ok r ∧
      (greedy_fin param clock k 0 = false → r = Result.unfinished) ∧
      (greedy_fin param clock k 0 = true → ∃ es gs p,
        Run oops Holds (oops.construct k param.log_computed_offdiagonals_V) es gs p ∧
        r = final_result oops p (clock k) ∧ oops.get_solution p = es ∧
        oops.get_value p = valueOf log gs ∧ es.Nodup ∧ (∀ x ∈ es, x < n) ∧
        es.length = k) := by
  -- The loop of `stochastic_greedy` over any kernel: it returns the unfinished result when
  -- a reading exceeds the limit, and otherwise the state of its oracle, which has committed
  -- one element per iteration.
  have stochastic_greedy_loop_base {τ σ α : Type} [LinearOrderedField α] (log : α → α)
      (n : Nat) (oops : OracleOps σ α) (Good : σ → Prop) (Holds : σ → Nat → α → Prop)
      (B : OracleBase oops log Good Holds) (sops : StrategyOps τ σ α) (getT : τ → List Nat)
      (getD : τ → Bool) (SI : τ → Prop) (Dead : τ → σ → Prop)
      (SL : StrategyLaw n oops Good sops getT getD SI Dead)
      (k s : Nat) (hs : 0 < s) (param : Param α) (clock : Nat → α) (rng : Nat → Nat) (o0 : σ) :
      ∀ (m t pos : Nat) (T : List Nat) (T_inv : Nat → Int) (o : σ) (gs : List α), Good o →
        TInv T T_inv → (∀ x, x ∈ T ↔ (x < n ∧ x ∉ oops.get_solution o)) →
        T.length + (oops.get_solution o).length = n → (oops.get_solution o).length + m ≤ n →
        Run oops Holds o0 (oops.get_solution o) gs o → oops.get_value o = valueOf log gs →
        (oops.get_solution o).Nodup → (∀ x ∈ oops.get_solution o, x < n) →
        ∃ r, stochastic_greedy_loop sops oops n k s param clock rng m t pos T T_inv o = .ok r ∧
          (greedy_fin param clock m t = false → r = Result.unfinished) ∧
          (greedy_fin param clock m t = true → ∃ es gs1 p, Run oops Holds o0 es gs1 p ∧
            r = final_result oops p (clock k) ∧ oops.get_solution p = es ∧
            oops.get_value p = valueOf log gs1 ∧ es.Nodup ∧ (∀ x ∈ es, x < n) ∧
            es.length = (oops.get_solution o).length + m) := by
    intro m
    induction m with
    | zero =>
      intro t pos T T_inv o gs hg _ _ _ _ hrun hval hnd hr
      refine ⟨_, rfl, ?_, ?_⟩
      · intro h
        simp [greedy_fin] at h
      · intro _
        exact ⟨_, gs, o, hrun, rfl, rfl, hval, hnd, hr, rfl⟩
    | succ m ih =>
      intro t pos T T_inv o gs hg hTI hT hTlen hlen hrun hval hndS hr
      have hcs1 : 0 < min s (n - (oops.get_solution o).length) := by
        apply lt_min hs
        omega
      have hcs2 : min s (n - (oops.get_solution o).length) ≤ T.length := by
        have := min_le_right s (n - (oops.get_solution o).length)
        omega
      obtain ⟨f1, f2, f3⟩ := fisher_yates_shuffle_spec rng
        (min s (n - (oops.get_solution o).length)) pos T T_inv hTI hcs2
      have hrnd : ((fisher_yates_shuffle rng (min s (n - (oops.get_solution o).length)) pos T
          T_inv).1.take (min s (n - (oops.get_solution o).length))).Nodup :=
        List.Nodup.sublist (List.take_sublist _ _) f1.1
      have hrmem : ∀ e ∈ (fisher_yates_shuffle rng (min s (n - (oops.get_solution o).length)) pos
          T T_inv).1.take (min s (n - (oops.get_solution o).length)),
          e < n ∧ e ∉ oops.get_solution o :=
        fun e he => (hT e).mp ((f3 e).mp (List.mem_of_mem_take he))
      have hrne : (fisher_yates_shuffle rng (min s (n - (oops.get_solution o).length)) pos T
          T_inv).1.take (min s (n - (oops.get_solution o).length)) ≠ [] := by
        intro h0
        have h1 := congrArg List.length h0
        rw [List.length_take, f2, Nat.min_eq_left hcs2] at h1
        rw [List.length_nil] at h1
        omega
      obtain ⟨d1, d2, d3, d4, d5⟩ := SL.construct_spec _ false o hg hrnd hrmem
      obtain ⟨e1, e2, e3, _⟩ := steps_base oops log Good Holds B _ _ _ hg d5
      have hrun0 := (run_steps oops B.law Holds _ o0 o _ _ gs hrun
        (fun x hx => (hrmem x hx).2) d5).1
      have hT1 : ∀ e ∈ getT (sops.construct ((fisher_yates_shuffle rng
          (min s (n - (oops.get_solution o).length)) pos T T_inv).1.take
          (min s (n - (oops.get_solution o).length))) false o).1,
          e < n ∧ e ∉ oops.get_solution (sops.construct ((fisher_yates_shuffle rng
          (min s (n - (oops.get_solution o).length)) pos T T_inv).1.take
          (min s (n - (oops.get_solution o).length))) false o).2 := by
        intro e he
        rw [e2]
        exact hrmem e ((d2 e).mp he)
      have hne : getT (sops.construct ((fisher_yates_shuffle rng
          (min s (n - (oops.get_solution o).length)) pos T T_inv).1.take
          (min s (n - (oops.get_solution o).length))) false o).1 ≠ [] := by
        obtain ⟨x, hx⟩ := List.exists_mem_of_ne_nil _ hrne
        exact List.ne_nil_of_mem ((d2 x).mpr hx)
      obtain ⟨r, s1, o1, hok, hpo, _, _⟩ := SL.pop_spec _ _ e1 d4 d1 hT1 (Or.inr hne)
      obtain ⟨g1, g2, g3, g4, g5⟩ :=
        popOut_base oops log Good Holds B getT getD SI _ _ r s1 o1 e1
          (fun x hx => (hT1 x hx).2) hpo
      obtain ⟨q1, q2, q3, q4, q5⟩ := hpo
      rw [stochastic_greedy_loop]
      simp only [hok]
      by_cases hexp : expired param (clock t) = true
      · rw [if_pos hexp]
        refine ⟨_, rfl, fun _ => rfl, ?_⟩
        intro h
        rw [greedy_fin, if_pos hexp] at h
        cases h
      · rw [if_neg hexp]
        have hfin : greedy_fin param clock (m + 1) t = greedy_fin param clock m (t + 1) := by
          rw [greedy_fin, if_neg hexp]
        rw [hfin]
        cases r with
        | none =>
          have := (q4 rfl).1
          rw [d3] at this
          cases this
        | some e =>
          obtain ⟨heT, _, _, _⟩ := q5 e rfl
          obtain ⟨he, heS⟩ := hrmem e ((d2 e).mp heT)
          have heT' : e ∈ (fisher_yates_shuffle rng (min s (n - (oops.get_solution o).length))
              pos T T_inv).1 := List.mem_of_mem_take ((d2 e).mp heT)
          have hS1 : oops.get_solution o1 = oops.get_solution o := by rw [g2, e2]
          have heS1 : e ∉ oops.get_solution o1 := by rw [hS1]; exact heS
          have hS2 : oops.get_solution (oops.add o1 e) = oops.get_solution o ++ [e] := by
            rw [B.law.add_S, hS1]
          obtain ⟨r1, r2, r3⟩ := remove_T_spec e _ _ f1 heT'
          simp only []
          obtain ⟨r', h1, h2, h3⟩ := ih (t + 1) _ _ _ (oops.add o1 e)
            (gs ++ [gainAt oops (sops.construct ((fisher_yates_shuffle rng
              (min s (n - (oops.get_solution o).length)) pos T T_inv).1.take
              (min s (n - (oops.get_solution o).length))) false o).2 e])
            (B.add_good o1 e g1) r1
            (by
              intro x
              rw [r3 x, f3 x, hT x, hS2]
              simp only [List.mem_append, List.mem_singleton, not_or]
              exact and_assoc)
            (by
              rw [hS2, List.length_append, List.length_singleton]
              omega)
            (by
              rw [hS2, List.length_append, List.length_singleton]
              omega)
            (by
              rw [hS2]
              exact Run.add _ _ o1 e _ (g4 o0 _ gs hrun0) heS1 (g5 e rfl))
            (by rw [B.add_value o1 e _ g1 (g5 e rfl), g3, e3, hval, valueOf_append])
            (by
              rw [hS2, List.nodup_append]
              refine ⟨hndS, List.nodup_singleton e, ?_⟩
              intro a ha hb
              rw [List.mem_singleton.mp hb] at ha
              exact heS ha)
            (by
              rw [hS2]
              intro x hx
              rcases List.mem_append.mp hx with h | h
              · exact hr x h
              · rw [List.mem_singleton.mp h]; exact he)
          refine ⟨r', h1, h2, ?_⟩
          intro hf
          obtain ⟨es, gs1, p, a1, a2, a3, a4, a5, a6, a7⟩ := h3 hf
          rw [hS2, List.length_append, List.length_singleton] at a7
          exact ⟨es, gs1, p, a1, a2, a3, a4, a5, a6, by omega⟩
  obtain ⟨c1, c2, c3⟩ := B.construct_good k param.log_computed_offdiagonals_V
  unfold stochastic_greedy
  have hkn : (!decide (k ≤ n)) = false := by simp [hk]
  rw [hkn]
  simp only [Bool.false_eq_true, if_false]
  by_cases hk0 : k = 0
  · subst hk0
    rw [stochastic_greedy_loop]
    refine ⟨_, rfl, ?_, ?_⟩
    · intro h
      simp [greedy_fin] at h
    · intro _
      exact ⟨[], [], _, Run.refl, rfl, c2, c3, List.nodup_nil,
        (fun x hx => by cases hx), rfl⟩
  · have hkpos : 0 < k := Nat.pos_of_ne_zero hk0
    have hs : 0 < Nat.ceil ((n : α) / (k : α) * log (1 / (1 / 2))) := by
      rw [Nat.ceil_pos]
      apply mul_pos
      · apply div_pos
        · exact_mod_cast lt_of_lt_of_le hkpos hk
        · exact_mod_cast hkpos
      · apply numeric_log_pos sqrt log
        norm_num
    obtain ⟨r, h1, h2, h3⟩ := stochastic_greedy_loop_base log n oops Good Holds B sops getT
      getD SI Dead SL k _ hs param clock rng
      (oops.construct k param.log_computed_offdiagonals_V) k 0 0 (List.range n)
      (fun e => (e : Int)) _ [] c1
      (by
        refine ⟨List.nodup_range n, ?_⟩
        intro p hp
        rw [List.length_range] at hp
        simp [List.getD_eq_getElem?_getD, List.getElem?_range hp])
      (by
        intro x
        rw [c2, List.mem_range]
        simp)
      (by
        rw [c2, List.length_range]
        rfl)
      (by
        rw [c2]
        simpa using hk)
      (by rw [c2]; exact Run.refl) c3 (by rw [c2]; exact List.nodup_nil)
      (by rw [c2]; intro x hx; cases hx)
    refine ⟨r, h1, h2, ?_⟩
    intro hf
    obtain ⟨es, gs1, p, a1, a2, a3, a4, a5, a6, a7⟩ := h3 hf
    rw [c2] at a7
    exact ⟨es, gs1, p, a1, a2, a3, a4, a5, a6, by simpa using a7⟩

end DPP

namespace DPP

/-- The value after commits with gains above `1` is finite and not negative. -/
theorem valueOf_hot {α : Type} [LinearOrderedField α] {sqrt log : α → α}
    [Numeric sqrt log] (gs : List α) (h : ∀ g ∈ gs, 1 < g) :
    ∃ x : α, valueOf log gs = some (x : WithBot α) ∧ 0 ≤ x := by
  induction gs using List.reverseRecOn with
  | nil => exact ⟨0, rfl, le_refl _⟩
  | append_singleton gs v ih =>
    obtain ⟨x, hx, hx0⟩ := ih (fun g hg => h g (List.mem_append_left _ hg))
    have hv : 1 < v := h v (List.mem_append_right _ (List.mem_singleton_self v))
    have hlog := numeric_log_pos sqrt log v hv
    refine ⟨x + log v, ?_, by linarith⟩
    rw [valueOf_append, hx]
    have h1 : ¬ v < 0 := by linarith
    have h2 : ¬ v = 0 := by linarith
    simp only [dlog, h1, h2, if_false, vadd]
    rfl

theorem take_succ_get {β : Type} (d : β) (l : List β) (j : Nat) (hj : j < l.length) :
    l.take (j + 1) = l.take j ++ [l.getD j d] := by
  rw [List.take_succ]
  congr 1
  simp [List.getD_eq_getElem?_getD, List.getElem?_eq_getElem hj]

/-- Along commits with gains above `1` the value increases. -/
theorem valueOf_take_lt {α : Type} [LinearOrderedField α] {sqrt log : α → α}
    [Numeric sqrt log] (gs : List α) (h : ∀ g ∈ gs, 1 < g) (j : Nat) :
    ∀ a, j < a → a ≤ gs.length →
      vlt (valueOf log (gs.take j)) (valueOf log (gs.take a)) = true := by
  have hstep : ∀ i, i < gs.length →
      ∃ x y : α, valueOf log (gs.take i) = some (x : WithBot α) ∧
        valueOf log (gs.take (i + 1)) = some (y : WithBot α) ∧ x < y := by
    intro i hi
    obtain ⟨x, hx, _⟩ := @valueOf_hot α _ sqrt log _ (gs.take i)
      (fun g hg => h g (List.mem_of_mem_take hg))
    have hmem : gs.getD i 0 ∈ gs := by
      simp only [List.getD_eq_getElem?_getD, List.getElem?_eq_getElem hi, Option.getD_some]
      exact List.getElem_mem hi
    have hv : 1 < gs.getD i 0 := h _ hmem
    have hlog := numeric_log_pos sqrt log _ hv
    refine ⟨x, x + log (gs.getD i 0), hx, ?_, by linarith⟩
    rw [take_succ_get 0 gs i hi, valueOf_append, hx]
    have h1 : ¬ gs.getD i 0 < 0 := by linarith
    have h2 : ¬ gs.getD i 0 = 0 := by linarith
    simp only [dlog, h1, h2, if_false, vadd]
    rfl
  intro a
  induction a with
  | zero => intro h0; omega
  | succ a ih =>
    intro hja ha
    obtain ⟨x, y, hx, hy, hxy⟩ := hstep a (by omega)
    by_cases hj : j = a
    · subst hj
      rw [hx, hy]
      simp only [vlt, decide_eq_true_eq]
      exact WithBot.coe_lt_coe.mpr hxy
    · have h1 := ih (by omega) (by omega)
      rw [hx] at h1
      rw [hy]
      cases hz : valueOf log (gs.take j) with
      | none =>
        rw [hz] at h1
        simp [vlt] at h1
      | some z =>
        rw [hz] at h1
        simp only [vlt, decide_eq_true_eq] at h1 ⊢
        exact lt_trans h1 (WithBot.coe_lt_coe.mpr hxy)

theorem vlt_irrefl_hot {α : Type} [LinearOrderedField α] {sqrt log : α → α}
    [Numeric sqrt log] (gs : List α) (h : ∀ g ∈ gs, 1 < g) :
    vlt (valueOf log gs) (valueOf log gs) = false := by
  obtain ⟨x, hx, _⟩ := @valueOf_hot α _ sqrt log _ gs h
  rw [hx]
  simp [vlt]

/-- The call `std::max_element(maxima, maxima + 4)` on entries with finite values returns
an entry that no entry exceeds. -/
theorem max_element_spec {α : Type} [LinearOrderedField α] (m : Fin 4 → Nat × Value α)
    (hfin : ∀ f, ∃ x : α, (m f).2 = some (x : WithBot α)) :
    ∀ f', maxima_less (m (InterlaceResult.max_element m)) (m f') = false := by
  choose x hx using hfin
  have hbridge : ∀ a b, maxima_less (m a) (m b)
      = ElementValuePair.less { element := (m a).1, value := x a }
          { element := (m b).1, value := x b } := by
    intro a b
    simp only [maxima_less, vlt, hx a, hx b, ElementValuePair.less, WithBot.coe_lt_coe]
  have step : ∀ (Q : Fin 4 → Prop) (b c : Fin 4),
      (∀ f', Q f' → maxima_less (m b) (m f') = false) →
      ∀ f', (Q f' ∨ f' = c) →
        maxima_less (m (if maxima_less (m b) (m c) = true then c else b)) (m f') = false := by
    intro Q b c hb f' hf'
    by_cases hbc : maxima_less (m b) (m c) = true
    · rw [if_pos hbc]
      rcases hf' with h | h
      · cases hcf : maxima_less (m c) (m f') with
        | false => rfl
        | true =>
          rw [hbridge] at hbc hcf
          have := less_trans hbc hcf
          rw [← hbridge, hb f' h] at this
          cases this
      · rw [h, hbridge]
        exact less_irrefl _
    · rw [if_neg hbc]
      rcases hf' with h | h
      · exact hb f' h
      · rw [h]
        exact Bool.not_eq_true _ ▸ hbc
  have h0 : ∀ f', f' = 0 → maxima_less (m 0) (m f') = false := by
    intro f' hf'
    rw [hf', hbridge]
    exact less_irrefl _
  have h1 := step (fun f' => f' = 0) 0 1 h0
  have h2 := step (fun f' => f' = 0 ∨ f' = 1)
    (if maxima_less (m 0) (m 1) = true then 1 else 0) 2 h1
  have h3 := step (fun f' => (f' = 0 ∨ f' = 1) ∨ f' = 2)
    (if maxima_less (m (if maxima_less (m 0) (m 1) = true then 1 else 0)) (m 2) = true
      then 2 else (if maxima_less (m 0) (m 1) = true then 1 else 0)) 3 h2
  intro f'
  have hf' : ((f' = 0 ∨ f' = 1) ∨ f' = 2) ∨ f' = 3 := by
    fin_cases f' <;> simp
  exact h3 f' hf'

end DPP

namespace DPP

theorem snap_at {α : Type} (res : InterlaceResult α) (f : Fin 4) (j : Nat)
    (hj : j < res.quadruples.length) :
    ∃ q, res.quadruples.get? j = some q ∧ res.elementAt f j = (q f).element ∧
      res.valueAt f j = (q f).value := by
  refine ⟨res.quadruples.get ⟨j, hj⟩, List.get?_eq_get hj, ?_, ?_⟩
  · simp only [InterlaceResult.elementAt, List.get?_eq_get hj]
  · simp only [InterlaceResult.valueAt, List.get?_eq_get hj]

theorem take_min_length {β : Type} (l : List β) (k : Nat) :
    l.take k = l.take (min k l.length) := by
  by_cases hk : k ≤ l.length
  · rw [Nat.min_eq_left hk]
  · rw [Nat.min_eq_right (by omega), List.take_of_length_le (by omega), List.take_length]

/-- The loop of `operator[]` on the records of a chain. -/
theorem chainSnap_sol {α : Type} [LinearOrderedField α] (log : α → α)
    (res : InterlaceResult α) (f : Fin 4) (es : List Nat) (gs : List α)
    (h : InterlaceResult.ChainSnap log res f es gs) :
    ∀ a, a ≤ es.length → a < res.quadruples.length →
      InterlaceResult.sol res f a = .ok (es.take a) := by
  intro a
  induction a with
  | zero => intro _ _; rfl
  | succ a ih =>
    intro ha hlen
    obtain ⟨q, q1, q2, _⟩ := snap_at res f (a + 1) hlen
    have h2 := (h (a + 1) hlen).1
    rw [if_pos ⟨Nat.succ_pos a, ha⟩, q2] at h2
    simp only [InterlaceResult.sol, ih (by omega) (by omega), q1, h2, Nat.add_sub_cancel]
    rw [take_succ_get 0 es a (by omega)]

/-- The method `operator[]` of an `InterlaceResult` whose records are those of four chains
that committed with gains above `1`: the chain chosen has the largest value at step `k`,
and the solution is what it had committed by then. -/
theorem chainSnap_get {α : Type} [LinearOrderedField α] {sqrt log : α → α}
    [Numeric sqrt log] (res : InterlaceResult α)
    (hlen : res.measurements.length = res.quadruples.length)
    (es : Fin 4 → List Nat) (gs : Fin 4 → List α)
    (h : ∀ f : Fin 4, InterlaceResult.ChainSnap log res f (es f) (gs f) ∧
      (gs f).length = (es f).length ∧ ∀ g ∈ gs f, 1 < g)
    (k : Nat) (hk : k < res.size) :
    ∃ r f, res.get k = .ok r ∧ r.finished = true ∧ r.solution = (es f).take k ∧
      r.value = res.valueAt f k ∧
      ∀ f', vlt (res.valueAt f k) (res.valueAt f' k) = false := by
  unfold InterlaceResult.size at hk
  have hkq : k < res.quadruples.length := by rw [← hlen]; exact hk
  have hval : ∀ f', (InterlaceResult.maxima res k f').2 = res.valueAt f' k := fun _ => rfl
  have hfin : ∀ f', ∃ x : α, (InterlaceResult.maxima res k f').2 = some (x : WithBot α) := by
    intro f'
    rw [hval, ((h f').1 k hkq).2]
    obtain ⟨x, hx, _⟩ := @valueOf_hot α _ sqrt log _ ((gs f').take k)
      (fun g hg => (h f').2.2 g (List.mem_of_mem_take hg))
    exact ⟨x, hx⟩
  have hmax := max_element_spec (InterlaceResult.maxima res k) hfin
  obtain ⟨hsnap, hgl, hhot⟩ := h (InterlaceResult.max_element (InterlaceResult.maxima res k))
  have hcnt : (InterlaceResult.maxima res k
      (InterlaceResult.max_element (InterlaceResult.maxima res k))).1
      = min k (es (InterlaceResult.max_element (InterlaceResult.maxima res k))).length := by
    obtain ⟨q, q1, _, q3⟩ := snap_at res
      (InterlaceResult.max_element (InterlaceResult.maxima res k)) k hkq
    simp only [InterlaceResult.maxima, q1]
    rw [← q3, (hsnap k hkq).2]
    apply takeWhile_length_eq
    · rw [List.length_take]
      exact le_trans (min_le_left _ _) (le_min (le_refl _) (le_of_lt hkq))
    · intro j hj
      have hjk : j < k := lt_of_lt_of_le hj (min_le_left _ _)
      obtain ⟨p, p1, _, p3⟩ := snap_at res
        (InterlaceResult.max_element (InterlaceResult.maxima res k)) j (by omega)
      refine ⟨p, ?_, ?_⟩
      · rw [List.get?_eq_getElem?, List.getElem?_take, if_pos hjk, ← List.get?_eq_getElem?]
        exact p1
      · rw [← p3, (hsnap j (by omega)).2, take_min_length _ k]
        apply @valueOf_take_lt α _ sqrt log _ _ hhot
        · rw [hgl]
          exact hj
        · exact min_le_right _ _
    · intro hlt
      rw [List.length_take, Nat.min_eq_left (le_of_lt hkq)] at hlt
      have hSk : (es (InterlaceResult.max_element (InterlaceResult.maxima res k))).length
          < k := by
        by_contra hc
        rw [Nat.min_eq_left (Nat.le_of_not_lt hc)] at hlt
        omega
      rw [Nat.min_eq_right (le_of_lt hSk)]
      obtain ⟨p, p1, _, p3⟩ := snap_at res
        (InterlaceResult.max_element (InterlaceResult.maxima res k)) _
        (lt_trans hSk hkq)
      refine ⟨p, ?_, ?_⟩
      · rw [List.get?_eq_getElem?, List.getElem?_take, if_pos hSk, ← List.get?_eq_getElem?]
        exact p1
      · rw [← p3, (hsnap _ (lt_trans hSk hkq)).2, List.take_of_length_le (by omega),
          List.take_of_length_le (by omega)]
        exact @vlt_irrefl_hot α _ sqrt log _ _ hhot
  obtain ⟨mm, hm⟩ : ∃ mm, res.measurements.get? k = some mm :=
    ⟨res.measurements.get ⟨k, hk⟩, List.get?_eq_get hk⟩
  have hget : res.get k = .ok
      { finished := true,
        solution := (es (InterlaceResult.max_element (InterlaceResult.maxima res k))).take k,
        value := res.valueAt (InterlaceResult.max_element (InterlaceResult.maxima res k)) k,
        time := mm.time, num_computed_entries_L := mm.num_computed_entries_L,
        num_oracle_calls := mm.num_oracle_calls,
        num_computed_offdiagonals_V := mm.num_computed_offdiagonals_V,
        computed_offdiagonals_V := [] } := by
    unfold InterlaceResult.get InterlaceResult.size
    rw [if_neg (by omega)]
    unfold InterlaceResult.get_max InterlaceResult.size
    rw [if_pos hk]
    simp only []
    rw [hcnt, chainSnap_sol log res _ _ _ hsnap _ (min_le_right _ _)
      (lt_of_le_of_lt (min_le_left _ _) hkq), hm, ← take_min_length]
    rfl
  refine ⟨_, _, hget, rfl, rfl, rfl, ?_⟩
  intro f'
  have := hmax f'
  simp only [maxima_less, Bool.or_eq_false_iff] at this
  exact this.1

end DPP

namespace DPP

/-- A call of `pop_largest()` by a chain, followed by the commit of what it returns. -/
theorem chain_pop_base {τ σ α : Type} [LinearOrderedField α] (log : α → α) (n : Nat)
    (oops : OracleOps σ α) (Good : σ → Prop) (Holds : σ → Nat → α → Prop)
    (B : OracleBase oops log Good Holds) (sops : StrategyOps τ σ α) (getT : τ → List Nat)
    (getD : τ → Bool) (SI : τ → Prop) (Dead : τ → σ → Prop)
    (SL : StrategyLaw n oops Good sops getT getD SI Dead) (a : Chain τ σ)
    (h : Chain.Valid n oops Good getT getD SI a) :
    ∃ r s1 o1, sops.pop_largest a.strategy a.oracle = .ok (r, s1, o1) ∧
      (r = none → Chain.Valid n oops Good getT getD SI { strategy := s1, oracle := o1 } ∧
        (∀ x, x ∈ getT s1 ↔ x ∈ getT a.strategy) ∧
        Chain.Moved log n oops Holds Dead a none { strategy := s1, oracle := o1 }) ∧
      (∀ e, r = some e → e ∈ getT a.strategy ∧
        Chain.Valid n oops Good getT getD SI { strategy := s1, oracle := oops.add o1 e } ∧
        (∀ x, x ∈ getT s1 ↔ (x ∈ getT a.strategy ∧ x ≠ e)) ∧
        Chain.Moved log n oops Holds Dead a (some e)
          { strategy := s1, oracle := oops.add o1 e }) := by
  obtain ⟨a1, a2, a3, a4, a5⟩ := h
  obtain ⟨r, s1, o1, hok, hpo, hnone, hdead⟩ := SL.pop_spec a.strategy a.oracle a1 a2 a4 a5
    (Or.inl a3)
  obtain ⟨g1, g2, g3, g4, g5⟩ :=
    popOut_base oops log Good Holds B getT getD SI _ _ r s1 o1 a1 (fun x hx => (a5 x hx).2) hpo
  obtain ⟨q1, q2, q3, q4, q5⟩ := hpo
  refine ⟨r, s1, o1, hok, ?_, ?_⟩
  · intro hr
    subst hr
    obtain ⟨_, hmem, _⟩ := q4 rfl
    refine ⟨⟨g1, q2, by rw [q1]; exact a3, q3, ?_⟩, hmem,
      fun _ => rfl, fun _ => ⟨hnone rfl, g2, g3, g4⟩, fun e he => by cases he⟩
    intro x hx
    have : x ∈ getT s1 := hx
    have h2 := a5 x ((hmem x).mp this)
    exact ⟨h2.1, by
      rw [show oops.get_solution o1 = oops.get_solution a.oracle from g2]; exact h2.2⟩
  · intro e hr
    subst hr
    obtain ⟨heT, hmem, _, hgain⟩ := q5 e rfl
    obtain ⟨he, heS⟩ := a5 e heT
    have heS1 : e ∉ oops.get_solution o1 := by rw [g2]; exact heS
    have hS2 : oops.get_solution (oops.add o1 e) = oops.get_solution a.oracle ++ [e] := by
      rw [B.law.add_S, g2]
    refine ⟨heT, ⟨B.add_good o1 e g1, q2, by rw [q1]; exact a3, q3, ?_⟩, hmem,
      (fun hd => hdead hd), (fun h => by cases h), ?_⟩
    · intro x hx
      have hx' : x ∈ getT s1 := hx
      obtain ⟨hx1, hx2⟩ := (hmem x).mp hx'
      refine ⟨(a5 x hx1).1, ?_⟩
      show x ∉ oops.get_solution (oops.add o1 e)
      rw [hS2]
      intro hm
      rcases List.mem_append.mp hm with h | h
      · exact (a5 x hx1).2 h
      · exact hx2 (List.mem_singleton.mp h)
    · intro e' he'
      cases he'
      refine ⟨he, heS, hS2, gainAt oops a.oracle e, hgain a3, ?_, ?_⟩
      · show oops.get_value (oops.add o1 e) = _
        rw [B.add_value o1 e _ g1 (g5 e rfl), g3]
      · intro o0 es gs hr
        exact Run.add _ _ o1 e _ (g4 o0 es gs hr) heS1 (g5 e rfl)

/-- One half of `interlace_subroutine` on two chains over the same ground set. -/
theorem interlace_half_base {τ σ α : Type} [LinearOrderedField α] (log : α → α) (n : Nat)
    (oops : OracleOps σ α) (Good : σ → Prop) (Holds : σ → Nat → α → Prop)
    (B : OracleBase oops log Good Holds) (sops : StrategyOps τ σ α) (getT : τ → List Nat)
    (getD : τ → Bool) (SI : τ → Prop) (Dead : τ → σ → Prop)
    (SL : StrategyLaw n oops Good sops getT getD SI Dead) (a b : Chain τ σ)
    (h : Chain.Pair n oops Good getT getD SI a b) :
    ∃ r a1 b1, interlace_half sops oops a b = .ok (r, a1, b1) ∧
      Chain.Pair n oops Good getT getD SI a1 b1 ∧
      Chain.Moved log n oops Holds Dead a r a1 ∧
      b1.oracle = b.oracle ∧ (Dead b.strategy b.oracle → Dead b1.strategy b1.oracle) := by
  obtain ⟨ha, ⟨b1, b2, b3, b4, b5⟩, hab⟩ := h
  obtain ⟨r, s1, o1, hok, hn, hs⟩ :=
    chain_pop_base log n oops Good Holds B sops getT getD SI Dead SL a ha
  unfold interlace_half
  rw [hok]
  cases r with
  | none =>
    obtain ⟨v1, v2, v3⟩ := hn rfl
    exact ⟨none, _, b, rfl, ⟨v1, ⟨b1, b2, b3, b4, b5⟩, fun x => Iff.trans (v2 x) (hab x)⟩,
      v3, rfl, fun h => h⟩
  | some e =>
    obtain ⟨heT, v1, v2, v3⟩ := hs e rfl
    obtain ⟨sb, hrm, r1, r2, r3, r4⟩ := SL.remove_spec b.strategy e b2 ((hab e).mp heT)
    simp only [hrm]
    refine ⟨some e, _, { b with strategy := sb }, rfl,
      ⟨v1, ⟨b1, r3, by rw [r2]; exact b3, ?_, ?_⟩, ?_⟩, v3, rfl, fun h => r4 _ h⟩
    · show (getT sb).Nodup
      rw [r1]
      exact b4.erase e
    · intro x hx
      have hx' : x ∈ getT sb := hx
      rw [r1] at hx'
      exact b5 x (List.mem_of_mem_erase hx')
    · intro x
      show x ∈ getT s1 ↔ x ∈ getT sb
      rw [v2 x, r1, b4.mem_erase_iff, hab x]
      exact and_comm

/-- A chain whose strategy alone changes, staying dead if it was, has moved as before. -/
theorem moved_strategy {τ σ α : Type} [LinearOrderedField α] (log : α → α) (n : Nat)
    (oops : OracleOps σ α) (Holds : σ → Nat → α → Prop) (Dead : τ → σ → Prop)
    (a a1 a2 : Chain τ σ) (r : Option Nat) (h : Chain.Moved log n oops Holds Dead a r a1)
    (ho : a2.oracle = a1.oracle)
    (hd : Dead a1.strategy a1.oracle → Dead a2.strategy a2.oracle) :
    Chain.Moved log n oops Holds Dead a r a2 := by
  obtain ⟨c1, c2, c3⟩ := h
  refine ⟨c1, ?_, ?_⟩
  · intro hr
    obtain ⟨d1, d2, d3, d4⟩ := c2 hr
    exact ⟨hd d1, by rw [ho]; exact d2, by rw [ho]; exact d3, by rw [ho]; exact d4⟩
  · intro e he
    obtain ⟨d1, d2, d3, g, d4, d5, d6⟩ := c3 e he
    exact ⟨d1, d2, by rw [ho]; exact d3, g, d4, by rw [ho]; exact d5, by rw [ho]; exact d6⟩

/-- A chain whose strategy alone changed before it moved, staying dead if it was. -/
theorem moved_after {τ σ α : Type} [LinearOrderedField α] (log : α → α) (n : Nat)
    (oops : OracleOps σ α) (Holds : σ → Nat → α → Prop) (Dead : τ → σ → Prop)
    (b b1 b2 : Chain τ σ) (r : Option Nat) (h : Chain.Moved log n oops Holds Dead b1 r b2)
    (ho : b1.oracle = b.oracle)
    (hd : Dead b.strategy b.oracle → Dead b1.strategy b1.oracle) :
    Chain.Moved log n oops Holds Dead b r b2 := by
  obtain ⟨c1, c2, c3⟩ := h
  refine ⟨fun h => c1 (hd h), ?_, ?_⟩
  · intro hr
    obtain ⟨d1, d2, d3, d4⟩ := c2 hr
    rw [ho] at d2 d3 d4
    exact ⟨d1, d2, d3, d4⟩
  · intro e he
    obtain ⟨d1, d2, d3, g, d4, d5, d6⟩ := c3 e he
    rw [ho] at d2 d3 d5 d6
    exact ⟨d1, d2, d3, g, d4, d5, d6⟩

/-- The function `interlace_subroutine` on two chains over the same ground set. -/
theorem interlace_subroutine_base {τ σ α : Type} [LinearOrderedField α] (log : α → α)
    (n : Nat) (oops : OracleOps σ α) (Good : σ → Prop) (Holds : σ → Nat → α → Prop)
    (B : OracleBase oops log Good Holds) (sops : StrategyOps τ σ α) (getT : τ → List Nat)
    (getD : τ → Bool) (SI : τ → Prop) (Dead : τ → σ → Prop)
    (SL : StrategyLaw n oops Good sops getT getD SI Dead) (a b : Chain τ σ)
    (h : Chain.Pair n oops Good getT getD SI a b) :
    ∃ ea eb a2 b2, interlace_subroutine sops oops a b = .ok ((ea, eb), a2, b2) ∧
      Chain.Pair n oops Good getT getD SI a2 b2 ∧
      Chain.Moved log n oops Holds Dead a ea a2 ∧
      Chain.Moved log n oops Holds Dead b eb b2 := by
  obtain ⟨ea, a1, b1, h1, hp1, ho1, hb1, hd1⟩ :=
    interlace_half_base log n oops Good Holds B sops getT getD SI Dead SL a b h
  have hp1' : Chain.Pair n oops Good getT getD SI b1 a1 :=
    ⟨hp1.2.1, hp1.1, fun x => (hp1.2.2 x).symm⟩
  obtain ⟨eb, b2, a2, h2, hp2, ho2, ha2, hd2⟩ :=
    interlace_half_base log n oops Good Holds B sops getT getD SI Dead SL b1 a1 hp1'
  refine ⟨ea, eb, a2, b2, ?_, ⟨hp2.2.1, hp2.1, fun x => (hp2.2.2 x).symm⟩, ?_, ?_⟩
  · unfold interlace_subroutine
    rw [h1]
    simp only [h2]
  · exact moved_strategy log n oops Holds Dead a a1 a2 ea ho1 ha2 hd2
  · exact moved_after log n oops Holds Dead b b1 b2 eb ho2 hb1 hd1

/-- The first step of the chains 2 and 3, each on its own. -/
theorem interlace_first_base {τ σ α : Type} [LinearOrderedField α] (log : α → α)
    (n : Nat) (oops : OracleOps σ α) (Good : σ → Prop) (Holds : σ → Nat → α → Prop)
    (B : OracleBase oops log Good Holds) (sops : StrategyOps τ σ α) (getT : τ → List Nat)
    (getD : τ → Bool) (SI : τ → Prop) (Dead : τ → σ → Prop)
    (SL : StrategyLaw n oops Good sops getT getD SI Dead) (a : Chain τ σ)
    (h : Chain.Valid n oops Good getT getD SI a) :
    ∃ r a1, interlace_first sops oops a = .ok (r, a1) ∧
      Chain.Valid n oops Good getT getD SI a1 ∧
      Chain.Moved log n oops Holds Dead a r a1 := by
  obtain ⟨r, s1, o1, hok, hn, hs⟩ :=
    chain_pop_base log n oops Good Holds B sops getT getD SI Dead SL a h
  unfold interlace_first
  rw [hok]
  cases r with
  | none =>
    obtain ⟨v1, _, v3⟩ := hn rfl
    exact ⟨none, _, rfl, v1, v3⟩
  | some e =>
    obtain ⟨_, v1, _, v3⟩ := hs e rfl
    exact ⟨some e, _, rfl, v1, v3⟩

/-- The body of the loop of `interlace_greedy`. -/
theorem interlace_step_base {τ σ α : Type} [LinearOrderedField α] (log : α → α)
    (n : Nat) (oops : OracleOps σ α) (Good : σ → Prop) (Holds : σ → Nat → α → Prop)
    (B : OracleBase oops log Good Holds) (sops : StrategyOps τ σ α) (getT : τ → List Nat)
    (getD : τ → Bool) (SI : τ → Prop) (Dead : τ → σ → Prop)
    (SL : StrategyLaw n oops Good sops getT getD SI Dead) (t : Nat) (c : Chains τ σ)
    (h01 : Chain.Pair n oops Good getT getD SI c.c0 c.c1)
    (h23 : Chain.Pair n oops Good getT getD SI c.c2 c.c3) (h0 : t = 0 → c.c2 = c.c3) :
    ∃ es c', interlace_step sops oops t c = .ok (es, c') ∧
      Chain.Pair n oops Good getT getD SI c'.c0 c'.c1 ∧
      Chain.Pair n oops Good getT getD SI c'.c2 c'.c3 ∧
      Chain.Moved log n oops Holds Dead c.c0 (es 0) c'.c0 ∧
      Chain.Moved log n oops Holds Dead c.c1 (es 1) c'.c1 ∧
      Chain.Moved log n oops Holds Dead c.c2 (es 2) c'.c2 ∧
      Chain.Moved log n oops Holds Dead c.c3 (es 3) c'.c3 := by
  obtain ⟨e0, e1, a0, a1, hs01, hp01, ho0, ho1⟩ :=
    interlace_subroutine_base log n oops Good Holds B sops getT getD SI Dead SL _ _ h01
  unfold interlace_step
  rw [hs01]
  simp only []
  by_cases ht : t = 0
  · rw [if_pos ht]
    obtain ⟨e2, a2, hf2, hv2, ho2⟩ :=
      interlace_first_base log n oops Good Holds B sops getT getD SI Dead SL _ h23.1
    have hf3 : interlace_first sops oops c.c3 = .ok (e2, a2) := by
      rw [← h0 ht]; exact hf2
    rw [hf2]
    simp only [hf3]
    refine ⟨_, _, rfl, hp01, ⟨hv2, hv2, fun x => Iff.rfl⟩, ho0, ho1, ho2, ?_⟩
    rw [← h0 ht]
    exact ho2
  · rw [if_neg ht]
    obtain ⟨e2, e3, a2, a3, hs23, hp23, ho2, ho3⟩ :=
      interlace_subroutine_base log n oops Good Holds B sops getT getD SI Dead SL _ _ h23
    rw [hs23]
    exact ⟨_, _, rfl, hp01, hp23, ho0, ho1, ho2, ho3⟩

end DPP

namespace DPP

theorem interlace_add_old {α : Type} (res : InterlaceResult α) (es : Fin 4 → Option Nat)
    (vals : Fin 4 → Value α) (time : α) (a b d : Nat) (f : Fin 4) (j : Nat)
    (hj : j < res.quadruples.length) :
    (res.add es vals time a b d).elementAt f j = res.elementAt f j ∧
    (res.add es vals time a b d).valueAt f j = res.valueAt f j := by
  have hold : (res.add es vals time a b d).quadruples.get? j = res.quadruples.get? j := by
    simp only [InterlaceResult.add]
    rw [List.get?_eq_getElem?, List.getElem?_append_left hj, ← List.get?_eq_getElem?]
  simp only [InterlaceResult.elementAt, InterlaceResult.valueAt, hold, and_self]

theorem interlace_add_new {α : Type} (res : InterlaceResult α) (es : Fin 4 → Option Nat)
    (vals : Fin 4 → Value α) (time : α) (a b d : Nat) (f : Fin 4) :
    (res.add es vals time a b d).elementAt f res.quadruples.length = es f ∧
    (res.add es vals time a b d).valueAt f res.quadruples.length = vals f := by
  have hnew : (res.add es vals time a b d).quadruples.get? res.quadruples.length
      = some (fun f => { element := es f, value := vals f }) := by
    simp only [InterlaceResult.add]
    rw [List.get?_eq_getElem?, List.getElem?_append_right (Nat.le_refl _)]
    simp
  simp only [InterlaceResult.elementAt, InterlaceResult.valueAt, hnew, and_self]

/-- The function `interlace_greedy` over any kernel. -/
theorem interlace_greedy_base {τ σ α : Type} [LinearOrderedField α] (log : α → α)
    (n : Nat) (oops : OracleOps σ α) (Good : σ → Prop) (Holds : σ → Nat → α → Prop)
    (B : OracleBase oops log Good Holds) (sops : StrategyOps τ σ α) (getT : τ → List Nat)
    (getD : τ → Bool) (SI : τ → Prop) (Dead : τ → σ → Prop)
    (SL : StrategyLaw n oops Good sops getT getD SI Dead)
    (k : Nat) (hk : k ≤ n) (param : Param α) (clock : Nat → α) :
    ∃ (out : InterlaceResult α) (c' : Chains τ σ), interlace_greedy sops oops n k param clock = .ok out ∧
      out.quadruples.length = greedy_len param clock k 0 + 1 ∧
      out.measurements.length = greedy_len param clock k 0 + 1 ∧
      out.finished = greedy_fin param clock k 0 ∧
      Chain.Pair n oops Good getT getD SI c'.c0 c'.c1 ∧
      Chain.Pair n oops Good getT getD SI c'.c2 c'.c3 ∧
      Chain.Logged log n oops Holds Dead (oops.construct k param.log_computed_offdiagonals_V)
        out (greedy_len param clock k 0) 0 c'.c0 ∧
      Chain.Logged log n oops Holds Dead (oops.construct k param.log_computed_offdiagonals_V)
        out (greedy_len param clock k 0) 1 c'.c1 ∧
      Chain.Logged log n oops Holds Dead (oops.construct k param.log_computed_offdiagonals_V)
        out (greedy_len param clock k 0) 2 c'.c2 ∧
      Chain.Logged log n oops Holds Dead (oops.construct k param.log_computed_offdiagonals_V)
        out (greedy_len param clock k 0) 3 c'.c3 := by
  -- The loop of `interlace_greedy` over any kernel: it returns; it records one step per
  -- iteration, up to the first whose reading exceeds the limit; and the records of each chain
  -- are those of the run of its oracle.
  have interlace_loop_base {τ σ α : Type} [LinearOrderedField α] (log : α → α)
      (n : Nat) (oops : OracleOps σ α) (Good : σ → Prop) (Holds : σ → Nat → α → Prop)
      (B : OracleBase oops log Good Holds) (sops : StrategyOps τ σ α) (getT : τ → List Nat)
      (getD : τ → Bool) (SI : τ → Prop) (Dead : τ → σ → Prop)
      (SL : StrategyLaw n oops Good sops getT getD SI Dead) (param : Param α)
      (clock : Nat → α) (o0 : σ) :
      ∀ (m t : Nat) (c : Chains τ σ) (res : InterlaceResult α),
        Chain.Pair n oops Good getT getD SI c.c0 c.c1 →
        Chain.Pair n oops Good getT getD SI c.c2 c.c3 → (t = 0 → c.c2 = c.c3) →
        res.quadruples.length = t + 1 → res.measurements.length = t + 1 →
        res.finished = false →
        Chain.Logged log n oops Holds Dead o0 res t 0 c.c0 →
        Chain.Logged log n oops Holds Dead o0 res t 1 c.c1 →
        Chain.Logged log n oops Holds Dead o0 res t 2 c.c2 →
        Chain.Logged log n oops Holds Dead o0 res t 3 c.c3 →
        ∃ (out : InterlaceResult α) (c' : Chains τ σ), interlace_greedy_loop sops oops param clock m t c res = .ok out ∧
          out.quadruples.length = t + greedy_len param clock m t + 1 ∧
          out.measurements.length = t + greedy_len param clock m t + 1 ∧
          out.finished = greedy_fin param clock m t ∧
          Chain.Pair n oops Good getT getD SI c'.c0 c'.c1 ∧
          Chain.Pair n oops Good getT getD SI c'.c2 c'.c3 ∧
          Chain.Logged log n oops Holds Dead o0 out (t + greedy_len param clock m t) 0 c'.c0 ∧
          Chain.Logged log n oops Holds Dead o0 out (t + greedy_len param clock m t) 1 c'.c1 ∧
          Chain.Logged log n oops Holds Dead o0 out (t + greedy_len param clock m t) 2 c'.c2 ∧
          Chain.Logged log n oops Holds Dead o0 out (t + greedy_len param clock m t) 3
            c'.c3 := by
    -- The records of a chain after one more step.
    have logged_add {τ σ α : Type} [LinearOrderedField α] (log : α → α) (n : Nat)
        (oops : OracleOps σ α) (Holds : σ → Nat → α → Prop) (Dead : τ → σ → Prop) (o0 : σ)
        (res : InterlaceResult α) (t : Nat) (f : Fin 4) (c c' : Chain τ σ) (r : Option Nat)
        (hlen : res.quadruples.length = t + 1)
        (hrec : Chain.Logged log n oops Holds Dead o0 res t f c)
        (hmv : Chain.Moved log n oops Holds Dead c r c')
        (es : Fin 4 → Option Nat) (vals : Fin 4 → Value α) (hes : es f = r)
        (hv : vals f = oops.get_value c'.oracle) (time : α) (a b d : Nat) :
        Chain.Logged log n oops Holds Dead o0 (res.add es vals time a b d) (t + 1) f c' := by
      obtain ⟨gs, h1, h2, h3, h4, h5, h6, h7, h8⟩ := hrec
      obtain ⟨m1, m2, m3⟩ := hmv
      have hgl := run_length oops Holds o0 _ _ gs h1
      have hlen1 : (res.add es vals time a b d).quadruples.length = t + 2 := by
        simp [InterlaceResult.add, hlen]
      have hnew := interlace_add_new res es vals time a b d f
      rw [hlen] at hnew
      cases r with
      | none =>
        obtain ⟨d1, d2, d3, d4⟩ := m2 rfl
        refine ⟨gs, by rw [d2]; exact d4 o0 _ gs h1, by rw [d3]; exact h2, h3,
          by rw [d2]; exact h4, by rw [d2]; exact h5, ?_, by rw [d2]; omega, fun _ => d1⟩
        intro j hj
        rw [hlen1] at hj
        rw [d2]
        by_cases hjt : j ≤ t
        · obtain ⟨o1, o2⟩ := interlace_add_old res es vals time a b d f j (by omega)
          rw [o1, o2]
          exact h6 j (by omega)
        · have hje : j = t + 1 := by omega
          subst hje
          rw [hnew.1, hnew.2, hes, hv, d3, h2, if_neg (by omega),
            List.take_of_length_le (by omega)]
          exact ⟨rfl, rfl⟩
      | some e =>
        obtain ⟨d1, d2, d3, g, d4, d5, d6⟩ := m3 e rfl
        have hnd : ¬ Dead c.strategy c.oracle := by
          intro hd
          have := m1 hd
          cases this
        have hSt : (oops.get_solution c.oracle).length = t := by
          by_contra hne
          exact hnd (h8 (by omega))
        refine ⟨gs ++ [g], by rw [d3]; exact d6 o0 _ gs h1,
          by rw [d5, h2, valueOf_append], ?_, ?_, ?_, ?_, ?_, ?_⟩
        · intro g' hg'
          rcases List.mem_append.mp hg' with h | h
          · exact h3 g' h
          · rw [List.mem_singleton.mp h]; exact d4
        · rw [d3, List.nodup_append]
          refine ⟨h4, List.nodup_singleton e, ?_⟩
          intro x hx hb
          rw [List.mem_singleton.mp hb] at hx
          exact d2 hx
        · rw [d3]
          intro x hx
          rcases List.mem_append.mp hx with h | h
          · exact h5 x h
          · rw [List.mem_singleton.mp h]; exact d1
        · intro j hj
          rw [hlen1] at hj
          rw [d3]
          by_cases hjt : j ≤ t
          · obtain ⟨o1, o2⟩ := interlace_add_old res es vals time a b d f j (by omega)
            rw [o1, o2]
            obtain ⟨q2, q3⟩ := h6 j (by omega)
            refine ⟨?_, ?_⟩
            · rw [q2, List.length_append, List.length_singleton]
              by_cases hj0 : 0 < j
              · rw [if_pos ⟨hj0, by omega⟩, if_pos ⟨hj0, by omega⟩,
                  List.getD_append _ _ _ _ (by omega)]
              · rw [if_neg (by omega), if_neg (by omega)]
            · rw [q3, List.take_append_of_le_length (by omega)]
          · have hje : j = t + 1 := by omega
            subst hje
            rw [hnew.1, hnew.2, hes, hv, d5, h2]
            refine ⟨?_, ?_⟩
            · rw [if_pos ⟨Nat.succ_pos t, by rw [List.length_append, List.length_singleton]; omega⟩]
              congr 1
              simp [List.getD_eq_getElem?_getD, hSt]
            · rw [List.take_of_length_le (by rw [List.length_append, List.length_singleton]; omega),
                valueOf_append]
        · rw [d3, List.length_append, List.length_singleton]
          omega
        · intro hlt
          rw [d3, List.length_append, List.length_singleton] at hlt
          omega
    intro m
    induction m with
    | zero =>
      intro t c res h01 h23 _ hq hm _ r0 r1 r2 r3
      exact ⟨{ res with finished := true }, c, rfl, hq, hm, rfl, h01, h23, r0, r1, r2, r3⟩
    | succ m ih =>
      intro t c res h01 h23 h0 hq hm hf r0 r1 r2 r3
      obtain ⟨es, c', hstep, p01, p23, o0', o1, o2, o3⟩ :=
        interlace_step_base log n oops Good Holds B sops getT getD SI Dead SL t c h01 h23 h0
      rw [interlace_greedy_loop]
      simp only [hstep]
      have hq1 : ∀ (vals : Fin 4 → Value α) (time : α) (a b d : Nat),
          (res.add es vals time a b d).quadruples.length = t + 1 + 1 := by
        intro vals time a b d
        simp [InterlaceResult.add, hq]
      have hm1 : ∀ (vals : Fin 4 → Value α) (time : α) (a b d : Nat),
          (res.add es vals time a b d).measurements.length = t + 1 + 1 := by
        intro vals time a b d
        simp [InterlaceResult.add, hm]
      have n0 := logged_add log n oops Holds Dead o0 res t 0 c.c0 c'.c0 (es 0) hq r0 o0'
        es ![oops.get_value c'.c0.oracle, oops.get_value c'.c1.oracle,
          oops.get_value c'.c2.oracle, oops.get_value c'.c3.oracle] rfl rfl
      have n1 := logged_add log n oops Holds Dead o0 res t 1 c.c1 c'.c1 (es 1) hq r1 o1
        es ![oops.get_value c'.c0.oracle, oops.get_value c'.c1.oracle,
          oops.get_value c'.c2.oracle, oops.get_value c'.c3.oracle] rfl rfl
      have n2 := logged_add log n oops Holds Dead o0 res t 2 c.c2 c'.c2 (es 2) hq r2 o2
        es ![oops.get_value c'.c0.oracle, oops.get_value c'.c1.oracle,
          oops.get_value c'.c2.oracle, oops.get_value c'.c3.oracle] rfl rfl
      have n3 := logged_add log n oops Holds Dead o0 res t 3 c.c3 c'.c3 (es 3) hq r3 o3
        es ![oops.get_value c'.c0.oracle, oops.get_value c'.c1.oracle,
          oops.get_value c'.c2.oracle, oops.get_value c'.c3.oracle] rfl rfl
      by_cases hexp : expired param (clock t) = true
      · rw [if_pos hexp]
        have hl : greedy_len param clock (m + 1) t = 1 := by rw [greedy_len, if_pos hexp]
        have hfn : greedy_fin param clock (m + 1) t = false := by rw [greedy_fin, if_pos hexp]
        rw [hl, hfn]
        exact ⟨_, c', rfl, hq1 _ _ _ _ _, hm1 _ _ _ _ _, hf, p01, p23, n0 _ _ _ _, n1 _ _ _ _,
          n2 _ _ _ _, n3 _ _ _ _⟩
      · rw [if_neg hexp]
        have hl : greedy_len param clock (m + 1) t = greedy_len param clock m (t + 1) + 1 := by
          rw [greedy_len, if_neg hexp]
        have hfn : greedy_fin param clock (m + 1) t = greedy_fin param clock m (t + 1) := by
          rw [greedy_fin, if_neg hexp]
        have hidx : t + (greedy_len param clock m (t + 1) + 1)
            = t + 1 + greedy_len param clock m (t + 1) := by omega
        rw [hl, hfn, hidx]
        exact ih (t + 1) c' _ p01 p23 (fun h => by omega) (hq1 _ _ _ _ _) (hm1 _ _ _ _ _) hf
          (n0 _ _ _ _) (n1 _ _ _ _) (n2 _ _ _ _) (n3 _ _ _ _)
  obtain ⟨c1, c2, c3, c4, c5, c6, c7, c8⟩ := construct_base log n oops Good Holds B sops getT
    getD SI Dead SL k param.log_computed_offdiagonals_V true
  have hS0 : oops.get_solution (Chain.init sops oops n k param).oracle = [] := c6
  have hval : Chain.Valid n oops Good getT getD SI (Chain.init sops oops n k param) := by
    refine ⟨c1, c2, c3, c4, ?_⟩
    intro x hx
    rw [hS0]
    exact ⟨(c5 x).mp hx, List.not_mem_nil x⟩
  have hpair : Chain.Pair n oops Good getT getD SI (Chain.init sops oops n k param)
      (Chain.init sops oops n k param) := ⟨hval, hval, fun x => Iff.rfl⟩
  have hrec : ∀ f : Fin 4, Chain.Logged log n oops Holds Dead
      (oops.construct k param.log_computed_offdiagonals_V) (InterlaceResult.init α) 0 f
      (Chain.init sops oops n k param) := by
    intro f
    rw [Chain.Logged, hS0]
    refine ⟨[], c8, c7, (fun g hg => by cases hg), List.nodup_nil, (fun x hx => by cases hx), ?_,
      le_refl _, fun h => absurd h (Nat.lt_irrefl _)⟩
    intro j hj
    have hj0 : j = 0 := by
      simp [InterlaceResult.init, InterlaceResult.add] at hj
      exact hj
    subst hj0
    exact ⟨rfl, rfl⟩
  obtain ⟨out, c', h1, h2, h3, h4, h5, h6, h7, h8, h9, h10⟩ :=
    interlace_loop_base log n oops Good Holds B sops getT getD SI Dead SL param clock
    (oops.construct k param.log_computed_offdiagonals_V) k 0
    { c0 := Chain.init sops oops n k param, c1 := Chain.init sops oops n k param,
      c2 := Chain.init sops oops n k param, c3 := Chain.init sops oops n k param }
    (InterlaceResult.init α) hpair hpair (fun _ => rfl) rfl rfl rfl
    (hrec 0) (hrec 1) (hrec 2) (hrec 3)
  rw [Nat.zero_add] at h2 h3 h7 h8 h9 h10
  refine ⟨out, c', ?_, h2, h3, h4, h5, h6, h7, h8, h9, h10⟩
  unfold interlace_greedy
  have hkn : (!decide (k ≤ n)) = false := by simp [hk]
  rw [hkn]
  exact h1

end DPP

namespace DPP

/-- C16: snapshot indexing.  For every kernel `L` on `n` elements and every `k ≤ n`, with
the lazy or the non-lazy strategy over the direct or the fast oracle, plain greedy returns
a `GreedyResult` with one snapshot more than commits; for every `t` below the number of
snapshots, the solution of `r[t]` has length `t` and lists the first `t` elements that the
run committed, in commit order, and the solution and the value of `r[t]` are those of the
oracle after `t` commits (`r[0]` is the empty solution with the value `0`); for every `t`
from the number of snapshots on, `r[t]` is the unfinished result, not marked finished,
with the empty solution and the value `0`. -/
theorem snapshot_indexing (n : Nat) (L : Nat → Nat → ℝ) (k : Nat) (hk : k ≤ n)
    (ord : List Nat → List Nat) (hord : SetOrder ord) (V0 : Nat → Nat → Option ℝ)
    (param : Param ℝ) (clock : Nat → ℝ) :
    SnapshotIndexing (NonLazy.ops ord (Oracle.ops Real.log L)) (Oracle.ops Real.log L)
      Oracle.Holds n k param clock ∧
    SnapshotIndexing (Lazy.ops ord (Oracle.ops Real.log L)) (Oracle.ops Real.log L)
      Oracle.Holds n k param clock ∧
    SnapshotIndexing (NonLazy.ops ord (Fast.ops Real.sqrt Real.log V0 L))
      (Fast.ops Real.sqrt Real.log V0 L) Fast.Holds n k param clock ∧
    SnapshotIndexing (Lazy.ops ord (Fast.ops Real.sqrt Real.log V0 L))
      (Fast.ops Real.sqrt Real.log V0 L) Fast.Holds n k param clock := by
  -- Snapshot indexing of `greedy`, for a strategy and an oracle that are what the drivers
  -- expect.
  have snapshotIndexing_of {τ σ α : Type} [LinearOrderedField α] (log : α → α) (n : Nat)
      (oops : OracleOps σ α) (Good : σ → Prop) (Holds : σ → Nat → α → Prop)
      (B : OracleBase oops log Good Holds) (sops : StrategyOps τ σ α) (getT : τ → List Nat)
      (getD : τ → Bool) (SI : τ → Prop) (Dead : τ → σ → Prop)
      (SL : StrategyLaw n oops Good sops getT getD SI Dead)
      (k : Nat) (hk : k ≤ n) (param : Param α) (clock : Nat → α) :
      SnapshotIndexing sops oops Holds n k param clock := by
    obtain ⟨out, es, gs, p, h1, h2, _, _, h5, _⟩ :=
      greedy_base log n oops Good Holds B sops getT getD SI Dead SL k hk param clock
    obtain ⟨c1, c2, c3⟩ := B.construct_good k param.log_computed_offdiagonals_V
    have hsize : out.size = es.length + 1 := h5.2.1
    refine ⟨out, es, gs, p, h1, h2, hsize, ?_, ?_, ?_, rfl, rfl, rfl⟩
    · intro t ht
      have hle : t ≤ es.length := by omega
      obtain ⟨r, r1, r2, r3, r4⟩ := (snap_get log out es gs h5 t).1 hle
      obtain ⟨q, q1, q2⟩ := run_split oops Holds _ p es gs h2 t hle
      obtain ⟨_, s2, s3⟩ := run_spec oops log Good Holds B _ q _ _ c1 c2 c3 q1
      refine ⟨r, q, r1, q1, q2, r2, ?_, r3, by rw [s2, r3], by rw [s3, r4]⟩
      rw [r3, List.length_take]
      omega
    · obtain ⟨r, r1, _, r3, r4⟩ := (snap_get log out es gs h5 0).1 (Nat.zero_le _)
      exact ⟨r, r1, by rw [r3]; rfl, by rw [r4]; rfl⟩
    · intro t ht
      exact (snap_get log out es gs h5 t).2 (by omega)
  have BD := direct_base Real.log L
  have BF := fast_base Real.sqrt Real.log V0 L
  exact ⟨snapshotIndexing_of Real.log n _ _ _ BD _ _ _ _ _
      (nonlazy_law n _ BD.law _ ord hord) k hk param clock,
    snapshotIndexing_of Real.log n _ _ _ BD _ _ _ _ _
      (lazy_law n _ BD.law _ ord hord) k hk param clock,
    snapshotIndexing_of Real.log n _ _ _ BF _ _ _ _ _
      (nonlazy_law n _ BF.law _ ord hord) k hk param clock,
    snapshotIndexing_of Real.log n _ _ _ BF _ _ _ _ _
      (lazy_law n _ BF.law _ ord hord) k hk param clock⟩

/-- Witness of C16: plain greedy with the non-lazy strategy over the direct oracle on the
kernel `diag(4, 3, 2, 0.5, 0.25, 0.125, 0.1, 0.1)` with `k = 4`. -/
theorem snapshot_indexing_witness :
    SnapshotIndexing (NonLazy.ops (fun l => l.dedup) (Oracle.ops Real.log (linearDiag ℝ)))
      (Oracle.ops Real.log (linearDiag ℝ)) Oracle.Holds 8 4
      { time_limit := ⊤, log_computed_offdiagonals_V := false } (fun _ => 0) :=
  (snapshot_indexing 8 (linearDiag ℝ) 4 (by decide) (fun l => l.dedup) setOrder_id
    (fun _ _ => none) { time_limit := ⊤, log_computed_offdiagonals_V := false }
    (fun _ => 0)).1

end DPP

namespace DPP

/-- Plain greedy with the non-lazy strategy over the direct oracle on the `1 × 1` zero
matrix with `k = 1`: the gain of element `0` is `0`, the value after its commit is minus
infinity, and the result holds this snapshot and is not marked finished. -/
theorem zero_greedy_run :
    greedy (NonLazy.ops (fun l => l.dedup) (Oracle.ops Real.log (zeroKernel ℝ)))
        (Oracle.ops Real.log (zeroKernel ℝ)) 1 1
        { time_limit := ⊤, log_computed_offdiagonals_V := false } (fun _ => 0)
      = .ok ((GreedyResult.init ℝ).add (some 0) (some ⊥) 0 0 1 0 []) := by
  have hc : Oracle.compute_marginal_gain_exponential (zeroKernel ℝ) (Oracle.construct ℝ) 0
      = (0, { (Oracle.construct ℝ) with
                d := Function.update (Oracle.construct ℝ).d 0 (some 0)
                u := Function.update (Oracle.construct ℝ).u 0 0
                num_oracle_calls := 1 }) := by
    simp [Oracle.compute_marginal_gain_exponential, Oracle.construct, zeroKernel,
      Matrix.dotProduct]
  have hv : (Oracle.construct ℝ).value = some ((0 : ℝ) : WithBot ℝ) := rfl
  simp [greedy, greedy_loop, NonLazy.ops, NonLazy.construct, NonLazy.pop_largest,
    NonLazy.pop_kth_largest, NonLazy.fill, NonLazy.scan, NonLazy.remove, heapMin,
    Oracle.ops, hc, hv, Oracle.add, expired, isNegInf, vadd, dlog,
    List.range, List.range.loop]

theorem zero_greedy_get :
    ((GreedyResult.init ℝ).add (some 0) (some ⊥) 0 0 1 0 []).get 1
      = .ok { finished := true, solution := [0], value := some ⊥, time := 0,
              num_computed_entries_L := 0, num_oracle_calls := 1,
              num_computed_offdiagonals_V := 0, computed_offdiagonals_V := [] } := rfl

/-- C17 (as amended): numerical degeneracy.  For every kernel `L` on `n` elements and
every `k ≤ n`, with the lazy or the non-lazy strategy over the direct or the fast oracle,
plain greedy returns; when the value after a commit is minus infinity, which is what the
commit of an element with the gain `0` makes of a finite value, the run stops after that
step: the snapshot with the value minus infinity is the last snapshot of the
`GreedyResult` returned, whose member `finished` is `false`. -/
theorem numerical_degeneracy (n : Nat) (L : Nat → Nat → ℝ) (k : Nat) (hk : k ≤ n)
    (ord : List Nat → List Nat) (hord : SetOrder ord) (V0 : Nat → Nat → Option ℝ)
    (param : Param ℝ) (clock : Nat → ℝ) :
    StopsAtMinusInfinity (NonLazy.ops ord (Oracle.ops Real.log L)) (Oracle.ops Real.log L)
      n k param clock ∧
    StopsAtMinusInfinity (Lazy.ops ord (Oracle.ops Real.log L)) (Oracle.ops Real.log L)
      n k param clock ∧
    StopsAtMinusInfinity (NonLazy.ops ord (Fast.ops Real.sqrt Real.log V0 L))
      (Fast.ops Real.sqrt Real.log V0 L) n k param clock ∧
    StopsAtMinusInfinity (Lazy.ops ord (Fast.ops Real.sqrt Real.log V0 L))
      (Fast.ops Real.sqrt Real.log V0 L) n k param clock ∧
    ∀ x : ℝ, isNegInf (vadd (some (x : WithBot ℝ)) (dlog Real.log (some 0))) = true := by
  -- What `greedy` returns when a value is minus infinity, for a strategy and an oracle
  -- that are what the drivers expect.
  have stopsAtMinusInfinity_of {τ σ α : Type} [LinearOrderedField α] (log : α → α)
      (n : Nat) (oops : OracleOps σ α) (Good : σ → Prop) (Holds : σ → Nat → α → Prop)
      (B : OracleBase oops log Good Holds) (sops : StrategyOps τ σ α) (getT : τ → List Nat)
      (getD : τ → Bool) (SI : τ → Prop) (Dead : τ → σ → Prop)
      (SL : StrategyLaw n oops Good sops getT getD SI Dead)
      (k : Nat) (hk : k ≤ n) (param : Param α) (clock : Nat → α) :
      StopsAtMinusInfinity sops oops n k param clock := by
    obtain ⟨out, es, gs, p, h1, h2, _, _, h5, _, _, _, _, h10, h11, _⟩ :=
      greedy_base log n oops Good Holds B sops getT getD SI Dead SL k hk param clock
    have hgl := run_length oops Holds _ p es gs h2
    have hsize : out.size = es.length + 1 := h5.2.1
    refine ⟨out, h1, ?_⟩
    intro t r hr hneg
    by_cases hle : t ≤ es.length
    · obtain ⟨r', r1, _, _, r4⟩ := (snap_get log out es gs h5 t).1 hle
      rw [hr] at r1
      simp only [Except.ok.injEq] at r1
      subst r1
      rw [r4] at hneg
      have hte : t = es.length := by
        by_contra hne
        have := h11 t (by omega)
        rw [this] at hneg
        cases hneg
      subst hte
      rw [List.take_of_length_le (by omega)] at hneg
      refine ⟨hsize.symm, ?_, ?_⟩
      · unfold GreedyResult.last
        rw [hsize, Nat.add_sub_cancel]
        exact hr
      · rw [h10, hneg]
        simp
    · have := (snap_get log out es gs h5 t).2 (by omega)
      rw [hr] at this
      simp only [Except.ok.injEq] at this
      rw [this] at hneg
      simp [Result.unfinished, isNegInf] at hneg
  have BD := direct_base Real.log L
  have BF := fast_base Real.sqrt Real.log V0 L
  refine ⟨stopsAtMinusInfinity_of Real.log n _ _ _ BD _ _ _ _ _
      (nonlazy_law n _ BD.law _ ord hord) k hk param clock,
    stopsAtMinusInfinity_of Real.log n _ _ _ BD _ _ _ _ _
      (lazy_law n _ BD.law _ ord hord) k hk param clock,
    stopsAtMinusInfinity_of Real.log n _ _ _ BF _ _ _ _ _
      (nonlazy_law n _ BF.law _ ord hord) k hk param clock,
    stopsAtMinusInfinity_of Real.log n _ _ _ BF _ _ _ _ _
      (lazy_law n _ BF.law _ ord hord) k hk param clock, ?_⟩
  intro x
  simp [vadd, dlog, isNegInf]

/-- Witness of C17 (as amended): on the `1 × 1` zero matrix with `k = 1`, plain greedy
with the non-lazy strategy over the direct oracle returns two snapshots, the last with
the value minus infinity, and `finished` is `false`. -/
theorem numerical_degeneracy_witness :
    ∃ out r, greedy (NonLazy.ops (fun l => l.dedup) (Oracle.ops Real.log (zeroKernel ℝ)))
        (Oracle.ops Real.log (zeroKernel ℝ)) 1 1
        { time_limit := ⊤, log_computed_offdiagonals_V := false } (fun _ => 0) = .ok out ∧
      out.get 1 = .ok r ∧ isNegInf r.value = true ∧ 1 + 1 = out.size ∧
      out.last = .ok r ∧ out.finished = false := by
  obtain ⟨out, h1, h2⟩ := (numerical_degeneracy 1 (zeroKernel ℝ) 1 (by decide)
    (fun l => l.dedup) setOrder_id (fun _ _ => none)
    { time_limit := ⊤, log_computed_offdiagonals_V := false } (fun _ => 0)).1
  rw [zero_greedy_run] at h1
  simp only [Except.ok.injEq] at h1
  subst h1
  obtain ⟨a, b, c⟩ := h2 1 _ zero_greedy_get rfl
  exact ⟨_, _, zero_greedy_run, zero_greedy_get, rfl, a, b, c⟩

/-- C17, counterexample: on the `1 × 1` zero matrix with `k = 1`, plain greedy with the
non-lazy strategy over the direct oracle commits element `0`, whose gain is `0`; the
value becomes minus infinity and is recorded in the last snapshot, and the run stops; but
the member `finished` of the `GreedyResult` returned is `false`, not `true`. -/
theorem numerical_degeneracy_counterexample :
    ∃ out r, greedy (NonLazy.ops (fun l => l.dedup) (Oracle.ops Real.log (zeroKernel ℝ)))
        (Oracle.ops Real.log (zeroKernel ℝ)) 1 1
        { time_limit := ⊤, log_computed_offdiagonals_V := false } (fun _ => 0) = .ok out ∧
      gainAt (Oracle.ops Real.log (zeroKernel ℝ)) (Oracle.construct ℝ) 0 = 0 ∧
      out.last = .ok r ∧ r.solution = [0] ∧ isNegInf r.value = true ∧
      out.finished ≠ true := by
  refine ⟨_, _, zero_greedy_run, ?_, zero_greedy_get, rfl, rfl, ?_⟩
  · simp [gainAt, Oracle.ops, Oracle.compute_marginal_gain_exponential, Oracle.construct,
      zeroKernel, Matrix.dotProduct]
  · simp [GreedyResult.add, GreedyResult.init]

end DPP

namespace DPP

/-- What `interlace_greedy` returns over any kernel, chain by chain: the records of chain
`f` are those of a run that committed the elements `es f` with the gains `gs f`, all above
`1`; the elements are pairwise distinct indices below `n`, no more than the iterations
run. -/
theorem interlace_greedy_snaps {τ σ α : Type} [LinearOrderedField α] (log : α → α)
    (n : Nat) (oops : OracleOps σ α) (Good : σ → Prop) (Holds : σ → Nat → α → Prop)
    (B : OracleBase oops log Good Holds) (sops : StrategyOps τ σ α) (getT : τ → List Nat)
    (getD : τ → Bool) (SI : τ → Prop) (Dead : τ → σ → Prop)
    (SL : StrategyLaw n oops Good sops getT getD SI Dead)
    (k : Nat) (hk : k ≤ n) (param : Param α) (clock : Nat → α) :
    ∃ (out : InterlaceResult α) (es : Fin 4 → List Nat) (gs : Fin 4 → List α),
      interlace_greedy sops oops n k param clock = .ok out ∧
      out.quadruples.length = greedy_len param clock k 0 + 1 ∧
      out.measurements.length = greedy_len param clock k 0 + 1 ∧
      out.finished = greedy_fin param clock k 0 ∧
      ∀ f : Fin 4, InterlaceResult.ChainSnap log out f (es f) (gs f) ∧
        (gs f).length = (es f).length ∧ (∀ g ∈ gs f, 1 < g) ∧ (es f).Nodup ∧
        (∀ x ∈ es f, x < n) ∧ (es f).length ≤ greedy_len param clock k 0 := by
  obtain ⟨out, c', h1, h2, h3, h4, _, _, l0, l1, l2, l3⟩ :=
    interlace_greedy_base log n oops Good Holds B sops getT getD SI Dead SL k hk param clock
  obtain ⟨g0, a1, _, a3, a4, a5, a6, a7, _⟩ := l0
  obtain ⟨g1, b1, _, b3, b4, b5, b6, b7, _⟩ := l1
  obtain ⟨g2, c1, _, c3, c4, c5, c6, c7, _⟩ := l2
  obtain ⟨g3, d1, _, d3, d4, d5, d6, d7, _⟩ := l3
  refine ⟨out, ![oops.get_solution c'.c0.oracle, oops.get_solution c'.c1.oracle,
      oops.get_solution c'.c2.oracle, oops.get_solution c'.c3.oracle],
    ![g0, g1, g2, g3], h1, h2, h3, h4, ?_⟩
  intro f
  fin_cases f
  · exact ⟨a6, run_length oops Holds _ _ _ _ a1, a3, a4, a5, a7⟩
  · exact ⟨b6, run_length oops Holds _ _ _ _ b1, b3, b4, b5, b7⟩
  · exact ⟨c6, run_length oops Holds _ _ _ _ c1, c3, c4, c5, c7⟩
  · exact ⟨d6, run_length oops Holds _ _ _ _ d1, d3, d4, d5, d7⟩

end DPP

namespace DPP

/-- What `double_greedy` returns when the reading at step `t1 < n` is the first that
exceeds the limit. -/
theorem double_greedy_limited {σ α : Type} [LinearOrderedField α] (log : α → α)
    (n : Nat) (oops : OracleOps σ α) (Good : σ → Prop) (Holds : σ → Nat → α → Prop)
    (B : OracleBase oops log Good Holds) (oops_inv : OracleOps σ α)
    (param : Param α) (clock : Nat → α) (rng : Nat → Nat)
    (t1 : Nat) (ht : t1 < n) (hex : FirstExceeds param clock t1) :
    double_greedy log oops oops_inv n param clock rng = .ok Result.unfinished := by
  obtain ⟨_, hf⟩ := greedy_len_first param clock t1 n 0 ht
    (by rw [Nat.zero_add]; exact hex.1)
    (fun i hi => by rw [Nat.zero_add]; exact hex.2 i hi)
  obtain ⟨r, r1, r2, _⟩ := double_greedy_base log n oops Good Holds B oops_inv param clock rng
  rw [r1, r2 hf]

/-- C19: time limit.  The timer is a sequence of readings, `clock t` taken at the end of
step `t`.  For every kernel `L` on `n` elements, every `k ≤ n`, the lazy or the non-lazy
strategy and the direct or the fast oracle: when the reading at step `t0 < k` is the first
that exceeds `param.time_limit`, random and stochastic greedy return the unfinished
result (not finished, the empty solution, the value `0`), and so does double greedy when
the first such reading is at a step `t1 < n`; plain greedy returns a result with
`finished = false` that holds the snapshots of the steps it ran, those up to step `t0`
included (unless it stopped before on a value of minus infinity), and interlace greedy a
result with `finished = false` that holds the snapshots up to step `t0` included; this
holds also when `t0 = k - 1` is the last step. -/
theorem time_limit_exceeded (n : Nat) (L Linv : Nat → Nat → ℝ) (k : Nat) (hk : k ≤ n)
    (ord : List Nat → List Nat) (hord : SetOrder ord) (V0 V1 : Nat → Nat → Option ℝ)
    (param : Param ℝ) (clock : Nat → ℝ) (rng : Nat → Nat)
    (t0 : Nat) (ht : t0 < k) (hex : FirstExceeds param clock t0) :
    TimeLimited Real.log (NonLazy.ops ord (Oracle.ops Real.log L)) (Oracle.ops Real.log L)
      n k param clock rng t0 ∧
    TimeLimited Real.log (Lazy.ops ord (Oracle.ops Real.log L)) (Oracle.ops Real.log L)
      n k param clock rng t0 ∧
    TimeLimited Real.log (NonLazy.ops ord (Fast.ops Real.sqrt Real.log V0 L))
      (Fast.ops Real.sqrt Real.log V0 L) n k param clock rng t0 ∧
    TimeLimited Real.log (Lazy.ops ord (Fast.ops Real.sqrt Real.log V0 L))
      (Fast.ops Real.sqrt Real.log V0 L) n k param clock rng t0 ∧
    (∀ t1, t1 < n → FirstExceeds param clock t1 →
      double_greedy Real.log (Oracle.ops Real.log L) (Oracle.ops Real.log Linv) n param
          clock rng = .ok Result.unfinished ∧
      double_greedy Real.log (Fast.ops Real.sqrt Real.log V0 L)
          (Fast.ops Real.sqrt Real.log V1 Linv) n param clock rng = .ok Result.unfinished) ∧
    (Result.unfinished : Result ℝ).finished = false ∧
    (Result.unfinished : Result ℝ).solution = [] ∧
    (Result.unfinished : Result ℝ).value = some ((0 : ℝ) : WithBot ℝ) := by
  -- What the drivers return when the reading at step `t0 < k` is the first that exceeds
  -- the limit, for a strategy and an oracle that are what the drivers expect.
  have timeLimited_of {τ σ α : Type} [LinearOrderedField α] {sqrt log : α → α}
      [Numeric sqrt log] [FloorRing α]
      (n : Nat) (oops : OracleOps σ α) (Good : σ → Prop) (Holds : σ → Nat → α → Prop)
      (B : OracleBase oops log Good Holds) (sops : StrategyOps τ σ α) (getT : τ → List Nat)
      (getD : τ → Bool) (SI : τ → Prop) (Dead : τ → σ → Prop)
      (SL : StrategyLaw n oops Good sops getT getD SI Dead)
      (k : Nat) (hk : k ≤ n) (param : Param α) (clock : Nat → α) (rng : Nat → Nat)
      (t0 : Nat) (ht : t0 < k) (hex : FirstExceeds param clock t0) :
      TimeLimited log sops oops n k param clock rng t0 := by
    obtain ⟨hl, hf⟩ := greedy_len_first param clock t0 k 0 ht
      (by rw [Nat.zero_add]; exact hex.1)
      (fun i hi => by rw [Nat.zero_add]; exact hex.2 i hi)
    refine ⟨?_, ?_, ?_, ?_⟩
    · obtain ⟨out, es, gs, p, h1, h2, _, _, h5, _, _, h8, h9, h10, _, h12⟩ :=
        greedy_base log n oops Good Holds B sops getT getD SI Dead SL k hk param clock
      have hgl := run_length oops Holds _ p es gs h2
      have hsize : out.size = es.length + 1 := h5.2.1
      have h1k : min k 1 = 1 := by omega
      rw [h1k] at h12
      rw [hl] at h8 h9
      refine ⟨out, h1, by rw [h10, hf]; rfl, by omega, by omega, ?_, ?_⟩
      · cases hneg : isNegInf (valueOf log gs) with
        | false => left; rw [hsize, h9 hneg]
        | true =>
          right
          obtain ⟨r, r1, _, _, r4⟩ := (snap_get log out es gs h5 es.length).1 (Nat.le_refl _)
          refine ⟨r, ?_, ?_⟩
          · unfold GreedyResult.last
            rw [hsize, Nat.add_sub_cancel]
            exact r1
          · rw [r4, List.take_of_length_le (by omega)]
            exact hneg
      · intro t htl
        obtain ⟨r, r1, r2, r3, _⟩ := (snap_get log out es gs h5 t).1 (by omega)
        refine ⟨r, r1, r2, ?_⟩
        rw [r3, List.length_take]
        omega
    · obtain ⟨r, r1, r2, _⟩ :=
        random_greedy_base log n oops Good Holds B sops getT getD SI Dead SL k hk param clock rng
      rw [r1, r2 hf]
    · obtain ⟨r, r1, r2, _⟩ :=
        @stochastic_greedy_base τ σ α _ sqrt log _ _ n oops Good Holds B sops getT getD SI Dead
          SL k hk param clock rng
      rw [r1, r2 hf]
    · obtain ⟨out, es, gs, h1, h2, h3, h4, h5⟩ :=
        interlace_greedy_snaps log n oops Good Holds B sops getT getD SI Dead SL k hk param clock
      refine ⟨out, h1, by rw [h4, hf], by unfold InterlaceResult.size; rw [h3, hl], ?_⟩
      intro t htl
      obtain ⟨r, f, r1, r2, _⟩ := @chainSnap_get α _ sqrt log _ out (by rw [h2, h3]) es gs
        (fun f => ⟨(h5 f).1, (h5 f).2.1, (h5 f).2.2.1⟩) t htl
      exact ⟨r, r1, r2⟩
  have BD := direct_base Real.log L
  have BF := fast_base Real.sqrt Real.log V0 L
  refine ⟨@timeLimited_of _ _ ℝ _ Real.sqrt Real.log _ _ n _ _ _ BD _ _ _ _ _
      (nonlazy_law n _ BD.law _ ord hord) k hk param clock rng t0 ht hex,
    @timeLimited_of _ _ ℝ _ Real.sqrt Real.log _ _ n _ _ _ BD _ _ _ _ _
      (lazy_law n _ BD.law _ ord hord) k hk param clock rng t0 ht hex,
    @timeLimited_of _ _ ℝ _ Real.sqrt Real.log _ _ n _ _ _ BF _ _ _ _ _
      (nonlazy_law n _ BF.law _ ord hord) k hk param clock rng t0 ht hex,
    @timeLimited_of _ _ ℝ _ Real.sqrt Real.log _ _ n _ _ _ BF _ _ _ _ _
      (lazy_law n _ BF.law _ ord hord) k hk param clock rng t0 ht hex,
    ?_, rfl, rfl, rfl⟩
  intro t1 h1 hex1
  exact ⟨double_greedy_limited Real.log n _ _ _ BD _ param clock rng t1 h1 hex1,
    double_greedy_limited Real.log n _ _ _ BF _ param clock rng t1 h1 hex1⟩

/-- Witness of C19: the kernel `diag(4, 3, 2, 0.5, 0.25, 0.125, 0.1, 0.1)` with `k = 4`,
the limit `0` and readings that are all `1`: the first reading exceeds the limit, at the
step `t0 = 0`. -/
theorem time_limit_exceeded_witness :
    FirstExceeds
      ({ time_limit := 0, log_computed_offdiagonals_V := false } : Param ℝ)
      (fun _ => 1) 0 ∧
    TimeLimited Real.log
      (NonLazy.ops (fun l => l.dedup) (Oracle.ops Real.log (linearDiag ℝ)))
      (Oracle.ops Real.log (linearDiag ℝ)) 8 4
      { time_limit := 0, log_computed_offdiagonals_V := false }
      (fun _ => 1) (fun _ => 0) 0 := by
  have hex : FirstExceeds
      ({ time_limit := 0, log_computed_offdiagonals_V := false } : Param ℝ)
      (fun _ => 1) 0 := by
    refine ⟨?_, fun t h => absurd h (Nat.not_lt_zero t)⟩
    simp [expired]
  exact ⟨hex, (time_limit_exceeded 8 (linearDiag ℝ) (linearDiag ℝ) 4 (by decide)
    (fun l => l.dedup) setOrder_id (fun _ _ => none) (fun _ _ => none)
    { time_limit := 0, log_computed_offdiagonals_V := false }
    (fun _ => 1) (fun _ => 0) 0 (by decide) hex).1⟩

end DPP

namespace DPP

/-- The unfinished result is a selection. -/
theorem selects_unfinished {α : Type} [LinearOrderedField α] (n k : Nat) :
    Selects n k (.ok (Result.unfinished : Result α)) :=
  ⟨_, rfl, List.nodup_nil, (fun x hx => by cases hx), Nat.zero_le k⟩

/-- A prefix of a selection is a selection. -/
theorem selects_take {α : Type} (n k : Nat) (es : List Nat) (hnd : es.Nodup)
    (hr : ∀ x ∈ es, x < n) (hl : es.length ≤ k) (j : Nat) (r : Result α)
    (h : r.solution = es.take j) : Selects n k (.ok r) := by
  refine ⟨r, rfl, ?_, ?_, ?_⟩
  · rw [h]
    exact hnd.sublist (List.take_sublist j es)
  · intro x hx
    rw [h] at hx
    exact hr x (List.mem_of_mem_take hx)
  · rw [h, List.length_take]
    omega

/-- C20: solutions are selections.  For every kernel `L` on `n` elements, every `k` with
`0 ≤ k ≤ n`, every seed (every sequence `rng` of outputs of the engine), every reading of
the timer, the lazy or the non-lazy strategy and the direct or the fast oracle: the
solution that plain, random, stochastic and interlace greedy return (for plain and
interlace greedy the last snapshot and every snapshot read by `operator[]`) is a sequence
of pairwise distinct indices below `n` of length at most `k`, and the solution that double
greedy returns is a sequence of pairwise distinct indices below `n` of length at most
`n`. -/
theorem solutions_are_selections (n : Nat) (L Linv : Nat → Nat → ℝ) (k : Nat) (hk : k ≤ n)
    (ord : List Nat → List Nat) (hord : SetOrder ord) (V0 V1 : Nat → Nat → Option ℝ)
    (param : Param ℝ) (clock : Nat → ℝ) (rng : Nat → Nat) :
    DriversSelect Real.log (NonLazy.ops ord (Oracle.ops Real.log L)) (Oracle.ops Real.log L)
      n k param clock rng ∧
    DriversSelect Real.log (Lazy.ops ord (Oracle.ops Real.log L)) (Oracle.ops Real.log L)
      n k param clock rng ∧
    DriversSelect Real.log (NonLazy.ops ord (Fast.ops Real.sqrt Real.log V0 L))
      (Fast.ops Real.sqrt Real.log V0 L) n k param clock rng ∧
    DriversSelect Real.log (Lazy.ops ord (Fast.ops Real.sqrt Real.log V0 L))
      (Fast.ops Real.sqrt Real.log V0 L) n k param clock rng ∧
    Selects n n (double_greedy Real.log (Oracle.ops Real.log L) (Oracle.ops Real.log Linv) n
      param clock rng) ∧
    Selects n n (double_greedy Real.log (Fast.ops Real.sqrt Real.log V0 L)
      (Fast.ops Real.sqrt Real.log V1 Linv) n param clock rng) := by
  -- What `double_greedy` returns is a selection of at most `n` elements.
  have double_greedy_selects {σ α : Type} [LinearOrderedField α] (log : α → α)
      (n : Nat) (oops : OracleOps σ α) (Good : σ → Prop) (Holds : σ → Nat → α → Prop)
      (B : OracleBase oops log Good Holds) (oops_inv : OracleOps σ α)
      (param : Param α) (clock : Nat → α) (rng : Nat → Nat) :
      Selects n n (double_greedy log oops oops_inv n param clock rng) := by
    obtain ⟨r, r1, r2, r3⟩ := double_greedy_base log n oops Good Holds B oops_inv param clock rng
    rw [r1]
    cases hf : greedy_fin param clock n 0 with
    | false => rw [r2 hf]; exact selects_unfinished n n
    | true =>
      obtain ⟨gs, p, _, _, _, _, q5, q6⟩ := r3 hf
      have hnd : r.solution.Nodup := q5.imp (fun h => Nat.ne_of_lt h)
      exact ⟨r, rfl, hnd, q6, nodup_range_length n r.solution hnd q6⟩
  -- The four drivers that take a strategy return selections, for a strategy and an oracle
  -- that are what the drivers expect.
  have driversSelect_of {τ σ α : Type} [LinearOrderedField α] {sqrt log : α → α}
      [Numeric sqrt log] [FloorRing α]
      (n : Nat) (oops : OracleOps σ α) (Good : σ → Prop) (Holds : σ → Nat → α → Prop)
      (B : OracleBase oops log Good Holds) (sops : StrategyOps τ σ α) (getT : τ → List Nat)
      (getD : τ → Bool) (SI : τ → Prop) (Dead : τ → σ → Prop)
      (SL : StrategyLaw n oops Good sops getT getD SI Dead)
      (k : Nat) (hk : k ≤ n) (param : Param α) (clock : Nat → α) (rng : Nat → Nat) :
      DriversSelect log sops oops n k param clock rng := by
    have hlen := greedy_len_le param clock k 0
    refine ⟨?_, ?_, ?_, ?_⟩
    · obtain ⟨out, es, gs, p, h1, _, _, _, h5, h6, h7, h8, _⟩ :=
        greedy_base log n oops Good Holds B sops getT getD SI Dead SL k hk param clock
      have hget : ∀ j, Selects n k (out.get j) := by
        intro j
        by_cases hj : j ≤ es.length
        · obtain ⟨r, r1, _, r3, _⟩ := (snap_get log out es gs h5 j).1 hj
          rw [r1]
          exact selects_take n k es h6 h7 (by omega) j r r3
        · rw [(snap_get log out es gs h5 j).2 (by omega)]
          exact selects_unfinished n k
      exact ⟨out, h1, hget _, hget⟩
    · obtain ⟨r, r1, r2, r3⟩ :=
        random_greedy_base log n oops Good Holds B sops getT getD SI Dead SL k hk param clock rng
      rw [r1]
      cases hf : greedy_fin param clock k 0 with
      | false => rw [r2 hf]; exact selects_unfinished n k
      | true =>
        obtain ⟨es, gs, p, _, q2, q3, _, q5, q6, q7, _⟩ := r3 hf
        refine ⟨r, rfl, ?_, ?_, ?_⟩
        · rw [q2]; show (oops.get_solution p).Nodup; rw [q3]; exact q5
        · rw [q2]; show ∀ x ∈ oops.get_solution p, x < n; rw [q3]; exact q6
        · rw [q2]; show (oops.get_solution p).length ≤ k; rw [q3]; exact q7
    · obtain ⟨r, r1, r2, r3⟩ :=
        @stochastic_greedy_base τ σ α _ sqrt log _ _ n oops Good Holds B sops getT getD SI Dead
          SL k hk param clock rng
      rw [r1]
      cases hf : greedy_fin param clock k 0 with
      | false => rw [r2 hf]; exact selects_unfinished n k
      | true =>
        obtain ⟨es, gs, p, _, q2, q3, _, q5, q6, q7⟩ := r3 hf
        refine ⟨r, rfl, ?_, ?_, ?_⟩
        · rw [q2]; show (oops.get_solution p).Nodup; rw [q3]; exact q5
        · rw [q2]; show ∀ x ∈ oops.get_solution p, x < n; rw [q3]; exact q6
        · rw [q2]; show (oops.get_solution p).length ≤ k; rw [q3]; exact Nat.le_of_eq q7
    · obtain ⟨out, es, gs, h1, h2, h3, _, h5⟩ :=
        interlace_greedy_snaps log n oops Good Holds B sops getT getD SI Dead SL k hk param clock
      have hget : ∀ j, Selects n k (out.get j) := by
        intro j
        by_cases hj : j < out.size
        · obtain ⟨r, f, r1, _, r3, _⟩ := @chainSnap_get α _ sqrt log _ out (by rw [h2, h3]) es gs
            (fun f => ⟨(h5 f).1, (h5 f).2.1, (h5 f).2.2.1⟩) j hj
          rw [r1]
          obtain ⟨_, _, _, s4, s5, s6⟩ := h5 f
          exact selects_take n k (es f) s4 s5 (by omega) j r r3
        · have : out.get j = .ok Result.unfinished := by
            unfold InterlaceResult.get
            rw [if_pos (by omega)]
          rw [this]
          exact selects_unfinished n k
      exact ⟨out, h1, hget _, hget⟩
  have BD := direct_base Real.log L
  have BF := fast_base Real.sqrt Real.log V0 L
  exact ⟨@driversSelect_of _ _ ℝ _ Real.sqrt Real.log _ _ n _ _ _ BD _ _ _ _ _
      (nonlazy_law n _ BD.law _ ord hord) k hk param clock rng,
    @driversSelect_of _ _ ℝ _ Real.sqrt Real.log _ _ n _ _ _ BD _ _ _ _ _
      (lazy_law n _ BD.law _ ord hord) k hk param clock rng,
    @driversSelect_of _ _ ℝ _ Real.sqrt Real.log _ _ n _ _ _ BF _ _ _ _ _
      (nonlazy_law n _ BF.law _ ord hord) k hk param clock rng,
    @driversSelect_of _ _ ℝ _ Real.sqrt Real.log _ _ n _ _ _ BF _ _ _ _ _
      (lazy_law n _ BF.law _ ord hord) k hk param clock rng,
    double_greedy_selects Real.log n _ _ _ BD _ param clock rng,
    double_greedy_selects Real.log n _ _ _ BF _ param clock rng⟩

/-- Witness of C20: the kernel `diag(4, 3, 2, 0.5, 0.25, 0.125, 0.1, 0.1)` with `k = 4`,
no time limit, the non-lazy strategy and the direct oracle. -/
theorem solutions_are_selections_witness :
    DriversSelect Real.log
      (NonLazy.ops (fun l => l.dedup) (Oracle.ops Real.log (linearDiag ℝ)))
      (Oracle.ops Real.log (linearDiag ℝ)) 8 4
      { time_limit := ⊤, log_computed_offdiagonals_V := false } (fun _ => 0) (fun _ => 0) :=
  (solutions_are_selections 8 (linearDiag ℝ) (linearDiag ℝ) 4 (by decide)
    (fun l => l.dedup) setOrder_id (fun _ _ => none) (fun _ _ => none)
    { time_limit := ⊤, log_computed_offdiagonals_V := false } (fun _ => 0) (fun _ => 0)).1

end DPP

namespace DPP

/-- C14: interlace reconstruction.  For every kernel `L` on `n` elements and every
`k ≤ n`, with the lazy or the non-lazy strategy over the direct or the fast oracle,
`interlace_greedy` returns an `InterlaceResult` `r`, and for every `j` with
`0 ≤ j < r.size()`: the value of `r[j]` is the value that a chain `f*` recorded at step
`j`, which is the maximum over the four chains of the values recorded at step `j`; the
solution of `r[j]` is the sequence of the elements that chain `f*` recorded at the steps
`1..t`, where `t` is the first step at which the value recorded by chain `f*` equals its
value at step `j`. -/
theorem interlace_reconstruction (n : Nat) (L : Nat → Nat → ℝ) (k : Nat) (hk : k ≤ n)
    (ord : List Nat → List Nat) (hord : SetOrder ord) (V0 : Nat → Nat → Option ℝ)
    (param : Param ℝ) (clock : Nat → ℝ) :
    InterlaceReconstruction (NonLazy.ops ord (Oracle.ops Real.log L)) (Oracle.ops Real.log L)
      n k param clock ∧
    InterlaceReconstruction (Lazy.ops ord (Oracle.ops Real.log L)) (Oracle.ops Real.log L)
      n k param clock ∧
    InterlaceReconstruction (NonLazy.ops ord (Fast.ops Real.sqrt Real.log V0 L))
      (Fast.ops Real.sqrt Real.log V0 L) n k param clock ∧
    InterlaceReconstruction (Lazy.ops ord (Fast.ops Real.sqrt Real.log V0 L))
      (Fast.ops Real.sqrt Real.log V0 L) n k param clock := by
  -- Reconstruction from what `interlace_greedy` returns, for a strategy and an oracle that
  -- are what the drivers expect.
  have interlaceReconstruction_of {τ σ α : Type} [LinearOrderedField α]
      {sqrt log : α → α} [Numeric sqrt log]
      (n : Nat) (oops : OracleOps σ α) (Good : σ → Prop) (Holds : σ → Nat → α → Prop)
      (B : OracleBase oops log Good Holds) (sops : StrategyOps τ σ α) (getT : τ → List Nat)
      (getD : τ → Bool) (SI : τ → Prop) (Dead : τ → σ → Prop)
      (SL : StrategyLaw n oops Good sops getT getD SI Dead)
      (k : Nat) (hk : k ≤ n) (param : Param α) (clock : Nat → α) :
      InterlaceReconstruction sops oops n k param clock := by
    obtain ⟨out, es, gs, h1, h2, h3, _, h5⟩ :=
      interlace_greedy_snaps log n oops Good Holds B sops getT getD SI Dead SL k hk param clock
    refine ⟨out, h1, ?_⟩
    intro j hj
    have hlen : out.measurements.length = out.quadruples.length := by rw [h2, h3]
    have hjq : j < out.quadruples.length := by
      rw [← hlen]
      exact hj
    obtain ⟨r, f, r1, _, r3, r4, r5⟩ := @chainSnap_get α _ sqrt log _ out hlen es gs
      (fun f => ⟨(h5 f).1, (h5 f).2.1, (h5 f).2.2.1⟩) j hj
    obtain ⟨s1, s2, s3, _⟩ := h5 f
    have htj : min j (es f).length ≤ j := Nat.min_le_left _ _
    have hte : min j (es f).length ≤ (es f).length := Nat.min_le_right _ _
    have hvt : out.valueAt f (min j (es f).length) = out.valueAt f j := by
      rw [(s1 _ (by omega)).2, (s1 j hjq).2, take_min_length (gs f) j, s2]
    refine ⟨r, f, min j (es f).length, r1, r4, ?_, htj, hvt, ?_, ?_, ?_⟩
    · intro f'
      have hv := r5 f'
      obtain ⟨x, hx, _⟩ := @valueOf_hot α _ sqrt log _ ((gs f').take j)
        (fun g hg => (h5 f').2.2.1 g (List.mem_of_mem_take hg))
      obtain ⟨y, hy, _⟩ := @valueOf_hot α _ sqrt log _ ((gs f).take j)
        (fun g hg => s3 g (List.mem_of_mem_take hg))
      rw [((h5 f').1 j hjq).2, hx] at hv ⊢
      rw [(s1 j hjq).2, hy] at hv ⊢
      refine ⟨x, y, rfl, rfl, ?_⟩
      simp only [vlt, decide_eq_false_iff_not, not_lt] at hv
      exact WithBot.coe_le_coe.mp hv
    · intro i hi heq
      rw [← hvt, (s1 i (by omega)).2, (s1 _ (by omega)).2] at heq
      have hlt := @valueOf_take_lt α _ sqrt log _ (gs f) s3 i (min j (es f).length) hi
        (by rw [s2]; exact hte)
      rw [heq, @vlt_irrefl_hot α _ sqrt log _ _
        (fun g hg => s3 g (List.mem_of_mem_take hg))] at hlt
      cases hlt
    · rw [r3, List.length_take]
    · intro i hi
      rw [(s1 (i + 1) (by omega)).1, if_pos ⟨Nat.succ_pos i, by omega⟩, Nat.add_sub_cancel, r3]
      congr 1
      have hij : i < j := by omega
      have hie : i < (es f).length := by omega
      simp [List.getD_eq_getElem?_getD, List.getElem?_take, hij]
  have BD := direct_base Real.log L
  have BF := fast_base Real.sqrt Real.log V0 L
  exact ⟨@interlaceReconstruction_of _ _ ℝ _ Real.sqrt Real.log _ n _ _ _ BD _ _ _ _ _
      (nonlazy_law n _ BD.law _ ord hord) k hk param clock,
    @interlaceReconstruction_of _ _ ℝ _ Real.sqrt Real.log _ n _ _ _ BD _ _ _ _ _
      (lazy_law n _ BD.law _ ord hord) k hk param clock,
    @interlaceReconstruction_of _ _ ℝ _ Real.sqrt Real.log _ n _ _ _ BF _ _ _ _ _
      (nonlazy_law n _ BF.law _ ord hord) k hk param clock,
    @interlaceReconstruction_of _ _ ℝ _ Real.sqrt Real.log _ n _ _ _ BF _ _ _ _ _
      (lazy_law n _ BF.law _ ord hord) k hk param clock⟩

/-- Witness of C14: interlace greedy with the non-lazy strategy over the direct oracle on
the kernel `diag(4, 3, 2, 0.5, 0.25, 0.125, 0.1, 0.1)` with `k = 4`. -/
theorem interlace_reconstruction_witness :
    InterlaceReconstruction
      (NonLazy.ops (fun l => l.dedup) (Oracle.ops Real.log (linearDiag ℝ)))
      (Oracle.ops Real.log (linearDiag ℝ)) 8 4
      { time_limit := ⊤, log_computed_offdiagonals_V := false } (fun _ => 0) :=
  (interlace_reconstruction 8 (linearDiag ℝ) 4 (by decide) (fun l => l.dedup) setOrder_id
    (fun _ _ => none) { time_limit := ⊤, log_computed_offdiagonals_V := false }
    (fun _ => 0)).1

end DPP

namespace DPP

/-- A draw with `p = 1` succeeds, whatever the engine returns. -/
theorem bernoulli_one {α : Type} [LinearOrderedField α] (raw : Nat) :
    bernoulli (1 : α) raw = true := by
  unfold bernoulli
  rw [if_neg one_ne_zero, one_mul, decide_eq_true_eq, Nat.cast_le]
  have := Nat.mod_lt raw (show 0 < 2 ^ 32 by norm_num)
  omega

/-- A draw with `p = 0` fails, whatever the engine returns. -/
theorem bernoulli_zero {α : Type} [LinearOrderedField α] (raw : Nat) :
    bernoulli (0 : α) raw = false := by
  unfold bernoulli
  rw [if_pos rfl]

end DPP

namespace DPP

theorem linearDiag_offdiag {α : Type} [LinearOrderedField α] (i j : Nat) (h : i ≠ j) :
    linearDiag α i j = 0 := by
  simp [linearDiag, h]

/-- C15: double greedy over a diagonal kernel.  For every diagonal `L` on `n` elements
with a strictly positive diagonal, `Linv` the inverse of `L`, every seed (every sequence
`rng` of outputs of the engine) and no time limit (the default of `Param`), `double_greedy`
with the direct oracle and with the fast oracle returns a finished result whose solution lists the indices `i`
with `L[i,i] ≥ 1` in increasing order and whose value is the sum of `log L[i,i]` over
these indices; a Bernoulli draw with `p = 1` succeeds and with `p = 0` fails, whatever the
engine returns. -/
theorem double_greedy_diagonal (n : Nat) (L Linv : Nat → Nat → ℝ)
    (hdiag : ∀ i j, i < n → j < n → i ≠ j → L i j = 0) (hpos : ∀ i, i < n → 0 < L i i)
    (hinv : IsInverse n L Linv) (V0 V1 : Nat → Nat → Option ℝ)
    (param : Param ℝ) (hlim : param.time_limit = ⊤) (clock : Nat → ℝ) (rng : Nat → Nat) :
    DiagDouble Real.log n L
      (double_greedy Real.log (Oracle.ops Real.log L) (Oracle.ops Real.log Linv) n param
        clock rng) ∧
    DiagDouble Real.log n L
      (double_greedy Real.log (Fast.ops Real.sqrt Real.log V0 L)
        (Fast.ops Real.sqrt Real.log V1 Linv) n param clock rng) ∧
    (∀ raw, bernoulli (1 : ℝ) raw = true) ∧ (∀ raw, bernoulli (0 : ℝ) raw = false) := by
  -- The inverse of a diagonal matrix with a positive diagonal is the diagonal matrix of
  -- the inverses.
  have inverse_diag {α : Type} [LinearOrderedField α] (n : Nat) (L Linv : Nat → Nat → α)
      (hdiag : ∀ i j, i < n → j < n → i ≠ j → L i j = 0) (hpos : ∀ i, i < n → 0 < L i i)
      (hinv : IsInverse n L Linv) :
      ∀ i j, i < n → j < n → Linv i j = if i = j then (L i i)⁻¹ else 0 := by
    intro i j hi hj
    have h := hinv i j hi hj
    rw [Finset.sum_eq_single i] at h
    · have hp := (hpos i hi).ne'
      by_cases hij : i = j
      · rw [if_pos hij] at h ⊢
        exact eq_inv_of_mul_eq_one_right h
      · rw [if_neg hij] at h ⊢
        rcases mul_eq_zero.mp h with h0 | h0
        · exact absurd h0 hp
        · exact h0
    · intro b hb hbi
      rw [hdiag i b hi (Finset.mem_range.mp hb) (fun e => hbi e.symm), zero_mul]
    · intro hni
      exact absurd (Finset.mem_range.mpr hi) hni
  -- The function `double_greedy` over a diagonal kernel with a positive diagonal and its
  -- inverse, without a time limit.
  have diagDouble_of {α : Type} [LinearOrderedField α]
      {sqrt log : α → α} [Numeric sqrt log]
      {σ : Type} (n : Nat) (L Linv : Nat → Nat → α)
      (hdiag : ∀ i j, i < n → j < n → i ≠ j → L i j = 0) (hpos : ∀ i, i < n → 0 < L i i)
      (hinv : IsInverse n L Linv)
      (oops : OracleOps σ α) (Good : σ → Prop) (Fresh : σ → Nat → Prop)
      (M : OracleMath n L oops Good Fresh)
      (oops_inv : OracleOps σ α) (GoodI : σ → Prop) (FreshI : σ → Nat → Prop)
      (MI : OracleMath n Linv oops_inv GoodI FreshI)
      (param : Param α) (hlim : param.time_limit = ⊤) (clock : Nat → α) (rng : Nat → Nat) :
      DiagDouble log n L (double_greedy log oops oops_inv n param clock rng) := by
    -- The loop of `double_greedy` over a diagonal kernel with a positive diagonal and its
    -- inverse, without a time limit: element `i` goes to the selection when its diagonal entry
    -- is at least `1`.
    have double_greedy_loop_diag {α : Type} [LinearOrderedField α]
        {sqrt log : α → α} [Numeric sqrt log]
        {σ : Type} (n : Nat) (L Linv : Nat → Nat → α)
        (hdiag : ∀ i j, i < n → j < n → i ≠ j → L i j = 0) (hpos : ∀ i, i < n → 0 < L i i)
        (hdiagI : ∀ i j, i < n → j < n → i ≠ j → Linv i j = 0)
        (hinv : ∀ i, i < n → Linv i i = (L i i)⁻¹)
        (oops : OracleOps σ α) (Good : σ → Prop) (Fresh : σ → Nat → Prop)
        (M : OracleMath n L oops Good Fresh)
        (oops_inv : OracleOps σ α) (GoodI : σ → Prop) (FreshI : σ → Nat → Prop)
        (MI : OracleMath n Linv oops_inv GoodI FreshI)
        (param : Param α) (hlim : param.time_limit = ⊤) (clock : Nat → α) (rng : Nat → Nat) :
        ∀ (m i : Nat) (o oi : σ), Good o → GoodI oi → i + m = n →
          oops.get_solution o = (List.range i).filter (fun x => decide (1 ≤ L x x)) →
          (∀ x ∈ oops_inv.get_solution oi, x < i) →
          ∃ r, double_greedy_loop log oops oops_inv n param clock rng m i o oi = .ok r ∧
            r.finished = true ∧
            r.solution = (List.range n).filter (fun x => decide (1 ≤ L x x)) ∧
            r.value = logdet log L r.solution := by
      have hexp : ∀ t, expired param (clock t) = false := by
        intro t
        simp [expired, hlim]
      intro m
      induction m with
      | zero =>
        intro i o oi hg _ him hS _
        have : i = n := by omega
        subst this
        exact ⟨_, rfl, rfl, hS, M.good_value o hg⟩
      | succ m ih =>
        intro i o oi hg hgi him hS hSi
        have hi : i < n := by omega
        have hlt : ∀ x ∈ oops.get_solution o, x < i := by
          intro x hx
          rw [hS] at hx
          exact List.mem_range.mp (List.mem_filter.mp hx).1
        have hiS : i ∉ oops.get_solution o := fun h => Nat.lt_irrefl i (hlt i h)
        have hiSi : i ∉ oops_inv.get_solution oi := fun h => Nat.lt_irrefl i (hSi i h)
        obtain ⟨c1, c2, c3⟩ := M.compute_good o i hg hi hiS
        obtain ⟨d1, d2, d3⟩ := MI.compute_good oi i hgi hi hiSi
        have hr : ∀ x ∈ oops.get_solution o, x < n := M.good_range o hg
        have hri : ∀ x ∈ oops_inv.get_solution oi, x < n := MI.good_range oi hgi
        rw [schur_diag n L hdiag _ hr i hi hiS] at c3
        rw [schur_diag n Linv hdiagI _ hri i hi hiSi, hinv i hi] at d3
        have ha := hpos i hi
        have hiS1 : i ∉ oops.get_solution (oops.compute_marginal_gain_exponential o i).2 := by
          rw [M.law.compute_S]; exact hiS
        have hiSi1 :
            i ∉ oops_inv.get_solution (oops_inv.compute_marginal_gain_exponential oi i).2 := by
          rw [MI.law.compute_S]; exact hiSi
        have hp1 : 0 < schur L
            (oops.get_solution (oops.compute_marginal_gain_exponential o i).2) i := by
          rw [M.law.compute_S, schur_diag n L hdiag _ hr i hi hiS]
          exact ha
        have hp2 : 0 < schur Linv
            (oops_inv.get_solution (oops_inv.compute_marginal_gain_exponential oi i).2) i := by
          rw [MI.law.compute_S, schur_diag n Linv hdiagI _ hri i hi hiSi, hinv i hi]
          exact inv_pos.mpr ha
        have hrange : (List.range (i + 1)).filter (fun x => decide (1 ≤ L x x))
            = (List.range i).filter (fun x => decide (1 ≤ L x x))
              ++ (if 1 ≤ L i i then [i] else []) := by
          rw [List.range_succ, List.filter_append]
          congr 1
          by_cases h1 : 1 ≤ L i i
          · simp [h1]
          · simp [h1]
        rw [double_greedy_loop]
        simp only [hexp, Bool.false_eq_true, if_false, c3, d3]
        by_cases h1 : 1 ≤ L i i
        · have hb : bernoulli
              (if (if 1 < L i i then log (L i i) else 0) = 0 ∧
                  (if 1 < (L i i)⁻¹ then log (L i i)⁻¹ else 0) = 0 then (1 : α)
                else (if 1 < L i i then log (L i i) else 0) /
                  ((if 1 < L i i then log (L i i) else 0) +
                    (if 1 < (L i i)⁻¹ then log (L i i)⁻¹ else 0))) (rng i) = true := by
            have hinv1 : ¬ 1 < (L i i)⁻¹ := by
              rw [not_lt]
              exact inv_le_one_of_one_le₀ h1
            rw [if_neg hinv1]
            by_cases h2 : 1 < L i i
            · have hl := numeric_log_pos sqrt log _ h2
              rw [if_pos h2, if_neg (fun h => hl.ne' h.1), add_zero, div_self hl.ne']
              exact bernoulli_one _
            · rw [if_neg h2, if_pos ⟨rfl, rfl⟩]
              exact bernoulli_one _
          rw [hb]
          simp only [if_true]
          refine ih (i + 1) _ _ (M.add_good _ i c1 hi hiS1 c2 hp1) d1 (by omega) ?_ ?_
          · rw [M.law.add_S, M.law.compute_S, hS, hrange, if_pos h1]
          · intro x hx
            rw [MI.law.compute_S] at hx
            exact Nat.lt_succ_of_lt (hSi x hx)
        · have hb : bernoulli
              (if (if 1 < L i i then log (L i i) else 0) = 0 ∧
                  (if 1 < (L i i)⁻¹ then log (L i i)⁻¹ else 0) = 0 then (1 : α)
                else (if 1 < L i i then log (L i i) else 0) /
                  ((if 1 < L i i then log (L i i) else 0) +
                    (if 1 < (L i i)⁻¹ then log (L i i)⁻¹ else 0))) (rng i) = false := by
            have h2 : ¬ 1 < L i i := fun h => h1 h.le
            have hinv1 : 1 < (L i i)⁻¹ := by
              rw [not_le] at h1
              exact (one_lt_inv₀ ha).mpr h1
            have hl := numeric_log_pos sqrt log _ hinv1
            rw [if_neg h2, if_pos hinv1, if_neg (fun h => hl.ne' h.2), zero_div]
            exact bernoulli_zero _
          rw [hb]
          simp only [Bool.false_eq_true, if_false]
          refine ih (i + 1) _ _ c1 (MI.add_good _ i d1 hi hiSi1 d2 hp2) (by omega) ?_ ?_
          · rw [M.law.compute_S, hS, hrange, if_neg h1, List.append_nil]
          · intro x hx
            rw [MI.law.add_S, MI.law.compute_S] at hx
            rcases List.mem_append.mp hx with h | h
            · exact Nat.lt_succ_of_lt (hSi x h)
            · rw [List.mem_singleton.mp h]; exact Nat.lt_succ_self i
    have hI := inverse_diag n L Linv hdiag hpos hinv
    obtain ⟨c1, c2⟩ := M.construct_good n false
    obtain ⟨d1, d2⟩ := MI.construct_good n false
    obtain ⟨r, r1, r2, r3, r4⟩ := double_greedy_loop_diag n L Linv hdiag hpos
      (fun i j hi hj hij => by rw [hI i j hi hj, if_neg hij])
      (fun i hi => by rw [hI i i hi hi, if_pos rfl])
      oops Good Fresh M oops_inv GoodI FreshI MI param hlim clock rng n 0 _ _ c1 d1
      (by omega) (by rw [c2]; rfl) (by rw [d2]; intro x hx; cases hx)
    refine ⟨r, r1, r2, r3, ?_⟩
    rw [r4]
    refine logdet_diag n L hdiag hpos _ ?_ ?_
    · rw [r3]
      exact (List.nodup_range n).filter _
    · intro x hx
      rw [r3] at hx
      exact List.mem_range.mp (List.mem_filter.mp hx).1
  have hI := inverse_diag n L Linv hdiag hpos hinv
  have hL := posDefOn_diag n L hdiag hpos
  have hLI : PosDefOn n Linv := posDefOn_diag n Linv
    (fun i j hi hj hij => by rw [hI i j hi hj, if_neg hij])
    (fun i hi => by rw [hI i i hi hi, if_pos rfl]; exact inv_pos.mpr (hpos i hi))
  exact ⟨diagDouble_of n L Linv hdiag hpos hinv _ _ _ (direct_math n L hL) _ _ _
      (direct_math n Linv hLI) param hlim clock rng,
    diagDouble_of n L Linv hdiag hpos hinv _ _ _ (fast_math n L hL V0) _ _ _
      (fast_math n Linv hLI V1) param hlim clock rng,
    bernoulli_one, bernoulli_zero⟩

/-- Witness of C15: on `diag(4, 3, 2, 0.5, 0.25, 0.125, 0.1, 0.1)` and its inverse,
double greedy with the direct oracle returns the solution `[0, 1, 2]` with the value
`log 24`. -/
theorem double_greedy_diagonal_witness :
    ∃ res, double_greedy Real.log (Oracle.ops Real.log (linearDiag ℝ))
        (Oracle.ops Real.log (diagInv (linearDiag ℝ))) 8
        { time_limit := ⊤, log_computed_offdiagonals_V := false } (fun _ => 0) (fun _ => 0)
          = .ok res ∧
      res.finished = true ∧ res.solution = [0, 1, 2] ∧
      res.value = some ((Real.log 24 : ℝ) : WithBot ℝ) := by
  -- The indices of `diag(4, 3, 2, 0.5, 0.25, 0.125, 0.1, 0.1)` whose entry is at least
  -- `1`.
  have linearDiag_filter :
      (List.range 8).filter (fun i => decide (1 ≤ linearDiag ℝ i i)) = [0, 1, 2] := by
    simp only [List.range, List.range.loop, List.filter, linearDiag, if_true]
    norm_num
  have linearDiag_pos {α : Type} [LinearOrderedField α] (i : Nat) (h : i < 8) :
      0 < linearDiag α i i := by
    interval_cases i <;> simp [linearDiag]
  -- The diagonal matrix of the inverses is the inverse of a diagonal matrix with a
  -- positive diagonal.
  have isInverse_diagInv {α : Type} [LinearOrderedField α] (n : Nat) (L : Nat → Nat → α)
      (hdiag : ∀ i j, i < n → j < n → i ≠ j → L i j = 0) (hpos : ∀ i, i < n → 0 < L i i) :
      IsInverse n L (diagInv L) := by
    intro i j hi hj
    rw [Finset.sum_eq_single i]
    · by_cases hij : i = j
      · subst hij
        simp only [diagInv, if_true]
        exact mul_inv_cancel₀ (hpos i hi).ne'
      · simp [diagInv, hij]
    · intro b hb hbi
      rw [hdiag i b hi (Finset.mem_range.mp hb) (fun e => hbi e.symm), zero_mul]
    · intro hni
      exact absurd (Finset.mem_range.mpr hi) hni
  obtain ⟨res, h1, h2, h3, h4⟩ := (double_greedy_diagonal 8 (linearDiag ℝ)
    (diagInv (linearDiag ℝ)) (fun i j _ _ h => linearDiag_offdiag i j h)
    (fun i h => linearDiag_pos i h)
    (isInverse_diagInv 8 (linearDiag ℝ) (fun i j _ _ h => linearDiag_offdiag i j h)
      (fun i h => linearDiag_pos i h))
    (fun _ _ => none) (fun _ _ => none)
    { time_limit := ⊤, log_computed_offdiagonals_V := false } rfl (fun _ => 0)
    (fun _ => 0)).1
  rw [linearDiag_filter] at h3
  refine ⟨res, h1, h2, h3, ?_⟩
  rw [h4, h3]
  have e : Real.log 24 = Real.log 4 + (Real.log 3 + (Real.log 2 + 0)) := by
    rw [add_zero, ← Real.log_mul (by norm_num) (by norm_num),
      ← Real.log_mul (by norm_num) (by norm_num)]
    norm_num
  rw [e]
  simp [linearDiag]

end DPP

namespace DPP

theorem rankIn_gpair {α : Type} [LinearOrderedField α] (g : Nat → α) (T : List Nat) (e : Nat) :
    rankIn g T e = (T.filter fun x => (gpair g e).less (gpair g x)).length := rfl

theorem rankIn_perm {α : Type} [LinearOrderedField α] (g : Nat → α) (T T1 : List Nat) (e : Nat)
    (h : T.Perm T1) : rankIn g T e = rankIn g T1 e :=
  (h.filter _).length_eq

theorem rankIn_congr {α : Type} [LinearOrderedField α] (g g1 : Nat → α) (T : List Nat)
    (e : Nat) (h : ∀ x, g x = g1 x) : rankIn g T e = rankIn g1 T e := by
  have : g = g1 := funext h
  rw [this]

theorem rankIn_append {α : Type} [LinearOrderedField α] (g : Nat → α) (A B : List Nat)
    (e : Nat) : rankIn g (A ++ B) e = rankIn g A e + rankIn g B e := by
  simp only [rankIn, List.filter_append, List.length_append]

theorem rankIn_none {α : Type} [LinearOrderedField α] (g : Nat → α) (B : List Nat) (e : Nat)
    (h : ∀ y ∈ B, (gpair g e).less (gpair g y) = false) : rankIn g B e = 0 := by
  rw [rankIn_gpair, List.length_eq_zero, List.filter_eq_nil_iff]
  intro y hy
  rw [h y hy]
  exact Bool.false_ne_true

theorem rankIn_all {α : Type} [LinearOrderedField α] (g : Nat → α) (A : List Nat) (e : Nat)
    (h : ∀ x ∈ A, (gpair g e).less (gpair g x) = true) : rankIn g A e = A.length := by
  rw [rankIn_gpair, List.filter_eq_self.mpr h]

theorem rankIn_lt_length {α : Type} [LinearOrderedField α] (g : Nat → α) (T : List Nat)
    (e : Nat) (he : e ∈ T) : rankIn g T e < T.length := by
  rw [rankIn_gpair]
  apply List.length_filter_lt_length_iff_exists.mpr
  exact ⟨e, he, by rw [less_irrefl]; exact Bool.false_ne_true⟩

end DPP

namespace DPP

theorem gpair_injective {α : Type} (g : Nat → α) : Function.Injective (gpair g) := by
  intro a b h
  exact congrArg ElementValuePair.element h

theorem inSync_mem {α : Type} (g : Nat → α) (s : Lazy.Instance α) (h : Lazy.InSync g s)
    (p : ElementValuePair α) : p ∈ s.Q ↔ ∃ e ∈ s.T, gpair g e = p := by
  rw [h.mem_iff, List.mem_map]

/-- The method `Lazy::pop_largest()` over an oracle to which nothing is added, on a heap
that holds the gains: it returns the greatest element of the ground set in the order on
(gain, -index), or nothing when the strategy has dummy elements and no gain exceeds
`1`. -/
theorem lazy_pop_largest_exact {σ α : Type} [LinearOrderedField α] (oops : OracleOps σ α)
    (g : Nat → α) (Fix : σ → Prop) (F : FlatOracle oops g Fix) (s : Lazy.Instance α) (o : σ)
    (hf : Fix o) (hnd : s.T.Nodup) (hs : Lazy.InSync g s)
    (ha : s.add_dummy = true ∨ s.T ≠ []) :
    ∃ r s1 o1, Lazy.pop_largest oops s o = .ok (r, s1, o1) ∧ Fix o1 ∧
      s1.add_dummy = s.add_dummy ∧ s1.T.Nodup ∧ Lazy.InSync g s1 ∧
      (r = none → s1 = s ∧ s.add_dummy = true ∧ ∀ y ∈ s.T, g y ≤ 1) ∧
      (∀ e, r = some e → s.T.Perm (e :: s1.T) ∧
        (∀ y ∈ s1.T, (gpair g y).less (gpair g e) = true) ∧
        (s.add_dummy = true → 1 < g e)) := by
  unfold Lazy.pop_largest
  rw [Lazy.pop_largest_loop]
  cases hq : heapTop s.Q with
  | none =>
    have hQ : s.Q = [] := (heapTop_none s.Q).mp hq
    have hT : s.T = [] := by
      have h := hs
      unfold Lazy.InSync at h
      rw [hQ] at h
      exact List.map_eq_nil_iff.mp (List.nil_perm.mp h)
    have hd : s.add_dummy = true := by
      rcases ha with h | h
      · exact h
      · exact absurd hT h
    simp only []
    rw [if_pos hd]
    refine ⟨none, s, o, rfl, hf, rfl, hnd, hs, ?_, ?_⟩
    · intro _
      refine ⟨rfl, hd, ?_⟩
      intro y hy
      rw [hT] at hy
      cases hy
    · intro e he
      cases he
  | some top =>
    obtain ⟨t1, t2⟩ := heapTop_spec s.Q top hq
    obtain ⟨e, he, rfl⟩ := (inSync_mem g s hs top).mp t1
    have hle : ∀ y ∈ s.T, g y ≤ g e := by
      intro y hy
      have hy1 : gpair g y ∈ s.Q := (inSync_mem g s hs _).mpr ⟨y, hy, rfl⟩
      exact less_value_le (t2 _ hy1)
    simp only []
    by_cases hd1 : (s.add_dummy && decide ((gpair g e).value ≤ 1)) = true
    · rw [if_pos hd1]
      rw [Bool.and_eq_true, decide_eq_true_eq] at hd1
      refine ⟨none, s, o, rfl, hf, rfl, hnd, hs, ?_, ?_⟩
      · intro _
        exact ⟨rfl, hd1.1, fun y hy => le_trans (hle y hy) hd1.2⟩
      · intro e he
        cases he
    · rw [if_neg hd1]
      have heT : ¬ (gpair g e).element ∉ s.T := not_not.mpr he
      rw [if_neg heT]
      obtain ⟨c1, c2⟩ := F.compute o e hf
      have hc1 : (oops.compute_marginal_gain_exponential o (gpair g e).element).1 = g e := c1
      have hcom : Lazy.commit (s.Q.erase (gpair g e))
          (oops.compute_marginal_gain_exponential o (gpair g e).element).1 = true := by
        rw [hc1]
        unfold Lazy.commit
        cases ht : heapTop (s.Q.erase (gpair g e)) with
        | none => rfl
        | some t =>
          have htQ : t ∈ s.Q := List.mem_of_mem_erase (heapTop_spec _ t ht).1
          simp only [decide_eq_true_eq]
          exact less_value_le (t2 t htQ)
      rw [if_pos hcom]
      have hd2 : ¬ (s.add_dummy &&
          decide ((oops.compute_marginal_gain_exponential o (gpair g e).element).1 ≤ 1))
            = true := by
        rw [hc1]
        exact hd1
      rw [if_neg hd2]
      refine ⟨some e, _, _, rfl, c2, rfl, hnd.erase e, ?_, ?_, ?_⟩
      · show (s.Q.erase (gpair g e)).Perm ((s.T.erase e).map (gpair g))
        rw [List.map_erase (gpair_injective g)]
        exact List.Perm.erase _ hs
      · intro h
        cases h
      · intro e1 h1
        simp only [Option.some.injEq] at h1
        subst h1
        refine ⟨List.perm_cons_erase he, ?_, ?_⟩
        · intro y hy
          have hyT : y ∈ s.T := List.mem_of_mem_erase hy
          have hne : y ≠ e := fun h => by
            rw [h] at hy
            exact (List.Nodup.not_mem_erase hnd) hy
          have hy1 : gpair g y ∈ s.Q := (inSync_mem g s hs _).mpr ⟨y, hyT, rfl⟩
          have h2 := t2 _ hy1
          rcases @less_total α _ (gpair g y) (gpair g e) hne with h | h
          · exact h
          · rw [h2] at h
            cases h
        · intro hd
          rw [Bool.and_eq_true, decide_eq_true_eq] at hd1
          exact lt_of_not_le (fun h => hd1 ⟨hd, h⟩)

/-- The last loop of `Lazy::pop_kth_largest` over an oracle to which nothing is added:
the recovered elements go back with their gains. -/
theorem lazy_push_recover_exact {σ α : Type} (oops : OracleOps σ α)
    (g : Nat → α) (Fix : σ → Prop) (F : FlatOracle oops g Fix) :
    ∀ (es : List Nat) (q : List (ElementValuePair α)) (o : σ), Fix o →
      (Lazy.push_recover oops es q o).1 = (es.map (gpair g)).reverse ++ q ∧
      Fix (Lazy.push_recover oops es q o).2 := by
  intro es
  induction es with
  | nil => intro q o hf; exact ⟨rfl, hf⟩
  | cons e es ih =>
    intro q o hf
    obtain ⟨c1, c2⟩ := F.get_last o e hf
    obtain ⟨i1, i2⟩ := ih ({ element := e, value :=
      (oops.get_last_marginal_gain_exponential o e).1 } :: q) _ c2
    refine ⟨?_, i2⟩
    show (Lazy.push_recover oops es _ _).1 = _
    rw [i1, c1, List.map_cons, List.reverse_cons, List.append_assoc]
    rfl

/-- The first loop of `Lazy::pop_kth_largest` over an oracle to which nothing is added:
it removes the greatest elements one after the other, and stops before `j` of them only
when the strategy has dummy elements and no gain left exceeds `1`. -/
theorem lazy_pop_recover_exact {σ α : Type} [LinearOrderedField α] (oops : OracleOps σ α)
    (g : Nat → α) (Fix : σ → Prop) (F : FlatOracle oops g Fix) :
    ∀ (j : Nat) (s : Lazy.Instance α) (o : σ) (rec : List Nat), Fix o → s.T.Nodup →
      Lazy.InSync g s → (s.add_dummy = true ∨ j ≤ s.T.length) →
      ∃ rec1 s1 o1, Lazy.pop_recover oops j s o rec = .ok (rec ++ rec1, s1, o1) ∧ Fix o1 ∧
        s1.add_dummy = s.add_dummy ∧ s1.T.Nodup ∧ Lazy.InSync g s1 ∧
        s.T.Perm (rec1 ++ s1.T) ∧ rec1.length ≤ j ∧
        (∀ x ∈ rec1, ∀ y ∈ s1.T, (gpair g y).less (gpair g x) = true) ∧
        (rec1.length < j → s1.add_dummy = true ∧ ∀ y ∈ s1.T, g y ≤ 1) := by
  intro j
  induction j with
  | zero =>
    intro s o rec hf hnd hs _
    refine ⟨[], s, o, ?_, hf, rfl, hnd, hs, List.Perm.refl _, Nat.le_refl _, ?_, ?_⟩
    · rw [List.append_nil]; rfl
    · intro x hx; cases hx
    · intro h; exact absurd h (Nat.lt_irrefl _)
  | succ j ih =>
    intro s o rec hf hnd hs ha
    have ha1 : s.add_dummy = true ∨ s.T ≠ [] := by
      rcases ha with h | h
      · exact Or.inl h
      · right
        intro h0
        rw [h0] at h
        simp at h
    obtain ⟨r, s1, o1, p1, p2, p3, p4, p5, p6, p7⟩ :=
      lazy_pop_largest_exact oops g Fix F s o hf hnd hs ha1
    rw [Lazy.pop_recover, p1]
    cases r with
    | none =>
      obtain ⟨q1, q2, q3⟩ := p6 rfl
      subst q1
      refine ⟨[], s1, o1, ?_, p2, rfl, hnd, hs, List.Perm.refl _, Nat.zero_le _, ?_, ?_⟩
      · rw [List.append_nil]
      · intro x hx; cases hx
      · intro _; exact ⟨q2, q3⟩
    | some e =>
      obtain ⟨q1, q2, _⟩ := p7 e rfl
      have hlen : s.T.length = s1.T.length + 1 := by
        rw [q1.length_eq, List.length_cons]
      obtain ⟨rec1, s2, o2, i1, i2, i3, i4, i5, i6, i7, i8, i9⟩ :=
        ih s1 o1 (rec ++ [e]) p2 p4 p5 (by
          rcases ha with h | h
          · left; rw [p3]; exact h
          · right; omega)
      refine ⟨e :: rec1, s2, o2, ?_, i2, by rw [i3, p3], i4, i5, ?_, ?_, ?_, ?_⟩
      · simp only []
        rw [i1, List.append_assoc]
        rfl
      · exact q1.trans (List.Perm.cons e i6)
      · rw [List.length_cons]
        omega
      · intro x hx y hy
        rcases List.mem_cons.mp hx with h | h
        · subst h
          exact q2 y (i6.mem_iff.mpr (List.mem_append_right _ hy))
        · exact i8 x h y hy
      · intro h
        rw [List.length_cons] at h
        exact i9 (by omega)

end DPP

namespace DPP

/-- The method `NonLazy::pop_kth_largest(i)` over an oracle to which nothing is added: it
returns the element of rank `i` in the order on (gain, -index), or nothing when the
strategy has dummy elements and there is no element of rank `i` with a gain above `1`. -/
theorem nonlazy_pop_kth_exact {σ α : Type} [LinearOrderedField α] (oops : OracleOps σ α)
    (law : OracleLaw oops) (g : Nat → α) (s : NonLazy.Instance) (o : σ) (i : Nat)
    (hnd : s.T.Nodup) (hS : oops.get_solution o = []) (hg : ∀ x, gainAt oops o x = g x)
    (ha : s.add_dummy = true ∨ i < s.T.length) :
    ∃ r s1 o1, NonLazy.pop_kth_largest oops s o i = .ok (r, s1, o1) ∧
      oops.get_solution o1 = [] ∧ (∀ x, gainAt oops o1 x = g x) ∧
      s1.add_dummy = s.add_dummy ∧
      (r = none → s1 = s ∧ s.add_dummy = true ∧
        (s.T.length ≤ i ∨ ∃ e ∈ s.T, rankIn g s.T e = i ∧ g e ≤ 1)) ∧
      (∀ e, r = some e → e ∈ s.T ∧ s1.T = s.T.erase e ∧ rankIn g s.T e = i ∧
        (s.add_dummy = true → 1 < g e)) := by
  by_cases hi : i < s.T.length
  · obtain ⟨e, o1, he, hrank, hge, heq⟩ := nonlazy_pop_kth_spec oops law s o i hnd
      (fun x _ => by rw [hS]; exact List.not_mem_nil x) hi
    rw [rankIn_congr _ g s.T e hg] at hrank
    rw [hg e] at heq
    have hS1 : oops.get_solution o1 = [] := by rw [hge.1, hS]
    have hg1 : ∀ x, gainAt oops o1 x = g x := fun x => by rw [hge.2.2 x, hg x]
    by_cases hc : (s.add_dummy && decide (g e ≤ 1)) = true
    · rw [if_pos hc] at heq
      rw [Bool.and_eq_true, decide_eq_true_eq] at hc
      refine ⟨none, s, o1, heq, hS1, hg1, rfl, ?_, ?_⟩
      · intro _
        exact ⟨rfl, hc.1, Or.inr ⟨e, he, hrank, hc.2⟩⟩
      · intro e1 h1
        cases h1
    · rw [if_neg hc] at heq
      rw [Bool.and_eq_true, decide_eq_true_eq] at hc
      refine ⟨some e, _, o1, heq, hS1, hg1, rfl, ?_, ?_⟩
      · intro h
        cases h
      · intro e1 h1
        simp only [Option.some.injEq] at h1
        subst h1
        exact ⟨he, rfl, hrank, fun hd => lt_of_not_le (fun h => hc ⟨hd, h⟩)⟩
  · have hd : s.add_dummy = true := by
      rcases ha with h | h
      · exact h
      · exact absurd h hi
    have hk : NonLazy.pop_kth_largest oops s o i = .ok (none, s, o) := by
      unfold NonLazy.pop_kth_largest
      simp [hd, Nat.le_of_not_lt hi]
    exact ⟨none, s, o, hk, hS, hg, rfl, fun _ => ⟨rfl, hd, Or.inl (Nat.le_of_not_lt hi)⟩,
      fun e h => by cases h⟩

/-- The `transform` of the constructor of the lazy strategy over an oracle to which
nothing is added: one entry per element, with its gain. -/
theorem lazy_entries_exact {σ α : Type} (oops : OracleOps σ α)
    (g : Nat → α) (Fix : σ → Prop) (F : FlatOracle oops g Fix) :
    ∀ (es : List Nat) (o : σ), Fix o →
      (Lazy.entries oops es o).1 = es.map (gpair g) ∧ Fix (Lazy.entries oops es o).2 := by
  intro es
  induction es with
  | nil => intro o hf; exact ⟨rfl, hf⟩
  | cons e es ih =>
    intro o hf
    obtain ⟨c1, c2⟩ := F.get_last o e hf
    obtain ⟨i1, i2⟩ := ih _ c2
    refine ⟨?_, i2⟩
    show _ :: (Lazy.entries oops es _).1 = _
    rw [i1, c1]
    rfl

end DPP

namespace DPP

/-- The direct oracle over a kernel with a non-negative diagonal, while nothing is added:
every gain is the diagonal entry. -/
theorem direct_flat {α : Type} [LinearOrderedField α] (log : α → α) (L : Nat → Nat → α)
    (hdiag : ∀ e, 0 ≤ L e e) :
    FlatOracle (Oracle.ops log L) (fun e => L e e) (Oracle.Flat L) := by
  refine ⟨direct_law log L, fun o h => h.1, ?_, ?_⟩
  · intro o e h
    obtain ⟨u, d, S, value, calls⟩ := o
    obtain ⟨hS, hc⟩ := h
    simp only [] at hS hc
    subst hS
    show (Oracle.compute_marginal_gain_exponential L _ e).1 = L e e ∧
      Oracle.Flat L (Oracle.compute_marginal_gain_exponential L _ e).2
    rcases hc e with h1 | ⟨h1, h2⟩
    · have hlt : u e < ((([] : List Nat).length : Nat) : Int) := by
        rw [h1]
        decide
      have hv : max 0 (L e e - Matrix.dotProduct (subVector L [] e)
          (ldltSolve (subMatrix L [] []) (subVector L [] e))) = L e e := by
        have h0 : Matrix.dotProduct (subVector L [] e)
            (ldltSolve (subMatrix L [] []) (subVector L [] e)) = 0 := by
          simp [Matrix.dotProduct]
        rw [h0, sub_zero]
        exact max_eq_right (hdiag e)
      simp only [Oracle.compute_marginal_gain_exponential, hlt, if_true, hv]
      refine ⟨trivial, rfl, ?_⟩
      intro x
      by_cases hx : x = e
      · right
        subst hx
        simp
      · simp only [Function.update_noteq hx]
        exact hc x
    · have hlt : ¬ u e < ((([] : List Nat).length : Nat) : Int) := by
        rw [h1]
        decide
      simp only [Oracle.compute_marginal_gain_exponential, hlt, if_false, h2]
      exact ⟨rfl, rfl, hc⟩
  · intro o e h
    obtain ⟨hS, hc⟩ := h
    show (Oracle.get_last_marginal_gain_exponential L o e).1 = L e e ∧
      Oracle.Flat L (Oracle.get_last_marginal_gain_exponential L o e).2
    rcases hc e with h1 | ⟨h1, h2⟩
    · simp only [Oracle.get_last_marginal_gain_exponential, h1, if_true]
      refine ⟨trivial, hS, ?_⟩
      intro x
      by_cases hx : x = e
      · right
        subst hx
        simp
      · simp only [Function.update_noteq hx]
        exact hc x
    · have hne : ¬ o.u e = -1 := by
        rw [h1]
        decide
      simp only [Oracle.get_last_marginal_gain_exponential, hne, if_false, h2]
      exact ⟨rfl, hS, hc⟩

/-- The fast oracle while nothing is added: every gain is the diagonal entry. -/
theorem fast_flat {α : Type} [LinearOrderedField α] (sqrt log : α → α)
    (V0 : Nat → Nat → Option α) (L : Nat → Nat → α) :
    FlatOracle (Fast.ops sqrt log V0 L) (fun e => L e e) (Fast.Flat L) := by
  have hget : ∀ (o : Fast.Instance α) (e : Nat), Fast.Flat L o →
      (Fast.get_last_marginal_gain_exponential L o e).1 = L e e ∧
      Fast.Flat L (Fast.get_last_marginal_gain_exponential L o e).2 := by
    intro o e h
    obtain ⟨hS, hc⟩ := h
    rcases hc e with h1 | h1
    · simp only [Fast.get_last_marginal_gain_exponential, h1]
      refine ⟨trivial, hS, ?_⟩
      intro x
      by_cases hx : x = e
      · right
        subst hx
        simp
      · simp only [Function.update_noteq hx]
        exact hc x
    · simp only [Fast.get_last_marginal_gain_exponential, h1]
      exact ⟨trivial, hS, hc⟩
  refine ⟨fast_law sqrt log V0 L, fun o h => h.1, ?_, hget⟩
  intro o e h
  obtain ⟨g1, g2⟩ := hget o e h
  show (Fast.compute_marginal_gain_exponential sqrt L o e).1 = L e e ∧
    Fast.Flat L (Fast.compute_marginal_gain_exponential sqrt L o e).2
  have hz : (Fast.get_last_marginal_gain_exponential L o e).2.S.length
      - (Fast.get_last_marginal_gain_exponential L o e).2.u e = 0 := by
    rw [g2.1, List.length_nil, Nat.zero_sub]
  simp only [Fast.compute_marginal_gain_exponential, hz, Fast.loop]
  exact ⟨g1, g2⟩

/-- C13: on an oracle to which nothing is added, the lazy and the non-lazy strategy answer
every sequence of queries identically.  For every `L` with a non-negative diagonal, every
ground set `range`, either value `b` of `add_dummy` and every sequence `is` of indices
(each below the size of the ground set at its call when `add_dummy = false`), the calls
`pop_kth_largest(i)` for the indices of `is`, one after the other, return on a lazy
strategy what they return on a non-lazy strategy, over the direct oracle and over the
fast oracle. -/
theorem lazy_nonlazy_agree (L : Nat → Nat → ℝ) (hdiag : ∀ e, 0 ≤ L e e) (range : List Nat)
    (b : Bool) (ord ord1 : List Nat → List Nat) (hord : SetOrder ord)
    (hord1 : SetOrder ord1) (V0 : Nat → Nat → Option ℝ) (logV : Bool) (is : List Nat)
    (his : b = true ∨ IndicesBelow is (ord range).length) :
    SameAnswers (NonLazy.ops ord (Oracle.ops Real.log L))
      (Lazy.ops ord1 (Oracle.ops Real.log L)) range b (Oracle.construct ℝ) is ∧
    SameAnswers (NonLazy.ops ord (Fast.ops Real.sqrt Real.log V0 L))
      (Lazy.ops ord1 (Fast.ops Real.sqrt Real.log V0 L)) range b (Fast.construct V0 logV)
      is := by
  -- The two strategies built from the same range over an oracle to which nothing is
  -- added return the same to every sequence of calls of `pop_kth_largest`.
  have sameAnswers_of {σ α : Type} [LinearOrderedField α] (oops : OracleOps σ α)
      (g : Nat → α) (Fix : σ → Prop) (F : FlatOracle oops g Fix)
      (ord ord1 : List Nat → List Nat) (hord : SetOrder ord) (hord1 : SetOrder ord1)
      (range : List Nat) (b : Bool) (o : σ) (hf : Fix o) (is : List Nat)
      (ha : b = true ∨ IndicesBelow is (ord range).length) :
      SameAnswers (NonLazy.ops ord oops) (Lazy.ops ord1 oops) range b o is := by
    -- A sequence of calls of `pop_kth_largest` on a non-lazy and on a lazy strategy that
    -- hold the same ground set, over oracles to which nothing is added: both return, and
    -- return the same.
    have popSeq_agree {σ α : Type} [LinearOrderedField α] (oops : OracleOps σ α)
        (g : Nat → α) (Fix : σ → Prop) (F : FlatOracle oops g Fix)
        (ord ord1 : List Nat → List Nat) :
        ∀ (is : List Nat) (sN : NonLazy.Instance) (oN : σ) (sL : Lazy.Instance α) (oL : σ),
          Agreeing oops g Fix sN oN sL oL →
          (sN.add_dummy = true ∨ IndicesBelow is sN.T.length) →
          ∃ rs sN1 oN1 sL1 oL1,
            popSeq (NonLazy.ops ord oops) is sN oN = .ok (rs, sN1, oN1) ∧
            popSeq (Lazy.ops ord1 oops) is sL oL = .ok (rs, sL1, oL1) := by
      -- One call of `pop_kth_largest(i)` on a non-lazy and on a lazy strategy that hold the
      -- same ground set, over oracles to which nothing is added: both return the same, and hold
      -- the same ground set afterwards.
      have pop_kth_agree {σ α : Type} [LinearOrderedField α] (oops : OracleOps σ α)
          (g : Nat → α) (Fix : σ → Prop) (F : FlatOracle oops g Fix) (sN : NonLazy.Instance)
          (oN : σ) (sL : Lazy.Instance α) (oL : σ) (i : Nat)
          (h : Agreeing oops g Fix sN oN sL oL) (ha : sN.add_dummy = true ∨ i < sN.T.length) :
          ∃ r sN1 oN1 sL1 oL1, NonLazy.pop_kth_largest oops sN oN i = .ok (r, sN1, oN1) ∧
            Lazy.pop_kth_largest oops sL oL i = .ok (r, sL1, oL1) ∧
            Agreeing oops g Fix sN1 oN1 sL1 oL1 ∧ sN1.add_dummy = sN.add_dummy ∧
            (sN.add_dummy = false → sN1.T.length + 1 = sN.T.length) := by
        -- The method `Lazy::pop_kth_largest(i)` over an oracle to which nothing is added, on a
        -- heap that holds the gains: it returns the element of rank `i` in the order on
        -- (gain, -index), or nothing when the strategy has dummy elements and there is no element
        -- of rank `i` with a gain above `1`.
        have lazy_pop_kth_exact {σ α : Type} [LinearOrderedField α] (oops : OracleOps σ α)
            (g : Nat → α) (Fix : σ → Prop) (F : FlatOracle oops g Fix) (s : Lazy.Instance α) (o : σ)
            (i : Nat) (hf : Fix o) (hnd : s.T.Nodup) (hs : Lazy.InSync g s)
            (ha : s.add_dummy = true ∨ i < s.T.length) :
            ∃ r s1 o1, Lazy.pop_kth_largest oops s o i = .ok (r, s1, o1) ∧ Fix o1 ∧
              s1.add_dummy = s.add_dummy ∧ s1.T.Nodup ∧ Lazy.InSync g s1 ∧
              (r = none → s.add_dummy = true ∧ s.T.Perm s1.T ∧
                (s.T.length ≤ i ∨ ∀ e ∈ s.T, rankIn g s.T e = i → g e ≤ 1)) ∧
              (∀ e, r = some e → s.T.Perm (e :: s1.T) ∧ rankIn g s.T e = i ∧
                (s.add_dummy = true → 1 < g e)) := by
          have hassert : (!(s.add_dummy || decide (i < s.T.length))) = false := by
            rcases ha with h | h
            · simp [h]
            · simp [h]
          obtain ⟨rec1, s1, o1, r1, r2, r3, r4, r5, r6, r7, r8, r9⟩ :=
            lazy_pop_recover_exact oops g Fix F i s o [] hf hnd hs (by
              rcases ha with h | h
              · exact Or.inl h
              · exact Or.inr (Nat.le_of_lt h))
          rw [List.nil_append] at r1
          have hlen : s.T.length = rec1.length + s1.T.length := by
            rw [r6.length_eq, List.length_append]
          have ha1 : s1.add_dummy = true ∨ s1.T ≠ [] := by
            rcases ha with h | h
            · left; rw [r3]; exact h
            · by_cases hd : s1.add_dummy = true
              · exact Or.inl hd
              · right
                intro h0
                have hri : rec1.length = i := by
                  by_contra hne
                  exact hd (r9 (by omega)).1
                rw [h0, List.length_nil] at hlen
                omega
          obtain ⟨r, s2, o2, p1, p2, p3, p4, p5, p6, p7⟩ :=
            lazy_pop_largest_exact oops g Fix F s1 o1 r2 r4 r5 ha1
          obtain ⟨u1, u2⟩ := lazy_push_recover_exact oops g Fix F rec1 s2.Q o2 p2
          have hk : Lazy.pop_kth_largest oops s o i
              = .ok (r, { s2 with T := s2.T ++ rec1, Q := (Lazy.push_recover oops rec1 s2.Q o2).1 },
                  (Lazy.push_recover oops rec1 s2.Q o2).2) := by
            unfold Lazy.pop_kth_largest
            rw [hassert]
            simp only [Bool.false_eq_true, if_false, r1, p1]
          have hsync : Lazy.InSync g
              { s2 with T := s2.T ++ rec1, Q := (Lazy.push_recover oops rec1 s2.Q o2).1 } := by
            show ((Lazy.push_recover oops rec1 s2.Q o2).1).Perm ((s2.T ++ rec1).map (gpair g))
            rw [u1, List.map_append]
            exact ((List.reverse_perm _).append p5).trans List.perm_append_comm
          have hzero : ∀ x ∈ rec1, rankIn g s1.T x = 0 := by
            intro x hx
            exact rankIn_none g s1.T x (fun y hy => less_asymm (r8 x hx y hy))
          cases r with
          | none =>
            obtain ⟨q1, q2, q3⟩ := p6 rfl
            subst q1
            have hperm : s.T.Perm (s2.T ++ rec1) := r6.trans List.perm_append_comm
            refine ⟨none, _, _, hk, u2, by rw [← r3], hperm.nodup_iff.mp hnd, hsync, ?_, ?_⟩
            · intro _
              refine ⟨by rw [← r3]; exact q2, hperm, ?_⟩
              right
              intro e he hrank
              rcases List.mem_append.mp (r6.mem_iff.mp he) with h | h
              · exfalso
                rw [rankIn_perm g _ _ e r6, rankIn_append, hzero e h, Nat.add_zero] at hrank
                have := rankIn_lt_length g rec1 e h
                omega
              · exact q3 e h
            · intro e he
              cases he
          | some e =>
            obtain ⟨q1, q2, q3⟩ := p7 e rfl
            have he1 : e ∈ s1.T := q1.mem_iff.mpr (List.mem_cons_self e _)
            have hperm : s.T.Perm (e :: (s2.T ++ rec1)) :=
              (r6.trans ((List.Perm.append_left rec1 q1).trans List.perm_append_comm))
            have hri : rec1.length = i := by
              by_contra hne
              obtain ⟨d1, d2⟩ := r9 (by omega)
              have := q3 d1
              exact absurd (d2 e he1) (not_le.mpr this)
            refine ⟨some e, _, _, hk, u2, by rw [← r3, ← p3], ?_, hsync, ?_, ?_⟩
            · exact (List.nodup_cons.mp (hperm.nodup_iff.mp hnd)).2
            · intro h
              cases h
            · intro e1 h1
              simp only [Option.some.injEq] at h1
              subst h1
              refine ⟨hperm, ?_, ?_⟩
              · rw [rankIn_perm g _ _ e r6, rankIn_append,
                  rankIn_all g rec1 e (fun x hx => r8 x hx e he1), rankIn_perm g _ _ e q1,
                  rankIn_none g (e :: s2.T) e, Nat.add_zero, hri]
                intro y hy
                rcases List.mem_cons.mp hy with h | h
                · rw [h]
                  exact less_irrefl _
                · exact less_asymm (q2 y h)
              · intro hd
                exact q3 (by rw [r3]; exact hd)
        obtain ⟨h1, h2, h3, h4, h5, h6, h7⟩ := h
        have hndL : sL.T.Nodup := h2.nodup_iff.mp h1
        have hlen : sN.T.length = sL.T.length := h2.length_eq
        obtain ⟨rN, sN1, oN1, a1, a2, a3, a4, a5, a6⟩ :=
          nonlazy_pop_kth_exact oops F.law g sN oN i h1 h5 h6 ha
        obtain ⟨rL, sL1, oL1, b1, b2, b3, b4, b5, b6, b7⟩ :=
          lazy_pop_kth_exact oops g Fix F sL oL i h7 hndL h4 (by
            rcases ha with h | h
            · left; rw [← h3]; exact h
            · right; omega)
        have hrk : ∀ e, rankIn g sN.T e = rankIn g sL.T e := fun e => rankIn_perm g _ _ e h2
        cases rN with
        | none =>
          obtain ⟨c1, c2, c3⟩ := a5 rfl
          subst c1
          cases rL with
          | none =>
            obtain ⟨d1, d2, _⟩ := b6 rfl
            exact ⟨none, _, _, _, _, a1, b1, ⟨h1, h2.trans d2, by rw [b3, h3], b5, a2, a3, b2⟩, rfl,
              fun hd => by rw [c2] at hd; cases hd⟩
          | some e =>
            exfalso
            obtain ⟨d1, d2, d3⟩ := b7 e rfl
            have heL : e ∈ sL.T := d1.mem_iff.mpr (List.mem_cons_self e _)
            have hgt := d3 (by rw [← h3]; exact c2)
            rcases c3 with c | ⟨e1, c4, c5, c6⟩
            · have := rankIn_lt_length g sL.T e heL
              omega
            · have : e1 = e := rankIn_unique g sL.T hndL e1 e (h2.mem_iff.mp c4) heL
                (by rw [← hrk e1, c5, d2])
              rw [this] at c6
              exact absurd c6 (not_le.mpr hgt)
        | some e =>
          obtain ⟨c1, c2, c3, c4⟩ := a6 e rfl
          have heL : e ∈ sL.T := h2.mem_iff.mp c1
          cases rL with
          | none =>
            exfalso
            obtain ⟨d1, _, d3⟩ := b6 rfl
            have hgt := c4 (by rw [h3]; exact d1)
            rcases d3 with d | d
            · have := rankIn_lt_length g sN.T e c1
              omega
            · exact absurd (d e heL (by rw [← hrk e, c3])) (not_le.mpr hgt)
          | some e1 =>
            obtain ⟨d1, d2, _⟩ := b7 e1 rfl
            have he1L : e1 ∈ sL.T := d1.mem_iff.mpr (List.mem_cons_self e1 _)
            have hee : e1 = e := rankIn_unique g sL.T hndL e1 e he1L heL
              (by rw [d2, ← hrk e, c3])
            subst hee
            have hperm : sN1.T.Perm sL1.T := by
              rw [c2]
              have := (h2.trans d1).erase e1
              rw [List.erase_cons_head] at this
              exact this
            refine ⟨some e1, _, _, _, _, a1, b1,
              ⟨by rw [c2]; exact h1.erase e1, hperm, by rw [a4, b3, h3], b5, a2, a3, b2⟩, a4, ?_⟩
            intro _
            rw [c2, List.length_erase_of_mem c1]
            have : 0 < sN.T.length := List.length_pos_of_mem c1
            omega
      intro is
      induction is with
      | nil =>
        intro sN oN sL oL _ _
        exact ⟨[], sN, oN, sL, oL, rfl, rfl⟩
      | cons i is ih =>
        intro sN oN sL oL h ha
        obtain ⟨r, sN1, oN1, sL1, oL1, p1, p2, p3, p4, p5⟩ :=
          pop_kth_agree oops g Fix F sN oN sL oL i h (by
            rcases ha with h | h
            · exact Or.inl h
            · exact Or.inr h.1)
        obtain ⟨rs, sN2, oN2, sL2, oL2, q1, q2⟩ := ih sN1 oN1 sL1 oL1 p3 (by
          cases hd : sN.add_dummy with
          | true => left; rw [p4]; exact hd
          | false =>
            right
            rcases ha with h | h
            · rw [hd] at h; cases h
            · have := p5 hd
              have e : sN1.T.length = sN.T.length - 1 := by omega
              rw [e]
              exact h.2)
        have p1' : (NonLazy.ops ord oops).pop_kth_largest sN oN i = .ok (r, sN1, oN1) := p1
        have p2' : (Lazy.ops ord1 oops).pop_kth_largest sL oL i = .ok (r, sL1, oL1) := p2
        refine ⟨r :: rs, sN2, oN2, sL2, oL2, ?_, ?_⟩
        · rw [popSeq, p1']
          simp only [q1]
        · rw [popSeq, p2']
          simp only [q2]
    obtain ⟨e1, e2⟩ := lazy_entries_exact oops g Fix F (ord1 range) o hf
    have hperm : (ord range).Perm (ord1 range) :=
      (List.perm_ext_iff_of_nodup (hord range).1 (hord1 range).1).mpr
        (fun x => by rw [(hord range).2 x, (hord1 range).2 x])
    have hA : Agreeing oops g Fix (NonLazy.construct ord range b o).1
        (NonLazy.construct ord range b o).2 (Lazy.construct oops ord1 range b o).1
        (Lazy.construct oops ord1 range b o).2 := by
      refine ⟨(hord range).1, hperm, rfl, ?_, F.empty o hf, fun x => (F.compute o x hf).1, e2⟩
      show ((Lazy.entries oops (ord1 range) o).1).Perm ((ord1 range).map (gpair g))
      rw [e1]
    exact popSeq_agree oops g Fix F ord ord1 is _ _ _ _ hA ha
  exact ⟨sameAnswers_of _ _ _ (direct_flat Real.log L hdiag) ord ord1 hord hord1 range b _
      ⟨rfl, fun _ => Or.inl rfl⟩ is his,
    sameAnswers_of _ _ _ (fast_flat Real.sqrt Real.log V0 L) ord ord1 hord hord1 range b _
      ⟨rfl, fun _ => Or.inl rfl⟩ is his⟩

end DPP

namespace DPP

/-- Witness of C13: the test of `pop_kth_largest` on
`diag(0.3, 0.2, 0.9, 0.5, 0.25, 0.125, 0.1, 2.0)`: the calls with `i = 2, 2, 5, 0` return
`3, 0, 6, 7` on the non-lazy and on the lazy strategy. -/
theorem lazy_nonlazy_agree_witness :
    ∃ sN oN sL oL,
      popSeq (NonLazy.ops (fun l => l.dedup) (Oracle.ops Real.log (testDiag ℝ)))
          [2, 2, 5, 0]
          (NonLazy.construct (fun l => l.dedup) [0, 1, 2, 3, 4, 5, 6, 7] false
            (Oracle.construct ℝ)).1
          (NonLazy.construct (fun l => l.dedup) [0, 1, 2, 3, 4, 5, 6, 7] false
            (Oracle.construct ℝ)).2
        = .ok ([some 3, some 0, some 6, some 7], sN, oN) ∧
      popSeq (Lazy.ops (fun l => l.dedup) (Oracle.ops Real.log (testDiag ℝ)))
          [2, 2, 5, 0]
          (Lazy.construct (Oracle.ops Real.log (testDiag ℝ)) (fun l => l.dedup)
            [0, 1, 2, 3, 4, 5, 6, 7] false (Oracle.construct ℝ)).1
          (Lazy.construct (Oracle.ops Real.log (testDiag ℝ)) (fun l => l.dedup)
            [0, 1, 2, 3, 4, 5, 6, 7] false (Oracle.construct ℝ)).2
        = .ok ([some 3, some 0, some 6, some 7], sL, oL) := by
  -- The test of `pop_kth_largest` on `diag(0.3, 0.2, 0.9, 0.5, 0.25, 0.125, 0.1, 2.0)`
  -- with the non-lazy strategy: the calls with `i = 2, 2, 5, 0` return `3, 0, 6, 7`.
  have testDiag_popSeq :
      ∃ sN oN, popSeq (NonLazy.ops (fun l => l.dedup) (Oracle.ops Real.log (testDiag ℝ)))
          [2, 2, 5, 0]
          (NonLazy.construct (fun l => l.dedup) [0, 1, 2, 3, 4, 5, 6, 7] false
            (Oracle.construct ℝ)).1
          (NonLazy.construct (fun l => l.dedup) [0, 1, 2, 3, 4, 5, 6, 7] false
            (Oracle.construct ℝ)).2
        = .ok ([some 3, some 0, some 6, some 7], sN, oN) := by
    -- A call of `NonLazy::pop_kth_largest(i)` without dummy elements, over an oracle to
    -- which nothing is added, returns the element of rank `i`.
    have nonlazy_pop_kth_step {σ α : Type} [LinearOrderedField α] (oops : OracleOps σ α)
        (law : OracleLaw oops) (g : Nat → α) (T : List Nat) (o : σ) (i e : Nat)
        (hnd : T.Nodup) (hS : oops.get_solution o = []) (hg : ∀ x, gainAt oops o x = g x)
        (he : e ∈ T) (hrank : rankIn g T e = i) :
        ∃ o1, NonLazy.pop_kth_largest oops { T := T, add_dummy := false } o i
            = .ok (some e, { T := T.erase e, add_dummy := false }, o1) ∧
          oops.get_solution o1 = [] ∧ ∀ x, gainAt oops o1 x = g x := by
      have hi : i < T.length := by
        rw [← hrank]
        exact rankIn_lt_length g T e he
      obtain ⟨r, s1, o1, a1, a2, a3, a4, a5, a6⟩ :=
        nonlazy_pop_kth_exact oops law g { T := T, add_dummy := false } o i hnd hS hg (Or.inr hi)
      cases r with
      | none =>
        obtain ⟨_, c2, _⟩ := a5 rfl
        cases c2
      | some e1 =>
        obtain ⟨c1, c2, c3, _⟩ := a6 e1 rfl
        have hee : e1 = e := rankIn_unique g T hnd e1 e c1 he (by rw [c3, hrank])
        subst hee
        refine ⟨o1, ?_, a2, a3⟩
        rw [a1]
        cases s1 with
        | mk T1 d1 =>
          simp only [] at c2 a4
          rw [c2, a4]
    have law := direct_law Real.log (testDiag ℝ)
    have hg0 : ∀ x, gainAt (Oracle.ops Real.log (testDiag ℝ)) (Oracle.construct ℝ) x
        = testDiag ℝ x x := by
      intro x
      have h0 : (0 : ℝ) ≤ testDiag ℝ x x := by
        unfold testDiag
        rw [if_pos rfl]
        split <;> norm_num
      simp [gainAt, Oracle.ops, Oracle.compute_marginal_gain_exponential, Oracle.construct,
        Matrix.dotProduct, h0]
    obtain ⟨o1, h1, s1, g1⟩ := nonlazy_pop_kth_step (Oracle.ops Real.log (testDiag ℝ)) law
      (fun x => testDiag ℝ x x) [0, 1, 2, 3, 4, 5, 6, 7] (Oracle.construct ℝ) 2 3 (by decide) rfl
      hg0 (by decide) (by
        simp [rankIn, List.filter, ElementValuePair.less, testDiag]
        norm_num)
    obtain ⟨o2, h2, s2, g2⟩ := nonlazy_pop_kth_step (Oracle.ops Real.log (testDiag ℝ)) law
      (fun x => testDiag ℝ x x) [0, 1, 2, 4, 5, 6, 7] o1 2 0 (by decide) s1 g1 (by decide) (by
        simp [rankIn, List.filter, ElementValuePair.less, testDiag]
        norm_num)
    obtain ⟨o3, h3, s3, g3⟩ := nonlazy_pop_kth_step (Oracle.ops Real.log (testDiag ℝ)) law
      (fun x => testDiag ℝ x x) [1, 2, 4, 5, 6, 7] o2 5 6 (by decide) s2 g2 (by decide) (by
        simp [rankIn, List.filter, ElementValuePair.less, testDiag]
        norm_num)
    obtain ⟨o4, h4, _, _⟩ := nonlazy_pop_kth_step (Oracle.ops Real.log (testDiag ℝ)) law
      (fun x => testDiag ℝ x x) [1, 2, 4, 5, 7] o3 0 7 (by decide) s3 g3 (by decide) (by
        simp [rankIn, List.filter, ElementValuePair.less, testDiag]
        norm_num)
    have e1 : [0, 1, 2, 3, 4, 5, 6, 7].erase 3 = [0, 1, 2, 4, 5, 6, 7] := by decide
    have e2 : [0, 1, 2, 4, 5, 6, 7].erase 0 = [1, 2, 4, 5, 6, 7] := by decide
    have e3 : [1, 2, 4, 5, 6, 7].erase 6 = [1, 2, 4, 5, 7] := by decide
    rw [e1] at h1
    rw [e2] at h2
    rw [e3] at h3
    have hc : (NonLazy.construct (fun l => l.dedup) [0, 1, 2, 3, 4, 5, 6, 7] false
        (Oracle.construct ℝ)) = ({ T := [0, 1, 2, 3, 4, 5, 6, 7], add_dummy := false },
          Oracle.construct ℝ) := by
      have : [0, 1, 2, 3, 4, 5, 6, 7].dedup = [0, 1, 2, 3, 4, 5, 6, 7] := by decide
      unfold NonLazy.construct
      dsimp only
      rw [this]
    rw [hc]
    refine ⟨{ T := [1, 2, 4, 5, 7].erase 7, add_dummy := false }, o4, ?_⟩
    simp only [popSeq, NonLazy.ops, h1, h2, h3, h4]
  have hdiag : ∀ e, (0 : ℝ) ≤ testDiag ℝ e e := by
    intro e
    unfold testDiag
    rw [if_pos rfl]
    split <;> norm_num
  obtain ⟨rs, sN, oN, sL, oL, h1, h2⟩ := (lazy_nonlazy_agree (testDiag ℝ) hdiag
    [0, 1, 2, 3, 4, 5, 6, 7] false (fun l => l.dedup) (fun l => l.dedup) setOrder_id
    setOrder_id (fun _ _ => none) false [2, 2, 5, 0]
    (Or.inr (by
      have : [0, 1, 2, 3, 4, 5, 6, 7].dedup = [0, 1, 2, 3, 4, 5, 6, 7] := by decide
      dsimp only
      rw [this]
      simp [IndicesBelow]))).1
  obtain ⟨sN1, oN1, h3⟩ := testDiag_popSeq
  have h1' : popSeq (NonLazy.ops (fun l => l.dedup) (Oracle.ops Real.log (testDiag ℝ)))
      [2, 2, 5, 0]
      (NonLazy.construct (fun l => l.dedup) [0, 1, 2, 3, 4, 5, 6, 7] false
        (Oracle.construct ℝ)).1
      (NonLazy.construct (fun l => l.dedup) [0, 1, 2, 3, 4, 5, 6, 7] false
        (Oracle.construct ℝ)).2 = .ok (rs, sN, oN) := h1
  rw [h3] at h1'
  simp only [Except.ok.injEq, Prod.mk.injEq] at h1'
  have hrs : rs = [some 3, some 0, some 6, some 7] := h1'.1.symm
  subst hrs
  exact ⟨sN1, oN1, sL, oL, h3, h2⟩

end DPP

namespace DPP

/-- Every value of `[lo, hi]` is drawn for a suitable output of the engine. -/
theorem uniform_int_onto (lo hi j : Nat) (h1 : lo ≤ j) (h2 : j ≤ hi) :
    ∃ raw, uniform_int lo hi raw = j := by
  refine ⟨j - lo, ?_⟩
  unfold uniform_int
  rw [Nat.mod_eq_of_lt (by omega)]
  omega

/-- The function `swap_T` writes `T_inv` only at elements of `T`. -/
theorem swap_T_outside (i j : Nat) (T : List Nat) (T_inv : Nat → Int)
    (hi : i < T.length) (hj : j < T.length) (e : Nat) (he : e ∉ T) :
    (swap_T i j T T_inv).2 e = T_inv e := by
  have hlen : ((T.set i (T.getD j 0)).set j (T.getD i 0)).length = T.length := by
    simp
  have hmem : ∀ q, q < T.length →
      ((T.set i (T.getD j 0)).set j (T.getD i 0)).getD q 0 ∈ T := by
    intro q hq
    rw [swap_getD T i j q hi hj hq]
    split
    · exact (mem_iff_getD T _).mpr ⟨i, hi, rfl⟩
    · split
      · exact (mem_iff_getD T _).mpr ⟨j, hj, rfl⟩
      · exact (mem_iff_getD T _).mpr ⟨q, hq, rfl⟩
  unfold swap_T
  simp only []
  have hb : e ≠ ((T.set i (T.getD j 0)).set j (T.getD i 0)).getD j 0 := fun h =>
    he (by rw [h]; exact hmem j hj)
  have ha : e ≠ ((T.set i (T.getD j 0)).set j (T.getD i 0)).getD i 0 := fun h =>
    he (by rw [h]; exact hmem i hi)
  rw [Function.update_noteq hb, Function.update_noteq ha]

/-- The function `swap_T` keeps the bookkeeping. -/
theorem swap_T_keeps (n i j : Nat) (T : List Nat) (T_inv : Nat → Int)
    (h : Bookkeeping n T T_inv) (hi : i < T.length) (hj : j < T.length) :
    Bookkeeping n (swap_T i j T T_inv).1 (swap_T i j T T_inv).2 ∧
    (swap_T i j T T_inv).1.length = T.length ∧
    ∀ x, x ∈ (swap_T i j T T_inv).1 ↔ x ∈ T := by
  obtain ⟨h1, h2, h3⟩ := h
  obtain ⟨s1, s2, s3, _⟩ := swap_T_spec i j T T_inv h1 hi hj
  refine ⟨⟨s1, fun x hx => h2 x ((s3 x).mp hx), ?_⟩, s2, s3⟩
  intro e he hne
  have heT : e ∉ T := fun hm => hne ((s3 e).mpr hm)
  rw [swap_T_outside i j T T_inv hi hj e heT]
  exact h3 e he heT

/-- The loop of `fisher_yates_shuffle` keeps the bookkeeping and the elements of `T`. -/
theorem fisher_yates_loop_keeps (n : Nat) (rng : Nat → Nat) :
    ∀ (m i pos : Nat) (T : List Nat) (T_inv : Nat → Int), Bookkeeping n T T_inv →
      i + m ≤ T.length →
      Bookkeeping n (fisher_yates_loop rng m i pos T T_inv).1
        (fisher_yates_loop rng m i pos T T_inv).2.1 ∧
      (fisher_yates_loop rng m i pos T T_inv).1.length = T.length ∧
      ∀ x, x ∈ (fisher_yates_loop rng m i pos T T_inv).1 ↔ x ∈ T := by
  intro m
  induction m with
  | zero =>
    intro i pos T T_inv h _
    exact ⟨h, rfl, fun _ => Iff.rfl⟩
  | succ m ih =>
    intro i pos T T_inv h him
    have hi : i < T.length := by omega
    obtain ⟨r1, r2⟩ := uniform_int_range i (T.length - 1) (rng pos) (by omega)
    obtain ⟨s1, s2, s3⟩ := swap_T_keeps n i (uniform_int i (T.length - 1) (rng pos)) T T_inv h
      hi (by omega)
    obtain ⟨t1, t2, t3⟩ := ih (i + 1) (pos + 1) _ _ s1 (by rw [s2]; omega)
    rw [fisher_yates_loop]
    exact ⟨t1, by rw [t2, s2], fun x => (t3 x).trans (s3 x)⟩

/-- The function `remove_T` keeps the bookkeeping and removes its element. -/
theorem remove_T_keeps (n e : Nat) (T : List Nat) (T_inv : Nat → Int)
    (h : Bookkeeping n T T_inv) (he : e ∈ T) :
    Bookkeeping n (remove_T e T T_inv).1 (remove_T e T T_inv).2 ∧
    (remove_T e T T_inv).1.length + 1 = T.length ∧
    (∀ x, x ∈ (remove_T e T T_inv).1 ↔ (x ∈ T ∧ x ≠ e)) ∧
    (remove_T e T T_inv).2 e = -1 := by
  obtain ⟨h1, h2, h3⟩ := h
  obtain ⟨r1, r2, r3⟩ := remove_T_spec e T T_inv h1 he
  have hlen : 0 < T.length := List.length_pos_of_mem he
  obtain ⟨p, hp, hpe⟩ := (mem_iff_getD T e).mp he
  have hpos : (T_inv e).toNat < T.length := by
    rw [← hpe, h1.2 p hp]
    simpa using hp
  refine ⟨⟨r1, fun x hx => h2 x ((r3 x).mp hx).1, ?_⟩, r2, r3, ?_⟩
  · intro x hx hxn
    by_cases hxe : x = e
    · rw [hxe]
      simp [remove_T]
    · have hxT : x ∉ T := fun hm => hxn ((r3 x).mpr ⟨hm, hxe⟩)
      show (Function.update (swap_T (T_inv e).toNat (T.length - 1) T T_inv).2 e (-1)) x = -1
      rw [Function.update_noteq hxe,
        swap_T_outside _ _ T T_inv hpos (by omega) x hxT]
      exact h3 x hx hxT
  · simp [remove_T]

/-- C29: permutation bookkeeping of stochastic greedy.  When `T` lists the elements of
`[0, n)` that have not been removed, without repetition, and `T_inv` is its inverse
(`T_inv[T[p]] = p` for every position `p` of `T`, and `T_inv[e] = -1` for every removed
`e`), then the same holds after `swap_T(i, j)` with positions of `T`, after
`fisher_yates_shuffle` with `k ≤ |T|`, whatever the engine returns (every `j` of
`[i, |T| - 1]` is drawn by some output of the engine), and after `remove_T(e)` for an
element `e` of `T`; `fisher_yates_shuffle` keeps the elements of `T`, and `remove_T(e)`
removes `e` and nothing else, shortening `T` by one.  The invariant holds of the lists
that `stochastic_greedy` starts from. -/
theorem permutation_bookkeeping (n : Nat) (T : List Nat) (T_inv : Nat → Int)
    (h : Bookkeeping n T T_inv) :
    (∀ i j, i < T.length → j < T.length →
      Bookkeeping n (swap_T i j T T_inv).1 (swap_T i j T T_inv).2 ∧
      (swap_T i j T T_inv).1.length = T.length ∧
      ∀ x, x ∈ (swap_T i j T T_inv).1 ↔ x ∈ T) ∧
    (∀ (rng : Nat → Nat) (k pos : Nat), k ≤ T.length →
      Bookkeeping n (fisher_yates_shuffle rng k pos T T_inv).1
        (fisher_yates_shuffle rng k pos T T_inv).2.1 ∧
      (fisher_yates_shuffle rng k pos T T_inv).1.length = T.length ∧
      ∀ x, x ∈ (fisher_yates_shuffle rng k pos T T_inv).1 ↔ x ∈ T) ∧
    (∀ e, e ∈ T →
      Bookkeeping n (remove_T e T T_inv).1 (remove_T e T T_inv).2 ∧
      (remove_T e T T_inv).1.length + 1 = T.length ∧
      (∀ x, x ∈ (remove_T e T T_inv).1 ↔ (x ∈ T ∧ x ≠ e)) ∧
      (remove_T e T T_inv).2 e = -1) ∧
    (∀ i j, i ≤ j → j ≤ T.length - 1 → ∃ raw, uniform_int i (T.length - 1) raw = j) ∧
    Bookkeeping n (List.range n) (fun e => (e : Int)) := by
  refine ⟨fun i j hi hj => swap_T_keeps n i j T T_inv h hi hj,
    fun rng k pos hk => fisher_yates_loop_keeps n rng k 0 pos T T_inv h (by omega),
    fun e he => remove_T_keeps n e T T_inv h he,
    fun i j h1 h2 => uniform_int_onto i (T.length - 1) j h1 h2, ?_⟩
  refine ⟨⟨List.nodup_range n, ?_⟩, fun x hx => List.mem_range.mp hx, ?_⟩
  · intro p hp
    rw [List.length_range] at hp
    simp [List.getD_eq_getElem?_getD, List.getElem?_range hp]
  · intro e he hne
    exact absurd (List.mem_range.mpr he) hne

/-- Witness of C29: the lists of `stochastic_greedy` on `4` elements after the removal of
element `1`: `T = [0, 3, 2]`, and `T_inv = [0, -1, 2, 1]`. -/
theorem permutation_bookkeeping_witness :
    Bookkeeping 4 [0, 3, 2] (fun e => if e = 1 then -1 else if e = 3 then 1 else (e : Int)) ∧
    (remove_T 3 [0, 3, 2] (fun e => if e = 1 then -1 else if e = 3 then 1 else (e : Int))).1
      = [0, 2] ∧
    (remove_T 3 [0, 3, 2] (fun e => if e = 1 then -1 else if e = 3 then 1 else (e : Int))).2 3
      = -1 := by
  have hB : Bookkeeping 4 [0, 3, 2]
      (fun e => if e = 1 then -1 else if e = 3 then 1 else (e : Int)) := by
    refine ⟨⟨by decide, ?_⟩, by decide, ?_⟩
    · intro p hp
      have hp3 : p < 3 := hp
      interval_cases p <;> simp
    · intro e he hne
      interval_cases e <;> simp at hne ⊢
  exact ⟨hB, by simp [remove_T, swap_T],
    ((permutation_bookkeeping 4 _ _ hB).2.2.1 3 (by decide)).2.2.2⟩

end DPP

namespace DPP

/-- One iteration of the loop of `double_greedy` draws with the probability
`double_greedy_p` of the two values computed, and goes on from the two oracles of
`double_greedy_step`. -/
theorem double_greedy_loop_step {σ α : Type} [LinearOrderedField α] (log : α → α)
    (oops oops_inv : OracleOps σ α) (n : Nat) (param : Param α) (clock : Nat → α)
    (rng : Nat → Nat) (m i : Nat) (o oi : σ) :
    double_greedy_loop log oops oops_inv n param clock rng (m + 1) i o oi
      = if expired param (clock i) then .ok Result.unfinished
        else double_greedy_loop log oops oops_inv n param clock rng m (i + 1)
          (double_greedy_step log oops oops_inv rng i o oi).1
          (double_greedy_step log oops oops_inv rng i o oi).2 := rfl

end DPP

namespace DPP

theorem nonNegCells_update {α : Type} [LinearOrderedField α] (d : Nat → Option α) (e : Nat)
    (v : α) (h : NonNegCells d) (hv : 0 ≤ v) : NonNegCells (Function.update d e (some v)) := by
  intro x y hxy
  by_cases hx : x = e
  · subst hx
    rw [Function.update_same] at hxy
    simp only [Option.some.injEq] at hxy
    rw [← hxy]
    exact hv
  · rw [Function.update_noteq hx] at hxy
    exact h x y hxy

theorem nonNegCells_getD {α : Type} [LinearOrderedField α] (d : Nat → Option α) (e : Nat)
    (h : NonNegCells d) : 0 ≤ (d e).getD 0 := by
  cases hd : d e with
  | none => exact le_refl _
  | some x => exact h e x hd

theorem residual_nonneg {α : Type} [LinearOrderedField α] (x : α) (v : Option α) :
    0 ≤ Fast.residual x v := by
  unfold Fast.residual
  cases v with
  | none => exact le_refl _
  | some v => exact le_max_left _ _

/-- The loop of `Fast::compute_marginal_gain_exponential` returns a value that is not
negative, and keeps the cells so. -/
theorem fast_nonneg_loop {α : Type} [LinearOrderedField α] (sqrt : α → α)
    (L : Nat → Nat → α) :
    ∀ (k : Nat) (o : Fast.Instance α) (e : Nat) (x : α), NonNegCells o.d → 0 ≤ x →
      0 ≤ (Fast.loop sqrt L k o e x).1 ∧ NonNegCells (Fast.loop sqrt L k o e x).2.d := by
  intro k
  induction k with
  | zero => intro o e x h hx; exact ⟨hx, h⟩
  | succ k ih =>
    intro o e x h _
    rw [Fast.loop]
    exact ih _ e _ (nonNegCells_update o.d e _ h (residual_nonneg _ _)) (residual_nonneg _ _)

/-- The methods of the fast oracle over a kernel with a non-negative diagonal return
values that are not negative and keep the cells so. -/
theorem fast_nonneg_step {α : Type} [LinearOrderedField α] (sqrt : α → α)
    (L : Nat → Nat → α) (n : Nat) (hdiag : ∀ e, e < n → 0 ≤ L e e) (o : Fast.Instance α)
    (h : NonNegCells o.d) (e : Nat) (he : e < n) :
    0 ≤ (Fast.compute_marginal_gain_exponential sqrt L o e).1 ∧
    NonNegCells (Fast.compute_marginal_gain_exponential sqrt L o e).2.d ∧
    0 ≤ (Fast.get_last_marginal_gain_exponential L o e).1 ∧
    NonNegCells (Fast.get_last_marginal_gain_exponential L o e).2.d := by
  have hg : 0 ≤ (Fast.get_last_marginal_gain_exponential L o e).1 ∧
      NonNegCells (Fast.get_last_marginal_gain_exponential L o e).2.d := by
    unfold Fast.get_last_marginal_gain_exponential
    cases hd : o.d e with
    | none => exact ⟨hdiag e he, nonNegCells_update o.d e _ h (hdiag e he)⟩
    | some x => exact ⟨h e x hd, h⟩
  obtain ⟨c1, c2⟩ := fast_nonneg_loop sqrt L
    ((Fast.get_last_marginal_gain_exponential L o e).2.S.length
      - (Fast.get_last_marginal_gain_exponential L o e).2.u e)
    (Fast.get_last_marginal_gain_exponential L o e).2 e
    (Fast.get_last_marginal_gain_exponential L o e).1 hg.2 hg.1
  exact ⟨c1, c2, hg.1, hg.2⟩

/-- The cells of a fast oracle are not negative in every state that calls reach. -/
theorem fast_called_nonneg {α : Type} [LinearOrderedField α] (sqrt log : α → α)
    (V0 : Nat → Nat → Option α) (L : Nat → Nat → α) (n : Nat)
    (hdiag : ∀ e, e < n → 0 ≤ L e e) (o : Fast.Instance α)
    (h : Fast.Called sqrt log V0 L n o) : NonNegCells o.d := by
  induction h with
  | construct logV => intro e x hx; cases hx
  | compute o e _ he ih => exact (fast_nonneg_step sqrt L n hdiag o ih e he).2.1
  | get_last o e _ he ih => exact (fast_nonneg_step sqrt L n hdiag o ih e he).2.2.2
  | add o e _ _ ih => exact ih
  | clear o _ ih => exact ih

/-- C26: non-negative gains.  For every `L` on `n` elements with a non-negative diagonal,
which every positive semidefinite `L` has, in every state of the direct oracle and of the
fast oracle that calls of their methods with elements below `n` reach, in any order,
every cell `d[e]` that has been computed holds a value that is at least `0`, and both
`compute_marginal_gain_exponential(e)` and `get_last_marginal_gain_exponential(e)` return
a value that is at least `0` and leave the cells so. -/
theorem gains_nonneg (n : Nat) (L : Nat → Nat → ℝ) (hdiag : ∀ e, e < n → 0 ≤ L e e)
    (V0 : Nat → Nat → Option ℝ) :
    (∀ o, Oracle.Called Real.log L n o → NonNegCells o.d ∧ ∀ e, e < n →
      0 ≤ (Oracle.compute_marginal_gain_exponential L o e).1 ∧
      NonNegCells (Oracle.compute_marginal_gain_exponential L o e).2.d ∧
      0 ≤ (Oracle.get_last_marginal_gain_exponential L o e).1 ∧
      NonNegCells (Oracle.get_last_marginal_gain_exponential L o e).2.d) ∧
    (∀ o, Fast.Called Real.sqrt Real.log V0 L n o → NonNegCells o.d ∧ ∀ e, e < n →
      0 ≤ (Fast.compute_marginal_gain_exponential Real.sqrt L o e).1 ∧
      NonNegCells (Fast.compute_marginal_gain_exponential Real.sqrt L o e).2.d ∧
      0 ≤ (Fast.get_last_marginal_gain_exponential L o e).1 ∧
      NonNegCells (Fast.get_last_marginal_gain_exponential L o e).2.d) ∧
    ∀ M : Nat → Nat → ℝ, (Matrix.of fun i j : Fin n => M i j).PosSemidef →
      ∀ e, e < n → 0 ≤ M e e := by
  -- The methods of the direct oracle over a kernel with a non-negative diagonal return
  -- values that are not negative and keep the cells so.
  have direct_nonneg_step {α : Type} [LinearOrderedField α] (L : Nat → Nat → α) (n : Nat)
      (hdiag : ∀ e, e < n → 0 ≤ L e e) (o : Oracle.Instance α) (h : NonNegCells o.d) (e : Nat)
      (he : e < n) :
      0 ≤ (Oracle.compute_marginal_gain_exponential L o e).1 ∧
      NonNegCells (Oracle.compute_marginal_gain_exponential L o e).2.d ∧
      0 ≤ (Oracle.get_last_marginal_gain_exponential L o e).1 ∧
      NonNegCells (Oracle.get_last_marginal_gain_exponential L o e).2.d := by
    refine ⟨?_, ?_, ?_, ?_⟩
    · unfold Oracle.compute_marginal_gain_exponential
      split
      · exact le_max_left _ _
      · exact nonNegCells_getD o.d e h
    · unfold Oracle.compute_marginal_gain_exponential
      split
      · exact nonNegCells_update o.d e _ h (le_max_left _ _)
      · exact h
    · unfold Oracle.get_last_marginal_gain_exponential
      split
      · exact hdiag e he
      · exact nonNegCells_getD o.d e h
    · unfold Oracle.get_last_marginal_gain_exponential
      split
      · exact nonNegCells_update o.d e _ h (hdiag e he)
      · exact h
  -- The cells of a direct oracle are not negative in every state that calls reach.
  have direct_called_nonneg {α : Type} [LinearOrderedField α] (log : α → α)
      (L : Nat → Nat → α) (n : Nat) (hdiag : ∀ e, e < n → 0 ≤ L e e) (o : Oracle.Instance α)
      (h : Oracle.Called log L n o) : NonNegCells o.d := by
    induction h with
    | construct => intro e x hx; cases hx
    | compute o e _ he ih => exact (direct_nonneg_step L n hdiag o ih e he).2.1
    | get_last o e _ he ih => exact (direct_nonneg_step L n hdiag o ih e he).2.2.2
    | add o e _ _ ih => exact ih
  refine ⟨?_, ?_, ?_⟩
  · intro o ho
    have h := direct_called_nonneg Real.log L n hdiag o ho
    exact ⟨h, fun e he => direct_nonneg_step L n hdiag o h e he⟩
  · intro o ho
    have h := fast_called_nonneg Real.sqrt Real.log V0 L n hdiag o ho
    exact ⟨h, fun e he => fast_nonneg_step Real.sqrt L n hdiag o h e he⟩
  · intro M hM e he
    exact posSemidef_diag_nonneg hM ⟨e, he⟩

/-- Witness of C26: on `diag(0.3, 0.2, 0.9, 0.5, 0.25, 0.125, 0.1, 2.0)`, in the state of
the direct oracle after `get_last_marginal_gain_exponential(2)` and `add(2)`, the gain
that `compute_marginal_gain_exponential(0)` returns is at least `0`. -/
theorem gains_nonneg_witness :
    0 ≤ (Oracle.compute_marginal_gain_exponential (testDiag ℝ)
      (Oracle.add Real.log
        (Oracle.get_last_marginal_gain_exponential (testDiag ℝ) (Oracle.construct ℝ) 2).2 2)
      0).1 :=
  (((gains_nonneg 8 (testDiag ℝ) (fun e _ => by
      unfold testDiag
      rw [if_pos rfl]
      split <;> norm_num) (fun _ _ => none)).1 _
    (Oracle.Called.add _ 2
      (Oracle.Called.get_last _ 2 Oracle.Called.construct (by decide)) (by decide))).2 0
    (by decide)).1

end DPP

namespace DPP

/-- The test `Q.empty() || v >= Q.top().value`. -/
theorem commit_iff {α : Type} [LinearOrderedField α] (Q : List (ElementValuePair α)) (v : α) :
    Lazy.commit Q v = true ↔ (Q = [] ∨ ∃ t, heapTop Q = some t ∧ t.value ≤ v) := by
  unfold Lazy.commit
  cases h : heapTop Q with
  | none =>
    simp only [true_iff]
    exact Or.inl ((heapTop_none Q).mp h)
  | some t =>
    simp only [decide_eq_true_eq]
    constructor
    · intro hv
      exact Or.inr ⟨t, rfl, hv⟩
    · intro hv
      rcases hv with h0 | ⟨t1, h1, h2⟩
      · rw [h0] at h
        cases h
      · simp only [Option.some.injEq] at h1
        rw [h1]
        exact h2

/-- When the test fails, the heap has a top whose value exceeds `v`. -/
theorem commit_false_iff {α : Type} [LinearOrderedField α] (Q : List (ElementValuePair α))
    (v : α) : Lazy.commit Q v = false ↔ ∃ t, heapTop Q = some t ∧ v < t.value := by
  unfold Lazy.commit
  cases h : heapTop Q with
  | none => simp
  | some t => simp

/-- When the test holds, no entry of the heap has a value above `v`. -/
theorem commit_all {α : Type} [LinearOrderedField α] (Q : List (ElementValuePair α)) (v : α)
    (h : Lazy.commit Q v = true) : ∀ q ∈ Q, q.value ≤ v := by
  intro q hq
  rcases (commit_iff Q v).mp h with h0 | ⟨t, h1, h2⟩
  · rw [h0] at hq
    cases hq
  · exact le_trans (less_value_le ((heapTop_spec Q t h1).2 q hq)) h2

/-- An iteration of the loop of `Lazy::pop_largest()` whose test fails pushes the entry
back with the recomputed value and goes on. -/
theorem lazy_loop_pushback {σ α : Type} [LinearOrderedField α] (oops : OracleOps σ α)
    (fuel : Nat) (s : Lazy.Instance α) (o : σ) (top : ElementValuePair α)
    (h1 : heapTop s.Q = some top) (h2 : (s.add_dummy && decide (top.value ≤ 1)) = false)
    (h3 : top.element ∈ s.T)
    (h4 : Lazy.commit (s.Q.erase top)
      (oops.compute_marginal_gain_exponential o top.element).1 = false) :
    Lazy.pop_largest_loop oops (fuel + 1) s o
      = Lazy.pop_largest_loop oops fuel
          { s with Q := { element := top.element,
                          value := (oops.compute_marginal_gain_exponential o top.element).1 }
                        :: s.Q.erase top }
          (oops.compute_marginal_gain_exponential o top.element).2 := by
  rw [Lazy.pop_largest_loop, h1]
  simp only [h2, Bool.false_eq_true, if_false, not_not.mpr h3, h4]

/-- Whenever the loop of `Lazy::pop_largest()` returns an element, it returns from an
iteration that popped the entry of the element from the top of the heap, recomputed its
gain, and found the test to hold on what is left of the heap. -/
theorem lazy_loop_commit {σ α : Type} [LinearOrderedField α] (oops : OracleOps σ α) :
    ∀ (fuel : Nat) (s : Lazy.Instance α) (o : σ) (e : Nat) (s1 : Lazy.Instance α) (o1 : σ),
      Lazy.pop_largest_loop oops fuel s o = .ok (some e, s1, o1) →
      ∃ (s0 : Lazy.Instance α) (o0 : σ) (top : ElementValuePair α),
        s0.T = s.T ∧ s0.add_dummy = s.add_dummy ∧ heapTop s0.Q = some top ∧
        top.element = e ∧ e ∈ s0.T ∧
        Lazy.commit (s0.Q.erase top) (oops.compute_marginal_gain_exponential o0 e).1 = true ∧
        s1.Q = s0.Q.erase top ∧ s1.T = s0.T.erase e ∧
        o1 = (oops.compute_marginal_gain_exponential o0 e).2 := by
  intro fuel
  induction fuel with
  | zero =>
    intro s o e s1 o1 h
    rw [Lazy.pop_largest_loop] at h
    cases h
  | succ fuel ih =>
    intro s o e s1 o1 h
    rw [Lazy.pop_largest_loop] at h
    cases hq : heapTop s.Q with
    | none =>
      rw [hq] at h
      simp only [] at h
      split at h <;> cases h
    | some top =>
      rw [hq] at h
      simp only [] at h
      by_cases hd : (s.add_dummy && decide (top.value ≤ 1)) = true
      · rw [if_pos hd] at h
        cases h
      · rw [if_neg hd] at h
        by_cases hT : top.element ∉ s.T
        · rw [if_pos hT] at h
          obtain ⟨s0, o0, t0, a1, a2, a3⟩ := ih _ _ e s1 o1 h
          exact ⟨s0, o0, t0, a1, a2, a3⟩
        · rw [if_neg hT] at h
          by_cases hc : Lazy.commit (s.Q.erase top)
              (oops.compute_marginal_gain_exponential o top.element).1 = true
          · rw [if_pos hc] at h
            by_cases hd2 : (s.add_dummy &&
                decide ((oops.compute_marginal_gain_exponential o top.element).1 ≤ 1)) = true
            · rw [if_pos hd2] at h
              cases h
            · rw [if_neg hd2] at h
              simp only [Except.ok.injEq, Prod.mk.injEq, Option.some.injEq] at h
              obtain ⟨e1, e2, e3⟩ := h
              subst e1
              subst e2
              subst e3
              exact ⟨s, o, top, rfl, rfl, hq, rfl, not_not.mp hT, hc, rfl, rfl, rfl⟩
          · rw [if_neg hc] at h
            obtain ⟨s0, o0, t0, a1, a2, a3⟩ := ih _ _ e s1 o1 h
            exact ⟨s0, o0, t0, a1, a2, a3⟩

/-- C25: submodularity bound of the lazy strategy.  Whenever `Lazy::pop_largest()` returns
an element `e`, it returns from an iteration that popped the entry of `e` from the top of
the heap and recomputed its gain `v`, and `v` is at least the value stored at the top of
the heap at that moment, or the heap is empty; so no entry left in the heap has a value
above `v`.  In an iteration where `v` is strictly smaller than the value at the top, the
entry of `e` is pushed back with the value `v`, the element is not returned in that
iteration, and the loop goes on. -/
theorem lazy_commit_bound {σ α : Type} [LinearOrderedField α] (oops : OracleOps σ α)
    (s : Lazy.Instance α) (o : σ) (e : Nat) (s1 : Lazy.Instance α) (o1 : σ)
    (h : Lazy.pop_largest oops s o = .ok (some e, s1, o1)) :
    (∃ (s0 : Lazy.Instance α) (o0 : σ) (top : ElementValuePair α),
      s0.T = s.T ∧ heapTop s0.Q = some top ∧ top.element = e ∧
      s1.Q = s0.Q.erase top ∧ o1 = (oops.compute_marginal_gain_exponential o0 e).2 ∧
      (s1.Q = [] ∨ ∃ t, heapTop s1.Q = some t ∧
        t.value ≤ (oops.compute_marginal_gain_exponential o0 e).1) ∧
      ∀ q ∈ s1.Q, q.value ≤ (oops.compute_marginal_gain_exponential o0 e).1) ∧
    ∀ (fuel : Nat) (s2 : Lazy.Instance α) (o2 : σ) (top : ElementValuePair α),
      heapTop s2.Q = some top → (s2.add_dummy && decide (top.value ≤ 1)) = false →
      top.element ∈ s2.T →
      (∃ t, heapTop (s2.Q.erase top) = some t ∧
        (oops.compute_marginal_gain_exponential o2 top.element).1 < t.value) →
      Lazy.pop_largest_loop oops (fuel + 1) s2 o2
        = Lazy.pop_largest_loop oops fuel
            { s2 with Q := { element := top.element,
                             value := (oops.compute_marginal_gain_exponential o2
                               top.element).1 } :: s2.Q.erase top }
            (oops.compute_marginal_gain_exponential o2 top.element).2 := by
  constructor
  · obtain ⟨s0, o0, top, a1, _, a3, a4, _, a6, a7, _, a9⟩ :=
      lazy_loop_commit oops _ s o e s1 o1 h
    rw [← a7] at a6
    exact ⟨s0, o0, top, a1, a3, a4, a7, a9, (commit_iff _ _).mp a6, commit_all _ _ a6⟩
  · intro fuel s2 o2 top h1 h2 h3 h4
    exact lazy_loop_pushback oops fuel s2 o2 top h1 h2 h3 ((commit_false_iff _ _).mpr h4)

/-- Witness of C25: the lazy strategy over the first three elements of
`diag(0.3, 0.2, 0.9, 0.5, 0.25, 0.125, 0.1, 2.0)` returns an element whose recomputed
gain no entry left in the heap exceeds. -/
theorem lazy_commit_bound_witness :
    ∃ e s1 o1 o0,
      Lazy.pop_largest (Oracle.ops Real.log (testDiag ℝ))
        (Lazy.construct (Oracle.ops Real.log (testDiag ℝ)) (fun l => l.dedup) [0, 1, 2]
          false (Oracle.construct ℝ)).1
        (Lazy.construct (Oracle.ops Real.log (testDiag ℝ)) (fun l => l.dedup) [0, 1, 2]
          false (Oracle.construct ℝ)).2
        = .ok (some e, s1, o1) ∧
      ∀ q ∈ s1.Q, q.value ≤ (Oracle.compute_marginal_gain_exponential (testDiag ℝ) o0 e).1 := by
  have hdiag : ∀ e, (0 : ℝ) ≤ testDiag ℝ e e := by
    intro e
    unfold testDiag
    rw [if_pos rfl]
    split <;> norm_num
  have F := direct_flat Real.log (testDiag ℝ) hdiag
  obtain ⟨e1, e2⟩ := lazy_entries_exact _ _ _ F ([0, 1, 2] : List Nat).dedup
    (Oracle.construct ℝ) ⟨rfl, fun _ => Or.inl rfl⟩
  have hnd : (Lazy.construct (Oracle.ops Real.log (testDiag ℝ)) (fun l => l.dedup) [0, 1, 2]
      false (Oracle.construct ℝ)).1.T.Nodup := List.nodup_dedup _
  have hs : Lazy.InSync (fun e => testDiag ℝ e e)
      (Lazy.construct (Oracle.ops Real.log (testDiag ℝ)) (fun l => l.dedup) [0, 1, 2]
        false (Oracle.construct ℝ)).1 := by
    show ((Lazy.entries (Oracle.ops Real.log (testDiag ℝ)) ([0, 1, 2] : List Nat).dedup
      (Oracle.construct ℝ)).1).Perm _
    rw [e1]
    exact List.Perm.refl _
  obtain ⟨r, s1, o1, p1, _, _, _, _, p6, _⟩ := lazy_pop_largest_exact _ _ _ F _ _ e2 hnd hs
    (Or.inr (by decide))
  cases r with
  | none =>
    obtain ⟨_, c2, _⟩ := p6 rfl
    cases c2
  | some e =>
    obtain ⟨s0, o0, top, _, _, _, _, _, _, a7⟩ :=
      (lazy_commit_bound (Oracle.ops Real.log (testDiag ℝ)) _ _ e s1 o1 p1).1
    exact ⟨e, s1, o1, o0, p1, a7⟩

end DPP

namespace DPP

/-- The loop of `double_greedy` returns the result built from its two oracles at the end
of the loop, and the unfinished result when a reading exceeds the limit. -/
theorem double_greedy_loop_eq {σ α : Type} [LinearOrderedField α] (log : α → α)
    (oops oops_inv : OracleOps σ α) (n : Nat) (param : Param α) (clock : Nat → α)
    (rng : Nat → Nat) :
    ∀ (m i : Nat) (o oi : σ),
      double_greedy_loop log oops oops_inv n param clock rng m i o oi
        = match double_greedy_oracles log oops oops_inv param clock rng m i o oi with
          | none => .ok Result.unfinished
          | some p => .ok (double_greedy_result oops oops_inv (clock n) p.1 p.2) := by
  intro m
  induction m with
  | zero => intro i o oi; rfl
  | succ m ih =>
    intro i o oi
    rw [double_greedy_loop_step, double_greedy_oracles]
    by_cases h : expired param (clock i) = true
    · rw [if_pos h, if_pos h]
    · rw [if_neg h, if_neg h]
      exact ih _ _ _

/-- One iteration of the loop of `double_greedy` appends the element to exactly one of the
two selections. -/
theorem double_greedy_step_S {σ α : Type} [LinearOrderedField α] (log : α → α)
    (oops oops_inv : OracleOps σ α) (law : OracleLaw oops) (lawI : OracleLaw oops_inv)
    (rng : Nat → Nat) (i : Nat) (o oi : σ) :
    (oops.get_solution (double_greedy_step log oops oops_inv rng i o oi).1
        = oops.get_solution o ++ [i] ∧
      oops_inv.get_solution (double_greedy_step log oops oops_inv rng i o oi).2
        = oops_inv.get_solution oi) ∨
    (oops.get_solution (double_greedy_step log oops oops_inv rng i o oi).1
        = oops.get_solution o ∧
      oops_inv.get_solution (double_greedy_step log oops oops_inv rng i o oi).2
        = oops_inv.get_solution oi ++ [i]) := by
  unfold double_greedy_step
  simp only []
  split
  · left
    exact ⟨by rw [law.add_S, law.compute_S], by rw [lawI.compute_S]⟩
  · right
    exact ⟨by rw [law.compute_S], by rw [lawI.add_S, lawI.compute_S]⟩

theorem pairwise_append_lt (A : List Nat) (i : Nat) (h : A.Pairwise (· < ·))
    (hA : ∀ x ∈ A, x < i) : (A ++ [i]).Pairwise (· < ·) := by
  rw [List.pairwise_append]
  refine ⟨h, List.pairwise_singleton _ _, ?_⟩
  intro a ha b hb
  rw [List.mem_singleton.mp hb]
  exact hA a ha

/-- Appending `i` to one of two lists that split `[0, i)` gives lists that split
`[0, i + 1)`. -/
theorem splits_step (i : Nat) (A B : List Nat) (h : Splits i A B) :
    Splits (i + 1) (A ++ [i]) B ∧ Splits (i + 1) A (B ++ [i]) := by
  obtain ⟨h1, h2, h3, h4, h5⟩ := h
  have hiA : i ∉ A := fun hm => Nat.lt_irrefl i (h3 i hm)
  have hiB : i ∉ B := fun hm => Nat.lt_irrefl i (h4 i hm)
  constructor
  · refine ⟨pairwise_append_lt A i h1 h3, h2, ?_, fun x hx => Nat.lt_succ_of_lt (h4 x hx), ?_⟩
    · intro x hx
      rcases List.mem_append.mp hx with h | h
      · exact Nat.lt_succ_of_lt (h3 x h)
      · rw [List.mem_singleton.mp h]
        exact Nat.lt_succ_self i
    · intro x hx
      by_cases hxi : x = i
      · subst hxi
        exact Or.inl ⟨List.mem_append_right _ (List.mem_singleton_self x), hiB⟩
      · rcases h5 x (by omega) with ⟨a, b⟩ | ⟨a, b⟩
        · exact Or.inl ⟨List.mem_append_left _ a, b⟩
        · right
          refine ⟨?_, b⟩
          intro hm
          rcases List.mem_append.mp hm with h | h
          · exact a h
          · exact hxi (List.mem_singleton.mp h)
  · refine ⟨h1, pairwise_append_lt B i h2 h4, fun x hx => Nat.lt_succ_of_lt (h3 x hx), ?_, ?_⟩
    · intro x hx
      rcases List.mem_append.mp hx with h | h
      · exact Nat.lt_succ_of_lt (h4 x h)
      · rw [List.mem_singleton.mp h]
        exact Nat.lt_succ_self i
    · intro x hx
      by_cases hxi : x = i
      · subst hxi
        exact Or.inr ⟨hiA, List.mem_append_right _ (List.mem_singleton_self x)⟩
      · rcases h5 x (by omega) with ⟨a, b⟩ | ⟨a, b⟩
        · left
          refine ⟨a, ?_⟩
          intro hm
          rcases List.mem_append.mp hm with h | h
          · exact b h
          · exact hxi (List.mem_singleton.mp h)
        · exact Or.inr ⟨a, List.mem_append_left _ b⟩

/-- The two selections of `double_greedy` split `[0, i)` before the iteration of
element `i`, and `[0, n)` when the loop ends. -/
theorem double_greedy_oracles_split {σ α : Type} [LinearOrderedField α] (log : α → α)
    (oops oops_inv : OracleOps σ α) (law : OracleLaw oops) (lawI : OracleLaw oops_inv)
    (param : Param α) (clock : Nat → α) (rng : Nat → Nat) :
    ∀ (m i : Nat) (o oi o1 oi1 : σ),
      Splits i (oops.get_solution o) (oops_inv.get_solution oi) →
      double_greedy_oracles log oops oops_inv param clock rng m i o oi = some (o1, oi1) →
      Splits (i + m) (oops.get_solution o1) (oops_inv.get_solution oi1) := by
  intro m
  induction m with
  | zero =>
    intro i o oi o1 oi1 h heq
    simp only [double_greedy_oracles, Option.some.injEq, Prod.mk.injEq] at heq
    rw [← heq.1, ← heq.2]
    exact h
  | succ m ih =>
    intro i o oi o1 oi1 h heq
    rw [double_greedy_oracles] at heq
    by_cases he : expired param (clock i) = true
    · rw [if_pos he] at heq
      cases heq
    · rw [if_neg he] at heq
      have hs : Splits (i + 1)
          (oops.get_solution (double_greedy_step log oops oops_inv rng i o oi).1)
          (oops_inv.get_solution (double_greedy_step log oops oops_inv rng i o oi).2) := by
        rcases double_greedy_step_S log oops oops_inv law lawI rng i o oi with ⟨a, b⟩ | ⟨a, b⟩
        · rw [a, b]
          exact (splits_step i _ _ h).1
        · rw [a, b]
          exact (splits_step i _ _ h).2
      have := ih (i + 1) _ _ o1 oi1 hs heq
      rw [show i + (m + 1) = i + 1 + m by omega]
      exact this

/-- The loop of `double_greedy` runs to its end when no reading exceeds the limit. -/
theorem double_greedy_oracles_some {σ α : Type} [LinearOrderedField α] (log : α → α)
    (oops oops_inv : OracleOps σ α) (param : Param α) (clock : Nat → α) (rng : Nat → Nat) :
    ∀ (m i : Nat) (o oi : σ), greedy_fin param clock m i = true →
      ∃ o1 oi1, double_greedy_oracles log oops oops_inv param clock rng m i o oi
        = some (o1, oi1) := by
  intro m
  induction m with
  | zero => intro i o oi _; exact ⟨o, oi, rfl⟩
  | succ m ih =>
    intro i o oi h
    rw [greedy_fin] at h
    rw [double_greedy_oracles]
    by_cases he : expired param (clock i) = true
    · rw [if_pos he] at h
      cases h
    · rw [if_neg he] at h
      rw [if_neg he]
      exact ih _ _ _ h

/-- What `double_greedy` returns, from its two oracles, for oracles whose computations
leave the selection as it is and whose `add` appends. -/
theorem doublePartition_of {σ α : Type} [LinearOrderedField α] (log : α → α)
    (oops oops_inv : OracleOps σ α) (law : OracleLaw oops) (lawI : OracleLaw oops_inv)
    (hc : ∀ k b, oops.get_solution (oops.construct k b) = [])
    (hcI : ∀ k b, oops_inv.get_solution (oops_inv.construct k b) = [])
    (n : Nat) (param : Param α) (clock : Nat → α) (rng : Nat → Nat) :
    DoublePartition log oops oops_inv n param clock rng := by
  refine ⟨?_, ?_, ?_⟩
  · intro o oi h
    have h0 : Splits 0 (oops.get_solution (oops.construct n false))
        (oops_inv.get_solution (oops_inv.construct n false)) := by
      rw [hc, hcI]
      exact ⟨List.Pairwise.nil, List.Pairwise.nil, (fun x hx => by cases hx),
        (fun x hx => by cases hx), (fun x hx => absurd hx (Nat.not_lt_zero x))⟩
    have hs := double_greedy_oracles_split log oops oops_inv law lawI param clock rng n 0
      _ _ o oi h0 h
    rw [Nat.zero_add] at hs
    refine ⟨?_, hs, hs.1⟩
    unfold double_greedy
    rw [double_greedy_loop_eq, h]
  · intro h
    unfold double_greedy
    rw [double_greedy_loop_eq, h]
  · intro h
    exact double_greedy_oracles_some log oops oops_inv param clock rng n 0 _ _ h

/-- C27: double greedy partitions the ground set.  For every `L` and `L_inv` on `n`
elements, with the direct oracle and with the fast oracle: when `double_greedy` runs to
completion, which it does when no reading of the timer exceeds the limit, the result is
built from the two oracles at the end of the loop; every index of `[0, n)` has been added
to exactly one of them, the oracle over `L` or the oracle over `L_inv`, each in increasing
order, so that the two selections are disjoint and their union is `[0, n)`, and the
solution returned is strictly increasing. -/
theorem double_greedy_partition (n : Nat) (L Linv : Nat → Nat → ℝ)
    (V0 V1 : Nat → Nat → Option ℝ) (param : Param ℝ) (clock : Nat → ℝ) (rng : Nat → Nat) :
    DoublePartition Real.log (Oracle.ops Real.log L) (Oracle.ops Real.log Linv) n param clock
      rng ∧
    DoublePartition Real.log (Fast.ops Real.sqrt Real.log V0 L)
      (Fast.ops Real.sqrt Real.log V1 Linv) n param clock rng :=
  ⟨doublePartition_of Real.log _ _ (direct_law Real.log L) (direct_law Real.log Linv)
      (fun _ _ => rfl) (fun _ _ => rfl) n param clock rng,
    doublePartition_of Real.log _ _ (fast_law Real.sqrt Real.log V0 L)
      (fast_law Real.sqrt Real.log V1 Linv) (fun _ _ => rfl) (fun _ _ => rfl) n param clock
      rng⟩

/-- Witness of C27: on `diag(4, 3, 2, 0.5, 0.25, 0.125, 0.1, 0.1)` and its inverse without
a time limit, the loop of `double_greedy` with the direct oracle ends with two oracles
whose selections split `[0, 8)`. -/
theorem double_greedy_partition_witness :
    ∃ o oi, double_greedy_oracles Real.log (Oracle.ops Real.log (linearDiag ℝ))
        (Oracle.ops Real.log (diagInv (linearDiag ℝ)))
        { time_limit := ⊤, log_computed_offdiagonals_V := false } (fun _ => 0) (fun _ => 0)
        8 0 (Oracle.construct ℝ) (Oracle.construct ℝ) = some (o, oi) ∧
      Splits 8 o.S oi.S := by
  have h := (double_greedy_partition 8 (linearDiag ℝ) (diagInv (linearDiag ℝ))
    (fun _ _ => none) (fun _ _ => none)
    { time_limit := ⊤, log_computed_offdiagonals_V := false } (fun _ => 0) (fun _ => 0)).1
  obtain ⟨o, oi, ho⟩ := h.2.2 (@greedy_len_top ℝ _ Real.sqrt Real.log _ _ _ rfl 8 0).2
  exact ⟨o, oi, ho, (h.1 o oi ho).2.1⟩

end DPP

namespace DPP

/-- The values that the chains of `interlace_greedy` record, for a strategy and an oracle
that are what the drivers expect. -/
theorem chainsMonotone_of {τ σ α : Type} [LinearOrderedField α] {sqrt log : α → α}
    [Numeric sqrt log]
    (n : Nat) (oops : OracleOps σ α) (Good : σ → Prop) (Holds : σ → Nat → α → Prop)
    (B : OracleBase oops log Good Holds) (sops : StrategyOps τ σ α) (getT : τ → List Nat)
    (getD : τ → Bool) (SI : τ → Prop) (Dead : τ → σ → Prop)
    (SL : StrategyLaw n oops Good sops getT getD SI Dead)
    (k : Nat) (hk : k ≤ n) (param : Param α) (clock : Nat → α) :
    ChainsMonotone log sops oops n k param clock := by
  -- Along commits with gains above `1` the value does not decrease.
  have valueOf_take_mono {α : Type} [LinearOrderedField α] {sqrt log : α → α}
      [Numeric sqrt log] (gs : List α) (h : ∀ g ∈ gs, 1 < g) (i j : Nat) (hij : i ≤ j) :
      ∃ x y : α, valueOf log (gs.take i) = some (x : WithBot α) ∧
        valueOf log (gs.take j) = some (y : WithBot α) ∧ x ≤ y := by
    obtain ⟨x, hx, _⟩ := @valueOf_hot α _ sqrt log _ (gs.take i)
      (fun g hg => h g (List.mem_of_mem_take hg))
    obtain ⟨y, hy, _⟩ := @valueOf_hot α _ sqrt log _ (gs.take j)
      (fun g hg => h g (List.mem_of_mem_take hg))
    refine ⟨x, y, hx, hy, ?_⟩
    by_cases hlt : min i gs.length < min j gs.length
    · have hv := @valueOf_take_lt α _ sqrt log _ gs h (min i gs.length) (min j gs.length) hlt
        (Nat.min_le_right _ _)
      rw [← take_min_length, ← take_min_length, hx, hy] at hv
      simp only [vlt, decide_eq_true_eq] at hv
      exact (WithBot.coe_lt_coe.mp hv).le
    · have heq : min i gs.length = min j gs.length := by omega
      have : gs.take i = gs.take j := by
        rw [take_min_length gs i, take_min_length gs j, heq]
      rw [this, hy] at hx
      simp only [Option.some.injEq, WithBot.coe_inj] at hx
      rw [hx]
  obtain ⟨out, es, gs, h1, h2, h3, _, h5⟩ :=
    interlace_greedy_snaps log n oops Good Holds B sops getT getD SI Dead SL k hk param clock
  refine ⟨out, h1, ?_⟩
  intro f
  obtain ⟨s1, s2, s3, _⟩ := h5 f
  have hsz : out.size = out.quadruples.length := by
    unfold InterlaceResult.size
    rw [h2, h3]
  have hmono : ∀ i j, i ≤ j → j < out.size → ∃ x y : α,
      out.valueAt f i = some (x : WithBot α) ∧ out.valueAt f j = some (y : WithBot α) ∧
      x ≤ y := by
    intro i j hij hj
    rw [hsz] at hj
    rw [(s1 i (by omega)).2, (s1 j hj).2]
    exact @valueOf_take_mono α _ sqrt log _ (gs f) s3 i j hij
  refine ⟨hmono, ?_, ?_⟩
  · intro j hj
    rw [hsz] at hj
    have e1 := (s1 (j + 1) hj).1
    have v0 := (s1 j (by omega)).2
    have v1 := (s1 (j + 1) hj).2
    by_cases hje : j < (es f).length
    · have hjg : j < (gs f).length := by rw [s2]; exact hje
      rw [if_pos ⟨Nat.succ_pos j, hje⟩] at e1
      have hlt := @valueOf_take_lt α _ sqrt log _ (gs f) s3 j (j + 1) (Nat.lt_succ_self j) hjg
      have hmem : (gs f).getD j 0 ∈ gs f := by
        simp only [List.getD_eq_getElem?_getD, List.getElem?_eq_getElem hjg,
          Option.getD_some]
        exact List.getElem_mem hjg
      refine ⟨?_, ?_, ?_⟩
      · rw [v0, v1, hlt, e1]
        simp
      · intro hn
        rw [e1] at hn
        cases hn
      · intro _
        refine ⟨(gs f).getD j 0, s3 _ hmem, ?_⟩
        rw [v0, v1, take_succ_get 0 (gs f) j hjg, valueOf_append]
    · have hjg : ¬ j < (gs f).length := by rw [s2]; exact hje
      rw [if_neg (fun h => hje h.2)] at e1
      have heq : (gs f).take (j + 1) = (gs f).take j := by
        rw [List.take_of_length_le (by omega), List.take_of_length_le (by omega)]
      refine ⟨?_, ?_, ?_⟩
      · rw [v0, v1, heq, @vlt_irrefl_hot α _ sqrt log _ _
          (fun g hg => s3 g (List.mem_of_mem_take hg)), e1]
        simp
      · intro _
        rw [v0, v1, heq]
      · intro hs
        rw [e1] at hs
        cases hs
  · intro i i1 j hi hi1 hj hv
    obtain ⟨x, y, hx, hy, hxy⟩ := hmono i i1 hi (by omega)
    obtain ⟨_, z, _, hz, _⟩ := hmono j j (Nat.le_refl j) hj
    rw [hy, hz] at hv
    rw [hx, hz]
    simp only [vlt, decide_eq_true_eq] at hv ⊢
    exact lt_of_le_of_lt (WithBot.coe_le_coe.mpr hxy) hv

end DPP

namespace DPP

/-- The function `double_greedy` on the `0 × 0` matrix. -/
theorem double_greedy_empty {σ α : Type} [LinearOrderedField α] (log : α → α)
    (oops oops_inv : OracleOps σ α)
    (hc : ∀ k b, oops.get_solution (oops.construct k b) = [] ∧
      oops.get_value (oops.construct k b) = some ((0 : α) : WithBot α))
    (param : Param α) (clock : Nat → α) (rng : Nat → Nat) :
    EmptyResult (double_greedy log oops oops_inv 0 param clock rng) :=
  ⟨_, rfl, rfl, (hc 0 false).1, (hc 0 false).2⟩

/-- C22: empty budget.  For every matrix view `L` on `n` elements, `n = 0` included (the
entries are a function of the indices, those of a dense matrix or those that a
`CachedGramMatrix` returns), plain, random, stochastic and interlace greedy called with
`k = 0`, with the lazy or the non-lazy strategy over the direct or the fast oracle, and
double greedy called on the `0 × 0` matrix, return the solution `[]` and the value `0`
with `finished = true`. -/
theorem empty_budget (n : Nat) (L Linv : Nat → Nat → ℝ) (ord : List Nat → List Nat)
    (hord : SetOrder ord) (V0 V1 : Nat → Nat → Option ℝ) (param : Param ℝ)
    (clock : Nat → ℝ) (rng : Nat → Nat) :
    EmptyBudget Real.log (NonLazy.ops ord (Oracle.ops Real.log L)) (Oracle.ops Real.log L) n
      param clock rng ∧
    EmptyBudget Real.log (Lazy.ops ord (Oracle.ops Real.log L)) (Oracle.ops Real.log L) n
      param clock rng ∧
    EmptyBudget Real.log (NonLazy.ops ord (Fast.ops Real.sqrt Real.log V0 L))
      (Fast.ops Real.sqrt Real.log V0 L) n param clock rng ∧
    EmptyBudget Real.log (Lazy.ops ord (Fast.ops Real.sqrt Real.log V0 L))
      (Fast.ops Real.sqrt Real.log V0 L) n param clock rng ∧
    EmptyResult (double_greedy Real.log (Oracle.ops Real.log L) (Oracle.ops Real.log Linv) 0
      param clock rng) ∧
    EmptyResult (double_greedy Real.log (Fast.ops Real.sqrt Real.log V0 L)
      (Fast.ops Real.sqrt Real.log V1 Linv) 0 param clock rng) := by
  -- The four drivers that take a strategy, called with `k = 0`, for a strategy and an
  -- oracle that are what the drivers expect.
  have emptyBudget_of {τ σ α : Type} [LinearOrderedField α] {sqrt log : α → α}
      [Numeric sqrt log] [FloorRing α]
      (n : Nat) (oops : OracleOps σ α) (Good : σ → Prop) (Holds : σ → Nat → α → Prop)
      (B : OracleBase oops log Good Holds) (sops : StrategyOps τ σ α) (getT : τ → List Nat)
      (getD : τ → Bool) (SI : τ → Prop) (Dead : τ → σ → Prop)
      (SL : StrategyLaw n oops Good sops getT getD SI Dead)
      (param : Param α) (clock : Nat → α) (rng : Nat → Nat) :
      EmptyBudget log sops oops n param clock rng := by
    have hfin : greedy_fin param clock 0 0 = true := rfl
    have hlen : greedy_len param clock 0 0 = 0 := rfl
    refine ⟨?_, ?_, ?_, ?_⟩
    · obtain ⟨out, es, gs, p, h1, h2, _, _, h5, _, _, h8, _, h10, _⟩ :=
        greedy_base log n oops Good Holds B sops getT getD SI Dead SL 0 (Nat.zero_le n) param
          clock
      have hes : es = [] := List.length_eq_zero.mp (by rw [hlen] at h8; omega)
      have hgs : gs = [] := List.length_eq_zero.mp (by
        rw [run_length oops Holds _ p es gs h2, hes]; rfl)
      subst hes
      subst hgs
      have hsize : out.size = 1 := h5.2.1
      obtain ⟨r, r1, r2, r3, r4⟩ := (snap_get log out [] [] h5 0).1 (Nat.le_refl _)
      refine ⟨out, h1, by rw [h10, hfin]; rfl, hsize, r, ?_, r2, r3, r4⟩
      unfold GreedyResult.last
      rw [hsize]
      exact r1
    · obtain ⟨r, r1, _, r3⟩ :=
        random_greedy_base log n oops Good Holds B sops getT getD SI Dead SL 0 (Nat.zero_le n)
          param clock rng
      obtain ⟨es, gs, p, q1, q2, q3, q4, _, _, q7, _⟩ := r3 hfin
      have hes : es = [] := List.length_eq_zero.mp (by omega)
      have hgs : gs = [] := List.length_eq_zero.mp (by
        rw [run_length oops Holds _ p es gs q1, hes]; rfl)
      refine ⟨r, r1, by rw [q2]; rfl, ?_, ?_⟩
      · rw [q2]
        show oops.get_solution p = []
        rw [q3, hes]
      · rw [q2]
        show oops.get_value p = _
        rw [q4, hgs]
        rfl
    · obtain ⟨r, r1, _, r3⟩ :=
        @stochastic_greedy_base τ σ α _ sqrt log _ _ n oops Good Holds B sops getT getD SI Dead
          SL 0 (Nat.zero_le n) param clock rng
      obtain ⟨es, gs, p, q1, q2, q3, q4, _, _, q7⟩ := r3 hfin
      have hes : es = [] := List.length_eq_zero.mp q7
      have hgs : gs = [] := List.length_eq_zero.mp (by
        rw [run_length oops Holds _ p es gs q1, hes]; rfl)
      refine ⟨r, r1, by rw [q2]; rfl, ?_, ?_⟩
      · rw [q2]
        show oops.get_solution p = []
        rw [q3, hes]
      · rw [q2]
        show oops.get_value p = _
        rw [q4, hgs]
        rfl
    · obtain ⟨out, es, gs, h1, h2, h3, h4, h5⟩ :=
        interlace_greedy_snaps log n oops Good Holds B sops getT getD SI Dead SL 0
          (Nat.zero_le n) param clock
      have hsize : out.size = 1 := by
        unfold InterlaceResult.size
        rw [h3, hlen]
      obtain ⟨r, f, r1, r2, r3, r4, _⟩ := @chainSnap_get α _ sqrt log _ out (by rw [h2, h3]) es
        gs (fun f => ⟨(h5 f).1, (h5 f).2.1, (h5 f).2.2.1⟩) 0 (by rw [hsize]; exact Nat.one_pos)
      refine ⟨out, h1, by rw [h4, hfin], hsize, r, ?_, r2, ?_, ?_⟩
      · unfold InterlaceResult.last
        rw [hsize]
        exact r1
      · rw [r3, List.take_zero]
      · rw [r4, ((h5 f).1 0 (by rw [h2, hlen]; exact Nat.one_pos)).2, List.take_zero]
        rfl
  have BD := direct_base Real.log L
  have BF := fast_base Real.sqrt Real.log V0 L
  exact ⟨@emptyBudget_of _ _ ℝ _ Real.sqrt Real.log _ _ n _ _ _ BD _ _ _ _ _
      (nonlazy_law n _ BD.law _ ord hord) param clock rng,
    @emptyBudget_of _ _ ℝ _ Real.sqrt Real.log _ _ n _ _ _ BD _ _ _ _ _
      (lazy_law n _ BD.law _ ord hord) param clock rng,
    @emptyBudget_of _ _ ℝ _ Real.sqrt Real.log _ _ n _ _ _ BF _ _ _ _ _
      (nonlazy_law n _ BF.law _ ord hord) param clock rng,
    @emptyBudget_of _ _ ℝ _ Real.sqrt Real.log _ _ n _ _ _ BF _ _ _ _ _
      (lazy_law n _ BF.law _ ord hord) param clock rng,
    double_greedy_empty Real.log _ _ (fun _ _ => ⟨rfl, rfl⟩) param clock rng,
    double_greedy_empty Real.log _ _ (fun _ _ => ⟨rfl, rfl⟩) param clock rng⟩

/-- Witness of C22: the Gram matrix of a matrix `B` with `3` rows and no column, which is
the `0 × 0` matrix, with the lazy strategy over the direct oracle. -/
theorem empty_budget_witness :
    EmptyBudget Real.log
      (Lazy.ops (fun l => l.dedup) (Oracle.ops Real.log (colDot 3 (fun _ _ => (0 : ℝ)))))
      (Oracle.ops Real.log (colDot 3 (fun _ _ => (0 : ℝ)))) 0
      { time_limit := ⊤, log_computed_offdiagonals_V := false } (fun _ => 0) (fun _ => 0) :=
  (empty_budget 0 (colDot 3 (fun _ _ => (0 : ℝ))) (colDot 3 (fun _ _ => (0 : ℝ)))
    (fun l => l.dedup) setOrder_id (fun _ _ => none) (fun _ _ => none)
    { time_limit := ⊤, log_computed_offdiagonals_V := false } (fun _ => 0)
    (fun _ => 0)).2.1

end DPP

namespace DPP

/-- A run from a state over which no gain exceeds `1` commits nothing when every gain
committed is above `1` and every element committed is below `n`. -/
theorem run_cold {σ α : Type} [LinearOrderedField α] (n : Nat) (oops : OracleOps σ α)
    (Holds : σ → Nat → α → Prop) (Cold : σ → Prop) (C : ColdOracle n oops Holds Cold)
    (o p : σ) (es : List Nat) (gs : List α) (h : Run oops Holds o es gs p) (hc : Cold o)
    (hot : ∀ g ∈ gs, 1 < g) (hlt : ∀ x ∈ es, x < n) : es = [] ∧ gs = [] ∧ Cold p := by
  induction h with
  | refl => exact ⟨rfl, rfl, hc⟩
  | compute es gs p x _ _ ih =>
    obtain ⟨i1, i2, i3⟩ := ih hot hlt
    exact ⟨i1, i2, C.compute p x i3⟩
  | get_last es gs p x _ ih =>
    obtain ⟨i1, i2, i3⟩ := ih hot hlt
    exact ⟨i1, i2, C.get_last p x i3⟩
  | clear es gs p _ ih =>
    obtain ⟨i1, i2, i3⟩ := ih hot hlt
    exact ⟨i1, i2, C.clear p i3⟩
  | add es gs p e v _ _ hh ih =>
    exfalso
    obtain ⟨_, _, i3⟩ := ih (fun g hg => hot g (List.mem_append_left _ hg))
      (fun x hx => hlt x (List.mem_append_left _ hx))
    have h1 := C.holds p e v i3 hh
      (hlt e (List.mem_append_right _ (List.mem_singleton_self e)))
    have h2 := hot v (List.mem_append_right _ (List.mem_singleton_self v))
    exact absurd h1 (not_le.mpr h2)

theorem cold_update {α : Type} [LinearOrderedField α] (n : Nat) (d : Nat → Option α)
    (e : Nat) (v : α) (h : ∀ x y, x < n → d x = some y → y ≤ 1) (hv : e < n → v ≤ 1) :
    ∀ x y, x < n → Function.update d e (some v) x = some y → y ≤ 1 := by
  intro x y hn hxy
  by_cases hx : x = e
  · subst hx
    rw [Function.update_same] at hxy
    simp only [Option.some.injEq] at hxy
    rw [← hxy]
    exact hv hn
  · rw [Function.update_noteq hx] at hxy
    exact h x y hn hxy

/-- Over a kernel whose diagonal entries are at most `1`, no gain of the direct oracle
exceeds `1` while nothing is added. -/
theorem direct_cold {α : Type} [LinearOrderedField α] (log : α → α) (n : Nat)
    (L : Nat → Nat → α) (hdiag : ∀ e, e < n → L e e ≤ 1) :
    ColdOracle n (Oracle.ops log L) Oracle.Holds (Oracle.Cold n) := by
  refine ⟨fun _ _ => ⟨rfl, fun e x _ hx => by cases hx⟩, ?_, ?_, fun o h => h, ?_⟩
  · intro o e h
    obtain ⟨u, d, S, value, calls⟩ := o
    obtain ⟨hS, hc⟩ := h
    simp only [] at hS hc
    subst hS
    show Oracle.Cold n (Oracle.compute_marginal_gain_exponential L _ e).2
    unfold Oracle.compute_marginal_gain_exponential
    split
    · refine ⟨rfl, ?_⟩
      have h0 : Matrix.dotProduct (subVector L [] e)
          (ldltSolve (subMatrix L [] []) (subVector L [] e)) = 0 := by
        simp [Matrix.dotProduct]
      refine cold_update n d e _ hc ?_
      intro he
      rw [h0, sub_zero]
      exact max_le zero_le_one (hdiag e he)
    · exact ⟨rfl, hc⟩
  · intro o e h
    obtain ⟨hS, hc⟩ := h
    show Oracle.Cold n (Oracle.get_last_marginal_gain_exponential L o e).2
    unfold Oracle.get_last_marginal_gain_exponential
    split
    · exact ⟨hS, cold_update n o.d e _ hc (hdiag e)⟩
    · exact ⟨hS, hc⟩
  · intro o e v h hh he
    exact h.2 e v he hh.1

/-- Over a kernel whose diagonal entries are at most `1`, no gain of the fast oracle
exceeds `1` while nothing is added. -/
theorem fast_cold {α : Type} [LinearOrderedField α] (sqrt log : α → α)
    (V0 : Nat → Nat → Option α) (n : Nat) (L : Nat → Nat → α)
    (hdiag : ∀ e, e < n → L e e ≤ 1) :
    ColdOracle n (Fast.ops sqrt log V0 L) Fast.Holds (Fast.Cold n) := by
  have hget : ∀ (o : Fast.Instance α) (e : Nat), Fast.Cold n o →
      Fast.Cold n (Fast.get_last_marginal_gain_exponential L o e).2 := by
    intro o e h
    obtain ⟨hS, hc⟩ := h
    unfold Fast.get_last_marginal_gain_exponential
    cases hd : o.d e with
    | none => exact ⟨hS, cold_update n o.d e _ hc (hdiag e)⟩
    | some x => exact ⟨hS, hc⟩
  refine ⟨fun _ _ => ⟨rfl, fun e x _ hx => by cases hx⟩, ?_, hget, fun o h => h, ?_⟩
  · intro o e h
    have g := hget o e h
    show Fast.Cold n (Fast.compute_marginal_gain_exponential sqrt L o e).2
    have hz : (Fast.get_last_marginal_gain_exponential L o e).2.S.length
        - (Fast.get_last_marginal_gain_exponential L o e).2.u e = 0 := by
      rw [g.1, List.length_nil, Nat.zero_sub]
    simp only [Fast.compute_marginal_gain_exponential, hz, Fast.loop]
    exact g
  · intro o e v h hh he
    exact h.2 e v he hh.1

theorem coldDiag_le {α : Type} [LinearOrderedField α] (e : Nat) : coldDiag α e e ≤ 1 := by
  unfold coldDiag
  rw [if_pos rfl]
  split <;> norm_num

end DPP

namespace DPP

/-- Over a kernel with no gain above `1`, `random_greedy` returns the empty solution with
the value `0`. -/
theorem random_greedy_cold {τ σ α : Type} [LinearOrderedField α] (log : α → α)
    (n : Nat) (oops : OracleOps σ α) (Good : σ → Prop) (Holds : σ → Nat → α → Prop)
    (B : OracleBase oops log Good Holds) (sops : StrategyOps τ σ α) (getT : τ → List Nat)
    (getD : τ → Bool) (SI : τ → Prop) (Dead : τ → σ → Prop)
    (SL : StrategyLaw n oops Good sops getT getD SI Dead) (Cold : σ → Prop)
    (C : ColdOracle n oops Holds Cold)
    (k : Nat) (hk : k ≤ n) (param : Param α) (clock : Nat → α) (rng : Nat → Nat) :
    ColdResult (random_greedy sops oops n k param clock rng) := by
  obtain ⟨r, r1, r2, r3⟩ :=
    random_greedy_base log n oops Good Holds B sops getT getD SI Dead SL k hk param clock rng
  cases hf : greedy_fin param clock k 0 with
  | false =>
    refine ⟨r, r1, ?_, ?_⟩
    · rw [r2 hf]
      rfl
    · rw [r2 hf]
      rfl
  | true =>
    obtain ⟨es, gs, p, q1, q2, q3, q4, _, q6, _, q8⟩ := r3 hf
    obtain ⟨hes, hgs, _⟩ := run_cold n oops Holds Cold C _ p es gs q1 (C.construct _ _) q8 q6
    refine ⟨r, r1, ?_, ?_⟩
    · rw [q2]
      show oops.get_solution p = []
      rw [q3, hes]
    · rw [q2]
      show oops.get_value p = _
      rw [q4, hgs]
      rfl

end DPP

namespace DPP

/-- C21: random greedy is not padded to `k`.  For every kernel `L`, every `k ≤ n` and
every engine output, with the lazy or the non-lazy strategy over the direct or the fast
oracle, each step of `random_greedy` draws an index in `[0, max(0, k - 1)]` and goes on
with the oracle that has added the element popped at that index, or unchanged when nothing
was popped; the result is the unfinished one or that of a run that committed at most `k`
elements, each when its cell held a gain above `1`; so the solution has at most `k`
elements and the value is finite and not negative.  When the diagonal entries of `L` are
all at most `1` the result is the empty solution with the value `0`. -/
theorem random_greedy_not_padded (n : Nat) (L : Nat → Nat → ℝ) (k : Nat) (hk : k ≤ n)
    (ord : List Nat → List Nat) (hord : SetOrder ord) (V0 : Nat → Nat → Option ℝ)
    (param : Param ℝ) (clock : Nat → ℝ) (rng : Nat → Nat) :
    (NotPadded Real.log (NonLazy.ops ord (Oracle.ops Real.log L)) (Oracle.ops Real.log L)
        Oracle.Holds n k param clock rng ∧
      NotPadded Real.log (Lazy.ops ord (Oracle.ops Real.log L)) (Oracle.ops Real.log L)
        Oracle.Holds n k param clock rng ∧
      NotPadded Real.log (NonLazy.ops ord (Fast.ops Real.sqrt Real.log V0 L))
        (Fast.ops Real.sqrt Real.log V0 L) Fast.Holds n k param clock rng ∧
      NotPadded Real.log (Lazy.ops ord (Fast.ops Real.sqrt Real.log V0 L))
        (Fast.ops Real.sqrt Real.log V0 L) Fast.Holds n k param clock rng) ∧
    ((∀ e, e < n → L e e ≤ 1) →
      ColdResult (random_greedy (NonLazy.ops ord (Oracle.ops Real.log L))
        (Oracle.ops Real.log L) n k param clock rng) ∧
      ColdResult (random_greedy (Lazy.ops ord (Oracle.ops Real.log L))
        (Oracle.ops Real.log L) n k param clock rng) ∧
      ColdResult (random_greedy (NonLazy.ops ord (Fast.ops Real.sqrt Real.log V0 L))
        (Fast.ops Real.sqrt Real.log V0 L) n k param clock rng) ∧
      ColdResult (random_greedy (Lazy.ops ord (Fast.ops Real.sqrt Real.log V0 L))
        (Fast.ops Real.sqrt Real.log V0 L) n k param clock rng)) := by
  -- What `random_greedy` returns over any kernel.
  have notPadded_of {τ σ α : Type} [LinearOrderedField α] {sqrt log : α → α}
      [Numeric sqrt log]
      (n : Nat) (oops : OracleOps σ α) (Good : σ → Prop) (Holds : σ → Nat → α → Prop)
      (B : OracleBase oops log Good Holds) (sops : StrategyOps τ σ α) (getT : τ → List Nat)
      (getD : τ → Bool) (SI : τ → Prop) (Dead : τ → σ → Prop)
      (SL : StrategyLaw n oops Good sops getT getD SI Dead)
      (k : Nat) (hk : k ≤ n) (param : Param α) (clock : Nat → α) (rng : Nat → Nat) :
      NotPadded log sops oops Holds n k param clock rng := by
    obtain ⟨r, r1, r2, r3⟩ :=
      random_greedy_base log n oops Good Holds B sops getT getD SI Dead SL k hk param clock rng
    have hstep : ∀ m t s o r s1 o1,
        sops.pop_kth_largest s o (uniform_int 0 (max 0 (k - 1)) (rng t)) = .ok (r, s1, o1) →
        expired param (clock t) = false →
        random_greedy_loop sops oops k param clock rng (m + 1) t s o =
          random_greedy_loop sops oops k param clock rng m (t + 1) s1
            (match r with
              | some e => oops.add o1 e
              | none => o1) := by
      intro m t s o r s1 o1 hp he
      simp only [random_greedy_loop, hp, he]
      rfl
    have hdraw : ∀ t, 0 ≤ uniform_int 0 (max 0 (k - 1)) (rng t) ∧
        uniform_int 0 (max 0 (k - 1)) (rng t) ≤ max 0 (k - 1) :=
      fun t => uniform_int_range 0 (max 0 (k - 1)) (rng t) (Nat.zero_le _)
    cases hf : greedy_fin param clock k 0 with
    | false =>
      have hr := r2 hf
      refine ⟨r, r1, Or.inl hr, ?_, ⟨0, ?_, le_refl _⟩, hdraw, hstep⟩
      · rw [hr]
        exact Nat.zero_le k
      · rw [hr]
        rfl
    | true =>
      obtain ⟨es, gs, p, q1, q2, q3, q4, _, _, q7, q8⟩ := r3 hf
      have hsol : r.solution = es := by
        rw [q2]
        exact q3
      have hval : r.value = valueOf log gs := by
        rw [q2]
        exact q4
      obtain ⟨x, hx, hx0⟩ := @valueOf_hot α _ sqrt log _ gs q8
      refine ⟨r, r1, Or.inr ⟨es, gs, p, q1, q2, hsol, hval, q7, q8⟩, ?_, ⟨x, ?_, hx0⟩, hdraw,
        hstep⟩
      · rw [hsol]
        exact q7
      · rw [hval]
        exact hx
  have BD := direct_base Real.log L
  have BF := fast_base Real.sqrt Real.log V0 L
  refine ⟨⟨@notPadded_of _ _ ℝ _ Real.sqrt Real.log _ n _ _ _ BD _ _ _ _ _
      (nonlazy_law n _ BD.law _ ord hord) k hk param clock rng,
    @notPadded_of _ _ ℝ _ Real.sqrt Real.log _ n _ _ _ BD _ _ _ _ _
      (lazy_law n _ BD.law _ ord hord) k hk param clock rng,
    @notPadded_of _ _ ℝ _ Real.sqrt Real.log _ n _ _ _ BF _ _ _ _ _
      (nonlazy_law n _ BF.law _ ord hord) k hk param clock rng,
    @notPadded_of _ _ ℝ _ Real.sqrt Real.log _ n _ _ _ BF _ _ _ _ _
      (lazy_law n _ BF.law _ ord hord) k hk param clock rng⟩, ?_⟩
  intro hdiag
  have CD := direct_cold Real.log n L hdiag
  have CF := fast_cold Real.sqrt Real.log V0 n L hdiag
  exact ⟨random_greedy_cold Real.log n _ _ _ BD _ _ _ _ _
      (nonlazy_law n _ BD.law _ ord hord) _ CD k hk param clock rng,
    random_greedy_cold Real.log n _ _ _ BD _ _ _ _ _
      (lazy_law n _ BD.law _ ord hord) _ CD k hk param clock rng,
    random_greedy_cold Real.log n _ _ _ BF _ _ _ _ _
      (nonlazy_law n _ BF.law _ ord hord) _ CF k hk param clock rng,
    random_greedy_cold Real.log n _ _ _ BF _ _ _ _ _
      (lazy_law n _ BF.law _ ord hord) _ CF k hk param clock rng⟩

/-- Witness of C21: on `diag(0.3, 0.2, 0.9, 0.5, 0.25, 0.125, 0.1, 0.1)` with `k = 4`,
the non-lazy strategy over the direct oracle returns the empty solution, which has fewer
than `4` elements, with the value `0`. -/
theorem random_greedy_not_padded_witness :
    ColdResult (random_greedy (NonLazy.ops (fun l => l.dedup) (Oracle.ops Real.log (coldDiag ℝ)))
      (Oracle.ops Real.log (coldDiag ℝ)) 8 4
      { time_limit := ⊤, log_computed_offdiagonals_V := false } (fun _ => 0) (fun t => t)) :=
  ((random_greedy_not_padded 8 (coldDiag ℝ) 4 (by decide) (fun l => l.dedup) setOrder_id
    (fun _ _ => none) { time_limit := ⊤, log_computed_offdiagonals_V := false } (fun _ => 0)
    (fun t => t)).2 (fun e _ => coldDiag_le e)).1

/-- C23: kernels with no gain above `1`.  For every kernel `L` whose diagonal entries are
all at most `1` and every `k ≤ n`, `interlace_greedy` with the lazy or the non-lazy
strategy over the direct or the fast oracle returns a result in which no chain records an
element at any step and every value recorded is `0`, and whose last snapshot has the
solution `[]` and the value `0`. -/
theorem interlace_greedy_cold (n : Nat) (L : Nat → Nat → ℝ)
    (hdiag : ∀ e, e < n → L e e ≤ 1) (k : Nat) (hk : k ≤ n)
    (ord : List Nat → List Nat) (hord : SetOrder ord) (V0 : Nat → Nat → Option ℝ)
    (param : Param ℝ) (clock : Nat → ℝ) :
    ColdChains (NonLazy.ops ord (Oracle.ops Real.log L)) (Oracle.ops Real.log L) n k param
      clock ∧
    ColdChains (Lazy.ops ord (Oracle.ops Real.log L)) (Oracle.ops Real.log L) n k param
      clock ∧
    ColdChains (NonLazy.ops ord (Fast.ops Real.sqrt Real.log V0 L))
      (Fast.ops Real.sqrt Real.log V0 L) n k param clock ∧
    ColdChains (Lazy.ops ord (Fast.ops Real.sqrt Real.log V0 L))
      (Fast.ops Real.sqrt Real.log V0 L) n k param clock := by
  -- Over a kernel with no gain above `1`, no chain of `interlace_greedy` commits.
  have coldChains_of {τ σ α : Type} [LinearOrderedField α] {sqrt log : α → α}
      [Numeric sqrt log]
      (n : Nat) (oops : OracleOps σ α) (Good : σ → Prop) (Holds : σ → Nat → α → Prop)
      (B : OracleBase oops log Good Holds) (sops : StrategyOps τ σ α) (getT : τ → List Nat)
      (getD : τ → Bool) (SI : τ → Prop) (Dead : τ → σ → Prop)
      (SL : StrategyLaw n oops Good sops getT getD SI Dead) (Cold : σ → Prop)
      (C : ColdOracle n oops Holds Cold)
      (k : Nat) (hk : k ≤ n) (param : Param α) (clock : Nat → α) :
      ColdChains sops oops n k param clock := by
    -- What `interlace_greedy` returns over any kernel, chain by chain, with the run of the
    -- oracle of each chain.
    have interlace_greedy_runs {τ σ α : Type} [LinearOrderedField α] (log : α → α)
        (n : Nat) (oops : OracleOps σ α) (Good : σ → Prop) (Holds : σ → Nat → α → Prop)
        (B : OracleBase oops log Good Holds) (sops : StrategyOps τ σ α) (getT : τ → List Nat)
        (getD : τ → Bool) (SI : τ → Prop) (Dead : τ → σ → Prop)
        (SL : StrategyLaw n oops Good sops getT getD SI Dead)
        (k : Nat) (hk : k ≤ n) (param : Param α) (clock : Nat → α) :
        ∃ (out : InterlaceResult α) (es : Fin 4 → List Nat) (gs : Fin 4 → List α),
          interlace_greedy sops oops n k param clock = .ok out ∧
          out.quadruples.length = greedy_len param clock k 0 + 1 ∧
          out.measurements.length = greedy_len param clock k 0 + 1 ∧
          ∀ f : Fin 4, InterlaceResult.ChainSnap log out f (es f) (gs f) ∧
            (gs f).length = (es f).length ∧ (∀ g ∈ gs f, 1 < g) ∧ (∀ x ∈ es f, x < n) ∧
            ∃ p, Run oops Holds (oops.construct k param.log_computed_offdiagonals_V) (es f)
              (gs f) p := by
      obtain ⟨out, c', h1, h2, h3, _, _, _, l0, l1, l2, l3⟩ :=
        interlace_greedy_base log n oops Good Holds B sops getT getD SI Dead SL k hk param clock
      obtain ⟨g0, a1, _, a3, _, a5, a6, _⟩ := l0
      obtain ⟨g1, b1, _, b3, _, b5, b6, _⟩ := l1
      obtain ⟨g2, c1, _, c3, _, c5, c6, _⟩ := l2
      obtain ⟨g3, d1, _, d3, _, d5, d6, _⟩ := l3
      refine ⟨out, ![oops.get_solution c'.c0.oracle, oops.get_solution c'.c1.oracle,
          oops.get_solution c'.c2.oracle, oops.get_solution c'.c3.oracle],
        ![g0, g1, g2, g3], h1, h2, h3, ?_⟩
      intro f
      fin_cases f
      · exact ⟨a6, run_length oops Holds _ _ _ _ a1, a3, a5, _, a1⟩
      · exact ⟨b6, run_length oops Holds _ _ _ _ b1, b3, b5, _, b1⟩
      · exact ⟨c6, run_length oops Holds _ _ _ _ c1, c3, c5, _, c1⟩
      · exact ⟨d6, run_length oops Holds _ _ _ _ d1, d3, d5, _, d1⟩
    obtain ⟨out, es, gs, h1, h2, h3, h5⟩ :=
      interlace_greedy_runs log n oops Good Holds B sops getT getD SI Dead SL k hk param clock
    have hcold : ∀ f, es f = [] ∧ gs f = [] := by
      intro f
      obtain ⟨_, _, s3, s4, p, s5⟩ := h5 f
      obtain ⟨a, b, _⟩ := run_cold n oops Holds Cold C _ p _ _ s5 (C.construct _ _) s3 s4
      exact ⟨a, b⟩
    have hrec : ∀ (f : Fin 4) (j : Nat), j < out.size → out.elementAt f j = none ∧
        out.valueAt f j = some ((0 : α) : WithBot α) := by
      intro f j hj
      have hj' : j < out.quadruples.length := by
        unfold InterlaceResult.size at hj
        rw [h2, ← h3]
        exact hj
      obtain ⟨e1, e2⟩ := (h5 f).1 j hj'
      rw [(hcold f).1] at e1
      rw [(hcold f).2] at e2
      refine ⟨?_, ?_⟩
      · rw [e1, if_neg]
        intro hh
        have := hh.2
        rw [List.length_nil] at this
        omega
      · rw [e2, List.take_nil]
        rfl
    have hpos : 0 < out.size := by
      unfold InterlaceResult.size
      rw [h3]
      exact Nat.succ_pos _
    obtain ⟨r, f, r1, _, r3, r4, _⟩ := @chainSnap_get α _ sqrt log _ out (by rw [h2, h3]) es
      gs (fun f => ⟨(h5 f).1, (h5 f).2.1, (h5 f).2.2.1⟩) (out.size - 1) (by omega)
    refine ⟨out, h1, hrec, r, ?_, ?_, ?_⟩
    · unfold InterlaceResult.last
      exact r1
    · rw [r3, (hcold f).1, List.take_nil]
    · rw [r4]
      exact (hrec f (out.size - 1) (by omega)).2
  have BD := direct_base Real.log L
  have BF := fast_base Real.sqrt Real.log V0 L
  have CD := direct_cold Real.log n L hdiag
  have CF := fast_cold Real.sqrt Real.log V0 n L hdiag
  exact ⟨@coldChains_of _ _ ℝ _ Real.sqrt Real.log _ n _ _ _ BD _ _ _ _ _
      (nonlazy_law n _ BD.law _ ord hord) _ CD k hk param clock,
    @coldChains_of _ _ ℝ _ Real.sqrt Real.log _ n _ _ _ BD _ _ _ _ _
      (lazy_law n _ BD.law _ ord hord) _ CD k hk param clock,
    @coldChains_of _ _ ℝ _ Real.sqrt Real.log _ n _ _ _ BF _ _ _ _ _
      (nonlazy_law n _ BF.law _ ord hord) _ CF k hk param clock,
    @coldChains_of _ _ ℝ _ Real.sqrt Real.log _ n _ _ _ BF _ _ _ _ _
      (lazy_law n _ BF.law _ ord hord) _ CF k hk param clock⟩

/-- Witness of C23: `diag(0.3, 0.2, 0.9, 0.5, 0.25, 0.125, 0.1, 0.1)` with `k = 4`, with
the lazy strategy over the fast oracle. -/
theorem interlace_greedy_cold_witness :
    ColdChains (Lazy.ops (fun l => l.dedup)
        (Fast.ops Real.sqrt Real.log (fun _ _ => none) (coldDiag ℝ)))
      (Fast.ops Real.sqrt Real.log (fun _ _ => none) (coldDiag ℝ)) 8 4
      { time_limit := ⊤, log_computed_offdiagonals_V := false } (fun _ => 0) :=
  (interlace_greedy_cold 8 (coldDiag ℝ) (fun e _ => coldDiag_le e) 4 (by decide)
    (fun l => l.dedup) setOrder_id (fun _ _ => none)
    { time_limit := ⊤, log_computed_offdiagonals_V := false } (fun _ => 0)).2.2.2

end DPP

namespace DPP

theorem expired_infinite {α : Type} [LinearOrderedField α] (param : Param α)
    (h : param.time_limit = ⊤) (t : α) : expired param t = false := by
  unfold expired
  rw [h]
  simp

theorem sameResult_of {α : Type} [LinearOrderedField α] (a b : Except Fault (Result α))
    (r r' : Result α) (ha : a = .ok r) (hb : b = .ok r')
    (h : Except.map Result.untimed a = Except.map Result.untimed b) : SameResult a b := by
  rw [ha, hb] at h
  have hu : r.untimed = r'.untimed := by
    simp only [Except.map, Except.ok.injEq] at h
    exact h
  have h1 : r.untimed.solution = r'.untimed.solution := congrArg Result.solution hu
  have h2 : r.untimed.value = r'.untimed.value := congrArg Result.value hu
  have h3 : r.untimed.finished = r'.untimed.finished := congrArg Result.finished hu
  exact ⟨r, r', ha, hb, h1, h2, h3, hu⟩

/-- The loop of `random_greedy` under an infinite time limit, whatever the timer
measures. -/
theorem random_greedy_loop_untimed {τ σ α : Type} [LinearOrderedField α]
    (sops : StrategyOps τ σ α) (oops : OracleOps σ α) (k : Nat) (param : Param α)
    (h : param.time_limit = ⊤) (clock clock' : Nat → α) (rng : Nat → Nat) (m : Nat) :
    ∀ t s o, Except.map Result.untimed (random_greedy_loop sops oops k param clock rng m t s o)
      = Except.map Result.untimed (random_greedy_loop sops oops k param clock' rng m t s o) := by
  induction m with
  | zero =>
    intro t s o
    rfl
  | succ m ih =>
    intro t s o
    simp only [random_greedy_loop]
    cases hp : sops.pop_kth_largest s o (uniform_int 0 (max 0 (k - 1)) (rng t)) with
    | error f => rfl
    | ok x =>
      obtain ⟨r, s1, o1⟩ := x
      simp only [expired_infinite param h, Bool.false_eq_true, if_false]
      exact ih _ _ _

theorem random_greedy_untimed {τ σ α : Type} [LinearOrderedField α]
    (sops : StrategyOps τ σ α) (oops : OracleOps σ α) (n k : Nat) (param : Param α)
    (h : param.time_limit = ⊤) (clock clock' : Nat → α) (rng : Nat → Nat) :
    Except.map Result.untimed (random_greedy sops oops n k param clock rng)
      = Except.map Result.untimed (random_greedy sops oops n k param clock' rng) := by
  unfold random_greedy
  split
  · rfl
  · exact random_greedy_loop_untimed sops oops k param h clock clock' rng k _ _ _

/-- The loop of `stochastic_greedy` under an infinite time limit, whatever the timer
measures. -/
theorem stochastic_greedy_loop_untimed {τ σ α : Type} [LinearOrderedField α]
    (sops : StrategyOps τ σ α) (oops : OracleOps σ α) (n k s : Nat) (param : Param α)
    (h : param.time_limit = ⊤) (clock clock' : Nat → α) (rng : Nat → Nat) (m : Nat) :
    ∀ t pos T T_inv o,
      Except.map Result.untimed
        (stochastic_greedy_loop sops oops n k s param clock rng m t pos T T_inv o)
      = Except.map Result.untimed
        (stochastic_greedy_loop sops oops n k s param clock' rng m t pos T T_inv o) := by
  induction m with
  | zero =>
    intro t pos T T_inv o
    rfl
  | succ m ih =>
    intro t pos T T_inv o
    simp only [stochastic_greedy_loop]
    cases hp : sops.pop_largest
        (sops.construct ((fisher_yates_shuffle rng (min s (n - (oops.get_solution o).length))
          pos T T_inv).1.take (min s (n - (oops.get_solution o).length))) false o).1
        (sops.construct ((fisher_yates_shuffle rng (min s (n - (oops.get_solution o).length))
          pos T T_inv).1.take (min s (n - (oops.get_solution o).length))) false o).2 with
    | error f => rfl
    | ok x =>
      obtain ⟨r, s1, o1⟩ := x
      simp only [expired_infinite param h, Bool.false_eq_true, if_false]
      exact ih _ _ _ _ _

theorem stochastic_greedy_untimed {τ σ α : Type} [LinearOrderedField α] [FloorRing α]
    (log : α → α) (sops : StrategyOps τ σ α) (oops : OracleOps σ α) (n k : Nat)
    (param : Param α) (h : param.time_limit = ⊤) (clock clock' : Nat → α) (rng : Nat → Nat) :
    Except.map Result.untimed (stochastic_greedy log sops oops n k param clock rng)
      = Except.map Result.untimed (stochastic_greedy log sops oops n k param clock' rng) := by
  unfold stochastic_greedy
  split
  · rfl
  · exact stochastic_greedy_loop_untimed sops oops n k _ param h clock clock' rng k _ _ _ _ _

/-- The loop of `double_greedy` under an infinite time limit, whatever the timer
measures. -/
theorem double_greedy_loop_untimed {σ α : Type} [LinearOrderedField α] (log : α → α)
    (oops oops_inv : OracleOps σ α) (n : Nat) (param : Param α)
    (h : param.time_limit = ⊤) (clock clock' : Nat → α) (rng : Nat → Nat) (m : Nat) :
    ∀ i o oi,
      Except.map Result.untimed (double_greedy_loop log oops oops_inv n param clock rng m i o oi)
      = Except.map Result.untimed
        (double_greedy_loop log oops oops_inv n param clock' rng m i o oi) := by
  induction m with
  | zero =>
    intro i o oi
    rfl
  | succ m ih =>
    intro i o oi
    simp only [double_greedy_loop, expired_infinite param h, Bool.false_eq_true, if_false]
    exact ih _ _ _

theorem double_greedy_untimed {σ α : Type} [LinearOrderedField α] (log : α → α)
    (oops oops_inv : OracleOps σ α) (n : Nat) (param : Param α)
    (h : param.time_limit = ⊤) (clock clock' : Nat → α) (rng : Nat → Nat) :
    Except.map Result.untimed (double_greedy log oops oops_inv n param clock rng)
      = Except.map Result.untimed (double_greedy log oops oops_inv n param clock' rng) :=
  double_greedy_loop_untimed log oops oops_inv n param h clock clock' rng n _ _ _

theorem greedyResult_add_untimed {α : Type} [LinearOrderedField α] (r r' : GreedyResult α)
    (h : r.untimed = r'.untimed) (e : Option Nat) (v : Value α) (t t' : α) (a b c : Nat)
    (l : List (Nat × Nat)) :
    (r.add e v t a b c l).untimed = (r'.add e v t' a b c l).untimed := by
  obtain ⟨p, ms, f⟩ := r
  obtain ⟨p', ms', f'⟩ := r'
  simp only [GreedyResult.untimed, GreedyResult.mk.injEq] at h
  obtain ⟨h1, h2, h3⟩ := h
  simp only [GreedyResult.untimed, GreedyResult.add, GreedyResult.mk.injEq, List.map_append,
    h1, h2, h3, true_and]
  exact ⟨rfl, trivial⟩

/-- The loop of `greedy` under an infinite time limit, whatever the timer measures. -/
theorem greedy_loop_untimed {τ σ α : Type} [LinearOrderedField α]
    (sops : StrategyOps τ σ α) (oops : OracleOps σ α) (param : Param α)
    (h : param.time_limit = ⊤) (clock clock' : Nat → α) (m : Nat) :
    ∀ t s o res res', res.untimed = res'.untimed →
      Except.map GreedyResult.untimed (greedy_loop sops oops param clock m t s o res)
      = Except.map GreedyResult.untimed (greedy_loop sops oops param clock' m t s o res') := by
  induction m with
  | zero =>
    intro t s o res res' hr
    simp only [greedy_loop, Except.map, Except.ok.injEq]
    obtain ⟨p, ms, f⟩ := res
    obtain ⟨p', ms', f'⟩ := res'
    simp only [GreedyResult.untimed, GreedyResult.mk.injEq] at hr
    obtain ⟨h1, h2, _⟩ := hr
    simp only [GreedyResult.untimed, GreedyResult.mk.injEq, h1, h2, and_self]
  | succ m ih =>
    intro t s o res res' hr
    simp only [greedy_loop]
    cases hp : sops.pop_largest s o with
    | error f => rfl
    | ok x =>
      obtain ⟨r, s1, o1⟩ := x
      cases r with
      | none => rfl
      | some e =>
        simp only [expired_infinite param h, Bool.false_or]
        have hadd := greedyResult_add_untimed res res' hr (some e)
          (oops.get_value (oops.add o1 e)) (clock t) (clock' t) 0
          (oops.get_num_oracle_calls (oops.add o1 e))
          (oops.get_num_computed_offdiagonals_V (oops.add o1 e))
          (oops.get_computed_offdiagonals_V (oops.add o1 e))
        cases hneg : isNegInf (oops.get_value (oops.add o1 e)) with
        | true =>
          simp only [if_true, Except.map, Except.ok.injEq]
          exact hadd
        | false =>
          simp only [Bool.false_eq_true, if_false]
          exact ih _ _ _ _ _ hadd

theorem greedy_untimed {τ σ α : Type} [LinearOrderedField α]
    (sops : StrategyOps τ σ α) (oops : OracleOps σ α) (n k : Nat) (param : Param α)
    (h : param.time_limit = ⊤) (clock clock' : Nat → α) :
    Except.map GreedyResult.untimed (greedy sops oops n k param clock)
      = Except.map GreedyResult.untimed (greedy sops oops n k param clock') := by
  unfold greedy
  split
  · rfl
  · exact greedy_loop_untimed sops oops param h clock clock' k _ _ _ _ _ rfl

theorem interlaceResult_add_untimed {α : Type} [LinearOrderedField α]
    (r r' : InterlaceResult α) (h : r.untimed = r'.untimed) (e : Fin 4 → Option Nat)
    (v : Fin 4 → Value α) (t t' : α) (a b c : Nat) :
    (r.add e v t a b c).untimed = (r'.add e v t' a b c).untimed := by
  obtain ⟨p, ms, f⟩ := r
  obtain ⟨p', ms', f'⟩ := r'
  simp only [InterlaceResult.untimed, InterlaceResult.mk.injEq] at h
  obtain ⟨h1, h2, h3⟩ := h
  simp only [InterlaceResult.untimed, InterlaceResult.add, InterlaceResult.mk.injEq,
    List.map_append, h1, h2, h3, true_and]
  exact ⟨rfl, trivial⟩

/-- The loop of `interlace_greedy` under an infinite time limit, whatever the timer
measures. -/
theorem interlace_greedy_loop_untimed {τ σ α : Type} [LinearOrderedField α]
    (sops : StrategyOps τ σ α) (oops : OracleOps σ α) (param : Param α)
    (h : param.time_limit = ⊤) (clock clock' : Nat → α) (m : Nat) :
    ∀ t c res res', res.untimed = res'.untimed →
      Except.map InterlaceResult.untimed
        (interlace_greedy_loop sops oops param clock m t c res)
      = Except.map InterlaceResult.untimed
        (interlace_greedy_loop sops oops param clock' m t c res') := by
  induction m with
  | zero =>
    intro t c res res' hr
    simp only [interlace_greedy_loop, Except.map, Except.ok.injEq]
    obtain ⟨p, ms, f⟩ := res
    obtain ⟨p', ms', f'⟩ := res'
    simp only [InterlaceResult.untimed, InterlaceResult.mk.injEq] at hr
    obtain ⟨h1, h2, _⟩ := hr
    simp only [InterlaceResult.untimed, InterlaceResult.mk.injEq, h1, h2, and_self]
  | succ m ih =>
    intro t c res res' hr
    simp only [interlace_greedy_loop]
    cases hp : interlace_step sops oops t c with
    | error f => rfl
    | ok x =>
      obtain ⟨es, c1⟩ := x
      simp only [expired_infinite param h, Bool.false_eq_true, if_false]
      exact ih _ _ _ _ (interlaceResult_add_untimed res res' hr _ _ _ _ _ _ _)

theorem interlace_greedy_untimed {τ σ α : Type} [LinearOrderedField α]
    (sops : StrategyOps τ σ α) (oops : OracleOps σ α) (n k : Nat) (param : Param α)
    (h : param.time_limit = ⊤) (clock clock' : Nat → α) :
    Except.map InterlaceResult.untimed (interlace_greedy sops oops n k param clock)
      = Except.map InterlaceResult.untimed (interlace_greedy sops oops n k param clock') := by
  unfold interlace_greedy
  split
  · rfl
  · exact interlace_greedy_loop_untimed sops oops param h clock clock' k _ _ _ _ rfl

end DPP

namespace DPP

theorem greedy_sol_untimed {α : Type} [LinearOrderedField α] (r : GreedyResult α) (j : Nat) :
    GreedyResult.sol r.untimed j = GreedyResult.sol r j := by
  induction j with
  | zero => rfl
  | succ j ih =>
    simp only [GreedyResult.sol, ih]
    rfl

theorem offdiag_untimed {α : Type} [LinearOrderedField α] (ms : List (Measurement α)) :
    (ms.map Measurement.untimed).map (fun x => x.computed_offdiagonals_V)
      = ms.map fun x => x.computed_offdiagonals_V := by
  rw [List.map_map]
  rfl

/-- The method `operator[]` of a `GreedyResult` whose times are set to `0`. -/
theorem greedy_get_untimed {α : Type} [LinearOrderedField α] (r : GreedyResult α) (j : Nat) :
    r.untimed.get j = Except.map Result.untimed (r.get j) := by
  have hsize : r.untimed.size = r.size := by
    simp only [GreedyResult.size, GreedyResult.untimed, List.length_map]
  have hp : r.untimed.element_value_pairs = r.element_value_pairs := rfl
  have hm : r.untimed.measurements = r.measurements.map Measurement.untimed := rfl
  unfold GreedyResult.get
  rw [hsize, greedy_sol_untimed, hp, hm, offdiag_untimed, List.get?_map]
  by_cases hj : r.size ≤ j
  · rw [if_pos hj, if_pos hj]
    rfl
  · rw [if_neg hj, if_neg hj]
    cases GreedyResult.sol r j with
    | error f => rfl
    | ok l =>
      cases r.element_value_pairs.get? j with
      | none => rfl
      | some p =>
        cases r.measurements.get? j with
        | none => rfl
        | some m => rfl

theorem interlace_sol_untimed {α : Type} [LinearOrderedField α] (r : InterlaceResult α)
    (f : Fin 4) (j : Nat) : InterlaceResult.sol r.untimed f j = InterlaceResult.sol r f j := by
  induction j with
  | zero => rfl
  | succ j ih =>
    simp only [InterlaceResult.sol, ih]
    rfl

/-- The method `operator[]` of an `InterlaceResult` whose times are set to `0`. -/
theorem interlace_get_untimed {α : Type} [LinearOrderedField α] (r : InterlaceResult α)
    (j : Nat) : r.untimed.get j = Except.map Result.untimed (r.get j) := by
  have hsize : r.untimed.size = r.size := by
    simp only [InterlaceResult.size, InterlaceResult.untimed, List.length_map]
  have hmax : InterlaceResult.get_max r.untimed j = InterlaceResult.get_max r j := by
    unfold InterlaceResult.get_max
    rw [hsize]
    rfl
  have hm : r.untimed.measurements = r.measurements.map Measurement.untimed := rfl
  unfold InterlaceResult.get
  rw [hsize, hmax, hm, List.get?_map]
  by_cases hj : r.size ≤ j
  · rw [if_pos hj, if_pos hj]
    rfl
  · rw [if_neg hj, if_neg hj]
    cases InterlaceResult.get_max r j with
    | error f => rfl
    | ok x =>
      obtain ⟨f, t, v⟩ := x
      simp only [interlace_sol_untimed]
      cases InterlaceResult.sol r f t with
      | error f => rfl
      | ok l =>
        cases r.measurements.get? j with
        | none => rfl
        | some m => rfl

theorem clockFree_of {α : Type} [LinearOrderedField α]
    (run : (Nat → α) → Except Fault (Result α))
    (hok : ∀ clock, ∃ r, run clock = .ok r)
    (h : ∀ clock clock', Except.map Result.untimed (run clock)
      = Except.map Result.untimed (run clock')) : ClockFree run := by
  intro clock clock'
  obtain ⟨r, hr⟩ := hok clock
  obtain ⟨r', hr'⟩ := hok clock'
  exact sameResult_of _ _ r r' hr hr' (h clock clock')

theorem clockFreeGreedy_of {α : Type} [LinearOrderedField α]
    (run : (Nat → α) → Except Fault (GreedyResult α))
    (hok : ∀ clock, ∃ out, run clock = .ok out ∧ ∀ j, ∃ r, out.get j = .ok r)
    (h : ∀ clock clock', Except.map GreedyResult.untimed (run clock)
      = Except.map GreedyResult.untimed (run clock')) : ClockFreeGreedy run := by
  intro clock clock'
  obtain ⟨out, hr, hg⟩ := hok clock
  obtain ⟨out', hr', hg'⟩ := hok clock'
  have hu : out.untimed = out'.untimed := by
    have := h clock clock'
    rw [hr, hr'] at this
    simp only [Except.map, Except.ok.injEq] at this
    exact this
  have hsize : out.size = out'.size := by
    have : out.untimed.size = out'.untimed.size := by rw [hu]
    simp only [GreedyResult.size, GreedyResult.untimed, List.length_map] at this
    exact this
  have hget : ∀ j, SameResult (out.get j) (out'.get j) := by
    intro j
    obtain ⟨r, e1⟩ := hg j
    obtain ⟨r', e2⟩ := hg' j
    refine sameResult_of _ _ r r' e1 e2 ?_
    rw [← greedy_get_untimed, ← greedy_get_untimed, hu]
  have hfin : out.untimed.finished = out'.untimed.finished :=
    congrArg GreedyResult.finished hu
  refine ⟨out, out', hr, hr', hu, hsize, hfin, hget, ?_⟩
  unfold GreedyResult.last
  rw [← hsize]
  exact hget _

theorem clockFreeInterlace_of {α : Type} [LinearOrderedField α]
    (run : (Nat → α) → Except Fault (InterlaceResult α))
    (hok : ∀ clock, ∃ out, run clock = .ok out ∧ ∀ j, ∃ r, out.get j = .ok r)
    (h : ∀ clock clock', Except.map InterlaceResult.untimed (run clock)
      = Except.map InterlaceResult.untimed (run clock')) : ClockFreeInterlace run := by
  intro clock clock'
  obtain ⟨out, hr, hg⟩ := hok clock
  obtain ⟨out', hr', hg'⟩ := hok clock'
  have hu : out.untimed = out'.untimed := by
    have := h clock clock'
    rw [hr, hr'] at this
    simp only [Except.map, Except.ok.injEq] at this
    exact this
  have hsize : out.size = out'.size := by
    have : out.untimed.size = out'.untimed.size := by rw [hu]
    simp only [InterlaceResult.size, InterlaceResult.untimed, List.length_map] at this
    exact this
  have hget : ∀ j, SameResult (out.get j) (out'.get j) := by
    intro j
    obtain ⟨r, e1⟩ := hg j
    obtain ⟨r', e2⟩ := hg' j
    refine sameResult_of _ _ r r' e1 e2 ?_
    rw [← interlace_get_untimed, ← interlace_get_untimed, hu]
  have hfin : out.untimed.finished = out'.untimed.finished :=
    congrArg InterlaceResult.finished hu
  refine ⟨out, out', hr, hr', hu, hsize, hfin, hget, ?_⟩
  unfold InterlaceResult.last
  rw [← hsize]
  exact hget _

/-- The driver `double_greedy` under an infinite time limit. -/
theorem double_greedy_clock_free {σ α : Type} [LinearOrderedField α] (log : α → α)
    (n : Nat) (oops : OracleOps σ α) (Good : σ → Prop) (Holds : σ → Nat → α → Prop)
    (B : OracleBase oops log Good Holds) (oops_inv : OracleOps σ α)
    (param : Param α) (h : param.time_limit = ⊤) (rng : Nat → Nat) :
    ClockFree (fun clock => double_greedy log oops oops_inv n param clock rng) := by
  refine clockFree_of _ ?_
    (fun c c' => double_greedy_untimed log oops oops_inv n param h c c' rng)
  intro clock
  obtain ⟨r, r1, _⟩ := double_greedy_base log n oops Good Holds B oops_inv param clock rng
  exact ⟨r, r1⟩

/-- The comparison `operator<` of `ElementValuePair`. -/
theorem strictTotal_of {α : Type} [LinearOrderedField α] : StrictTotal α := by
  refine ⟨less_irrefl, fun a b h => less_asymm h, fun a b c h1 h2 => less_trans h1 h2,
    fun a b h => less_total h, ?_⟩
  intro a b
  rw [Bool.eq_iff_iff, less_iff]
  simp only [Bool.or_eq_true, Bool.and_eq_true, decide_eq_true_eq]

end DPP

namespace DPP

/-- C24: determinism.  Two runs of the same driver on the same kernel, with the same `k`,
the same `Param` with an infinite time limit and the same engine output, return whatever
the timer measures in either: `random_greedy`, `stochastic_greedy` and `double_greedy`
return results with the same solution, value, flag and counters; `greedy` and
`interlace_greedy` return records that differ in their times at most, and every snapshot
`operator[](j)` and `last()` of the two has the same solution and value.  This holds with
the lazy or the non-lazy strategy over the direct or the fast oracle.  The method
`NonLazy::pop_kth_largest(i)` returns the same element, or nothing, from any two
enumerations of the same ground set, and leaves the same ground set; the comparison of
`ElementValuePair`, which is by the gain and then by the smaller index, is irreflexive,
asymmetric, transitive and total on pairs with distinct elements. -/
theorem determinism (n : Nat) (L Linv : Nat → Nat → ℝ) (k : Nat) (hk : k ≤ n)
    (ord : List Nat → List Nat) (hord : SetOrder ord) (V0 V1 : Nat → Nat → Option ℝ)
    (param : Param ℝ) (htime : param.time_limit = ⊤) (rng : Nat → Nat) :
    Deterministic Real.log (NonLazy.ops ord (Oracle.ops Real.log L)) (Oracle.ops Real.log L)
      n k param rng ∧
    Deterministic Real.log (Lazy.ops ord (Oracle.ops Real.log L)) (Oracle.ops Real.log L)
      n k param rng ∧
    Deterministic Real.log (NonLazy.ops ord (Fast.ops Real.sqrt Real.log V0 L))
      (Fast.ops Real.sqrt Real.log V0 L) n k param rng ∧
    Deterministic Real.log (Lazy.ops ord (Fast.ops Real.sqrt Real.log V0 L))
      (Fast.ops Real.sqrt Real.log V0 L) n k param rng ∧
    ClockFree (fun clock => double_greedy Real.log (Oracle.ops Real.log L)
      (Oracle.ops Real.log Linv) n param clock rng) ∧
    ClockFree (fun clock => double_greedy Real.log (Fast.ops Real.sqrt Real.log V0 L)
      (Fast.ops Real.sqrt Real.log V1 Linv) n param clock rng) ∧
    OrderFree (Oracle.ops Real.log L) ∧ OrderFree (Fast.ops Real.sqrt Real.log V0 L) ∧
    StrictTotal ℝ := by
  -- The method `NonLazy::pop_kth_largest` over an oracle that repeats its answers.
  have orderFree_of {σ α : Type} [LinearOrderedField α] (oops : OracleOps σ α)
      (law : OracleLaw oops) : OrderFree oops := by
    intro T T' b o i hnd hperm hTS hi
    have hnd' : T'.Nodup := hperm.nodup_iff.mp hnd
    have hTS' : ∀ e ∈ T', e ∉ oops.get_solution o := fun e he => hTS e (hperm.mem_iff.mpr he)
    have hlen : T.length = T'.length := hperm.length_eq
    by_cases hlt : i < T.length
    · obtain ⟨e, o1, he, hrank, hg, heq⟩ :=
        nonlazy_pop_kth_spec oops law { T := T, add_dummy := b } o i hnd hTS hlt
      obtain ⟨e', o1', he', hrank', hg', heq'⟩ :=
        nonlazy_pop_kth_spec oops law { T := T', add_dummy := b } o i hnd' hTS'
          (by rw [← hlen]; exact hlt)
      have hee : e' = e := by
        refine rankIn_unique (gainAt oops o) T hnd e' e (hperm.mem_iff.mpr he') he ?_
        rw [rankIn_perm (gainAt oops o) T T' e' hperm]
        exact hrank'.trans hrank.symm
      subst hee
      by_cases hc : (b && decide (gainAt oops o e' ≤ 1)) = true
      · rw [if_pos hc] at heq heq'
        exact ⟨none, _, o1, _, o1', heq, heq', hperm, rfl, hg, hg'⟩
      · rw [if_neg hc] at heq heq'
        exact ⟨some e', _, o1, _, o1', heq, heq', hperm.erase e', rfl, hg, hg'⟩
    · have hb : b = true := by
        rcases hi with h | h
        · exact h
        · exact absurd h hlt
      subst hb
      have h1 : NonLazy.pop_kth_largest oops { T := T, add_dummy := true } o i
          = .ok (none, { T := T, add_dummy := true }, o) := by
        unfold NonLazy.pop_kth_largest
        simp [not_lt.mp hlt]
      have h2 : NonLazy.pop_kth_largest oops { T := T', add_dummy := true } o i
          = .ok (none, { T := T', add_dummy := true }, o) := by
        unfold NonLazy.pop_kth_largest
        simp [hlen ▸ not_lt.mp hlt]
      exact ⟨none, _, o, _, o, h1, h2, hperm, rfl, gainEq_refl oops o, gainEq_refl oops o⟩
  -- The four drivers that take a strategy, under an infinite time limit.
  have deterministic_of {τ σ α : Type} [LinearOrderedField α] {sqrt log : α → α}
      [Numeric sqrt log] [FloorRing α]
      (n : Nat) (oops : OracleOps σ α) (Good : σ → Prop) (Holds : σ → Nat → α → Prop)
      (B : OracleBase oops log Good Holds) (sops : StrategyOps τ σ α) (getT : τ → List Nat)
      (getD : τ → Bool) (SI : τ → Prop) (Dead : τ → σ → Prop)
      (SL : StrategyLaw n oops Good sops getT getD SI Dead)
      (k : Nat) (hk : k ≤ n) (param : Param α) (h : param.time_limit = ⊤) (rng : Nat → Nat) :
      Deterministic log sops oops n k param rng := by
    refine ⟨?_, ?_, ?_, ?_⟩
    · refine clockFreeGreedy_of _ ?_ (greedy_untimed sops oops n k param h)
      intro clock
      obtain ⟨out, es, gs, p, h1, _, _, _, h5, _⟩ :=
        greedy_base log n oops Good Holds B sops getT getD SI Dead SL k hk param clock
      refine ⟨out, h1, ?_⟩
      intro j
      by_cases hj : j ≤ es.length
      · obtain ⟨r, hr, _⟩ := (snap_get log out es gs h5 j).1 hj
        exact ⟨r, hr⟩
      · exact ⟨_, (snap_get log out es gs h5 j).2 (by omega)⟩
    · refine clockFree_of _ ?_ (fun c c' => random_greedy_untimed sops oops n k param h c c' rng)
      intro clock
      obtain ⟨r, r1, _⟩ :=
        random_greedy_base log n oops Good Holds B sops getT getD SI Dead SL k hk param clock rng
      exact ⟨r, r1⟩
    · refine clockFree_of _ ?_
        (fun c c' => stochastic_greedy_untimed log sops oops n k param h c c' rng)
      intro clock
      obtain ⟨r, r1, _⟩ :=
        @stochastic_greedy_base τ σ α _ sqrt log _ _ n oops Good Holds B sops getT getD SI Dead
          SL k hk param clock rng
      exact ⟨r, r1⟩
    · refine clockFreeInterlace_of _ ?_ (interlace_greedy_untimed sops oops n k param h)
      intro clock
      obtain ⟨out, es, gs, h1, h2, h3, _, h5⟩ :=
        interlace_greedy_snaps log n oops Good Holds B sops getT getD SI Dead SL k hk param clock
      refine ⟨out, h1, ?_⟩
      intro j
      by_cases hj : j < out.size
      · obtain ⟨r, _, hr, _⟩ := @chainSnap_get α _ sqrt log _ out (by rw [h2, h3]) es gs
          (fun f => ⟨(h5 f).1, (h5 f).2.1, (h5 f).2.2.1⟩) j hj
        exact ⟨r, hr⟩
      · refine ⟨Result.unfinished, ?_⟩
        unfold InterlaceResult.get
        rw [if_pos (by omega)]
  have BD := direct_base Real.log L
  have BF := fast_base Real.sqrt Real.log V0 L
  exact ⟨@deterministic_of _ _ ℝ _ Real.sqrt Real.log _ _ n _ _ _ BD _ _ _ _ _
      (nonlazy_law n _ BD.law _ ord hord) k hk param htime rng,
    @deterministic_of _ _ ℝ _ Real.sqrt Real.log _ _ n _ _ _ BD _ _ _ _ _
      (lazy_law n _ BD.law _ ord hord) k hk param htime rng,
    @deterministic_of _ _ ℝ _ Real.sqrt Real.log _ _ n _ _ _ BF _ _ _ _ _
      (nonlazy_law n _ BF.law _ ord hord) k hk param htime rng,
    @deterministic_of _ _ ℝ _ Real.sqrt Real.log _ _ n _ _ _ BF _ _ _ _ _
      (lazy_law n _ BF.law _ ord hord) k hk param htime rng,
    double_greedy_clock_free Real.log n _ _ _ BD _ param htime rng,
    double_greedy_clock_free Real.log n _ _ _ BF _ param htime rng,
    orderFree_of _ BD.law, orderFree_of _ BF.law, strictTotal_of⟩

/-- Witness of C24: the kernel `diag(0.3, 0.2, 0.9, 0.5, 0.25, 0.125, 0.1, 2.0)` of the
strategy tests with `k = 4`, with the lazy strategy over the fast oracle. -/
theorem determinism_witness :
    Deterministic Real.log
      (Lazy.ops (fun l => l.dedup) (Fast.ops Real.sqrt Real.log (fun _ _ => none) (testDiag ℝ)))
      (Fast.ops Real.sqrt Real.log (fun _ _ => none) (testDiag ℝ)) 8 4
      { time_limit := ⊤, log_computed_offdiagonals_V := false } (fun t => t) :=
  (determinism 8 (testDiag ℝ) (testDiag ℝ) 4 (by decide) (fun l => l.dedup) setOrder_id
    (fun _ _ => none) (fun _ _ => none)
    { time_limit := ⊤, log_computed_offdiagonals_V := false } rfl (fun t => t)).2.2.2.1

end DPP

namespace DPP

/-- The test of `Lazy::pop_largest()` compares values only: it holds whenever the
recomputed gain equals the value at the top of the heap, whatever the indices. -/
theorem commit_tie {α : Type} [LinearOrderedField α] (Q : List (ElementValuePair α))
    (t : ElementValuePair α) (h : heapTop Q = some t) : Lazy.commit Q t.value = true :=
  (commit_iff Q t.value).mpr (Or.inr ⟨t, h, le_refl _⟩)

end DPP

namespace DPP

/-- C33: tie handling differs between the strategies.  The test of `Lazy::pop_largest()`
holds whenever the recomputed gain equals the value at the top of the heap, whatever the
indices.  On the symmetric positive definite kernel `[[4, 0, 2], [0, 2, 0], [2, 0, 3]]`,
once `0` is selected the elements `1` and `2` have the same gain `2`; the lazy strategy,
whose heap holds the entries `(1, 2)` and `(2, 3)`, recomputes and returns `2`, although
the top of the heap is then the entry of `1`, the smaller index with the same gain.  With
`k = 2` over the direct oracle, plain greedy with the non-lazy strategy returns `[0, 1]` and
with the lazy strategy `[0, 2]`, both with the value `log 8`. -/
theorem tie_handling :
    (∀ (Q : List (ElementValuePair ℝ)) (t : ElementValuePair ℝ), heapTop Q = some t →
      Lazy.commit Q t.value = true) ∧
    (Matrix.of fun i j : Fin 3 => tieKernel ℝ i j).PosDef ∧
    (∀ i j, tieKernel ℝ i j = tieKernel ℝ j i) ∧
    (∀ o : Oracle.Instance ℝ, Oracle.Good 3 (tieKernel ℝ) o → o.S = [0] →
      gainAt (Oracle.ops Real.log (tieKernel ℝ)) o 1 = 2 ∧
      gainAt (Oracle.ops Real.log (tieKernel ℝ)) o 2 = 2 ∧
      heapTop [(⟨1, 2⟩ : ElementValuePair ℝ)] = some ⟨1, 2⟩ ∧
      Lazy.pop_largest (Oracle.ops Real.log (tieKernel ℝ))
        { T := [1, 2], add_dummy := false, Q := [⟨1, 2⟩, ⟨2, 3⟩] } o
        = .ok (some 2, { T := [1], add_dummy := false, Q := [⟨1, 2⟩] },
            (Oracle.compute_marginal_gain_exponential (tieKernel ℝ) o 2).2)) ∧
    TieRuns Real.log := by
  -- Plain greedy on the tie kernel with `k = 2` over the direct oracle.
  have tieRuns_of {α : Type} [LinearOrderedField α] {sqrt log : α → α}
      [Numeric sqrt log] [FloorRing α] : TieRuns log := by
    -- The value of the last result of plain greedy over a positive definite kernel, from
    -- its solution of two elements.
    have greedy_value_pair {τ α : Type} [LinearOrderedField α] {sqrt log : α → α}
        [Numeric sqrt log] [FloorRing α] (n : Nat) (L : Nat → Nat → α) (hL : PosDefOn n L)
        (sops : StrategyOps τ (Oracle.Instance α) α) (getT : τ → List Nat)
        (getD : τ → Bool) (SI : τ → Prop) (Dead : τ → Oracle.Instance α → Prop)
        (SL : StrategyLaw n (Oracle.ops log L) (Oracle.Good n L) sops getT getD SI Dead)
        (k : Nat) (hk : k ≤ n) (param : Param α) (clock : Nat → α)
        (out : GreedyResult α) (r : Result α) (a b : Nat)
        (h1 : greedy sops (Oracle.ops log L) n k param clock = .ok out) (h2 : out.last = .ok r)
        (h3 : r.solution = [a, b]) :
        r.value = some ((log (schur L [] a * schur L [a] b) : α) : WithBot α) := by
      obtain ⟨⟨out', e1, ⟨res, e2, e3, _, _, e6⟩, _⟩, _⟩ :=
        @drivers_consistent α _ sqrt log _ _ τ _ n L hL (Oracle.ops log L) _ _
          (direct_math n L hL) sops getT getD SI Dead SL k hk param clock (fun _ => 0)
      rw [h1] at e1
      cases e1
      rw [h2] at e2
      cases e2
      rw [e3]
      unfold logdet
      rw [e6, h3]
      simp [Finset.prod_range_succ]
    have schur_tie_nil {α : Type} [LinearOrderedField α]
        {sqrt log : α → α} [Numeric sqrt log]
        (e : Nat) : schur (tieKernel α) [] e = tieKernel α e e :=
      schur_nil _ e
    obtain ⟨outN, rN, n1, n2, n3⟩ := @tie_nonlazy α _ sqrt log _
    obtain ⟨outL, rL, l1, l2, l3⟩ := @tie_lazy α _ sqrt log _
    have M := direct_math 3 (tieKernel α) posDefOn_tie
    have vN := @greedy_value_pair _ α _ sqrt log _ _ 3 (tieKernel α) posDefOn_tie _ _ _ _ _
      (nonlazy_law 3 _ M.law _ (fun l => l.dedup) setOrder_id) 2 (by decide) _ _ outN rN 0 1
      n1 n2 n3
    have vL := @greedy_value_pair _ α _ sqrt log _ _ 3 (tieKernel α) posDefOn_tie _ _ _ _ _
      (lazy_law 3 _ M.law _ (fun l => l.dedup) setOrder_id) 2 (by decide) _ _ outL rL 0 2
      l1 l2 l3
    rw [@schur_tie_nil α _ sqrt log _, @schur_tie_one α _ sqrt log _] at vN
    rw [@schur_tie_nil α _ sqrt log _, @schur_tie_two α _ sqrt log _] at vL
    have h8 : tieKernel α 0 0 * 2 = 8 := by
      simp only [tieKernel]
      norm_num
    rw [h8] at vN vL
    exact ⟨outN, rN, outL, rL, n1, n2, n3, vN, l1, l2, l3, vL⟩
  refine ⟨fun Q t h => commit_tie Q t h, (posDefOn_iff_posDef 3 _).mp posDefOn_tie, ?_, ?_,
    @tieRuns_of ℝ _ Real.sqrt Real.log _ _⟩
  · intro i j
    rcases i with _ | _ | _ | i <;> rcases j with _ | _ | _ | j <;> rfl
  · intro o hg hS
    have g1 : gainAt (Oracle.ops Real.log (tieKernel ℝ)) o 1 = 2 := by
      show (Oracle.compute_marginal_gain_exponential (tieKernel ℝ) o 1).1 = 2
      rw [@tie_gain ℝ _ Real.sqrt Real.log _ o hg 1 (by norm_num) (by rw [hS]; simp), hS,
        @schur_tie_one ℝ _ Real.sqrt Real.log _]
    have g2 : gainAt (Oracle.ops Real.log (tieKernel ℝ)) o 2 = 2 := by
      show (Oracle.compute_marginal_gain_exponential (tieKernel ℝ) o 2).1 = 2
      rw [@tie_gain ℝ _ Real.sqrt Real.log _ o hg 2 (by norm_num) (by rw [hS]; simp), hS,
        @schur_tie_two ℝ _ Real.sqrt Real.log _]
    exact ⟨g1, g2, rfl, @tie_popB ℝ _ Real.sqrt Real.log _ o hg hS⟩

/-- Witness of C33: the two runs on the tie kernel. -/
theorem tie_handling_witness : TieRuns Real.log :=
  tie_handling.2.2.2.2

end DPP

namespace DPP

/-- The loop of `Lazy::pop_largest()` returns the same with more fuel. -/
theorem lazy_loop_mono {σ α : Type} [LinearOrderedField α] (oops : OracleOps σ α) :
    ∀ (fuel : Nat) (s : Lazy.Instance α) (o : σ) (x : Option Nat × Lazy.Instance α × σ),
      Lazy.pop_largest_loop oops fuel s o = .ok x →
      ∀ fuel', fuel ≤ fuel' → Lazy.pop_largest_loop oops fuel' s o = .ok x := by
  intro fuel
  induction fuel with
  | zero =>
    intro s o x h
    rw [Lazy.pop_largest_loop] at h
    cases h
  | succ fuel ih =>
    intro s o x h fuel' hf
    obtain ⟨f, rfl⟩ : ∃ f, fuel' = f + 1 := ⟨fuel' - 1, by omega⟩
    have hle : fuel ≤ f := by omega
    rw [Lazy.pop_largest_loop] at h ⊢
    cases hq : heapTop s.Q with
    | none =>
      rw [hq] at h
      exact h
    | some top =>
      rw [hq] at h
      simp only [] at h ⊢
      by_cases hd : (s.add_dummy && decide (top.value ≤ 1)) = true
      · rw [if_pos hd] at h ⊢
        exact h
      · rw [if_neg hd] at h ⊢
        by_cases hT : top.element ∉ s.T
        · rw [if_pos hT] at h ⊢
          exact ih _ _ x h f hle
        · rw [if_neg hT] at h ⊢
          by_cases hc : Lazy.commit (s.Q.erase top)
              (oops.compute_marginal_gain_exponential o top.element).1 = true
          · rw [if_pos hc] at h ⊢
            exact h
          · rw [if_neg hc] at h ⊢
            exact ih _ _ x h f hle

/-- An iteration of the loop of `Lazy::pop_largest()` on a heap that is not empty returns,
or discards the entry of an element outside the ground set, or pushes the entry of an
element of the ground set back with its recomputed gain. -/
theorem lazy_loop_cases {σ α : Type} [LinearOrderedField α] (oops : OracleOps σ α)
    (fuel : Nat) (s : Lazy.Instance α) (o : σ) (top : ElementValuePair α)
    (h : heapTop s.Q = some top) :
    (∃ x, Lazy.pop_largest_loop oops (fuel + 1) s o = .ok x) ∨
    (top.element ∉ s.T ∧ Lazy.pop_largest_loop oops (fuel + 1) s o
      = Lazy.pop_largest_loop oops fuel { s with Q := s.Q.erase top } o) ∨
    (top.element ∈ s.T ∧ Lazy.pop_largest_loop oops (fuel + 1) s o
      = Lazy.pop_largest_loop oops fuel
          { s with Q := { element := top.element,
                          value := (oops.compute_marginal_gain_exponential o top.element).1 }
                        :: s.Q.erase top }
          (oops.compute_marginal_gain_exponential o top.element).2) := by
  rw [Lazy.pop_largest_loop, h]
  simp only []
  by_cases hd : (s.add_dummy && decide (top.value ≤ 1)) = true
  · rw [if_pos hd]
    exact Or.inl ⟨_, rfl⟩
  · rw [if_neg hd]
    by_cases hT : top.element ∉ s.T
    · rw [if_pos hT]
      exact Or.inr (Or.inl ⟨hT, rfl⟩)
    · rw [if_neg hT]
      by_cases hc : Lazy.commit (s.Q.erase top)
          (oops.compute_marginal_gain_exponential o top.element).1 = true
      · rw [if_pos hc]
        by_cases hd2 : (s.add_dummy &&
            decide ((oops.compute_marginal_gain_exponential o top.element).1 ≤ 1)) = true
        · rw [if_pos hd2]
          exact Or.inl ⟨_, rfl⟩
        · rw [if_neg hd2]
          exact Or.inl ⟨_, rfl⟩
      · rw [if_neg hc]
        exact Or.inr (Or.inr ⟨not_not.mp hT, rfl⟩)

/-- An iteration of the loop of `Lazy::pop_largest()` that pops the entry of an element
of the ground set whose value is the current gain of the element returns: the element,
or nothing when it is reported as a dummy element. -/
theorem lazy_loop_fresh {σ α : Type} [LinearOrderedField α] (oops : OracleOps σ α)
    (fuel : Nat) (s : Lazy.Instance α) (o : σ) (top : ElementValuePair α)
    (h : heapTop s.Q = some top) (hT : top.element ∈ s.T)
    (hv : top.value = gainAt oops o top.element) :
    ∃ r s1 o1, Lazy.pop_largest_loop oops (fuel + 1) s o = .ok (r, s1, o1) ∧
      (r = some top.element ∨ (r = none ∧ s.add_dummy = true ∧ top.value ≤ 1)) := by
  have hc : Lazy.commit (s.Q.erase top)
      (oops.compute_marginal_gain_exponential o top.element).1 = true := by
    rw [commit_iff]
    cases hq : heapTop (s.Q.erase top) with
    | none => exact Or.inl ((heapTop_none _).mp hq)
    | some t =>
      refine Or.inr ⟨t, rfl, ?_⟩
      have ht : t ∈ s.Q := List.mem_of_mem_erase (heapTop_spec _ t hq).1
      have := less_value_le ((heapTop_spec _ top h).2 t ht)
      rw [hv] at this
      exact this
  rw [Lazy.pop_largest_loop, h]
  simp only []
  by_cases hd : (s.add_dummy && decide (top.value ≤ 1)) = true
  · rw [if_pos hd]
    rw [Bool.and_eq_true, decide_eq_true_eq] at hd
    exact ⟨none, _, _, rfl, Or.inr ⟨rfl, hd.1, hd.2⟩⟩
  · rw [if_neg hd, if_neg (not_not.mpr hT), if_pos hc]
    by_cases hd2 : (s.add_dummy &&
        decide ((oops.compute_marginal_gain_exponential o top.element).1 ≤ 1)) = true
    · exfalso
      apply hd
      rw [hv]
      exact hd2
    · rw [if_neg hd2]
      exact ⟨some top.element, _, _, rfl, Or.inl rfl⟩

/-- C34: `Lazy::pop_largest()` terminates.  For every oracle that repeats its answers for
the elements outside the selection, and every lazy strategy whose ground set lists
distinct elements outside the selection, with dummy elements or else with a ground set
that is not empty and whose elements all have a heap entry, the loop returns within
`Q.size() + 1` iterations, which is at most `Q.size() + |T| + 1`: with that much fuel or
more the loop returns one and the same result, which is what `pop_largest()` returns.
Every iteration on a heap that is not empty returns, or discards the entry of an element
outside the ground set, or pushes the entry of an element of the ground set back with
its recomputed gain; the recomputed gain stays the current gain of the element while only
elements outside the selection are computed, and the iteration that pops an entry that
holds the current gain of its element returns that element, or nothing when it reports a
dummy element. -/
theorem lazy_pop_terminates {σ α : Type} [LinearOrderedField α] (oops : OracleOps σ α)
    (law : OracleLaw oops) (s : Lazy.Instance α) (o : σ) (hnd : s.T.Nodup)
    (hTS : ∀ e ∈ s.T, e ∉ oops.get_solution o)
    (hpre : s.add_dummy = true ∨ (s.add_dummy = false ∧ s.T ≠ [] ∧ Cover s.T s.Q)) :
    (∃ r s1 o1,
      (∀ fuel, s.Q.length + 1 ≤ fuel →
        Lazy.pop_largest_loop oops fuel s o = .ok (r, s1, o1)) ∧
      Lazy.pop_largest oops s o = .ok (r, s1, o1) ∧
      s.Q.length + 1 ≤ s.Q.length + s.T.length + 1) ∧
    (∀ (fuel : Nat) (s' : Lazy.Instance α) (o' : σ) (top : ElementValuePair α),
      heapTop s'.Q = some top →
      (∃ x, Lazy.pop_largest_loop oops (fuel + 1) s' o' = .ok x) ∨
      (top.element ∉ s'.T ∧ Lazy.pop_largest_loop oops (fuel + 1) s' o'
        = Lazy.pop_largest_loop oops fuel { s' with Q := s'.Q.erase top } o') ∨
      (top.element ∈ s'.T ∧ Lazy.pop_largest_loop oops (fuel + 1) s' o'
        = Lazy.pop_largest_loop oops fuel
            { s' with Q := { element := top.element,
                             value := (oops.compute_marginal_gain_exponential o' top.element).1 }
                           :: s'.Q.erase top }
            (oops.compute_marginal_gain_exponential o' top.element).2)) ∧
    (∀ (o' : σ) (e x : Nat), e ∉ oops.get_solution o' →
      gainAt oops (oops.compute_marginal_gain_exponential o' e).2 x = gainAt oops o' x) ∧
    (∀ (fuel : Nat) (s' : Lazy.Instance α) (o' : σ) (top : ElementValuePair α),
      heapTop s'.Q = some top → top.element ∈ s'.T →
      top.value = gainAt oops o' top.element →
      ∃ r s1 o1, Lazy.pop_largest_loop oops (fuel + 1) s' o' = .ok (r, s1, o1) ∧
        (r = some top.element ∨ (r = none ∧ s'.add_dummy = true ∧ top.value ≤ 1))) := by
  refine ⟨?_, fun fuel s' o' top h => lazy_loop_cases oops fuel s' o' top h,
    fun o' e x he => law.stable o' e x he,
    fun fuel s' o' top h hT hv => lazy_loop_fresh oops fuel s' o' top h hT hv⟩
  have hcov : s.add_dummy = false → Cover s.T s.Q ∧ s.T ≠ [] := by
    intro hd
    rcases hpre with h | ⟨_, h1, h2⟩
    · rw [hd] at h
      cases h
    · exact ⟨h2, h1⟩
  obtain ⟨r, s1, o1, h1, _⟩ := lazy_pop_largest_spec oops law o s o (gainEq_refl oops o)
    hnd hTS hcov
  exact ⟨r, s1, o1, fun fuel hf => lazy_loop_mono oops _ s o _ h1 fuel hf, h1, by omega⟩

/-- Witness of C34: a lazy strategy without dummy elements over two elements of
`diag(0.3, 0.2, 0.9, 0.5, 0.25, 0.125, 0.1, 2.0)`, with stale heap entries, over the direct
oracle. -/
theorem lazy_pop_terminates_witness :
    ∃ r s1 o1, ∀ fuel, 3 ≤ fuel →
      Lazy.pop_largest_loop (Oracle.ops Real.log (testDiag ℝ)) fuel
        { T := [0, 1], add_dummy := false, Q := [⟨0, 5⟩, ⟨1, 7⟩] } (Oracle.construct ℝ)
        = .ok (r, s1, o1) := by
  obtain ⟨⟨r, s1, o1, h, _⟩, _⟩ := lazy_pop_terminates (Oracle.ops Real.log (testDiag ℝ))
    (direct_law Real.log (testDiag ℝ))
    { T := [0, 1], add_dummy := false, Q := [⟨0, 5⟩, ⟨1, 7⟩] } (Oracle.construct ℝ)
    (by decide) (fun e _ => List.not_mem_nil e)
    (Or.inr ⟨rfl, by decide, by
      intro e he
      simp only [List.mem_cons, List.mem_singleton, List.not_mem_nil, or_false] at he
      rcases he with h | h
      · exact ⟨⟨0, 5⟩, List.mem_cons_self _ _, h.symm⟩
      · exact ⟨⟨1, 7⟩, List.mem_cons_of_mem _ (List.mem_cons_self _ _), h.symm⟩⟩)
  exact ⟨r, s1, o1, h⟩

end DPP

namespace DPP

/-- The counters of the fast oracle after `k` iterations of the loop of
`compute_marginal_gain_exponential`. -/
theorem fast_loop_count {α : Type} [LinearOrderedField α] (sqrt : α → α) (L : Nat → Nat → α)
    (e : Nat) : ∀ (k : Nat) (o : Fast.Instance α) (y : α),
      (Fast.loop sqrt L k o e y).2.U = o.U + k ∧
      (Fast.loop sqrt L k o e y).2.u e = o.u e + k ∧
      (∀ a, a ≠ e → (Fast.loop sqrt L k o e y).2.u a = o.u a) ∧
      (Fast.loop sqrt L k o e y).2.S = o.S ∧
      (Fast.loop sqrt L k o e y).2.log_computed_offdiagonals_V
        = o.log_computed_offdiagonals_V ∧
      (Fast.loop sqrt L k o e y).2.computed_offdiagonals_V
        = (if o.log_computed_offdiagonals_V then
            o.computed_offdiagonals_V ++
              (List.range' (o.u e) k).map fun j => (e, o.S.getD j 0)
           else o.computed_offdiagonals_V) := by
  intro k
  induction k with
  | zero =>
    intro o y
    refine ⟨rfl, rfl, fun _ _ => rfl, rfl, rfl, ?_⟩
    simp [Fast.loop]
  | succ k ih =>
    intro o y
    obtain ⟨i1, i2, i3, i4, i5, i6⟩ := ih (Fast.step sqrt L o e y).2 (Fast.step sqrt L o e y).1
    have s1 : (Fast.step sqrt L o e y).2.U = o.U + 1 := rfl
    have s2 : (Fast.step sqrt L o e y).2.u e = o.u e + 1 := by simp [Fast.step]
    have s3 : ∀ a, a ≠ e → (Fast.step sqrt L o e y).2.u a = o.u a := by
      intro a ha
      simp [Fast.step, Function.update_noteq ha]
    have s4 : (Fast.step sqrt L o e y).2.S = o.S := rfl
    have s5 : (Fast.step sqrt L o e y).2.log_computed_offdiagonals_V
        = o.log_computed_offdiagonals_V := rfl
    have s6 : (Fast.step sqrt L o e y).2.computed_offdiagonals_V
        = (if o.log_computed_offdiagonals_V then
            o.computed_offdiagonals_V ++ [(e, o.S.getD (o.u e) 0)]
           else o.computed_offdiagonals_V) := rfl
    have hl : Fast.loop sqrt L (k + 1) o e y
        = Fast.loop sqrt L k (Fast.step sqrt L o e y).2 e (Fast.step sqrt L o e y).1 := rfl
    rw [hl]
    refine ⟨by rw [i1, s1]; omega, by rw [i2, s2]; omega,
      fun a ha => by rw [i3 a ha, s3 a ha], by rw [i4, s4], by rw [i5, s5], ?_⟩
    rw [i6, s5, s6, s2, s4]
    cases o.log_computed_offdiagonals_V with
    | false => rfl
    | true =>
      simp only [if_true, List.append_assoc, List.singleton_append]
      rw [List.range'_succ, List.map_cons]

/-- What a call `compute_marginal_gain_exponential(e)` does to the counters of the fast
oracle, when `last_size[e]` does not exceed the size of the selection. -/
theorem fast_compute_charged {α : Type} [LinearOrderedField α] (sqrt : α → α)
    (L : Nat → Nat → α) (o : Fast.Instance α) (e : Nat) (hu : o.u e ≤ o.S.length) :
    Fast.Charged sqrt L o e := by
  have g : (Fast.get_last_marginal_gain_exponential L o e).2.U = o.U ∧
      (Fast.get_last_marginal_gain_exponential L o e).2.u = o.u ∧
      (Fast.get_last_marginal_gain_exponential L o e).2.S = o.S ∧
      (Fast.get_last_marginal_gain_exponential L o e).2.log_computed_offdiagonals_V
        = o.log_computed_offdiagonals_V ∧
      (Fast.get_last_marginal_gain_exponential L o e).2.computed_offdiagonals_V
        = o.computed_offdiagonals_V := by
    unfold Fast.get_last_marginal_gain_exponential
    cases o.d e <;> exact ⟨rfl, rfl, rfl, rfl, rfl⟩
  obtain ⟨g1, g2, g3, g4, g5⟩ := g
  have hk : (Fast.get_last_marginal_gain_exponential L o e).2.S.length -
      (Fast.get_last_marginal_gain_exponential L o e).2.u e = o.S.length - o.u e := by
    rw [g2, g3]
  have hc : Fast.compute_marginal_gain_exponential sqrt L o e
      = Fast.loop sqrt L (o.S.length - o.u e) (Fast.get_last_marginal_gain_exponential L o e).2
          e (Fast.get_last_marginal_gain_exponential L o e).1 := by
    rw [fast_compute_unfold, hk]
  obtain ⟨l1, l2, l3, l4, l5, l6⟩ := fast_loop_count sqrt L e (o.S.length - o.u e)
    (Fast.get_last_marginal_gain_exponential L o e).2
    (Fast.get_last_marginal_gain_exponential L o e).1
  unfold Fast.Charged Fast.pairs
  rw [hc]
  refine ⟨by rw [l1, g1], by rw [l2, g2]; omega, fun a ha => by rw [l3 a ha, g2],
    by rw [l4, g3], by rw [l5, g4], ?_⟩
  rw [l6, g4, g5, g2, g3]

end DPP

namespace DPP

/-- C31: the work counter of the fast oracle.  In every state that the fast oracle over
`L` on `n` elements reaches by calls of its methods with elements below `n`, in any order,
`U` is the sum of `last_size[e]` over the elements and no `last_size[e]` exceeds `|S|`.
A call `compute_marginal_gain_exponential(e)` in such a state adds `|S| - last_size[e]`
to `U`, sets `last_size[e]` to `|S|` and leaves the other entries, and, when logging is
on, appends the pairs `(e, S[j])` for `j` from the old `last_size[e]` to `|S| - 1` in this
order to the log, which it leaves as it is when logging is off; the state it leaves
satisfies the same equations.  The method `get_num_oracle_calls` returns `0`, and
`get_num_computed_offdiagonals_V` returns `U`. -/
theorem fast_work_counter (n : Nat) (L : Nat → Nat → ℝ) (V0 : Nat → Nat → Option ℝ)
    (o : Fast.Instance ℝ) (h : Fast.Called Real.sqrt Real.log V0 L n o) :
    Fast.Counted n o ∧
    (∀ e, e < n → Fast.Charged Real.sqrt L o e ∧
      Fast.Counted n (Fast.compute_marginal_gain_exponential Real.sqrt L o e).2) ∧
    (Fast.ops Real.sqrt Real.log V0 L).get_num_oracle_calls o = 0 ∧
    (Fast.ops Real.sqrt Real.log V0 L).get_num_computed_offdiagonals_V o = o.U := by
  -- The counters of every state of the fast oracle that calls with elements below `n`
  -- reach.
  have fast_called_counted {α : Type} [LinearOrderedField α] (sqrt log : α → α)
      (V0 : Nat → Nat → Option α) (L : Nat → Nat → α) (n : Nat) (o : Fast.Instance α)
      (h : Fast.Called sqrt log V0 L n o) : Fast.Counted n o := by
    have sum_update_range (n : Nat) (u : Nat → Nat) (e v : Nat) (he : e < n) (hv : u e ≤ v) :
        ∑ a in Finset.range n, Function.update u e v a
          = (∑ a in Finset.range n, u a) + (v - u e) := by
      have hmem : e ∈ Finset.range n := Finset.mem_range.mpr he
      rw [Finset.sum_update_of_mem hmem, ← Finset.add_sum_erase _ u hmem,
        Finset.sdiff_singleton_eq_erase]
      omega
    induction h with
    | construct logV =>
      refine ⟨?_, fun _ => Nat.zero_le _, fun _ _ => rfl⟩
      show 0 = ∑ e in Finset.range n, 0
      simp
    | compute o e _ he ih =>
      obtain ⟨i1, i2, i3⟩ := ih
      obtain ⟨c1, c2, c3, c4, _⟩ := fast_compute_charged sqrt L o e (i2 e)
      have hu : (Fast.compute_marginal_gain_exponential sqrt L o e).2.u
          = Function.update o.u e o.S.length := by
        funext a
        by_cases ha : a = e
        · rw [ha, c2, Function.update_same]
        · rw [c3 a ha, Function.update_noteq ha]
      refine ⟨?_, ?_, ?_⟩
      · rw [c1, hu, sum_update_range n o.u e _ he (i2 e), i1]
      · intro a
        rw [c4]
        by_cases ha : a = e
        · rw [ha, c2]
        · rw [c3 a ha]
          exact i2 a
      · intro a ha
        rw [c3 a (by omega)]
        exact i3 a ha
    | get_last o e _ _ ih =>
      have g : (Fast.get_last_marginal_gain_exponential L o e).2.U = o.U ∧
          (Fast.get_last_marginal_gain_exponential L o e).2.u = o.u ∧
          (Fast.get_last_marginal_gain_exponential L o e).2.S = o.S := by
        unfold Fast.get_last_marginal_gain_exponential
        cases o.d e <;> exact ⟨rfl, rfl, rfl⟩
      obtain ⟨g1, g2, g3⟩ := g
      unfold Fast.Counted
      rw [g1, g2, g3]
      exact ih
    | add o e _ _ ih =>
      obtain ⟨i1, i2, i3⟩ := ih
      refine ⟨i1, ?_, i3⟩
      intro a
      show o.u a ≤ (o.S ++ [e]).length
      rw [List.length_append]
      exact Nat.le_trans (i2 a) (Nat.le_add_right _ _)
    | clear o _ ih => exact ih
  have hc := fast_called_counted Real.sqrt Real.log V0 L n o h
  refine ⟨hc, ?_, rfl, rfl⟩
  intro e he
  exact ⟨fast_compute_charged Real.sqrt L o e (hc.2.1 e),
    fast_called_counted Real.sqrt Real.log V0 L n _ (Fast.Called.compute o e h he)⟩

/-- Witness of C31: over `diag(0.3, 0.2, 0.9, 0.5, 0.25, 0.125, 0.1, 2.0)` with logging
on, the call for element `0` after element `2` has been computed and added. -/
theorem fast_work_counter_witness :
    Fast.Charged Real.sqrt (testDiag ℝ)
      (Fast.add Real.log (Fast.compute_marginal_gain_exponential Real.sqrt (testDiag ℝ)
        (Fast.construct (fun _ _ => none) true) 2).2 2) 0 :=
  ((fast_work_counter 8 (testDiag ℝ) (fun _ _ => none) _
    (Fast.Called.add _ 2
      (Fast.Called.compute _ 2 (Fast.Called.construct true) (by decide)) (by decide))).2.1 0
    (by decide)).1

end DPP

namespace DPP

/-- The number of elements below `n` outside a selection. -/
theorem length_outside (n : Nat) (T S : List Nat) (hT : T.Nodup) (hS : S.Nodup)
    (hr : ∀ x ∈ S, x < n) (h : ∀ x, x ∈ T ↔ (x < n ∧ x ∉ S)) : T.length + S.length = n := by
  have hsub : S.toFinset ⊆ Finset.range n := by
    intro x hx
    rw [List.mem_toFinset] at hx
    exact Finset.mem_range.mpr (hr x hx)
  have heq : T.toFinset = Finset.range n \ S.toFinset := by
    ext x
    rw [List.mem_toFinset, Finset.mem_sdiff, Finset.mem_range, List.mem_toFinset]
    exact h x
  have h1 := congrArg Finset.card heq
  rw [Finset.card_sdiff hsub, Finset.card_range, List.toFinset_card_of_nodup hT,
    List.toFinset_card_of_nodup hS] at h1
  have h2 := Finset.card_le_card hsub
  rw [Finset.card_range, List.toFinset_card_of_nodup hS] at h2
  omega

theorem greedyUnfolds_of {τ σ α : Type} [LinearOrderedField α] (sops : StrategyOps τ σ α)
    (oops : OracleOps σ α) (n k : Nat) (param : Param α) (clock : Nat → α) :
    GreedyUnfolds sops oops n k param clock := by
  refine ⟨?_, ?_⟩
  · intro hk
    refine ⟨_, rfl, ?_⟩
    unfold greedy
    have hkn : (!decide (k ≤ n)) = false := by simp [hk]
    rw [hkn]
    rfl
  · intro m t s o res e s1 o1 hp
    refine ⟨?_, ?_⟩
    · simp only [greedy_step, hp]
    · rw [greedy_loop]
      simp only [hp]

/-- The state of plain greedy after `t ≤ k` iterations. -/
theorem greedy_states_base {τ σ α : Type} [LinearOrderedField α] (log : α → α) (n : Nat)
    (oops : OracleOps σ α) (Good : σ → Prop) (Holds : σ → Nat → α → Prop)
    (B : OracleBase oops log Good Holds) (sops : StrategyOps τ σ α) (getT : τ → List Nat)
    (getD : τ → Bool) (SI : τ → Prop) (Dead : τ → σ → Prop)
    (SL : StrategyLaw n oops Good sops getT getD SI Dead)
    (k : Nat) (param : Param α) :
    ∀ t, t ≤ n → ∃ s o, greedy_states sops oops n k param t = .ok (s, o) ∧ Good o ∧ SI s ∧
      getD s = false ∧ (getT s).Nodup ∧
      (∀ x, x ∈ getT s ↔ (x < n ∧ x ∉ oops.get_solution o)) ∧
      (oops.get_solution o).length = t ∧ (oops.get_solution o).Nodup ∧
      (∀ x ∈ oops.get_solution o, x < n) ∧
      (t < n → ∃ e s1 o1, sops.pop_largest s o = .ok (some e, s1, o1) ∧ e ∈ getT s) := by
  have hpop : ∀ (s : τ) (o : σ), Good o → SI s → getD s = false → (getT s).Nodup →
      (∀ x, x ∈ getT s ↔ (x < n ∧ x ∉ oops.get_solution o)) →
      (oops.get_solution o).length < n →
      ∃ e s1 o1, sops.pop_largest s o = .ok (some e, s1, o1) ∧ e ∈ getT s ∧
        Good o1 ∧ oops.get_solution o1 = oops.get_solution o ∧ SI s1 ∧ getD s1 = false ∧
        (getT s1).Nodup ∧ ∀ x, x ∈ getT s1 ↔ (x ∈ getT s ∧ x ≠ e) := by
    intro s o hg hSI hD hnd hT hlen
    obtain ⟨x0, hx0, hx0S⟩ := exists_fresh_element n (oops.get_solution o) hlen
    have hne : getT s ≠ [] := List.ne_nil_of_mem ((hT x0).mpr ⟨hx0, hx0S⟩)
    have hT' : ∀ e ∈ getT s, e < n ∧ e ∉ oops.get_solution o := fun e he => (hT e).mp he
    obtain ⟨r, s1, o1, hok, hpo, _, _⟩ := SL.pop_spec s o hg hSI hnd hT' (Or.inr hne)
    obtain ⟨g1, g2, _⟩ :=
      popOut_base oops log Good Holds B getT getD SI s o r s1 o1 hg (fun e he => (hT' e he).2)
        hpo
    obtain ⟨q1, q2, q3, q4, q5⟩ := hpo
    cases r with
    | none =>
      have := (q4 rfl).1
      rw [hD] at this
      cases this
    | some e =>
      obtain ⟨heT, hmem, _, _⟩ := q5 e rfl
      exact ⟨e, s1, o1, hok, heT, g1, g2, q2, by rw [q1]; exact hD, q3, hmem⟩
  intro t
  induction t with
  | zero =>
    intro _
    obtain ⟨c1, c2, c3, c4, c5, c6, _, _⟩ := construct_base log n oops Good Holds B sops getT
      getD SI Dead SL k param.log_computed_offdiagonals_V false
    refine ⟨_, _, rfl, c1, c2, c3, c4, ?_, (by rw [c6]; rfl), (by rw [c6]; exact List.nodup_nil),
      (by rw [c6]; intro x hx; cases hx), ?_⟩
    · intro x
      rw [c5 x, c6]
      simp
    · intro hn
      obtain ⟨e, s1, o1, h1, h2, _⟩ := hpop _ _ c1 c2 c3 c4 (by
        intro x
        rw [c5 x, c6]
        simp) (by rw [c6]; exact hn)
      exact ⟨e, s1, o1, h1, h2⟩
  | succ t ih =>
    intro ht
    obtain ⟨s, o, hst, hg, hSI, hD, hnd, hT, hlen, hndS, hr, _⟩ := ih (by omega)
    obtain ⟨e, s1, o1, hok, heT, g1, g2, q2, q1, q3, hmem⟩ :=
      hpop s o hg hSI hD hnd hT (by omega)
    obtain ⟨he, heS⟩ := (hT e).mp heT
    have hg2 : Good (oops.add o1 e) := B.add_good o1 e g1
    have hS2 : oops.get_solution (oops.add o1 e) = oops.get_solution o ++ [e] := by
      rw [B.law.add_S, g2]
    obtain ⟨hg3, hS3⟩ : Good (if param.log_computed_offdiagonals_V = true then
          oops.clear_computed_offdiagonals_V (oops.add o1 e) else oops.add o1 e) ∧
        oops.get_solution (if param.log_computed_offdiagonals_V = true then
          oops.clear_computed_offdiagonals_V (oops.add o1 e) else oops.add o1 e)
          = oops.get_solution o ++ [e] := by
      by_cases hlog : param.log_computed_offdiagonals_V = true
      · rw [if_pos hlog]
        obtain ⟨c1, c2, _⟩ := B.clear_good _ hg2
        exact ⟨c1, by rw [c2, hS2]⟩
      · rw [if_neg hlog]
        exact ⟨hg2, hS2⟩
    have hT3 : ∀ x, x ∈ getT s1 ↔ (x < n ∧ x ∉ oops.get_solution
        (if param.log_computed_offdiagonals_V = true then
          oops.clear_computed_offdiagonals_V (oops.add o1 e) else oops.add o1 e)) := by
      intro x
      rw [hS3, hmem x, hT x]
      simp only [List.mem_append, List.mem_singleton, not_or]
      exact and_assoc
    have hst1 : greedy_states sops oops n k param (t + 1)
        = .ok (s1, if param.log_computed_offdiagonals_V = true then
          oops.clear_computed_offdiagonals_V (oops.add o1 e) else oops.add o1 e) := by
      rw [greedy_states, hst]
      simp only [greedy_step, hok]
    have hnd3 : (oops.get_solution o ++ [e]).Nodup := by
      rw [List.nodup_append]
      refine ⟨hndS, List.nodup_singleton e, ?_⟩
      intro a ha hb
      rw [List.mem_singleton.mp hb] at ha
      exact heS ha
    have hr3 : ∀ x ∈ oops.get_solution o ++ [e], x < n := by
      intro x hx
      rcases List.mem_append.mp hx with h | h
      · exact hr x h
      · rw [List.mem_singleton.mp h]; exact he
    refine ⟨_, _, hst1, hg3, q2, q1, q3, hT3, ?_, (by rw [hS3]; exact hnd3),
      (by rw [hS3]; exact hr3), ?_⟩
    · rw [hS3, List.length_append, hlen]
      rfl
    · intro hn
      obtain ⟨e2, s2, o2, h1, h2, _⟩ := hpop _ _ hg3 q2 q1 q3 hT3 (by
        rw [hS3, List.length_append, hlen]
        exact hn)
      exact ⟨e2, s2, o2, h1, h2⟩

end DPP

namespace DPP

/-- C40: plain greedy never dereferences an empty pick.  For every kernel `L` on `n`
elements and every `k ≤ n`, with the lazy or the non-lazy strategy, built without dummy
elements over `0..n-1`, and the direct or the fast oracle, `greedy` returns without a
failed assertion; its loop passes through the states `greedy_states`, and before each of
its `k` iterations, `t = 0..k-1`, the ground set of the strategy lists `n - t ≥ 1` distinct
elements, those below `n` outside the selection, each with a heap entry in the lazy case,
and `pop_largest()` returns an element of the ground set rather than nothing. -/
theorem greedy_never_empty (n : Nat) (L : Nat → Nat → ℝ) (k : Nat) (hk : k ≤ n)
    (ord : List Nat → List Nat) (hord : SetOrder ord) (V0 : Nat → Nat → Option ℝ)
    (param : Param ℝ) (clock : Nat → ℝ) :
    NeverEmpty (NonLazy.ops ord (Oracle.ops Real.log L)) (Oracle.ops Real.log L)
      (fun s => s.T) (fun _ => True) n k param clock ∧
    NeverEmpty (Lazy.ops ord (Oracle.ops Real.log L)) (Oracle.ops Real.log L)
      (fun s => s.T) (fun s => Cover s.T s.Q) n k param clock ∧
    NeverEmpty (NonLazy.ops ord (Fast.ops Real.sqrt Real.log V0 L))
      (Fast.ops Real.sqrt Real.log V0 L) (fun s => s.T) (fun _ => True) n k param clock ∧
    NeverEmpty (Lazy.ops ord (Fast.ops Real.sqrt Real.log V0 L))
      (Fast.ops Real.sqrt Real.log V0 L) (fun s => s.T) (fun s => Cover s.T s.Q) n k param
      clock := by
  -- Plain greedy never dereferences an empty pick, for a strategy and an oracle that are
  -- what the drivers expect; `Live` is what the own invariant of the strategy gives without
  -- dummy elements.
  have neverEmpty_of {τ σ α : Type} [LinearOrderedField α] (log : α → α) (n : Nat)
      (oops : OracleOps σ α) (Good : σ → Prop) (Holds : σ → Nat → α → Prop)
      (B : OracleBase oops log Good Holds) (sops : StrategyOps τ σ α) (getT : τ → List Nat)
      (getD : τ → Bool) (SI : τ → Prop) (Dead : τ → σ → Prop)
      (SL : StrategyLaw n oops Good sops getT getD SI Dead) (Live : τ → Prop)
      (hlive : ∀ s, SI s → getD s = false → Live s)
      (k : Nat) (hk : k ≤ n) (param : Param α) (clock : Nat → α) :
      NeverEmpty sops oops getT Live n k param clock := by
    refine ⟨?_, greedyUnfolds_of sops oops n k param clock, ?_⟩
    · obtain ⟨out, _, _, _, h1, _⟩ :=
        greedy_base log n oops Good Holds B sops getT getD SI Dead SL k hk param clock
      exact ⟨out, h1⟩
    · intro t ht
      obtain ⟨s, o, hst, _, hSI, hD, hnd, hT, hlen, hndS, hr, hp⟩ :=
        greedy_states_base log n oops Good Holds B sops getT getD SI Dead SL k param t (by omega)
      obtain ⟨e, s1, o1, h1, h2⟩ := hp (by omega)
      have hcount := length_outside n (getT s) (oops.get_solution o) hnd hndS hr hT
      exact ⟨s, o, e, s1, o1, hst, hnd, by omega, by omega, hT, hlen, hlive s hSI hD, h1, h2⟩
  have BD := direct_base Real.log L
  have BF := fast_base Real.sqrt Real.log V0 L
  exact ⟨neverEmpty_of Real.log n _ _ _ BD _ _ _ _ _ (nonlazy_law n _ BD.law _ ord hord) _
      (fun _ _ _ => trivial) k hk param clock,
    neverEmpty_of Real.log n _ _ _ BD _ _ _ _ _ (lazy_law n _ BD.law _ ord hord) _
      (fun _ hSI hD => hSI hD) k hk param clock,
    neverEmpty_of Real.log n _ _ _ BF _ _ _ _ _ (nonlazy_law n _ BF.law _ ord hord) _
      (fun _ _ _ => trivial) k hk param clock,
    neverEmpty_of Real.log n _ _ _ BF _ _ _ _ _ (lazy_law n _ BF.law _ ord hord) _
      (fun _ hSI hD => hSI hD) k hk param clock⟩

/-- Witness of C40: `diag(0.3, 0.2, 0.9, 0.5, 0.25, 0.125, 0.1, 2.0)` with `k = 4`, with
the lazy strategy over the fast oracle. -/
theorem greedy_never_empty_witness :
    NeverEmpty (Lazy.ops (fun l => l.dedup)
        (Fast.ops Real.sqrt Real.log (fun _ _ => none) (testDiag ℝ)))
      (Fast.ops Real.sqrt Real.log (fun _ _ => none) (testDiag ℝ)) (fun s => s.T)
      (fun s => Cover s.T s.Q) 8 4 { time_limit := ⊤, log_computed_offdiagonals_V := false }
      (fun _ => 0) :=
  (greedy_never_empty 8 (testDiag ℝ) 4 (by decide) (fun l => l.dedup) setOrder_id
    (fun _ _ => none) { time_limit := ⊤, log_computed_offdiagonals_V := false }
    (fun _ => 0)).2.2.2

end DPP

namespace DPP

theorem stochasticUnfolds_of {τ σ α : Type} [LinearOrderedField α] [FloorRing α]
    (log : α → α) (sops : StrategyOps τ σ α) (oops : OracleOps σ α) (n k : Nat)
    (param : Param α) (clock : Nat → α) (rng : Nat → Nat) :
    StochasticUnfolds log sops oops n k param clock rng := by
  refine ⟨?_, ?_⟩
  · intro hk
    unfold stochastic_greedy
    have hkn : (!decide (k ≤ n)) = false := by simp [hk]
    rw [hkn]
    rfl
  · intro s m t pos T T_inv o x hx
    rw [stochastic_greedy_loop]
    simp only [stochastic_greedy_step] at hx
    cases hp : sops.pop_largest
        (sops.construct ((fisher_yates_shuffle rng (min s (n - (oops.get_solution o).length))
          pos T T_inv).1.take (min s (n - (oops.get_solution o).length))) false o).1
        (sops.construct ((fisher_yates_shuffle rng (min s (n - (oops.get_solution o).length))
          pos T T_inv).1.take (min s (n - (oops.get_solution o).length))) false o).2 with
    | error f =>
      rw [hp] at hx
      cases hx
    | ok z =>
      obtain ⟨r, s1, o1⟩ := z
      rw [hp] at hx
      simp only [Except.ok.injEq] at hx
      subst hx
      rfl

/-- An iteration of the loop of `stochastic_greedy` from a state the driver reaches. -/
theorem stochastic_step_base {τ σ α : Type} [LinearOrderedField α] (log : α → α)
    (n : Nat) (oops : OracleOps σ α) (Good : σ → Prop) (Holds : σ → Nat → α → Prop)
    (B : OracleBase oops log Good Holds) (sops : StrategyOps τ σ α) (getT : τ → List Nat)
    (getD : τ → Bool) (SI : τ → Prop) (Dead : τ → σ → Prop)
    (SL : StrategyLaw n oops Good sops getT getD SI Dead)
    (s : Nat) (hs : 0 < s) (rng : Nat → Nat) (pos : Nat) (T : List Nat) (T_inv : Nat → Int)
    (o : σ) (hg : Good o) (hTI : TInv T T_inv)
    (hT : ∀ x, x ∈ T ↔ (x < n ∧ x ∉ oops.get_solution o))
    (hTlen : T.length + (oops.get_solution o).length = n)
    (hlen : (oops.get_solution o).length < n) (hndS : (oops.get_solution o).Nodup)
    (hr : ∀ x ∈ oops.get_solution o, x < n) :
    1 ≤ stochastic_size oops n s o ∧ stochastic_size oops n s o ≤ T.length ∧
    (stochastic_candidates oops n s rng (pos, T, T_inv, o)).Nodup ∧
    (stochastic_candidates oops n s rng (pos, T, T_inv, o)).length
      = stochastic_size oops n s o ∧
    (∀ a ∈ stochastic_candidates oops n s rng (pos, T, T_inv, o), a ∈ T) ∧
    ∃ e s1 o1 pos' T' T_inv',
      sops.pop_largest
        (sops.construct (stochastic_candidates oops n s rng (pos, T, T_inv, o)) false o).1
        (sops.construct (stochastic_candidates oops n s rng (pos, T, T_inv, o)) false o).2
        = .ok (some e, s1, o1) ∧
      e ∈ stochastic_candidates oops n s rng (pos, T, T_inv, o) ∧
      stochastic_greedy_step sops oops n s rng (pos, T, T_inv, o)
        = .ok (pos', T', T_inv', oops.add o1 e) ∧
      oops.get_solution (oops.add o1 e) = oops.get_solution o ++ [e] ∧
      Good (oops.add o1 e) ∧ TInv T' T_inv' ∧
      (∀ x, x ∈ T' ↔ (x < n ∧ x ∉ oops.get_solution (oops.add o1 e))) ∧
      T'.length + (oops.get_solution (oops.add o1 e)).length = n ∧
      (oops.get_solution (oops.add o1 e)).Nodup ∧
      ∀ x ∈ oops.get_solution (oops.add o1 e), x < n := by
  have hcs1 : 0 < min s (n - (oops.get_solution o).length) := by
    apply lt_min hs
    omega
  have hcs2 : min s (n - (oops.get_solution o).length) ≤ T.length := by
    have := min_le_right s (n - (oops.get_solution o).length)
    omega
  obtain ⟨f1, f2, f3⟩ := fisher_yates_shuffle_spec rng
    (min s (n - (oops.get_solution o).length)) pos T T_inv hTI hcs2
  have hrnd : ((fisher_yates_shuffle rng (min s (n - (oops.get_solution o).length)) pos T
      T_inv).1.take (min s (n - (oops.get_solution o).length))).Nodup :=
    List.Nodup.sublist (List.take_sublist _ _) f1.1
  have hrin : ∀ e ∈ (fisher_yates_shuffle rng (min s (n - (oops.get_solution o).length)) pos
      T T_inv).1.take (min s (n - (oops.get_solution o).length)), e ∈ T :=
    fun e he => (f3 e).mp (List.mem_of_mem_take he)
  have hrmem : ∀ e ∈ (fisher_yates_shuffle rng (min s (n - (oops.get_solution o).length)) pos
      T T_inv).1.take (min s (n - (oops.get_solution o).length)),
      e < n ∧ e ∉ oops.get_solution o :=
    fun e he => (hT e).mp (hrin e he)
  have hrlen : ((fisher_yates_shuffle rng (min s (n - (oops.get_solution o).length)) pos T
      T_inv).1.take (min s (n - (oops.get_solution o).length))).length
      = min s (n - (oops.get_solution o).length) := by
    rw [List.length_take, f2, Nat.min_eq_left hcs2]
  have hrne : (fisher_yates_shuffle rng (min s (n - (oops.get_solution o).length)) pos T
      T_inv).1.take (min s (n - (oops.get_solution o).length)) ≠ [] := by
    intro h0
    have h1 := congrArg List.length h0
    rw [hrlen, List.length_nil] at h1
    omega
  refine ⟨hcs1, hcs2, hrnd, hrlen, hrin, ?_⟩
  obtain ⟨d1, d2, d3, d4, d5⟩ := SL.construct_spec _ false o hg hrnd hrmem
  obtain ⟨e1, e2, e3, _⟩ := steps_base oops log Good Holds B _ _ _ hg d5
  have hT1 : ∀ e ∈ getT (sops.construct ((fisher_yates_shuffle rng
      (min s (n - (oops.get_solution o).length)) pos T T_inv).1.take
      (min s (n - (oops.get_solution o).length))) false o).1,
      e < n ∧ e ∉ oops.get_solution (sops.construct ((fisher_yates_shuffle rng
      (min s (n - (oops.get_solution o).length)) pos T T_inv).1.take
      (min s (n - (oops.get_solution o).length))) false o).2 := by
    intro e he
    rw [e2]
    exact hrmem e ((d2 e).mp he)
  have hne : getT (sops.construct ((fisher_yates_shuffle rng
      (min s (n - (oops.get_solution o).length)) pos T T_inv).1.take
      (min s (n - (oops.get_solution o).length))) false o).1 ≠ [] := by
    obtain ⟨x, hx⟩ := List.exists_mem_of_ne_nil _ hrne
    exact List.ne_nil_of_mem ((d2 x).mpr hx)
  obtain ⟨r, s1, o1, hok, hpo, _, _⟩ := SL.pop_spec _ _ e1 d4 d1 hT1 (Or.inr hne)
  obtain ⟨g1, g2, _⟩ :=
    popOut_base oops log Good Holds B getT getD SI _ _ r s1 o1 e1
      (fun x hx => (hT1 x hx).2) hpo
  obtain ⟨q1, q2, q3, q4, q5⟩ := hpo
  cases r with
  | none =>
    have := (q4 rfl).1
    rw [d3] at this
    cases this
  | some e =>
    obtain ⟨heT, _, _, _⟩ := q5 e rfl
    have hec := (d2 e).mp heT
    obtain ⟨he, heS⟩ := hrmem e hec
    have heT' : e ∈ (fisher_yates_shuffle rng (min s (n - (oops.get_solution o).length))
        pos T T_inv).1 := List.mem_of_mem_take hec
    have hS1 : oops.get_solution o1 = oops.get_solution o := by rw [g2, e2]
    have hS2 : oops.get_solution (oops.add o1 e) = oops.get_solution o ++ [e] := by
      rw [B.law.add_S, hS1]
    obtain ⟨r1, r2, r3⟩ := remove_T_spec e _ _ f1 heT'
    refine ⟨e, s1, o1,
      (fisher_yates_shuffle rng (min s (n - (oops.get_solution o).length)) pos T T_inv).2.2,
      (remove_T e
        (fisher_yates_shuffle rng (min s (n - (oops.get_solution o).length)) pos T T_inv).1
        (fisher_yates_shuffle rng (min s (n - (oops.get_solution o).length)) pos T T_inv).2.1).1,
      (remove_T e
        (fisher_yates_shuffle rng (min s (n - (oops.get_solution o).length)) pos T T_inv).1
        (fisher_yates_shuffle rng (min s (n - (oops.get_solution o).length)) pos T T_inv).2.1).2,
      hok, hec, ?_, hS2, B.add_good o1 e g1, r1, ?_, ?_, ?_, ?_⟩
    · simp only [stochastic_greedy_step]
      rw [hok]
    · intro x
      rw [r3 x, f3 x, hT x, hS2]
      simp only [List.mem_append, List.mem_singleton, not_or]
      exact and_assoc
    · rw [hS2, List.length_append, List.length_singleton]
      omega
    · rw [hS2, List.nodup_append]
      refine ⟨hndS, List.nodup_singleton e, ?_⟩
      intro a ha hb
      rw [List.mem_singleton.mp hb] at ha
      exact heS ha
    · rw [hS2]
      intro x hx
      rcases List.mem_append.mp hx with h | h
      · exact hr x h
      · rw [List.mem_singleton.mp h]; exact he

/-- The state of stochastic greedy after `t ≤ n` iterations. -/
theorem stochastic_states_base {τ σ α : Type} [LinearOrderedField α] (log : α → α)
    (n : Nat) (oops : OracleOps σ α) (Good : σ → Prop) (Holds : σ → Nat → α → Prop)
    (B : OracleBase oops log Good Holds) (sops : StrategyOps τ σ α) (getT : τ → List Nat)
    (getD : τ → Bool) (SI : τ → Prop) (Dead : τ → σ → Prop)
    (SL : StrategyLaw n oops Good sops getT getD SI Dead)
    (k s : Nat) (hs : 0 < s) (param : Param α) (rng : Nat → Nat) :
    ∀ t, t ≤ n → ∃ pos T T_inv o,
      stochastic_greedy_states sops oops n k s param rng t = .ok (pos, T, T_inv, o) ∧
      Good o ∧ TInv T T_inv ∧ (∀ x, x ∈ T ↔ (x < n ∧ x ∉ oops.get_solution o)) ∧
      T.length + (oops.get_solution o).length = n ∧ (oops.get_solution o).length = t ∧
      (oops.get_solution o).Nodup ∧ ∀ x ∈ oops.get_solution o, x < n := by
  intro t
  induction t with
  | zero =>
    intro _
    obtain ⟨c1, c2, _⟩ := B.construct_good k param.log_computed_offdiagonals_V
    refine ⟨0, List.range n, fun e => (e : Int), _, rfl, c1, ?_, ?_, ?_, (by rw [c2]; rfl),
      (by rw [c2]; exact List.nodup_nil), (by rw [c2]; intro x hx; cases hx)⟩
    · refine ⟨List.nodup_range n, ?_⟩
      intro p hp
      rw [List.length_range] at hp
      simp [List.getD_eq_getElem?_getD, List.getElem?_range hp]
    · intro x
      rw [c2, List.mem_range]
      simp
    · rw [c2, List.length_range]
      rfl
  | succ t ih =>
    intro ht
    obtain ⟨pos, T, T_inv, o, hst, hg, hTI, hT, hTlen, hlen, hndS, hr⟩ := ih (by omega)
    obtain ⟨_, _, _, _, _, e, s1, o1, pos', T', T_inv', _, _, hstep, hS2, a1, a2, a3, a4, a5,
        a6⟩ :=
      stochastic_step_base log n oops Good Holds B sops getT getD SI Dead SL s hs rng pos T
        T_inv o hg hTI hT hTlen (by omega) hndS hr
    refine ⟨pos', T', T_inv', oops.add o1 e, ?_, a1, a2, a3, a4, ?_, a5, a6⟩
    · rw [stochastic_greedy_states, hst]
      exact hstep
    · rw [hS2, List.length_append, hlen]
      rfl

/-- Stochastic greedy fills the budget, for a strategy and an oracle that are what the
drivers expect. -/
theorem fillsBudget_of {τ σ α : Type} [LinearOrderedField α] {sqrt log : α → α}
    [Numeric sqrt log] [FloorRing α]
    (n : Nat) (oops : OracleOps σ α) (Good : σ → Prop) (Holds : σ → Nat → α → Prop)
    (B : OracleBase oops log Good Holds) (sops : StrategyOps τ σ α) (getT : τ → List Nat)
    (getD : τ → Bool) (SI : τ → Prop) (Dead : τ → σ → Prop)
    (SL : StrategyLaw n oops Good sops getT getD SI Dead)
    (k : Nat) (hk1 : 1 ≤ k) (hk : k ≤ n) (param : Param α) (htime : param.time_limit = ⊤)
    (clock : Nat → α) (rng : Nat → Nat) :
    FillsBudget log sops oops n k (Nat.ceil ((n : α) / (k : α) * log (1 / (1 / 2)))) param
      clock rng := by
  have hs : 0 < Nat.ceil ((n : α) / (k : α) * log (1 / (1 / 2))) := by
    rw [Nat.ceil_pos]
    apply mul_pos
    · apply div_pos
      · exact_mod_cast lt_of_lt_of_le hk1 hk
      · exact_mod_cast hk1
    · apply numeric_log_pos sqrt log
      norm_num
  refine ⟨?_, stochasticUnfolds_of log sops oops n k param clock rng, rfl, ?_⟩
  · obtain ⟨r, r1, _, r3⟩ :=
      @stochastic_greedy_base τ σ α _ sqrt log _ _ n oops Good Holds B sops getT getD SI Dead
        SL k hk param clock rng
    obtain ⟨es, gs, p, _, q2, q3, _, q5, q6, q7⟩ :=
      r3 (@greedy_len_top α _ sqrt log _ param clock htime k 0).2
    have hsol : r.solution = es := by
      rw [q2]
      exact q3
    exact ⟨r, r1, by rw [q2]; rfl, by rw [hsol]; exact q7, by rw [hsol]; exact q5,
      by rw [hsol]; exact q6⟩
  · intro t ht
    obtain ⟨pos, T, T_inv, o, hst, hg, hTI, hT, hTlen, hlen, hndS, hr⟩ :=
      stochastic_states_base log n oops Good Holds B sops getT getD SI Dead SL k _ hs param
        rng t (by omega)
    obtain ⟨b1, b2, b3, b4, b5, e, s1, o1, pos', T', T_inv', c1, c2, hstep, hS2, _⟩ :=
      stochastic_step_base log n oops Good Holds B sops getT getD SI Dead SL _ hs rng pos T
        T_inv o hg hTI hT hTlen (by omega) hndS hr
    have hTn : T.length = n - t := by omega
    refine ⟨(pos, T, T_inv, o), e, s1, o1, (pos', T', T_inv'), hst, hlen, hTI.1, hTn, hT,
      ?_, b1, b2, b3, b4, b5, c1, c2, ?_, hS2⟩
    · show min _ (n - (oops.get_solution o).length) = _
      rw [hlen]
    · rw [stochastic_greedy_states, hst]
      exact hstep

end DPP

namespace DPP

/-- C39: stochastic greedy fills the budget.  For every kernel `L` on `n` elements, every
`1 ≤ k ≤ n` and every engine output, with an infinite time limit and with the lazy or the
non-lazy strategy over the direct or the fast oracle, the loop of `stochastic_greedy`
passes through the states `stochastic_greedy_states`, and before each of its `k`
iterations the sample size `current_s = min(ceil((n / k) * ln 2), n - |S|)` is at least
`1` and at most `|T|`, the candidates `T[0..current_s)` are distinct elements of `T`, which
lists the elements below `n` outside the selection, and the strategy built over them
returns one of them, which the oracle adds to the selection and nothing else; so the
run returns a finished result whose solution lists `k` distinct elements below `n`. -/
theorem stochastic_fills_budget (n : Nat) (L : Nat → Nat → ℝ) (k : Nat) (hk1 : 1 ≤ k)
    (hk : k ≤ n) (ord : List Nat → List Nat) (hord : SetOrder ord)
    (V0 : Nat → Nat → Option ℝ) (param : Param ℝ) (htime : param.time_limit = ⊤)
    (clock : Nat → ℝ) (rng : Nat → Nat) :
    FillsBudget Real.log (NonLazy.ops ord (Oracle.ops Real.log L)) (Oracle.ops Real.log L)
      n k (Nat.ceil ((n : ℝ) / (k : ℝ) * Real.log (1 / (1 / 2)))) param clock rng ∧
    FillsBudget Real.log (Lazy.ops ord (Oracle.ops Real.log L)) (Oracle.ops Real.log L)
      n k (Nat.ceil ((n : ℝ) / (k : ℝ) * Real.log (1 / (1 / 2)))) param clock rng ∧
    FillsBudget Real.log (NonLazy.ops ord (Fast.ops Real.sqrt Real.log V0 L))
      (Fast.ops Real.sqrt Real.log V0 L)
      n k (Nat.ceil ((n : ℝ) / (k : ℝ) * Real.log (1 / (1 / 2)))) param clock rng ∧
    FillsBudget Real.log (Lazy.ops ord (Fast.ops Real.sqrt Real.log V0 L))
      (Fast.ops Real.sqrt Real.log V0 L)
      n k (Nat.ceil ((n : ℝ) / (k : ℝ) * Real.log (1 / (1 / 2)))) param clock rng ∧
    Real.log (1 / (1 / 2)) = Real.log 2 := by
  have BD := direct_base Real.log L
  have BF := fast_base Real.sqrt Real.log V0 L
  refine ⟨@fillsBudget_of _ _ ℝ _ Real.sqrt Real.log _ _ n _ _ _ BD _ _ _ _ _
      (nonlazy_law n _ BD.law _ ord hord) k hk1 hk param htime clock rng,
    @fillsBudget_of _ _ ℝ _ Real.sqrt Real.log _ _ n _ _ _ BD _ _ _ _ _
      (lazy_law n _ BD.law _ ord hord) k hk1 hk param htime clock rng,
    @fillsBudget_of _ _ ℝ _ Real.sqrt Real.log _ _ n _ _ _ BF _ _ _ _ _
      (nonlazy_law n _ BF.law _ ord hord) k hk1 hk param htime clock rng,
    @fillsBudget_of _ _ ℝ _ Real.sqrt Real.log _ _ n _ _ _ BF _ _ _ _ _
      (lazy_law n _ BF.law _ ord hord) k hk1 hk param htime clock rng, ?_⟩
  norm_num

/-- Witness of C39: `diag(0.3, 0.2, 0.9, 0.5, 0.25, 0.125, 0.1, 2.0)` with `k = 4`, with
the non-lazy strategy over the fast oracle. -/
theorem stochastic_fills_budget_witness :
    FillsBudget Real.log
      (NonLazy.ops (fun l => l.dedup)
        (Fast.ops Real.sqrt Real.log (fun _ _ => none) (testDiag ℝ)))
      (Fast.ops Real.sqrt Real.log (fun _ _ => none) (testDiag ℝ)) 8 4
      (Nat.ceil (((8 : Nat) : ℝ) / ((4 : Nat) : ℝ) * Real.log (1 / (1 / 2))))
      { time_limit := ⊤, log_computed_offdiagonals_V := false } (fun _ => 0) (fun t => t) :=
  (stochastic_fills_budget 8 (testDiag ℝ) 4 (by decide) (by decide) (fun l => l.dedup)
    setOrder_id (fun _ _ => none) { time_limit := ⊤, log_computed_offdiagonals_V := false }
    rfl (fun _ => 0) (fun t => t)).2.2.1

end DPP

namespace DPP

/-- The loop of `interlace_greedy` passes through the chains `interlace_chains`. -/
theorem interlaceUnfolds_of {τ σ α : Type} [LinearOrderedField α] (sops : StrategyOps τ σ α)
    (oops : OracleOps σ α) (n k : Nat) (param : Param α) (clock : Nat → α) :
    InterlaceUnfolds sops oops n k param clock := by
  refine ⟨?_, ?_⟩
  · intro hk
    refine ⟨_, rfl, ?_⟩
    unfold interlace_greedy
    have hkn : (!decide (k ≤ n)) = false := by simp [hk]
    rw [hkn]
    rfl
  · intro m t c res es c' hstep
    rw [interlace_greedy_loop]
    simp only [hstep]
    refine ⟨_, ?_, rfl⟩
    simp only [InterlaceResult.add]
    congr 2
    funext f
    fin_cases f <;> rfl

theorem apart_symm {τ σ α : Type} (n : Nat) (oops : OracleOps σ α) (getT : τ → List Nat)
    (h : List Nat) (a b : Chain τ σ) (hab : Chain.Apart n oops getT h a b) :
    Chain.Apart n oops getT h b a := by
  obtain ⟨h1, h2, h3, A, B, h4, h5, h6⟩ := hab
  refine ⟨fun x => (h1 x).symm, ?_, h3, B, A, h5, h4, ?_⟩
  · intro x
    rw [← h1 x, h2 x]
    constructor
    · rintro ⟨p, q, r⟩
      exact ⟨p, r, q⟩
    · rintro ⟨p, q, r⟩
      exact ⟨p, r, q⟩
  · intro x hx hxa
    exact h6 x hxa hx

/-- One half of `interlace_subroutine` on two chains that are apart. -/
theorem interlace_half_apart {τ σ α : Type} [LinearOrderedField α] (log : α → α) (n : Nat)
    (oops : OracleOps σ α) (Good : σ → Prop) (Holds : σ → Nat → α → Prop)
    (B : OracleBase oops log Good Holds) (sops : StrategyOps τ σ α) (getT : τ → List Nat)
    (getD : τ → Bool) (SI : τ → Prop) (Dead : τ → σ → Prop)
    (SL : StrategyLaw n oops Good sops getT getD SI Dead) (a b : Chain τ σ)
    (hp : Chain.Pair n oops Good getT getD SI a b) (h : List Nat)
    (hap : Chain.Apart n oops getT h a b) :
    ∃ r a1 b1, interlace_half sops oops a b = .ok (r, a1, b1) ∧
      Chain.Apart n oops getT h a1 b1 ∧
      ∀ e, r = some e → e ∈ getT b.strategy ∧ ∃ sb, sops.remove b.strategy e = .ok sb := by
  obtain ⟨ha, ⟨b1, b2, b3, b4, b5⟩, hab⟩ := hp
  obtain ⟨t1, t2, t3, A, Bl, t4, t5, t6⟩ := hap
  obtain ⟨r, s1, o1, hok, hn, hs⟩ :=
    chain_pop_base log n oops Good Holds B sops getT getD SI Dead SL a ha
  unfold interlace_half
  rw [hok]
  cases r with
  | none =>
    obtain ⟨_, v2, v3⟩ := hn rfl
    obtain ⟨_, hS, _⟩ := v3.2.1 rfl
    have hS' : oops.get_solution o1 = oops.get_solution a.oracle := hS
    refine ⟨none, _, b, rfl, ⟨fun x => Iff.trans (v2 x) (hab x), ?_, t3, A, Bl, ?_, t5, t6⟩,
      fun e he => by cases he⟩
    · intro x
      show x ∈ getT s1 ↔ (x < n ∧ x ∉ oops.get_solution o1 ∧ x ∉ oops.get_solution b.oracle)
      rw [v2 x, t2 x, hS']
    · show oops.get_solution o1 = h ++ A
      rw [hS', t4]
  | some e =>
    obtain ⟨heT, _, v2, v3⟩ := hs e rfl
    obtain ⟨_, _, hS2, _⟩ := v3.2.2 e rfl
    have hS2' : oops.get_solution (oops.add o1 e) = oops.get_solution a.oracle ++ [e] := hS2
    have heb : e ∈ getT b.strategy := (hab e).mp heT
    obtain ⟨sb, hrm, r1, _, _, _⟩ := SL.remove_spec b.strategy e b2 heb
    simp only [hrm]
    have heSb : e ∉ oops.get_solution b.oracle := ((t2 e).mp heT).2.2
    refine ⟨some e, _, { b with strategy := sb }, rfl,
      ⟨?_, ?_, t3, A ++ [e], Bl, ?_, t5, ?_⟩, fun e' he' => ?_⟩
    · intro x
      show x ∈ getT s1 ↔ x ∈ getT sb
      rw [v2 x, r1, b4.mem_erase_iff, hab x]
      exact and_comm
    · intro x
      show x ∈ getT s1 ↔
        (x < n ∧ x ∉ oops.get_solution (oops.add o1 e) ∧ x ∉ oops.get_solution b.oracle)
      rw [v2 x, t2 x, hS2']
      simp only [List.mem_append, List.mem_singleton, not_or]
      constructor
      · rintro ⟨⟨p, q, r⟩, s⟩
        exact ⟨p, ⟨q, s⟩, r⟩
      · rintro ⟨p, ⟨q, s⟩, r⟩
        exact ⟨⟨p, q, r⟩, s⟩
    · show oops.get_solution (oops.add o1 e) = h ++ (A ++ [e])
      rw [hS2', t4, List.append_assoc]
    · intro x hx
      rcases List.mem_append.mp hx with hxA | hxe
      · exact t6 x hxA
      · rw [List.mem_singleton.mp hxe]
        intro hB
        apply heSb
        rw [t5]
        exact List.mem_append_right _ hB
    · cases he'
      exact ⟨heb, sb, hrm⟩

/-- The function `interlace_subroutine` on two chains that are apart. -/
theorem interlace_subroutine_apart {τ σ α : Type} [LinearOrderedField α] (log : α → α)
    (n : Nat) (oops : OracleOps σ α) (Good : σ → Prop) (Holds : σ → Nat → α → Prop)
    (B : OracleBase oops log Good Holds) (sops : StrategyOps τ σ α) (getT : τ → List Nat)
    (getD : τ → Bool) (SI : τ → Prop) (Dead : τ → σ → Prop)
    (SL : StrategyLaw n oops Good sops getT getD SI Dead) (a b : Chain τ σ)
    (hp : Chain.Pair n oops Good getT getD SI a b) (h : List Nat)
    (hap : Chain.Apart n oops getT h a b) :
    ∃ ea eb a2 b2, interlace_subroutine sops oops a b = .ok ((ea, eb), a2, b2) ∧
      Chain.Pair n oops Good getT getD SI a2 b2 ∧ Chain.Apart n oops getT h a2 b2 ∧
      CrossSafe sops oops getT a b ∧
      ∀ r a1 b1, interlace_half sops oops a b = .ok (r, a1, b1) →
        CrossSafe sops oops getT b1 a1 := by
  obtain ⟨ea, a1, b1, h1, hp1, _⟩ :=
    interlace_half_base log n oops Good Holds B sops getT getD SI Dead SL a b hp
  obtain ⟨ea', a1', b1', h1', hap1, hc1⟩ :=
    interlace_half_apart log n oops Good Holds B sops getT getD SI Dead SL a b hp h hap
  rw [h1] at h1'
  simp only [Except.ok.injEq, Prod.mk.injEq] at h1'
  obtain ⟨rfl, rfl, rfl⟩ := h1'
  have hp1' : Chain.Pair n oops Good getT getD SI b1 a1 :=
    ⟨hp1.2.1, hp1.1, fun x => (hp1.2.2 x).symm⟩
  obtain ⟨eb, b2, a2, h2, hp2, _⟩ :=
    interlace_half_base log n oops Good Holds B sops getT getD SI Dead SL b1 a1 hp1'
  obtain ⟨eb', b2', a2', h2', hap2, hc2⟩ :=
    interlace_half_apart log n oops Good Holds B sops getT getD SI Dead SL b1 a1 hp1' h
      (apart_symm n oops getT h a1 b1 hap1)
  rw [h2] at h2'
  simp only [Except.ok.injEq, Prod.mk.injEq] at h2'
  obtain ⟨rfl, rfl, rfl⟩ := h2'
  refine ⟨ea, eb, a2, b2, ?_, ⟨hp2.2.1, hp2.1, fun x => (hp2.2.2 x).symm⟩,
    apart_symm n oops getT h b2 a2 hap2, ⟨ea, a1, b1, h1, hc1⟩, ?_⟩
  · unfold interlace_subroutine
    rw [h1]
    simp only [h2]
  · intro r a1' b1' hh
    rw [h1] at hh
    simp only [Except.ok.injEq, Prod.mk.injEq] at hh
    obtain ⟨_, rfl, rfl⟩ := hh
    exact ⟨eb, b2, a2, h2, hc2⟩

/-- The first step of chain 2 or 3, from a chain that has selected nothing. -/
theorem interlace_first_apart {τ σ α : Type} [LinearOrderedField α] (log : α → α)
    (n : Nat) (oops : OracleOps σ α) (Good : σ → Prop) (Holds : σ → Nat → α → Prop)
    (B : OracleBase oops log Good Holds) (sops : StrategyOps τ σ α) (getT : τ → List Nat)
    (getD : τ → Bool) (SI : τ → Prop) (Dead : τ → σ → Prop)
    (SL : StrategyLaw n oops Good sops getT getD SI Dead) (a : Chain τ σ)
    (hv : Chain.Valid n oops Good getT getD SI a) (hS : oops.get_solution a.oracle = [])
    (hT : ∀ x, x ∈ getT a.strategy ↔ x < n) :
    ∃ r a1 h, interlace_first sops oops a = .ok (r, a1) ∧
      Chain.Apart n oops getT h a1 a1 := by
  obtain ⟨r, s1, o1, hok, hn, hs⟩ :=
    chain_pop_base log n oops Good Holds B sops getT getD SI Dead SL a hv
  unfold interlace_first
  rw [hok]
  cases r with
  | none =>
    obtain ⟨_, v2, v3⟩ := hn rfl
    obtain ⟨_, hS1, _⟩ := v3.2.1 rfl
    have hS1' : oops.get_solution o1 = [] := by
      have : oops.get_solution o1 = oops.get_solution a.oracle := hS1
      rw [this, hS]
    refine ⟨none, _, [], rfl, fun x => Iff.rfl, ?_, Nat.zero_le _, [], [], ?_, ?_,
      fun x hx => by cases hx⟩
    · intro x
      show x ∈ getT s1 ↔ (x < n ∧ x ∉ oops.get_solution o1 ∧ x ∉ oops.get_solution o1)
      rw [v2 x, hT x, hS1']
      simp
    · show oops.get_solution o1 = [] ++ []
      rw [hS1']
      rfl
    · show oops.get_solution o1 = [] ++ []
      rw [hS1']
      rfl
  | some e =>
    obtain ⟨_, _, v2, v3⟩ := hs e rfl
    obtain ⟨_, _, hS2, _⟩ := v3.2.2 e rfl
    have hS2' : oops.get_solution (oops.add o1 e) = [e] := by
      have : oops.get_solution (oops.add o1 e) = oops.get_solution a.oracle ++ [e] := hS2
      rw [this, hS]
      rfl
    refine ⟨some e, _, [e], rfl, fun x => Iff.rfl, ?_, Nat.le_refl _, [], [], ?_, ?_,
      fun x hx => by cases hx⟩
    · intro x
      show x ∈ getT s1 ↔ (x < n ∧ x ∉ oops.get_solution (oops.add o1 e) ∧
        x ∉ oops.get_solution (oops.add o1 e))
      rw [v2 x, hT x, hS2']
      simp
    · show oops.get_solution (oops.add o1 e) = [e] ++ []
      rw [hS2']
      rfl
    · show oops.get_solution (oops.add o1 e) = [e] ++ []
      rw [hS2']
      rfl

end DPP

namespace DPP

/-- The body of the loop of `interlace_greedy` on chains that are apart. -/
theorem interlace_step_apart {τ σ α : Type} [LinearOrderedField α] (log : α → α)
    (n : Nat) (oops : OracleOps σ α) (Good : σ → Prop) (Holds : σ → Nat → α → Prop)
    (B : OracleBase oops log Good Holds) (sops : StrategyOps τ σ α) (getT : τ → List Nat)
    (getD : τ → Bool) (SI : τ → Prop) (Dead : τ → σ → Prop)
    (SL : StrategyLaw n oops Good sops getT getD SI Dead) (t : Nat) (c : Chains τ σ)
    (h01 : Chain.Pair n oops Good getT getD SI c.c0 c.c1)
    (h23 : Chain.Pair n oops Good getT getD SI c.c2 c.c3)
    (h0 : t = 0 → c.c2 = c.c3 ∧ oops.get_solution c.c2.oracle = [] ∧
      ∀ x, x ∈ getT c.c2.strategy ↔ x < n)
    (a01 : Chain.Apart n oops getT [] c.c0 c.c1)
    (a23 : ∃ h, Chain.Apart n oops getT h c.c2 c.c3) :
    ∃ es c', interlace_step sops oops t c = .ok (es, c') ∧
      Chain.Pair n oops Good getT getD SI c'.c0 c'.c1 ∧
      Chain.Pair n oops Good getT getD SI c'.c2 c'.c3 ∧
      Chain.Apart n oops getT [] c'.c0 c'.c1 ∧
      (∃ h, Chain.Apart n oops getT h c'.c2 c'.c3) ∧
      CrossSafe sops oops getT c.c0 c.c1 ∧
      (∀ r a1 b1, interlace_half sops oops c.c0 c.c1 = .ok (r, a1, b1) →
        CrossSafe sops oops getT b1 a1) ∧
      (0 < t → CrossSafe sops oops getT c.c2 c.c3 ∧
        ∀ r a1 b1, interlace_half sops oops c.c2 c.c3 = .ok (r, a1, b1) →
          CrossSafe sops oops getT b1 a1) := by
  obtain ⟨e0, e1, a0, a1, hs01, hp01, hap01, hx01, hy01⟩ :=
    interlace_subroutine_apart log n oops Good Holds B sops getT getD SI Dead SL _ _ h01 []
      a01
  unfold interlace_step
  rw [hs01]
  simp only []
  by_cases ht : t = 0
  · rw [if_pos ht]
    obtain ⟨h0a, h0b, h0c⟩ := h0 ht
    obtain ⟨e2, a2, hf2, hv2, _⟩ :=
      interlace_first_base log n oops Good Holds B sops getT getD SI Dead SL _ h23.1
    obtain ⟨e2', a2', h, hf2', hap2⟩ :=
      interlace_first_apart log n oops Good Holds B sops getT getD SI Dead SL _ h23.1 h0b h0c
    rw [hf2] at hf2'
    simp only [Except.ok.injEq, Prod.mk.injEq] at hf2'
    obtain ⟨rfl, rfl⟩ := hf2'
    have hf3 : interlace_first sops oops c.c3 = .ok (e2, a2) := by
      rw [← h0a]; exact hf2
    rw [hf2]
    simp only [hf3]
    exact ⟨_, _, rfl, hp01, ⟨hv2, hv2, fun x => Iff.rfl⟩, hap01, ⟨h, hap2⟩, hx01, hy01,
      fun hpos => absurd ht (by omega)⟩
  · rw [if_neg ht]
    obtain ⟨h, hh⟩ := a23
    obtain ⟨e2, e3, a2, a3, hs23, hp23, hap23, hx23, hy23⟩ :=
      interlace_subroutine_apart log n oops Good Holds B sops getT getD SI Dead SL _ _ h23 h
        hh
    rw [hs23]
    exact ⟨_, _, rfl, hp01, hp23, hap01, ⟨h, hap23⟩, hx01, hy01, fun _ => ⟨hx23, hy23⟩⟩

/-- The chains of `interlace_greedy` after any number of iterations are apart. -/
theorem interlace_chains_apart {τ σ α : Type} [LinearOrderedField α] (log : α → α)
    (n : Nat) (oops : OracleOps σ α) (Good : σ → Prop) (Holds : σ → Nat → α → Prop)
    (B : OracleBase oops log Good Holds) (sops : StrategyOps τ σ α) (getT : τ → List Nat)
    (getD : τ → Bool) (SI : τ → Prop) (Dead : τ → σ → Prop)
    (SL : StrategyLaw n oops Good sops getT getD SI Dead) (k : Nat) (param : Param α) :
    ∀ t, ∃ c, interlace_chains sops oops n k param t = .ok c ∧
      Chain.Pair n oops Good getT getD SI c.c0 c.c1 ∧
      Chain.Pair n oops Good getT getD SI c.c2 c.c3 ∧
      (t = 0 → c.c2 = c.c3 ∧ oops.get_solution c.c2.oracle = [] ∧
        ∀ x, x ∈ getT c.c2.strategy ↔ x < n) ∧
      Chain.Apart n oops getT [] c.c0 c.c1 ∧
      ∃ h, Chain.Apart n oops getT h c.c2 c.c3 := by
  intro t
  induction t with
  | zero =>
    obtain ⟨c1, c2, c3, c4, c5, c6, _, _⟩ := construct_base log n oops Good Holds B sops getT
      getD SI Dead SL k param.log_computed_offdiagonals_V true
    have hS0 : oops.get_solution (Chain.init sops oops n k param).oracle = [] := c6
    have hT0 : ∀ x, x ∈ getT (Chain.init sops oops n k param).strategy ↔ x < n := c5
    have hval : Chain.Valid n oops Good getT getD SI (Chain.init sops oops n k param) := by
      refine ⟨c1, c2, c3, c4, ?_⟩
      intro x hx
      rw [hS0]
      exact ⟨(c5 x).mp hx, List.not_mem_nil x⟩
    have hpair : Chain.Pair n oops Good getT getD SI (Chain.init sops oops n k param)
        (Chain.init sops oops n k param) := ⟨hval, hval, fun x => Iff.rfl⟩
    have hap : Chain.Apart n oops getT [] (Chain.init sops oops n k param)
        (Chain.init sops oops n k param) := by
      refine ⟨fun x => Iff.rfl, ?_, Nat.zero_le _, [], [], ?_, ?_, fun x hx => by cases hx⟩
      · intro x
        rw [hT0 x, hS0]
        simp
      · rw [hS0]
        rfl
      · rw [hS0]
        rfl
    exact ⟨_, rfl, hpair, hpair, fun _ => ⟨rfl, hS0, hT0⟩, hap, [], hap⟩
  | succ t ih =>
    obtain ⟨c, hc, p01, p23, h0, a01, a23⟩ := ih
    obtain ⟨es, c', hstep, q01, q23, b01, b23, _⟩ :=
      interlace_step_apart log n oops Good Holds B sops getT getD SI Dead SL t c p01 p23 h0
        a01 a23
    refine ⟨c', ?_, q01, q23, fun h => by omega, b01, b23⟩
    rw [interlace_chains, hc]
    simp only [hstep]

end DPP

namespace DPP

/-- C36: interlaced chains stay disjoint.  For every kernel `L` on `n` elements, every `k`
and the lazy or the non-lazy strategy over the direct or the fast oracle, the loop of
`interlace_greedy` passes through the chains `interlace_chains`, and after every number
of iterations: the ground sets of the strategies `0` and `1` are equal, the elements below
`n` that neither chain has selected, and the selections of the chains `0` and `1` are
disjoint; the ground sets of the strategies `2` and `3` are equal, and the selections of
the chains `2` and `3` share a leading part of at most one element and nothing else; the
next iteration returns without a failed assertion, and in each half of the calls of
`interlace_subroutine` that it makes the element popped is in the ground set of the other
strategy, whose `remove` returns. -/
theorem interlace_stay_apart (n : Nat) (L : Nat → Nat → ℝ) (k : Nat)
    (ord : List Nat → List Nat) (hord : SetOrder ord) (V0 : Nat → Nat → Option ℝ)
    (param : Param ℝ) (clock : Nat → ℝ) :
    StayApart (NonLazy.ops ord (Oracle.ops Real.log L)) (Oracle.ops Real.log L)
      (fun s => s.T) n k param clock ∧
    StayApart (Lazy.ops ord (Oracle.ops Real.log L)) (Oracle.ops Real.log L)
      (fun s => s.T) n k param clock ∧
    StayApart (NonLazy.ops ord (Fast.ops Real.sqrt Real.log V0 L))
      (Fast.ops Real.sqrt Real.log V0 L) (fun s => s.T) n k param clock ∧
    StayApart (Lazy.ops ord (Fast.ops Real.sqrt Real.log V0 L))
      (Fast.ops Real.sqrt Real.log V0 L) (fun s => s.T) n k param clock := by
  -- The chains of `interlace_greedy` stay apart.
  have stayApart_of {τ σ α : Type} [LinearOrderedField α] (log : α → α)
      (n : Nat) (oops : OracleOps σ α) (Good : σ → Prop) (Holds : σ → Nat → α → Prop)
      (B : OracleBase oops log Good Holds) (sops : StrategyOps τ σ α) (getT : τ → List Nat)
      (getD : τ → Bool) (SI : τ → Prop) (Dead : τ → σ → Prop)
      (SL : StrategyLaw n oops Good sops getT getD SI Dead) (k : Nat) (param : Param α)
      (clock : Nat → α) :
      StayApart sops oops getT n k param clock := by
    refine ⟨interlaceUnfolds_of sops oops n k param clock, ?_⟩
    intro t
    obtain ⟨c, hc, p01, p23, h0, a01, a23⟩ :=
      interlace_chains_apart log n oops Good Holds B sops getT getD SI Dead SL k param t
    obtain ⟨es, c', hstep, _, _, _, _, x1, x2, x3⟩ :=
      interlace_step_apart log n oops Good Holds B sops getT getD SI Dead SL t c p01 p23 h0
        a01 a23
    refine ⟨c, es, c', hc, a01, ?_, a23, hstep, x1, x2, x3⟩
    obtain ⟨_, _, _, A, Bl, hA, hB, hAB⟩ := a01
    intro x hx
    rw [hA] at hx
    rw [hB]
    exact hAB x hx
  have BD := direct_base Real.log L
  have BF := fast_base Real.sqrt Real.log V0 L
  exact ⟨stayApart_of Real.log n _ _ _ BD _ _ _ _ _ (nonlazy_law n _ BD.law _ ord hord) k
      param clock,
    stayApart_of Real.log n _ _ _ BD _ _ _ _ _ (lazy_law n _ BD.law _ ord hord) k param clock,
    stayApart_of Real.log n _ _ _ BF _ _ _ _ _ (nonlazy_law n _ BF.law _ ord hord) k
      param clock,
    stayApart_of Real.log n _ _ _ BF _ _ _ _ _ (lazy_law n _ BF.law _ ord hord) k param clock⟩

/-- Witness of C36: `diag(0.3, 0.2, 0.9, 0.5, 0.25, 0.125, 0.1, 2.0)` with `k = 4`, with
the lazy strategy over the direct oracle. -/
theorem interlace_stay_apart_witness :
    StayApart (Lazy.ops (fun l => l.dedup) (Oracle.ops Real.log (testDiag ℝ)))
      (Oracle.ops Real.log (testDiag ℝ)) (fun s => s.T) 8 4
      { time_limit := ⊤, log_computed_offdiagonals_V := false } (fun _ => 0) :=
  (interlace_stay_apart 8 (testDiag ℝ) 4 (fun l => l.dedup) setOrder_id
    (fun _ _ => none) { time_limit := ⊤, log_computed_offdiagonals_V := false }
    (fun _ => 0)).2.1

end DPP

namespace DPP

/-- Every iteration of the loop of `interlace_greedy` returns, and moves each chain. -/
theorem interlace_chains_moved {τ σ α : Type} [LinearOrderedField α] (log : α → α)
    (n : Nat) (oops : OracleOps σ α) (Good : σ → Prop) (Holds : σ → Nat → α → Prop)
    (B : OracleBase oops log Good Holds) (sops : StrategyOps τ σ α) (getT : τ → List Nat)
    (getD : τ → Bool) (SI : τ → Prop) (Dead : τ → σ → Prop)
    (SL : StrategyLaw n oops Good sops getT getD SI Dead) (k : Nat) (param : Param α)
    (t : Nat) :
    ∃ c es c', interlace_chains sops oops n k param t = .ok c ∧
      interlace_popped sops oops n k param t = .ok (es, c') ∧
      interlace_chains sops oops n k param (t + 1) = .ok c' ∧
      (t = 0 → ∀ f, oops.get_solution (c.get f).oracle = []) ∧
      ∀ f, Chain.Moved log n oops Holds Dead (c.get f) (es f) (c'.get f) := by
  obtain ⟨c, hc, p01, p23, h0, _, _⟩ :=
    interlace_chains_apart log n oops Good Holds B sops getT getD SI Dead SL k param t
  obtain ⟨es, c', hstep, _, _, m0, m1, m2, m3⟩ :=
    interlace_step_base log n oops Good Holds B sops getT getD SI Dead SL t c p01 p23
      (fun ht => (h0 ht).1)
  refine ⟨c, es, c', hc, ?_, ?_, ?_, ?_⟩
  · rw [interlace_popped, hc]
    exact hstep
  · rw [interlace_chains, hc]
    simp only [hstep]
  · intro ht f
    subst ht
    obtain ⟨_, _, _, _, _, c6, _, _⟩ := construct_base log n oops Good Holds B sops getT
      getD SI Dead SL k param.log_computed_offdiagonals_V true
    have hS0 : oops.get_solution (Chain.init sops oops n k param).oracle = [] := c6
    rw [interlace_chains] at hc
    simp only [Except.ok.injEq] at hc
    subst hc
    fin_cases f <;> exact hS0
  · intro f
    fin_cases f
    · exact m0
    · exact m1
    · exact m2
    · exact m3

end DPP

namespace DPP

/-- The operations of a traced oracle are those of the oracle, with the log. -/
theorem traces_traced {σ α β : Type} (oops : OracleOps σ α) (cost : σ → Nat → List β) :
    Traces oops cost (traced oops cost) :=
  ⟨fun _ _ => rfl, fun _ _ => rfl, fun _ _ => rfl, fun _ _ => rfl, fun _ => rfl, fun _ => rfl,
    fun _ => rfl, fun _ => rfl, fun _ => rfl, fun _ => rfl⟩

/-- A traced oracle is what the drivers rely on when the oracle is. -/
theorem traced_base {σ α β : Type} [LinearOrderedField α] (oops : OracleOps σ α)
    (cost : σ → Nat → List β) (log : α → α) (Good : σ → Prop) (Holds : σ → Nat → α → Prop)
    (B : OracleBase oops log Good Holds) :
    OracleBase (traced oops cost) log (fun p => Good p.1) (fun p e v => Holds p.1 e v) := by
  refine ⟨⟨?_, ?_, ?_, ?_, ?_, ?_⟩, ?_, ?_, ?_, ?_, ?_, ?_, ?_, ?_⟩
  · intro o e
    exact B.law.compute_S o.1 e
  · intro o e
    exact B.law.compute_value o.1 e
  · intro o e
    exact B.law.get_last_S o.1 e
  · intro o e
    exact B.law.get_last_value o.1 e
  · intro o e
    exact B.law.add_S o.1 e
  · intro o e x he
    exact B.law.stable o.1 e x he
  · intro k b
    exact B.construct_good k b
  · intro o e hg
    exact B.compute_good o.1 e hg
  · intro o e x v hg hh
    exact B.compute_keep o.1 e x v hg hh
  · intro o e hg
    exact B.get_last_good o.1 e hg
  · intro o e x v hg hh
    exact B.get_last_keep o.1 e x v hg hh
  · intro o e hg
    exact B.add_good o.1 e hg
  · intro o e v hg hh
    exact B.add_value o.1 e v hg hh
  · intro o hg
    exact B.clear_good o.1 hg

/-- Computations and look-ups for elements of `T`, below `n` and outside the selection,
keep what each of them keeps. -/
theorem steps_inv {σ α : Type} (oops : OracleOps σ α) (law : OracleLaw oops) (n : Nat)
    (J : σ → Prop)
    (hc : ∀ o x, J o → x < n → x ∉ oops.get_solution o →
      J (oops.compute_marginal_gain_exponential o x).2)
    (hg : ∀ o x, J o → x < n → x ∉ oops.get_solution o →
      J (oops.get_last_marginal_gain_exponential o x).2)
    (T : List Nat) (o p : σ) (hT : ∀ x ∈ T, x < n ∧ x ∉ oops.get_solution o)
    (h : Steps oops T o p) (hJ : J o) :
    J p ∧ oops.get_solution p = oops.get_solution o := by
  induction h with
  | refl => exact ⟨hJ, rfl⟩
  | compute p' x _ hx ih =>
    obtain ⟨i1, i2⟩ := ih
    refine ⟨hc p' x i1 (hT x hx).1 (by rw [i2]; exact (hT x hx).2), ?_⟩
    rw [law.compute_S, i2]
  | get_last p' x _ hx ih =>
    obtain ⟨i1, i2⟩ := ih
    refine ⟨hg p' x i1 (hT x hx).1 (by rw [i2]; exact (hT x hx).2), ?_⟩
    rw [law.get_last_S, i2]

/-- A call of `pop_largest` or `pop_kth_largest` keeps what the computations and look-ups
for elements of the ground set keep; when the call returns `e`, it leaves what the
computation for `e` gives. -/
theorem popOut_inv {τ σ α : Type} [LinearOrderedField α] (oops : OracleOps σ α)
    (law : OracleLaw oops) (n : Nat) (getT : τ → List Nat) (getD : τ → Bool) (SI : τ → Prop)
    (J J' : σ → Prop)
    (hc : ∀ o x, J o → x < n → x ∉ oops.get_solution o →
      J (oops.compute_marginal_gain_exponential o x).2)
    (hg : ∀ o x, J o → x < n → x ∉ oops.get_solution o →
      J (oops.get_last_marginal_gain_exponential o x).2)
    (hc' : ∀ o x, J' o → x < n → x ∉ oops.get_solution o →
      J' (oops.compute_marginal_gain_exponential o x).2)
    (hg' : ∀ o x, J' o → x < n → x ∉ oops.get_solution o →
      J' (oops.get_last_marginal_gain_exponential o x).2)
    (s : τ) (o : σ) (r : Option Nat) (s1 : τ) (o1 : σ)
    (hT : ∀ x ∈ getT s, x < n ∧ x ∉ oops.get_solution o)
    (h : PopOut oops getT getD SI s o r s1 o1) (hJ : J o) :
    J o1 ∧ ∀ e, r = some e →
      (∀ p, J p → oops.get_solution p = oops.get_solution o →
        J' (oops.compute_marginal_gain_exponential p e).2) → J' o1 := by
  obtain ⟨_, _, _, h4, h5⟩ := h
  cases r with
  | none =>
    obtain ⟨_, _, hs⟩ := h4 rfl
    exact ⟨(steps_inv oops law n J hc hg _ o o1 hT hs hJ).1, fun e he => by cases he⟩
  | some e =>
    obtain ⟨he, _, ⟨p, hs1, _, hs2⟩, _⟩ := h5 e rfl
    obtain ⟨j1, j2⟩ := steps_inv oops law n J hc hg _ o p hT hs1 hJ
    have hT' : ∀ x ∈ getT s,
        x < n ∧ x ∉ oops.get_solution (oops.compute_marginal_gain_exponential p e).2 := by
      intro x hx
      rw [law.compute_S, j2]
      exact hT x hx
    have j3 := hc p e j1 (hT e he).1 (by rw [j2]; exact (hT e he).2)
    refine ⟨(steps_inv oops law n J hc hg _ _ o1 hT' hs2 j3).1, ?_⟩
    intro e' he' hstep
    cases he'
    exact (steps_inv oops law n J' hc' hg' _ _ o1 hT' hs2 (hstep p j1 j2)).1

/-- A run whose commits have gains that are `Ok` keeps what its calls keep. -/
theorem run_inv {σ α : Type} (oops : OracleOps σ α) (Holds : σ → Nat → α → Prop)
    (J : σ → Prop) (Ok : α → Prop)
    (hc : ∀ o x, J o → x ∉ oops.get_solution o →
      J (oops.compute_marginal_gain_exponential o x).2)
    (hg : ∀ o x, J o → J (oops.get_last_marginal_gain_exponential o x).2)
    (hcl : ∀ o, J o → J (oops.clear_computed_offdiagonals_V o))
    (ha : ∀ o e v, J o → Holds o e v → Ok v → J (oops.add o e))
    (o0 : σ) (es : List Nat) (gs : List α) (p : σ) (h : Run oops Holds o0 es gs p)
    (h0 : J o0) (hgs : ∀ g ∈ gs, Ok g) : J p := by
  induction h with
  | refl => exact h0
  | compute es gs p x _ hx ih => exact hc p x (ih hgs) hx
  | get_last es gs p x _ ih => exact hg p x (ih hgs)
  | clear es gs p _ ih => exact hcl p (ih hgs)
  | add es gs p e v _ _ hh ih =>
    exact ha p e v (ih (fun g hg => hgs g (List.mem_append_left _ hg))) hh
      (hgs v (List.mem_append_right _ (List.mem_singleton.mpr rfl)))

end DPP

namespace DPP

theorem fast_step_cells {α : Type} [LinearOrderedField α] (sqrt : α → α) (L : Nat → Nat → α)
    (o : Fast.Instance α) (e : Nat) (x : α) :
    (Fast.step sqrt L o e x).2.S = o.S ∧ (Fast.step sqrt L o e x).2.value = o.value ∧
    (Fast.step sqrt L o e x).2.u e = o.u e + 1 ∧
    (∀ a, a ≠ e → (Fast.step sqrt L o e x).2.u a = o.u a) ∧
    (∀ a, a ≠ e → (Fast.step sqrt L o e x).2.d a = o.d a) ∧
    (Fast.step sqrt L o e x).2.d e = some (Fast.step sqrt L o e x).1 ∧
    0 ≤ (Fast.step sqrt L o e x).1 := by
  refine ⟨rfl, rfl, ?_, ?_, ?_, ?_, ?_⟩
  · simp [Fast.step]
  · intro a ha
    simp [Fast.step, Function.update_noteq ha]
  · intro a ha
    simp [Fast.step, Function.update_noteq ha]
  · simp [Fast.step]
  · simp only [Fast.step, Fast.residual]
    split
    · exact le_max_left _ _
    · exact le_refl _

theorem fast_loop_cells {α : Type} [LinearOrderedField α] (sqrt : α → α) (L : Nat → Nat → α) :
    ∀ (k : Nat) (o : Fast.Instance α) (e : Nat) (x : α),
      (Fast.loop sqrt L k o e x).2.S = o.S ∧ (Fast.loop sqrt L k o e x).2.value = o.value ∧
      (Fast.loop sqrt L k o e x).2.u e = o.u e + k ∧
      (∀ a, a ≠ e → (Fast.loop sqrt L k o e x).2.u a = o.u a) ∧
      (∀ a, a ≠ e → (Fast.loop sqrt L k o e x).2.d a = o.d a) ∧
      (Fast.Nonneg o → Fast.Nonneg (Fast.loop sqrt L k o e x).2) := by
  intro k
  induction k with
  | zero =>
    intro o e x
    exact ⟨rfl, rfl, rfl, fun _ _ => rfl, fun _ _ => rfl, fun h => h⟩
  | succ k ih =>
    intro o e x
    have hl : Fast.loop sqrt L (k + 1) o e x
        = Fast.loop sqrt L k (Fast.step sqrt L o e x).2 e (Fast.step sqrt L o e x).1 := rfl
    obtain ⟨s1, s2, s3, s4, s5, s6, s7⟩ := fast_step_cells sqrt L o e x
    obtain ⟨i1, i2, i3, i4, i5, i6⟩ :=
      ih (Fast.step sqrt L o e x).2 e (Fast.step sqrt L o e x).1
    rw [hl]
    refine ⟨by rw [i1, s1], by rw [i2, s2], by rw [i3, s3]; omega, ?_, ?_, ?_⟩
    · intro a ha
      rw [i4 a ha, s4 a ha]
    · intro a ha
      rw [i5 a ha, s5 a ha]
    · intro hn
      apply i6
      intro a y hy
      by_cases ha : a = e
      · subst ha
        rw [s6] at hy
        cases hy
        exact s7
      · rw [s5 a ha] at hy
        exact hn a y hy

theorem fast_pivots_loop_pos {α : Type} [LinearOrderedField α] (sqrt : α → α)
    (L : Nat → Nat → α) (c : α) (hc : 0 ≤ c) :
    ∀ (k : Nat) (o : Fast.Instance α) (e : Nat) (x : α), e ∉ o.S → Fast.Above c o →
      k ≤ o.S.length - o.u e → PositivePivots (Fast.pivots_loop sqrt L k o e x) := by
  intro k
  induction k with
  | zero =>
    intro o e x _ _ _ y hy
    cases hy
  | succ k ih =>
    intro o e x he hab hk
    obtain ⟨s1, _, s3, _, s5, _, _⟩ := fast_step_cells sqrt L o e x
    have hab1 : Fast.Above c (Fast.step sqrt L o e x).2 := by
      intro l hl
      rw [s1] at hl
      have hle : l ≠ e := fun h => he (h ▸ hl)
      rw [s5 l hle]
      exact hab l hl
    have hrec := ih (Fast.step sqrt L o e x).2 e (Fast.step sqrt L o e x).1
      (by rw [s1]; exact he) hab1 (by rw [s1, s3]; omega)
    intro y hy
    have hl : Fast.pivots_loop sqrt L (k + 1) o e x
        = o.d (o.S.getD (o.u e) 0) ::
          Fast.pivots_loop sqrt L k (Fast.step sqrt L o e x).2 e (Fast.step sqrt L o e x).1 :=
      rfl
    rw [hl] at hy
    rcases List.mem_cons.mp hy with h | h
    · have hlt : o.u e < o.S.length := by omega
      have hmem : o.S.getD (o.u e) 0 ∈ o.S := by
        rw [List.getD_eq_getElem _ _ hlt]
        exact List.getElem_mem hlt
      obtain ⟨z, hz, hz0⟩ := hab _ hmem
      exact ⟨z, by rw [h, hz], lt_of_le_of_lt hc hz0⟩
    · exact hrec y h

theorem fast_get_last_cells {α : Type} [LinearOrderedField α] (L : Nat → Nat → α)
    (o : Fast.Instance α) (e : Nat) :
    (Fast.get_last_marginal_gain_exponential L o e).2.S = o.S ∧
    (Fast.get_last_marginal_gain_exponential L o e).2.u = o.u ∧
    (Fast.get_last_marginal_gain_exponential L o e).2.value = o.value ∧
    (∀ a y, o.d a = some y → (Fast.get_last_marginal_gain_exponential L o e).2.d a = some y) ∧
    (∀ a, a ≠ e → (Fast.get_last_marginal_gain_exponential L o e).2.d a = o.d a) ∧
    (∀ y, (Fast.get_last_marginal_gain_exponential L o e).2.d e = some y →
      o.d e = some y ∨ y = L e e) := by
  unfold Fast.get_last_marginal_gain_exponential
  cases hd : o.d e with
  | some x =>
    refine ⟨rfl, rfl, rfl, fun a y h => h, fun _ _ => rfl, ?_⟩
    intro y hy
    exact Or.inl (by rw [← hd]; exact hy)
  | none =>
    refine ⟨rfl, rfl, rfl, ?_, ?_, ?_⟩
    · intro a y ha
      have hae : a ≠ e := by
        intro h
        rw [h, hd] at ha
        cases ha
      simp [Function.update_noteq hae, ha]
    · intro a ha
      simp [Function.update_noteq ha]
    · intro y hy
      simp at hy
      exact Or.inr hy.symm

/-- A computation for an element outside the selection reads positive cells only. -/
theorem guard_compute {α : Type} [LinearOrderedField α] (sqrt log : α → α)
    (V0 : Nat → Nat → Option α) (L : Nat → Nat → α) (c : α) (hc : 0 ≤ c)
    (p : Fast.Instance α × List (Option α)) (x : Nat) (hJ : Fast.Guard c p)
    (hx : x ∉ (Fast.traced sqrt log V0 L).get_solution p) :
    Fast.Guard c ((Fast.traced sqrt log V0 L).compute_marginal_gain_exponential p x).2 := by
  obtain ⟨h1, h2⟩ := hJ
  have hx' : x ∉ p.1.S := hx
  obtain ⟨g1, g2, _, g4, _, _⟩ := fast_get_last_cells L p.1 x
  have hab : Fast.Above c (Fast.get_last_marginal_gain_exponential L p.1 x).2 := by
    intro l hl
    rw [g1] at hl
    obtain ⟨y, hy, hy0⟩ := h2 l hl
    exact ⟨y, g4 l y hy, hy0⟩
  obtain ⟨l1, _, _, _, l5, _⟩ := fast_loop_cells sqrt L
    ((Fast.get_last_marginal_gain_exponential L p.1 x).2.S.length
      - (Fast.get_last_marginal_gain_exponential L p.1 x).2.u x)
    (Fast.get_last_marginal_gain_exponential L p.1 x).2 x
    (Fast.get_last_marginal_gain_exponential L p.1 x).1
  refine ⟨?_, ?_⟩
  · show PositivePivots (p.2 ++ Fast.pivots sqrt L p.1 x)
    intro y hy
    rcases List.mem_append.mp hy with h | h
    · exact h1 y h
    · exact fast_pivots_loop_pos sqrt L c hc _ _ x _ (by rw [g1]; exact hx') hab
        (Nat.le_refl _) y h
  · show Fast.Above c (Fast.compute_marginal_gain_exponential sqrt L p.1 x).2
    intro l hl
    have hl' : l ∈ p.1.S := by
      have : (Fast.compute_marginal_gain_exponential sqrt L p.1 x).2.S = p.1.S := by
        show (Fast.loop sqrt L _ _ x _).2.S = _
        rw [l1, g1]
      rw [this] at hl
      exact hl
    have hle : l ≠ x := fun h => hx' (h ▸ hl')
    obtain ⟨y, hy, hy0⟩ := hab l (by rw [g1]; exact hl')
    refine ⟨y, ?_, hy0⟩
    show (Fast.loop sqrt L _ _ x _).2.d l = _
    rw [l5 l hle]
    exact hy

theorem guard_get_last {α : Type} [LinearOrderedField α] (sqrt log : α → α)
    (V0 : Nat → Nat → Option α) (L : Nat → Nat → α) (c : α)
    (p : Fast.Instance α × List (Option α)) (x : Nat) (hJ : Fast.Guard c p) :
    Fast.Guard c ((Fast.traced sqrt log V0 L).get_last_marginal_gain_exponential p x).2 := by
  obtain ⟨h1, h2⟩ := hJ
  obtain ⟨g1, _, _, g4, _, _⟩ := fast_get_last_cells L p.1 x
  refine ⟨h1, ?_⟩
  show Fast.Above c (Fast.get_last_marginal_gain_exponential L p.1 x).2
  intro l hl
  rw [g1] at hl
  obtain ⟨y, hy, hy0⟩ := h2 l hl
  exact ⟨y, g4 l y hy, hy0⟩

theorem guard_clear {α : Type} [LinearOrderedField α] (sqrt log : α → α)
    (V0 : Nat → Nat → Option α) (L : Nat → Nat → α) (c : α)
    (p : Fast.Instance α × List (Option α)) (hJ : Fast.Guard c p) :
    Fast.Guard c ((Fast.traced sqrt log V0 L).clear_computed_offdiagonals_V p) := hJ

theorem guard_add {α : Type} [LinearOrderedField α] (sqrt log : α → α)
    (V0 : Nat → Nat → Option α) (L : Nat → Nat → α) (c : α)
    (p : Fast.Instance α × List (Option α)) (e : Nat) (v : α) (hJ : Fast.Guard c p)
    (hh : Fast.Holds p.1 e v) (hv : c < v) :
    Fast.Guard c ((Fast.traced sqrt log V0 L).add p e) := by
  obtain ⟨h1, h2⟩ := hJ
  refine ⟨h1, ?_⟩
  show Fast.Above c (Fast.add log p.1 e)
  intro l hl
  have hl' : l ∈ p.1.S ++ [e] := hl
  rcases List.mem_append.mp hl' with h | h
  · exact h2 l h
  · rw [List.mem_singleton.mp h]
    exact ⟨v, hh.1, hv⟩

end DPP

namespace DPP

/-- The traced fast oracle is what the drivers rely on. -/
theorem fast_traced_base {α : Type} [LinearOrderedField α] (sqrt log : α → α)
    (V0 : Nat → Nat → Option α) (L : Nat → Nat → α) :
    OracleBase (Fast.traced sqrt log V0 L) log (fun _ => True)
      (fun p e v => Fast.Holds p.1 e v) :=
  traced_base (Fast.ops sqrt log V0 L) (Fast.pivots sqrt L) log _ _ (fast_base sqrt log V0 L)

/-- A run of the traced fast oracle whose commits have gains above `1` reads positive
cells only. -/
theorem guard_run {α : Type} [LinearOrderedField α] (sqrt log : α → α)
    (V0 : Nat → Nat → Option α) (L : Nat → Nat → α) (k : Nat) (b : Bool)
    (es : List Nat) (gs : List α) (p : Fast.Instance α × List (Option α))
    (h : Run (Fast.traced sqrt log V0 L) (fun q e v => Fast.Holds q.1 e v)
      ((Fast.traced sqrt log V0 L).construct k b) es gs p)
    (hgs : ∀ g ∈ gs, 1 < g) : Fast.Guard 1 p := by
  refine run_inv (Fast.traced sqrt log V0 L) _ (Fast.Guard 1) (fun v => 1 < v) ?_ ?_ ?_ ?_
    _ es gs p h ?_ hgs
  · intro o x hJ hx
    exact guard_compute sqrt log V0 L 1 zero_le_one o x hJ hx
  · intro o x hJ
    exact guard_get_last sqrt log V0 L 1 o x hJ
  · intro o hJ
    exact guard_clear sqrt log V0 L 1 o hJ
  · intro o e v hJ hh hv
    exact guard_add sqrt log V0 L 1 o e v hJ hh hv
  · exact ⟨fun x hx => (by cases hx), fun l hl => (by cases hl)⟩

/-- The oracle of each chain of `interlace_greedy` after any number of iterations has run
from the state its constructor leaves, with commits whose gains are above `1`. -/
theorem interlace_chains_run {τ σ α : Type} [LinearOrderedField α] (log : α → α)
    (n : Nat) (oops : OracleOps σ α) (Good : σ → Prop) (Holds : σ → Nat → α → Prop)
    (B : OracleBase oops log Good Holds) (sops : StrategyOps τ σ α) (getT : τ → List Nat)
    (getD : τ → Bool) (SI : τ → Prop) (Dead : τ → σ → Prop)
    (SL : StrategyLaw n oops Good sops getT getD SI Dead) (k : Nat) (param : Param α)
    (f : Fin 4) :
    ∀ t, ∃ c gs, interlace_chains sops oops n k param t = .ok c ∧
      Run oops Holds (oops.construct k param.log_computed_offdiagonals_V)
        (oops.get_solution (c.get f).oracle) gs (c.get f).oracle ∧
      ∀ g ∈ gs, 1 < g := by
  intro t
  induction t with
  | zero =>
    obtain ⟨_, _, _, _, _, c6, _, c8⟩ := construct_base log n oops Good Holds B sops getT
      getD SI Dead SL k param.log_computed_offdiagonals_V true
    have hS0 : oops.get_solution (Chain.init sops oops n k param).oracle = [] := c6
    have hR0 : Run oops Holds (oops.construct k param.log_computed_offdiagonals_V) [] []
        (Chain.init sops oops n k param).oracle := c8
    refine ⟨_, [], rfl, ?_, fun g hg => by cases hg⟩
    fin_cases f
    · show Run oops Holds _ (oops.get_solution (Chain.init sops oops n k param).oracle) []
        (Chain.init sops oops n k param).oracle
      rw [hS0]
      exact hR0
    · show Run oops Holds _ (oops.get_solution (Chain.init sops oops n k param).oracle) []
        (Chain.init sops oops n k param).oracle
      rw [hS0]
      exact hR0
    · show Run oops Holds _ (oops.get_solution (Chain.init sops oops n k param).oracle) []
        (Chain.init sops oops n k param).oracle
      rw [hS0]
      exact hR0
    · show Run oops Holds _ (oops.get_solution (Chain.init sops oops n k param).oracle) []
        (Chain.init sops oops n k param).oracle
      rw [hS0]
      exact hR0
  | succ t ih =>
    obtain ⟨c, gs, hc, hrun, hgs⟩ := ih
    obtain ⟨c0, es, c', h1, _, h3, _, h5⟩ :=
      interlace_chains_moved log n oops Good Holds B sops getT getD SI Dead SL k param t
    rw [hc] at h1
    simp only [Except.ok.injEq] at h1
    subst h1
    obtain ⟨_, m2, m3⟩ := h5 f
    cases hr : es f with
    | none =>
      obtain ⟨_, d2, _, d4⟩ := m2 hr
      refine ⟨c', gs, h3, ?_, hgs⟩
      rw [d2]
      exact d4 _ _ gs hrun
    | some e =>
      obtain ⟨_, _, d3, g, d4, _, d6⟩ := m3 e hr
      refine ⟨c', gs ++ [g], h3, ?_, ?_⟩
      · rw [d3]
        exact d6 _ _ gs hrun
      · intro g' hg'
        rcases List.mem_append.mp hg' with h | h
        · exact hgs g' h
        · rw [List.mem_singleton.mp h]
          exact d4

end DPP

namespace DPP

/-- The loop of `random_greedy` passes through the states `random_greedy_states`. -/
theorem randomUnfolds_of {τ σ α : Type} [LinearOrderedField α] (sops : StrategyOps τ σ α)
    (oops : OracleOps σ α) (n k : Nat) (param : Param α) (clock : Nat → α)
    (rng : Nat → Nat) :
    RandomUnfolds sops oops n k param clock rng := by
  refine ⟨?_, ?_⟩
  · intro hk
    refine ⟨_, rfl, ?_⟩
    unfold random_greedy
    have hkn : (!decide (k ≤ n)) = false := by simp [hk]
    rw [hkn]
    rfl
  · intro m t s o x hx
    rw [random_greedy_loop]
    simp only [random_greedy_step] at hx
    cases hp : sops.pop_kth_largest s o (uniform_int 0 (max 0 (k - 1)) (rng t)) with
    | error f =>
      rw [hp] at hx
      cases hx
    | ok z =>
      obtain ⟨r, s1, o1⟩ := z
      rw [hp] at hx
      simp only [Except.ok.injEq] at hx
      subst hx
      rfl

/-- The state of random greedy after any number of iterations. -/
theorem random_states_base {τ σ α : Type} [LinearOrderedField α] (log : α → α)
    (n : Nat) (oops : OracleOps σ α) (Good : σ → Prop) (Holds : σ → Nat → α → Prop)
    (B : OracleBase oops log Good Holds) (sops : StrategyOps τ σ α) (getT : τ → List Nat)
    (getD : τ → Bool) (SI : τ → Prop) (Dead : τ → σ → Prop)
    (SL : StrategyLaw n oops Good sops getT getD SI Dead)
    (k : Nat) (param : Param α) (rng : Nat → Nat) :
    ∀ t, ∃ s o gs, random_greedy_states sops oops n k param rng t = .ok (s, o) ∧ Good o ∧
      SI s ∧ getD s = true ∧ (getT s).Nodup ∧
      (∀ x ∈ getT s, x < n ∧ x ∉ oops.get_solution o) ∧
      Run oops Holds (oops.construct k param.log_computed_offdiagonals_V)
        (oops.get_solution o) gs o ∧
      ∀ g ∈ gs, 1 < g := by
  intro t
  induction t with
  | zero =>
    obtain ⟨c1, c2, c3, c4, c5, c6, _, c8⟩ := construct_base log n oops Good Holds B sops getT
      getD SI Dead SL k param.log_computed_offdiagonals_V true
    refine ⟨_, _, [], rfl, c1, c2, c3, c4, ?_, by rw [c6]; exact c8, fun g hg => by cases hg⟩
    intro x hx
    rw [c6]
    exact ⟨(c5 x).mp hx, List.not_mem_nil x⟩
  | succ t ih =>
    obtain ⟨s, o, gs, hst, hg, hSI, hD, hnd, hT, hrun, hgs⟩ := ih
    have hTS : ∀ e ∈ getT s, e ∉ oops.get_solution o := fun e he => (hT e he).2
    obtain ⟨r, s1, o1, hok, hpo⟩ := SL.pop_kth_spec s o
      (uniform_int 0 (max 0 (k - 1)) (rng t)) hg hSI hnd hT (Or.inl hD)
    obtain ⟨g1, g2, _, g4, g5⟩ :=
      popOut_base oops log Good Holds B getT getD SI s o r s1 o1 hg hTS hpo
    obtain ⟨q1, q2, q3, q4, q5⟩ := hpo
    cases r with
    | none =>
      obtain ⟨_, hmem, _⟩ := q4 rfl
      have hstep : random_greedy_states sops oops n k param rng (t + 1) = .ok (s1, o1) := by
        rw [random_greedy_states, hst]
        simp only [random_greedy_step, hok]
      refine ⟨s1, o1, gs, hstep, g1, q2, by rw [q1]; exact hD, q3, ?_,
        by rw [g2]; exact g4 _ _ gs hrun, hgs⟩
      intro x hx
      rw [g2]
      exact hT x ((hmem x).mp hx)
    | some e =>
      obtain ⟨heT, hmem, _, hgain⟩ := q5 e rfl
      have heS1 : e ∉ oops.get_solution o1 := by rw [g2]; exact hTS e heT
      have hS2 : oops.get_solution (oops.add o1 e) = oops.get_solution o ++ [e] := by
        rw [B.law.add_S, g2]
      have hstep : random_greedy_states sops oops n k param rng (t + 1)
          = .ok (s1, oops.add o1 e) := by
        rw [random_greedy_states, hst]
        simp only [random_greedy_step, hok]
      refine ⟨s1, oops.add o1 e, gs ++ [gainAt oops o e], hstep, B.add_good o1 e g1, q2,
        by rw [q1]; exact hD, q3, ?_, ?_, ?_⟩
      · intro x hx
        obtain ⟨hx1, hx2⟩ := (hmem x).mp hx
        refine ⟨(hT x hx1).1, ?_⟩
        rw [hS2]
        intro hm
        rcases List.mem_append.mp hm with h | h
        · exact (hT x hx1).2 h
        · exact hx2 (List.mem_singleton.mp h)
      · rw [hS2]
        exact Run.add _ _ o1 e _ (g4 _ _ gs hrun) heS1 (g5 e rfl)
      · intro g' hg'
        rcases List.mem_append.mp hg' with h | h
        · exact hgs g' h
        · rw [List.mem_singleton.mp h]
          exact hgain hD

end DPP

namespace DPP

theorem live_get_last {α : Type} [LinearOrderedField α] (sqrt log : α → α)
    (V0 : Nat → Nat → Option α) (L : Nat → Nat → α) (n : Nat)
    (hdiag : ∀ i, i < n → 0 ≤ L i i) (p : Fast.Instance α × List (Option α)) (x : Nat)
    (hJ : Fast.Live p) (hx : x < n) :
    Fast.Live ((Fast.traced sqrt log V0 L).get_last_marginal_gain_exponential p x).2 := by
  obtain ⟨h1, h2, h3⟩ := hJ
  obtain ⟨_, _, g3, _, g5, g6⟩ := fast_get_last_cells L p.1 x
  refine ⟨guard_get_last sqrt log V0 L 0 p x h1, ?_, ?_⟩
  · show Fast.Nonneg (Fast.get_last_marginal_gain_exponential L p.1 x).2
    intro a y hy
    by_cases ha : a = x
    · subst ha
      rcases g6 y hy with h | h
      · exact h2 a y h
      · rw [h]
        exact hdiag a hx
    · rw [g5 a ha] at hy
      exact h2 a y hy
  · show Fast.Finite (Fast.get_last_marginal_gain_exponential L p.1 x).2
    obtain ⟨a, ha⟩ := h3
    exact ⟨a, by rw [g3]; exact ha⟩

theorem live_compute {α : Type} [LinearOrderedField α] (sqrt log : α → α)
    (V0 : Nat → Nat → Option α) (L : Nat → Nat → α) (n : Nat)
    (hdiag : ∀ i, i < n → 0 ≤ L i i) (p : Fast.Instance α × List (Option α)) (x : Nat)
    (hJ : Fast.Live p) (hx : x < n)
    (hxS : x ∉ (Fast.traced sqrt log V0 L).get_solution p) :
    Fast.Live ((Fast.traced sqrt log V0 L).compute_marginal_gain_exponential p x).2 := by
  obtain ⟨_, k2, k3⟩ := live_get_last sqrt log V0 L n hdiag p x hJ hx
  obtain ⟨h1, _, _⟩ := hJ
  obtain ⟨_, l2, _, _, _, l6⟩ := fast_loop_cells sqrt L
    ((Fast.get_last_marginal_gain_exponential L p.1 x).2.S.length
      - (Fast.get_last_marginal_gain_exponential L p.1 x).2.u x)
    (Fast.get_last_marginal_gain_exponential L p.1 x).2 x
    (Fast.get_last_marginal_gain_exponential L p.1 x).1
  refine ⟨guard_compute sqrt log V0 L 0 (le_refl _) p x h1 hxS, ?_, ?_⟩
  · show Fast.Nonneg (Fast.loop sqrt L _ _ x _).2
    exact l6 k2
  · show Fast.Finite (Fast.loop sqrt L _ _ x _).2
    obtain ⟨a, ha⟩ := k3
    exact ⟨a, by rw [l2]; exact ha⟩

theorem live_add {α : Type} [LinearOrderedField α] (sqrt log : α → α)
    (V0 : Nat → Nat → Option α) (L : Nat → Nat → α)
    (p : Fast.Instance α × List (Option α)) (e : Nat) (v : α) (hJ : Fast.Live p)
    (hh : Fast.Holds p.1 e v)
    (hv : isNegInf ((Fast.traced sqrt log V0 L).get_value
      ((Fast.traced sqrt log V0 L).add p e)) = false) :
    Fast.Live ((Fast.traced sqrt log V0 L).add p e) := by
  obtain ⟨h1, h2, a, ha⟩ := hJ
  have hv0 : 0 ≤ v := h2 e v hh.1
  have hval : ((Fast.traced sqrt log V0 L).get_value ((Fast.traced sqrt log V0 L).add p e))
      = vadd p.1.value (dlog log (p.1.d e)) := rfl
  rw [hval, ha, hh.1] at hv
  have hpos : 0 < v := by
    rcases lt_or_eq_of_le hv0 with h | h
    · exact h
    · exfalso
      rw [← h] at hv
      simp [dlog, vadd, isNegInf] at hv
  refine ⟨guard_add sqrt log V0 L 0 p e v h1 hh hpos, ?_, ?_⟩
  · exact h2
  · refine ⟨a + log v, ?_⟩
    show vadd p.1.value (dlog log (p.1.d e)) = _
    rw [ha, hh.1]
    simp [dlog, vadd, not_lt.mpr hv0, ne_of_gt hpos]

end DPP

namespace DPP

/-- Plain greedy over the traced fast oracle divides by positive pivots only. -/
theorem guardedGreedy_of {τ α : Type} [LinearOrderedField α] (sqrt log : α → α)
    (V0 : Nat → Nat → Option α) (L : Nat → Nat → α) (n : Nat)
    (hdiag : ∀ i, i < n → 0 ≤ L i i)
    (sops : StrategyOps τ (Fast.Instance α × List (Option α)) α)
    (getT : τ → List Nat) (getD : τ → Bool) (SI : τ → Prop)
    (Dead : τ → Fast.Instance α × List (Option α) → Prop)
    (SL : StrategyLaw n (Fast.traced sqrt log V0 L) (fun _ => True) sops getT getD SI Dead)
    (k : Nat) (hk : k ≤ n) (param : Param α) (clock : Nat → α) :
    GuardedGreedy sops (Fast.traced sqrt log V0 L) n k param clock := by
  -- The loop of `greedy` over the traced fast oracle, from a state from which plain greedy
  -- goes on: it returns, and after each of its iterations the log holds positive cells
  -- only.
  have greedy_loop_guarded {τ α : Type} [LinearOrderedField α] (sqrt log : α → α)
      (V0 : Nat → Nat → Option α) (L : Nat → Nat → α) (n : Nat)
      (hdiag : ∀ i, i < n → 0 ≤ L i i)
      (sops : StrategyOps τ (Fast.Instance α × List (Option α)) α)
      (getT : τ → List Nat) (getD : τ → Bool) (SI : τ → Prop)
      (Dead : τ → Fast.Instance α × List (Option α) → Prop)
      (SL : StrategyLaw n (Fast.traced sqrt log V0 L) (fun _ => True) sops getT getD SI Dead)
      (k : Nat) (param : Param α) (clock : Nat → α) :
      ∀ (m t : Nat) (s : τ) (o : Fast.Instance α × List (Option α)) (res : GreedyResult α),
        greedy_states sops (Fast.traced sqrt log V0 L) n k param t = .ok (s, o) →
        t + m ≤ n → Fast.Live o → res.measurements.length = t + 1 →
        ∃ out, greedy_loop sops (Fast.traced sqrt log V0 L) param clock m t s o res = .ok out ∧
          t < out.size ∧
          ∀ j, t ≤ j → j < out.size →
            ∃ s' o', greedy_states sops (Fast.traced sqrt log V0 L) n k param j = .ok (s', o') ∧
              PositivePivots o'.2 ∧ (j + 1 < out.size → Fast.Above 0 o'.1) := by
    have B := fast_traced_base sqrt log V0 L
    intro m
    induction m with
    | zero =>
      intro t s o res hst _ hlive hm
      refine ⟨{ res with finished := true }, rfl, ?_, ?_⟩
      · show t < res.measurements.length
        omega
      · intro j hj1 hj2
        have hj2' : j < res.measurements.length := hj2
        have hj : j = t := by omega
        subst hj
        refine ⟨s, o, hst, hlive.1.1, ?_⟩
        intro h
        have h' : j + 1 < res.measurements.length := h
        omega
    | succ m ih =>
      intro t s o res hst htm hlive hm
      obtain ⟨s', o', hst', hg, hSI, hD, hnd, hT, hlen, _, _, _⟩ :=
        greedy_states_base log n _ _ _ B sops getT getD SI Dead SL k param t (by omega)
      rw [hst] at hst'
      simp only [Except.ok.injEq, Prod.mk.injEq] at hst'
      obtain ⟨rfl, rfl⟩ := hst'
      obtain ⟨x0, hx0, hx0S⟩ := exists_fresh_element n
        ((Fast.traced sqrt log V0 L).get_solution o) (by omega)
      have hne : getT s ≠ [] := List.ne_nil_of_mem ((hT x0).mpr ⟨hx0, hx0S⟩)
      have hT' : ∀ e ∈ getT s, e < n ∧ e ∉ (Fast.traced sqrt log V0 L).get_solution o :=
        fun e he => (hT e).mp he
      obtain ⟨r, s1, o1, hok, hpo, _, _⟩ := SL.pop_spec s o hg hSI hnd hT' (Or.inr hne)
      obtain ⟨_, _, _, _, g5⟩ :=
        popOut_base _ log _ _ B getT getD SI s o r s1 o1 hg (fun e he => (hT' e he).2) hpo
      have hlive1 : Fast.Live o1 :=
        (popOut_inv (Fast.traced sqrt log V0 L) B.law n getT getD SI Fast.Live Fast.Live
          (fun p x hJ hx hxS => live_compute sqrt log V0 L n hdiag p x hJ hx hxS)
          (fun p x hJ hx _ => live_get_last sqrt log V0 L n hdiag p x hJ hx)
          (fun p x hJ hx hxS => live_compute sqrt log V0 L n hdiag p x hJ hx hxS)
          (fun p x hJ hx _ => live_get_last sqrt log V0 L n hdiag p x hJ hx)
          s o r s1 o1 hT' hpo hlive).1
      obtain ⟨_, _, _, q4, _⟩ := hpo
      cases r with
      | none =>
        obtain ⟨hD', _⟩ := q4 rfl
        rw [hD] at hD'
        cases hD'
      | some e =>
        obtain ⟨hstepeq, hloopeq⟩ :=
          (greedyUnfolds_of sops (Fast.traced sqrt log V0 L) n k param clock).2 m t s o res e s1
            o1 hok
        have hst1 : greedy_states sops (Fast.traced sqrt log V0 L) n k param (t + 1)
            = .ok (s1, if param.log_computed_offdiagonals_V then
                (Fast.traced sqrt log V0 L).clear_computed_offdiagonals_V
                  ((Fast.traced sqrt log V0 L).add o1 e)
              else (Fast.traced sqrt log V0 L).add o1 e) := by
          rw [greedy_states, hst]
          exact hstepeq
        have htr : (if param.log_computed_offdiagonals_V then
                (Fast.traced sqrt log V0 L).clear_computed_offdiagonals_V
                  ((Fast.traced sqrt log V0 L).add o1 e)
              else (Fast.traced sqrt log V0 L).add o1 e).2 = o1.2 := by
          split <;> rfl
        have hpos1 : PositivePivots (if param.log_computed_offdiagonals_V then
                (Fast.traced sqrt log V0 L).clear_computed_offdiagonals_V
                  ((Fast.traced sqrt log V0 L).add o1 e)
              else (Fast.traced sqrt log V0 L).add o1 e).2 := by
          rw [htr]
          exact hlive1.1.1
        have hm1 : ∀ (v : Value α) (time : α) (a b d : Nat) (l : List (Nat × Nat)),
            (res.add (some e) v time a b d l).measurements.length = t + 1 + 1 := by
          intro v time a b d l
          simp [GreedyResult.add, hm]
        rw [hloopeq]
        by_cases hstop : (expired param (clock t) ||
            isNegInf ((Fast.traced sqrt log V0 L).get_value
              ((Fast.traced sqrt log V0 L).add o1 e))) = true
        · rw [if_pos hstop]
          refine ⟨_, rfl, ?_, ?_⟩
          · show t < (res.add _ _ _ _ _ _ _).measurements.length
            rw [hm1]
            omega
          · intro j hj1 hj2
            have hj2' : j < (res.add (some e) ((Fast.traced sqrt log V0 L).get_value
                ((Fast.traced sqrt log V0 L).add o1 e)) (clock t) 0
                ((Fast.traced sqrt log V0 L).get_num_oracle_calls
                  ((Fast.traced sqrt log V0 L).add o1 e))
                ((Fast.traced sqrt log V0 L).get_num_computed_offdiagonals_V
                  ((Fast.traced sqrt log V0 L).add o1 e))
                ((Fast.traced sqrt log V0 L).get_computed_offdiagonals_V
                  ((Fast.traced sqrt log V0 L).add o1 e))).measurements.length := hj2
            rw [hm1] at hj2'
            rcases Nat.eq_or_lt_of_le hj1 with heq | hlt
            · subst heq
              exact ⟨s, o, hst, hlive.1.1, fun _ => hlive.1.2⟩
            · have hj : j = t + 1 := by omega
              subst hj
              refine ⟨_, _, hst1, hpos1, ?_⟩
              intro h
              have h' : t + 1 + 1 < (res.add (some e) ((Fast.traced sqrt log V0 L).get_value
                ((Fast.traced sqrt log V0 L).add o1 e)) (clock t) 0
                ((Fast.traced sqrt log V0 L).get_num_oracle_calls
                  ((Fast.traced sqrt log V0 L).add o1 e))
                ((Fast.traced sqrt log V0 L).get_num_computed_offdiagonals_V
                  ((Fast.traced sqrt log V0 L).add o1 e))
                ((Fast.traced sqrt log V0 L).get_computed_offdiagonals_V
                  ((Fast.traced sqrt log V0 L).add o1 e))).measurements.length := h
              rw [hm1] at h'
              omega
        · rw [if_neg hstop]
          have hneg : isNegInf ((Fast.traced sqrt log V0 L).get_value
              ((Fast.traced sqrt log V0 L).add o1 e)) = false := by
            cases hx : isNegInf ((Fast.traced sqrt log V0 L).get_value
              ((Fast.traced sqrt log V0 L).add o1 e)) with
            | false => rfl
            | true =>
              exfalso
              apply hstop
              rw [hx, Bool.or_true]
          have hlive2 : Fast.Live ((Fast.traced sqrt log V0 L).add o1 e) :=
            live_add sqrt log V0 L o1 e _ hlive1 (g5 e rfl) hneg
          have hlive3 : Fast.Live (if param.log_computed_offdiagonals_V then
                (Fast.traced sqrt log V0 L).clear_computed_offdiagonals_V
                  ((Fast.traced sqrt log V0 L).add o1 e)
              else (Fast.traced sqrt log V0 L).add o1 e) := by
            split
            · exact hlive2
            · exact hlive2
          obtain ⟨out, i1, i2, i3⟩ := ih (t + 1) s1 _ _ hst1 (by omega) hlive3 (hm1 _ _ _ _ _ _)
          refine ⟨out, i1, by omega, ?_⟩
          intro j hj1 hj2
          rcases Nat.eq_or_lt_of_le hj1 with heq | hlt
          · subst heq
            exact ⟨s, o, hst, hlive.1.1, fun _ => hlive.1.2⟩
          · exact i3 j hlt hj2
  have B := fast_traced_base sqrt log V0 L
  have hU := greedyUnfolds_of sops (Fast.traced sqrt log V0 L) n k param clock
  refine ⟨hU, ?_⟩
  obtain ⟨x, hx, hrun⟩ := hU.1 hk
  have hr : ∀ e ∈ List.range n, e < n ∧
      e ∉ (Fast.traced sqrt log V0 L).get_solution
        ((Fast.traced sqrt log V0 L).construct k param.log_computed_offdiagonals_V) := by
    intro e he
    exact ⟨List.mem_range.mp he, List.not_mem_nil e⟩
  obtain ⟨_, _, _, _, d5⟩ := SL.construct_spec (List.range n) false
    ((Fast.traced sqrt log V0 L).construct k param.log_computed_offdiagonals_V) trivial
    (List.nodup_range n) hr
  have hlive0 : Fast.Live
      ((Fast.traced sqrt log V0 L).construct k param.log_computed_offdiagonals_V) := by
    refine ⟨⟨fun y hy => (by cases hy), fun l hl => (by cases hl)⟩, ?_, ⟨0, rfl⟩⟩
    intro e y hy
    cases hy
  have hlive := (steps_inv (Fast.traced sqrt log V0 L) B.law n Fast.Live
    (fun p x hJ hx hxS => live_compute sqrt log V0 L n hdiag p x hJ hx hxS)
    (fun p x hJ hx _ => live_get_last sqrt log V0 L n hdiag p x hJ hx)
    _ _ _ hr d5 hlive0).1
  have hx' : greedy_states sops (Fast.traced sqrt log V0 L) n k param 0
      = .ok (x.1, x.2) := hx
  have hx0 : x = sops.construct (List.range n) false
      ((Fast.traced sqrt log V0 L).construct k param.log_computed_offdiagonals_V) := by
    have h0 : greedy_states sops (Fast.traced sqrt log V0 L) n k param 0
      = .ok (sops.construct (List.range n) false
        ((Fast.traced sqrt log V0 L).construct k param.log_computed_offdiagonals_V)) := rfl
    rw [hx] at h0
    simp only [Except.ok.injEq] at h0
    exact h0
  obtain ⟨out, h1, _, h3⟩ :=
    greedy_loop_guarded sqrt log V0 L n hdiag sops getT getD SI Dead SL k param clock k 0
      x.1 x.2 (GreedyResult.init α) hx' (by omega) (by rw [hx0]; exact hlive) rfl
  refine ⟨out, by rw [hrun]; exact h1, ?_⟩
  intro t ht
  exact h3 t (Nat.zero_le t) ht

end DPP

namespace DPP

/-- C37: pivots are positive where the driver guards them.  The fast oracle is run with a
log of the cells `d[l]` that the loop of `compute_marginal_gain_exponential` reads in
`std::sqrt(d[l])`; its operations are otherwise those of the fast oracle.  For every
kernel `L` on `n` elements with a non-negative diagonal, every `k ≤ n` and the lazy or the
non-lazy strategy: plain greedy returns, and after each iteration that the run makes every
cell in the log holds a positive number, the cells of the elements selected being positive
whenever a further iteration follows, because the loop returns as soon as the objective
value is minus infinity; random greedy and interlace greedy return, and after every
number of iterations every cell in the log of the oracle, of each chain for interlace
greedy, holds a positive number and the cells of the elements selected are above `1`. -/
theorem guarded_pivots (n : Nat) (L : Nat → Nat → ℝ) (hdiag : ∀ i, i < n → 0 ≤ L i i)
    (k : Nat) (hk : k ≤ n) (ord : List Nat → List Nat) (hord : SetOrder ord)
    (V0 : Nat → Nat → Option ℝ) (param : Param ℝ) (clock : Nat → ℝ) (rng : Nat → Nat) :
    Traces (Fast.ops Real.sqrt Real.log V0 L) (Fast.pivots Real.sqrt L)
      (Fast.traced Real.sqrt Real.log V0 L) ∧
    GuardedGreedy (NonLazy.ops ord (Fast.traced Real.sqrt Real.log V0 L))
      (Fast.traced Real.sqrt Real.log V0 L) n k param clock ∧
    GuardedGreedy (Lazy.ops ord (Fast.traced Real.sqrt Real.log V0 L))
      (Fast.traced Real.sqrt Real.log V0 L) n k param clock ∧
    GuardedRandom (NonLazy.ops ord (Fast.traced Real.sqrt Real.log V0 L))
      (Fast.traced Real.sqrt Real.log V0 L) n k param clock rng ∧
    GuardedRandom (Lazy.ops ord (Fast.traced Real.sqrt Real.log V0 L))
      (Fast.traced Real.sqrt Real.log V0 L) n k param clock rng ∧
    GuardedInterlace (NonLazy.ops ord (Fast.traced Real.sqrt Real.log V0 L))
      (Fast.traced Real.sqrt Real.log V0 L) n k param clock ∧
    GuardedInterlace (Lazy.ops ord (Fast.traced Real.sqrt Real.log V0 L))
      (Fast.traced Real.sqrt Real.log V0 L) n k param clock := by
  -- Random greedy over the traced fast oracle divides by positive pivots only.
  have guardedRandom_of {τ α : Type} [LinearOrderedField α] (sqrt log : α → α)
      (V0 : Nat → Nat → Option α) (L : Nat → Nat → α) (n : Nat)
      (sops : StrategyOps τ (Fast.Instance α × List (Option α)) α)
      (getT : τ → List Nat) (getD : τ → Bool) (SI : τ → Prop)
      (Dead : τ → Fast.Instance α × List (Option α) → Prop)
      (SL : StrategyLaw n (Fast.traced sqrt log V0 L) (fun _ => True) sops getT getD SI Dead)
      (k : Nat) (hk : k ≤ n) (param : Param α) (clock : Nat → α) (rng : Nat → Nat) :
      GuardedRandom sops (Fast.traced sqrt log V0 L) n k param clock rng := by
    have B := fast_traced_base sqrt log V0 L
    refine ⟨randomUnfolds_of _ _ n k param clock rng, ?_, ?_⟩
    · obtain ⟨r, h1, _⟩ :=
        random_greedy_base log n _ _ _ B sops getT getD SI Dead SL k hk param clock rng
      exact ⟨r, h1⟩
    · intro t
      obtain ⟨s, o, gs, hst, _, _, _, _, _, hrun, hgs⟩ :=
        random_states_base log n _ _ _ B sops getT getD SI Dead SL k param rng t
      exact ⟨s, o, hst,
        guard_run sqrt log V0 L k param.log_computed_offdiagonals_V _ gs _ hrun hgs⟩
  -- Interlace greedy over the traced fast oracle divides by positive pivots only.
  have guardedInterlace_of {τ α : Type} [LinearOrderedField α] (sqrt log : α → α)
      (V0 : Nat → Nat → Option α) (L : Nat → Nat → α) (n : Nat)
      (sops : StrategyOps τ (Fast.Instance α × List (Option α)) α)
      (getT : τ → List Nat) (getD : τ → Bool) (SI : τ → Prop)
      (Dead : τ → Fast.Instance α × List (Option α) → Prop)
      (SL : StrategyLaw n (Fast.traced sqrt log V0 L) (fun _ => True) sops getT getD SI Dead)
      (k : Nat) (hk : k ≤ n) (param : Param α) (clock : Nat → α) :
      GuardedInterlace sops (Fast.traced sqrt log V0 L) n k param clock := by
    have B := fast_traced_base sqrt log V0 L
    refine ⟨interlaceUnfolds_of _ _ n k param clock, ?_, ?_⟩
    · obtain ⟨out, _, h1, _⟩ :=
        interlace_greedy_base log n _ _ _ B sops getT getD SI Dead SL k hk param clock
      exact ⟨out, h1⟩
    · intro t
      obtain ⟨c, _, hc, _⟩ :=
        interlace_chains_run log n _ _ _ B sops getT getD SI Dead SL k param 0 t
      refine ⟨c, hc, ?_⟩
      intro f
      obtain ⟨c1, gs, hc1, hrun, hgs⟩ :=
        interlace_chains_run log n _ _ _ B sops getT getD SI Dead SL k param f t
      rw [hc] at hc1
      simp only [Except.ok.injEq] at hc1
      subst hc1
      exact guard_run sqrt log V0 L k param.log_computed_offdiagonals_V _ gs _ hrun hgs
  have B := fast_traced_base Real.sqrt Real.log V0 L
  exact ⟨traces_traced _ _,
    guardedGreedy_of Real.sqrt Real.log V0 L n hdiag _ _ _ _ _
      (nonlazy_law n _ B.law _ ord hord) k hk param clock,
    guardedGreedy_of Real.sqrt Real.log V0 L n hdiag _ _ _ _ _
      (lazy_law n _ B.law _ ord hord) k hk param clock,
    guardedRandom_of Real.sqrt Real.log V0 L n _ _ _ _ _
      (nonlazy_law n _ B.law _ ord hord) k hk param clock rng,
    guardedRandom_of Real.sqrt Real.log V0 L n _ _ _ _ _
      (lazy_law n _ B.law _ ord hord) k hk param clock rng,
    guardedInterlace_of Real.sqrt Real.log V0 L n _ _ _ _ _
      (nonlazy_law n _ B.law _ ord hord) k hk param clock,
    guardedInterlace_of Real.sqrt Real.log V0 L n _ _ _ _ _
      (lazy_law n _ B.law _ ord hord) k hk param clock⟩

/-- Witness of C37: `diag(0.3, 0.2, 0.9, 0.5, 0.25, 0.125, 0.1, 2.0)` with `k = 4`, plain
greedy with the lazy strategy. -/
theorem guarded_pivots_witness :
    GuardedGreedy
      (Lazy.ops (fun l => l.dedup)
        (Fast.traced Real.sqrt Real.log (fun _ _ => none) (testDiag ℝ)))
      (Fast.traced Real.sqrt Real.log (fun _ _ => none) (testDiag ℝ)) 8 4
      { time_limit := ⊤, log_computed_offdiagonals_V := false } (fun _ => 0) :=
  (guarded_pivots 8 (testDiag ℝ)
    (fun i h => le_of_lt (@testDiag_pos ℝ _ Real.sqrt Real.log _ i h)) 4 (by decide)
    (fun l => l.dedup) setOrder_id (fun _ _ => none)
    { time_limit := ⊤, log_computed_offdiagonals_V := false } (fun _ => 0) (fun t => t)).2.2.1

end DPP

namespace DPP

theorem zeroStart_get_last {α : Type} [LinearOrderedField α] (sqrt log : α → α)
    (V0 : Nat → Nat → Option α) (p : Fast.Instance α × List (Option α)) (x : Nat)
    (h : Fast.ZeroStart p) :
    Fast.ZeroStart
      ((Fast.traced sqrt log V0 (zeroKernel α)).get_last_marginal_gain_exponential p x).2 := by
  obtain ⟨h1, h2, h3, h4, h5⟩ := h
  obtain ⟨g1, g2, g3, _, g5, g6⟩ := fast_get_last_cells (zeroKernel α) p.1 x
  refine ⟨?_, h2, ?_, ?_, ?_⟩
  · show (Fast.get_last_marginal_gain_exponential (zeroKernel α) p.1 x).2.S = []
    rw [g1, h1]
  · intro a
    show (Fast.get_last_marginal_gain_exponential (zeroKernel α) p.1 x).2.u a = 0
    rw [g2]
    exact h3 a
  · intro a y hy
    have hy' : (Fast.get_last_marginal_gain_exponential (zeroKernel α) p.1 x).2.d a = some y :=
      hy
    by_cases ha : a = x
    · subst ha
      rcases g6 y hy' with h | h
      · exact h4 a y h
      · rw [h]
        rfl
    · rw [g5 a ha] at hy'
      exact h4 a y hy'
  · show (Fast.get_last_marginal_gain_exponential (zeroKernel α) p.1 x).2.value = _
    rw [g3, h5]

theorem zeroStart_compute {α : Type} [LinearOrderedField α] (sqrt log : α → α)
    (V0 : Nat → Nat → Option α) (p : Fast.Instance α × List (Option α)) (x : Nat)
    (h : Fast.ZeroStart p) :
    Fast.ZeroStart
      ((Fast.traced sqrt log V0 (zeroKernel α)).compute_marginal_gain_exponential p x).2 := by
  have hg := zeroStart_get_last sqrt log V0 p x h
  obtain ⟨h1, h2, _, _, _⟩ := h
  obtain ⟨g1, _, _, _, _, _⟩ := fast_get_last_cells (zeroKernel α) p.1 x
  have h0 : (Fast.get_last_marginal_gain_exponential (zeroKernel α) p.1 x).2.S.length
      - (Fast.get_last_marginal_gain_exponential (zeroKernel α) p.1 x).2.u x = 0 := by
    rw [g1, h1]
    simp
  have hc : Fast.compute_marginal_gain_exponential sqrt (zeroKernel α) p.1 x
      = Fast.get_last_marginal_gain_exponential (zeroKernel α) p.1 x := by
    show Fast.loop sqrt (zeroKernel α) _ _ x _ = _
    rw [h0]
    rfl
  have hp : Fast.pivots sqrt (zeroKernel α) p.1 x = [] := by
    show Fast.pivots_loop sqrt (zeroKernel α) _ _ x _ = []
    rw [h0]
    rfl
  have heq : ((Fast.traced sqrt log V0 (zeroKernel α)).compute_marginal_gain_exponential p x).2
      = ((Fast.traced sqrt log V0 (zeroKernel α)).get_last_marginal_gain_exponential p x).2 := by
    show ((Fast.compute_marginal_gain_exponential sqrt (zeroKernel α) p.1 x).2,
        p.2 ++ Fast.pivots sqrt (zeroKernel α) p.1 x)
      = ((Fast.get_last_marginal_gain_exponential (zeroKernel α) p.1 x).2, p.2)
    rw [hc, hp, List.append_nil]
  rw [heq]
  exact hg

theorem zeroNext_get_last {α : Type} [LinearOrderedField α] (sqrt log : α → α)
    (V0 : Nat → Nat → Option α) (L : Nat → Nat → α) (e0 : Nat)
    (p : Fast.Instance α × List (Option α)) (x : Nat) (h : Fast.ZeroNext e0 p) :
    Fast.ZeroNext e0
      ((Fast.traced sqrt log V0 L).get_last_marginal_gain_exponential p x).2 := by
  obtain ⟨h1, h2, h3⟩ := h
  obtain ⟨g1, g2, _, g4, _, _⟩ := fast_get_last_cells L p.1 x
  refine ⟨?_, ?_, ?_⟩
  · show (Fast.get_last_marginal_gain_exponential L p.1 x).2.S = [e0]
    rw [g1, h1]
  · exact g4 e0 0 h2
  · intro a ha
    show (Fast.get_last_marginal_gain_exponential L p.1 x).2.u a = 0 ∨ some (0 : α) ∈ p.2
    rw [g2]
    exact h3 a ha

theorem zeroNext_compute {α : Type} [LinearOrderedField α] (sqrt log : α → α)
    (V0 : Nat → Nat → Option α) (L : Nat → Nat → α) (e0 : Nat)
    (p : Fast.Instance α × List (Option α)) (x : Nat) (h : Fast.ZeroNext e0 p)
    (hx : x ≠ e0) :
    Fast.ZeroNext e0 ((Fast.traced sqrt log V0 L).compute_marginal_gain_exponential p x).2 ∧
    some (0 : α) ∈ ((Fast.traced sqrt log V0 L).compute_marginal_gain_exponential p x).2.2 := by
  obtain ⟨k1, k2, k3⟩ := zeroNext_get_last sqrt log V0 L e0 p x h
  have k1' : (Fast.get_last_marginal_gain_exponential L p.1 x).2.S = [e0] := k1
  have k2' : (Fast.get_last_marginal_gain_exponential L p.1 x).2.d e0 = some 0 := k2
  have k3' : (Fast.get_last_marginal_gain_exponential L p.1 x).2.u x = 0 ∨
      some (0 : α) ∈ p.2 := k3 x hx
  obtain ⟨l1, _, _, l4, l5, _⟩ := fast_loop_cells sqrt L
    ((Fast.get_last_marginal_gain_exponential L p.1 x).2.S.length
      - (Fast.get_last_marginal_gain_exponential L p.1 x).2.u x)
    (Fast.get_last_marginal_gain_exponential L p.1 x).2 x
    (Fast.get_last_marginal_gain_exponential L p.1 x).1
  have hmem : some (0 : α) ∈ p.2 ++ Fast.pivots sqrt L p.1 x := by
    rcases k3' with hu | hm
    · apply List.mem_append_right
      show some (0 : α) ∈ Fast.pivots_loop sqrt L _ _ x _
      rw [k1', hu]
      show some (0 : α) ∈ [(Fast.get_last_marginal_gain_exponential L p.1 x).2.d
        ((Fast.get_last_marginal_gain_exponential L p.1 x).2.S.getD
          ((Fast.get_last_marginal_gain_exponential L p.1 x).2.u x) 0)]
      rw [k1', hu]
      show some (0 : α) ∈ [(Fast.get_last_marginal_gain_exponential L p.1 x).2.d e0]
      rw [k2']
      exact List.mem_singleton.mpr rfl
    · exact List.mem_append_left _ hm
  refine ⟨⟨?_, ?_, ?_⟩, hmem⟩
  · show (Fast.loop sqrt L _ _ x _).2.S = [e0]
    rw [l1, k1']
  · show (Fast.loop sqrt L _ _ x _).2.d e0 = some 0
    rw [l5 e0 (fun h => hx h.symm), k2']
  · intro a _
    exact Or.inr hmem

end DPP

namespace DPP

/-- C38: stochastic greedy does not stop on a zero gain.  The fast oracle is run with a
log of the cells `d[l]` that the loop of `compute_marginal_gain_exponential` reads in
`std::sqrt(d[l])`.  On the `2 × 2` zero matrix, which is positive semi-definite, with
`k = 2`, no time limit, the lazy or the non-lazy strategy and every engine output, the
sample size of `stochastic_greedy` is `1`; its first iteration divides by nothing and
commits an element `e0` whose cell `d[e0]` holds `0`, so that the objective value is minus
infinity; the loop goes on, its second iteration reads the cell `0` in
`std::sqrt(d[l])`, and the run returns a finished result with two elements.  Plain greedy
on the same input reads positive cells only. -/
theorem stochastic_zero_pivot (ord : List Nat → List Nat) (hord : SetOrder ord)
    (V0 : Nat → Nat → Option ℝ) (param : Param ℝ) (htime : param.time_limit = ⊤)
    (clock : Nat → ℝ) (rng : Nat → Nat) :
    (Matrix.of fun i j : Fin 2 => zeroKernel ℝ i j).PosSemidef ∧
    Traces (Fast.ops Real.sqrt Real.log V0 (zeroKernel ℝ)) (Fast.pivots Real.sqrt (zeroKernel ℝ))
      (Fast.traced Real.sqrt Real.log V0 (zeroKernel ℝ)) ∧
    ZeroPivot Real.log (NonLazy.ops ord (Fast.traced Real.sqrt Real.log V0 (zeroKernel ℝ)))
      (Fast.traced Real.sqrt Real.log V0 (zeroKernel ℝ)) param clock rng ∧
    ZeroPivot Real.log (Lazy.ops ord (Fast.traced Real.sqrt Real.log V0 (zeroKernel ℝ)))
      (Fast.traced Real.sqrt Real.log V0 (zeroKernel ℝ)) param clock rng ∧
    GuardedGreedy (NonLazy.ops ord (Fast.traced Real.sqrt Real.log V0 (zeroKernel ℝ)))
      (Fast.traced Real.sqrt Real.log V0 (zeroKernel ℝ)) 2 2 param clock ∧
    GuardedGreedy (Lazy.ops ord (Fast.traced Real.sqrt Real.log V0 (zeroKernel ℝ)))
      (Fast.traced Real.sqrt Real.log V0 (zeroKernel ℝ)) 2 2 param clock := by
  have zeroPivot_of {τ : Type} (V0 : Nat → Nat → Option ℝ)
      (sops : StrategyOps τ (Fast.Instance ℝ × List (Option ℝ)) ℝ)
      (getT : τ → List Nat) (getD : τ → Bool) (SI : τ → Prop)
      (Dead : τ → Fast.Instance ℝ × List (Option ℝ) → Prop)
      (SL : StrategyLaw 2 (Fast.traced Real.sqrt Real.log V0 (zeroKernel ℝ)) (fun _ => True)
        sops getT getD SI Dead)
      (param : Param ℝ) (htime : param.time_limit = ⊤) (clock : Nat → ℝ) (rng : Nat → Nat) :
      ZeroPivot Real.log sops (Fast.traced Real.sqrt Real.log V0 (zeroKernel ℝ)) param clock
        rng := by
    -- Stochastic greedy with the sample size `1` on the `2 × 2` zero matrix with `k = 2`,
    -- over the traced fast oracle: the first iteration divides by nothing and commits an
    -- element whose cell holds `0`, and the second reads the cell `0` in `std::sqrt(d[l])`.
    have zero_pivot_states {τ α : Type} [LinearOrderedField α] (sqrt log : α → α)
        (V0 : Nat → Nat → Option α)
        (sops : StrategyOps τ (Fast.Instance α × List (Option α)) α)
        (getT : τ → List Nat) (getD : τ → Bool) (SI : τ → Prop)
        (Dead : τ → Fast.Instance α × List (Option α) → Prop)
        (SL : StrategyLaw 2 (Fast.traced sqrt log V0 (zeroKernel α)) (fun _ => True) sops getT
          getD SI Dead)
        (param : Param α) (rng : Nat → Nat) :
        ∃ (x1 x2 : Nat × List Nat × (Nat → Int) × Fast.Instance α × List (Option α))
          (e0 : Nat),
          stochastic_greedy_states sops (Fast.traced sqrt log V0 (zeroKernel α)) 2 2 1 param rng 1
            = .ok x1 ∧
          x1.2.2.2.1.S = [e0] ∧ x1.2.2.2.1.d e0 = some 0 ∧ isNegInf x1.2.2.2.1.value = true ∧
          x1.2.2.2.2 = [] ∧
          stochastic_greedy_states sops (Fast.traced sqrt log V0 (zeroKernel α)) 2 2 1 param rng 2
            = .ok x2 ∧
          some (0 : α) ∈ x2.2.2.2.2 := by
      -- An iteration of the loop of `stochastic_greedy` keeps what the computations and
      -- look-ups for elements outside the selection keep.
      have stochastic_step_inv {τ σ α : Type} [LinearOrderedField α] (log : α → α)
          (n : Nat) (oops : OracleOps σ α) (Good : σ → Prop) (Holds : σ → Nat → α → Prop)
          (B : OracleBase oops log Good Holds) (sops : StrategyOps τ σ α) (getT : τ → List Nat)
          (getD : τ → Bool) (SI : τ → Prop) (Dead : τ → σ → Prop)
          (SL : StrategyLaw n oops Good sops getT getD SI Dead) (J J' : σ → Prop)
          (hc : ∀ o x, J o → x < n → x ∉ oops.get_solution o →
            J (oops.compute_marginal_gain_exponential o x).2)
          (hgl : ∀ o x, J o → x < n → x ∉ oops.get_solution o →
            J (oops.get_last_marginal_gain_exponential o x).2)
          (hc' : ∀ o x, J' o → x < n → x ∉ oops.get_solution o →
            J' (oops.compute_marginal_gain_exponential o x).2)
          (hgl' : ∀ o x, J' o → x < n → x ∉ oops.get_solution o →
            J' (oops.get_last_marginal_gain_exponential o x).2)
          (s : Nat) (hs : 0 < s) (rng : Nat → Nat) (pos : Nat) (T : List Nat) (T_inv : Nat → Int)
          (o : σ) (hg : Good o) (hTI : TInv T T_inv)
          (hT : ∀ x, x ∈ T ↔ (x < n ∧ x ∉ oops.get_solution o))
          (hTlen : T.length + (oops.get_solution o).length = n)
          (hlen : (oops.get_solution o).length < n) (hndS : (oops.get_solution o).Nodup)
          (hr : ∀ x ∈ oops.get_solution o, x < n) (hJ : J o) :
          ∃ e o1 pos' T' T_inv', e ∈ T ∧
            stochastic_greedy_step sops oops n s rng (pos, T, T_inv, o)
              = .ok (pos', T', T_inv', oops.add o1 e) ∧
            J o1 ∧ oops.get_solution o1 = oops.get_solution o ∧ (∃ v, Holds o1 e v) ∧
            ((∀ p, J p → oops.get_solution p = oops.get_solution o →
              J' (oops.compute_marginal_gain_exponential p e).2) → J' o1) := by
        obtain ⟨_, _, b3, _, b5, e, s1, o1, pos', T', T_inv', c1, c2, hstep, _⟩ :=
          stochastic_step_base log n oops Good Holds B sops getT getD SI Dead SL s hs rng pos T
            T_inv o hg hTI hT hTlen hlen hndS hr
        have hcand : ∀ a ∈ stochastic_candidates oops n s rng (pos, T, T_inv, o),
            a < n ∧ a ∉ oops.get_solution o := fun a ha => (hT a).mp (b5 a ha)
        obtain ⟨d1, d2, _, d4, d5⟩ := SL.construct_spec _ false o hg b3 hcand
        obtain ⟨e1, e2, _, _⟩ := steps_base oops log Good Holds B _ _ _ hg d5
        obtain ⟨j1, _⟩ := steps_inv oops B.law n J hc hgl _ _ _ hcand d5 hJ
        have hT2 : ∀ x ∈ getT
            (sops.construct (stochastic_candidates oops n s rng (pos, T, T_inv, o)) false o).1,
            x < n ∧ x ∉ oops.get_solution
              (sops.construct (stochastic_candidates oops n s rng (pos, T, T_inv, o)) false o).2 := by
          intro x hx
          rw [e2]
          exact hcand x ((d2 x).mp hx)
        have hne : getT
            (sops.construct (stochastic_candidates oops n s rng (pos, T, T_inv, o)) false o).1
            ≠ [] := List.ne_nil_of_mem ((d2 e).mpr c2)
        obtain ⟨r, s1', o1', hok, hpo, _, _⟩ := SL.pop_spec _ _ e1 d4 d1 hT2 (Or.inr hne)
        rw [c1] at hok
        simp only [Except.ok.injEq, Prod.mk.injEq] at hok
        obtain ⟨rfl, rfl, rfl⟩ := hok
        obtain ⟨_, g2, _, _, g5⟩ :=
          popOut_base oops log Good Holds B getT getD SI _ _ _ _ _ e1 (fun x hx => (hT2 x hx).2) hpo
        obtain ⟨k1, k2⟩ := popOut_inv oops B.law n getT getD SI J J' hc hgl hc' hgl' _ _ _ _ _
          hT2 hpo j1
        refine ⟨e, o1, pos', T', T_inv', b5 e c2, hstep, k1, by rw [g2, e2], ⟨_, g5 e rfl⟩, ?_⟩
        intro hstepJ
        apply k2 e rfl
        intro p hp hpS
        apply hstepJ p hp
        rw [hpS, e2]
      have B := fast_traced_base sqrt log V0 (zeroKernel α)
      -- the state before the first iteration
      obtain ⟨pos, T, T_inv, o, hst, hg, hTI, hT, hTlen, hlen, hndS, hr⟩ :=
        stochastic_states_base log 2 _ _ _ B sops getT getD SI Dead SL 2 1 Nat.one_pos param
          rng 0 (by omega)
      have ho : o = (Fast.traced sqrt log V0 (zeroKernel α)).construct 2
          param.log_computed_offdiagonals_V := by
        have h0 : stochastic_greedy_states sops (Fast.traced sqrt log V0 (zeroKernel α)) 2 2 1
            param rng 0 = .ok (0, List.range 2, fun e => (e : Int),
              (Fast.traced sqrt log V0 (zeroKernel α)).construct 2
                param.log_computed_offdiagonals_V) := rfl
        rw [hst] at h0
        simp only [Except.ok.injEq, Prod.mk.injEq] at h0
        exact h0.2.2.2
      have hJ0 : Fast.ZeroStart o := by
        rw [ho]
        exact ⟨rfl, rfl, fun _ => rfl, fun x y hy => (by cases hy), rfl⟩
      obtain ⟨e0, o1, pos1, T1, T_inv1, _, hstep1, k1, _, ⟨v, hv⟩, _⟩ :=
        stochastic_step_inv log 2 _ _ _ B sops getT getD SI Dead SL Fast.ZeroStart Fast.ZeroStart
          (fun p x hp _ _ => zeroStart_compute sqrt log V0 p x hp)
          (fun p x hp _ _ => zeroStart_get_last sqrt log V0 p x hp)
          (fun p x hp _ _ => zeroStart_compute sqrt log V0 p x hp)
          (fun p x hp _ _ => zeroStart_get_last sqrt log V0 p x hp)
          1 Nat.one_pos rng pos T T_inv o hg hTI hT hTlen (by omega) hndS hr hJ0
      have hst1 : stochastic_greedy_states sops (Fast.traced sqrt log V0 (zeroKernel α)) 2 2 1
          param rng 1
          = .ok (pos1, T1, T_inv1, (Fast.traced sqrt log V0 (zeroKernel α)).add o1 e0) := by
        rw [stochastic_greedy_states, hst]
        exact hstep1
      obtain ⟨z1, z2, z3, z4, z5⟩ := k1
      have hv0 : v = 0 := z4 e0 v hv.1
      have hd0 : o1.1.d e0 = some 0 := by rw [← hv0]; exact hv.1
      have hS1 : ((Fast.traced sqrt log V0 (zeroKernel α)).add o1 e0).1.S = [e0] := by
        show o1.1.S ++ [e0] = [e0]
        rw [z1]
        rfl
      have hval1 : isNegInf ((Fast.traced sqrt log V0 (zeroKernel α)).add o1 e0).1.value
          = true := by
        show isNegInf (vadd o1.1.value (dlog log (o1.1.d e0))) = true
        rw [z5, hd0]
        simp [dlog, vadd, isNegInf]
      have hJ1 : Fast.ZeroNext e0 ((Fast.traced sqrt log V0 (zeroKernel α)).add o1 e0) :=
        ⟨hS1, hd0, fun x _ => Or.inl (z3 x)⟩
      -- the state before the second iteration
      obtain ⟨pos', T', T_inv', o', hst', hg', hTI', hT', hTlen', hlen', hndS', hr'⟩ :=
        stochastic_states_base log 2 _ _ _ B sops getT getD SI Dead SL 2 1 Nat.one_pos param
          rng 1 (by omega)
      rw [hst1] at hst'
      simp only [Except.ok.injEq, Prod.mk.injEq] at hst'
      obtain ⟨rfl, rfl, rfl, rfl⟩ := hst'
      have hne : ∀ (p : Fast.Instance α × List (Option α)) (x : Nat), Fast.ZeroNext e0 p →
          x ∉ (Fast.traced sqrt log V0 (zeroKernel α)).get_solution p → x ≠ e0 := by
        intro p x hp hx hxe
        apply hx
        show x ∈ p.1.S
        rw [hp.1, hxe]
        exact List.mem_singleton.mpr rfl
      obtain ⟨e1, o2, pos2, T2, T_inv2, he1, hstep2, _, _, _, k2⟩ :=
        stochastic_step_inv log 2 _ _ _ B sops getT getD SI Dead SL (Fast.ZeroNext e0)
          (fun p => Fast.ZeroNext e0 p ∧ some (0 : α) ∈ p.2)
          (fun p x hp _ hx =>
            (zeroNext_compute sqrt log V0 (zeroKernel α) e0 p x hp (hne p x hp hx)).1)
          (fun p x hp _ _ => zeroNext_get_last sqrt log V0 (zeroKernel α) e0 p x hp)
          (fun p x hp _ hx =>
            zeroNext_compute sqrt log V0 (zeroKernel α) e0 p x hp.1 (hne p x hp.1 hx))
          (fun p x hp _ _ => ⟨zeroNext_get_last sqrt log V0 (zeroKernel α) e0 p x hp.1, hp.2⟩)
          1 Nat.one_pos rng pos1 T1 T_inv1 _ hg' hTI' hT' hTlen' (by omega) hndS' hr' hJ1
      have he1S : e1 ∉ (Fast.traced sqrt log V0 (zeroKernel α)).get_solution
          ((Fast.traced sqrt log V0 (zeroKernel α)).add o1 e0) := ((hT' e1).mp he1).2
      have hfin := k2 (fun p hp hpS =>
        zeroNext_compute sqrt log V0 (zeroKernel α) e0 p e1 hp
          (hne p e1 hp (by rw [hpS]; exact he1S)))
      have hst2 : stochastic_greedy_states sops (Fast.traced sqrt log V0 (zeroKernel α)) 2 2 1
          param rng 2
          = .ok (pos2, T2, T_inv2, (Fast.traced sqrt log V0 (zeroKernel α)).add o2 e1) := by
        rw [stochastic_greedy_states, hst1]
        exact hstep2
      exact ⟨_, _, e0, hst1, hS1, hd0, hval1, z2, hst2, hfin.2⟩
    have B := fast_traced_base Real.sqrt Real.log V0 (zeroKernel ℝ)
    refine ⟨?_, stochasticUnfolds_of Real.log sops _ 2 2 param clock rng, ?_,
      zero_pivot_states Real.sqrt Real.log V0 sops getT getD SI Dead SL param rng⟩
    · have h2 : ((2 : Nat) : ℝ) / ((2 : Nat) : ℝ) = 1 := by norm_num
      have h3 : (1 : ℝ) / (1 / 2) = 2 := by norm_num
      rw [h2, one_mul, h3, Nat.ceil_eq_iff (by norm_num)]
      refine ⟨?_, ?_⟩
      · simp only [Nat.sub_self, Nat.cast_zero]
        exact Real.log_pos (by norm_num)
      · have := Real.log_le_sub_one_of_pos (x := 2) (by norm_num)
        simp only [Nat.cast_one]
        linarith
    · obtain ⟨⟨r, r1, r2, r3, _⟩, _⟩ :=
        @fillsBudget_of _ _ ℝ _ Real.sqrt Real.log _ _ 2 _ _ _ B sops getT getD SI Dead SL 2
          (by decide) (by decide) param htime clock rng
      exact ⟨r, r1, r2, r3⟩
  have B := fast_traced_base Real.sqrt Real.log V0 (zeroKernel ℝ)
  have hz : (Matrix.of fun i j : Fin 2 => zeroKernel ℝ i j) = 0 := by
    ext i j
    rfl
  have hdiag : ∀ i, i < 2 → (0 : ℝ) ≤ zeroKernel ℝ i i := fun _ _ => le_refl _
  exact ⟨by rw [hz]; exact Matrix.PosSemidef.zero, traces_traced _ _,
    zeroPivot_of V0 _ _ _ _ _ (nonlazy_law 2 _ B.law _ ord hord) param htime clock rng,
    zeroPivot_of V0 _ _ _ _ _ (lazy_law 2 _ B.law _ ord hord) param htime clock rng,
    guardedGreedy_of Real.sqrt Real.log V0 (zeroKernel ℝ) 2 hdiag _ _ _ _ _
      (nonlazy_law 2 _ B.law _ ord hord) 2 (le_refl _) param clock,
    guardedGreedy_of Real.sqrt Real.log V0 (zeroKernel ℝ) 2 hdiag _ _ _ _ _
      (lazy_law 2 _ B.law _ ord hord) 2 (le_refl _) param clock⟩

/-- Witness of C38: the lazy strategy, with the engine output `0, 1, 2, ...`. -/
theorem stochastic_zero_pivot_witness :
    ZeroPivot Real.log
      (Lazy.ops (fun l => l.dedup)
        (Fast.traced Real.sqrt Real.log (fun _ _ => none) (zeroKernel ℝ)))
      (Fast.traced Real.sqrt Real.log (fun _ _ => none) (zeroKernel ℝ))
      { time_limit := ⊤, log_computed_offdiagonals_V := false } (fun _ => 0) (fun t => t) :=
  (stochastic_zero_pivot (fun l => l.dedup) setOrder_id (fun _ _ => none)
    { time_limit := ⊤, log_computed_offdiagonals_V := false } rfl (fun _ => 0)
    (fun t => t)).2.2.2.1

end DPP

namespace DPP

theorem countP_flip (l : List Nat) (p q : Nat → Bool) (e : Nat) (hnd : l.Nodup) (he : e ∈ l)
    (hpq : ∀ x, x ≠ e → p x = q x) (hp : p e = true) (hq : q e = false) :
    l.countP p = l.countP q + 1 := by
  induction l with
  | nil => cases he
  | cons a l ih =>
    rw [List.nodup_cons] at hnd
    by_cases hae : a = e
    · subst hae
      have hrest : l.countP p = l.countP q := by
        apply List.countP_congr
        intro x hx
        have hxa : x ≠ a := fun h => hnd.1 (h ▸ hx)
        rw [hpq x hxa]
      rw [List.countP_cons_of_pos _ _ hp, List.countP_cons_of_neg _ _ (by rw [hq]; simp), hrest]
    · have hel : e ∈ l := by
        rcases List.mem_cons.mp he with h | h
        · exact absurd h.symm hae
        · exact h
      have := ih hnd.2 hel
      rw [List.countP_cons, List.countP_cons, this, hpq a hae]
      omega

/-- The calls of a direct oracle that has just been constructed, and of the elements
below `n` all are to be computed. -/
theorem direct_potential_construct {α : Type} [LinearOrderedField α] (n : Nat) :
    Oracle.potential n (Oracle.construct α) = n := by
  unfold Oracle.potential Oracle.stale
  have h : ∀ e ∈ List.range n, (decide (e ∉ (Oracle.construct α).S) &&
      decide ((Oracle.construct α).u e < ((Oracle.construct α).S.length : Int))) = true := by
    intro e _
    simp [Oracle.construct]
  rw [List.countP_eq_length.mpr h, List.length_range]
  simp [Oracle.construct]

end DPP

namespace DPP

theorem callsUpTo_succ (n t : Nat) : callsUpTo n (t + 1) = callsUpTo n t + (n - t) := by
  unfold callsUpTo
  rw [Finset.sum_range_succ]

end DPP

namespace DPP

/-- C32: oracle-call count of plain greedy over the direct oracle.  For every kernel `L`
on `n` elements and every `k ≤ n`: with the non-lazy strategy, the call of `pop_largest()`
in iteration `t < k`, which starts from a selection of `t` elements, computes every
element of the ground set, `n - t` of them, and adds `n - t` oracle calls, and for every
step `1 ≤ t < size()` the number of oracle calls recorded at step `t` is
`(n - 0) + ... + (n - (t - 1))`; with the lazy strategy, the number recorded at step `t`
is at most that; and the sum is `t * n - t * (t - 1) / 2` for `t ≤ n`. -/
theorem oracle_call_count (n : Nat) (L : Nat → Nat → ℝ) (k : Nat) (hk : k ≤ n)
    (ord : List Nat → List Nat) (hord : SetOrder ord) (param : Param ℝ) (clock : Nat → ℝ) :
    CallsRecorded (fun a b => a = b) (NonLazy.ops ord (Oracle.ops Real.log L))
      (Oracle.ops Real.log L) n k param clock ∧
    CallsPerPop (NonLazy.ops ord (Oracle.ops Real.log L)) (Oracle.ops Real.log L)
      (fun s => s.T) n k param ∧
    CallsRecorded (fun a b => a ≤ b) (Lazy.ops ord (Oracle.ops Real.log L))
      (Oracle.ops Real.log L) n k param clock ∧
    ∀ t, t ≤ n → callsUpTo n t = t * n - t * (t - 1) / 2 := by
  -- Plain greedy over the direct oracle records the oracle calls after each call of
  -- `pop_largest()`, which a bound `bound` on the states relates to `callsUpTo`.
  have callsRecorded_of {τ α : Type} [LinearOrderedField α] (log : α → α)
      (L : Nat → Nat → α) (n : Nat) (sops : StrategyOps τ (Oracle.Instance α) α)
      (getT : τ → List Nat) (getD : τ → Bool) (SI : τ → Prop)
      (Dead : τ → Oracle.Instance α → Prop)
      (SL : StrategyLaw n (Oracle.ops log L) Oracle.Written sops getT getD SI Dead)
      (k : Nat) (hk : k ≤ n) (param : Param α) (clock : Nat → α) (Rel : Nat → Nat → Prop)
      (hrel : ∀ t, t < n → ∀ s o e s1 o1,
        greedy_states sops (Oracle.ops log L) n k param t = .ok (s, o) →
        sops.pop_largest s o = .ok (some e, s1, o1) →
        Rel o1.num_oracle_calls (callsUpTo n (t + 1))) :
      CallsRecorded Rel sops (Oracle.ops log L) n k param clock := by
    -- The loop of `greedy` records at step `j + 1` the oracle calls after iteration `j`.
    have greedy_loop_calls {τ σ α : Type} [LinearOrderedField α] (log : α → α) (n : Nat)
        (oops : OracleOps σ α) (Good : σ → Prop) (Holds : σ → Nat → α → Prop)
        (B : OracleBase oops log Good Holds) (sops : StrategyOps τ σ α) (getT : τ → List Nat)
        (getD : τ → Bool) (SI : τ → Prop) (Dead : τ → σ → Prop)
        (SL : StrategyLaw n oops Good sops getT getD SI Dead)
        (k : Nat) (param : Param α) (clock : Nat → α) :
        ∀ (m t : Nat) (s : τ) (o : σ) (res : GreedyResult α),
          greedy_states sops oops n k param t = .ok (s, o) → t + m ≤ n →
          res.measurements.length = t + 1 →
          ∃ out, greedy_loop sops oops param clock m t s o res = .ok out ∧
            t < out.size ∧ out.size ≤ t + m + 1 ∧
            (∀ i, i < t + 1 → out.measurements.get? i = res.measurements.get? i) ∧
            ∀ j, t ≤ j → j + 1 < out.size →
              ∃ (mm : Measurement α) (s' : τ) (o' : σ) (e : Nat) (s1 : τ) (o1 : σ),
                out.measurements.get? (j + 1) = some mm ∧
                greedy_states sops oops n k param j = .ok (s', o') ∧
                (oops.get_solution o').length = j ∧
                sops.pop_largest s' o' = .ok (some e, s1, o1) ∧
                mm.num_oracle_calls = oops.get_num_oracle_calls (oops.add o1 e) := by
      intro m
      induction m with
      | zero =>
        intro t s o res _ _ hm
        refine ⟨{ res with finished := true }, rfl, ?_, ?_, fun i _ => rfl, ?_⟩
        · show t < res.measurements.length
          omega
        · show res.measurements.length ≤ t + 0 + 1
          omega
        · intro j hj1 hj2
          have hj2' : j + 1 < res.measurements.length := hj2
          omega
      | succ m ih =>
        intro t s o res hst htm hm
        obtain ⟨s', o', hst', _, _, _, _, _, hlen, _, _, hp⟩ :=
          greedy_states_base log n oops Good Holds B sops getT getD SI Dead SL k param t
            (by omega)
        rw [hst] at hst'
        simp only [Except.ok.injEq, Prod.mk.injEq] at hst'
        obtain ⟨rfl, rfl⟩ := hst'
        obtain ⟨e, s1, o1, hok, _⟩ := hp (by omega)
        obtain ⟨hstepeq, hloopeq⟩ :=
          (greedyUnfolds_of sops oops n k param clock).2 m t s o res e s1 o1 hok
        have hst1 : greedy_states sops oops n k param (t + 1)
            = .ok (s1, if param.log_computed_offdiagonals_V then
                oops.clear_computed_offdiagonals_V (oops.add o1 e)
              else oops.add o1 e) := by
          rw [greedy_states, hst]
          exact hstepeq
        have hm1 : ∀ (v : Value α) (time : α) (a b d : Nat) (l : List (Nat × Nat)),
            (res.add (some e) v time a b d l).measurements.length = t + 1 + 1 := by
          intro v time a b d l
          simp [GreedyResult.add, hm]
        have hold : ∀ (v : Value α) (time : α) (a b d : Nat) (l : List (Nat × Nat)) (i : Nat),
            i < t + 1 →
            (res.add (some e) v time a b d l).measurements.get? i = res.measurements.get? i := by
          intro v time a b d l i hi
          simp only [GreedyResult.add]
          rw [List.get?_eq_getElem?, List.getElem?_append_left (by omega),
            ← List.get?_eq_getElem?]
        have hnew : ∀ (v : Value α) (time : α) (a b d : Nat) (l : List (Nat × Nat)),
            ∃ mm, (res.add (some e) v time a b d l).measurements.get? (t + 1) = some mm ∧
              mm.num_oracle_calls = b := by
          intro v time a b d l
          refine ⟨{ time := time, num_computed_entries_L := a, num_oracle_calls := b, num_computed_offdiagonals_V := d, computed_offdiagonals_V := l }, ?_, rfl⟩
          simp only [GreedyResult.add]
          rw [List.get?_eq_getElem?, List.getElem?_append_right (by omega)]
          simp [hm]
        rw [hloopeq]
        by_cases hstop : (expired param (clock t) ||
            isNegInf (oops.get_value (oops.add o1 e))) = true
        · rw [if_pos hstop]
          refine ⟨_, rfl, ?_, ?_, fun i hi => hold _ _ _ _ _ _ i hi, ?_⟩
          · show t < (res.add _ _ _ _ _ _ _).measurements.length
            rw [hm1]
            omega
          · show (res.add _ _ _ _ _ _ _).measurements.length ≤ _
            rw [hm1]
            omega
          · intro j hj1 hj2
            have hj2' : j + 1 < (res.add (some e) (oops.get_value (oops.add o1 e)) (clock t) 0
                (oops.get_num_oracle_calls (oops.add o1 e))
                (oops.get_num_computed_offdiagonals_V (oops.add o1 e))
                (oops.get_computed_offdiagonals_V (oops.add o1 e))).measurements.length := hj2
            rw [hm1] at hj2'
            have hj : j = t := by omega
            subst hj
            obtain ⟨mm, q1, q2⟩ := hnew (oops.get_value (oops.add o1 e)) (clock j) 0
              (oops.get_num_oracle_calls (oops.add o1 e))
              (oops.get_num_computed_offdiagonals_V (oops.add o1 e))
              (oops.get_computed_offdiagonals_V (oops.add o1 e))
            exact ⟨mm, s, o, e, s1, o1, q1, hst, hlen, hok, q2⟩
        · rw [if_neg hstop]
          obtain ⟨out, i1, i2, i3, i4, i5⟩ := ih (t + 1) s1 _ _ hst1 (by omega) (hm1 _ _ _ _ _ _)
          refine ⟨out, i1, by omega, by omega, ?_, ?_⟩
          · intro i hi
            rw [i4 i (by omega)]
            exact hold _ _ _ _ _ _ i hi
          · intro j hj1 hj2
            rcases Nat.eq_or_lt_of_le hj1 with heq | hlt
            · subst heq
              obtain ⟨mm, q1, q2⟩ := hnew (oops.get_value (oops.add o1 e)) (clock t) 0
                (oops.get_num_oracle_calls (oops.add o1 e))
                (oops.get_num_computed_offdiagonals_V (oops.add o1 e))
                (oops.get_computed_offdiagonals_V (oops.add o1 e))
              refine ⟨mm, s, o, e, s1, o1, ?_, hst, hlen, hok, q2⟩
              rw [i4 (t + 1) (by omega)]
              exact q1
            · exact i5 j hlt hj2
    have B := direct_base log L
    have hU := greedyUnfolds_of sops (Oracle.ops log L) n k param clock
    refine ⟨hU, ?_⟩
    obtain ⟨x, hx, hrun⟩ := hU.1 hk
    have hx' : greedy_states sops (Oracle.ops log L) n k param 0 = .ok (x.1, x.2) := hx
    obtain ⟨out, i1, _, i3, _, i5⟩ :=
      greedy_loop_calls log n _ _ _ B sops getT getD SI Dead SL k param clock k 0 x.1 x.2
        (GreedyResult.init α) hx' (by omega) rfl
    refine ⟨out, by rw [hrun]; exact i1, ?_⟩
    intro t ht1 ht2
    obtain ⟨mm, s, o, e, s1, o1, q1, q2, q3, q4, q5⟩ := i5 (t - 1) (Nat.zero_le _) (by omega)
    have hidx : t - 1 + 1 = t := by omega
    rw [hidx] at q1
    have q5' : mm.num_oracle_calls = o1.num_oracle_calls := q5
    refine ⟨mm, s, o, e, s1, o1, q1, q2, q3, q4, q5', ?_⟩
    have := hrel (t - 1) (by omega) s o e s1 o1 q2 q4
    rw [hidx] at this
    rw [q5']
    exact this
  -- The state of plain greedy with the lazy strategy over the direct oracle after `t ≤ n`
  -- iterations: the oracle calls counted and those still to be counted for the current
  -- selection are at most `callsUpTo n (t + 1)`, and the next call of `pop_largest()` keeps
  -- their number.
  have lazy_direct_states {α : Type} [LinearOrderedField α] (log : α → α)
      (L : Nat → Nat → α) (n : Nat) (ord : List Nat → List Nat) (hord : SetOrder ord)
      (k : Nat) (param : Param α) :
      ∀ t, t ≤ n → ∃ (s : Lazy.Instance α) (o : Oracle.Instance α),
        greedy_states (Lazy.ops ord (Oracle.ops log L)) (Oracle.ops log L) n k param t
          = .ok (s, o) ∧
        Oracle.potential n o ≤ callsUpTo n (t + 1) ∧
        (t < n → ∃ e s1 o1,
          (Lazy.ops ord (Oracle.ops log L)).pop_largest s o = .ok (some e, s1, o1) ∧
          Oracle.potential n o1 = Oracle.potential n o ∧ o1.S = o.S) := by
    -- Looking up elements below `n` before anything is selected keeps the potential of the
    -- direct oracle.
    have direct_potential_getLastAll {α : Type} [LinearOrderedField α] (log : α → α)
        (L : Nat → Nat → α) (n : Nat) :
        ∀ (es : List Nat) (o : Oracle.Instance α), (∀ e ∈ es, e < n) → o.S = [] →
          (∀ x, -1 ≤ o.u x) →
          Oracle.potential n (getLastAll (Oracle.ops log L) es o) = Oracle.potential n o := by
      -- A look-up of the direct oracle for an element below `n`, before anything is selected,
      -- counts an oracle call exactly when the cell was to be computed.
      have direct_potential_get_last {α : Type} [LinearOrderedField α] (L : Nat → Nat → α)
          (n : Nat) (o : Oracle.Instance α) (e : Nat) (he : e < n) (hS : o.S = [])
          (hu1 : ∀ x, -1 ≤ o.u x) :
          Oracle.potential n (Oracle.get_last_marginal_gain_exponential L o e).2
            = Oracle.potential n o ∧
          (Oracle.get_last_marginal_gain_exponential L o e).2.S = [] ∧
          ∀ x, -1 ≤ (Oracle.get_last_marginal_gain_exponential L o e).2.u x := by
        by_cases hu : o.u e = -1
        · have hst : (Oracle.get_last_marginal_gain_exponential L o e).2
              = { o with d := Function.update o.d e (some (L e e))
                         u := Function.update o.u e 0
                         num_oracle_calls := o.num_oracle_calls + 1 } := by
            unfold Oracle.get_last_marginal_gain_exponential
            rw [if_pos hu]
          rw [hst]
          refine ⟨?_, hS, ?_⟩
          · unfold Oracle.potential Oracle.stale
            simp only []
            rw [countP_flip (List.range n)
              (fun x => decide (x ∉ o.S) && decide (o.u x < (o.S.length : Int)))
              (fun x => decide (x ∉ o.S) &&
                decide (Function.update o.u e 0 x < (o.S.length : Int))) e
              (List.nodup_range n) (List.mem_range.mpr he)
              (fun x hx => by simp only [Function.update_noteq hx])
              (by simp [hS, hu]) (by simp [hS])]
            omega
          · intro x
            by_cases hx : x = e
            · subst hx
              simp
            · simp only [Function.update_noteq hx]
              exact hu1 x
        · have hst : (Oracle.get_last_marginal_gain_exponential L o e).2 = o := by
            unfold Oracle.get_last_marginal_gain_exponential
            rw [if_neg hu]
          rw [hst]
          exact ⟨rfl, hS, hu1⟩
      intro es
      induction es with
      | nil => intro o _ _ _; rfl
      | cons e es ih =>
        intro o h hS hu
        obtain ⟨g1, g2, g3⟩ := direct_potential_get_last L n o e (h e (List.mem_cons_self e es))
          hS hu
        have hc : getLastAll (Oracle.ops log L) (e :: es) o
            = getLastAll (Oracle.ops log L) es (Oracle.get_last_marginal_gain_exponential L o e).2 :=
          rfl
        rw [hc, ih _ (fun x hx => h x (List.mem_cons_of_mem e hx)) g2 g3, g1]
    -- Computing elements below `n` outside the selection keeps the potential of the direct
    -- oracle.
    have direct_potential_computeAll {α : Type} [LinearOrderedField α] (log : α → α)
        (L : Nat → Nat → α) (n : Nat) :
        ∀ (es : List Nat) (o : Oracle.Instance α), (∀ e ∈ es, e < n ∧ e ∉ o.S) →
          Oracle.potential n (computeAll (Oracle.ops log L) es o) = Oracle.potential n o ∧
          (computeAll (Oracle.ops log L) es o).S = o.S ∧
          (computeAll (Oracle.ops log L) es o).value = o.value := by
      -- A computation of the direct oracle for an element below `n` outside the selection
      -- counts an oracle call exactly when the cell was to be computed.
      have direct_potential_compute {α : Type} [LinearOrderedField α] (L : Nat → Nat → α)
          (n : Nat) (o : Oracle.Instance α) (e : Nat) (he : e < n) (heS : e ∉ o.S) :
          Oracle.potential n (Oracle.compute_marginal_gain_exponential L o e).2
            = Oracle.potential n o := by
        by_cases hu : o.u e < (o.S.length : Int)
        · have hst : (Oracle.compute_marginal_gain_exponential L o e).2
              = { o with d := Function.update o.d e (some (max 0 (L e e - Matrix.dotProduct
                    (subVector L o.S e) (ldltSolve (subMatrix L o.S o.S) (subVector L o.S e)))))
                         u := Function.update o.u e (o.S.length : Int)
                         num_oracle_calls := o.num_oracle_calls + 1 } := by
            unfold Oracle.compute_marginal_gain_exponential
            rw [if_pos hu]
          rw [hst]
          unfold Oracle.potential Oracle.stale
          simp only []
          rw [countP_flip (List.range n)
            (fun x => decide (x ∉ o.S) && decide (o.u x < (o.S.length : Int)))
            (fun x => decide (x ∉ o.S) &&
              decide (Function.update o.u e (o.S.length : Int) x < (o.S.length : Int))) e
            (List.nodup_range n) (List.mem_range.mpr he)
            (fun x hx => by simp only [Function.update_noteq hx])
            (by simp [heS, hu]) (by simp)]
          omega
        · have hst : (Oracle.compute_marginal_gain_exponential L o e).2 = o := by
            unfold Oracle.compute_marginal_gain_exponential
            rw [if_neg hu]
          rw [hst]
      intro es
      induction es with
      | nil => intro o _; exact ⟨rfl, rfl, rfl⟩
      | cons e es ih =>
        intro o h
        obtain ⟨c1, c2, _⟩ := direct_compute_cells L o e
        obtain ⟨he, heS⟩ := h e (List.mem_cons_self e es)
        have hrec := ih (Oracle.compute_marginal_gain_exponential L o e).2 (by
          intro x hx
          rw [c1]
          exact h x (List.mem_cons_of_mem e hx))
        have hc : computeAll (Oracle.ops log L) (e :: es) o
            = computeAll (Oracle.ops log L) es (Oracle.compute_marginal_gain_exponential L o e).2 :=
          rfl
        rw [hc, hrec.1, hrec.2.1, hrec.2.2, direct_potential_compute L n o e he heS, c1, c2]
        exact ⟨rfl, rfl, rfl⟩
    -- At most the elements below `n` outside the selection are to be computed.
    have direct_stale_le {α : Type} (n : Nat) (o : Oracle.Instance α) (hnd : o.S.Nodup)
        (hr : ∀ x ∈ o.S, x < n) : Oracle.stale n o + o.S.length ≤ n := by
      have h1 : Oracle.stale n o ≤ ((List.range n).filter fun e => decide (e ∉ o.S)).length := by
        unfold Oracle.stale
        rw [← List.countP_eq_length_filter]
        apply List.countP_mono_left
        intro x _ hx
        simp only [Bool.and_eq_true] at hx
        exact hx.1
      have h2 := length_outside n ((List.range n).filter fun e => decide (e ∉ o.S)) o.S
        ((List.nodup_range n).filter _) hnd hr (by
          intro x
          simp [List.mem_filter])
      omega
    have B := direct_base log L
    have SL := lazy_law n (Oracle.ops log L) B.law Oracle.Written ord hord
    have hbase := greedy_states_base log n _ _ _ B _ _ _ _ _ SL k param
    have hpop : ∀ t, t < n → ∀ (s : Lazy.Instance α) (o : Oracle.Instance α),
        greedy_states (Lazy.ops ord (Oracle.ops log L)) (Oracle.ops log L) n k param t
          = .ok (s, o) →
        ∃ e s1 o1,
          (Lazy.ops ord (Oracle.ops log L)).pop_largest s o = .ok (some e, s1, o1) ∧
          Oracle.potential n o1 = Oracle.potential n o ∧ o1.S = o.S := by
      intro t ht s o hst
      obtain ⟨s', o', hst', _, hSI, hD, hnd, hT, _, _, _, hp⟩ := hbase t (by omega)
      rw [hst] at hst'
      simp only [Except.ok.injEq, Prod.mk.injEq] at hst'
      obtain ⟨rfl, rfl⟩ := hst'
      obtain ⟨e, s1, o1, hok, heT⟩ := hp ht
      have hTS : ∀ x ∈ s.T, x ∉ (Oracle.ops log L).get_solution o :=
        fun x hx => ((hT x).mp hx).2
      obtain ⟨r, s1', o1', hok', hpost⟩ :=
        lazy_pop_largest_spec (Oracle.ops log L) B.law o s o ⟨rfl, rfl, fun _ => rfl⟩ hnd hTS
          (fun hd => ⟨hSI hd, List.ne_nil_of_mem heT⟩)
      have hok2 : Lazy.pop_largest (Oracle.ops log L) s o = .ok (some e, s1, o1) := hok
      rw [hok2] at hok'
      simp only [Except.ok.injEq, Prod.mk.injEq] at hok'
      obtain ⟨rfl, rfl, rfl⟩ := hok'
      obtain ⟨⟨es, hes, ho1, _⟩, _⟩ := hpost
      obtain ⟨p1, p2, _⟩ := direct_potential_computeAll log L n es o
        (fun x hx => (hT x).mp (hes x hx))
      exact ⟨e, s1, o1, hok, by rw [ho1]; exact p1, by rw [ho1]; exact p2⟩
    intro t
    induction t with
    | zero =>
      intro hn
      obtain ⟨s, o, hst, _⟩ := hbase 0 hn
      refine ⟨s, o, hst, ?_, fun h => hpop 0 h s o hst⟩
      have ho : o = getLastAll (Oracle.ops log L) (ord (List.range n)) (Oracle.construct α) := by
        have h0 : greedy_states (Lazy.ops ord (Oracle.ops log L)) (Oracle.ops log L) n k
          param 0 = .ok (Lazy.construct (Oracle.ops log L) ord (List.range n) false
            (Oracle.construct α)) := rfl
        rw [hst] at h0
        simp only [Except.ok.injEq] at h0
        have h1 := congrArg Prod.snd h0
        have h2 : o = (Lazy.entries (Oracle.ops log L) (ord (List.range n))
            (Oracle.construct α)).2 := h1
        rw [h2, (lazy_entries_spec (Oracle.ops log L) _ _).2]
      rw [ho, direct_potential_getLastAll log L n _ _
        (fun e he => List.mem_range.mp (((hord (List.range n)).2 e).mp he)) rfl
        (fun _ => le_refl _), direct_potential_construct, callsUpTo_succ]
      omega
    | succ t ih =>
      intro ht
      obtain ⟨s, o, hst, hpot, _⟩ := ih (by omega)
      obtain ⟨e, s1, o1, hok, hp1, hS1⟩ := hpop t (by omega) s o hst
      obtain ⟨hstepeq, _⟩ :=
        (greedyUnfolds_of (Lazy.ops ord (Oracle.ops log L)) (Oracle.ops log L) n k param
          (fun _ => 0)).2 0 t s o (GreedyResult.init α) e s1 o1 hok
      have hclr : (if param.log_computed_offdiagonals_V then
            (Oracle.ops log L).clear_computed_offdiagonals_V ((Oracle.ops log L).add o1 e)
          else (Oracle.ops log L).add o1 e) = Oracle.add log o1 e := by
        split <;> rfl
      rw [hclr] at hstepeq
      have hst1 : greedy_states (Lazy.ops ord (Oracle.ops log L)) (Oracle.ops log L) n k
          param (t + 1) = .ok (s1, Oracle.add log o1 e) := by
        rw [greedy_states, hst]
        exact hstepeq
      obtain ⟨s', o', hst', _, _, _, _, _, hlen', hndS', hr', _⟩ := hbase (t + 1) ht
      rw [hst1] at hst'
      simp only [Except.ok.injEq, Prod.mk.injEq] at hst'
      obtain ⟨rfl, rfl⟩ := hst'
      have hlen1 : (Oracle.add log o1 e).S.length = t + 1 := hlen'
      have hstale := direct_stale_le n (Oracle.add log o1 e) hndS' hr'
      refine ⟨s1, Oracle.add log o1 e, hst1, ?_, fun h => hpop (t + 1) h _ _ hst1⟩
      have hcalls : (Oracle.add log o1 e).num_oracle_calls = o1.num_oracle_calls := rfl
      have hle : o1.num_oracle_calls ≤ Oracle.potential n o1 := Nat.le_add_right _ _
      rw [callsUpTo_succ n (t + 1)]
      unfold Oracle.potential at hp1 hpot hle ⊢
      rw [hcalls]
      omega
  -- The state of plain greedy with the non-lazy strategy over the direct oracle after
  -- `t ≤ n` iterations: the oracle has counted `callsUpTo n t` calls, and every element of the
  -- ground set is to be computed.
  have nonlazy_direct_states {α : Type} [LinearOrderedField α] (log : α → α)
      (L : Nat → Nat → α) (n : Nat) (ord : List Nat → List Nat) (hord : SetOrder ord)
      (k : Nat) (param : Param α) :
      ∀ t, t ≤ n → ∃ (s : NonLazy.Instance) (o : Oracle.Instance α),
        greedy_states (NonLazy.ops ord (Oracle.ops log L)) (Oracle.ops log L) n k param t
          = .ok (s, o) ∧
        o.num_oracle_calls = callsUpTo n t ∧ o.S.length = t ∧ s.T.Nodup ∧
        s.T.length = n - t ∧ (∀ x ∈ s.T, o.u x < (o.S.length : Int)) ∧
        (t < n → ∃ e s1 o1,
          (NonLazy.ops ord (Oracle.ops log L)).pop_largest s o = .ok (some e, s1, o1) ∧
          o1 = computeAll (Oracle.ops log L) s.T o ∧
          o1.num_oracle_calls = o.num_oracle_calls + (n - t)) := by
    -- A call of `pop_largest()` of the non-lazy strategy over the direct oracle, when every
    -- element of the ground set is to be computed: it computes each of them.
    have nonlazy_direct_pop {α : Type} [LinearOrderedField α] (log : α → α)
        (L : Nat → Nat → α) (ord : List Nat → List Nat) (s : NonLazy.Instance)
        (o : Oracle.Instance α) (e : Nat) (s1 : NonLazy.Instance) (o1 : Oracle.Instance α)
        (hnd : s.T.Nodup) (hne : 0 < s.T.length)
        (hst : ∀ x ∈ s.T, o.u x < (o.S.length : Int))
        (hok : (NonLazy.ops ord (Oracle.ops log L)).pop_largest s o = .ok (some e, s1, o1)) :
        o1 = computeAll (Oracle.ops log L) s.T o ∧
        o1.num_oracle_calls = o.num_oracle_calls + s.T.length ∧ o1.S = o.S ∧
        ∀ x ∈ s.T, o1.u x = (o.S.length : Int) := by
      -- Computing distinct elements whose cells are all to be computed counts one oracle call
      -- for each.
      have direct_computeAll_exact {α : Type} [LinearOrderedField α] (log : α → α)
          (L : Nat → Nat → α) :
          ∀ (es : List Nat) (o : Oracle.Instance α), es.Nodup →
            (∀ e ∈ es, o.u e < (o.S.length : Int)) →
            (computeAll (Oracle.ops log L) es o).num_oracle_calls = o.num_oracle_calls + es.length ∧
            (computeAll (Oracle.ops log L) es o).S = o.S ∧
            (∀ e ∈ es, (computeAll (Oracle.ops log L) es o).u e = (o.S.length : Int)) ∧
            ∀ x, x ∉ es → (computeAll (Oracle.ops log L) es o).u x = o.u x := by
        intro es
        induction es with
        | nil =>
          intro o _ _
          exact ⟨rfl, rfl, fun e he => (by cases he), fun _ _ => rfl⟩
        | cons e es ih =>
          intro o hnd h
          rw [List.nodup_cons] at hnd
          obtain ⟨c1, _, c3, c4, _⟩ := direct_compute_cells L o e
          have hue := h e (List.mem_cons_self e es)
          have hcalls : (Oracle.compute_marginal_gain_exponential L o e).2.num_oracle_calls
              = o.num_oracle_calls + 1 := by
            unfold Oracle.compute_marginal_gain_exponential
            rw [if_pos hue]
          obtain ⟨i1, i2, i3, i4⟩ := ih (Oracle.compute_marginal_gain_exponential L o e).2 hnd.2 (by
            intro x hx
            have hxe : x ≠ e := fun hh => hnd.1 (hh ▸ hx)
            rw [(c3 x hxe).1, c1]
            exact h x (List.mem_cons_of_mem e hx))
          have hc : computeAll (Oracle.ops log L) (e :: es) o
              = computeAll (Oracle.ops log L) es (Oracle.compute_marginal_gain_exponential L o e).2 :=
            rfl
          rw [hc]
          refine ⟨?_, by rw [i2, c1], ?_, ?_⟩
          · rw [i1, hcalls, List.length_cons]
            omega
          · intro x hx
            rcases List.mem_cons.mp hx with hxe | hxl
            · rw [hxe, i4 e hnd.1]
              exact (c4 hue).1
            · rw [i3 x hxl, c1]
          · intro x hx
            have hxe : x ≠ e := fun hh => hx (hh ▸ List.mem_cons_self e es)
            have hxl : x ∉ es := fun hh => hx (List.mem_cons_of_mem e hh)
            rw [i4 x hxl, (c3 x hxe).1]
      have hok' : NonLazy.pop_kth_largest (Oracle.ops log L) s o 0 = .ok (some e, s1, o1) := hok
      have h1 := nonlazy_pop_kth_state (Oracle.ops log L) s o 0 hne (some e) s1 o1 hok'
      obtain ⟨c1, c2, c3, _⟩ := direct_computeAll_exact log L s.T o hnd hst
      rw [h1]
      exact ⟨rfl, c1, c2, c3⟩
    have B := direct_base log L
    have SL := nonlazy_law n (Oracle.ops log L) B.law Oracle.Written ord hord
    have hbase := greedy_states_base log n _ _ _ B _ _ _ _ _ SL k param
    have key : ∀ t, t ≤ n → ∃ (s : NonLazy.Instance) (o : Oracle.Instance α),
        greedy_states (NonLazy.ops ord (Oracle.ops log L)) (Oracle.ops log L) n k param t
          = .ok (s, o) ∧
        o.num_oracle_calls = callsUpTo n t ∧ o.S.length = t ∧ s.T.Nodup ∧
        s.T.length = n - t ∧ (∀ x ∈ s.T, o.u x < (o.S.length : Int)) ∧
        (∀ x, x ∈ s.T ↔ (x < n ∧ x ∉ o.S)) ∧
        (t < n → ∃ e s1 o1,
          (NonLazy.ops ord (Oracle.ops log L)).pop_largest s o = .ok (some e, s1, o1)) := by
      intro t
      induction t with
      | zero =>
        intro _
        obtain ⟨s, o, hst, _, _, _, hnd, hT, hlen, hndS, hr, hp⟩ := hbase 0 (by omega)
        have hlen' : o.S.length = 0 := hlen
        have hcount := length_outside n s.T o.S hnd hndS hr hT
        have ho : o = Oracle.construct α := by
          have h0 : greedy_states (NonLazy.ops ord (Oracle.ops log L)) (Oracle.ops log L) n k
            param 0 = .ok (NonLazy.construct ord (List.range n) false (Oracle.construct α)) := rfl
          rw [hst] at h0
          simp only [Except.ok.injEq] at h0
          have h1 := congrArg Prod.snd h0
          exact h1
        refine ⟨s, o, hst, by rw [ho]; rfl, hlen', hnd, by omega, ?_, hT, ?_⟩
        · intro x _
          rw [ho]
          simp [Oracle.construct]
        · intro h
          obtain ⟨e, s1, o1, h1, _⟩ := hp h
          exact ⟨e, s1, o1, h1⟩
      | succ t ih =>
        intro ht
        obtain ⟨s, o, hst, hcalls, hlen, hnd, hTlen, hstale, hT, hp⟩ := ih (by omega)
        obtain ⟨e, s1, o1, hok⟩ := hp (by omega)
        obtain ⟨_, c2, c3, c4⟩ :=
          nonlazy_direct_pop log L ord s o e s1 o1 hnd (by omega) hstale hok
        obtain ⟨hstepeq, _⟩ :=
          (greedyUnfolds_of (NonLazy.ops ord (Oracle.ops log L)) (Oracle.ops log L) n k param
            (fun _ => 0)).2 0 t s o (GreedyResult.init α) e s1 o1 hok
        have hclr : (if param.log_computed_offdiagonals_V then
              (Oracle.ops log L).clear_computed_offdiagonals_V ((Oracle.ops log L).add o1 e)
            else (Oracle.ops log L).add o1 e) = Oracle.add log o1 e := by
          split <;> rfl
        rw [hclr] at hstepeq
        have hst1 : greedy_states (NonLazy.ops ord (Oracle.ops log L)) (Oracle.ops log L) n k
            param (t + 1) = .ok (s1, Oracle.add log o1 e) := by
          rw [greedy_states, hst]
          exact hstepeq
        obtain ⟨s', o', hst', _, _, _, hnd', hT', hlen', hndS', hr', hp'⟩ := hbase (t + 1) ht
        rw [hst1] at hst'
        simp only [Except.ok.injEq, Prod.mk.injEq] at hst'
        obtain ⟨rfl, rfl⟩ := hst'
        have hlen1 : (Oracle.add log o1 e).S.length = t + 1 := hlen'
        have hcount := length_outside n s1.T (Oracle.add log o1 e).S hnd' hndS' hr' hT'
        refine ⟨s1, Oracle.add log o1 e, hst1, ?_, hlen1, hnd', by omega, ?_, hT', ?_⟩
        · show o1.num_oracle_calls = _
          rw [c2, hcalls, callsUpTo_succ, hTlen]
        · intro x hx
          obtain ⟨hxn, hxS⟩ := (hT' x).mp hx
          have hxS' : x ∉ o1.S ++ [e] := hxS
          have hxo : x ∉ o.S := by
            intro h
            apply hxS'
            rw [c3]
            exact List.mem_append_left _ h
          have hxT : x ∈ s.T := (hT x).mpr ⟨hxn, hxo⟩
          show o1.u x < ((Oracle.add log o1 e).S.length : Int)
          rw [c4 x hxT, hlen1, hlen]
          omega
        · intro h
          obtain ⟨e', s1', o1', h1, _⟩ := hp' h
          exact ⟨e', s1', o1', h1⟩
    intro t ht
    obtain ⟨s, o, hst, hcalls, hlen, hnd, hTlen, hstale, _, hp⟩ := key t ht
    refine ⟨s, o, hst, hcalls, hlen, hnd, hTlen, hstale, ?_⟩
    intro h
    obtain ⟨e, s1, o1, hok⟩ := hp h
    obtain ⟨c1, c2, _, _⟩ :=
      nonlazy_direct_pop log L ord s o e s1 o1 hnd (by omega) hstale hok
    exact ⟨e, s1, o1, hok, c1, by rw [c2, hTlen]⟩
  -- The sum `callsUpTo n t` in closed form.
  have callsUpTo_closed (n t : Nat) (ht : t ≤ n) :
      callsUpTo n t = t * n - t * (t - 1) / 2 := by
    have h1 : callsUpTo n t + ∑ s in Finset.range t, s = t * n := by
      unfold callsUpTo
      rw [← Finset.sum_add_distrib]
      have : ∀ s ∈ Finset.range t, n - s + s = n := by
        intro s hs
        have := Finset.mem_range.mp hs
        omega
      rw [Finset.sum_congr rfl this, Finset.sum_const, Finset.card_range, smul_eq_mul]
    rw [Finset.sum_range_id] at h1
    omega
  have B := direct_base Real.log L
  refine ⟨?_, ?_, ?_, fun t ht => callsUpTo_closed n t ht⟩
  · refine callsRecorded_of Real.log L n _ _ _ _ _ (nonlazy_law n _ B.law _ ord hord) k hk
      param clock _ ?_
    intro t ht s o e s1 o1 hst hok
    obtain ⟨s', o', hst', hcalls, _, _, _, _, hp⟩ :=
      nonlazy_direct_states Real.log L n ord hord k param t (by omega)
    rw [hst] at hst'
    simp only [Except.ok.injEq, Prod.mk.injEq] at hst'
    obtain ⟨rfl, rfl⟩ := hst'
    obtain ⟨e', s1', o1', hok', _, hc⟩ := hp ht
    rw [hok] at hok'
    simp only [Except.ok.injEq, Prod.mk.injEq, Option.some.injEq] at hok'
    obtain ⟨rfl, rfl, rfl⟩ := hok'
    rw [hc, hcalls, callsUpTo_succ]
  · intro t ht
    obtain ⟨s, o, hst, _, hlen, _, hTlen, _, hp⟩ :=
      nonlazy_direct_states Real.log L n ord hord k param t (by omega)
    obtain ⟨e, s1, o1, hok, h1, h2⟩ := hp (by omega)
    exact ⟨s, o, e, s1, o1, hst, hlen, hTlen, hok, h1, h2⟩
  · refine callsRecorded_of Real.log L n _ _ _ _ _ (lazy_law n _ B.law _ ord hord) k hk
      param clock _ ?_
    intro t ht s o e s1 o1 hst hok
    obtain ⟨s', o', hst', hpot, hp⟩ :=
      lazy_direct_states Real.log L n ord hord k param t (by omega)
    rw [hst] at hst'
    simp only [Except.ok.injEq, Prod.mk.injEq] at hst'
    obtain ⟨rfl, rfl⟩ := hst'
    obtain ⟨e', s1', o1', hok', hp1, _⟩ := hp ht
    rw [hok] at hok'
    simp only [Except.ok.injEq, Prod.mk.injEq, Option.some.injEq] at hok'
    obtain ⟨rfl, rfl, rfl⟩ := hok'
    have hle : o1.num_oracle_calls ≤ Oracle.potential n o1 := Nat.le_add_right _ _
    show o1.num_oracle_calls ≤ callsUpTo n (t + 1)
    omega

/-- Witness of C32: `diag(0.3, 0.2, 0.9, 0.5, 0.25, 0.125, 0.1, 2.0)` with `k = 4`, with
the non-lazy strategy. -/
theorem oracle_call_count_witness :
    CallsRecorded (fun a b => a = b)
      (NonLazy.ops (fun l => l.dedup) (Oracle.ops Real.log (testDiag ℝ)))
      (Oracle.ops Real.log (testDiag ℝ)) 8 4
      { time_limit := ⊤, log_computed_offdiagonals_V := false } (fun _ => 0) :=
  (oracle_call_count 8 (testDiag ℝ) 4 (by decide) (fun l => l.dedup) setOrder_id
    { time_limit := ⊤, log_computed_offdiagonals_V := false } (fun _ => 0)).1

end DPP

namespace DPP

section
variable {α : Type} [LinearOrderedField α] [FloorRing α]

theorem roundEven_intCast (m : Int) : roundEven ((m : Int) : α) = m := by
  unfold roundEven
  simp

theorem floor_le_roundEven (y : α) : ⌊y⌋ ≤ roundEven y := by
  unfold roundEven
  split_ifs <;> omega

theorem roundEven_mono {y z : α} (h : y ≤ z) : roundEven y ≤ roundEven z := by
  have roundEven_le_floor_succ (y : α) : roundEven y ≤ ⌊y⌋ + 1 := by
    unfold roundEven
    split_ifs <;> omega
  rcases (Int.floor_mono h).lt_or_eq with hlt | heq
  · calc roundEven y ≤ ⌊y⌋ + 1 := roundEven_le_floor_succ y
      _ ≤ ⌊z⌋ := by omega
      _ ≤ roundEven z := floor_le_roundEven z
  · have hf : Int.fract y ≤ Int.fract z := by
      have h1 : Int.fract y = y - ⌊y⌋ := rfl
      have h2 : Int.fract z = z - ⌊z⌋ := rfl
      rw [h1, h2, heq]
      linarith
    unfold roundEven
    rw [heq]
    split_ifs <;> first | omega | (exfalso; linarith)

theorem roundEven_nonneg {y : α} (h : 0 ≤ y) : 0 ≤ roundEven y :=
  le_trans (Int.floor_nonneg.mpr h) (floor_le_roundEven y)

/-- A number less than half above an integer rounds to the integer. -/
theorem roundEven_absorb (m : Int) (δ : α) (h0 : 0 ≤ δ) (h1 : δ < 1 / 2) :
    roundEven ((m : α) + δ) = m := by
  have hδ1 : δ < 1 := lt_trans h1 (by norm_num)
  have hfl : ⌊(m : α) + δ⌋ = m := by
    rw [Int.floor_int_add, Int.floor_eq_zero_iff.mpr ⟨h0, hδ1⟩, add_zero]
  have hfr : Int.fract ((m : α) + δ) = δ := by
    rw [Int.fract_int_add, Int.fract_eq_self.mpr ⟨h0, hδ1⟩]
  unfold roundEven
  rw [hfr, if_pos h1, hfl]

theorem two_zpow_pos (e : Int) : (0 : α) < 2 ^ e := zpow_pos (by norm_num) e

theorem two_zpow_le {a b : Int} (h : a ≤ b) : (2 : α) ^ a ≤ 2 ^ b :=
  zpow_le_zpow_right₀ (by norm_num) h

theorem binade_eq (x : α) (e : Int) (he : -1022 ≤ e) (h1 : 2 ^ e ≤ x) (h2 : x < 2 ^ (e + 1)) :
    binade x = e := by
  -- The exponent of a positive number between two consecutive powers of two.
  have log_two_eq (x : α) (e : Int) (h1 : 2 ^ e ≤ x) (h2 : x < 2 ^ (e + 1)) :
      Int.log 2 x = e := by
    have hx : 0 < x := lt_of_lt_of_le (two_zpow_pos e) h1
    have a1 : e ≤ Int.log 2 x := by
      rw [← Int.zpow_le_iff_le_log (by norm_num) hx]
      simpa using h1
    have a2 : Int.log 2 x < e + 1 := by
      rw [← Int.lt_zpow_iff_log_lt (by norm_num) hx]
      simpa using h2
    omega
  unfold binade
  rw [log_two_eq x e h1 h2]
  exact max_eq_left he

theorem binade_ge (x : α) : -1022 ≤ binade x := le_max_right _ _

theorem flpos_zero : flpos (0 : α) = 0 := by
  unfold flpos
  have : roundEven ((0 : α) / 2 ^ (binade (0 : α) - 52)) = 0 := by
    rw [zero_div]
    have := roundEven_intCast (α := α) 0
    simpa using this
  rw [this]
  simp

theorem flpos_nonneg {x : α} (h : 0 ≤ x) : 0 ≤ flpos x := by
  unfold flpos
  apply mul_nonneg
  · exact_mod_cast roundEven_nonneg (div_nonneg h (two_zpow_pos _).le)
  · exact (two_zpow_pos _).le

/-- A number in the binade `e` that is at most the multiple `m * 2 ^ (e - 52)` rounds to at
most this multiple. -/
theorem flpos_le_of_le (x : α) (e m : Int) (hb : binade x = e)
    (h : x ≤ (m : α) * 2 ^ (e - 52)) : flpos x ≤ (m : α) * 2 ^ (e - 52) := by
  unfold flpos
  rw [hb]
  apply mul_le_mul_of_nonneg_right _ (two_zpow_pos _).le
  have h1 : x / 2 ^ (e - 52) ≤ (m : α) := by
    rw [div_le_iff₀ (two_zpow_pos _)]
    exact h
  have h2 := roundEven_mono h1
  rw [roundEven_intCast] at h2
  exact_mod_cast h2

/-- A number in the binade `e` that is at least the multiple `m * 2 ^ (e - 52)` rounds to
at least this multiple. -/
theorem le_flpos_of_le (x : α) (e m : Int) (hb : binade x = e)
    (h : (m : α) * 2 ^ (e - 52) ≤ x) : (m : α) * 2 ^ (e - 52) ≤ flpos x := by
  unfold flpos
  rw [hb]
  apply mul_le_mul_of_nonneg_right _ (two_zpow_pos _).le
  have h1 : (m : α) ≤ x / 2 ^ (e - 52) := by
    rw [le_div_iff₀ (two_zpow_pos _)]
    exact h
  have h2 := roundEven_mono h1
  rw [roundEven_intCast] at h2
  exact_mod_cast h2

/-- A multiple `m * 2 ^ (e - 52)` in the binade `e` is a double. -/
theorem flpos_of_int (x : α) (e m : Int) (hb : binade x = e) (hx : x = (m : α) * 2 ^ (e - 52)) :
    flpos x = x :=
  le_antisymm (by
      have := flpos_le_of_le x e m hb hx.le
      rw [← hx] at this
      exact this)
    (by
      have := le_flpos_of_le x e m hb hx.ge
      rw [← hx] at this
      exact this)

theorem two_pow_cast (k : Nat) : (((2 : Int) ^ k : Int) : α) = 2 ^ k := by
  push_cast
  rfl

theorem zpow_split (e : Int) (k : Nat) : (2 : α) ^ (k : Int) * 2 ^ (e - k) = 2 ^ e := by
  rw [← zpow_add₀ (by norm_num : (2 : α) ≠ 0)]
  congr 1
  omega

/-- Rounding keeps a positive number below the next power of two at or below it. -/
theorem flpos_le_top (x : α) (h : 0 ≤ x) : flpos x ≤ 2 ^ (binade x + 1) := by
  have lt_binade_succ (x : α) : x < 2 ^ (binade x + 1) := by
    have h := Int.lt_zpow_succ_log_self (b := 2) (by norm_num) x
    have h' : x < (2 : α) ^ (Int.log 2 x + 1) := by simpa using h
    exact lt_of_lt_of_le h' (two_zpow_le (by unfold binade; omega))
  have h1 : x ≤ ((2 ^ 53 : Int) : α) * 2 ^ (binade x - 52) := by
    rw [two_pow_cast]
    have := zpow_split (α := α) (binade x + 1) 53
    have e1 : binade x + 1 - ((53 : Nat) : Int) = binade x - 52 := by push_cast; omega
    rw [e1] at this
    have : (2 : α) ^ 53 * 2 ^ (binade x - 52) = 2 ^ (binade x + 1) := by
      rw [← this]
      norm_cast
    rw [this]
    exact (lt_binade_succ x).le
  have h2 := flpos_le_of_le x (binade x) (2 ^ 53) rfl h1
  have e3 : (((2 : Int) ^ 53 : Int) : α) * 2 ^ (binade x - 52) = 2 ^ (binade x + 1) := by
    rw [two_pow_cast]
    have := zpow_split (α := α) (binade x + 1) 53
    have e1 : binade x + 1 - ((53 : Nat) : Int) = binade x - 52 := by push_cast; omega
    rw [e1] at this
    rw [← this]
    norm_cast
  rw [e3] at h2
  exact h2

/-- Rounding keeps a number of the binade `e` at or above `2 ^ e`. -/
theorem le_flpos_bot (x : α) (e : Int) (hb : binade x = e) (h : 2 ^ e ≤ x) :
    2 ^ e ≤ flpos x := by
  have e3 : (((2 : Int) ^ 52 : Int) : α) * 2 ^ (e - 52) = 2 ^ e := by
    rw [two_pow_cast]
    have := zpow_split (α := α) e 52
    rw [← this]
    norm_cast
  have h2 := le_flpos_of_le x e (2 ^ 52) hb (by rw [e3]; exact h)
  rw [e3] at h2
  exact h2

theorem fl64_of_nonneg {x : α} (h : 0 ≤ x) : fl64 x = flpos x := by
  unfold fl64
  rw [if_pos h]

theorem fl64_zero : fl64 (0 : α) = 0 := by
  rw [fl64_of_nonneg le_rfl, flpos_zero]

theorem fl64_nonneg {x : α} (h : 0 ≤ x) : 0 ≤ fl64 x := by
  rw [fl64_of_nonneg h]
  exact flpos_nonneg h

theorem fl64_mono {x y : α} (h : x ≤ y) : fl64 x ≤ fl64 y := by
  have flpos_mono {x y : α} (hx : 0 ≤ x) (h : x ≤ y) : flpos x ≤ flpos y := by
    have binade_mono {x y : α} (hx : 0 < x) (h : x ≤ y) : binade x ≤ binade y :=
      max_le_max (Int.log_mono_right hx h) le_rfl
    rcases hx.lt_or_eq with hpos | h0
    · have hy : 0 < y := lt_of_lt_of_le hpos h
      rcases (binade_mono hpos h).lt_or_eq with hlt | heq
      · have hby : binade y = Int.log 2 y := by
          unfold binade at hlt ⊢
          have := binade_ge x
          unfold binade at this
          apply max_eq_left
          by_contra hc
          rw [max_eq_right (by omega)] at hlt
          omega
        have hy2 : (2 : α) ^ binade y ≤ y := by
          rw [hby]
          have := Int.zpow_log_le_self (b := 2) (by norm_num) hy
          simpa using this
        calc flpos x ≤ 2 ^ (binade x + 1) := flpos_le_top x hx
          _ ≤ 2 ^ binade y := two_zpow_le (by omega)
          _ ≤ flpos y := le_flpos_bot y _ rfl hy2
      · unfold flpos
        rw [heq]
        apply mul_le_mul_of_nonneg_right _ (two_zpow_pos _).le
        have := roundEven_mono (div_le_div_of_nonneg_right h (two_zpow_pos (binade y - 52)).le)
        exact_mod_cast this
    · rw [← h0, flpos_zero]
      exact flpos_nonneg (le_trans hx h)
  unfold fl64
  by_cases hx : 0 ≤ x
  · rw [if_pos hx, if_pos (le_trans hx h)]
    exact flpos_mono hx h
  · rw [if_neg hx]
    have hx' : 0 ≤ -x := by linarith
    by_cases hy : 0 ≤ y
    · rw [if_pos hy]
      have := flpos_nonneg hx'
      have := flpos_nonneg hy
      linarith
    · rw [if_neg hy]
      have := flpos_mono (x := -y) (y := -x) (by linarith) (by linarith)
      linarith

/-- A power of two from `2 ^ (-1022)` on is a double. -/
theorem fl64_two_zpow (e : Int) (he : -1022 ≤ e) : fl64 ((2 : α) ^ e) = 2 ^ e := by
  rw [fl64_of_nonneg (two_zpow_pos e).le]
  have hb : binade ((2 : α) ^ e) = e :=
    binade_eq _ e he le_rfl (zpow_lt_zpow_right₀ (by norm_num) (by omega))
  apply flpos_of_int _ e (2 ^ 52) hb
  rw [two_pow_cast]
  have := zpow_split (α := α) e 52
  rw [← this]
  norm_cast

theorem fl64_one : fl64 (1 : α) = 1 := by
  have := fl64_two_zpow (α := α) 0 (by norm_num)
  simpa using this

end
end DPP

namespace DPP

section
variable {α : Type} [LinearOrderedField α] [FloorRing α]

theorem fl64_idem (x : α) : fl64 (fl64 x) = fl64 x := by
  have flpos_idem {x : α} (hx : 0 ≤ x) : flpos (flpos x) = flpos x := by
    -- The exponent of a positive number below `2 ^ (e + 1)` that is at least `2 ^ e`, or
    -- subnormal.
    have binade_of (y : α) (e : Int) (hy : 0 < y) (he : -1022 ≤ e) (h2 : y < 2 ^ (e + 1))
        (h1 : 2 ^ e ≤ y ∨ e = -1022) : binade y = e := by
      have binade_sub (x : α) (h1 : 0 < x) (h2 : x < 2 ^ (-1021 : Int)) :
          binade x = -1022 := by
        unfold binade
        have : Int.log 2 x < -1021 := by
          rw [← Int.lt_zpow_iff_log_lt (by norm_num) h1]
          simpa using h2
        exact max_eq_right (by omega)
      rcases h1 with h1 | h1
      · exact binade_eq y e he h1 h2
      · subst h1
        exact binade_sub y hy (by simpa using h2)
    have hu := two_zpow_pos (α := α) (binade x - 52)
    have hm0 : 0 ≤ roundEven (x / 2 ^ (binade x - 52)) :=
      roundEven_nonneg (div_nonneg hx hu.le)
    have hy : flpos x = ((roundEven (x / 2 ^ (binade x - 52)) : Int) : α)
        * 2 ^ (binade x - 52) := rfl
    have htop := flpos_le_top x hx
    rcases hm0.lt_or_eq with hpos | hzero
    · have hxpos : 0 < x := by
        rcases hx.lt_or_eq with h | h
        · exact h
        · exfalso
          rw [← h, zero_div] at hpos
          have := roundEven_intCast (α := α) 0
          simp only [Int.cast_zero] at this
          omega
      have hypos : 0 < flpos x := by
        rw [hy]
        exact mul_pos (by exact_mod_cast hpos) hu
      rcases htop.lt_or_eq with hlt | heq
      · have hb : binade (flpos x) = binade x := by
          apply binade_of _ _ hypos (binade_ge x) hlt
          by_cases hc : binade x = -1022
          · exact Or.inr hc
          · left
            apply le_flpos_bot x _ rfl
            have hbx : binade x = Int.log 2 x := by
              unfold binade at hc ⊢
              apply max_eq_left
              by_contra h
              exact hc (max_eq_right (by omega))
            rw [hbx]
            have := Int.zpow_log_le_self (b := 2) (by norm_num) hxpos
            simpa using this
        exact flpos_of_int _ _ _ hb hy
      · rw [heq]
        have := fl64_two_zpow (α := α) (binade x + 1) (by have := binade_ge x; omega)
        rw [fl64_of_nonneg (two_zpow_pos _).le] at this
        exact this
    · have : flpos x = 0 := by
        rw [hy, ← hzero]
        simp
      rw [this, flpos_zero]
  by_cases hx : 0 ≤ x
  · rw [fl64_of_nonneg hx, fl64_of_nonneg (flpos_nonneg hx), flpos_idem hx]
  · have hx' : 0 ≤ -x := by linarith
    have hz := flpos_nonneg hx'
    have e1 : fl64 x = -flpos (-x) := by
      unfold fl64
      rw [if_neg hx]
    rw [e1]
    rcases hz.lt_or_eq with hpos | hzero
    · unfold fl64
      rw [if_neg (by linarith), neg_neg, flpos_idem hx']
    · rw [← hzero]
      simp [fl64_zero]

end
end DPP

namespace DPP

/-- The numbers `4`, `100` and `1 + 2 ^ (-52)` are doubles. -/
theorem double_facts {α : Type} [LinearOrderedField α] [FloorRing α] :
    fl64 (4 : α) = 4 ∧ fl64 (100 : α) = 100 ∧
    fl64 (1 + 2 ^ (-52 : Int) : α) = 1 + 2 ^ (-52 : Int) := by
  have f4 : fl64 (4 : α) = 4 := by
    have := fl64_two_zpow (α := α) 2 (by norm_num)
    norm_num at this
    exact this
  have f100 : fl64 (100 : α) = 100 := by
    rw [fl64_of_nonneg (by norm_num)]
    have hb : binade (100 : α) = 6 := binade_eq _ 6 (by norm_num) (by norm_num) (by norm_num)
    apply flpos_of_int _ 6 (100 * 2 ^ 46) hb
    rw [Int.cast_mul, two_pow_cast]
    have : (2 : α) ^ 46 * 2 ^ ((6 : Int) - 52) = 1 := by
      rw [← zpow_natCast, ← zpow_add₀ (by norm_num : (2 : α) ≠ 0)]
      norm_num
    rw [mul_assoc, this]
    norm_num
  have f1u : fl64 (1 + 2 ^ (-52 : Int) : α) = 1 + 2 ^ (-52 : Int) := by
    have hp := two_zpow_pos (α := α) (-52)
    have h1 : (2 : α) ^ (-52 : Int) < 1 := by
      have := zpow_lt_zpow_right₀ (a := (2 : α)) (by norm_num) (show (-52 : Int) < 0 by norm_num)
      simpa using this
    rw [fl64_of_nonneg (by linarith)]
    have hb : binade (1 + 2 ^ (-52 : Int) : α) = 0 :=
      binade_eq _ 0 (by norm_num) (by simp only [zpow_zero]; linarith)
        (by norm_num)
    apply flpos_of_int _ 0 (2 ^ 52 + 1) hb
    rw [Int.cast_add, Int.cast_one, two_pow_cast, add_mul, one_mul]
    have : (2 : α) ^ 52 * 2 ^ ((0 : Int) - 52) = 1 := by
      rw [← zpow_natCast, ← zpow_add₀ (by norm_num : (2 : α) ≠ 0)]
      norm_num
    rw [this]
    norm_num
  exact ⟨f4, f100, f1u⟩

/-- The logarithm in doubles, `std::log` taken as the double nearest to the logarithm, at
the numbers the examples use: the logarithm of `1 + 2 ^ (-52)` lies between `2 ^ (-53)` and
`2 ^ (-52)` and so does its double; the logarithm of `100` lies between `4` and `5` and so
does its double; the double logarithm of a double above `1` is at least `2 ^ (-53)`, and
that of a positive number below `2 ^ 1024` is at most `2 ^ 10`; and the double sum of the
double logarithms of `100` and of `1 + 2 ^ (-52)` is the double logarithm of `100`. -/
theorem log64_facts :
    (2 : ℝ) ^ (-53 : Int) ≤ Real.log (1 + 2 ^ (-52 : Int)) ∧
    Real.log (1 + 2 ^ (-52 : Int)) ≤ (2 : ℝ) ^ (-52 : Int) ∧
    (4 : ℝ) ≤ Real.log 100 ∧ Real.log 100 ≤ (5 : ℝ) ∧
    (∀ v : ℝ, fl64 v = v → 1 < v → (2 : ℝ) ^ (-53 : Int) ≤ fl64 (Real.log v)) ∧
    (∀ v : ℝ, 0 < v → v < 2 ^ (1024 : Nat) → fl64 (Real.log v) ≤ (2 : ℝ) ^ (10 : Int)) ∧
    (0 < fl64 (Real.log (1 + 2 ^ (-52 : Int))) ∧
      fl64 (Real.log (1 + 2 ^ (-52 : Int))) ≤ (2 : ℝ) ^ (-52 : Int)) ∧
    ((4 : ℝ) ≤ fl64 (Real.log 100) ∧ fl64 (Real.log 100) ≤ 5) ∧
    fl64 (fl64 (Real.log 100) + fl64 (Real.log (1 + 2 ^ (-52 : Int))))
      = fl64 (Real.log 100) := by
  -- A sum of a double in `[4, 5]` and of a number of at most `2 ^ (-52)` rounds to the
  -- double.
  have fl64_absorb {α : Type} [LinearOrderedField α] [FloorRing α] (x b : α) (h4 : 4 ≤ x) (h5 : x ≤ 5) (hb0 : 0 ≤ b)
      (hb : b ≤ 2 ^ (-52 : Int)) : fl64 (fl64 x + b) = fl64 x := by
    have hx0 : (0 : α) ≤ x := by linarith
    have hbx : binade x = 2 := binade_eq x 2 (by norm_num) (by norm_num; linarith)
      (by norm_num; linarith)
    have hy : flpos x = ((roundEven (x / 2 ^ (binade x - 52)) : Int) : α)
        * 2 ^ (binade x - 52) := rfl
    rw [hbx] at hy
    have e50 : (2 : α) ^ ((2 : Int) - 52) = 2 ^ (-50 : Int) := by norm_num
    rw [e50] at hy
    have hp := two_zpow_pos (α := α) (-50)
    have hlo : (4 : α) ≤ flpos x := by
      have := le_flpos_bot x 2 hbx (by norm_num; linarith)
      norm_num at this
      exact this
    have one50 : (2 : α) ^ 50 * 2 ^ (-50 : Int) = 1 := by
      rw [← zpow_natCast, ← zpow_add₀ (by norm_num : (2 : α) ≠ 0)]
      norm_num
    have e5 : (((5 * 2 ^ 50 : Int)) : α) * 2 ^ ((2 : Int) - 52) = 5 := by
      rw [Int.cast_mul, two_pow_cast, e50, mul_assoc, one50]
      norm_num
    have hhi : flpos x ≤ 5 := by
      have h := flpos_le_of_le x 2 (5 * 2 ^ 50) hbx (by rw [e5]; exact h5)
      rw [e5] at h
      exact h
    have hb52 : (2 : α) ^ (-52 : Int) ≤ 1 := by
      have := two_zpow_le (α := α) (a := -52) (b := 0) (by norm_num)
      simpa using this
    rw [fl64_of_nonneg hx0, fl64_of_nonneg (by linarith)]
    have hbs : binade (flpos x + b) = 2 := binade_eq _ 2 (by norm_num)
      (by norm_num; linarith) (by norm_num; linarith)
    have hq : (flpos x + b) / 2 ^ (-50 : Int)
        = ((roundEven (x / 2 ^ (-50 : Int)) : Int) : α) + b / 2 ^ (-50 : Int) := by
      rw [add_div]
      congr 1
      rw [hy]
      field_simp
    have hδ0 : 0 ≤ b / 2 ^ (-50 : Int) := div_nonneg hb0 hp.le
    have hδ1 : b / 2 ^ (-50 : Int) < 1 / 2 := by
      rw [div_lt_iff₀ hp]
      have : (2 : α) ^ (-52 : Int) = 1 / 4 * 2 ^ (-50 : Int) := by
        rw [show (-52 : Int) = -2 + -50 by norm_num, zpow_add₀ (by norm_num : (2 : α) ≠ 0)]
        norm_num
      rw [this] at hb
      nlinarith
    have hr := roundEven_absorb (α := α) (roundEven (x / 2 ^ (-50 : Int))) _ hδ0 hδ1
    rw [← hq] at hr
    have : flpos (flpos x + b) = ((roundEven ((flpos x + b) / 2 ^ (binade (flpos x + b) - 52)) :
        Int) : α) * 2 ^ (binade (flpos x + b) - 52) := rfl
    rw [this, hbs, e50, hr, hy]
  -- The doubles above `1` start at `1 + 2 ^ (-52)`.
  have double_gt_one {α : Type} [LinearOrderedField α] [FloorRing α] (v : α) (h : fl64 v = v) (h1 : 1 < v) : 1 + 2 ^ (-52 : Int) ≤ v := by
    by_cases h2 : v < 2
    · have hb : binade v = 0 := binade_eq v 0 (by norm_num) (by simpa using h1.le)
        (by simpa using h2)
      rw [fl64_of_nonneg (by linarith)] at h
      have hy : flpos v = ((roundEven (v / 2 ^ (binade v - 52)) : Int) : α)
          * 2 ^ (binade v - 52) := rfl
      rw [hb] at hy
      have e52 : (2 : α) ^ ((0 : Int) - 52) = 2 ^ (-52 : Int) := by norm_num
      rw [e52] at hy
      have hp := two_zpow_pos (α := α) (-52)
      have hm : (2 : Int) ^ 52 < roundEven (v / 2 ^ (-52 : Int)) := by
        have : ((2 : Int) ^ 52 : Int) * (2 : α) ^ (-52 : Int)
            < ((roundEven (v / 2 ^ (-52 : Int)) : Int) : α) * 2 ^ (-52 : Int) := by
          rw [← hy, h, two_pow_cast]
          have : (2 : α) ^ 52 * 2 ^ (-52 : Int) = 1 := by
            rw [← zpow_natCast, ← zpow_add₀ (by norm_num : (2 : α) ≠ 0)]
            norm_num
          rw [this]
          exact h1
        have h3 := lt_of_mul_lt_mul_right this hp.le
        exact_mod_cast h3
      have hm' : (2 : Int) ^ 52 + 1 ≤ roundEven (v / 2 ^ (-52 : Int)) := by omega
      have : (((2 : Int) ^ 52 + 1 : Int) : α) * 2 ^ (-52 : Int) ≤ v := by
        rw [← h, hy]
        apply mul_le_mul_of_nonneg_right _ hp.le
        exact_mod_cast hm'
      have e2 : (((2 : Int) ^ 52 + 1 : Int) : α) * 2 ^ (-52 : Int) = 1 + 2 ^ (-52 : Int) := by
        rw [Int.cast_add, Int.cast_one, two_pow_cast, add_mul, one_mul]
        congr 1
        rw [← zpow_natCast, ← zpow_add₀ (by norm_num : (2 : α) ≠ 0)]
        norm_num
      rw [e2] at this
      exact this
    · have : (2 : α) ^ (-52 : Int) ≤ 1 := by
        have := two_zpow_le (α := α) (a := -52) (b := 0) (by norm_num)
        simpa using this
      linarith
  have log_succ_ulp_ge : (2 : ℝ) ^ (-53 : Int) ≤ Real.log (1 + 2 ^ (-52 : Int)) := by
    have hp : (0 : ℝ) < 2 ^ (-52 : Int) := two_zpow_pos _
    have h1 : (2 : ℝ) ^ (-52 : Int) ≤ 1 := by
      have := two_zpow_le (α := ℝ) (a := -52) (b := 0) (by norm_num)
      simpa using this
    have h := Real.one_sub_inv_le_log_of_pos (x := 1 + 2 ^ (-52 : Int)) (by linarith)
    refine le_trans ?_ h
    have e : (2 : ℝ) ^ (-53 : Int) = 2 ^ (-52 : Int) / 2 := by
      rw [show (-53 : Int) = -52 - 1 by norm_num, zpow_sub₀ (by norm_num : (2 : ℝ) ≠ 0)]
      simp
    rw [e, inv_eq_one_div, le_sub_iff_add_le, ← le_sub_iff_add_le', div_le_iff₀ (by linarith)]
    nlinarith
  have log_succ_ulp_le : Real.log (1 + 2 ^ (-52 : Int)) ≤ (2 : ℝ) ^ (-52 : Int) := by
    have hp : (0 : ℝ) < 2 ^ (-52 : Int) := two_zpow_pos _
    have := Real.log_le_sub_one_of_pos (x := 1 + 2 ^ (-52 : Int)) (by linarith)
    linarith
  have log_hundred_ge : (4 : ℝ) ≤ Real.log 100 := by
    rw [Real.le_log_iff_exp_le (by norm_num)]
    have h := Real.exp_one_lt_d9
    have e : Real.exp 4 = Real.exp 1 ^ 4 := by
      rw [← Real.exp_nat_mul]
      norm_num
    rw [e]
    have h0 : (0 : ℝ) ≤ Real.exp 1 := (Real.exp_pos 1).le
    calc Real.exp 1 ^ 4 ≤ (2.7182818286 : ℝ) ^ 4 := pow_le_pow_left h0 h.le 4
      _ ≤ 100 := by norm_num
  have log_hundred_le : Real.log 100 ≤ (5 : ℝ) := by
    rw [Real.log_le_iff_le_exp (by norm_num)]
    have h := Real.exp_one_gt_d9
    have e : Real.exp 5 = Real.exp 1 ^ 5 := by
      rw [← Real.exp_nat_mul]
      norm_num
    rw [e]
    calc (100 : ℝ) ≤ (2.7182818283 : ℝ) ^ 5 := by norm_num
      _ ≤ Real.exp 1 ^ 5 := pow_le_pow_left (by norm_num) h.le 5
  have log64_pos : ∀ v : ℝ, fl64 v = v → 1 < v →
      (2 : ℝ) ^ (-53 : Int) ≤ fl64 (Real.log v) := by
    intro v h h1
    have hv := double_gt_one v h h1
    have hlog : (2 : ℝ) ^ (-53 : Int) ≤ Real.log v :=
      le_trans log_succ_ulp_ge (Real.log_le_log (by
        have := two_zpow_pos (α := ℝ) (-52)
        linarith) hv)
    have := fl64_mono hlog
    rw [fl64_two_zpow (-53) (by norm_num)] at this
    exact this
  have log64_le : ∀ v : ℝ, 0 < v → v < 2 ^ (1024 : Nat) →
      fl64 (Real.log v) ≤ (2 : ℝ) ^ (10 : Int) := by
    intro v h0 h
    have h1 := Real.log_lt_log h0 h
    rw [Real.log_pow] at h1
    have h2 : Real.log 2 ≤ 1 := by
      have := Real.log_le_sub_one_of_pos (x := 2) (by norm_num)
      linarith
    have h3 : Real.log v ≤ 2 ^ (10 : Int) := by
      have : ((1024 : Nat) : ℝ) * Real.log 2 ≤ 2 ^ (10 : Int) := by
        norm_num
        linarith
      linarith
    have := fl64_mono h3
    rw [fl64_two_zpow (10) (by norm_num)] at this
    exact this
  have log64_succ_ulp : 0 < fl64 (Real.log (1 + 2 ^ (-52 : Int))) ∧
      fl64 (Real.log (1 + 2 ^ (-52 : Int))) ≤ (2 : ℝ) ^ (-52 : Int) := by
    constructor
    · have := fl64_mono log_succ_ulp_ge
      rw [fl64_two_zpow (-53) (by norm_num)] at this
      exact lt_of_lt_of_le (two_zpow_pos _) this
    · have := fl64_mono log_succ_ulp_le
      rw [fl64_two_zpow (-52) (by norm_num)] at this
      exact this
  have log64_hundred : (4 : ℝ) ≤ fl64 (Real.log 100) ∧ fl64 (Real.log 100) ≤ 5 := by
    constructor
    · have := fl64_mono log_hundred_ge
      have e : fl64 (4 : ℝ) = 4 := by
        have := fl64_two_zpow (α := ℝ) 2 (by norm_num)
        norm_num at this
        exact this
      rw [e] at this
      exact this
    · have h := fl64_absorb (Real.log 100) 0 log_hundred_ge log_hundred_le le_rfl
        (two_zpow_pos _).le
      have hx0 : (0 : ℝ) ≤ Real.log 100 := le_trans (by norm_num) log_hundred_ge
      have hbx : binade (Real.log 100) = 2 := binade_eq _ 2 (by norm_num)
        (by norm_num; exact log_hundred_ge)
        (by norm_num; exact lt_of_le_of_lt log_hundred_le (by norm_num))
      have e5 : (((5 * 2 ^ 50 : Int)) : ℝ) * 2 ^ ((2 : Int) - 52) = 5 := by
        rw [Int.cast_mul, two_pow_cast, mul_assoc]
        have : (2 : ℝ) ^ 50 * 2 ^ ((2 : Int) - 52) = 1 := by
          rw [← zpow_natCast, ← zpow_add₀ (by norm_num : (2 : ℝ) ≠ 0)]
          norm_num
        rw [this]
        norm_num
      rw [fl64_of_nonneg hx0]
      have h2 := flpos_le_of_le (Real.log 100) 2 (5 * 2 ^ 50) hbx (by
        rw [e5]; exact log_hundred_le)
      rw [e5] at h2
      exact h2
  exact ⟨log_succ_ulp_ge, log_succ_ulp_le, log_hundred_ge, log_hundred_le, log64_pos,
    log64_le, log64_succ_ulp, log64_hundred,
    fl64_absorb (Real.log 100) _ log_hundred_ge log_hundred_le log64_succ_ulp.1.le
      log64_succ_ulp.2⟩

end DPP

namespace DPP

/-- C30, as amended: the acceptance probability of double greedy is well defined.  For all
gains `v ≥ 0` and `v_inv ≥ 0` that are doubles below `2 ^ 1024`, with every result rounded
to the nearest double: `mg` and `mg_inv` are the larger of `0` and the logarithm (minus
infinity for the gain `0`) and are not negative; when they are not both zero, the
denominator `mg + mg_inv` of the division is positive; `p` lies in `[0, 1]`; `p = 1`
whenever `mg_inv = 0`, both being zero included; and `p = 0` exactly when
`mg = 0 < mg_inv`.  Every iteration of the loop of `double_greedy` draws with this `p`. -/
theorem acceptance_probability (v v_inv : ℝ) (hv : 0 ≤ v) (hvi : 0 ≤ v_inv)
    (hdv : fl64 v = v) (hdvi : fl64 v_inv = v_inv) (hbv : v < 2 ^ (1024 : Nat))
    (hbvi : v_inv < 2 ^ (1024 : Nat)) :
    0 ≤ double_greedy_mg (fun x => fl64 (Real.log x)) v ∧
    0 ≤ double_greedy_mg (fun x => fl64 (Real.log x)) v_inv ∧
    (∃ w : WithBot ℝ, dlog (fun x => fl64 (Real.log x)) (some v) = some w ∧
      ((double_greedy_mg (fun x => fl64 (Real.log x)) v : ℝ) : WithBot ℝ) = max 0 w) ∧
    (∃ w : WithBot ℝ, dlog (fun x => fl64 (Real.log x)) (some v_inv) = some w ∧
      ((double_greedy_mg (fun x => fl64 (Real.log x)) v_inv : ℝ) : WithBot ℝ) = max 0 w) ∧
    (¬ (double_greedy_mg (fun x => fl64 (Real.log x)) v = 0 ∧
        double_greedy_mg (fun x => fl64 (Real.log x)) v_inv = 0) →
      0 < fl64 (double_greedy_mg (fun x => fl64 (Real.log x)) v
        + double_greedy_mg (fun x => fl64 (Real.log x)) v_inv)) ∧
    0 ≤ double_greedy_p_fl fl64 (fun x => fl64 (Real.log x)) v v_inv ∧
    double_greedy_p_fl fl64 (fun x => fl64 (Real.log x)) v v_inv ≤ 1 ∧
    (double_greedy_mg (fun x => fl64 (Real.log x)) v_inv = 0 →
      double_greedy_p_fl fl64 (fun x => fl64 (Real.log x)) v v_inv = 1) ∧
    (double_greedy_p_fl fl64 (fun x => fl64 (Real.log x)) v v_inv = 0 ↔
      (double_greedy_mg (fun x => fl64 (Real.log x)) v = 0 ∧
        0 < double_greedy_mg (fun x => fl64 (Real.log x)) v_inv)) ∧
    ∀ (σ : Type) (oops oops_inv : OracleOps σ ℝ) (n : Nat) (param : Param ℝ)
      (clock : Nat → ℝ) (rng : Nat → Nat) (m i : Nat) (o oi : σ),
      double_greedy_loop_fl fl64 (fun x => fl64 (Real.log x)) oops oops_inv n param clock rng
          (m + 1) i o oi
        = if expired param (clock i) then .ok Result.unfinished
          else double_greedy_loop_fl fl64 (fun x => fl64 (Real.log x)) oops oops_inv n param
            clock rng m (i + 1)
            (if bernoulli (double_greedy_p_fl fl64 (fun x => fl64 (Real.log x))
                (oops.compute_marginal_gain_exponential o i).1
                (oops_inv.compute_marginal_gain_exponential oi i).1) (rng i) = true
              then (oops.add (oops.compute_marginal_gain_exponential o i).2 i,
                (oops_inv.compute_marginal_gain_exponential oi i).2)
              else ((oops.compute_marginal_gain_exponential o i).2,
                oops_inv.add (oops_inv.compute_marginal_gain_exponential oi i).2 i)).1
            (if bernoulli (double_greedy_p_fl fl64 (fun x => fl64 (Real.log x))
                (oops.compute_marginal_gain_exponential o i).1
                (oops_inv.compute_marginal_gain_exponential oi i).1) (rng i) = true
              then (oops.add (oops.compute_marginal_gain_exponential o i).2 i,
                (oops_inv.compute_marginal_gain_exponential oi i).2)
              else ((oops.compute_marginal_gain_exponential o i).2,
                oops_inv.add (oops_inv.compute_marginal_gain_exponential oi i).2 i)).2 := by
  -- The gain `mg` of `double_greedy` with the rounded logarithm: it is not negative and
  -- is the larger of `0` and the logarithm; for a double `v` below `2 ^ 1024` it is a double
  -- that is `0` or lies between `2 ^ (-53)` and `2 ^ 10`.
  have double_greedy_mg_fl (v : ℝ) :
      0 ≤ double_greedy_mg (fun x => fl64 (Real.log x)) v ∧
      (0 ≤ v → ∃ w : WithBot ℝ, dlog (fun x => fl64 (Real.log x)) (some v) = some w ∧
        ((double_greedy_mg (fun x => fl64 (Real.log x)) v : ℝ) : WithBot ℝ) = max 0 w) ∧
      fl64 (double_greedy_mg (fun x => fl64 (Real.log x)) v)
        = double_greedy_mg (fun x => fl64 (Real.log x)) v ∧
      (fl64 v = v → v < 2 ^ (1024 : Nat) →
        double_greedy_mg (fun x => fl64 (Real.log x)) v ≤ 2 ^ (10 : Int) ∧
        (double_greedy_mg (fun x => fl64 (Real.log x)) v ≠ 0 →
          (2 : ℝ) ^ (-53 : Int) ≤ double_greedy_mg (fun x => fl64 (Real.log x)) v)) := by
    unfold double_greedy_mg
    by_cases h1 : 1 < v
    · simp only [if_pos h1]
      have hl : 0 ≤ fl64 (Real.log v) := fl64_nonneg (Real.log_nonneg h1.le)
      refine ⟨hl, ?_, fl64_idem _, ?_⟩
      · intro h0
        refine ⟨((fl64 (Real.log v) : ℝ) : WithBot ℝ), ?_, ?_⟩
        · simp [dlog, not_lt.mpr h0, (lt_trans zero_lt_one h1).ne']
        · rw [max_eq_right]
          exact_mod_cast hl
      · intro hr hb
        exact ⟨log64_facts.2.2.2.2.2.1 v (by linarith) hb,
          fun _ => log64_facts.2.2.2.2.1 v hr h1⟩
    · simp only [if_neg h1]
      refine ⟨le_rfl, ?_, fl64_zero, ?_⟩
      · intro h0
        rcases h0.lt_or_eq with hpos | hzero
        · refine ⟨((fl64 (Real.log v) : ℝ) : WithBot ℝ), ?_, ?_⟩
          · simp [dlog, not_lt.mpr h0, hpos.ne']
          · rw [max_eq_left]
            · rfl
            · have : fl64 (Real.log v) ≤ 0 := by
                have := fl64_mono (Real.log_nonpos h0 (not_lt.mp h1))
                rw [fl64_zero] at this
                exact this
              exact_mod_cast this
        · refine ⟨⊥, ?_, ?_⟩
          · simp [dlog, ← hzero]
          · simp
      · intro _ _
        exact ⟨by positivity, fun h => absurd rfl h⟩
  -- The probability `p` in doubles from two gains `a` and `b` that are doubles, each `0`
  -- or between `2 ^ (-53)` and `2 ^ 10`.
  have double_greedy_p_fl_spec {α : Type} [LinearOrderedField α] [FloorRing α]
      (a b : α) (ha : 0 ≤ a) (hb : 0 ≤ b) (hfa : fl64 a = a)
      (hau : a ≤ 2 ^ (10 : Int)) (hbu : b ≤ 2 ^ (10 : Int))
      (hal : a ≠ 0 → (2 : α) ^ (-53 : Int) ≤ a) (hbl : b ≠ 0 → (2 : α) ^ (-53 : Int) ≤ b) :
      (¬ (a = 0 ∧ b = 0) → 0 < fl64 (a + b)) ∧
      0 ≤ (if a = 0 ∧ b = 0 then (1 : α) else fl64 (a / fl64 (a + b))) ∧
      (if a = 0 ∧ b = 0 then (1 : α) else fl64 (a / fl64 (a + b))) ≤ 1 ∧
      (b = 0 → (if a = 0 ∧ b = 0 then (1 : α) else fl64 (a / fl64 (a + b))) = 1) ∧
      ((if a = 0 ∧ b = 0 then (1 : α) else fl64 (a / fl64 (a + b))) = 0 ↔ (a = 0 ∧ 0 < b)) := by
    have h53 := two_zpow_pos (α := α) (-53)
    have hsum : ¬ (a = 0 ∧ b = 0) → (2 : α) ^ (-53 : Int) ≤ fl64 (a + b) := by
      intro h
      have : (2 : α) ^ (-53 : Int) ≤ a + b := by
        by_cases h1 : a = 0
        · have := hbl (fun h2 => h ⟨h1, h2⟩)
          linarith
        · have := hal h1
          linarith
      have := fl64_mono this
      rw [fl64_two_zpow (-53) (by norm_num)] at this
      exact this
    have hge : a ≤ fl64 (a + b) := by
      have := fl64_mono (show a ≤ a + b by linarith)
      rw [hfa] at this
      exact this
    have hle : fl64 (a + b) ≤ 2 ^ (11 : Int) := by
      have : a + b ≤ 2 ^ (11 : Int) := by
        have : (2 : α) ^ (11 : Int) = 2 ^ (10 : Int) + 2 ^ (10 : Int) := by norm_num
        linarith
      have := fl64_mono this
      rw [fl64_two_zpow (11) (by norm_num)] at this
      exact this
    refine ⟨fun h => lt_of_lt_of_le h53 (hsum h), ?_⟩
    by_cases h : a = 0 ∧ b = 0
    · rw [if_pos h]
      refine ⟨zero_le_one, le_rfl, fun _ => rfl, ⟨fun h1 => absurd h1 one_ne_zero, fun h1 => ?_⟩⟩
      rw [h.2] at h1
      exact absurd h1.2 (lt_irrefl _)
    · rw [if_neg h]
      have hs : 0 < fl64 (a + b) := lt_of_lt_of_le h53 (hsum h)
      refine ⟨fl64_nonneg (div_nonneg ha hs.le), ?_, ?_, ?_⟩
      · have := fl64_mono ((div_le_one hs).mpr hge)
        rw [fl64_one] at this
        exact this
      · intro hb0
        have ha0 : a ≠ 0 := fun h1 => h ⟨h1, hb0⟩
        rw [hb0, add_zero, hfa, div_self ha0, fl64_one]
      · constructor
        · intro hp
          by_cases ha0 : a = 0
          · refine ⟨ha0, lt_of_le_of_ne hb (fun h1 => h ⟨ha0, h1.symm⟩)⟩
          · exfalso
            have h1 : (2 : α) ^ (-64 : Int) ≤ a / fl64 (a + b) := by
              rw [le_div_iff₀ hs]
              have e : (2 : α) ^ (-53 : Int) = 2 ^ (-64 : Int) * 2 ^ (11 : Int) := by
                rw [← zpow_add₀ (by norm_num : (2 : α) ≠ 0)]
                norm_num
              have h64 := two_zpow_pos (α := α) (-64)
              calc (2 : α) ^ (-64 : Int) * fl64 (a + b)
                  ≤ 2 ^ (-64 : Int) * 2 ^ (11 : Int) := mul_le_mul_of_nonneg_left hle h64.le
                _ = 2 ^ (-53 : Int) := e.symm
                _ ≤ a := hal ha0
            have := fl64_mono h1
            rw [fl64_two_zpow (-64) (by norm_num), hp] at this
            have h64 := two_zpow_pos (α := α) (-64)
            linarith
        · intro hp
          rw [hp.1, zero_div, fl64_zero]
  obtain ⟨a1, a2, a3, a4⟩ := double_greedy_mg_fl v
  obtain ⟨b1, b2, b3, b4⟩ := double_greedy_mg_fl v_inv
  obtain ⟨a5, a6⟩ := a4 hdv hbv
  obtain ⟨b5, b6⟩ := b4 hdvi hbvi
  obtain ⟨p1, p2, p3, p4, p5⟩ := double_greedy_p_fl_spec _ _ a1 b1 a3 a5 b5 a6 b6
  exact ⟨a1, b1, a2 hv, b2 hvi, p1, p2, p3, p4, p5,
    fun σ oops oops_inv n param clock rng m i o oi => rfl⟩

/-- Witness of C30: the gains `4` and `1 / 4` of element `0` of
`diag(4, 3, 2, 0.5, 0.25, 0.125, 0.1, 0.1)` and of its inverse are doubles and give
`p = 1`. -/
theorem acceptance_probability_witness :
    double_greedy_p_fl fl64 (fun x => fl64 (Real.log x)) (4 : ℝ) (1 / 4) = 1 := by
  have e4 : fl64 (4 : ℝ) = 4 := by
    have := fl64_two_zpow (α := ℝ) 2 (by norm_num)
    norm_num at this
    exact this
  have e14 : fl64 (1 / 4 : ℝ) = 1 / 4 := by
    have := fl64_two_zpow (α := ℝ) (-2) (by norm_num)
    norm_num at this
    norm_num
    exact this
  have h := (acceptance_probability 4 (1 / 4) (by norm_num) (by norm_num) e4 e14
    (by norm_num) (by norm_num)).2.2.2.2.2.2.2.1
  apply h
  unfold double_greedy_mg
  rw [if_neg (by norm_num)]

/-- Counterexample to C30: the gains `v = 100` and `v_inv = 1 + 2 ^ (-52)` are doubles;
`mg_inv`, the double `std::log(v_inv)`, is positive; the sum `mg + mg_inv` rounds to `mg`,
so that the quotient is `1`: `p = 1` although `mg_inv` is not `0`. -/
theorem acceptance_probability_counterexample :
    fl64 (100 : ℝ) = 100 ∧ fl64 (1 + 2 ^ (-52 : Int) : ℝ) = 1 + 2 ^ (-52 : Int) ∧
    0 < double_greedy_mg (fun x => fl64 (Real.log x)) (1 + 2 ^ (-52 : Int)) ∧
    fl64 (double_greedy_mg (fun x => fl64 (Real.log x)) 100
        + double_greedy_mg (fun x => fl64 (Real.log x)) (1 + 2 ^ (-52 : Int)))
      = double_greedy_mg (fun x => fl64 (Real.log x)) 100 ∧
    double_greedy_p_fl fl64 (fun x => fl64 (Real.log x)) 100 (1 + 2 ^ (-52 : Int)) = 1 ∧
    ¬ (double_greedy_p_fl fl64 (fun x => fl64 (Real.log x)) 100 (1 + 2 ^ (-52 : Int)) = 1 ↔
      double_greedy_mg (fun x => fl64 (Real.log x)) (1 + 2 ^ (-52 : Int)) = 0) := by
  have hp := two_zpow_pos (α := ℝ) (-52)
  have hg : (1 : ℝ) < 1 + 2 ^ (-52 : Int) := by linarith
  obtain ⟨_, _, log_hundred_ge, log_hundred_le, _, _, ⟨b0, b1⟩, ⟨a4, a5⟩, habs⟩ := log64_facts
  have emg : double_greedy_mg (fun x => fl64 (Real.log x)) (100 : ℝ) = fl64 (Real.log 100) := by
    unfold double_greedy_mg
    rw [if_pos (by norm_num)]
  have emgi : double_greedy_mg (fun x => fl64 (Real.log x)) (1 + 2 ^ (-52 : Int) : ℝ)
      = fl64 (Real.log (1 + 2 ^ (-52 : Int))) := by
    unfold double_greedy_mg
    rw [if_pos hg]
  have hpe : double_greedy_p_fl fl64 (fun x => fl64 (Real.log x)) 100
      (1 + 2 ^ (-52 : Int)) = 1 := by
    unfold double_greedy_p_fl
    rw [emg, emgi, if_neg (fun h => by linarith [h.1]), habs,
      div_self (by linarith), fl64_one]
  refine ⟨double_facts.2.1, double_facts.2.2, by rw [emgi]; exact b0, by rw [emg, emgi]; exact habs,
    hpe, ?_⟩
  intro h
  have := h.mp hpe
  rw [emgi] at this
  linarith

end DPP

namespace DPP

section
variable {σ α : Type} [LinearOrderedField α]

/-! The strategies call only `compute_marginal_gain_exponential` and
`get_last_marginal_gain_exponential` of their oracle. -/

theorem nonlazy_ops_congr (ord : List Nat → List Nat) (A B : OracleOps σ α)
    (hc : A.compute_marginal_gain_exponential = B.compute_marginal_gain_exponential) :
    NonLazy.ops ord A = NonLazy.ops ord B := by
  have nonlazy_scan_congr (A B : OracleOps σ α)
      (hc : A.compute_marginal_gain_exponential = B.compute_marginal_gain_exponential) :
      ∀ (l : List Nat) (h : List (ElementValuePair α)) (o : σ),
        NonLazy.scan A l h o = NonLazy.scan B l h o := by
    intro l
    induction l with
    | nil => intro h o; rfl
    | cons e es ih =>
      intro h o
      simp only [NonLazy.scan, hc, ih]
  have nonlazy_fill_congr (A B : OracleOps σ α)
      (hc : A.compute_marginal_gain_exponential = B.compute_marginal_gain_exponential) :
      ∀ (l : List Nat) (o : σ), NonLazy.fill A l o = NonLazy.fill B l o := by
    intro l
    induction l with
    | nil => intro o; rfl
    | cons e es ih =>
      intro o
      simp only [NonLazy.fill, hc, ih]
  have hk : NonLazy.pop_kth_largest A = NonLazy.pop_kth_largest B := by
    funext s o i
    simp only [NonLazy.pop_kth_largest, nonlazy_fill_congr A B hc, nonlazy_scan_congr A B hc]
  have hp : NonLazy.pop_largest A = NonLazy.pop_largest B := by
    funext s o
    simp only [NonLazy.pop_largest, hk]
  simp only [NonLazy.ops, hk, hp]

theorem lazy_ops_congr (ord : List Nat → List Nat) (A B : OracleOps σ α)
    (hc : A.compute_marginal_gain_exponential = B.compute_marginal_gain_exponential)
    (hl : A.get_last_marginal_gain_exponential = B.get_last_marginal_gain_exponential) :
    Lazy.ops ord A = Lazy.ops ord B := by
  have lazy_pop_congr (A B : OracleOps σ α)
      (hc : A.compute_marginal_gain_exponential = B.compute_marginal_gain_exponential) :
      Lazy.pop_largest A = Lazy.pop_largest B := by
    have lazy_loop_congr (A B : OracleOps σ α)
        (hc : A.compute_marginal_gain_exponential = B.compute_marginal_gain_exponential) :
        ∀ (fuel : Nat) (s : Lazy.Instance α) (o : σ),
          Lazy.pop_largest_loop A fuel s o = Lazy.pop_largest_loop B fuel s o := by
      intro fuel
      induction fuel with
      | zero => intro s o; rfl
      | succ fuel ih =>
        intro s o
        simp only [Lazy.pop_largest_loop, hc, ih]
    funext s o
    simp only [Lazy.pop_largest, lazy_loop_congr A B hc]
  have lazy_push_congr (A B : OracleOps σ α)
      (hl : A.get_last_marginal_gain_exponential = B.get_last_marginal_gain_exponential) :
      ∀ (l : List Nat) (q : List (ElementValuePair α)) (o : σ),
        Lazy.push_recover A l q o = Lazy.push_recover B l q o := by
    intro l
    induction l with
    | nil => intro q o; rfl
    | cons e es ih =>
      intro q o
      simp only [Lazy.push_recover, hl, ih]
  have lazy_recover_congr (A B : OracleOps σ α)
      (hc : A.compute_marginal_gain_exponential = B.compute_marginal_gain_exponential) :
      ∀ (j : Nat) (s : Lazy.Instance α) (o : σ) (rec : List Nat),
        Lazy.pop_recover A j s o rec = Lazy.pop_recover B j s o rec := by
    intro j
    induction j with
    | zero => intro s o rec; rfl
    | succ j ih =>
      intro s o rec
      simp only [Lazy.pop_recover, lazy_pop_congr A B hc, ih]
  have lazy_entries_congr (A B : OracleOps σ α)
      (hl : A.get_last_marginal_gain_exponential = B.get_last_marginal_gain_exponential) :
      ∀ (l : List Nat) (o : σ), Lazy.entries A l o = Lazy.entries B l o := by
    intro l
    induction l with
    | nil => intro o; rfl
    | cons e es ih =>
      intro o
      simp only [Lazy.entries, hl, ih]
  have hp := lazy_pop_congr A B hc
  have hk : Lazy.pop_kth_largest A = Lazy.pop_kth_largest B := by
    funext s o i
    simp only [Lazy.pop_kth_largest, hp, lazy_recover_congr A B hc, lazy_push_congr A B hl]
  have hcn : Lazy.construct A ord = Lazy.construct B ord := by
    funext range b o
    simp only [Lazy.construct, lazy_entries_congr A B hl]
  simp only [Lazy.ops, hk, hp, hcn]

end

section
variable {τ σ α : Type}

/-! The chains of interlace greedy call only `construct` and `add` of their oracle, besides
what their strategies call. -/

theorem interlace_step_congr (sops : StrategyOps τ σ α) (A B : OracleOps σ α)
    (ha : A.add = B.add) (t : Nat) (c : Chains τ σ) :
    interlace_step sops A t c = interlace_step sops B t c := by
  have interlace_half_congr (sops : StrategyOps τ σ α) (A B : OracleOps σ α)
      (ha : A.add = B.add) (a b : Chain τ σ) :
      interlace_half sops A a b = interlace_half sops B a b := by
    simp only [interlace_half, ha]
  have h1 : ∀ a b, interlace_subroutine sops A a b = interlace_subroutine sops B a b := by
    intro a b
    simp only [interlace_subroutine, interlace_half_congr sops A B ha]
  have h2 : ∀ a, interlace_first sops A a = interlace_first sops B a := by
    intro a
    simp only [interlace_first, ha]
  simp only [interlace_step, h1, h2]

theorem interlace_chains_congr (sops : StrategyOps τ σ α) (A B : OracleOps σ α)
    (ha : A.add = B.add) (hn : A.construct = B.construct) (n k : Nat) (param : Param α) :
    ∀ t, interlace_chains sops A n k param t = interlace_chains sops B n k param t := by
  intro t
  induction t with
  | zero => simp only [interlace_chains, Chain.init, hn]
  | succ t ih => simp only [interlace_chains, ih, interlace_step_congr sops A B ha]

theorem interlace_popped_congr (sops : StrategyOps τ σ α) (A B : OracleOps σ α)
    (ha : A.add = B.add) (hn : A.construct = B.construct) (n k : Nat) (param : Param α)
    (t : Nat) :
    interlace_popped sops A n k param t = interlace_popped sops B n k param t := by
  simp only [interlace_popped, interlace_chains_congr sops A B ha hn,
    interlace_step_congr sops A B ha]

end

section
variable {σ α : Type} [LinearOrderedField α]

/-- The oracle with the exact value is what the drivers rely on when `oops` is. -/
theorem unrounded_base (fl log' : α → α) (cell : σ → Nat → Option α) (oops : OracleOps σ α)
    (log : α → α) (Good : σ → Prop) (Holds : σ → Nat → α → Prop)
    (B : OracleBase oops log Good Holds) :
    OracleBase (unrounded fl log' cell oops) log (fun p => Good p.1)
      (fun p e v => Holds p.1 e v) := by
  refine ⟨⟨?_, ?_, ?_, ?_, ?_, ?_⟩, ?_, ?_, ?_, ?_, ?_, ?_, ?_, ?_⟩
  · intro o e
    exact B.law.compute_S o.1 e
  · intro o e
    exact B.law.compute_value o.1 e
  · intro o e
    exact B.law.get_last_S o.1 e
  · intro o e
    exact B.law.get_last_value o.1 e
  · intro o e
    exact B.law.add_S o.1 e
  · intro o e x he
    exact B.law.stable o.1 e x he
  · intro k b
    exact B.construct_good k b
  · intro o e hg
    exact B.compute_good o.1 e hg
  · intro o e x v hg hh
    exact B.compute_keep o.1 e x v hg hh
  · intro o e hg
    exact B.get_last_good o.1 e hg
  · intro o e x v hg hh
    exact B.get_last_keep o.1 e x v hg hh
  · intro o e hg
    exact B.add_good o.1 e hg
  · intro o e v hg hh
    exact B.add_value o.1 e v hg hh
  · intro o hg
    exact B.clear_good o.1 hg

theorem rvalueOf_append (fl log : α → α) (gs : List α) (v : α) :
    rvalueOf fl log (gs ++ [v]) = radd fl (rvalueOf fl log gs) (dlog log (some v)) := by
  simp [rvalueOf, List.foldl_append]

end
end DPP

namespace DPP

/-- The loop of `interlace_greedy` records at step `j + 1` what the chains pop in
iteration `j` and the values of their oracles afterwards. -/
theorem interlace_loop_values {τ σ α : Type} [LinearOrderedField α]
    (sops : StrategyOps τ σ α) (oops : OracleOps σ α) (n k : Nat) (param : Param α)
    (clock : Nat → α)
    (hstep : ∀ t, ∃ c es c', interlace_chains sops oops n k param t = .ok c ∧
      interlace_popped sops oops n k param t = .ok (es, c') ∧
      interlace_chains sops oops n k param (t + 1) = .ok c') :
    ∀ (m t : Nat) (c : Chains τ σ) (res : InterlaceResult α),
      interlace_chains sops oops n k param t = .ok c → res.quadruples.length = t + 1 →
      res.measurements.length = t + 1 →
      ∃ out, interlace_greedy_loop sops oops param clock m t c res = .ok out ∧
        out.quadruples.length = t + greedy_len param clock m t + 1 ∧
        out.measurements.length = t + greedy_len param clock m t + 1 ∧
        (∀ f i, i < t + 1 → out.elementAt f i = res.elementAt f i ∧
          out.valueAt f i = res.valueAt f i) ∧
        ∀ j, t ≤ j → j < t + greedy_len param clock m t →
          ∃ es c', interlace_popped sops oops n k param j = .ok (es, c') ∧
            interlace_chains sops oops n k param (j + 1) = .ok c' ∧
            ∀ f, out.elementAt f (j + 1) = es f ∧
              out.valueAt f (j + 1) = oops.get_value (c'.get f).oracle := by
  have chains_get_value {τ σ α : Type} (oops : OracleOps σ α) (c : Chains τ σ) (f : Fin 4) :
      (![oops.get_value c.c0.oracle, oops.get_value c.c1.oracle, oops.get_value c.c2.oracle,
        oops.get_value c.c3.oracle] : Fin 4 → Value α) f = oops.get_value (c.get f).oracle := by
    fin_cases f <;> rfl
  intro m
  induction m with
  | zero =>
    intro t c res _ hq hm
    refine ⟨{ res with finished := true }, rfl, hq, hm, fun f i _ => ⟨rfl, rfl⟩, ?_⟩
    intro j h1 h2
    have : greedy_len param clock 0 t = 0 := rfl
    omega
  | succ m ih =>
    intro t c res hc hq hm
    obtain ⟨c0, es, c', h1, h2, h3⟩ := hstep t
    rw [hc] at h1
    simp only [Except.ok.injEq] at h1
    subst h1
    have hst : interlace_step sops oops t c = .ok (es, c') := by
      rw [interlace_popped, hc] at h2
      exact h2
    rw [interlace_greedy_loop]
    simp only [hst]
    have hq1 : ∀ (vals : Fin 4 → Value α) (time : α) (a b d : Nat),
        (res.add es vals time a b d).quadruples.length = t + 1 + 1 := by
      intro vals time a b d
      simp [InterlaceResult.add, hq]
    have hm1 : ∀ (vals : Fin 4 → Value α) (time : α) (a b d : Nat),
        (res.add es vals time a b d).measurements.length = t + 1 + 1 := by
      intro vals time a b d
      simp [InterlaceResult.add, hm]
    have hnew : ∀ (vals : Fin 4 → Value α) (time : α) (a b d : Nat) (f : Fin 4),
        (res.add es vals time a b d).elementAt f (t + 1) = es f ∧
        (res.add es vals time a b d).valueAt f (t + 1) = vals f := by
      intro vals time a b d f
      have := interlace_add_new res es vals time a b d f
      rw [hq] at this
      exact this
    have hold : ∀ (vals : Fin 4 → Value α) (time : α) (a b d : Nat) (f : Fin 4) (i : Nat),
        i < t + 1 → (res.add es vals time a b d).elementAt f i = res.elementAt f i ∧
          (res.add es vals time a b d).valueAt f i = res.valueAt f i := by
      intro vals time a b d f i hi
      exact interlace_add_old res es vals time a b d f i (by rw [hq]; exact hi)
    by_cases hexp : expired param (clock t) = true
    · rw [if_pos hexp]
      have hl : greedy_len param clock (m + 1) t = 1 := by rw [greedy_len, if_pos hexp]
      rw [hl]
      refine ⟨_, rfl, hq1 _ _ _ _ _, hm1 _ _ _ _ _, fun f i hi => hold _ _ _ _ _ f i hi, ?_⟩
      intro j hj1 hj2
      have hj : j = t := by omega
      subst hj
      refine ⟨es, c', h2, h3, fun f => ?_⟩
      have := hnew ![oops.get_value c'.c0.oracle, oops.get_value c'.c1.oracle,
        oops.get_value c'.c2.oracle, oops.get_value c'.c3.oracle] (clock j) 0
        (oops.get_num_oracle_calls c'.c0.oracle + oops.get_num_oracle_calls c'.c1.oracle
          + oops.get_num_oracle_calls c'.c2.oracle + oops.get_num_oracle_calls c'.c3.oracle)
        (oops.get_num_computed_offdiagonals_V c'.c0.oracle
          + oops.get_num_computed_offdiagonals_V c'.c1.oracle
          + oops.get_num_computed_offdiagonals_V c'.c2.oracle
          + oops.get_num_computed_offdiagonals_V c'.c3.oracle) f
      rw [chains_get_value] at this
      exact this
    · rw [if_neg hexp]
      have hl : greedy_len param clock (m + 1) t = greedy_len param clock m (t + 1) + 1 := by
        rw [greedy_len, if_neg hexp]
      obtain ⟨out, i1, i2, i2', i3, i4⟩ := ih (t + 1) c' _ h3 (hq1 _ _ _ _ _) (hm1 _ _ _ _ _)
      rw [hl]
      refine ⟨out, i1, by rw [i2]; omega, by rw [i2']; omega, ?_, ?_⟩
      · intro f i hi
        rw [(i3 f i (by omega)).1, (i3 f i (by omega)).2]
        exact hold _ _ _ _ _ f i hi
      · intro j hj1 hj2
        rcases Nat.eq_or_lt_of_le hj1 with heq | hlt
        · subst heq
          refine ⟨es, c', h2, h3, fun f => ?_⟩
          rw [(i3 f (t + 1) (by omega)).1, (i3 f (t + 1) (by omega)).2]
          have := hnew ![oops.get_value c'.c0.oracle, oops.get_value c'.c1.oracle,
            oops.get_value c'.c2.oracle, oops.get_value c'.c3.oracle] (clock t) 0
            (oops.get_num_oracle_calls c'.c0.oracle + oops.get_num_oracle_calls c'.c1.oracle
              + oops.get_num_oracle_calls c'.c2.oracle + oops.get_num_oracle_calls c'.c3.oracle)
            (oops.get_num_computed_offdiagonals_V c'.c0.oracle
              + oops.get_num_computed_offdiagonals_V c'.c1.oracle
              + oops.get_num_computed_offdiagonals_V c'.c2.oracle
              + oops.get_num_computed_offdiagonals_V c'.c3.oracle) f
          rw [chains_get_value] at this
          exact this
        · exact i4 j hlt (by omega)

end DPP

namespace DPP

theorem vlt_self {α : Type} [LinearOrderedField α] (a : Value α) : vlt a a = false := by
  cases a with
  | none => rfl
  | some x => simp [vlt]

theorem init_at {α : Type} [LinearOrderedField α] (f : Fin 4) :
    (InterlaceResult.init α).elementAt f 0 = none ∧
    (InterlaceResult.init α).valueAt f 0 = some ((0 : α) : WithBot α) := by
  simp [InterlaceResult.init, InterlaceResult.add, InterlaceResult.elementAt,
    InterlaceResult.valueAt]

end DPP

namespace DPP

theorem radd_some {α : Type} [LinearOrderedField α] (fl : α → α) (a b : α) :
    radd fl (some ((a : α) : WithBot α)) (some ((b : α) : WithBot α))
      = some (((fl (a + b) : α)) : WithBot α) := by
  simp only [radd]
  rfl

theorem radd_zero_some {α : Type} [LinearOrderedField α] (fl : α → α) (b : α) :
    radd fl (some (0 : WithBot α)) (some ((b : α) : WithBot α))
      = some (((fl b : α)) : WithBot α) := by
  have := radd_some fl 0 b
  rw [zero_add] at this
  exact this

theorem dlog_pos {α : Type} [LinearOrderedField α] (lg : α → α) (x : α) (h : 0 < x) :
    dlog lg (some x) = some ((lg x : α) : WithBot α) := by
  simp [dlog, not_lt.mpr h.le, h.ne']

theorem vlt_coe {α : Type} [LinearOrderedField α] (x y : α) :
    vlt (some ((x : α) : WithBot α)) (some ((y : α) : WithBot α)) = decide (x < y) := by
  simp [vlt]

end DPP

namespace DPP

/-- What an iteration of the loop of `interlace_greedy` does to the selection and to the
value of a chain, when the value is the exact sum. -/
theorem interlace_track_exact {τ σ α : Type} [LinearOrderedField α] (log : α → α)
    (n : Nat) (oops : OracleOps σ α) (Good : σ → Prop) (Holds : σ → Nat → α → Prop)
    (B : OracleBase oops log Good Holds) (sops : StrategyOps τ σ α) (getT : τ → List Nat)
    (getD : τ → Bool) (SI : τ → Prop) (Dead : τ → σ → Prop)
    (SL : StrategyLaw n oops Good sops getT getD SI Dead) (k : Nat) (param : Param α)
    (t : Nat) (f : Fin 4) :
    ∃ c es c', interlace_chains sops oops n k param t = .ok c ∧
      interlace_popped sops oops n k param t = .ok (es, c') ∧
      interlace_chains sops oops n k param (t + 1) = .ok c' ∧
      (t = 0 → oops.get_solution (c.get f).oracle = [] ∧
        oops.get_value (c.get f).oracle = some ((0 : α) : WithBot α)) ∧
      (es f = none → oops.get_solution (c'.get f).oracle = oops.get_solution (c.get f).oracle ∧
        oops.get_value (c'.get f).oracle = oops.get_value (c.get f).oracle) ∧
      ∀ e, es f = some e →
        oops.get_solution (c'.get f).oracle = oops.get_solution (c.get f).oracle ++ [e] ∧
        ∃ g, 1 < g ∧ oops.get_value (c'.get f).oracle
          = radd (fun x => x) (oops.get_value (c.get f).oracle) (dlog log (some g)) := by
  have radd_id {α : Type} [LinearOrderedField α] (a b : Value α) :
      radd (fun x => x) a b = vadd a b := by
    cases a with
    | none => rfl
    | some a =>
      cases b with
      | none => rfl
      | some b =>
        simp only [radd, vadd]
        congr 1
        cases h : a + b with
        | bot => rfl
        | coe x => rfl
  obtain ⟨c, es, c', h1, h2, h3, h4, h5⟩ :=
    interlace_chains_moved log n oops Good Holds B sops getT getD SI Dead SL k param t
  obtain ⟨_, m2, m3⟩ := h5 f
  refine ⟨c, es, c', h1, h2, h3, ?_, ?_, ?_⟩
  · intro ht
    refine ⟨h4 ht f, ?_⟩
    subst ht
    obtain ⟨_, _, _, _, _, _, c7, _⟩ := construct_base log n oops Good Holds B sops getT
      getD SI Dead SL k param.log_computed_offdiagonals_V true
    have hV0 : oops.get_value (Chain.init sops oops n k param).oracle
        = some ((0 : α) : WithBot α) := c7
    rw [interlace_chains] at h1
    simp only [Except.ok.injEq] at h1
    subst h1
    fin_cases f <;> exact hV0
  · intro hn
    obtain ⟨_, d2, d3, _⟩ := m2 hn
    exact ⟨d2, d3⟩
  · intro e he
    obtain ⟨_, _, d3, g, d4, d5, _⟩ := m3 e he
    exact ⟨d3, g, d4, by rw [radd_id]; exact d5⟩

/-- What an iteration of the loop of `interlace_greedy` does to the selection and to the
value of a chain, when `add` rounds the value by `fl`. -/
theorem interlace_track_rounded {τ σ α : Type} [LinearOrderedField α] (fl lg : α → α)
    (cell : σ → Nat → Option α) (log : α → α) (n : Nat) (oops : OracleOps σ α)
    (Good : σ → Prop) (Holds : σ → Nat → α → Prop) (B : OracleBase oops log Good Holds)
    (hcell : ∀ o e v, Holds o e v → cell o e = some v)
    (sops : StrategyOps τ (σ × Value α) α) (getT : τ → List Nat)
    (getD : τ → Bool) (SI : τ → Prop) (Dead : τ → σ × Value α → Prop)
    (SL : StrategyLaw n (unrounded fl lg cell oops) (fun p => Good p.1) sops getT getD SI Dead)
    (k : Nat) (param : Param α) (t : Nat) (f : Fin 4) :
    ∃ c es c', interlace_chains sops (rounded fl lg cell oops) n k param t = .ok c ∧
      interlace_popped sops (rounded fl lg cell oops) n k param t = .ok (es, c') ∧
      interlace_chains sops (rounded fl lg cell oops) n k param (t + 1) = .ok c' ∧
      (t = 0 → (rounded fl lg cell oops).get_solution (c.get f).oracle = [] ∧
        (rounded fl lg cell oops).get_value (c.get f).oracle = some ((0 : α) : WithBot α)) ∧
      (es f = none → (rounded fl lg cell oops).get_solution (c'.get f).oracle
          = (rounded fl lg cell oops).get_solution (c.get f).oracle ∧
        (rounded fl lg cell oops).get_value (c'.get f).oracle
          = (rounded fl lg cell oops).get_value (c.get f).oracle) ∧
      ∀ e, es f = some e →
        (rounded fl lg cell oops).get_solution (c'.get f).oracle
          = (rounded fl lg cell oops).get_solution (c.get f).oracle ++ [e] ∧
        ∃ g, 1 < g ∧ (rounded fl lg cell oops).get_value (c'.get f).oracle
          = radd fl ((rounded fl lg cell oops).get_value (c.get f).oracle)
              (dlog lg (some g)) := by
  -- What an iteration of the loop of `interlace_greedy` does to the value in doubles of a
  -- chain: nothing when the chain pops nothing, and otherwise the logarithm of a gain above `1`
  -- is added and the sum rounded.
  have interlace_step_rounded {τ σ α : Type} [LinearOrderedField α] (fl lg : α → α)
      (cell : σ → Nat → Option α) (log : α → α) (n : Nat) (oops : OracleOps σ α)
      (Good : σ → Prop) (Holds : σ → Nat → α → Prop) (B : OracleBase oops log Good Holds)
      (hcell : ∀ o e v, Holds o e v → cell o e = some v)
      (sops : StrategyOps τ (σ × Value α) α) (getT : τ → List Nat)
      (getD : τ → Bool) (SI : τ → Prop) (Dead : τ → σ × Value α → Prop)
      (SL : StrategyLaw n (unrounded fl lg cell oops) (fun p => Good p.1) sops getT getD SI Dead)
      (k : Nat) (param : Param α) (f : Fin 4) (t : Nat) :
      ∃ c es c', interlace_chains sops (rounded fl lg cell oops) n k param t = .ok c ∧
        interlace_popped sops (rounded fl lg cell oops) n k param t = .ok (es, c') ∧
        interlace_chains sops (rounded fl lg cell oops) n k param (t + 1) = .ok c' ∧
        (t = 0 → (c.get f).oracle.2 = some ((0 : α) : WithBot α)) ∧
        (es f = none → (c'.get f).oracle.2 = (c.get f).oracle.2) ∧
        ∀ e, es f = some e → ∃ g, 1 < g ∧
          (c'.get f).oracle.2 = radd fl (c.get f).oracle.2 (dlog lg (some g)) := by
    -- The value in doubles that a run of the oracle has accumulated, from a state in which
    -- it is `0.0`: that of the gains committed.
    have run_rounded {σ α : Type} [LinearOrderedField α] (fl log' : α → α) (cell : σ → Nat → Option α) (oops : OracleOps σ α)
        (Holds : σ → Nat → α → Prop) (hcell : ∀ o e v, Holds o e v → cell o e = some v)
        (o0 p : σ × Value α) (es : List Nat) (gs : List α)
        (h0 : o0.2 = some ((0 : α) : WithBot α))
        (h : Run (unrounded fl log' cell oops) (fun p e v => Holds p.1 e v) o0 es gs p) :
        p.2 = rvalueOf fl log' gs := by
      induction h with
      | refl => exact h0
      | compute es gs p x _ _ ih => exact ih
      | get_last es gs p x _ ih => exact ih
      | clear es gs p _ ih => exact ih
      | add es gs p e v _ _ hh ih =>
        rw [rvalueOf_append, ← ih]
        show radd fl p.2 (dlog log' (cell p.1 e)) = _
        rw [hcell p.1 e v hh]
    have BW := unrounded_base fl lg cell oops log Good Holds B
    have e1 := interlace_chains_congr sops (rounded fl lg cell oops) (unrounded fl lg cell oops)
      rfl rfl n k param
    have e2 := interlace_popped_congr sops (rounded fl lg cell oops) (unrounded fl lg cell oops)
      rfl rfl n k param
    rw [e1 t, e2 t, e1 (t + 1)]
    obtain ⟨c, gs, hc, hrun, _⟩ := interlace_chains_run log n _ _ _ BW sops getT getD SI Dead SL
      k param f t
    obtain ⟨c0, es, c', h1, h2, h3, h4, h5⟩ :=
      interlace_chains_moved log n _ _ _ BW sops getT getD SI Dead SL k param t
    rw [hc] at h1
    simp only [Except.ok.injEq] at h1
    subst h1
    have hgh := run_rounded fl lg cell oops Holds hcell _ _ _ _ rfl hrun
    obtain ⟨_, m2, m3⟩ := h5 f
    refine ⟨c, es, c', hc, h2, h3, ?_, ?_, ?_⟩
    · intro ht
      have hS := h4 ht f
      have hlen := run_length _ _ _ _ _ _ hrun
      rw [hS] at hlen
      have : gs = [] := List.length_eq_zero.mp hlen
      rw [hgh, this]
      rfl
    · intro hn
      obtain ⟨_, _, _, d4⟩ := m2 hn
      have := run_rounded fl lg cell oops Holds hcell _ _ _ _ rfl (d4 _ _ gs hrun)
      rw [this, hgh]
    · intro e he
      obtain ⟨_, _, _, g, d4, _, d6⟩ := m3 e he
      have := run_rounded fl lg cell oops Holds hcell _ _ _ _ rfl (d6 _ _ gs hrun)
      exact ⟨g, d4, by rw [this, rvalueOf_append, hgh]⟩
  have BW := unrounded_base fl lg cell oops log Good Holds B
  have e1 := interlace_chains_congr sops (rounded fl lg cell oops) (unrounded fl lg cell oops)
    rfl rfl n k param
  have e2 := interlace_popped_congr sops (rounded fl lg cell oops) (unrounded fl lg cell oops)
    rfl rfl n k param
  obtain ⟨c, es, c', h1, h2, h3, h4, h5, h6⟩ := interlace_step_rounded fl lg cell log n oops
    Good Holds B hcell sops getT getD SI Dead SL k param f t
  obtain ⟨c0, es0, c0', q1, q2, q3, q4, q5⟩ :=
    interlace_chains_moved log n _ _ _ BW sops getT getD SI Dead SL k param t
  rw [← e1 t, h1] at q1
  rw [← e2 t, h2] at q2
  simp only [Except.ok.injEq, Prod.mk.injEq] at q1 q2
  subst q1
  obtain ⟨rfl, rfl⟩ := q2
  obtain ⟨_, m2, m3⟩ := q5 f
  refine ⟨c, es, c', h1, h2, h3, ?_, ?_, ?_⟩
  · intro ht
    exact ⟨q4 ht f, h4 ht⟩
  · intro hn
    exact ⟨(m2 hn).2.1, h5 hn⟩
  · intro e he
    exact ⟨(m3 e he).2.2.1, h6 e he⟩

section
variable {α : Type} [LinearOrderedField α]

/-- The non-lazy strategy over the direct oracle with the value in doubles. -/
theorem nonlazy_direct_rounded_law (fl lg : α → α) (n : Nat) (L : Nat → Nat → α)
    (ord : List Nat → List Nat) (hord : SetOrder ord) :
    StrategyLaw n (unrounded fl lg (fun o e => o.d e) (Oracle.ops lg L))
      (fun p => Oracle.Written p.1) (NonLazy.ops ord (Oracle.rounded fl lg L))
      (fun s => s.T) (fun s => s.add_dummy) (fun _ => True)
      (NonLazy.Dead (unrounded fl lg (fun o e => o.d e) (Oracle.ops lg L))) := by
  have BW := unrounded_base fl lg (fun o e => o.d e) (Oracle.ops lg L) lg _ _
    (direct_base lg L)
  have h := nonlazy_law n _ BW.law (fun p => Oracle.Written p.1) ord hord
  rw [← nonlazy_ops_congr ord (Oracle.rounded fl lg L)
    (unrounded fl lg (fun o e => o.d e) (Oracle.ops lg L)) rfl] at h
  exact h

/-- The lazy strategy over the direct oracle with the value in doubles. -/
theorem lazy_direct_rounded_law (fl lg : α → α) (n : Nat) (L : Nat → Nat → α)
    (ord : List Nat → List Nat) (hord : SetOrder ord) :
    StrategyLaw n (unrounded fl lg (fun o e => o.d e) (Oracle.ops lg L))
      (fun p => Oracle.Written p.1) (Lazy.ops ord (Oracle.rounded fl lg L))
      (fun s => s.T) (fun s => s.add_dummy) Lazy.SI Lazy.Dead := by
  have BW := unrounded_base fl lg (fun o e => o.d e) (Oracle.ops lg L) lg _ _
    (direct_base lg L)
  have h := lazy_law n _ BW.law (fun p => Oracle.Written p.1) ord hord
  rw [← lazy_ops_congr ord (Oracle.rounded fl lg L)
    (unrounded fl lg (fun o e => o.d e) (Oracle.ops lg L)) rfl rfl] at h
  exact h

/-- The non-lazy strategy over the fast oracle with the value in doubles. -/
theorem nonlazy_fast_rounded_law (fl sqrt lg : α → α) (n : Nat) (V0 : Nat → Nat → Option α)
    (L : Nat → Nat → α) (ord : List Nat → List Nat) (hord : SetOrder ord) :
    StrategyLaw n (unrounded fl lg (fun o e => o.d e) (Fast.ops sqrt lg V0 L))
      (fun _ => True) (NonLazy.ops ord (Fast.rounded fl sqrt lg V0 L))
      (fun s => s.T) (fun s => s.add_dummy) (fun _ => True)
      (NonLazy.Dead (unrounded fl lg (fun o e => o.d e) (Fast.ops sqrt lg V0 L))) := by
  have BW := unrounded_base fl lg (fun o e => o.d e) (Fast.ops sqrt lg V0 L) lg _ _
    (fast_base sqrt lg V0 L)
  have h := nonlazy_law n _ BW.law (fun _ => True) ord hord
  rw [← nonlazy_ops_congr ord (Fast.rounded fl sqrt lg V0 L)
    (unrounded fl lg (fun o e => o.d e) (Fast.ops sqrt lg V0 L)) rfl] at h
  exact h

/-- The lazy strategy over the fast oracle with the value in doubles. -/
theorem lazy_fast_rounded_law (fl sqrt lg : α → α) (n : Nat) (V0 : Nat → Nat → Option α)
    (L : Nat → Nat → α) (ord : List Nat → List Nat) (hord : SetOrder ord) :
    StrategyLaw n (unrounded fl lg (fun o e => o.d e) (Fast.ops sqrt lg V0 L))
      (fun _ => True) (Lazy.ops ord (Fast.rounded fl sqrt lg V0 L))
      (fun s => s.T) (fun s => s.add_dummy) Lazy.SI Lazy.Dead := by
  have BW := unrounded_base fl lg (fun o e => o.d e) (Fast.ops sqrt lg V0 L) lg _ _
    (fast_base sqrt lg V0 L)
  have h := lazy_law n _ BW.law (fun _ => True) ord hord
  rw [← lazy_ops_congr ord (Fast.rounded fl sqrt lg V0 L)
    (unrounded fl lg (fun o e => o.d e) (Fast.ops sqrt lg V0 L)) rfl rfl] at h
  exact h

end

end DPP

namespace DPP

/-- The selection of a chain of `interlace_greedy` after `j` iterations lists the elements
that the chain has recorded at the steps `1..j`, for a strategy and an oracle under which
the selection of a chain changes only when the chain pops an element. -/
theorem chain_solution_kit {τ σ α : Type} [LinearOrderedField α] (sops : StrategyOps τ σ α)
    (oops : OracleOps σ α) (n k : Nat) (hk : k ≤ n) (param : Param α) (clock : Nat → α)
    (htrack : ∀ t (f : Fin 4), ∃ c es c', interlace_chains sops oops n k param t = .ok c ∧
      interlace_popped sops oops n k param t = .ok (es, c') ∧
      interlace_chains sops oops n k param (t + 1) = .ok c' ∧
      (t = 0 → oops.get_solution (c.get f).oracle = []) ∧
      (es f = none → oops.get_solution (c'.get f).oracle = oops.get_solution (c.get f).oracle) ∧
      ∀ e, es f = some e →
        oops.get_solution (c'.get f).oracle = oops.get_solution (c.get f).oracle ++ [e])
    (out : InterlaceResult α) (hout : interlace_greedy sops oops n k param clock = .ok out) :
    ∀ j, j < out.size → ∃ c, interlace_chains sops oops n k param j = .ok c ∧
      ∀ f, oops.get_solution (c.get f).oracle
        = (List.range j).filterMap (fun i => out.elementAt f (i + 1)) := by
  have hstep : ∀ t, ∃ c es c', interlace_chains sops oops n k param t = .ok c ∧
      interlace_popped sops oops n k param t = .ok (es, c') ∧
      interlace_chains sops oops n k param (t + 1) = .ok c' := by
    intro t
    obtain ⟨c, es, c', h1, h2, h3, _⟩ := htrack t 0
    exact ⟨c, es, c', h1, h2, h3⟩
  obtain ⟨c0, hc0, hloop⟩ := (interlaceUnfolds_of sops oops n k param clock).1 hk
  obtain ⟨out1, l1, l2, l3, l4, l5⟩ := interlace_loop_values sops oops n k param clock hstep
    k 0 c0 (InterlaceResult.init α) hc0 rfl rfl
  rw [Nat.zero_add] at l2 l3
  rw [hloop, l1] at hout
  simp only [Except.ok.injEq] at hout
  subst hout
  have hsz : out1.size = out1.quadruples.length := by
    unfold InterlaceResult.size
    rw [l2, l3]
  intro j
  induction j with
  | zero =>
    intro _
    obtain ⟨c, _, _, h1, _, _, _⟩ := htrack 0 0
    refine ⟨c, h1, ?_⟩
    intro f
    obtain ⟨c', _, _, h1', _, _, h4, _⟩ := htrack 0 f
    rw [h1] at h1'
    simp only [Except.ok.injEq] at h1'
    subst h1'
    rw [h4 rfl]
    rfl
  | succ j ih =>
    intro hj
    obtain ⟨c, hc, hS⟩ := ih (by omega)
    obtain ⟨es, c', q1, q2, q3⟩ := l5 j (Nat.zero_le j) (by rw [hsz, l2] at hj; omega)
    refine ⟨c', q2, ?_⟩
    intro f
    obtain ⟨c1, es1, c1', h1, h2, h3, _, h5, h6⟩ := htrack j f
    rw [hc] at h1
    rw [q1] at h2
    simp only [Except.ok.injEq, Prod.mk.injEq] at h1 h2
    subst h1
    obtain ⟨rfl, rfl⟩ := h2
    rw [List.range_succ, List.filterMap_append, ← hS f]
    have hq := (q3 f).1
    cases he : es f with
    | none =>
      rw [he] at hq
      rw [h5 he]
      simp [List.filterMap, hq]
    | some e =>
      rw [he] at hq
      rw [h6 e he]
      simp [List.filterMap, hq]

end DPP

namespace DPP

set_option maxHeartbeats 4000000 in
set_option maxRecDepth 100000 in
/-- The snapshots of the run on `diag(100, g, g)` in doubles. -/
theorem absorb_run64 (V0 : Nat → Nat → Option ℝ) :
    interlace_greedy
      (NonLazy.ops (fun l => l.dedup)
        (Fast.rounded fl64 Real.sqrt (fun x => fl64 (Real.log x)) V0 (absorbDiag ℝ)))
      (Fast.rounded fl64 Real.sqrt (fun x => fl64 (Real.log x)) V0 (absorbDiag ℝ)) 3 2
      { time_limit := ⊤, log_computed_offdiagonals_V := false } (fun _ => 0) = .ok
      { quadruples :=
        [fun _ => { element := none, value := some 0 }, fun f =>
          { element := ![some 0, some 1, some 0, some 0] f,
            value :=
              ![some ((fl64 (Real.log 100) : ℝ) : WithBot ℝ),
                some ((fl64 (Real.log (1 + 2 ^ (-52 : Int))) : ℝ) : WithBot ℝ),
                some ((fl64 (Real.log 100) : ℝ) : WithBot ℝ),
                some ((fl64 (Real.log 100) : ℝ) : WithBot ℝ)] f },
          fun f =>
          { element := ![some 2, none, some 1, some 2] f,
            value :=
              ![some ((fl64 (Real.log 100) : ℝ) : WithBot ℝ),
                some ((fl64 (Real.log (1 + 2 ^ (-52 : Int))) : ℝ) : WithBot ℝ),
                some ((fl64 (Real.log 100) : ℝ) : WithBot ℝ),
                some ((fl64 (Real.log 100) : ℝ) : WithBot ℝ)] f }],
        measurements :=
        [{ time := 0, num_computed_entries_L := 0, num_oracle_calls := 0,
           num_computed_offdiagonals_V := 0, computed_offdiagonals_V := [] },
          { time := 0, num_computed_entries_L := 0, num_oracle_calls := 0,
            num_computed_offdiagonals_V := 0, computed_offdiagonals_V := [] },
          { time := 0, num_computed_entries_L := 0, num_oracle_calls := 0,
            num_computed_offdiagonals_V := 4, computed_offdiagonals_V := [] }],
        finished := true } := by
  -- The run of `interlace_greedy` on `diag(100, g, g)` with `g = 1 + 2 ^ (-52)` and
  -- `k = 2`, with the non-lazy strategy over the fast oracle whose `add` rounds the value by
  -- `fl`: the snapshots it records.
  have absorb_run {α : Type} [LinearOrderedField α] (fl sq lg : α → α)
      (V0 : Nat → Nat → Option α) :
      interlace_greedy
        (NonLazy.ops (fun l => l.dedup) (Fast.rounded fl sq lg V0 (absorbDiag α)))
        (Fast.rounded fl sq lg V0 (absorbDiag α)) 3 2
        { time_limit := ⊤, log_computed_offdiagonals_V := false } (fun _ => 0) = .ok
        { quadruples :=
          [fun _ => { element := none, value := some 0 }, fun f =>
            { element := ![some 0, some 1, some 0, some 0] f,
              value :=
                ![some ((fl (lg 100) : α) : WithBot α),
                  some ((fl (lg (1 + 2 ^ (-52 : Int))) : α) : WithBot α),
                  some ((fl (lg 100) : α) : WithBot α),
                  some ((fl (lg 100) : α) : WithBot α)] f },
            fun f =>
            { element := ![some 2, none, some 1, some 2] f,
              value :=
                ![some ((fl (fl (lg 100) + lg (1 + 2 ^ (-52 : Int))) : α) : WithBot α),
                  some ((fl (lg (1 + 2 ^ (-52 : Int))) : α) : WithBot α),
                  some ((fl (fl (lg 100) + lg (1 + 2 ^ (-52 : Int))) : α) : WithBot α),
                  some ((fl (fl (lg 100) + lg (1 + 2 ^ (-52 : Int))) : α) : WithBot α)] f }],
          measurements :=
          [{ time := 0, num_computed_entries_L := 0, num_oracle_calls := 0,
             num_computed_offdiagonals_V := 0, computed_offdiagonals_V := [] },
            { time := 0, num_computed_entries_L := 0, num_oracle_calls := 0,
              num_computed_offdiagonals_V := 0, computed_offdiagonals_V := [] },
            { time := 0, num_computed_entries_L := 0, num_oracle_calls := 0,
              num_computed_offdiagonals_V := 4, computed_offdiagonals_V := [] }],
          finished := true } := by
    have hp : (0 : α) < 2 ^ (-52 : Int) := zpow_pos (by norm_num) _
    have h1 : (1 : α) < 1 + 2 ^ (-52 : Int) := by linarith
    have hlt : (2 : α) ^ (-52 : Int) < 1 := by
      have := zpow_lt_zpow_right₀ (a := (2 : α)) (by norm_num) (show (-52 : Int) < 0 by norm_num)
      simpa using this
    have h2 : (1 : α) + 2 ^ (-52 : Int) < 100 := by linarith
    generalize hg : (1 : α) + 2 ^ (-52 : Int) = g at h1 h2
    have f1 : ¬ (100 : α) ≤ 1 := by norm_num
    have f2 : ¬ g ≤ 1 := not_le.mpr h1
    have f3 : ¬ (100 : α) < g := not_lt.mpr h2.le
    have f4 : ¬ g < g := lt_irrefl g
    have f5 : (0 : α) ≤ g := by linarith
    have f6 : ¬ (100 : α) ≤ 0 := by norm_num
    have f7 : (0 : α) < g := by linarith
    have hd : ([0, 1, 2] : List Nat).dedup = [0, 1, 2] := by decide
    have hL : absorbDiag α = fun i j => if i = j then
        (match i with | 0 => 100 | 1 => g | 2 => g | _ => 0) else 0 := by
      subst hg
      rfl
    rw [hL]
    simp [interlace_greedy, interlace_greedy_loop, interlace_step, interlace_subroutine,
      interlace_half, interlace_first, Chain.init, NonLazy.ops, NonLazy.construct,
      NonLazy.pop_largest, NonLazy.pop_kth_largest, NonLazy.fill, NonLazy.scan, NonLazy.remove,
      heapMin, ElementValuePair.less, ElementValuePair.greater,
      Fast.rounded, rounded, Fast.ops, Fast.construct, Fast.compute_marginal_gain_exponential,
      Fast.get_last_marginal_gain_exponential, Fast.loop, Fast.step, Fast.quotient, Fast.residual,
      Fast.add, odot, expired, InterlaceResult.init, InterlaceResult.add, List.range,
      List.range.loop, Function.update, f1, f2, f3, f4, f5, f6, h1, h2, dlog_pos, f7, radd_some,
      radd_zero_some, hd]
  have h := absorb_run fl64 Real.sqrt (fun x => fl64 (Real.log x)) V0
  simp only [fl64_idem, log64_facts.2.2.2.2.2.2.2.2] at h
  exact h

end DPP

namespace DPP

/-- C28, amended: for every kernel `L` on `n` elements and every `k ≤ n`, with the lazy or
the non-lazy strategy over the direct or the fast oracle, along each of the four chains of
`interlace_greedy` the values recorded at the steps `0, 1, ...` are finite and do not
decrease; the value increases strictly from a step to the next only when the chain
committed an element at the next step, and then it is the sum of the value and of the
logarithm of the gain committed, which is above `1`, the strategies being built with
`add_dummy = true`; so the steps whose value is less than the value at a later step `j`
come before those whose value is not, which is what the binary search of `get_max`
requires.  This holds when `add` rounds the sum by any `fl` that keeps the order, zero and
its own results, such as the rounding of doubles, with any logarithm `lg` that is not
negative above `1`.  When the sum is exact, the value increases strictly at every step at
which the chain committed an element as well. -/
theorem chain_values_monotone (fl lg : ℝ → ℝ) (hfl : Rounding fl)
    (hlg : ∀ x, 1 < x → 0 ≤ lg x) (n : Nat) (L : Nat → Nat → ℝ) (k : Nat) (hk : k ≤ n)
    (ord : List Nat → List Nat) (hord : SetOrder ord) (V0 : Nat → Nat → Option ℝ)
    (param : Param ℝ) (clock : Nat → ℝ) :
    ChainsNondecreasing fl lg (NonLazy.ops ord (Oracle.rounded fl lg L))
      (Oracle.rounded fl lg L) n k param clock ∧
    ChainsNondecreasing fl lg (Lazy.ops ord (Oracle.rounded fl lg L))
      (Oracle.rounded fl lg L) n k param clock ∧
    ChainsNondecreasing fl lg (NonLazy.ops ord (Fast.rounded fl Real.sqrt lg V0 L))
      (Fast.rounded fl Real.sqrt lg V0 L) n k param clock ∧
    ChainsNondecreasing fl lg (Lazy.ops ord (Fast.rounded fl Real.sqrt lg V0 L))
      (Fast.rounded fl Real.sqrt lg V0 L) n k param clock ∧
    ChainsMonotone Real.log (NonLazy.ops ord (Oracle.ops Real.log L)) (Oracle.ops Real.log L)
      n k param clock ∧
    ChainsMonotone Real.log (Lazy.ops ord (Oracle.ops Real.log L)) (Oracle.ops Real.log L)
      n k param clock ∧
    ChainsMonotone Real.log (NonLazy.ops ord (Fast.ops Real.sqrt Real.log V0 L))
      (Fast.ops Real.sqrt Real.log V0 L) n k param clock ∧
    ChainsMonotone Real.log (Lazy.ops ord (Fast.ops Real.sqrt Real.log V0 L))
      (Fast.ops Real.sqrt Real.log V0 L) n k param clock := by
  -- The values of the chains of `interlace_greedy` do not decrease, over an oracle whose
  -- `add` rounds the value by `fl`.
  have chainsNondecreasing_rounded {τ σ α : Type} [LinearOrderedField α] (fl lg : α → α)
      (hfl : Rounding fl) (hlg : ∀ x, 1 < x → 0 ≤ lg x)
      (cell : σ → Nat → Option α) (log : α → α) (n : Nat) (oops : OracleOps σ α)
      (Good : σ → Prop) (Holds : σ → Nat → α → Prop) (B : OracleBase oops log Good Holds)
      (hcell : ∀ o e v, Holds o e v → cell o e = some v)
      (sops : StrategyOps τ (σ × Value α) α) (getT : τ → List Nat)
      (getD : τ → Bool) (SI : τ → Prop) (Dead : τ → σ × Value α → Prop)
      (SL : StrategyLaw n (unrounded fl lg cell oops) (fun p => Good p.1) sops getT getD SI Dead)
      (k : Nat) (hk : k ≤ n) (param : Param α) (clock : Nat → α) :
      ChainsNondecreasing fl lg sops (rounded fl lg cell oops) n k param clock := by
    -- The values that the chains of `interlace_greedy` record do not decrease, for a strategy
    -- and an oracle under which the value of a chain changes only when the chain pops an
    -- element, and then by the rounded addition of the logarithm of a gain above `1`.
    have chainsNondecreasing_kit {τ σ α : Type} [LinearOrderedField α] (fl lg : α → α)
        (hfl : Rounding fl) (hlg : ∀ x, 1 < x → 0 ≤ lg x) (sops : StrategyOps τ σ α)
        (oops : OracleOps σ α) (n k : Nat) (hk : k ≤ n) (param : Param α) (clock : Nat → α)
        (htrack : ∀ t (f : Fin 4), ∃ c es c', interlace_chains sops oops n k param t = .ok c ∧
          interlace_popped sops oops n k param t = .ok (es, c') ∧
          interlace_chains sops oops n k param (t + 1) = .ok c' ∧
          (t = 0 → oops.get_value (c.get f).oracle = some ((0 : α) : WithBot α)) ∧
          (es f = none → oops.get_value (c'.get f).oracle = oops.get_value (c.get f).oracle) ∧
          ∀ e, es f = some e → ∃ g, 1 < g ∧ oops.get_value (c'.get f).oracle
            = radd fl (oops.get_value (c.get f).oracle) (dlog lg (some g))) :
        ChainsNondecreasing fl lg sops oops n k param clock := by
      have hstep : ∀ t, ∃ c es c', interlace_chains sops oops n k param t = .ok c ∧
          interlace_popped sops oops n k param t = .ok (es, c') ∧
          interlace_chains sops oops n k param (t + 1) = .ok c' := by
        intro t
        obtain ⟨c, es, c', h1, h2, h3, _⟩ := htrack t 0
        exact ⟨c, es, c', h1, h2, h3⟩
      obtain ⟨c0, hc0, hloop⟩ := (interlaceUnfolds_of sops oops n k param clock).1 hk
      obtain ⟨out, l1, l2, l3, l4, l5⟩ := interlace_loop_values sops oops n k param clock hstep
        k 0 c0 (InterlaceResult.init α) hc0 rfl rfl
      rw [Nat.zero_add] at l2 l3
      have hsz : out.size = out.quadruples.length := by
        unfold InterlaceResult.size
        rw [l2, l3]
      have hA : ∀ (f : Fin 4) j, j < out.size → ∃ c, interlace_chains sops oops n k param j = .ok c ∧
          out.valueAt f j = oops.get_value (c.get f).oracle := by
        intro f j hj
        cases j with
        | zero =>
          obtain ⟨c, _, _, h1, _, _, h4, _⟩ := htrack 0 f
          refine ⟨c, h1, ?_⟩
          rw [(l4 f 0 (by omega)).2, (init_at f).2, h4 rfl]
        | succ j =>
          obtain ⟨es, c', _, q2, q3⟩ := l5 j (Nat.zero_le j) (by rw [hsz, l2] at hj; omega)
          exact ⟨c', q2, (q3 f).2⟩
      have hS : ∀ (f : Fin 4) j, j + 1 < out.size →
          (out.elementAt f (j + 1) = none → out.valueAt f (j + 1) = out.valueAt f j) ∧
          ((out.elementAt f (j + 1)).isSome = true → ∃ g : α, 1 < g ∧
            out.valueAt f (j + 1) = radd fl (out.valueAt f j) (dlog lg (some g))) := by
        intro f j hj
        obtain ⟨c, es, c', h1, h2, h3, _, h5, h6⟩ := htrack j f
        obtain ⟨es1, c1, q1, _, q3⟩ := l5 j (Nat.zero_le j) (by rw [hsz, l2] at hj; omega)
        rw [h2] at q1
        simp only [Except.ok.injEq, Prod.mk.injEq] at q1
        obtain ⟨rfl, rfl⟩ := q1
        obtain ⟨a1, ha1, hv1⟩ := hA f (j + 1) hj
        obtain ⟨a0, ha0, hv0⟩ := hA f j (by omega)
        rw [h3] at ha1
        rw [h1] at ha0
        simp only [Except.ok.injEq] at ha1 ha0
        subst ha1
        subst ha0
        rw [hv1, hv0, (q3 f).1]
        refine ⟨h5, ?_⟩
        intro hs
        cases he : es f with
        | none => rw [he] at hs; cases hs
        | some e => exact h6 e he
      have hV1 : ∀ (f : Fin 4) j, j + 1 < out.size → ∀ x : α,
          out.valueAt f j = some ((x : α) : WithBot α) → fl x = x →
          ∃ y : α, out.valueAt f (j + 1) = some ((y : α) : WithBot α) ∧ fl y = y ∧ x ≤ y := by
        intro f j hj x hx hfx
        obtain ⟨s1, s2⟩ := hS f j hj
        cases he : out.elementAt f (j + 1) with
        | none => exact ⟨x, by rw [s1 he, hx], hfx, le_rfl⟩
        | some e =>
          obtain ⟨g, hg, hv⟩ := s2 (by rw [he]; rfl)
          rw [hx, dlog_pos lg g (lt_trans one_pos hg), radd_some] at hv
          refine ⟨_, hv, hfl.idem _, ?_⟩
          have := hfl.mono x (x + lg g) (by linarith [hlg g hg])
          rw [hfx] at this
          exact this
      have hV : ∀ (f : Fin 4) j, j < out.size →
          ∃ x : α, out.valueAt f j = some ((x : α) : WithBot α) ∧ fl x = x := by
        intro f j
        induction j with
        | zero =>
          intro hj
          obtain ⟨c, _, _, h1, _, _, h4, _⟩ := htrack 0 f
          obtain ⟨a0, ha0, hv0⟩ := hA f 0 hj
          rw [h1] at ha0
          simp only [Except.ok.injEq] at ha0
          subst ha0
          exact ⟨0, by rw [hv0, h4 rfl], hfl.zero⟩
        | succ j ih =>
          intro hj
          obtain ⟨x, hx, hfx⟩ := ih (by omega)
          obtain ⟨y, hy, hfy, _⟩ := hV1 f j hj x hx hfx
          exact ⟨y, hy, hfy⟩
      have hM : ∀ (f : Fin 4) i j, i ≤ j → j < out.size →
          ∃ x y : α, out.valueAt f i = some ((x : α) : WithBot α) ∧
            out.valueAt f j = some ((y : α) : WithBot α) ∧ x ≤ y := by
        intro f i j
        induction j with
        | zero =>
          intro hij hj
          have : i = 0 := by omega
          subst this
          obtain ⟨x, hx, _⟩ := hV f 0 hj
          exact ⟨x, x, hx, hx, le_rfl⟩
        | succ j ih =>
          intro hij hj
          rcases Nat.eq_or_lt_of_le hij with heq | hlt
          · subst heq
            obtain ⟨x, hx, _⟩ := hV f (j + 1) hj
            exact ⟨x, x, hx, hx, le_rfl⟩
          · obtain ⟨x, y, hx, hy, hxy⟩ := ih (by omega) (by omega)
            obtain ⟨y0, hy0, hf0⟩ := hV f j (by omega)
            rw [hy0] at hy
            simp only [Option.some.injEq, WithBot.coe_inj] at hy
            subst hy
            obtain ⟨z, hz, _, hyz⟩ := hV1 f j hj y0 hy0 hf0
            exact ⟨x, z, hx, hz, le_trans hxy hyz⟩
      refine ⟨out, by rw [hloop, l1], ?_⟩
      intro f
      refine ⟨hM f, ?_, ?_⟩
      · intro j hj
        obtain ⟨s1, s2⟩ := hS f j hj
        refine ⟨?_, s1, s2⟩
        intro hv
        cases he : out.elementAt f (j + 1) with
        | some e => rfl
        | none =>
          rw [s1 he, vlt_self] at hv
          cases hv
      · intro i i1 j h1 h2 hj hv
        obtain ⟨x, y, hx, hy, hxy⟩ := hM f i i1 h1 (by omega)
        obtain ⟨z, hz, _⟩ := hV f j hj
        rw [hy, hz, vlt_coe, decide_eq_true_eq] at hv
        rw [hx, hz, vlt_coe, decide_eq_true_eq]
        exact lt_of_le_of_lt hxy hv
    refine chainsNondecreasing_kit fl lg hfl hlg sops _ n k hk param clock ?_
    intro t f
    obtain ⟨c, es, c', h1, h2, h3, h4, h5, h6⟩ := interlace_track_rounded fl lg cell log n
      oops Good Holds B hcell sops getT getD SI Dead SL k param t f
    exact ⟨c, es, c', h1, h2, h3, fun ht => (h4 ht).2, fun hn => (h5 hn).2,
      fun e he => (h6 e he).2⟩
  have BD := direct_base lg L
  have BF := fast_base Real.sqrt lg V0 L
  have ED := direct_base Real.log L
  have EF := fast_base Real.sqrt Real.log V0 L
  exact ⟨chainsNondecreasing_rounded fl lg hfl hlg _ lg n _ _ _ BD (fun _ _ _ h => h.1) _ _ _
      _ _ (nonlazy_direct_rounded_law fl lg n L ord hord) k hk param clock,
    chainsNondecreasing_rounded fl lg hfl hlg _ lg n _ _ _ BD (fun _ _ _ h => h.1) _ _ _
      _ _ (lazy_direct_rounded_law fl lg n L ord hord) k hk param clock,
    chainsNondecreasing_rounded fl lg hfl hlg _ lg n _ _ _ BF (fun _ _ _ h => h.1) _ _ _
      _ _ (nonlazy_fast_rounded_law fl Real.sqrt lg n V0 L ord hord) k hk param clock,
    chainsNondecreasing_rounded fl lg hfl hlg _ lg n _ _ _ BF (fun _ _ _ h => h.1) _ _ _
      _ _ (lazy_fast_rounded_law fl Real.sqrt lg n V0 L ord hord) k hk param clock,
    @chainsMonotone_of _ _ ℝ _ Real.sqrt Real.log _ n _ _ _ ED _ _ _ _ _
      (nonlazy_law n _ ED.law _ ord hord) k hk param clock,
    @chainsMonotone_of _ _ ℝ _ Real.sqrt Real.log _ n _ _ _ ED _ _ _ _ _
      (lazy_law n _ ED.law _ ord hord) k hk param clock,
    @chainsMonotone_of _ _ ℝ _ Real.sqrt Real.log _ n _ _ _ EF _ _ _ _ _
      (nonlazy_law n _ EF.law _ ord hord) k hk param clock,
    @chainsMonotone_of _ _ ℝ _ Real.sqrt Real.log _ n _ _ _ EF _ _ _ _ _
      (lazy_law n _ EF.law _ ord hord) k hk param clock⟩

/-- Witness of C28: interlace greedy in doubles with the non-lazy strategy over the fast
oracle on the kernel `diag(100, 1 + 2 ^ (-52), 1 + 2 ^ (-52))` with `k = 2`. -/
theorem chain_values_monotone_witness :
    ChainsNondecreasing fl64 (fun x => fl64 (Real.log x))
      (NonLazy.ops (fun l => l.dedup)
        (Fast.rounded fl64 Real.sqrt (fun x => fl64 (Real.log x)) (fun _ _ => none)
          (absorbDiag ℝ)))
      (Fast.rounded fl64 Real.sqrt (fun x => fl64 (Real.log x)) (fun _ _ => none)
        (absorbDiag ℝ)) 3 2
      { time_limit := ⊤, log_computed_offdiagonals_V := false } (fun _ => 0) :=
  (chain_values_monotone fl64 (fun x => fl64 (Real.log x))
    ⟨fun _ _ h => fl64_mono h, fl64_zero, fl64_idem⟩
    (fun x hx => fl64_nonneg (Real.log_nonneg hx.le)) 3 (absorbDiag ℝ) 2 (by decide)
    (fun l => l.dedup) setOrder_id (fun _ _ => none)
    { time_limit := ⊤, log_computed_offdiagonals_V := false } (fun _ => 0)).2.2.1

/-- Counterexample to C28 as stated: on the kernel `diag(100, g, g)` with
`g = 1 + 2 ^ (-52)`, whose entries are doubles, and `k = 2`, interlace greedy in doubles
with the non-lazy strategy over the fast oracle returns, its chain `0` commits the element
`2` at step `2`, and the value that the chain records at step `2` is its value at step
`1`: the double sum of `log 100` and `log g` is `log 100`.  So the value does not increase
strictly at a step where the chain committed an element. -/
theorem chain_values_monotone_counterexample :
    ∃ out, interlace_greedy
      (NonLazy.ops (fun l => l.dedup)
        (Fast.rounded fl64 Real.sqrt (fun x => fl64 (Real.log x)) (fun _ _ => none)
          (absorbDiag ℝ)))
      (Fast.rounded fl64 Real.sqrt (fun x => fl64 (Real.log x)) (fun _ _ => none)
        (absorbDiag ℝ)) 3 2
      { time_limit := ⊤, log_computed_offdiagonals_V := false } (fun _ => 0) = .ok out ∧
      (∀ i j, fl64 (absorbDiag ℝ i j) = absorbDiag ℝ i j) ∧
      out.size = 3 ∧
      out.elementAt 0 2 = some 2 ∧
      out.valueAt 0 1 = some ((fl64 (Real.log 100) : ℝ) : WithBot ℝ) ∧
      out.valueAt 0 2 = some ((fl64 (Real.log 100) : ℝ) : WithBot ℝ) ∧
      vlt (out.valueAt 0 1) (out.valueAt 0 2) = false ∧
      ¬ (vlt (out.valueAt 0 1) (out.valueAt 0 2) = true ↔
        (out.elementAt 0 2).isSome = true) := by
  have hdbl : ∀ i j, fl64 (absorbDiag ℝ i j) = absorbDiag ℝ i j := by
    intro i j
    unfold absorbDiag
    by_cases h : i = j
    · rw [if_pos h]
      rcases i with _ | _ | _ | i
      · exact double_facts.2.1
      · exact double_facts.2.2
      · exact double_facts.2.2
      · exact fl64_zero
    · rw [if_neg h]
      exact fl64_zero
  refine ⟨_, absorb_run64 (fun _ _ => none), hdbl, rfl, rfl, rfl, rfl,
    vlt_self _, ?_⟩
  intro h
  exact Bool.noConfusion ((vlt_self _).symm.trans (h.2 rfl))

end DPP

namespace DPP

/-- C35, amended: interlace chains never resume.  For every kernel `L` on `n` elements,
every `k ≤ n` and the lazy or the non-lazy strategy over the direct or the fast oracle, the
loop of `interlace_greedy` passes through the chains `interlace_chains`, every iteration
returns, and a chain whose `pop_largest()` returns nothing in an iteration returns nothing
in every later one; the run returns, the record of step `j + 1` holds what the chains
popped in iteration `j`, and the elements of each chain are recorded at the steps `1..m`
for some `m` and none afterwards; for every `j < size()`, `get_max(j)` returns a chain `f`
and a step `t ≤ j`, the first step at which the value that chain `f` recorded is not less
than its value at step `j`, `operator[](j)` returns without a failed assertion, and its
solution is the selection that the oracle of chain `f` holds after `t` iterations.  This
holds when `add` rounds the value by any `fl`, with any logarithm `lg`, and when the sum is
exact; when the sum is exact, the solution is also the selection that the oracle of chain
`f` holds after `j` iterations. -/
theorem interlace_never_resume (fl lg : ℝ → ℝ) (n : Nat) (L : Nat → Nat → ℝ) (k : Nat)
    (hk : k ≤ n) (ord : List Nat → List Nat) (hord : SetOrder ord)
    (V0 : Nat → Nat → Option ℝ) (param : Param ℝ) (clock : Nat → ℝ) :
    (NeverResume (NonLazy.ops ord (Oracle.rounded fl lg L)) (Oracle.rounded fl lg L)
        n k param clock ∧
      NeverResume (Lazy.ops ord (Oracle.rounded fl lg L)) (Oracle.rounded fl lg L)
        n k param clock ∧
      NeverResume (NonLazy.ops ord (Fast.rounded fl Real.sqrt lg V0 L))
        (Fast.rounded fl Real.sqrt lg V0 L) n k param clock ∧
      NeverResume (Lazy.ops ord (Fast.rounded fl Real.sqrt lg V0 L))
        (Fast.rounded fl Real.sqrt lg V0 L) n k param clock) ∧
    (NeverResume (NonLazy.ops ord (Oracle.ops Real.log L)) (Oracle.ops Real.log L)
        n k param clock ∧
      NeverResume (Lazy.ops ord (Oracle.ops Real.log L)) (Oracle.ops Real.log L)
        n k param clock ∧
      NeverResume (NonLazy.ops ord (Fast.ops Real.sqrt Real.log V0 L))
        (Fast.ops Real.sqrt Real.log V0 L) n k param clock ∧
      NeverResume (Lazy.ops ord (Fast.ops Real.sqrt Real.log V0 L))
        (Fast.ops Real.sqrt Real.log V0 L) n k param clock) ∧
    ReturnsSelection (NonLazy.ops ord (Oracle.ops Real.log L)) (Oracle.ops Real.log L)
      n k param clock ∧
    ReturnsSelection (Lazy.ops ord (Oracle.ops Real.log L)) (Oracle.ops Real.log L)
      n k param clock ∧
    ReturnsSelection (NonLazy.ops ord (Fast.ops Real.sqrt Real.log V0 L))
      (Fast.ops Real.sqrt Real.log V0 L) n k param clock ∧
    ReturnsSelection (Lazy.ops ord (Fast.ops Real.sqrt Real.log V0 L))
      (Fast.ops Real.sqrt Real.log V0 L) n k param clock := by
  -- The chains of `interlace_greedy` never resume, for a strategy and an oracle under
  -- which the selection and the value of a chain change only when the chain pops an element.
  have neverResume_kit {τ σ α : Type} [LinearOrderedField α] (sops : StrategyOps τ σ α)
      (oops : OracleOps σ α) (n k : Nat) (hk : k ≤ n) (param : Param α) (clock : Nat → α)
      (htrack : ∀ t (f : Fin 4), ∃ c es c', interlace_chains sops oops n k param t = .ok c ∧
        interlace_popped sops oops n k param t = .ok (es, c') ∧
        interlace_chains sops oops n k param (t + 1) = .ok c' ∧
        (t = 0 → oops.get_solution (c.get f).oracle = [] ∧
          oops.get_value (c.get f).oracle = some ((0 : α) : WithBot α)) ∧
        (es f = none → oops.get_solution (c'.get f).oracle = oops.get_solution (c.get f).oracle ∧
          oops.get_value (c'.get f).oracle = oops.get_value (c.get f).oracle) ∧
        ∀ e, es f = some e →
          oops.get_solution (c'.get f).oracle = oops.get_solution (c.get f).oracle ++ [e])
      (hnone : ∀ (t' t : Nat) (es' es : Fin 4 → Option Nat) (c' c : Chains τ σ) (f : Fin 4),
        t' ≤ t → interlace_popped sops oops n k param t' = .ok (es', c') →
        interlace_popped sops oops n k param t = .ok (es, c) → es' f = none → es f = none) :
      NeverResume sops oops n k param clock := by
    -- The leading elements that `takeWhile` keeps satisfy the predicate, and the next one
    -- does not.
    have takeWhile_length_spec {β : Type} (p : β → Bool) :
        ∀ (l : List β), (l.takeWhile p).length ≤ l.length ∧
          (∀ i, i < (l.takeWhile p).length → ∃ x, l.get? i = some x ∧ p x = true) ∧
          ((l.takeWhile p).length < l.length →
            ∃ x, l.get? (l.takeWhile p).length = some x ∧ p x = false) := by
      intro l
      induction l with
      | nil => exact ⟨le_rfl, fun i hi => by simp at hi, fun h => by simp at h⟩
      | cons y ys ih =>
        obtain ⟨i1, i2, i3⟩ := ih
        by_cases hp : p y = true
        · have e : (y :: ys).takeWhile p = y :: ys.takeWhile p := by simp [List.takeWhile, hp]
          rw [e]
          refine ⟨by simpa using i1, ?_, ?_⟩
          · intro i hi
            cases i with
            | zero => exact ⟨y, rfl, hp⟩
            | succ i =>
              have := i2 i (by simpa using hi)
              simpa using this
          · intro h
            have := i3 (by simpa using h)
            simpa using this
        · have e : (y :: ys).takeWhile p = [] := by simp [List.takeWhile, hp]
          rw [e]
          refine ⟨by simp, fun i hi => by simp at hi, fun _ => ⟨y, rfl, ?_⟩⟩
          simpa using hp
    have hstep : ∀ t, ∃ c es c', interlace_chains sops oops n k param t = .ok c ∧
        interlace_popped sops oops n k param t = .ok (es, c') ∧
        interlace_chains sops oops n k param (t + 1) = .ok c' := by
      intro t
      obtain ⟨c, es, c', h1, h2, h3, _⟩ := htrack t 0
      exact ⟨c, es, c', h1, h2, h3⟩
    refine ⟨interlaceUnfolds_of sops oops n k param clock, ?_, hnone, ?_⟩
    · intro t
      obtain ⟨_, es, c', _, h2, _⟩ := hstep t
      exact ⟨es, c', h2⟩
    obtain ⟨c0, hc0, hloop⟩ := (interlaceUnfolds_of sops oops n k param clock).1 hk
    obtain ⟨out, l1, l2, l3, l4, l5⟩ := interlace_loop_values sops oops n k param clock hstep
      k 0 c0 (InterlaceResult.init α) hc0 rfl rfl
    rw [Nat.zero_add] at l2 l3
    have hsz : out.size = out.quadruples.length := by
      unfold InterlaceResult.size
      rw [l2, l3]
    -- what every step records
    have hA : ∀ (f : Fin 4) j, j < out.size → ∃ c, interlace_chains sops oops n k param j = .ok c ∧
        out.valueAt f j = oops.get_value (c.get f).oracle := by
      intro f j hj
      cases j with
      | zero =>
        obtain ⟨c, _, _, h1, _, _, h4, _⟩ := htrack 0 f
        refine ⟨c, h1, ?_⟩
        rw [(l4 f 0 (by omega)).2, (init_at f).2, (h4 rfl).2]
      | succ j =>
        obtain ⟨es, c', _, q2, q3⟩ := l5 j (Nat.zero_le j) (by rw [hsz, l2] at hj; omega)
        exact ⟨c', q2, (q3 f).2⟩
    have hB : ∀ j, j + 1 < out.size → ∃ es c', interlace_popped sops oops n k param j
        = .ok (es, c') ∧ ∀ f, out.elementAt f (j + 1) = es f := by
      intro j hj
      obtain ⟨es, c', q1, _, q3⟩ := l5 j (Nat.zero_le j) (by rw [hsz, l2] at hj; omega)
      exact ⟨es, c', q1, fun f => (q3 f).1⟩
    have hC : ∀ (f : Fin 4) j, j + 1 < out.size → out.elementAt f (j + 1) = none →
        out.valueAt f (j + 1) = out.valueAt f j := by
      intro f j hj hn
      obtain ⟨c, es, c', h1, h2, h3, _, h5, _⟩ := htrack j f
      obtain ⟨es1, c1, q1, q2⟩ := hB j hj
      rw [h2] at q1
      simp only [Except.ok.injEq, Prod.mk.injEq] at q1
      obtain ⟨rfl, rfl⟩ := q1
      rw [q2 f] at hn
      obtain ⟨a1, ha1, hv1⟩ := hA f (j + 1) hj
      obtain ⟨a0, ha0, hv0⟩ := hA f j (by omega)
      rw [h3] at ha1
      rw [h1] at ha0
      simp only [Except.ok.injEq] at ha1 ha0
      subst ha1
      subst ha0
      rw [hv1, hv0, (h5 hn).2]
    have hD : ∀ (f : Fin 4) i i', 0 < i → i ≤ i' → i' < out.size → out.elementAt f i = none →
        out.elementAt f i' = none := by
      intro f i i' h0 hle hi' hn
      obtain ⟨i0, rfl⟩ : ∃ i0, i = i0 + 1 := ⟨i - 1, by omega⟩
      obtain ⟨j0, rfl⟩ : ∃ j0, i' = j0 + 1 := ⟨i' - 1, by omega⟩
      obtain ⟨es1, c1, q1, q2⟩ := hB i0 (by omega)
      obtain ⟨es2, c2, r1, r2⟩ := hB j0 hi'
      rw [q2 f] at hn
      rw [r2 f]
      exact hnone i0 j0 es1 es2 c1 c2 f (by omega) q1 r1 hn
    have hE : ∀ (f : Fin 4) i j, 0 < i → i ≤ j → j < out.size → out.elementAt f i = none →
        out.valueAt f j = out.valueAt f (i - 1) := by
      intro f i j h0 hij hj hn
      induction j with
      | zero => omega
      | succ j ih =>
        rcases Nat.eq_or_lt_of_le hij with heq | hlt
        · subst heq
          simp only [Nat.add_sub_cancel]
          exact hC f j hj hn
        · have h1 := ih (by omega) (by omega)
          rw [← h1]
          exact hC f j hj (hD f i (j + 1) h0 (by omega) hj hn)
    refine ⟨out, by rw [hloop, l1], ?_, ?_, ?_⟩
    · intro j hj
      exact hB j hj
    · intro f
      classical
      by_cases h : ∃ i, 0 < i ∧ i < out.size ∧ out.elementAt f i = none
      · refine ⟨Nat.find h - 1, ?_⟩
        obtain ⟨p1, p2, p3⟩ := Nat.find_spec h
        intro j hj
        refine ⟨?_, ?_⟩
        · intro h0 hle
          have hlt : j < Nat.find h := by omega
          have := Nat.find_min h hlt
          by_contra hc
          apply this
          refine ⟨h0, hj, ?_⟩
          cases he : out.elementAt f j with
          | none => rfl
          | some e => rw [he] at hc; simp at hc
        · intro hlt
          exact hD f (Nat.find h) j p1 (by omega) hj p3
      · refine ⟨out.size, ?_⟩
        intro j hj
        refine ⟨?_, fun hlt => by omega⟩
        intro h0 _
        by_contra hc
        apply h
        refine ⟨j, h0, hj, ?_⟩
        cases he : out.elementAt f j with
        | none => rfl
        | some e => rw [he] at hc; simp at hc
    · intro j hj
      have hjq : j < out.quadruples.length := by rw [← hsz]; exact hj
      have key : ∀ f : Fin 4, ∃ c, (InterlaceResult.maxima out j f).1 ≤ j ∧
          (∀ i, i < (InterlaceResult.maxima out j f).1 →
            vlt (out.valueAt f i) (out.valueAt f j) = true) ∧
          ((InterlaceResult.maxima out j f).1 < j →
            vlt (out.valueAt f (InterlaceResult.maxima out j f).1) (out.valueAt f j) = false) ∧
          interlace_chains sops oops n k param (InterlaceResult.maxima out j f).1 = .ok c ∧
          out.sol f (InterlaceResult.maxima out j f).1
            = .ok (oops.get_solution (c.get f).oracle) := by
        intro f
        have hlen : (out.quadruples.take j).length = j := by
          rw [List.length_take]
          omega
        obtain ⟨s1', s2', s3'⟩ := takeWhile_length_spec
          (fun q : Fin 4 → OptionalElementValuePair α => vlt (q f).value (out.valueAt f j))
          (out.quadruples.take j)
        have s1 : (InterlaceResult.maxima out j f).1 ≤ j := le_trans s1' (le_of_eq hlen)
        have s2 : ∀ i, i < (InterlaceResult.maxima out j f).1 →
            ∃ x, (out.quadruples.take j).get? i = some x ∧
              vlt (x f).value (out.valueAt f j) = true := s2'
        have s3 : (InterlaceResult.maxima out j f).1 < j →
            ∃ x, (out.quadruples.take j).get? (InterlaceResult.maxima out j f).1 = some x ∧
              vlt (x f).value (out.valueAt f j) = false := by
          intro h
          exact s3' (lt_of_lt_of_le h (le_of_eq hlen.symm))
        clear s1' s2' s3'
        generalize (InterlaceResult.maxima out j f).1 = t at s1 s2 s3
        have hget : ∀ i, i < j → (out.quadruples.take j).get? i = out.quadruples.get? i := by
          intro i hi
          rw [List.get?_eq_getElem?, List.getElem?_take, if_pos hi, ← List.get?_eq_getElem?]
        have hlow : ∀ i, i < t → vlt (out.valueAt f i) (out.valueAt f j) = true := by
          intro i hi
          obtain ⟨x, hx, hp⟩ := s2 i hi
          rw [hget i (by omega)] at hx
          simp only [InterlaceResult.valueAt, hx] at hp ⊢
          exact hp
        have hstop : t < j → vlt (out.valueAt f t) (out.valueAt f j) = false := by
          intro hi
          obtain ⟨x, hx, hp⟩ := s3 hi
          rw [hget _ hi] at hx
          have : out.valueAt f t = (x f).value := by
            simp only [InterlaceResult.valueAt, hx]
          rw [this]
          exact hp
        have hpres : ∀ i, 0 < i → i ≤ t → ∃ e, out.elementAt f i = some e := by
          intro i h0 hi
          cases he : out.elementAt f i with
          | some e => exact ⟨e, rfl⟩
          | none =>
            exfalso
            have h1 := hE f i j h0 (by omega) hj he
            have h2 := hlow (i - 1) (by omega)
            rw [← h1, vlt_self] at h2
            cases h2
        have hsol : ∀ t', t' ≤ t →
            ∃ c, interlace_chains sops oops n k param t' = .ok c ∧
              out.sol f t' = .ok (oops.get_solution (c.get f).oracle) := by
          intro t'
          induction t' with
          | zero =>
            intro _
            obtain ⟨c, _, _, h1, _, _, h4, _⟩ := htrack 0 f
            exact ⟨c, h1, by rw [(h4 rfl).1]; rfl⟩
          | succ t' ih =>
            intro ht'
            obtain ⟨c, hc, hs⟩ := ih (by omega)
            obtain ⟨c1, es, c', h1, h2, h3, _, _, h6⟩ := htrack t' f
            rw [hc] at h1
            simp only [Except.ok.injEq] at h1
            subst h1
            obtain ⟨e, he⟩ := hpres (t' + 1) (Nat.succ_pos _) ht'
            obtain ⟨es1, c1, q1, q2⟩ := hB t' (by omega)
            rw [h2] at q1
            simp only [Except.ok.injEq, Prod.mk.injEq] at q1
            obtain ⟨rfl, rfl⟩ := q1
            obtain ⟨q, g1, g2, _⟩ := snap_at out f (t' + 1) (by omega)
            rw [he] at g2
            refine ⟨c', h3, ?_⟩
            rw [h6 e (by rw [← q2 f]; exact he)]
            simp only [InterlaceResult.sol, hs, g1, ← g2]
        obtain ⟨c, hc, hs⟩ := hsol t le_rfl
        exact ⟨c, s1, hlow, hstop, hc, hs⟩
      obtain ⟨c, k1, k2, k3, k4, k5⟩ := key
        (InterlaceResult.max_element (InterlaceResult.maxima out j))
      obtain ⟨mm, hm⟩ : ∃ mm, out.measurements.get? j = some mm :=
        ⟨out.measurements.get ⟨j, hj⟩, List.get?_eq_get hj⟩
      have hmax : out.get_max j = .ok (InterlaceResult.max_element (InterlaceResult.maxima out j),
          (InterlaceResult.maxima out j
            (InterlaceResult.max_element (InterlaceResult.maxima out j))).1,
          (InterlaceResult.maxima out j
            (InterlaceResult.max_element (InterlaceResult.maxima out j))).2) := by
        unfold InterlaceResult.get_max
        rw [if_pos hj]
      have hgetr : ∃ r, out.get j = .ok r ∧
          r.solution = oops.get_solution (c.get (InterlaceResult.max_element
            (InterlaceResult.maxima out j))).oracle := by
        unfold InterlaceResult.get
        rw [if_neg (Nat.not_le.mpr hj), hmax]
        simp only [k5, hm]
        exact ⟨_, rfl, rfl⟩
      obtain ⟨r, hr1, hr2⟩ := hgetr
      exact ⟨r, _, _, _, c, hmax, hr1, k1, k2, k3, k4, hr2⟩
  -- A chain that pops nothing in an iteration pops nothing in any later one.
  have interlace_none_stays {τ σ α : Type} [LinearOrderedField α] (log : α → α)
      (n : Nat) (oops : OracleOps σ α) (Good : σ → Prop) (Holds : σ → Nat → α → Prop)
      (B : OracleBase oops log Good Holds) (sops : StrategyOps τ σ α) (getT : τ → List Nat)
      (getD : τ → Bool) (SI : τ → Prop) (Dead : τ → σ → Prop)
      (SL : StrategyLaw n oops Good sops getT getD SI Dead) (k : Nat) (param : Param α)
      (t' t : Nat) (es' es : Fin 4 → Option Nat) (c' c : Chains τ σ) (f : Fin 4) (ht : t' ≤ t)
      (hp' : interlace_popped sops oops n k param t' = .ok (es', c'))
      (hp : interlace_popped sops oops n k param t = .ok (es, c)) (hn : es' f = none) :
      es f = none := by
    -- A chain that pops nothing in an iteration is dead in every later one.
    have interlace_dead_stays {τ σ α : Type} [LinearOrderedField α] (log : α → α)
        (n : Nat) (oops : OracleOps σ α) (Good : σ → Prop) (Holds : σ → Nat → α → Prop)
        (B : OracleBase oops log Good Holds) (sops : StrategyOps τ σ α) (getT : τ → List Nat)
        (getD : τ → Bool) (SI : τ → Prop) (Dead : τ → σ → Prop)
        (SL : StrategyLaw n oops Good sops getT getD SI Dead) (k : Nat) (param : Param α)
        (t : Nat) (f : Fin 4) (es : Fin 4 → Option Nat) (c' : Chains τ σ)
        (hp : interlace_popped sops oops n k param t = .ok (es, c')) (hn : es f = none) :
        ∀ d, ∃ c, interlace_chains sops oops n k param (t + 1 + d) = .ok c ∧
          Dead (c.get f).strategy (c.get f).oracle := by
      intro d
      induction d with
      | zero =>
        obtain ⟨c, es1, c1, _, h2, h3, _, h5⟩ :=
          interlace_chains_moved log n oops Good Holds B sops getT getD SI Dead SL k param t
        rw [hp] at h2
        simp only [Except.ok.injEq, Prod.mk.injEq] at h2
        obtain ⟨rfl, rfl⟩ := h2
        exact ⟨c', h3, ((h5 f).2.1 hn).1⟩
      | succ d ih =>
        obtain ⟨c, hc, hd⟩ := ih
        obtain ⟨c0, es1, c1, h1, _, h3, _, h5⟩ :=
          interlace_chains_moved log n oops Good Holds B sops getT getD SI Dead SL k param
            (t + 1 + d)
        rw [hc] at h1
        simp only [Except.ok.injEq] at h1
        subst h1
        exact ⟨c1, h3, ((h5 f).2.1 ((h5 f).1 hd)).1⟩
    rcases Nat.eq_or_lt_of_le ht with heq | hlt
    · subst heq
      rw [hp'] at hp
      simp only [Except.ok.injEq, Prod.mk.injEq] at hp
      rw [← hp.1]
      exact hn
    · obtain ⟨c0, hc0, hd⟩ :=
        interlace_dead_stays log n oops Good Holds B sops getT getD SI Dead SL k param t' f
          es' c' hp' hn (t - (t' + 1))
      have hidx : t' + 1 + (t - (t' + 1)) = t := by omega
      rw [hidx] at hc0
      obtain ⟨c1, es1, c2, h1, h2, _, _, h5⟩ :=
        interlace_chains_moved log n oops Good Holds B sops getT getD SI Dead SL k param t
      rw [hc0] at h1
      simp only [Except.ok.injEq] at h1
      subst h1
      rw [hp] at h2
      simp only [Except.ok.injEq, Prod.mk.injEq] at h2
      rw [h2.1]
      exact (h5 f).1 hd
  -- The chains of `interlace_greedy` never resume, over an exact oracle.
  have neverResume_exact {τ σ α : Type} [LinearOrderedField α] (log : α → α)
      (n : Nat) (oops : OracleOps σ α) (Good : σ → Prop) (Holds : σ → Nat → α → Prop)
      (B : OracleBase oops log Good Holds) (sops : StrategyOps τ σ α) (getT : τ → List Nat)
      (getD : τ → Bool) (SI : τ → Prop) (Dead : τ → σ → Prop)
      (SL : StrategyLaw n oops Good sops getT getD SI Dead) (k : Nat) (hk : k ≤ n)
      (param : Param α) (clock : Nat → α) :
      NeverResume sops oops n k param clock := by
    refine neverResume_kit sops oops n k hk param clock ?_ ?_
    · intro t f
      obtain ⟨c, es, c', h1, h2, h3, h4, h5, h6⟩ :=
        interlace_track_exact log n oops Good Holds B sops getT getD SI Dead SL k param t f
      exact ⟨c, es, c', h1, h2, h3, h4, h5, fun e he => (h6 e he).1⟩
    · intro t' t es' es c' c f
      exact interlace_none_stays log n oops Good Holds B sops getT getD SI Dead SL k param
        t' t es' es c' c f
  -- With exact sums, what `operator[]` returns is the selection that the chosen chain holds
  -- after the step asked for.
  have returnsSelection_exact {τ σ α : Type} [LinearOrderedField α] {sqrt log : α → α}
      [Numeric sqrt log]
      (n : Nat) (oops : OracleOps σ α) (Good : σ → Prop) (Holds : σ → Nat → α → Prop)
      (B : OracleBase oops log Good Holds) (sops : StrategyOps τ σ α) (getT : τ → List Nat)
      (getD : τ → Bool) (SI : τ → Prop) (Dead : τ → σ → Prop)
      (SL : StrategyLaw n oops Good sops getT getD SI Dead) (k : Nat) (hk : k ≤ n)
      (param : Param α) (clock : Nat → α) :
      ReturnsSelection sops oops n k param clock := by
    have filterMap_range_stable {β : Type} (g : Nat → Option β) (t : Nat) :
        ∀ j, t ≤ j → (∀ i, t ≤ i → i < j → g i = none) →
          (List.range j).filterMap g = (List.range t).filterMap g := by
      intro j
      induction j with
      | zero =>
        intro h _
        have : t = 0 := by omega
        rw [this]
      | succ j ih =>
        intro h hn
        rcases Nat.eq_or_lt_of_le h with heq | hlt
        · rw [heq]
        · rw [List.range_succ, List.filterMap_append, ih (by omega) (fun i h1 h2 => hn i h1 (by omega))]
          simp [List.filterMap, hn j (by omega) (by omega)]
    obtain ⟨_, _, _, out, hout, _, _, hget⟩ :=
      neverResume_exact log n oops Good Holds B sops getT getD SI Dead SL k hk param clock
    obtain ⟨out', hout', hmono⟩ := @chainsMonotone_of _ _ α _ sqrt log _ n _ _ _ B _ _ _ _ _
      SL k hk param clock
    rw [hout] at hout'
    simp only [Except.ok.injEq] at hout'
    subst hout'
    have hsol := chain_solution_kit sops oops n k hk param clock (by
      intro t f
      obtain ⟨c, es, c', h1, h2, h3, h4, h5, h6⟩ :=
        interlace_track_exact log n oops Good Holds B sops getT getD SI Dead SL k param t f
      exact ⟨c, es, c', h1, h2, h3, fun ht => (h4 ht).1, fun hn => (h5 hn).1,
        fun e he => (h6 e he).1⟩) out hout
    refine ⟨out, hout, ?_⟩
    intro j hj
    obtain ⟨r, f, t, v, c, g1, g2, g3, _, g5, g6, g7⟩ := hget j hj
    obtain ⟨cj, hcj, hsj⟩ := hsol j hj
    obtain ⟨ct, hct, hst⟩ := hsol t (by omega)
    rw [g6] at hct
    simp only [Except.ok.injEq] at hct
    subst hct
    refine ⟨r, f, t, v, cj, g1, g2, hcj, ?_⟩
    rw [g7, hst f, hsj f]
    symm
    apply filterMap_range_stable _ t j g3
    intro i h1 h2
    obtain ⟨m1, m2, _⟩ := hmono f
    cases he : out.elementAt f (i + 1) with
    | none => rfl
    | some e =>
      exfalso
      have hv := ((m2 i (by omega)).1).2 (by rw [he]; rfl)
      obtain ⟨x, y, hx, hy, hxy⟩ := m1 t i h1 (by omega)
      obtain ⟨y', z, hy', hz, hyz⟩ := m1 (i + 1) j (by omega) hj
      have hf := g5 (by omega)
      rw [hy, hy', vlt_coe, decide_eq_true_eq] at hv
      rw [hx, hz, vlt_coe, decide_eq_false_iff_not] at hf
      exact hf (lt_of_le_of_lt hxy (lt_of_lt_of_le hv hyz))
  -- The chains of `interlace_greedy` never resume, over an oracle whose `add` rounds the
  -- value by `fl`.
  have neverResume_rounded {τ σ α : Type} [LinearOrderedField α] (fl lg : α → α)
      (cell : σ → Nat → Option α) (log : α → α) (n : Nat) (oops : OracleOps σ α)
      (Good : σ → Prop) (Holds : σ → Nat → α → Prop) (B : OracleBase oops log Good Holds)
      (hcell : ∀ o e v, Holds o e v → cell o e = some v)
      (sops : StrategyOps τ (σ × Value α) α) (getT : τ → List Nat)
      (getD : τ → Bool) (SI : τ → Prop) (Dead : τ → σ × Value α → Prop)
      (SL : StrategyLaw n (unrounded fl lg cell oops) (fun p => Good p.1) sops getT getD SI Dead)
      (k : Nat) (hk : k ≤ n) (param : Param α) (clock : Nat → α) :
      NeverResume sops (rounded fl lg cell oops) n k param clock := by
    refine neverResume_kit sops _ n k hk param clock ?_ ?_
    · intro t f
      obtain ⟨c, es, c', h1, h2, h3, h4, h5, h6⟩ := interlace_track_rounded fl lg cell log n
        oops Good Holds B hcell sops getT getD SI Dead SL k param t f
      exact ⟨c, es, c', h1, h2, h3, h4, h5, fun e he => (h6 e he).1⟩
    · intro t' t es' es c' c f ht hp' hp
      have BW := unrounded_base fl lg cell oops log Good Holds B
      have e2 := interlace_popped_congr sops (rounded fl lg cell oops)
        (unrounded fl lg cell oops) rfl rfl n k param
      rw [e2 t'] at hp'
      rw [e2 t] at hp
      exact interlace_none_stays log n _ _ _ BW sops getT getD SI Dead SL k param
        t' t es' es c' c f ht hp' hp
  have BD := direct_base lg L
  have BF := fast_base Real.sqrt lg V0 L
  have ED := direct_base Real.log L
  have EF := fast_base Real.sqrt Real.log V0 L
  refine ⟨⟨?_, ?_, ?_, ?_⟩, ⟨?_, ?_, ?_, ?_⟩, ?_, ?_, ?_, ?_⟩
  · exact neverResume_rounded fl lg _ lg n _ _ _ BD (fun _ _ _ h => h.1) _ _ _ _ _
      (nonlazy_direct_rounded_law fl lg n L ord hord) k hk param clock
  · exact neverResume_rounded fl lg _ lg n _ _ _ BD (fun _ _ _ h => h.1) _ _ _ _ _
      (lazy_direct_rounded_law fl lg n L ord hord) k hk param clock
  · exact neverResume_rounded fl lg _ lg n _ _ _ BF (fun _ _ _ h => h.1) _ _ _ _ _
      (nonlazy_fast_rounded_law fl Real.sqrt lg n V0 L ord hord) k hk param clock
  · exact neverResume_rounded fl lg _ lg n _ _ _ BF (fun _ _ _ h => h.1) _ _ _ _ _
      (lazy_fast_rounded_law fl Real.sqrt lg n V0 L ord hord) k hk param clock
  · exact neverResume_exact Real.log n _ _ _ ED _ _ _ _ _
      (nonlazy_law n _ ED.law _ ord hord) k hk param clock
  · exact neverResume_exact Real.log n _ _ _ ED _ _ _ _ _
      (lazy_law n _ ED.law _ ord hord) k hk param clock
  · exact neverResume_exact Real.log n _ _ _ EF _ _ _ _ _
      (nonlazy_law n _ EF.law _ ord hord) k hk param clock
  · exact neverResume_exact Real.log n _ _ _ EF _ _ _ _ _
      (lazy_law n _ EF.law _ ord hord) k hk param clock
  · exact @returnsSelection_exact _ _ ℝ _ Real.sqrt Real.log _ n _ _ _ ED _ _ _ _ _
      (nonlazy_law n _ ED.law _ ord hord) k hk param clock
  · exact @returnsSelection_exact _ _ ℝ _ Real.sqrt Real.log _ n _ _ _ ED _ _ _ _ _
      (lazy_law n _ ED.law _ ord hord) k hk param clock
  · exact @returnsSelection_exact _ _ ℝ _ Real.sqrt Real.log _ n _ _ _ EF _ _ _ _ _
      (nonlazy_law n _ EF.law _ ord hord) k hk param clock
  · exact @returnsSelection_exact _ _ ℝ _ Real.sqrt Real.log _ n _ _ _ EF _ _ _ _ _
      (lazy_law n _ EF.law _ ord hord) k hk param clock

/-- Witness of C35: interlace greedy in doubles with the non-lazy strategy over the fast
oracle on the kernel `diag(100, 1 + 2 ^ (-52), 1 + 2 ^ (-52))` with `k = 2`. -/
theorem interlace_never_resume_witness :
    NeverResume
      (NonLazy.ops (fun l => l.dedup)
        (Fast.rounded fl64 Real.sqrt (fun x => fl64 (Real.log x)) (fun _ _ => none)
          (absorbDiag ℝ)))
      (Fast.rounded fl64 Real.sqrt (fun x => fl64 (Real.log x)) (fun _ _ => none)
        (absorbDiag ℝ)) 3 2
      { time_limit := ⊤, log_computed_offdiagonals_V := false } (fun _ => 0) :=
  (interlace_never_resume fl64 (fun x => fl64 (Real.log x)) 3 (absorbDiag ℝ) 2 (by decide)
    (fun l => l.dedup) setOrder_id (fun _ _ => none)
    { time_limit := ⊤, log_computed_offdiagonals_V := false } (fun _ => 0)).1.2.2.1

/-- Counterexample to C35 as stated: on the kernel `diag(100, g, g)` with
`g = 1 + 2 ^ (-52)` and `k = 2`, interlace greedy in doubles with the non-lazy strategy
over the fast oracle records three snapshots; `get_max(2)` chooses chain `0` and step `1`,
because the value of the chain at step `1` is already its value at step `2`, and
`operator[](2)` returns the solution `[0]`; after the two iterations the oracles of the
chains hold `[0, 2]`, `[1]`, `[0, 1]` and `[0, 2]`, so the solution returned is not the
selection that the chosen chain holds after step `2`, nor that of any chain. -/
theorem interlace_never_resume_counterexample :
    ∃ out r c, interlace_greedy
      (NonLazy.ops (fun l => l.dedup)
        (Fast.rounded fl64 Real.sqrt (fun x => fl64 (Real.log x)) (fun _ _ => none)
          (absorbDiag ℝ)))
      (Fast.rounded fl64 Real.sqrt (fun x => fl64 (Real.log x)) (fun _ _ => none)
        (absorbDiag ℝ)) 3 2
      { time_limit := ⊤, log_computed_offdiagonals_V := false } (fun _ => 0) = .ok out ∧
      out.size = 3 ∧
      out.get_max 2 = .ok (0, 1, some ((fl64 (Real.log 100) : ℝ) : WithBot ℝ)) ∧
      out.get 2 = .ok r ∧ r.solution = [0] ∧
      interlace_chains
        (NonLazy.ops (fun l => l.dedup)
          (Fast.rounded fl64 Real.sqrt (fun x => fl64 (Real.log x)) (fun _ _ => none)
            (absorbDiag ℝ)))
        (Fast.rounded fl64 Real.sqrt (fun x => fl64 (Real.log x)) (fun _ _ => none)
          (absorbDiag ℝ)) 3 2
        { time_limit := ⊤, log_computed_offdiagonals_V := false } 2 = .ok c ∧
      (∀ f, (Fast.rounded fl64 Real.sqrt (fun x => fl64 (Real.log x)) (fun _ _ => none)
        (absorbDiag ℝ)).get_solution (c.get f).oracle = ![[0, 2], [1], [0, 1], [0, 2]] f) ∧
      (∀ f, r.solution ≠ (Fast.rounded fl64 Real.sqrt (fun x => fl64 (Real.log x))
        (fun _ _ => none) (absorbDiag ℝ)).get_solution (c.get f).oracle) ∧
      ¬ ReturnsSelection
        (NonLazy.ops (fun l => l.dedup)
          (Fast.rounded fl64 Real.sqrt (fun x => fl64 (Real.log x)) (fun _ _ => none)
            (absorbDiag ℝ)))
        (Fast.rounded fl64 Real.sqrt (fun x => fl64 (Real.log x)) (fun _ _ => none)
          (absorbDiag ℝ)) 3 2
        { time_limit := ⊤, log_computed_offdiagonals_V := false } (fun _ => 0) := by
  -- The run on `diag(100, g, g)` in doubles, read: the selections that the four chains
  -- hold after the two iterations, and what `get_max(2)` and `operator[](2)` return on the
  -- snapshots.
  have absorb_reads :
      (∃ c, interlace_chains
        (NonLazy.ops (fun l => l.dedup)
          (Fast.rounded fl64 Real.sqrt (fun x => fl64 (Real.log x)) (fun _ _ => none)
            (absorbDiag ℝ)))
        (Fast.rounded fl64 Real.sqrt (fun x => fl64 (Real.log x)) (fun _ _ => none)
          (absorbDiag ℝ)) 3 2
        { time_limit := ⊤, log_computed_offdiagonals_V := false } 2 = .ok c ∧
        ∀ f, (Fast.rounded fl64 Real.sqrt (fun x => fl64 (Real.log x)) (fun _ _ => none)
          (absorbDiag ℝ)).get_solution (c.get f).oracle = ![[0, 2], [1], [0, 1], [0, 2]] f) ∧
      ∀ out : InterlaceResult ℝ, interlace_greedy
        (NonLazy.ops (fun l => l.dedup)
          (Fast.rounded fl64 Real.sqrt (fun x => fl64 (Real.log x)) (fun _ _ => none)
            (absorbDiag ℝ)))
        (Fast.rounded fl64 Real.sqrt (fun x => fl64 (Real.log x)) (fun _ _ => none)
          (absorbDiag ℝ)) 3 2
        { time_limit := ⊤, log_computed_offdiagonals_V := false } (fun _ => 0) = .ok out →
        out.size = 3 ∧
      out.get_max 2 = .ok (0, 1, some ((fl64 (Real.log 100) : ℝ) : WithBot ℝ)) ∧
      ∃ r, out.get 2 = .ok r ∧ r.solution = [0] := by
    obtain ⟨_, _, _, _, _, _, log64_succ_ulp, log64_hundred, _⟩ := log64_facts
    constructor
    · have hsol := chain_solution_kit _ _ 3 2 (by decide)
        { time_limit := ⊤, log_computed_offdiagonals_V := false } (fun _ => (0 : ℝ)) (by
        intro t f
        obtain ⟨c, es, c', h1, h2, h3, h4, h5, h6⟩ := interlace_track_rounded fl64
          (fun x => fl64 (Real.log x)) (fun o e => o.d e) (fun x => fl64 (Real.log x)) 3 _ _ _
          (fast_base Real.sqrt (fun x => fl64 (Real.log x)) (fun _ _ => none) (absorbDiag ℝ))
          (fun _ _ _ h => h.1) _ _ _ _ _
          (nonlazy_fast_rounded_law fl64 Real.sqrt (fun x => fl64 (Real.log x)) 3
            (fun _ _ => none) (absorbDiag ℝ) (fun l => l.dedup) setOrder_id) 2
          { time_limit := ⊤, log_computed_offdiagonals_V := false } t f
        exact ⟨c, es, c', h1, h2, h3, fun ht => (h4 ht).1, fun hn => (h5 hn).1,
          fun e he => (h6 e he).1⟩) _ (absorb_run64 (fun _ _ => none)) 2 (by decide)
      obtain ⟨c, hc, hs⟩ := hsol
      refine ⟨c, hc, ?_⟩
      intro f
      rw [hs f]
      fin_cases f <;>
        simp [List.range, List.range.loop, List.filterMap, InterlaceResult.elementAt]
    · intro out h
      have hA : (0 : ℝ) < fl64 (Real.log 100) := by linarith [log64_hundred.1]
      have hB : (0 : ℝ) < fl64 (Real.log (1 + 2 ^ (-52 : Int))) := log64_succ_ulp.1
      have hBA : fl64 (Real.log (1 + 2 ^ (-52 : Int))) < fl64 (Real.log 100) := by
        have h1 := log64_succ_ulp.2
        have h2 := log64_hundred.1
        have h3 : (2 : ℝ) ^ (-52 : Int) < 1 := by
          have := zpow_lt_zpow_right₀ (a := (2 : ℝ)) (by norm_num) (show (-52 : Int) < 0 by norm_num)
          simpa using this
        linarith
      have hAB : ¬ fl64 (Real.log 100) < fl64 (Real.log (1 + 2 ^ (-52 : Int))) := not_lt.mpr hBA.le
      rw [absorb_run64] at h
      simp only [Except.ok.injEq] at h
      subst h
      generalize fl64 (Real.log 100) = A at hA hBA hAB
      generalize fl64 (Real.log (1 + 2 ^ (-52 : Int))) = B at hB hBA hAB
      have h1 : ¬ A ≤ B := not_le.mpr hBA
      have h2 : ¬ B ≤ 0 := not_le.mpr hB
      have h3 : ¬ A ≤ 0 := not_le.mpr hA
      refine ⟨rfl, ?_, ?_⟩
      · rw [InterlaceResult.get_max]
        simp [InterlaceResult.size, InterlaceResult.maxima, InterlaceResult.max_element,
          maxima_less, vlt, hA, hB, hBA, hAB, h1, h2, h3]
      · rw [InterlaceResult.get, InterlaceResult.get_max]
        simp [InterlaceResult.size, InterlaceResult.maxima, InterlaceResult.max_element,
          maxima_less, vlt, hA, hB, hBA, hAB, h1, h2, h3, InterlaceResult.sol]
  have hrun := absorb_run64 (fun _ _ => none)
  obtain ⟨hsz, hmax, r, hget, hr⟩ := absorb_reads.2 _ hrun
  obtain ⟨c, hc, hs⟩ := absorb_reads.1
  have hne : ∀ f : Fin 4, r.solution ≠ (Fast.rounded fl64 Real.sqrt
      (fun x => fl64 (Real.log x)) (fun _ _ => none) (absorbDiag ℝ)).get_solution
        (c.get f).oracle := by
    intro f
    rw [hs f, hr]
    fin_cases f <;> simp
  refine ⟨_, r, c, hrun, hsz, hmax, hget, hr, hc, hs, hne, ?_⟩
  rintro ⟨out', hout', h⟩
  rw [hrun] at hout'
  simp only [Except.ok.injEq] at hout'
  subst hout'
  obtain ⟨r', f, t, v, c', g1, g2, g3, g4⟩ := h 2 (by rw [hsz]; decide)
  rw [hget] at g2
  rw [hc] at g3
  simp only [Except.ok.injEq] at g2 g3
  subst g2
  subst g3
  exact hne f g4

end DPP

namespace DPP

/-- Over a positive semidefinite kernel, what is left of the diagonal entry of an element
outside a selection with positive pivots is not negative. -/
theorem chol_residual_nonneg {α : Type} [LinearOrderedField α]
    {sqrt log : α → α} [Numeric sqrt log]
    (n : Nat) (L : Nat → Nat → α) (hL : PosSemidefOn n L) (s : Nat → Nat) (j : Nat)
    (hs : ∀ i < j, s i < n) (hinj : ∀ a < j, ∀ b < j, s a = s b → a = b)
    (hp : ∀ i < j, 0 < pivot sqrt L s i)
    (e : Nat) (he : e < n) (hne : ∀ i < j, s i ≠ e) :
    0 ≤ L e e - ∑ i in Finset.range j, chol sqrt L s i e * chol sqrt L s i e := by
  -- Over a positive semidefinite kernel, the pivot that follows positive pivots is not
  -- negative.
  have pivot_nonneg {α : Type} [LinearOrderedField α]
      {sqrt log : α → α} [Numeric sqrt log]
      (n : Nat) (L : Nat → Nat → α) (hL : PosSemidefOn n L) (s : Nat → Nat) (j : Nat)
      (hs : ∀ i < j + 1, s i < n) (hinj : ∀ a < j + 1, ∀ b < j + 1, s a = s b → a = b)
      (hp : ∀ i < j, 0 < pivot sqrt L s i) : 0 ≤ pivot sqrt L s j := by
    -- The quadratic form of a principal sub-matrix of a positive semidefinite matrix, taken
    -- along a sequence of distinct indices, is not negative.
    have gram_posSemidef {α : Type} [LinearOrderedField α]
        (n : Nat) (L : Nat → Nat → α) (hL : PosSemidefOn n L) (s : Nat → Nat) (m : Nat)
        (hs : ∀ j < m, s j < n) (hinj : ∀ i < m, ∀ j < m, s i = s j → i = j)
        (x : Fin m → α) :
        0 ≤ ∑ i : Fin m, ∑ j : Fin m, x i * L (s i) (s j) * x j := by
      let f : Fin m → Fin n := fun i => ⟨s i, hs i i.isLt⟩
      have hf : Function.Injective f := by
        intro a b hab
        have := congrArg Fin.val hab
        exact Fin.ext (hinj a a.isLt b b.isLt this)
      let y : Fin n → α := Function.extend f x 0
      have hy1 : ∀ i, y (f i) = x i := fun i => hf.extend_apply x 0 i
      have hy0 : ∀ a, a ∉ Set.range f → y a = 0 := by
        intro a ha
        have : ¬ ∃ i, f i = a := fun ⟨i, hi⟩ => ha ⟨i, hi⟩
        show Function.extend f x (0 : Fin n → α) a = 0
        rw [Function.extend_apply' x (0 : Fin n → α) a this]
        rfl
      have key := hL.2 y
      have e : quadForm n L y = ∑ i : Fin m, ∑ j : Fin m, x i * L (s i) (s j) * x j := by
        unfold quadForm
        symm
        apply Fintype.sum_of_injective f hf
        · intro a ha
          apply Finset.sum_eq_zero
          intro b _
          rw [hy0 a ha, zero_mul, zero_mul]
        · intro i
          apply Fintype.sum_of_injective f hf
          · intro b hb
            rw [hy0 b hb, mul_zero]
          · intro j
            rw [hy1 i, hy1 j]
      rw [e] at key
      exact key
    have hsym := hL.1
    have hs1 : ∀ i < j, s i < n := fun i hi => hs i (by omega)
    have hdet : (gram L s j).det ≠ 0 := by
      rw [det_gram_eq_prod n L s j hsym hs1 hp]
      exact (Finset.prod_pos (fun i hi => hp i (Finset.mem_range.mp hi))).ne'
    obtain ⟨z, _, hq⟩ := quad_schur n L s j hsym hs hdet
    have h1 := gram_posSemidef n L hL s (j + 1) hs hinj z
    rw [hq, schur_seq n L s j (s j) hsym hs1 (hs j (by omega)) hp] at h1
    exact h1
  let t : Nat → Nat := fun i => if i < j then s i else e
  have ht1 : ∀ i < j, t i = s i := fun i hi => by simp [t, hi]
  have ht2 : t j = e := by simp [t]
  have hpt : ∀ i < j, 0 < pivot sqrt L t i := by
    intro i hi
    rw [pivot_congr sqrt L t s i (fun a ha => ht1 a (by omega))]
    exact hp i hi
  have hpj := pivot_nonneg n L hL t j
    (by
      intro i hi
      by_cases h : i < j
      · rw [ht1 i h]; exact hs i h
      · have : i = j := by omega
        rw [this, ht2]; exact he)
    (by
      intro a ha b hb hab
      by_cases h1 : a < j <;> by_cases h2 : b < j
      · rw [ht1 a h1, ht1 b h2] at hab
        exact hinj a h1 b h2 hab
      · have : b = j := by omega
        rw [this, ht2, ht1 a h1] at hab
        exact absurd hab (hne a h1)
      · have : a = j := by omega
        rw [this, ht2, ht1 b h2] at hab
        exact absurd hab.symm (hne b h2)
      · omega)
    hpt
  rw [pivot, ht2] at hpj
  have e2 : ∑ i in Finset.range j, chol sqrt L t i e * chol sqrt L t i e
      = ∑ i in Finset.range j, chol sqrt L s i e * chol sqrt L s i e :=
    Finset.sum_congr rfl (fun i hi => by
      rw [chol_congr sqrt L t s i (fun a ha => ht1 a (by
        have := Finset.mem_range.mp hi
        omega)) e])
  rw [e2] at hpj
  exact hpj


theorem pivotsPos_nil {α : Type} [LinearOrderedField α]
    {sqrt log : α → α} [Numeric sqrt log] (L : Nat → Nat → α) : PivotsPos sqrt L [] := by
  intro j hj
  cases hj

theorem pivotsPos_take {α : Type} [LinearOrderedField α]
    {sqrt log : α → α} [Numeric sqrt log] (L : Nat → Nat → α) (S : List Nat) (m : Nat)
    (hp : PivotsPos sqrt L S) : PivotsPos sqrt L (S.take m) := by
  intro j hj
  rw [List.length_take] at hj
  rw [pivot_congr sqrt L (seqOf (S.take m)) (seqOf S) j
    (fun a ha => seqOf_take S m a (by omega))]
  exact hp j (by omega)

/-- The Schur complement through the Cholesky coefficients, over a symmetric kernel and a
selection with positive pivots. -/
theorem schur_eq_chol_piv {α : Type} [LinearOrderedField α]
    {sqrt log : α → α} [Numeric sqrt log] (n : Nat) (L : Nat → Nat → α)
    (hsym : ∀ i j, i < n → j < n → L i j = L j i) (S : List Nat)
    (hS : ∀ x ∈ S, x < n) (hp : PivotsPos sqrt L S) (e : Nat) (he : e < n) :
    schur L S e = L e e - ∑ j in Finset.range S.length,
      chol sqrt L (seqOf S) j e * chol sqrt L (seqOf S) j e := by
  rw [schur, ldltSolve_eq, subMatrix_eq_gram, subVector_eq]
  exact schur_seq n L (seqOf S) S.length e hsym (seqOf_lt n S hS) he hp

theorem schur_eq_pivot_piv {α : Type} [LinearOrderedField α]
    {sqrt log : α → α} [Numeric sqrt log] (n : Nat) (L : Nat → Nat → α)
    (hsym : ∀ i j, i < n → j < n → L i j = L j i) (S : List Nat)
    (hS : ∀ x ∈ S, x < n) (hp : PivotsPos sqrt L S) (e : Nat) (he : e < n) :
    schur L S e = pivot sqrt L (seqOf (S ++ [e])) S.length := by
  rw [schur_eq_chol_piv n L hsym S hS hp e he, pivot, seqOf_append_length]
  congr 1
  apply Finset.sum_congr rfl
  intro i hi
  have hi := Finset.mem_range.mp hi
  rw [chol_congr sqrt L (seqOf (S ++ [e])) (seqOf S) i
    (fun a ha => seqOf_append_lt S e a (by omega)) e]

/-- Committing an element of positive gain keeps the pivots positive. -/
theorem pivotsPos_append {α : Type} [LinearOrderedField α]
    {sqrt log : α → α} [Numeric sqrt log] (n : Nat) (L : Nat → Nat → α)
    (hsym : ∀ i j, i < n → j < n → L i j = L j i) (S : List Nat)
    (hS : ∀ x ∈ S, x < n) (hp : PivotsPos sqrt L S) (e : Nat) (he : e < n)
    (hpos : 0 < schur L S e) : PivotsPos sqrt L (S ++ [e]) := by
  intro j hj
  rw [List.length_append, List.length_singleton] at hj
  by_cases hjl : j < S.length
  · rw [pivot_congr sqrt L _ (seqOf S) j (fun i hi => seqOf_append_lt S e i (by omega))]
    exact hp j hjl
  · have hje : j = S.length := by omega
    subst hje
    rw [← schur_eq_pivot_piv n L hsym S hS hp e he]
    exact hpos

/-- Over a positive semidefinite kernel, the gain of an element outside a selection with
positive pivots is not negative. -/
theorem schur_nonneg_piv {α : Type} [LinearOrderedField α]
    {sqrt log : α → α} [Numeric sqrt log] (n : Nat) (L : Nat → Nat → α) (hL : PosSemidefOn n L)
    (S : List Nat) (hS : ∀ x ∈ S, x < n) (hnd : S.Nodup) (hp : PivotsPos sqrt L S)
    (e : Nat) (he : e < n) (heS : e ∉ S) : 0 ≤ schur L S e := by
  rw [schur_eq_chol_piv n L hL.1 S hS hp e he]
  exact chol_residual_nonneg n L hL (seqOf S) S.length (seqOf_lt n S hS) (seqOf_inj S hnd) hp e he
    (fun i hi hie => heS (hie ▸ Fast.seqOf_mem S i hi))

theorem det_sub_eq_prod_piv {α : Type} [LinearOrderedField α]
    {sqrt log : α → α} [Numeric sqrt log] (n : Nat) (L : Nat → Nat → α)
    (hsym : ∀ i j, i < n → j < n → L i j = L j i) (S : List Nat)
    (hS : ∀ x ∈ S, x < n) (hp : PivotsPos sqrt L S) :
    (subMatrix L S S).det = ∏ j in Finset.range S.length, pivot sqrt L (seqOf S) j := by
  rw [subMatrix_eq_gram]
  exact det_gram_eq_prod n L (seqOf S) S.length hsym (seqOf_lt n S hS) hp

theorem det_sub_pos_piv {α : Type} [LinearOrderedField α]
    {sqrt log : α → α} [Numeric sqrt log] (n : Nat) (L : Nat → Nat → α)
    (hsym : ∀ i j, i < n → j < n → L i j = L j i) (S : List Nat)
    (hS : ∀ x ∈ S, x < n) (hp : PivotsPos sqrt L S) : 0 < (subMatrix L S S).det := by
  rw [det_sub_eq_prod_piv n L hsym S hS hp]
  exact Finset.prod_pos (fun j hj => hp j (Finset.mem_range.mp hj))

theorem det_sub_append_piv {α : Type} [LinearOrderedField α]
    {sqrt log : α → α} [Numeric sqrt log] (n : Nat) (L : Nat → Nat → α)
    (hsym : ∀ i j, i < n → j < n → L i j = L j i) (S : List Nat)
    (hS : ∀ x ∈ S, x < n) (hp : PivotsPos sqrt L S) (e : Nat) (he : e < n)
    (hpos : 0 < schur L S e) :
    (subMatrix L (S ++ [e]) (S ++ [e])).det = (subMatrix L S S).det * schur L S e := by
  have hS1 : ∀ x ∈ S ++ [e], x < n := by
    intro x hx
    rcases List.mem_append.mp hx with h | h
    · exact hS x h
    · rw [List.mem_singleton.mp h]; exact he
  rw [det_sub_eq_prod_piv n L hsym _ hS1 (pivotsPos_append n L hsym S hS hp e he hpos),
    det_sub_eq_prod_piv n L hsym S hS hp, schur_eq_pivot_piv n L hsym S hS hp e he]
  rw [List.length_append, List.length_singleton, Finset.prod_range_succ]
  congr 1
  apply Finset.prod_congr rfl
  intro j hj
  have hj := Finset.mem_range.mp hj
  exact pivot_congr sqrt L _ _ j (fun a ha => seqOf_append_lt S e a (by omega))

/-- The gain against a prefix of `S`, through the Cholesky coefficients of `S`. -/
theorem schur_take_eq_chol_piv {α : Type} [LinearOrderedField α]
    {sqrt log : α → α} [Numeric sqrt log] (n : Nat) (L : Nat → Nat → α)
    (hsym : ∀ i j, i < n → j < n → L i j = L j i) (S : List Nat)
    (hS : ∀ x ∈ S, x < n) (hp : PivotsPos sqrt L S) (m : Nat) (hm : m ≤ S.length)
    (e : Nat) (he : e < n) :
    schur L (S.take m) e = L e e - ∑ j in Finset.range m,
      chol sqrt L (seqOf S) j e * chol sqrt L (seqOf S) j e := by
  rw [schur_eq_chol_piv n L hsym (S.take m) (fun x hx => hS x (List.mem_of_mem_take hx))
    (pivotsPos_take L S m hp) e he]
  rw [List.length_take, Nat.min_eq_left hm]
  congr 1
  apply Finset.sum_congr rfl
  intro j hj
  have hj := Finset.mem_range.mp hj
  rw [chol_congr sqrt L (seqOf (S.take m)) (seqOf S) j
    (fun a ha => seqOf_take S m a (by omega)) e]

/-- Submodularity along prefixes, over a symmetric kernel and a selection with positive
pivots. -/
theorem schur_le_take_piv {α : Type} [LinearOrderedField α]
    {sqrt log : α → α} [Numeric sqrt log] (n : Nat) (L : Nat → Nat → α)
    (hsym : ∀ i j, i < n → j < n → L i j = L j i) (S : List Nat)
    (hS : ∀ x ∈ S, x < n) (hp : PivotsPos sqrt L S) (m : Nat) (hm : m ≤ S.length)
    (e : Nat) (he : e < n) :
    schur L S e ≤ schur L (S.take m) e := by
  rw [schur_take_eq_chol_piv n L hsym S hS hp m hm e he,
    schur_eq_chol_piv n L hsym S hS hp e he]
  have : ∑ j in Finset.range m,
      chol sqrt L (seqOf S) j e * chol sqrt L (seqOf S) j e
      ≤ ∑ j in Finset.range S.length,
      chol sqrt L (seqOf S) j e * chol sqrt L (seqOf S) j e := by
    apply Finset.sum_le_sum_of_subset_of_nonneg
    · intro a ha
      simp only [Finset.mem_range] at ha ⊢
      omega
    · intro i _ _
      exact mul_self_nonneg _
  linarith

end DPP

namespace DPP

/-- The direct oracle over a positive semidefinite kernel is what the drivers expect,
while the gains committed are positive. -/
theorem direct_math_psd {α : Type} [LinearOrderedField α]
    {sqrt log : α → α} [Numeric sqrt log]
    (n : Nat) (L : Nat → Nat → α) (hL : PosSemidefOn n L) :
    OracleMath n L (Oracle.ops log L) (Oracle.GoodPsd n L) Oracle.Fresh := by
  -- The diagonal of a positive semidefinite kernel is not negative.
  have posSemidefOn_diag {α : Type} [LinearOrderedField α]
      {sqrt log : α → α} [Numeric sqrt log] (n : Nat) (L : Nat → Nat → α) (hL : PosSemidefOn n L)
      (e : Nat) (he : e < n) : 0 ≤ L e e := by
    have h := @schur_nonneg_piv α _ sqrt log _ n L hL [] (fun x hx => by cases hx)
      List.nodup_nil (pivotsPos_nil L) e he (List.not_mem_nil e)
    rw [schur_nil] at h
    exact h
  have logdet_append_piv {α : Type} [LinearOrderedField α]
      {sqrt log : α → α} [Numeric sqrt log] (n : Nat) (L : Nat → Nat → α)
      (hsym : ∀ i j, i < n → j < n → L i j = L j i) (S : List Nat)
      (hS : ∀ x ∈ S, x < n) (hp : PivotsPos sqrt L S) (e : Nat) (he : e < n)
      (hpos : 0 < schur L S e) :
      vadd (logdet log L S) (dlog log (some (schur L S e))) = logdet log L (S ++ [e]) := by
    simp only [logdet, dlog, vadd, not_lt.mpr hpos.le, hpos.ne', if_false]
    rw [det_sub_append_piv n L hsym S hS hp e he hpos,
      Numeric.log_mul _ _ (det_sub_pos_piv n L hsym S hS hp) hpos]
    rfl
  have hdiag : ∀ e < n, 0 ≤ L e e := fun e he => posSemidefOn_diag n L hL e he
  have hsym := hL.1
  refine ⟨direct_law log L, ?_, ?_, ?_, ?_, ?_, ?_, ?_, ?_, ?_, ?_, ?_, ?_, ?_⟩
  · intro k b
    try dsimp only [Oracle.ops] at *
    refine ⟨⟨⟨Oracle.direct_inv_construct L, List.nodup_nil,
      by simp [Oracle.ops, Oracle.construct], ?_⟩, ?_⟩, rfl⟩
    · simp [Oracle.ops, Oracle.construct, logdet, subMatrix, Matrix.det_isEmpty,
        numeric_log_one sqrt log]
    · exact pivotsPos_nil L
  · intro o h; exact h.1.2.1
  · intro o h; exact h.1.2.2.1
  · intro o h; exact h.1.2.2.2
  · intro o e ⟨⟨hI, hnd, hr, hv⟩, hp⟩ he heS
    try dsimp only [Oracle.ops] at *
    obtain ⟨c1, c2, c3, c4, c5, _, _⟩ := Oracle.direct_compute_spec L o e hI
    have hpos := schur_nonneg_piv n L hL o.S hr hnd hp e he heS
    refine ⟨⟨⟨c1, by rw [c2]; exact hnd, by rw [c2]; exact hr, by rw [c3, c2]; exact hv⟩,
      by rw [c2]; exact hp⟩, ?_, ?_⟩
    · show (Oracle.compute_marginal_gain_exponential L o e).2.u e
        = ((Oracle.compute_marginal_gain_exponential L o e).2.S.length : Int)
      rw [c5, c2]
    · show (Oracle.compute_marginal_gain_exponential L o e).1 = schur L o.S e
      rw [c4, max_eq_right hpos]
  · intro o e x ⟨⟨hI, _, _, _⟩, _⟩ _ _ hf
    try dsimp only [Oracle.ops] at *
    obtain ⟨_, c2, _, _, c5, _, c7⟩ := Oracle.direct_compute_spec L o x hI
    show (Oracle.compute_marginal_gain_exponential L o x).2.u e
      = ((Oracle.compute_marginal_gain_exponential L o x).2.S.length : Int)
    rw [c2]
    by_cases hex : e = x
    · rw [hex]; exact c5
    · rw [(c7 e hex).1]; exact hf
  · intro o e ⟨⟨hI, hnd, hr, hv⟩, hp⟩ he heS
    try dsimp only [Oracle.ops] at *
    obtain ⟨c1, c2, c3⟩ := Oracle.direct_get_last_spec n L hdiag o e he hI
    refine ⟨⟨⟨c1, by rw [c2]; exact hnd, by rw [c2]; exact hr, by rw [c3, c2]; exact hv⟩,
      by rw [c2]; exact hp⟩, ?_⟩
    show ∃ m, m ≤ o.S.length ∧
      (Oracle.get_last_marginal_gain_exponential L o e).1 = schur L (o.S.take m) e
    unfold Oracle.get_last_marginal_gain_exponential
    by_cases hu : o.u e = -1
    · rw [if_pos hu]
      exact ⟨0, Nat.zero_le _, by rw [List.take_zero, schur_nil]⟩
    · rw [if_neg hu]
      have h0 : 0 ≤ o.u e := by have := hI.u_ge e; omega
      have hle := hI.u_le e
      refine ⟨(o.u e).toNat, by omega, ?_⟩
      rw [hI.d_eq e h0]
      simp only [Option.getD_some]
      refine max_eq_right ?_
      exact schur_nonneg_piv n L hL _ (fun x hx => hr x (List.mem_of_mem_take hx))
        (List.Nodup.sublist (List.take_sublist _ _) hnd) (pivotsPos_take L o.S _ hp) e he
        (fun hm => heS (List.mem_of_mem_take hm))
  · intro o e x _ _ _ hf
    try dsimp only [Oracle.ops] at *
    show (Oracle.get_last_marginal_gain_exponential L o x).2.u e
      = ((Oracle.get_last_marginal_gain_exponential L o x).2.S.length : Int)
    have hf' : o.u e = (o.S.length : Int) := hf
    unfold Oracle.get_last_marginal_gain_exponential
    by_cases hu : o.u x = -1
    · rw [if_pos hu]
      have hex : e ≠ x := by
        intro h
        rw [h, hu] at hf'
        omega
      simp only [Function.update_noteq hex]
      exact hf'
    · rw [if_neg hu]
      exact hf'
  · intro o e ⟨⟨hI, hnd, hr, hv⟩, hp⟩ he heS hf hpos
    try dsimp only [Oracle.ops] at *
    have hf' : o.u e = (o.S.length : Int) := hf
    refine ⟨⟨Oracle.direct_add_spec L log o e hI, ?_, ?_, ?_⟩, ?_⟩
    · exact List.Nodup.append hnd (List.nodup_singleton e) (by simpa using heS)
    · intro y hy
      rcases List.mem_append.mp hy with h1 | h1
      · exact hr y h1
      · rw [List.mem_singleton.mp h1]; exact he
    · have hd := hI.d_eq e (by rw [hf']; exact Int.natCast_nonneg _)
      rw [hf', Int.toNat_ofNat, List.take_length] at hd
      rw [max_eq_right hpos.le] at hd
      show vadd o.value (dlog log (o.d e)) = logdet log L (o.S ++ [e])
      rw [hd, hv]
      exact logdet_append_piv n L hsym o.S hr hp e he hpos
    · exact pivotsPos_append n L hsym o.S hr hp e he hpos
  · intro o e ⟨⟨hI, hnd, hr, hv⟩, hp⟩ he heS hf
    try dsimp only [Oracle.ops] at *
    have hf' : o.u e = (o.S.length : Int) := hf
    have hd := hI.d_eq e (by rw [hf']; exact Int.natCast_nonneg _)
    rw [hf', Int.toNat_ofNat, List.take_length] at hd
    have hpos := schur_nonneg_piv n L hL o.S hr hnd hp e he heS
    rw [max_eq_right hpos] at hd
    show vadd o.value (dlog log (o.d e)) = _
    rw [hd]
  · intro o h
    try dsimp only [Oracle.ops] at *
    exact ⟨h, rfl⟩
  · intro o e ⟨⟨_, hnd, hr, _⟩, hp⟩ he heS
    try dsimp only [Oracle.ops] at *
    exact schur_nonneg_piv n L hL o.S hr hnd hp e he heS
  · intro o e m ⟨⟨_, hnd, hr, _⟩, hp⟩ he _ hm
    try dsimp only [Oracle.ops] at *
    exact schur_le_take_piv n L hsym o.S hr hp m hm e he

namespace Fast

/-- The fast oracle over a positive semidefinite kernel is what the drivers expect, while
the gains committed are positive. -/
theorem fast_math_psd {α : Type} [LinearOrderedField α]
    {sqrt log : α → α} [Numeric sqrt log]
    (n : Nat) (L : Nat → Nat → α) (hL : PosSemidefOn n L)
    (V0 : Nat → Nat → Option α) :
    OracleMath n L (Fast.ops sqrt log V0 L) (Fast.GoodPsd n L) Fast.Fresh := by
  have fast_add_spec_psd {α : Type} [LinearOrderedField α]
      {sqrt log : α → α} [Numeric sqrt log]
      (n : Nat) (L : Nat → Nat → α) (hL : PosSemidefOn n L) (o : Instance α)
      (e : Nat) (h : Inv n L o) (he : e < n) (heS : e ∉ o.S) (hu : o.u e = o.S.length)
      (hd : o.d e ≠ none) (hp : PivotsPos sqrt L o.S) (hpos : 0 < schur L o.S e) :
      Inv n L (add log o e) ∧ o.d e = some (schur L o.S e) := by
    obtain ⟨x, hx⟩ := Option.ne_none_iff_exists'.mp hd
    have hxe := h.d_some e x heS hx
    rw [hu, ← schur_eq_chol_piv n L hL.1 o.S h.range hp e he] at hxe
    have hS1 : ∀ y ∈ o.S ++ [e], y < n := by
      intro y hy
      rcases List.mem_append.mp hy with h1 | h1
      · exact h.range y h1
      · rw [List.mem_singleton.mp h1]; exact he
    have hnd1 : (o.S ++ [e]).Nodup :=
      List.Nodup.append h.nodup (List.nodup_singleton e) (by simpa using heS)
    have hc : ∀ j < o.S.length, ∀ a,
        chol sqrt L (seqOf (o.S ++ [e])) j a = chol sqrt L (seqOf o.S) j a :=
      fun j hj a => chol_congr sqrt L _ _ j (fun i hi => seqOf_append_lt o.S e i (by omega)) a
    refine ⟨⟨hnd1, hS1, ?_, ?_, ?_, ?_, ?_, ?_⟩, by rw [hx, hxe]⟩
    · intro a
      have := h.u_le a
      simp only [add, List.length_append, List.length_singleton]
      omega
    · intro a j hj
      simp only [add] at hj ⊢
      rw [hc j (by have := h.u_le a; omega) a]
      exact h.V_eq a j hj
    · intro a ha
      exact h.d_none a ha
    · intro a y haS ha
      simp only [add] at haS ha ⊢
      have haS1 : a ∉ o.S := fun hm => haS (List.mem_append_left _ hm)
      rw [h.d_some a y haS1 ha]
      congr 1
      apply Finset.sum_congr rfl
      intro j hj
      have hj := Finset.mem_range.mp hj
      have := h.u_le a
      rw [hc j (by omega) a]
    · intro j hj
      simp only [add, List.length_append, List.length_singleton] at hj ⊢
      by_cases hjl : j < o.S.length
      · rw [seqOf_append_lt o.S e j hjl,
          pivot_congr sqrt L _ _ j (fun i hi => seqOf_append_lt o.S e i (by omega))]
        exact h.committed j hjl
      · have hje : j = o.S.length := by omega
        subst hje
        rw [seqOf_append_length, ← schur_eq_pivot_piv n L hL.1 o.S h.range hp e he, hx, hxe]
        exact ⟨hu, rfl⟩
    · simp only [add, h.value, hx, hxe, logdet, dlog, vadd, not_lt.mpr hpos.le, hpos.ne',
        if_false]
      rw [det_sub_append_piv n L hL.1 o.S h.range hp e he hpos,
        Numeric.log_mul _ _ (det_sub_pos_piv n L hL.1 o.S h.range hp) hpos]
      rfl
  have fast_compute_spec_psd {α : Type} [LinearOrderedField α]
      {sqrt log : α → α} [Numeric sqrt log]
      (n : Nat) (L : Nat → Nat → α) (hL : PosSemidefOn n L) (o : Instance α)
      (e : Nat) (h : Inv n L o) (he : e < n) (heS : e ∉ o.S) (hp : PivotsPos sqrt L o.S) :
      Inv n L (compute_marginal_gain_exponential sqrt L o e).2 ∧
      (compute_marginal_gain_exponential sqrt L o e).2.S = o.S ∧
      (compute_marginal_gain_exponential sqrt L o e).2.value = o.value ∧
      (compute_marginal_gain_exponential sqrt L o e).1 = schur L o.S e ∧
      (compute_marginal_gain_exponential sqrt L o e).2.u e = o.S.length ∧
      (compute_marginal_gain_exponential sqrt L o e).2.d e
        = some (compute_marginal_gain_exponential sqrt L o e).1 ∧
      (∀ a, a ≠ e → (compute_marginal_gain_exponential sqrt L o e).2.u a = o.u a ∧
        (compute_marginal_gain_exponential sqrt L o e).2.d a = o.d a) := by
    have fast_inv_loop_psd {α : Type} [LinearOrderedField α]
        {sqrt log : α → α} [Numeric sqrt log]
        (n : Nat) (L : Nat → Nat → α) (hL : PosSemidefOn n L) (e : Nat) (he : e < n) :
        ∀ (k : Nat) (o : Instance α) (x : α), Inv n L o → e ∉ o.S → o.u e + k = o.S.length →
          o.d e = some x → PivotsPos sqrt L o.S →
          Inv n L (loop sqrt L k o e x).2 ∧ (loop sqrt L k o e x).2.S = o.S ∧
          (loop sqrt L k o e x).2.u e = o.S.length ∧
          (loop sqrt L k o e x).2.d e = some (loop sqrt L k o e x).1 ∧
          (loop sqrt L k o e x).2.value = o.value ∧
          (∀ a, a ≠ e → (loop sqrt L k o e x).2.u a = o.u a ∧
            (loop sqrt L k o e x).2.d a = o.d a) := by
      have fast_inv_step_psd {α : Type} [LinearOrderedField α]
          {sqrt log : α → α} [Numeric sqrt log]
          (n : Nat) (L : Nat → Nat → α) (hL : PosSemidefOn n L) (o : Instance α) (e : Nat)
          (x : α) (h : Inv n L o) (he : e < n) (heS : e ∉ o.S) (hu : o.u e < o.S.length)
          (hd : o.d e = some x) (hp : PivotsPos sqrt L o.S) :
          Inv n L (step sqrt L o e x).2 ∧ (step sqrt L o e x).2.S = o.S ∧
            (step sqrt L o e x).2.u e = o.u e + 1 ∧
            (step sqrt L o e x).2.d e = some (step sqrt L o e x).1 ∧
            (step sqrt L o e x).2.value = o.value ∧
            (∀ a, a ≠ e → (step sqrt L o e x).2.u a = o.u a ∧
              (step sqrt L o e x).2.d a = o.d a) := by
        have hl : o.S.getD (o.u e) 0 = seqOf o.S (o.u e) := rfl
        have hcom := h.committed (o.u e) hu
        have hpiv := hp (o.u e) hu
        have hdot : odot (o.V e) (o.V (seqOf o.S (o.u e))) (o.u e)
            = some (∑ i in Finset.range (o.u e), chol sqrt L (seqOf o.S) i e *
                chol sqrt L (seqOf o.S) i (seqOf o.S (o.u e))) := by
          apply odot_some
          · intro i hi; exact h.V_eq e i hi
          · intro i hi
            apply h.V_eq
            rw [hcom.1]; exact hi
        have hq : quotient sqrt (L e (seqOf o.S (o.u e)))
            (odot (o.V e) (o.V (seqOf o.S (o.u e))) (o.u e)) (o.d (seqOf o.S (o.u e)))
            = some (chol sqrt L (seqOf o.S) (o.u e) e) := by
          rw [hdot, hcom.2, quotient]
          simp only [not_le.mpr hpiv, if_false]
          rw [chol_eq]
        have hx := h.d_some e x heS hd
        have hres : residual x (some (chol sqrt L (seqOf o.S) (o.u e) e))
            = L e e - ∑ i in Finset.range (o.u e + 1),
                chol sqrt L (seqOf o.S) i e * chol sqrt L (seqOf o.S) i e := by
          have hpos := chol_residual_nonneg n L hL (seqOf o.S) (o.u e + 1)
            (fun i hi => h.range _ (seqOf_mem o.S i (by omega)))
            (fun a ha b hb => seqOf_inj o.S h.nodup a (by omega) b (by omega))
            (fun i hi => hp i (by omega)) e he
            (fun i hi hie => heS (hie ▸ seqOf_mem o.S i (by omega)))
          rw [Finset.sum_range_succ] at hpos ⊢
          rw [residual, hx, max_eq_right (by linarith)]
          ring
        have hne : ∀ j < o.S.length, seqOf o.S j ≠ e :=
          fun j hj hje => heS (hje ▸ seqOf_mem o.S j hj)
        simp only [step, hl, hq, hres]
        refine ⟨⟨h.nodup, h.range, ?_, ?_, ?_, ?_, ?_, h.value⟩, trivial, by simp, by simp, trivial, ?_⟩
        · intro a
          by_cases hae : a = e
          · subst hae; simp; omega
          · simp only [Function.update_noteq hae]; exact h.u_le a
        · intro a j hj
          by_cases hae : a = e
          · subst hae
            simp only [Function.update_same] at hj ⊢
            by_cases hjj : j = o.u a
            · subst hjj; simp
            · simp only [Function.update_noteq hjj]
              exact h.V_eq a j (by omega)
          · simp only [Function.update_noteq hae] at hj ⊢
            exact h.V_eq a j hj
        · intro a ha
          by_cases hae : a = e
          · subst hae; simp at ha
          · simp only [Function.update_noteq hae] at ha ⊢
            exact h.d_none a ha
        · intro a y haS ha
          by_cases hae : a = e
          · subst hae
            simp only [Function.update_same, Option.some.injEq] at ha ⊢
            exact ha.symm
          · simp only [Function.update_noteq hae] at ha ⊢
            exact h.d_some a y haS ha
        · intro j hj
          simp only [Function.update_noteq (hne j hj)]
          exact h.committed j hj
        · intro a hae
          simp [Function.update_noteq hae]
      intro k
      induction k with
      | zero =>
        intro o x h _ hu hd _
        simp only [loop]
        exact ⟨h, trivial, by omega, hd, trivial, fun a _ => ⟨trivial, trivial⟩⟩
      | succ k ih =>
        intro o x h heS hu hd hp
        obtain ⟨h1, h2, h3, h4, h5, h6⟩ := fast_inv_step_psd n L hL o e x h he heS (by omega) hd hp
        have := ih (step sqrt L o e x).2 (step sqrt L o e x).1 h1 (by rw [h2]; exact heS)
          (by rw [h2, h3]; omega) h4 (by rw [h2]; exact hp)
        obtain ⟨g1, g2, g3, g4, g5, g6⟩ := this
        simp only [loop]
        refine ⟨g1, by rw [g2, h2], by rw [g3, h2], g4, by rw [g5, h5], ?_⟩
        intro a hae
        rw [(g6 a hae).1, (g6 a hae).2, (h6 a hae).1, (h6 a hae).2]
        exact ⟨rfl, rfl⟩
    obtain ⟨f1, f2, f3, _, f5, f6⟩ := fast_get_last_frame L o e
    have h1 := fast_inv_get_last n L o e h
    have hk : (get_last_marginal_gain_exponential L o e).2.u e +
        ((get_last_marginal_gain_exponential L o e).2.S.length -
          (get_last_marginal_gain_exponential L o e).2.u e)
        = (get_last_marginal_gain_exponential L o e).2.S.length := by
      have := h1.u_le e
      omega
    obtain ⟨g1, g2, g3, g4, g5, g6⟩ := fast_inv_loop_psd n L hL e he _
      (get_last_marginal_gain_exponential L o e).2 (get_last_marginal_gain_exponential L o e).1
      h1 (by rw [f1]; exact heS) hk f5 (by rw [f1]; exact hp)
    unfold compute_marginal_gain_exponential
    simp only []
    refine ⟨g1, by rw [g2, f1], by rw [g5, f3], ?_, by rw [g3, f1], g4, ?_⟩
    · have hx := g1.d_some e _ (by rw [g2, f1]; exact heS) g4
      rw [hx, g3, g2, f1]
      exact (schur_eq_chol_piv n L hL.1 o.S h.range hp e he).symm
    · intro a hae
      rw [(g6 a hae).1, (g6 a hae).2, f2, f6 a hae]
      exact ⟨rfl, rfl⟩
  have hsym := hL.1
  refine ⟨fast_law sqrt log V0 L, ?_, ?_, ?_, ?_, ?_, ?_, ?_, ?_, ?_, ?_, ?_, ?_, ?_⟩
  · intro k b
    try dsimp only [Fast.ops] at *
    exact ⟨⟨Fast.fast_inv_construct n L V0 b, pivotsPos_nil L⟩, rfl⟩
  · intro o h; exact h.1.nodup
  · intro o h; exact h.1.range
  · intro o h; exact h.1.value
  · intro o e ⟨h, hp⟩ he heS
    try dsimp only [Fast.ops] at *
    obtain ⟨c1, c2, c3, c4, c5, c6, _⟩ := fast_compute_spec_psd n L hL o e h he heS hp
    refine ⟨⟨c1, by rw [c2]; exact hp⟩, ⟨?_, ?_⟩, c4⟩
    · rw [c5, c2]
    · rw [c6]; simp
  · intro o e x ⟨h, hp⟩ hx hxS hf
    try dsimp only [Fast.ops] at *
    obtain ⟨_, c2, _, _, c5, c6, c7⟩ := fast_compute_spec_psd n L hL o x h hx hxS hp
    by_cases hex : e = x
    · rw [hex]
      exact ⟨by rw [c5, c2], by rw [c6]; simp⟩
    · exact ⟨by rw [(c7 e hex).1, c2]; exact hf.1, by rw [(c7 e hex).2]; exact hf.2⟩
  · intro o e ⟨h, hp⟩ he heS
    try dsimp only [Fast.ops] at *
    obtain ⟨f1, _⟩ := Fast.fast_get_last_frame L o e
    refine ⟨⟨Fast.fast_inv_get_last n L o e h, by rw [f1]; exact hp⟩, ?_⟩
    show ∃ m, m ≤ o.S.length ∧
      (Fast.get_last_marginal_gain_exponential L o e).1 = schur L (o.S.take m) e
    unfold Fast.get_last_marginal_gain_exponential
    cases hd : o.d e with
    | none => exact ⟨0, Nat.zero_le _, by rw [List.take_zero, schur_nil]⟩
    | some y =>
      refine ⟨o.u e, h.u_le e, ?_⟩
      rw [schur_take_eq_chol_piv n L hsym o.S h.range hp (o.u e) (h.u_le e) e he]
      exact h.d_some e y heS hd
  · intro o e x _ _ _ hf
    try dsimp only [Fast.ops] at *
    obtain ⟨f1, f2, _, _, f5, f6⟩ := Fast.fast_get_last_frame L o x
    refine ⟨by rw [f2, f1]; exact hf.1, ?_⟩
    by_cases hex : e = x
    · rw [hex, f5]; simp
    · rw [f6 e hex]; exact hf.2
  · intro o e ⟨h, hp⟩ he heS hf hpos
    try dsimp only [Fast.ops] at *
    exact ⟨(fast_add_spec_psd n L hL o e h he heS hf.1 hf.2 hp hpos).1,
      pivotsPos_append n L hsym o.S h.range hp e he hpos⟩
  · intro o e ⟨h, hp⟩ he heS hf
    try dsimp only [Fast.ops] at *
    obtain ⟨x, hx⟩ := Option.ne_none_iff_exists'.mp hf.2
    have hxe := h.d_some e x heS hx
    rw [hf.1, ← schur_eq_chol_piv n L hsym o.S h.range hp e he] at hxe
    show vadd o.value (dlog log (o.d e)) = _
    rw [hx, hxe]
  · intro o ⟨h, hp⟩
    try dsimp only [Fast.ops] at *
    exact ⟨⟨⟨h.nodup, h.range, h.u_le, h.V_eq, h.d_none, h.d_some, h.committed, h.value⟩, hp⟩,
      rfl⟩
  · intro o e ⟨h, hp⟩ he heS
    try dsimp only [Fast.ops] at *
    exact schur_nonneg_piv n L hL o.S h.range h.nodup hp e he heS
  · intro o e m ⟨h, hp⟩ he _ hm
    try dsimp only [Fast.ops] at *
    exact schur_le_take_piv n L hsym o.S h.range hp m hm e he

end Fast

end DPP

namespace DPP

/-- Plain greedy with the lazy strategy returns what plain greedy with the non-lazy
strategy returns, over an oracle that is what the drivers expect while the gains committed
are positive, when no step of the non-lazy run meets a tie. -/
theorem lazy_same_lockstep {α : Type} [LinearOrderedField α]
    {sqrt log : α → α} [Numeric sqrt log]
    {σ : Type} (n : Nat) (L : Nat → Nat → α) (oops : OracleOps σ α)
    (Good : σ → Prop) (Fresh : σ → Nat → Prop) (M : OracleMath n L oops Good Fresh)
    (Good' : σ → Prop) (Holds : σ → Nat → α → Prop) (B : OracleBase oops log Good' Holds)
    (ord ord' : List Nat → List Nat) (hord : SetOrder ord) (hord' : SetOrder ord')
    (k : Nat) (hk : k ≤ n) (param : Param α) (clock : Nat → α) (outN : GreedyResult α)
    (rN : Result α)
    (hN : greedy (NonLazy.ops ord oops) oops n k param clock = .ok outN)
    (hlast : outN.last = .ok rN)
    (hties : ∀ t, t + 1 < outN.size →
      NoComputedTie (NonLazy.ops ord oops) oops n k param t) :
    SameAsNonLazy n k param clock ord' oops outN rN := by
  -- Two results with the same recorded pairs and as many measurements return the same
  -- solution and the same value at every index.
  have greedy_get_congr {α : Type} [LinearOrderedField α] (a b : GreedyResult α)
      (hp : a.element_value_pairs = b.element_value_pairs)
      (hm : a.measurements.length = b.measurements.length) (j : Nat) (r : Result α)
      (h : b.get j = .ok r) :
      ∃ r', a.get j = .ok r' ∧ r'.solution = r.solution ∧ r'.value = r.value := by
    -- The solution that `operator[]` rebuilds depends on the recorded pairs only.
    have greedy_sol_congr {α : Type} (a b : GreedyResult α)
        (hp : a.element_value_pairs = b.element_value_pairs) :
        ∀ j, a.sol j = b.sol j := by
      intro j
      induction j with
      | zero => rfl
      | succ j ih => simp only [GreedyResult.sol, ih, hp]
    unfold GreedyResult.get GreedyResult.size at h ⊢
    rw [hm]
    by_cases hj : b.measurements.length ≤ j
    · rw [if_pos hj] at h ⊢
      simp only [Except.ok.injEq] at h
      subst h
      exact ⟨_, rfl, rfl, rfl⟩
    · rw [if_neg hj] at h ⊢
      rw [greedy_sol_congr a b hp j, hp]
      obtain ⟨ma, hma⟩ : ∃ ma, a.measurements.get? j = some ma :=
        ⟨a.measurements.get ⟨j, by omega⟩, List.get?_eq_get (by omega)⟩
      obtain ⟨mb, hmb⟩ : ∃ mb, b.measurements.get? j = some mb :=
        ⟨b.measurements.get ⟨j, by omega⟩, List.get?_eq_get (by omega)⟩
      rw [hma]
      rw [hmb] at h
      cases hs : b.sol j with
      | error f =>
        rw [hs] at h
        cases h
      | ok l =>
        rw [hs] at h
        cases hq : b.element_value_pairs.get? j with
        | none =>
          rw [hq] at h
          cases h
        | some p =>
          rw [hq] at h
          simp only [Except.ok.injEq] at h
          subst h
          exact ⟨_, rfl, rfl, rfl⟩
  -- Plain greedy with the lazy strategy goes through the same elements and values as
  -- plain greedy with the non-lazy strategy, when no step of the latter meets a tie.
  have lazy_lockstep {α : Type} [LinearOrderedField α]
      {sqrt log : α → α} [Numeric sqrt log]
      {σ : Type} (n : Nat) (L : Nat → Nat → α) (oops : OracleOps σ α)
      (Good : σ → Prop) (Fresh : σ → Nat → Prop) (M : OracleMath n L oops Good Fresh)
      (ord ord' : List Nat → List Nat) (hord : SetOrder ord) (hord' : SetOrder ord')
      (k : Nat) (param : Param α) (clock : Nat → α) (outN : GreedyResult α)
      (hties : ∀ t, t + 1 < outN.size →
        NoComputedTie (NonLazy.ops ord oops) oops n k param t) :
      ∀ (m t : Nat) (sN : NonLazy.Instance) (oN : σ) (sL : Lazy.Instance α) (oL : σ)
        (resN resL : GreedyResult α),
        greedy_states (NonLazy.ops ord oops) oops n k param t = .ok (sN, oN) →
        Good oN → sN.add_dummy = false → sN.T.Nodup →
        (∀ x, x ∈ sN.T ↔ (x < n ∧ x ∉ oops.get_solution oN)) →
        Good oL → Lazy.SI sL → sL.add_dummy = false → sL.T.Nodup →
        (∀ x, x ∈ sL.T ↔ (x < n ∧ x ∉ oops.get_solution oL)) →
        Stale L (oops.get_solution oL) sL.T sL.Q →
        oops.get_solution oL = oops.get_solution oN →
        (oops.get_solution oN).length + m ≤ n →
        resN.measurements.length = t + 1 →
        resL.element_value_pairs = resN.element_value_pairs →
        resL.measurements.length = resN.measurements.length →
        resL.finished = resN.finished →
        greedy_loop (NonLazy.ops ord oops) oops param clock m t sN oN resN = .ok outN →
        ∃ outL, greedy_loop (Lazy.ops ord' oops) oops param clock m t sL oL resL = .ok outL ∧
          outL.element_value_pairs = outN.element_value_pairs ∧
          outL.measurements.length = outN.measurements.length ∧
          outL.finished = outN.finished := by
    -- Adding the logarithm of the gain `0` makes a finite value minus infinity.
    have isNegInf_add_zero {α : Type} [LinearOrderedField α] (log : α → α) (x : α) :
        isNegInf (vadd (some ((x : α) : WithBot α)) (dlog log (some 0))) = true := by
      simp [dlog, vadd, isNegInf]
    -- The loop of `greedy` only adds records.
    have greedy_loop_size {τ σ α : Type} [LinearOrderedField α] (sops : StrategyOps τ σ α)
        (oops : OracleOps σ α) (param : Param α) (clock : Nat → α) :
        ∀ (m t : Nat) (s : τ) (o : σ) (res out : GreedyResult α),
          greedy_loop sops oops param clock m t s o res = .ok out →
          res.measurements.length ≤ out.measurements.length := by
      intro m
      induction m with
      | zero =>
        intro t s o res out h
        simp only [greedy_loop, Except.ok.injEq] at h
        rw [← h]
      | succ m ih =>
        intro t s o res out h
        rw [greedy_loop] at h
        cases hp : sops.pop_largest s o with
        | error f =>
          simp only [hp] at h
          cases h
        | ok x =>
          obtain ⟨r, s1, o1⟩ := x
          cases r with
          | none =>
            simp only [hp] at h
            cases h
          | some e =>
            simp only [hp] at h
            by_cases hstop : (expired param (clock t) ||
                isNegInf (oops.get_value (oops.add o1 e))) = true
            · rw [if_pos hstop] at h
              simp only [Except.ok.injEq] at h
              rw [← h]
              simp [GreedyResult.add]
            · rw [if_neg hstop] at h
              have := ih _ _ _ _ _ h
              simp only [GreedyResult.add, List.length_append, List.length_singleton] at this
              omega
    have SLN := nonlazy_law n oops M.law Good ord hord
    have SLL := lazy_law n oops M.law Good ord' hord'
    intro m
    induction m with
    | zero =>
      intro t sN oN sL oL resN resL _ _ _ _ _ _ _ _ _ _ _ _ _ _ hp hl hf hloop
      simp only [greedy_loop, Except.ok.injEq] at hloop
      subst hloop
      exact ⟨{ resL with finished := true }, rfl, hp, hl, rfl⟩
    | succ m ih =>
      intro t sN oN sL oL resN resL hst hgN hDN hndN hTN hgL hSI hDL hndL hTL hJ hSS hlen hmt
        hp hl hf hloop
      obtain ⟨x0, hx0, hx0S⟩ := exists_fresh_element n (oops.get_solution oN) (by omega)
      have hneN : sN.T ≠ [] := List.ne_nil_of_mem ((hTN x0).mpr ⟨hx0, hx0S⟩)
      have hneL : sL.T ≠ [] := List.ne_nil_of_mem ((hTL x0).mpr ⟨hx0, by rw [hSS]; exact hx0S⟩)
      have hTN' : ∀ e ∈ sN.T, e < n ∧ e ∉ oops.get_solution oN := fun e he => (hTN e).mp he
      have hTL' : ∀ e ∈ sL.T, e < n ∧ e ∉ oops.get_solution oL := fun e he => (hTL e).mp he
      -- the non-lazy side
      obtain ⟨rN, sN1, oN1, hokN, hpoN, _, _⟩ := SLN.pop_spec sN oN hgN trivial hndN hTN'
        (Or.inr hneN)
      obtain ⟨gN1, gN2, gN3, gN4⟩ :=
        popOut_good n L oops Good Fresh M _ _ _ sN oN rN sN1 oN1 hgN hTN' hpoN
      obtain ⟨qN1, _, qN3, qN4, qN5⟩ := hpoN
      -- the lazy side
      obtain ⟨rL, sL1, oL1, hokL, hpoL, _, _⟩ := SLL.pop_spec sL oL hgL hSI hndL hTL'
        (Or.inr hneL)
      obtain ⟨gL1, gL2, gL3, gL4⟩ :=
        popOut_good n L oops Good Fresh M _ _ _ sL oL rL sL1 oL1 hgL hTL' hpoL
      obtain ⟨qL1, qL2, qL3, qL4, qL5⟩ := hpoL
      cases rN with
      | none =>
        have h0 : sN.add_dummy = true := (qN4 rfl).1
        rw [hDN] at h0
        cases h0
      | some eN =>
      cases rL with
      | none =>
        have h0 : sL.add_dummy = true := (qL4 rfl).1
        rw [hDL] at h0
        cases h0
      | some eL =>
      obtain ⟨heTN, hmemN, _, _⟩ := qN5 eN rfl
      obtain ⟨heTL, hmemL, _, _⟩ := qL5 eL rfl
      obtain ⟨heN, heNS⟩ := hTN' eN heTN
      obtain ⟨heL, heLS⟩ := hTL' eL heTL
      obtain ⟨⟨hmax, _⟩, hJ1⟩ := lazy_hstep n L oops Good Fresh M ord' sL oL eL sL1 oL1 hgL hSI
        hDL hndL hTL hJ hokL heTL
      rw [greedy_loop] at hloop
      simp only [hokN] at hloop
      have hsz : t + 1 < outN.size := by
        show t + 1 < outN.measurements.length
        by_cases hstop : (expired param (clock t) ||
            isNegInf (oops.get_value (oops.add oN1 eN))) = true
        · rw [if_pos hstop] at hloop
          simp only [Except.ok.injEq] at hloop
          rw [← hloop]
          simp [GreedyResult.add, hmt]
        · rw [if_neg hstop] at hloop
          have := greedy_loop_size _ _ _ _ _ _ _ _ _ _ hloop
          simp only [GreedyResult.add, List.length_append, List.length_singleton, hmt] at this
          omega
      have hH := hties t hsz sN oN eN sN1 oN1 hst hokN
      have heq : eL = eN := by
        by_contra hne
        have h1 := hH eL heL (by rw [← hSS]; exact heLS) hne
        rw [gain_good n L oops Good Fresh M oN hgN eL heL (by rw [← hSS]; exact heLS),
          gain_good n L oops Good Fresh M oN hgN eN heN heNS] at h1
        have h2 := hmax eN heN (by rw [hSS]; exact heNS)
        rw [hSS] at h2
        exact absurd h1 (not_lt.mpr h2)
      subst heq
      have heS1N : eL ∉ oops.get_solution oN1 := by rw [gN2]; exact heNS
      have heS1L : eL ∉ oops.get_solution oL1 := by rw [gL2]; exact heLS
      have hvN : oops.get_value (oops.add oN1 eL)
          = vadd (logdet log L (oops.get_solution oN))
              (dlog log (some (schur L (oops.get_solution oN) eL))) := by
        rw [M.add_value oN1 eL gN1 heN heS1N (gN4 eL rfl), gN3, gN2, M.good_value oN hgN]
      have hvL : oops.get_value (oops.add oL1 eL)
          = vadd (logdet log L (oops.get_solution oN))
              (dlog log (some (schur L (oops.get_solution oN) eL))) := by
        rw [M.add_value oL1 eL gL1 heL heS1L (gL4 eL rfl), gL3, gL2, M.good_value oL hgL, hSS]
      have hval : oops.get_value (oops.add oL1 eL) = oops.get_value (oops.add oN1 eL) := by
        rw [hvN, hvL]
      rw [greedy_loop]
      simp only [hokL]
      rw [hval]
      by_cases hstop : (expired param (clock t) ||
          isNegInf (oops.get_value (oops.add oN1 eL))) = true
      · rw [if_pos hstop] at hloop ⊢
        simp only [Except.ok.injEq] at hloop
        subst hloop
        refine ⟨_, rfl, ?_, ?_, ?_⟩
        · simp only [GreedyResult.add, hp]
        · simp only [GreedyResult.add, List.length_append, List.length_singleton, hl]
        · exact hf
      · rw [if_neg hstop] at hloop ⊢
        have hpos : 0 < schur L (oops.get_solution oN) eL := by
          rcases (M.gain_nonneg oN eL hgN heN heNS).lt_or_eq with h | h
          · exact h
          · exfalso
            apply hstop
            rw [hvN, ← h]
            simp only [logdet, isNegInf_add_zero, Bool.or_true]
        have hg2N : Good (oops.add oN1 eL) :=
          M.add_good oN1 eL gN1 heN heS1N (gN4 eL rfl) (by rw [gN2]; exact hpos)
        have hg2L : Good (oops.add oL1 eL) :=
          M.add_good oL1 eL gL1 heL heS1L (gL4 eL rfl) (by rw [gL2, hSS]; exact hpos)
        have hS2N : oops.get_solution (oops.add oN1 eL) = oops.get_solution oN ++ [eL] := by
          rw [M.law.add_S, gN2]
        have hS2L : oops.get_solution (oops.add oL1 eL) = oops.get_solution oL ++ [eL] := by
          rw [M.law.add_S, gL2]
        have hnext : ∀ o2 : σ, Good o2 →
            Good (if param.log_computed_offdiagonals_V = true then
              oops.clear_computed_offdiagonals_V o2 else o2) ∧
            oops.get_solution (if param.log_computed_offdiagonals_V = true then
              oops.clear_computed_offdiagonals_V o2 else o2) = oops.get_solution o2 := by
          intro o2 h2
          by_cases hlog : param.log_computed_offdiagonals_V = true
          · rw [if_pos hlog]
            exact M.clear_good _ h2
          · rw [if_neg hlog]
            exact ⟨h2, rfl⟩
        obtain ⟨hg3N, hS3N⟩ := hnext _ hg2N
        obtain ⟨hg3L, hS3L⟩ := hnext _ hg2L
        rw [hS2N] at hS3N
        rw [hS2L] at hS3L
        have hst1 : greedy_states (NonLazy.ops ord oops) oops n k param (t + 1)
            = .ok (sN1, if param.log_computed_offdiagonals_V then
                oops.clear_computed_offdiagonals_V (oops.add oN1 eL)
              else oops.add oN1 eL) := by
          rw [greedy_states, hst]
          exact ((greedyUnfolds_of (NonLazy.ops ord oops) oops n k param clock).2 m t sN oN
            resN eL sN1 oN1 hokN).1
        have hT3N : ∀ x, x ∈ sN1.T ↔ (x < n ∧ x ∉ oops.get_solution
            (if param.log_computed_offdiagonals_V = true then
              oops.clear_computed_offdiagonals_V (oops.add oN1 eL) else oops.add oN1 eL)) := by
          intro x
          rw [hS3N, hmemN x, hTN x]
          simp only [List.mem_append, List.mem_singleton, not_or]
          exact and_assoc
        have hT3L : ∀ x, x ∈ sL1.T ↔ (x < n ∧ x ∉ oops.get_solution
            (if param.log_computed_offdiagonals_V = true then
              oops.clear_computed_offdiagonals_V (oops.add oL1 eL) else oops.add oL1 eL)) := by
          intro x
          rw [hS3L, hmemL x, hTL x]
          simp only [List.mem_append, List.mem_singleton, not_or]
          exact and_assoc
        have hD1N : sN1.add_dummy = false := by
          have h0 : sN1.add_dummy = sN.add_dummy := qN1
          rw [h0]
          exact hDN
        have hD1L : sL1.add_dummy = false := by
          have h0 : sL1.add_dummy = sL.add_dummy := qL1
          rw [h0]
          exact hDL
        exact ih (t + 1) sN1 _ sL1 _
          (resN.add (some eL) (oops.get_value (oops.add oN1 eL)) (clock t) 0
            (oops.get_num_oracle_calls (oops.add oN1 eL))
            (oops.get_num_computed_offdiagonals_V (oops.add oN1 eL))
            (oops.get_computed_offdiagonals_V (oops.add oN1 eL)))
          (resL.add (some eL) (oops.get_value (oops.add oN1 eL)) (clock t) 0
            (oops.get_num_oracle_calls (oops.add oL1 eL))
            (oops.get_num_computed_offdiagonals_V (oops.add oL1 eL))
            (oops.get_computed_offdiagonals_V (oops.add oL1 eL)))
          hst1 hg3N hD1N qN3 hT3N hg3L qL2 hD1L qL3 hT3L (by rw [hS3L]; exact hJ1)
          (by rw [hS3L, hS3N, hSS])
          (by rw [hS3N, List.length_append, List.length_singleton]; omega)
          (by simp [GreedyResult.add, hmt])
          (by simp only [GreedyResult.add, hp])
          (by simp only [GreedyResult.add, List.length_append, List.length_singleton, hl])
          hf hloop
  have SLN := nonlazy_law n oops M.law Good ord hord
  have SLL := lazy_law n oops M.law Good ord' hord'
  obtain ⟨c1, c2⟩ := M.construct_good k param.log_computed_offdiagonals_V
  have hr : ∀ e ∈ List.range n, e < n ∧
      e ∉ oops.get_solution (oops.construct k param.log_computed_offdiagonals_V) := by
    intro e he
    rw [c2]
    exact ⟨List.mem_range.mp he, List.not_mem_nil e⟩
  -- the non-lazy strategy at the start
  obtain ⟨d1, d2, d3, _, d5⟩ := SLN.construct_spec (List.range n) false _ c1
    (List.nodup_range n) hr
  obtain ⟨e1, e2, _, _⟩ := steps_good n L oops Good Fresh M _ _ _ c1 hr d5
  have hS0N : oops.get_solution ((NonLazy.ops ord oops).construct (List.range n) false
      (oops.construct k param.log_computed_offdiagonals_V)).2 = [] := by rw [e2, c2]
  -- the lazy strategy at the start
  obtain ⟨l1, l2, l3, l4, l5⟩ := SLL.construct_spec (List.range n) false _ c1
    (List.nodup_range n) hr
  obtain ⟨f1, f2, _, _⟩ := steps_good n L oops Good Fresh M _ _ _ c1 hr l5
  have hS0L : oops.get_solution ((Lazy.ops ord' oops).construct (List.range n) false
      (oops.construct k param.log_computed_offdiagonals_V)).2 = [] := by rw [f2, c2]
  have hJ0 : Stale L [] ((Lazy.ops ord' oops).construct (List.range n) false
      (oops.construct k param.log_computed_offdiagonals_V)).1.T
      ((Lazy.ops ord' oops).construct (List.range n) false
      (oops.construct k param.log_computed_offdiagonals_V)).1.Q := by
    intro p hp hpT
    have hes : ∀ e ∈ ord' (List.range n), e < n ∧
        e ∉ oops.get_solution (oops.construct k param.log_computed_offdiagonals_V) := by
      intro e he
      rw [c2]
      exact ⟨List.mem_range.mp (((hord' (List.range n)).2 e).mp he), List.not_mem_nil e⟩
    have := entries_stale n L oops Good Fresh M (ord' (List.range n)) _ c1 hes p hp
    rw [c2] at this
    exact this
  have hloopN : greedy_loop (NonLazy.ops ord oops) oops param clock k 0
      ((NonLazy.ops ord oops).construct (List.range n) false
        (oops.construct k param.log_computed_offdiagonals_V)).1
      ((NonLazy.ops ord oops).construct (List.range n) false
        (oops.construct k param.log_computed_offdiagonals_V)).2 (GreedyResult.init α)
      = .ok outN := by
    rw [← hN]
    unfold greedy
    have hkn : (!decide (k ≤ n)) = false := by simp [hk]
    rw [hkn]
    rfl
  have hTN : ∀ x, x ∈ ((NonLazy.ops ord oops).construct (List.range n) false
      (oops.construct k param.log_computed_offdiagonals_V)).1.T ↔ (x < n ∧
      x ∉ oops.get_solution ((NonLazy.ops ord oops).construct (List.range n) false
      (oops.construct k param.log_computed_offdiagonals_V)).2) := by
    intro x
    rw [hS0N]
    have := d2 x
    simp only [List.mem_range] at this
    simpa using this
  have hTL : ∀ x, x ∈ ((Lazy.ops ord' oops).construct (List.range n) false
      (oops.construct k param.log_computed_offdiagonals_V)).1.T ↔ (x < n ∧
      x ∉ oops.get_solution ((Lazy.ops ord' oops).construct (List.range n) false
      (oops.construct k param.log_computed_offdiagonals_V)).2) := by
    intro x
    rw [hS0L]
    have := l2 x
    simp only [List.mem_range] at this
    simpa using this
  obtain ⟨outL, g1, g2, g3, g4⟩ := lazy_lockstep n L oops Good Fresh M ord ord' hord hord' k
    param clock outN hties k 0
    ((NonLazy.ops ord oops).construct (List.range n) false
      (oops.construct k param.log_computed_offdiagonals_V)).1
    ((NonLazy.ops ord oops).construct (List.range n) false
      (oops.construct k param.log_computed_offdiagonals_V)).2
    ((Lazy.ops ord' oops).construct (List.range n) false
      (oops.construct k param.log_computed_offdiagonals_V)).1
    ((Lazy.ops ord' oops).construct (List.range n) false
      (oops.construct k param.log_computed_offdiagonals_V)).2
    (GreedyResult.init α) (GreedyResult.init α) rfl e1 d3 d1 hTN f1 l4 l3 l1 hTL
    (by rw [hS0L]; exact hJ0) (by rw [hS0L, hS0N])
    (by rw [hS0N]; simpa using hk) rfl rfl rfl rfl hloopN
  have hL : greedy (Lazy.ops ord' oops) oops n k param clock = .ok outL := by
    unfold greedy
    have hkn : (!decide (k ≤ n)) = false := by simp [hk]
    rw [hkn]
    exact g1
  -- what the non-lazy run returns at every index
  obtain ⟨out', es, gs, p, b1, _, _, _, b5, _⟩ := greedy_base log n oops Good' Holds B _ _ _ _ _
    (nonlazy_law n oops B.law Good' ord hord) k hk param clock
  rw [hN] at b1
  simp only [Except.ok.injEq] at b1
  subst b1
  have hgetN : ∀ j, ∃ b, outN.get j = .ok b := by
    intro j
    obtain ⟨s1, s2⟩ := snap_get log outN es gs b5 j
    by_cases hj : j ≤ es.length
    · obtain ⟨r, hr, _⟩ := s1 hj
      exact ⟨r, hr⟩
    · exact ⟨_, s2 (by omega)⟩
  have hlastL : ∃ rL, outL.last = .ok rL ∧ rL.solution = rN.solution ∧ rL.value = rN.value := by
    unfold GreedyResult.last GreedyResult.size
    rw [g3]
    exact greedy_get_congr outL outN g2 g3 _ rN hlast
  obtain ⟨rL, q1, q2, q3⟩ := hlastL
  refine ⟨outL, rL, hL, q1, q2, q3, g4, ?_⟩
  intro j
  obtain ⟨b, hb⟩ := hgetN j
  obtain ⟨a, ha1, ha2, ha3⟩ := greedy_get_congr outL outN g2 g3 j b hb
  exact ⟨a, b, ha1, hb, ha2, ha3⟩

end DPP

namespace DPP

/-- C5, amended: in exact arithmetic, for every positive semidefinite `L` and every `k ≤ n`,
when at every step of plain greedy with the non-lazy strategy the element popped is the
only one to attain the largest gain, plain greedy with the lazy strategy over the same
oracle type, direct or fast, and the same ground set returns the same solution sequence and
the same value, in the last result and in every result read from what is returned. -/
theorem strategy_equivalence (n : Nat) (L : Nat → Nat → ℝ)
    (hL : (Matrix.of fun i j : Fin n => L i j).PosSemidef) (k : Nat) (hk : k ≤ n)
    (ord ord' : List Nat → List Nat) (hord : SetOrder ord) (hord' : SetOrder ord')
    (V0 : Nat → Nat → Option ℝ) (param : Param ℝ) (clock : Nat → ℝ) :
    (∀ (outD : GreedyResult ℝ) (rD : Result ℝ),
      greedy (NonLazy.ops ord (Oracle.ops Real.log L)) (Oracle.ops Real.log L) n k param
        clock = .ok outD →
      outD.last = .ok rD →
      (∀ t, t + 1 < outD.size →
        NoComputedTie (NonLazy.ops ord (Oracle.ops Real.log L)) (Oracle.ops Real.log L)
          n k param t) →
      SameAsNonLazy n k param clock ord' (Oracle.ops Real.log L) outD rD) ∧
    (∀ (outF : GreedyResult ℝ) (rF : Result ℝ),
      greedy (NonLazy.ops ord (Fast.ops Real.sqrt Real.log V0 L))
        (Fast.ops Real.sqrt Real.log V0 L) n k param clock = .ok outF →
      outF.last = .ok rF →
      (∀ t, t + 1 < outF.size →
        NoComputedTie (NonLazy.ops ord (Fast.ops Real.sqrt Real.log V0 L))
          (Fast.ops Real.sqrt Real.log V0 L) n k param t) →
      SameAsNonLazy n k param clock ord' (Fast.ops Real.sqrt Real.log V0 L) outF rF) := by
  -- Over the reals, a kernel whose leading block is a positive semidefinite matrix is
  -- `PosSemidefOn`.
  have posSemidefOn_of_posSemidef (n : Nat) (L : Nat → Nat → ℝ)
      (h : (Matrix.of fun i j : Fin n => L i j).PosSemidef) : PosSemidefOn n L := by
    have e : ∀ x : Fin n → ℝ,
        Matrix.dotProduct (star x) ((Matrix.of fun i j : Fin n => L i j).mulVec x)
          = quadForm n L x := by
      intro x
      simp only [quadForm, star_trivial, Matrix.dotProduct, Matrix.mulVec, Matrix.of_apply,
        Finset.mul_sum]
      exact Finset.sum_congr rfl (fun i _ => Finset.sum_congr rfl (fun j _ => by ring))
    refine ⟨fun i j hi hj => ?_, fun x => ?_⟩
    · have := h.1.apply ⟨j, hj⟩ ⟨i, hi⟩
      simpa using this
    · rw [← e]
      exact h.2 x
  have hP := posSemidefOn_of_posSemidef n L hL
  refine ⟨?_, ?_⟩
  · intro outD rD hD hDl htD
    exact lazy_same_lockstep n L _ _ _ (direct_math_psd n L hP) _ _ (direct_base Real.log L)
      ord ord' hord hord' k hk param clock outD rD hD hDl htD
  · intro outF rF hF hFl htF
    exact lazy_same_lockstep n L _ _ _ (Fast.fast_math_psd n L hP V0) _ _
      (fast_base Real.sqrt Real.log V0 L) ord ord' hord hord' k hk param clock outF rF hF hFl
      htF

set_option maxHeartbeats 4000000 in
set_option maxRecDepth 100000 in
/-- Witness of C5: on the kernel `diag(3, 2, 0)`, which is positive semidefinite and not
positive definite, with `k = 2`, plain greedy with the non-lazy strategy returns over both
oracles, the element it pops at each step is the only one of largest gain, and plain greedy
with the lazy strategy returns the same. -/
theorem strategy_equivalence_witness :
    (Matrix.of fun i j : Fin 3 => rankDiag ℝ i j).PosSemidef ∧
    rankDiag ℝ 2 2 = 0 ∧
    ∃ outD rD outF rF,
      greedy (NonLazy.ops (fun l => l.dedup) (Oracle.ops Real.log (rankDiag ℝ)))
        (Oracle.ops Real.log (rankDiag ℝ)) 3 2
        { time_limit := ⊤, log_computed_offdiagonals_V := false } (fun _ => 0) = .ok outD ∧
      outD.last = .ok rD ∧
      (∀ t, t + 1 < outD.size →
        NoComputedTie (NonLazy.ops (fun l => l.dedup) (Oracle.ops Real.log (rankDiag ℝ)))
          (Oracle.ops Real.log (rankDiag ℝ)) 3 2
          { time_limit := ⊤, log_computed_offdiagonals_V := false } t) ∧
      greedy (NonLazy.ops (fun l => l.dedup)
        (Fast.ops Real.sqrt Real.log (fun _ _ => none) (rankDiag ℝ)))
        (Fast.ops Real.sqrt Real.log (fun _ _ => none) (rankDiag ℝ)) 3 2
        { time_limit := ⊤, log_computed_offdiagonals_V := false } (fun _ => 0) = .ok outF ∧
      outF.last = .ok rF ∧
      (∀ t, t + 1 < outF.size →
        NoComputedTie (NonLazy.ops (fun l => l.dedup)
          (Fast.ops Real.sqrt Real.log (fun _ _ => none) (rankDiag ℝ)))
          (Fast.ops Real.sqrt Real.log (fun _ _ => none) (rankDiag ℝ)) 3 2
          { time_limit := ⊤, log_computed_offdiagonals_V := false } t) ∧
      SameAsNonLazy 3 2 { time_limit := ⊤, log_computed_offdiagonals_V := false } (fun _ => 0)
        (fun l => l.dedup) (Oracle.ops Real.log (rankDiag ℝ)) outD rD ∧
      SameAsNonLazy 3 2 { time_limit := ⊤, log_computed_offdiagonals_V := false } (fun _ => 0)
        (fun l => l.dedup) (Fast.ops Real.sqrt Real.log (fun _ _ => none) (rankDiag ℝ))
        outF rF := by
  -- On `diag(3, 2, 0)` with `k = 2` over the fast oracle, the element that the non-lazy
  -- strategy pops at each of the two steps is the only one of largest computed gain.
  have rank_fast_notie {α : Type} [LinearOrderedField α] (sqrt log : α → α) (t : Nat)
      (ht : t < 2) :
      NoComputedTie
        (NonLazy.ops (fun l => l.dedup) (Fast.ops sqrt log (fun _ _ => none) (rankDiag α)))
        (Fast.ops sqrt log (fun _ _ => none) (rankDiag α)) 3 2
        { time_limit := ⊤, log_computed_offdiagonals_V := false } t := by
    have hd : ([0, 1, 2] : List Nat).dedup = [0, 1, 2] := by decide
    have f1 : ¬ (3 : α) < 2 := by norm_num
    have f2 : ¬ (2 : α) < 0 := by norm_num
    have f3 : ¬ (3 : α) < 0 := by norm_num
    have f4 : (2 : α) < 3 := by norm_num
    have f5 : (0 : α) < 3 := by norm_num
    have f6 : (0 : α) < 2 := by norm_num
    have f7 : ¬ (3 : α) ≤ 0 := by norm_num
    intro s o e s1 o1 hst hpop x hx hxS hne
    interval_cases t
    · simp [greedy_states, NonLazy.ops, NonLazy.construct, Fast.ops, Fast.construct, List.range,
        List.range.loop, hd] at hst
      obtain ⟨rfl, rfl⟩ := hst
      simp [NonLazy.ops, NonLazy.pop_largest, NonLazy.pop_kth_largest, NonLazy.fill, NonLazy.scan,
        NonLazy.remove, heapMin, ElementValuePair.less, ElementValuePair.greater, Fast.ops,
        Fast.construct, Fast.compute_marginal_gain_exponential,
        Fast.get_last_marginal_gain_exponential, Fast.loop, Fast.step, Fast.quotient,
        Fast.residual, odot, rankDiag, Function.update, f1, f2, f3] at hpop
      obtain ⟨rfl, rfl, rfl⟩ := hpop
      interval_cases x
      · exact absurd rfl hne
      · simp [gainAt, Fast.ops, Fast.compute_marginal_gain_exponential,
          Fast.get_last_marginal_gain_exponential, Fast.loop, rankDiag, f4]
      · simp [gainAt, Fast.ops, Fast.compute_marginal_gain_exponential,
          Fast.get_last_marginal_gain_exponential, Fast.loop, rankDiag, f5]
    · simp [greedy_states, greedy_step, NonLazy.ops, NonLazy.construct, Fast.ops, Fast.construct,
        List.range, List.range.loop, hd, NonLazy.pop_largest, NonLazy.pop_kth_largest,
        NonLazy.fill, NonLazy.scan,
        NonLazy.remove, heapMin, ElementValuePair.less, ElementValuePair.greater,
        Fast.compute_marginal_gain_exponential,
        Fast.get_last_marginal_gain_exponential, Fast.loop, Fast.step, Fast.quotient,
        Fast.residual, odot, rankDiag, Function.update, f1, f2, f3, Fast.add] at hst
      obtain ⟨rfl, rfl⟩ := hst
      simp [NonLazy.ops, NonLazy.pop_largest, NonLazy.pop_kth_largest, NonLazy.fill, NonLazy.scan,
        NonLazy.remove, heapMin, ElementValuePair.less, ElementValuePair.greater, Fast.ops,
        Fast.construct, Fast.compute_marginal_gain_exponential,
        Fast.get_last_marginal_gain_exponential, Fast.loop, Fast.step, Fast.quotient,
        Fast.residual, odot, rankDiag, Function.update, f1, f2, f3, f7] at hpop
      obtain ⟨rfl, rfl, rfl⟩ := hpop
      interval_cases x
      · exact absurd (by simp [Fast.ops]) hxS
      · exact absurd rfl hne
      · simp [gainAt, Fast.ops, Fast.compute_marginal_gain_exponential,
          Fast.get_last_marginal_gain_exponential, Fast.loop, Fast.step, Fast.quotient,
          Fast.residual, odot, rankDiag, Function.update, f6, f7]
  -- On `diag(3, 2, 0)` with `k = 2` over the direct oracle, the element that the non-lazy
  -- strategy pops at each of the two steps is the only one of largest computed gain.
  have rank_direct_notie {α : Type} [LinearOrderedField α] (log : α → α) (t : Nat)
      (ht : t < 2) :
      NoComputedTie
        (NonLazy.ops (fun l => l.dedup) (Oracle.ops log (rankDiag α)))
        (Oracle.ops log (rankDiag α)) 3 2
        { time_limit := ⊤, log_computed_offdiagonals_V := false } t := by
    -- Off the selection, the column of `diag(3, 2, 0)` over the selection is zero.
    have rankDiag_sub {α : Type} [LinearOrderedField α] (S : List Nat) (x : Nat) (h : x ∉ S) :
        subVector (rankDiag α) S x = 0 := by
      funext i
      have hne : S.get i ≠ x := fun e => h (e ▸ List.get_mem S i.1 i.2)
      show rankDiag α (S.get i) x = 0
      unfold rankDiag
      exact if_neg hne
    have hd : ([0, 1, 2] : List Nat).dedup = [0, 1, 2] := by decide
    have f1 : ¬ (3 : α) < 2 := by norm_num
    have f2 : ¬ (2 : α) < 0 := by norm_num
    have f3 : ¬ (3 : α) < 0 := by norm_num
    have f4 : (2 : α) < 3 := by norm_num
    have f5 : (0 : α) < 3 := by norm_num
    have f6 : (0 : α) < 2 := by norm_num
    have f7 : ¬ (3 : α) ≤ 0 := by norm_num
    have g0 : subVector (rankDiag α) [] 0 = 0 := rankDiag_sub _ _ (by decide)
    have g1 : subVector (rankDiag α) [] 1 = 0 := rankDiag_sub _ _ (by decide)
    have g2 : subVector (rankDiag α) [] 2 = 0 := rankDiag_sub _ _ (by decide)
    have g3 : subVector (rankDiag α) [0] 1 = 0 := rankDiag_sub _ _ (by decide)
    have g4 : subVector (rankDiag α) [0] 2 = 0 := rankDiag_sub _ _ (by decide)
    intro s o e s1 o1 hst hpop x hx hxS hne
    interval_cases t
    · simp [greedy_states, NonLazy.ops, NonLazy.construct, Oracle.ops, Oracle.construct, List.range,
        List.range.loop, hd] at hst
      obtain ⟨rfl, rfl⟩ := hst
      simp [NonLazy.ops, NonLazy.pop_largest, NonLazy.pop_kth_largest, NonLazy.fill, NonLazy.scan,
        NonLazy.remove, heapMin, ElementValuePair.less, ElementValuePair.greater, Oracle.ops,
        Oracle.construct, Oracle.compute_marginal_gain_exponential,
        rankDiag, Function.update, f1, f2, f3, g0, g1, g2] at hpop
      obtain ⟨rfl, rfl, rfl⟩ := hpop
      interval_cases x
      · exact absurd rfl hne
      · simp [gainAt, Oracle.ops, Oracle.compute_marginal_gain_exponential, rankDiag, f4, g0, g1]
      · simp [gainAt, Oracle.ops, Oracle.compute_marginal_gain_exponential, rankDiag, f5, g0, g2]
    · simp [greedy_states, greedy_step, NonLazy.ops, NonLazy.construct, Oracle.ops,
        Oracle.construct, List.range, List.range.loop, hd, NonLazy.pop_largest,
        NonLazy.pop_kth_largest, NonLazy.fill, NonLazy.scan,
        NonLazy.remove, heapMin, ElementValuePair.less, ElementValuePair.greater,
        Oracle.compute_marginal_gain_exponential, Oracle.add,
        rankDiag, Function.update, f1, f2, f3, g0, g1, g2] at hst
      obtain ⟨rfl, rfl⟩ := hst
      simp [NonLazy.ops, NonLazy.pop_largest, NonLazy.pop_kth_largest, NonLazy.fill, NonLazy.scan,
        NonLazy.remove, heapMin, ElementValuePair.less, ElementValuePair.greater, Oracle.ops,
        Oracle.construct, Oracle.compute_marginal_gain_exponential,
        rankDiag, Function.update, f1, f2, f3, f7, g3, g4] at hpop
      obtain ⟨rfl, rfl, rfl⟩ := hpop
      interval_cases x
      · exact absurd (by simp [Oracle.ops]) hxS
      · exact absurd rfl hne
      · simp [gainAt, Oracle.ops, Oracle.compute_marginal_gain_exponential, rankDiag,
          Function.update, f6, f7, g3, g4]
  -- The function `greedy` returns, its last result can be read, and it records at most `k`
  -- steps after the initial one.
  have greedy_run_last {τ σ α : Type} [LinearOrderedField α] (log : α → α) (n : Nat)
      (oops : OracleOps σ α) (Good : σ → Prop) (Holds : σ → Nat → α → Prop)
      (B : OracleBase oops log Good Holds) (sops : StrategyOps τ σ α) (getT : τ → List Nat)
      (getD : τ → Bool) (SI : τ → Prop) (Dead : τ → σ → Prop)
      (SL : StrategyLaw n oops Good sops getT getD SI Dead)
      (k : Nat) (hk : k ≤ n) (param : Param α) (clock : Nat → α) :
      ∃ out r, greedy sops oops n k param clock = .ok out ∧ out.last = .ok r ∧
        out.size ≤ k + 1 := by
    obtain ⟨out, es, gs, p, h1, _, _, _, h5, _, _, h8, _⟩ :=
      greedy_base log n oops Good Holds B sops getT getD SI Dead SL k hk param clock
    have hsz : out.size = es.length + 1 := h5.2.1
    obtain ⟨r, hr, _⟩ := (snap_get log out es gs h5 es.length).1 (Nat.le_refl _)
    refine ⟨out, r, h1, ?_, ?_⟩
    · unfold GreedyResult.last
      rw [hsz, Nat.add_sub_cancel]
      exact hr
    · have := greedy_len_le param clock k 0
      omega
  obtain ⟨outD, rD, d1, d2, d3⟩ := greedy_run_last Real.log 3 _ _ _
    (direct_base Real.log (rankDiag ℝ)) _ _ _ _ _
    (nonlazy_law 3 _ (direct_base Real.log (rankDiag ℝ)).law _ (fun l => l.dedup) setOrder_id)
    2 (by decide) { time_limit := ⊤, log_computed_offdiagonals_V := false } (fun _ => 0)
  obtain ⟨outF, rF, f1, f2, f3⟩ := greedy_run_last Real.log 3 _ _ _
    (fast_base Real.sqrt Real.log (fun _ _ => none) (rankDiag ℝ)) _ _ _ _ _
    (nonlazy_law 3 _ (fast_base Real.sqrt Real.log (fun _ _ => none) (rankDiag ℝ)).law _
      (fun l => l.dedup) setOrder_id)
    2 (by decide) { time_limit := ⊤, log_computed_offdiagonals_V := false } (fun _ => 0)
  have hD : ∀ t, t + 1 < outD.size →
      NoComputedTie (NonLazy.ops (fun l => l.dedup) (Oracle.ops Real.log (rankDiag ℝ)))
        (Oracle.ops Real.log (rankDiag ℝ)) 3 2
        { time_limit := ⊤, log_computed_offdiagonals_V := false } t :=
    fun t ht => rank_direct_notie Real.log t (by omega)
  have hF : ∀ t, t + 1 < outF.size →
      NoComputedTie (NonLazy.ops (fun l => l.dedup)
        (Fast.ops Real.sqrt Real.log (fun _ _ => none) (rankDiag ℝ)))
        (Fast.ops Real.sqrt Real.log (fun _ _ => none) (rankDiag ℝ)) 3 2
        { time_limit := ⊤, log_computed_offdiagonals_V := false } t :=
    fun t ht => rank_fast_notie Real.sqrt Real.log t (by omega)
  have hpsd : (Matrix.of fun i j : Fin 3 => rankDiag ℝ i j).PosSemidef := by
    have h : (Matrix.of fun i j : Fin 3 => rankDiag ℝ i j) = Matrix.diagonal ![3, 2, 0] := by
      ext i j
      fin_cases i <;> fin_cases j <;> simp [rankDiag, Matrix.diagonal]
    rw [h]
    apply Matrix.PosSemidef.diagonal
    intro i
    fin_cases i <;> simp
  have := strategy_equivalence 3 (rankDiag ℝ) hpsd 2 (by decide) (fun l => l.dedup)
    (fun l => l.dedup) setOrder_id setOrder_id (fun _ _ => none)
    { time_limit := ⊤, log_computed_offdiagonals_V := false } (fun _ => 0)
  exact ⟨hpsd, rfl, outD, rD, outF, rF, d1, d2, hD, f1, f2, hF,
    this.1 outD rD d1 d2 hD, this.2 outF rF f1 f2 hF⟩

set_option maxHeartbeats 4000000 in
set_option maxRecDepth 100000 in
/-- Counterexample to C5 as stated, in two parts.  The tie kernel
`[[4, 0, 2], [0, 2, 0], [2, 0, 3]]` is positive definite, hence positive semidefinite; with
`k = 2` over the direct oracle plain greedy with the non-lazy strategy returns `[0, 1]` and
plain greedy with the lazy strategy returns `[0, 2]`.  The kernel
`[[4, 0, b], [0, 2, 0], [b, 0, c]]` with `b = 2 + 2 ^ (-51)` and `c = 3 + 2 ^ (-51)` is
positive definite and its entries are doubles; with `k = 2`, in exact arithmetic the element
popped at either step of plain greedy with the non-lazy strategy is the only one of largest
gain, the gain of element `2` after element `0` being `2 - 2 ^ (-104)`; the fast oracle
computes this gain in doubles as `2`, the gain of element `1`, and over the fast oracle in
doubles plain greedy with the non-lazy strategy returns `[0, 1]` and plain greedy with the
lazy strategy returns `[0, 2]`. -/
theorem strategy_equivalence_counterexample :
    ((Matrix.of fun i j : Fin 3 => tieKernel ℝ i j).PosSemidef ∧
    ∃ outN rN outL rL,
      greedy (NonLazy.ops (fun l => l.dedup) (Oracle.ops Real.log (tieKernel ℝ)))
        (Oracle.ops Real.log (tieKernel ℝ)) 3 2
        { time_limit := ⊤, log_computed_offdiagonals_V := false } (fun _ => 0) = .ok outN ∧
      outN.last = .ok rN ∧
      greedy (Lazy.ops (fun l => l.dedup) (Oracle.ops Real.log (tieKernel ℝ)))
        (Oracle.ops Real.log (tieKernel ℝ)) 3 2
        { time_limit := ⊤, log_computed_offdiagonals_V := false } (fun _ => 0) = .ok outL ∧
      outL.last = .ok rL ∧ rN.solution = [0, 1] ∧ rL.solution = [0, 2] ∧
      rN.solution ≠ rL.solution) ∧
    ((Matrix.of fun i j : Fin 3 => roundKernel ℝ i j).PosSemidef ∧
    (∀ i j, fl64 (roundKernel ℝ i j) = roundKernel ℝ i j) ∧
    NoComputedTie
      (NonLazy.ops (fun l => l.dedup)
        (Fast.ops Real.sqrt Real.log (fun _ _ => none) (roundKernel ℝ)))
      (Fast.ops Real.sqrt Real.log (fun _ _ => none) (roundKernel ℝ)) 3 2
      { time_limit := ⊤, log_computed_offdiagonals_V := false } 0 ∧
    NoComputedTie
      (NonLazy.ops (fun l => l.dedup)
        (Fast.ops Real.sqrt Real.log (fun _ _ => none) (roundKernel ℝ)))
      (Fast.ops Real.sqrt Real.log (fun _ _ => none) (roundKernel ℝ)) 3 2
      { time_limit := ⊤, log_computed_offdiagonals_V := false } 1 ∧
    ∃ outN rN outL rL,
      greedy (NonLazy.ops (fun l => l.dedup) (Fast.ops_fl fl64 (fun x => fl64 (Real.sqrt x))
          (fun x => fl64 (Real.log x)) (fun _ _ => none) (roundKernel ℝ)))
        (Fast.ops_fl fl64 (fun x => fl64 (Real.sqrt x)) (fun x => fl64 (Real.log x))
          (fun _ _ => none) (roundKernel ℝ)) 3 2
        { time_limit := ⊤, log_computed_offdiagonals_V := false } (fun _ => 0) = .ok outN ∧
      outN.last = .ok rN ∧
      greedy (Lazy.ops (fun l => l.dedup) (Fast.ops_fl fl64 (fun x => fl64 (Real.sqrt x))
          (fun x => fl64 (Real.log x)) (fun _ _ => none) (roundKernel ℝ)))
        (Fast.ops_fl fl64 (fun x => fl64 (Real.sqrt x)) (fun x => fl64 (Real.log x))
          (fun _ _ => none) (roundKernel ℝ)) 3 2
        { time_limit := ⊤, log_computed_offdiagonals_V := false } (fun _ => 0) = .ok outL ∧
      outL.last = .ok rL ∧ rN.solution = [0, 1] ∧ rL.solution = [0, 2] ∧
      rN.solution ≠ rL.solution) := by
  -- On a kernel `[[a, 0, b], [0, d, 0], [b, 0, c]]` with `d < c < a` in which the gain `g` of
  -- element `2` after element `0` is positive and below `d`, the element that the non-lazy
  -- strategy pops over the exact fast oracle at each of the two steps is the only one of
  -- largest gain.
  have arrow_fast_notie {α : Type} [LinearOrderedField α] (sqrt log : α → α)
      (V0 : Nat → Nat → Option α) (a b c d s g : α)
      (ha : 0 < a) (hd0 : 0 < d) (hc0 : 0 < c) (hda : d < a) (hca : c < a) (hdc : d < c)
      (hsq : sqrt a = s) (hg : c - b / s * (b / s) = g) (hg0 : 0 < g) (hgd : g < d)
      (t : Nat) (ht : t < 2) :
      NoComputedTie
        (NonLazy.ops (fun l => l.dedup) (Fast.ops sqrt log V0 (fun i j =>
          match i, j with
          | 0, 0 => a
          | 0, 2 => b
          | 2, 0 => b
          | 1, 1 => d
          | 2, 2 => c
          | _, _ => 0)))
        (Fast.ops sqrt log V0 (fun i j =>
          match i, j with
          | 0, 0 => a
          | 0, 2 => b
          | 2, 0 => b
          | 1, 1 => d
          | 2, 2 => c
          | _, _ => 0)) 3 2
        { time_limit := ⊤, log_computed_offdiagonals_V := false } t := by
    have hd : ([0, 1, 2] : List Nat).dedup = [0, 1, 2] := by decide
    have f1 : ¬ a < d := not_lt.mpr hda.le
    have f2 : ¬ a < c := not_lt.mpr hca.le
    have f3 : ¬ c < d := not_lt.mpr hdc.le
    have f4 : ¬ a ≤ 0 := not_le.mpr ha
    have f5 : ¬ d ≤ 0 := not_le.mpr hd0
    have f6 : ¬ c ≤ 0 := not_le.mpr hc0
    have f7 : ¬ d < g := not_lt.mpr hgd.le
    have f8 : max 0 d = d := max_eq_right hd0.le
    have f9 : max 0 g = g := max_eq_right hg0.le
    intro s0 o e s1 o1 hst hpop x hx hxS hne
    interval_cases t
    · simp [greedy_states, NonLazy.ops, NonLazy.construct, Fast.ops, Fast.construct, List.range,
        List.range.loop, hd] at hst
      obtain ⟨rfl, rfl⟩ := hst
      simp [NonLazy.ops, NonLazy.pop_largest, NonLazy.pop_kth_largest, NonLazy.fill, NonLazy.scan,
        NonLazy.remove, heapMin, ElementValuePair.less, ElementValuePair.greater, Fast.ops,
        Fast.construct, Fast.compute_marginal_gain_exponential,
        Fast.get_last_marginal_gain_exponential, Fast.loop, Fast.step, Fast.quotient,
        Fast.residual, odot, Function.update, f1, f2, f3, hda, hca, hdc] at hpop
      obtain ⟨rfl, rfl, rfl⟩ := hpop
      interval_cases x
      · exact absurd rfl hne
      · simp [gainAt, Fast.ops, Fast.compute_marginal_gain_exponential,
          Fast.get_last_marginal_gain_exponential, Fast.loop, Fast.construct, hda]
      · simp [gainAt, Fast.ops, Fast.compute_marginal_gain_exponential,
          Fast.get_last_marginal_gain_exponential, Fast.loop, Fast.construct, hca]
    · simp [greedy_states, greedy_step, NonLazy.ops, NonLazy.construct, Fast.ops, Fast.construct,
        List.range, List.range.loop, hd, NonLazy.pop_largest, NonLazy.pop_kth_largest,
        NonLazy.fill, NonLazy.scan,
        NonLazy.remove, heapMin, ElementValuePair.less, ElementValuePair.greater,
        Fast.compute_marginal_gain_exponential,
        Fast.get_last_marginal_gain_exponential, Fast.loop, Fast.step, Fast.quotient,
        Fast.residual, odot, Function.update, f1, f2, f3, hda, hca, hdc, Fast.add] at hst
      obtain ⟨rfl, rfl⟩ := hst
      simp [NonLazy.ops, NonLazy.pop_largest, NonLazy.pop_kth_largest, NonLazy.fill, NonLazy.scan,
        NonLazy.remove, heapMin, ElementValuePair.less, ElementValuePair.greater, Fast.ops,
        Fast.construct, Fast.compute_marginal_gain_exponential,
        Fast.get_last_marginal_gain_exponential, Fast.loop, Fast.step, Fast.quotient,
        Fast.residual, odot, Function.update, f1, f2, f3, f4, f5, f6, f7, f8, f9, hsq, hg,
        hgd] at hpop
      obtain ⟨rfl, rfl, rfl⟩ := hpop
      interval_cases x
      · exact absurd (by simp [Fast.ops]) hxS
      · exact absurd rfl hne
      · simp [gainAt, Fast.ops, Fast.compute_marginal_gain_exponential,
          Fast.get_last_marginal_gain_exponential, Fast.loop, Fast.step, Fast.quotient,
          Fast.residual, odot, Function.update, f4, f5, f6, f7, f8, f9, hsq, hg, hgd]
  -- Plain greedy with the lazy strategy over the fast oracle in doubles, on a kernel
  -- `[[a, 0, b], [0, d, 0], [b, 0, c]]` with `d < c < a` and `k = 2`, when the gain of element `2`
  -- after element `0` is computed as `d`, the gain of element `1`: it selects `0`, then `2`.
  have arrow_lazy_fl {α : Type} [LinearOrderedField α] (fl sq lg : α → α)
      (V0 : Nat → Nat → Option α) (a b c d s v w : α)
      (ha : 0 < a) (hd0 : 0 < d) (hc0 : 0 < c) (hda : d < a) (hca : c < a) (hdc : d < c)
      (hflb : fl b = b) (hsq : sq a = s)
      (hv : fl (b / s) = v) (hw : fl (v * v) = w) (hg : fl (c - w) = d) :
      ∃ out, greedy
        (Lazy.ops (fun l => l.dedup) (Fast.ops_fl fl sq lg V0 (fun i j =>
          match i, j with
          | 0, 0 => a
          | 0, 2 => b
          | 2, 0 => b
          | 1, 1 => d
          | 2, 2 => c
          | _, _ => 0)))
        (Fast.ops_fl fl sq lg V0 (fun i j =>
          match i, j with
          | 0, 0 => a
          | 0, 2 => b
          | 2, 0 => b
          | 1, 1 => d
          | 2, 2 => c
          | _, _ => 0)) 3 2
        { time_limit := ⊤, log_computed_offdiagonals_V := false } (fun _ => 0) = .ok out ∧
        Except.map (fun r => r.solution) out.last = .ok [0, 2] := by
    have hd : ([0, 1, 2] : List Nat).dedup = [0, 1, 2] := by decide
    have f1 : ¬ a < d := not_lt.mpr hda.le
    have f2 : ¬ a < c := not_lt.mpr hca.le
    have f3 : ¬ c < d := not_lt.mpr hdc.le
    have f4 : ¬ a ≤ 0 := not_le.mpr ha
    have f5 : ¬ d ≤ 0 := not_le.mpr hd0
    have f6 : ¬ c ≤ 0 := not_le.mpr hc0
    have f7 : ¬ d < d := lt_irrefl d
    have f8 : max 0 d = d := max_eq_right hd0.le
    have f9 : c ≤ a := hca.le
    have f10 : d ≤ a := hda.le
    have f11 : d ≤ c := hdc.le
    cases hrun : greedy
        (Lazy.ops (fun l => l.dedup) (Fast.ops_fl fl sq lg V0 (fun i j =>
          match i, j with
          | 0, 0 => a
          | 0, 2 => b
          | 2, 0 => b
          | 1, 1 => d
          | 2, 2 => c
          | _, _ => 0)))
        (Fast.ops_fl fl sq lg V0 (fun i j =>
          match i, j with
          | 0, 0 => a
          | 0, 2 => b
          | 2, 0 => b
          | 1, 1 => d
          | 2, 2 => c
          | _, _ => 0)) 3 2
        { time_limit := ⊤, log_computed_offdiagonals_V := false } (fun _ => 0) with
    | error f =>
      simp [greedy, greedy_loop, Lazy.ops, Lazy.construct, Lazy.entries,
        Lazy.pop_largest, Lazy.pop_largest_loop, Lazy.commit, heapTop,
        ElementValuePair.less, ElementValuePair.greater,
        Fast.ops_fl, Fast.construct, Fast.compute_marginal_gain_exponential_fl,
        Fast.get_last_marginal_gain_exponential, Fast.loop_fl, Fast.step_fl, Fast.quotient_fl,
        Fast.residual_fl, Fast.add_fl, odot_fl, expired, GreedyResult.init, GreedyResult.add,
        List.range, List.range.loop, Function.update, dlog_pos, radd_some, radd_zero_some, hd,
        ha, hd0, hc0, hda, hca, hdc, f1, f2, f3, f4, f5, f6, f7, f8, f9, f10, f11, hflb, hsq,
        hv, hw, hg, isNegInf] at hrun
    | ok out =>
      simp [greedy, greedy_loop, Lazy.ops, Lazy.construct, Lazy.entries,
        Lazy.pop_largest, Lazy.pop_largest_loop, Lazy.commit, heapTop,
        ElementValuePair.less, ElementValuePair.greater,
        Fast.ops_fl, Fast.construct, Fast.compute_marginal_gain_exponential_fl,
        Fast.get_last_marginal_gain_exponential, Fast.loop_fl, Fast.step_fl, Fast.quotient_fl,
        Fast.residual_fl, Fast.add_fl, odot_fl, expired, GreedyResult.init, GreedyResult.add,
        List.range, List.range.loop, Function.update, dlog_pos, radd_some, radd_zero_some, hd,
        ha, hd0, hc0, hda, hca, hdc, f1, f2, f3, f4, f5, f6, f7, f8, f9, f10, f11, hflb, hsq,
        hv, hw, hg, isNegInf] at hrun
      subst hrun
      refine ⟨_, rfl, ?_⟩
      simp [GreedyResult.last, GreedyResult.get, GreedyResult.size, GreedyResult.sol, Except.map]
  -- Plain greedy with the non-lazy strategy over the fast oracle in doubles, on a kernel
  -- `[[a, 0, b], [0, d, 0], [b, 0, c]]` with `d < c < a` and `k = 2`, when the gain of element `2`
  -- after element `0` is computed as `d`, the gain of element `1`: it selects `0`, then `1`.
  have arrow_nonlazy_fl {α : Type} [LinearOrderedField α] (fl sq lg : α → α)
      (V0 : Nat → Nat → Option α) (a b c d s v w : α)
      (ha : 0 < a) (hd0 : 0 < d) (hc0 : 0 < c) (hda : d < a) (hca : c < a) (hdc : d < c)
      (hfl0 : fl 0 = 0) (hfld : fl d = d) (hflb : fl b = b) (hsq : sq a = s)
      (hv : fl (b / s) = v) (hw : fl (v * v) = w) (hg : fl (c - w) = d) :
      ∃ out, greedy
        (NonLazy.ops (fun l => l.dedup) (Fast.ops_fl fl sq lg V0 (fun i j =>
          match i, j with
          | 0, 0 => a
          | 0, 2 => b
          | 2, 0 => b
          | 1, 1 => d
          | 2, 2 => c
          | _, _ => 0)))
        (Fast.ops_fl fl sq lg V0 (fun i j =>
          match i, j with
          | 0, 0 => a
          | 0, 2 => b
          | 2, 0 => b
          | 1, 1 => d
          | 2, 2 => c
          | _, _ => 0)) 3 2
        { time_limit := ⊤, log_computed_offdiagonals_V := false } (fun _ => 0) = .ok out ∧
        Except.map (fun r => r.solution) out.last = .ok [0, 1] := by
    have hd : ([0, 1, 2] : List Nat).dedup = [0, 1, 2] := by decide
    have f1 : ¬ a < d := not_lt.mpr hda.le
    have f2 : ¬ a < c := not_lt.mpr hca.le
    have f3 : ¬ c < d := not_lt.mpr hdc.le
    have f4 : ¬ a ≤ 0 := not_le.mpr ha
    have f5 : ¬ d ≤ 0 := not_le.mpr hd0
    have f6 : ¬ c ≤ 0 := not_le.mpr hc0
    have f7 : ¬ d < d := lt_irrefl d
    have f8 : max 0 d = d := max_eq_right hd0.le
    have f9 : c ≤ a := hca.le
    have f10 : d ≤ a := hda.le
    have f11 : d ≤ c := hdc.le
    cases hrun : greedy
        (NonLazy.ops (fun l => l.dedup) (Fast.ops_fl fl sq lg V0 (fun i j =>
          match i, j with
          | 0, 0 => a
          | 0, 2 => b
          | 2, 0 => b
          | 1, 1 => d
          | 2, 2 => c
          | _, _ => 0)))
        (Fast.ops_fl fl sq lg V0 (fun i j =>
          match i, j with
          | 0, 0 => a
          | 0, 2 => b
          | 2, 0 => b
          | 1, 1 => d
          | 2, 2 => c
          | _, _ => 0)) 3 2
        { time_limit := ⊤, log_computed_offdiagonals_V := false } (fun _ => 0) with
    | error f =>
      simp [greedy, greedy_loop, NonLazy.ops, NonLazy.construct,
        NonLazy.pop_largest, NonLazy.pop_kth_largest, NonLazy.fill, NonLazy.scan, NonLazy.remove,
        heapMin, ElementValuePair.less, ElementValuePair.greater,
        Fast.ops_fl, Fast.construct, Fast.compute_marginal_gain_exponential_fl,
        Fast.get_last_marginal_gain_exponential, Fast.loop_fl, Fast.step_fl, Fast.quotient_fl,
        Fast.residual_fl, Fast.add_fl, odot_fl, expired, GreedyResult.init, GreedyResult.add,
        List.range, List.range.loop, Function.update, dlog_pos, radd_some, radd_zero_some, hd,
        ha, hd0, hc0, hda, hca, hdc, f1, f2, f3, f4, f5, f6, f7, f8, f9, f10, f11, hfl0, hfld, hflb, hsq,
        hv, hw, hg, isNegInf] at hrun
    | ok out =>
      simp [greedy, greedy_loop, NonLazy.ops, NonLazy.construct,
        NonLazy.pop_largest, NonLazy.pop_kth_largest, NonLazy.fill, NonLazy.scan, NonLazy.remove,
        heapMin, ElementValuePair.less, ElementValuePair.greater,
        Fast.ops_fl, Fast.construct, Fast.compute_marginal_gain_exponential_fl,
        Fast.get_last_marginal_gain_exponential, Fast.loop_fl, Fast.step_fl, Fast.quotient_fl,
        Fast.residual_fl, Fast.add_fl, odot_fl, expired, GreedyResult.init, GreedyResult.add,
        List.range, List.range.loop, Function.update, dlog_pos, radd_some, radd_zero_some, hd,
        ha, hd0, hc0, hda, hca, hdc, f1, f2, f3, f4, f5, f6, f7, f8, f9, f10, f11, hfl0, hfld, hflb, hsq,
        hv, hw, hg, isNegInf] at hrun
      subst hrun
      refine ⟨_, rfl, ?_⟩
      simp [GreedyResult.last, GreedyResult.get, GreedyResult.size, GreedyResult.sol, Except.map]
  -- The kernel `roundKernel` is positive definite.
  have posDefOn_round {α : Type} [LinearOrderedField α] : PosDefOn 3 (roundKernel α) := by
    have hp : (0 : α) < 2 ^ (-51 : Int) := zpow_pos (by norm_num) _
    have h1 : (2 : α) ^ (-51 : Int) < 1 := by
      have := zpow_lt_zpow_right₀ (a := (2 : α)) (by norm_num) (show (-51 : Int) < 0 by norm_num)
      simpa using this
    refine ⟨?_, ?_⟩
    · intro i j hi hj
      interval_cases i <;> interval_cases j <;> simp [roundKernel]
    · intro x hx
      have h0 : x 0 ≠ 0 ∨ x 1 ≠ 0 ∨ x 2 ≠ 0 := by
        by_contra h
        push_neg at h
        apply hx
        funext i
        fin_cases i
        · exact h.1
        · exact h.2.1
        · exact h.2.2
      simp only [quadForm, Fin.sum_univ_three]
      simp only [roundKernel, Fin.val_zero, Fin.val_one, Fin.val_two]
      generalize (2 : α) ^ (-51 : Int) = ε at hp h1
      have key : x 0 * 4 * x 0 + x 0 * 0 * x 1 + x 0 * (2 + ε) * x 2 +
          (x 1 * 0 * x 0 + x 1 * 2 * x 1 + x 1 * 0 * x 2) +
          (x 2 * (2 + ε) * x 0 + x 2 * 0 * x 1 + x 2 * (3 + ε) * x 2)
          = (2 * x 0 + (1 + ε / 2) * x 2) ^ 2 + (2 - ε ^ 2 / 4) * x 2 ^ 2 + 2 * x 1 ^ 2 := by
        ring
      have hc : 0 < 2 - ε ^ 2 / 4 := by nlinarith
      have e0 : 0 ≤ (2 * x 0 + (1 + ε / 2) * x 2) ^ 2 := sq_nonneg _
      have e1 : 0 ≤ (2 - ε ^ 2 / 4) * x 2 ^ 2 := mul_nonneg hc.le (sq_nonneg _)
      have e2 : 0 ≤ 2 * x 1 ^ 2 := mul_nonneg (by norm_num) (sq_nonneg _)
      by_cases h2 : x 2 = 0
      · by_cases h1' : x 1 = 0
        · have h0' : x 0 ≠ 0 := by
            rcases h0 with h | h | h
            · exact h
            · exact absurd h1' h
            · exact absurd h2 h
          have : 0 < (2 * x 0 + (1 + ε / 2) * x 2) ^ 2 := by
            rw [h2, mul_zero, add_zero]
            exact (sq_pos_of_ne_zero (mul_ne_zero (by norm_num) h0'))
          rw [key]
          linarith
        · have : 0 < 2 * x 1 ^ 2 := mul_pos (by norm_num) (sq_pos_of_ne_zero h1')
          rw [key]
          linarith
      · have : 0 < (2 - ε ^ 2 / 4) * x 2 ^ 2 := mul_pos hc (sq_pos_of_ne_zero h2)
        rw [key]
        linarith
  -- The numbers that the fast oracle meets on `roundKernel`: the entries `2`, `4`,
  -- `2 + 2 ^ (-51)` and `3 + 2 ^ (-51)` are doubles; half of `2 + 2 ^ (-51)` is the double
  -- `1 + 2 ^ (-52)`, whose square `1 + 2 ^ (-51) + 2 ^ (-104)` rounds to `1 + 2 ^ (-51)`; and
  -- `3 + 2 ^ (-51)` less the square is `2 - 2 ^ (-104)`, less the rounded square is `2`.
  have round_facts {α : Type} [LinearOrderedField α] [FloorRing α] :
      fl64 (2 : α) = 2 ∧ fl64 (4 : α) = 4 ∧
      fl64 (2 + 2 ^ (-51 : Int) : α) = 2 + 2 ^ (-51 : Int) ∧
      fl64 (3 + 2 ^ (-51 : Int) : α) = 3 + 2 ^ (-51 : Int) ∧
      (2 + 2 ^ (-51 : Int) : α) / 2 = 1 + 2 ^ (-52 : Int) ∧
      fl64 (1 + 2 ^ (-52 : Int) : α) = 1 + 2 ^ (-52 : Int) ∧
      fl64 ((1 + 2 ^ (-52 : Int) : α) * (1 + 2 ^ (-52 : Int))) = 1 + 2 ^ (-51 : Int) ∧
      (3 + 2 ^ (-51 : Int) : α) - (1 + 2 ^ (-51 : Int)) = 2 ∧
      (3 + 2 ^ (-51 : Int) : α) - (2 + 2 ^ (-51 : Int)) / 2 * ((2 + 2 ^ (-51 : Int)) / 2)
        = 2 - 2 ^ (-104 : Int) ∧
      (0 : α) < 2 ^ (-51 : Int) ∧ (2 : α) ^ (-51 : Int) < 1 ∧
      (0 : α) < 2 ^ (-104 : Int) ∧ (2 : α) ^ (-104 : Int) < 1 := by
    have hp := two_zpow_pos (α := α) (-51)
    have hq := two_zpow_pos (α := α) (-104)
    have hr := two_zpow_pos (α := α) (-52)
    have h51 : (2 : α) ^ (-51 : Int) < 1 := by
      have := zpow_lt_zpow_right₀ (a := (2 : α)) (by norm_num) (show (-51 : Int) < 0 by norm_num)
      simpa using this
    have h52 : (2 : α) ^ (-52 : Int) < 1 := by
      have := zpow_lt_zpow_right₀ (a := (2 : α)) (by norm_num) (show (-52 : Int) < 0 by norm_num)
      simpa using this
    have h104 : (2 : α) ^ (-104 : Int) < 2 ^ (-51 : Int) :=
      zpow_lt_zpow_right₀ (by norm_num) (by norm_num)
    have e51 : (2 : α) ^ (-51 : Int) = 2 * 2 ^ (-52 : Int) := by
      rw [show (-51 : Int) = 1 + (-52) by norm_num, zpow_add₀ (by norm_num : (2 : α) ≠ 0)]
      norm_num
    have e104 : (2 : α) ^ (-104 : Int) = 2 ^ (-52 : Int) * 2 ^ (-52 : Int) := by
      rw [← zpow_add₀ (by norm_num : (2 : α) ≠ 0)]
      norm_num
    have f2 : fl64 (2 : α) = 2 := by
      have := fl64_two_zpow (α := α) 1 (by norm_num)
      simpa using this
    have f4 : fl64 (4 : α) = 4 := by
      have := fl64_two_zpow (α := α) 2 (by norm_num)
      norm_num at this
      exact this
    have f2u : fl64 (2 + 2 ^ (-51 : Int) : α) = 2 + 2 ^ (-51 : Int) := by
      rw [fl64_of_nonneg (by linarith)]
      have hb : binade (2 + 2 ^ (-51 : Int) : α) = 1 :=
        binade_eq _ 1 (by norm_num) (by simp only [zpow_one]; linarith) (by norm_num)
      apply flpos_of_int _ 1 (2 ^ 52 + 1) hb
      rw [Int.cast_add, Int.cast_one, two_pow_cast, add_mul, one_mul]
      have : (2 : α) ^ 52 * 2 ^ ((1 : Int) - 52) = 2 := by
        rw [← zpow_natCast, ← zpow_add₀ (by norm_num : (2 : α) ≠ 0)]
        norm_num
      rw [this]
      norm_num
    have f3u : fl64 (3 + 2 ^ (-51 : Int) : α) = 3 + 2 ^ (-51 : Int) := by
      rw [fl64_of_nonneg (by linarith)]
      have hb : binade (3 + 2 ^ (-51 : Int) : α) = 1 :=
        binade_eq _ 1 (by norm_num) (by simp only [zpow_one]; linarith) (by norm_num)
      apply flpos_of_int _ 1 (3 * 2 ^ 51 + 1) hb
      rw [Int.cast_add, Int.cast_one, Int.cast_mul, two_pow_cast, add_mul, one_mul]
      have : (2 : α) ^ 51 * 2 ^ ((1 : Int) - 52) = 1 := by
        rw [← zpow_natCast, ← zpow_add₀ (by norm_num : (2 : α) ≠ 0)]
        norm_num
      rw [mul_assoc, this]
      norm_num
    have fh : (2 + 2 ^ (-51 : Int) : α) / 2 = 1 + 2 ^ (-52 : Int) := by
      rw [e51]
      ring
    have f1u : fl64 (1 + 2 ^ (-52 : Int) : α) = 1 + 2 ^ (-52 : Int) := by
      rw [fl64_of_nonneg (by linarith)]
      have hb : binade (1 + 2 ^ (-52 : Int) : α) = 0 :=
        binade_eq _ 0 (by norm_num) (by simp only [zpow_zero]; linarith) (by norm_num)
      apply flpos_of_int _ 0 (2 ^ 52 + 1) hb
      rw [Int.cast_add, Int.cast_one, two_pow_cast, add_mul, one_mul]
      have : (2 : α) ^ 52 * 2 ^ ((0 : Int) - 52) = 1 := by
        rw [← zpow_natCast, ← zpow_add₀ (by norm_num : (2 : α) ≠ 0)]
        norm_num
      rw [this]
      norm_num
    have fsq : (1 + 2 ^ (-52 : Int) : α) * (1 + 2 ^ (-52 : Int))
        = 1 + 2 ^ (-51 : Int) + 2 ^ (-104 : Int) := by
      rw [e51, e104]
      ring
    have ffsq : fl64 ((1 + 2 ^ (-52 : Int) : α) * (1 + 2 ^ (-52 : Int)))
        = 1 + 2 ^ (-51 : Int) := by
      rw [fsq, fl64_of_nonneg (by linarith)]
      have hb : binade (1 + 2 ^ (-51 : Int) + 2 ^ (-104 : Int) : α) = 0 :=
        binade_eq _ 0 (by norm_num) (by simp only [zpow_zero]; linarith) (by norm_num)
      unfold flpos
      rw [hb]
      have a6 : (((2 : Int)) : α) = 2 := by norm_num
      have e1 : (1 + 2 ^ (-51 : Int) + 2 ^ (-104 : Int) : α) / 2 ^ ((0 : Int) - 52)
          = ((2 ^ 52 + 2 : Int) : α) + 2 ^ (-52 : Int) := by
        rw [div_eq_mul_inv, ← zpow_neg]
        have a1 : (2 : α) ^ (-51 : Int) * 2 ^ (-((0 : Int) - 52)) = 2 := by
          rw [← zpow_add₀ (by norm_num : (2 : α) ≠ 0)]
          norm_num
        have a2 : (2 : α) ^ (-104 : Int) * 2 ^ (-((0 : Int) - 52)) = 2 ^ (-52 : Int) := by
          rw [← zpow_add₀ (by norm_num : (2 : α) ≠ 0)]
          norm_num
        have a3 : (2 : α) ^ (-((0 : Int) - 52)) = 2 ^ 52 := by
          rw [show (-((0 : Int) - 52)) = ((52 : Nat) : Int) by norm_num, zpow_natCast]
        rw [add_mul, add_mul, a1, a2, one_mul, a3, Int.cast_add, two_pow_cast, a6]
      rw [e1, roundEven_absorb (2 ^ 52 + 2) _ hr.le (by
        have : (2 : α) ^ (-52 : Int) ≤ 2 ^ (-2 : Int) := two_zpow_le (by norm_num)
        have h4 : (2 : α) ^ (-2 : Int) = 1 / 4 := by norm_num
        rw [h4] at this
        linarith)]
      have a4 : (2 : α) ^ 52 * 2 ^ ((0 : Int) - 52) = 1 := by
        rw [← zpow_natCast, ← zpow_add₀ (by norm_num : (2 : α) ≠ 0)]
        norm_num
      have a5 : (2 : α) * 2 ^ ((0 : Int) - 52) = 2 ^ (-51 : Int) := by
        have : (2 : α) = 2 ^ (1 : Int) := by norm_num
        nth_rewrite 1 [this]
        rw [← zpow_add₀ (by norm_num : (2 : α) ≠ 0)]
        norm_num
      rw [Int.cast_add, two_pow_cast, add_mul, a4, a6, a5]
    refine ⟨f2, f4, f2u, f3u, fh, f1u, ffsq, by ring, ?_, hp, h51, hq, lt_trans h104 h51⟩
    rw [fh, fsq]
    ring
  obtain ⟨outN, rN, n1, n2, n3⟩ := @tie_nonlazy ℝ _ Real.sqrt Real.log _
  obtain ⟨outL, rL, l1, l2, l3⟩ := @tie_lazy ℝ _ Real.sqrt Real.log _
  obtain ⟨f2, f4, f2u, f3u, fh, f1u, ffsq, fsub, fgain, hp, h51, hq, h104⟩ :=
    round_facts (α := ℝ)
  have hs : Real.sqrt 4 = 2 := by
    rw [show (4 : ℝ) = 2 ^ 2 by norm_num]
    exact Real.sqrt_sq (by norm_num)
  have hs64 : fl64 (Real.sqrt 4) = 2 := by rw [hs, f2]
  have hdbl : ∀ i j, fl64 (roundKernel ℝ i j) = roundKernel ℝ i j := by
    intro i j
    unfold roundKernel
    rcases i with _ | _ | _ | i <;> rcases j with _ | _ | _ | j <;>
      first
        | exact f4
        | exact f2
        | exact f2u
        | exact f3u
        | exact fl64_zero
  have hnt : ∀ t, t < 2 → NoComputedTie
      (NonLazy.ops (fun l => l.dedup)
        (Fast.ops Real.sqrt Real.log (fun _ _ => none) (roundKernel ℝ)))
      (Fast.ops Real.sqrt Real.log (fun _ _ => none) (roundKernel ℝ)) 3 2
      { time_limit := ⊤, log_computed_offdiagonals_V := false } t :=
    arrow_fast_notie Real.sqrt Real.log (fun _ _ => none) 4 (2 + 2 ^ (-51 : Int))
      (3 + 2 ^ (-51 : Int)) 2 2 (2 - 2 ^ (-104 : Int)) (by norm_num) (by norm_num)
      (by linarith) (by norm_num) (by linarith) (by linarith) hs fgain (by linarith)
      (by linarith)
  obtain ⟨outM, m1, m2⟩ := arrow_nonlazy_fl fl64 (fun x => fl64 (Real.sqrt x))
    (fun x => fl64 (Real.log x)) (fun _ _ => none) 4 (2 + 2 ^ (-51 : Int))
    (3 + 2 ^ (-51 : Int)) 2 2 (1 + 2 ^ (-52 : Int)) (1 + 2 ^ (-51 : Int)) (by norm_num)
    (by norm_num) (by linarith) (by norm_num) (by linarith) (by linarith) fl64_zero f2 f2u
    hs64 (by rw [fh]; exact f1u) ffsq (by rw [fsub]; exact f2)
  obtain ⟨outK, k1, k2⟩ := arrow_lazy_fl fl64 (fun x => fl64 (Real.sqrt x))
    (fun x => fl64 (Real.log x)) (fun _ _ => none) 4 (2 + 2 ^ (-51 : Int))
    (3 + 2 ^ (-51 : Int)) 2 2 (1 + 2 ^ (-52 : Int)) (1 + 2 ^ (-51 : Int)) (by norm_num)
    (by norm_num) (by linarith) (by norm_num) (by linarith) (by linarith) f2u
    hs64 (by rw [fh]; exact f1u) ffsq (by rw [fsub]; exact f2)
  have hlast : ∀ (out : GreedyResult ℝ) (l : List Nat),
      Except.map (fun r => r.solution) out.last = .ok l →
      ∃ r, out.last = .ok r ∧ r.solution = l := by
    intro out l h
    cases hr : out.last with
    | error f =>
      rw [hr] at h
      cases h
    | ok r =>
      rw [hr] at h
      simp only [Except.map, Except.ok.injEq] at h
      exact ⟨r, rfl, h⟩
  obtain ⟨rM, m3, m4⟩ := hlast outM _ m2
  obtain ⟨rK, k3, k4⟩ := hlast outK _ k2
  refine ⟨⟨((posDefOn_iff_posDef 3 _).mp posDefOn_tie).posSemidef,
    outN, rN, outL, rL, n1, n2, l1, l2, n3, l3, ?_⟩,
    ((posDefOn_iff_posDef 3 _).mp posDefOn_round).posSemidef, hdbl,
    hnt 0 (by decide), hnt 1 (by decide),
    outM, rM, outK, rK, m1, m3, k1, k3, m4, k4, ?_⟩
  · rw [n3, l3]
    decide
  · rw [m4, k4]
    decide

end DPP
